import Mathlib

/-!
# LEMON parser generator: action-table packing and grammar analysis

A shallow embedding of parts of `src/lemon.cpp` together with theorems about
them.  C `int` values are modelled as unbounded integers (`Int`); heap arrays
are lists whose length is the allocated size, and a read or write outside the
allocation makes the operation fail (`none`).  A failed `assert` or an `exit`
is `none` as well.
-/

namespace Lemon

/-! ## The `acttab` module (`src/lemon.cpp`, lines 355-588) -/

/-- One slot of the `yy_action` table under construction (`struct lookahead_action`). -/
structure lookahead_action where
  lookahead : Int
  action : Int
  deriving DecidableEq, Repr

/-- The value written into freshly allocated slots (lines 491-494). -/
def emptySlot : lookahead_action := ⟨-1, -1⟩

/-- The table under construction (`struct acttab`).  `aAction` is the allocated array,
so its length is the real allocation; `aLookahead` holds the used slots of the
transaction buffer, so `nLookahead` is its length. -/
structure acttab where
  nAction : Int
  nActionAlloc : Int
  aAction : List lookahead_action
  aLookahead : List lookahead_action
  mnLookahead : Int
  mnAction : Int
  mxLookahead : Int
  nterminal : Int
  nsymbol : Int
  deriving DecidableEq, Repr

/-- Number of used slots of the transaction buffer (`p->nLookahead`). -/
def acttab.nLookahead (p : acttab) : Int := (p.aLookahead.length : Int)

/-- Read `a[k]`; outside the allocation the read fails. -/
def rdAt (a : List lookahead_action) (k : Int) : Option lookahead_action :=
  if k < 0 then none else a[k.toNat]?

/-- Write `a[k] = v`; outside the allocation the write fails. -/
def wrAt (a : List lookahead_action) (k : Int) (v : lookahead_action) :
    Option (List lookahead_action) :=
  if k < 0 then none
  else if k.toNat < a.length then some (a.set k.toNat v) else none

/-- `acttab_alloc` (lines 414-424): everything zero except the two symbol counts. -/
def acttab_alloc (nsymbol nterminal : Int) : acttab :=
  { nAction := 0, nActionAlloc := 0, aAction := [], aLookahead := [],
    mnLookahead := 0, mnAction := 0, mxLookahead := 0,
    nterminal := nterminal, nsymbol := nsymbol }

/-- `acttab_action` (lines 431-456): append one `(lookahead, action)` pair to the
transaction set, maintaining the minimum lookahead, its action, and the maximum. -/
def acttab_action (p : acttab) (lookahead action : Int) : acttab :=
  let p1 : acttab :=
    if p.nLookahead = 0 then
      { p with mxLookahead := lookahead, mnLookahead := lookahead, mnAction := action }
    else
      let q : acttab :=
        if p.mxLookahead < lookahead then { p with mxLookahead := lookahead } else p
      if q.mnLookahead > lookahead then
        { q with mnLookahead := lookahead, mnAction := action }
      else q
  { p1 with aLookahead := p1.aLookahead ++ [⟨lookahead, action⟩] }

/-- Lines 481-495 of `acttab_insert`: grow the array when fewer than `nsymbol + 1`
slots would remain free, filling the new slots with `(-1, -1)`. -/
def acttab_grow (p : acttab) : acttab :=
  let n := p.nsymbol + 1
  if p.nAction + n ≥ p.nActionAlloc then
    let oldAlloc := p.nActionAlloc
    let newAlloc := p.nAction + n + p.nActionAlloc + 20
    { p with nActionAlloc := newAlloc,
             aAction := p.aAction ++ List.replicate (newAlloc - oldAlloc).toNat emptySlot }
  else p

/-- Lines 509-515: the loop over the transaction set at candidate position `i`.
The result is `true` when the loop ran to the end (`j == nLookahead`). -/
def matchRow (p : acttab) (i : Int) : List lookahead_action → Option Bool
  | [] => some true
  | e :: es =>
    let k := e.lookahead - p.mnLookahead + i
    if k < 0 ∨ k ≥ p.nAction then some false
    else
      match rdAt p.aAction k with
      | none => none
      | some x =>
        if e.lookahead ≠ x.lookahead then some false
        else if e.action ≠ x.action then some false
        else matchRow p i es

/-- Lines 519-523: count the defined slots `j` whose lookahead would match at the
offset of candidate `i`.  `c` is the number of iterations left, `j` the loop
variable, `n` the running count. -/
def countDiag (p : acttab) (i : Int) : Nat → Int → Int → Option Int
  | 0, _, n => some n
  | c + 1, j, n =>
    match rdAt p.aAction j with
    | none => none
    | some x =>
      if x.lookahead < 0 then countDiag p i c (j + 1) n
      else if x.lookahead = j + p.mnLookahead - i then countDiag p i c (j + 1) (n + 1)
      else countDiag p i c (j + 1) n

/-- Body of the overlap loop (lines 505-527) at position `i`; `true` means the
`break` at line 525 is taken. -/
def overlapAt (p : acttab) (i : Int) : Option Bool :=
  match rdAt p.aAction i with
  | none => none
  | some x =>
    if x.lookahead = p.mnLookahead then
      if x.action ≠ p.mnAction then some false
      else
        match matchRow p i p.aLookahead with
        | none => none
        | some false => some false
        | some true =>
          match countDiag p i p.nAction.toNat 0 0 with
          | none => none
          | some n => some (decide (n = p.nLookahead))
    else some false

/-- The overlap loop `for (i = nAction - 1; i >= end; i--)` (line 504) with `c`
iterations left, the next candidate being `e + c - 1`.  `some (some i)` is a
`break` at `i`; `some none` is a loop that ran out (`i < end`). -/
def overlapSearch (p : acttab) (e : Int) : Nat → Option (Option Int)
  | 0 => some none
  | c + 1 =>
    match overlapAt p (e + c) with
    | none => none
    | some true => some (some (e + c))
    | some false => overlapSearch p e c

/-- Lines 542-547: are all target slots of the transaction free at position `i`? -/
def holeRow (p : acttab) (i : Int) : List lookahead_action → Option Bool
  | [] => some true
  | e :: es =>
    let k := e.lookahead - p.mnLookahead + i
    if k < 0 then some false
    else
      match rdAt p.aAction k with
      | none => none
      | some x => if x.lookahead ≥ 0 then some false else holeRow p i es

/-- Lines 548-550: `true` when the loop over `j < nAction` reaches `nAction`, that is
when no slot `j` has `lookahead == j + mnLookahead - i`. -/
def holeDiag (p : acttab) (i : Int) : Nat → Int → Option Bool
  | 0, _ => some true
  | c + 1, j =>
    match rdAt p.aAction j with
    | none => none
    | some x =>
      if x.lookahead = j + p.mnLookahead - i then some false
      else holeDiag p i c (j + 1)

/-- Body of the hole loop (lines 541-554) at position `i`; `true` means the `break`
at line 552 is taken. -/
def holeAt (p : acttab) (i : Int) : Option Bool :=
  match rdAt p.aAction i with
  | none => none
  | some x =>
    if x.lookahead < 0 then
      match holeRow p i p.aLookahead with
      | none => none
      | some false => some false
      | some true => holeDiag p i p.nAction.toNat 0
    else some false

/-- The hole loop `for (; i < nActionAlloc - mxLookahead; i++)` (line 540) with `c`
iterations left.  The result is the value of `i` when the loop ends, by the `break`
or by the loop condition. -/
def holeSearch (p : acttab) : Nat → Int → Option Int
  | 0, i => some i
  | c + 1, i =>
    match holeAt p i with
    | none => none
    | some true => some i
    | some false => holeSearch p c (i + 1)

/-- Lines 565-569: copy the transaction set to position `i`, moving `nAction` up. -/
def writeRow (p : acttab) (i : Int) : List lookahead_action → Option acttab
  | [] => some p
  | e :: es =>
    let k := e.lookahead - p.mnLookahead + i
    match wrAt p.aAction k e with
    | none => none
    | some a =>
      writeRow { p with aAction := a, nAction := if k ≥ p.nAction then k + 1 else p.nAction } i es

/-- The position `i` chosen by the two searches of `acttab_insert` (lines 503-556),
on the table `p` as it is after the growth step. -/
def choosePos (p : acttab) (makeItSafe : Int) : Option Int :=
  let e := if makeItSafe ≠ 0 then p.mnLookahead else 0
  match overlapSearch p e (p.nAction - e).toNat with
  | none => none
  | some (some i) => some i
  | some none =>
    let i0 := if makeItSafe ≠ 0 then p.mnLookahead else 0
    holeSearch p (p.nActionAlloc - p.mxLookahead - i0).toNat i0

/-- `acttab_insert` (lines 473-576): returns the offset and the new table. -/
def acttab_insert (p : acttab) (makeItSafe : Int) : Option (Int × acttab) :=
  if p.nLookahead > 0 then
    let p1 := acttab_grow p
    match choosePos p1 makeItSafe with
    | none => none
    | some i =>
      match writeRow p1 i p1.aLookahead with
      | none => none
      | some p2 =>
        let p3 : acttab :=
          if makeItSafe ≠ 0 ∧ i + p2.nterminal ≥ p2.nAction then
            { p2 with nAction := i + p2.nterminal + 1 }
          else p2
        some (i - p3.mnLookahead, { p3 with aLookahead := [] })
  else none

/-- Enter a whole row with `acttab_action`, one call per entry, in order. -/
def enterRow (p : acttab) (row : List lookahead_action) : acttab :=
  row.foldl (fun q e => acttab_action q e.lookahead e.action) p

/-- Enter a row and insert it: the pair of steps `ReportTable` performs for each row
(lines 4489-4510). -/
def insertRow (p : acttab) (row : List lookahead_action) (makeItSafe : Int) :
    Option (Int × acttab) :=
  acttab_insert (enterRow p row) makeItSafe

/-- Rows that `acttab_insert` is specified for: non-empty, pairwise distinct lookaheads,
all within `[0, nsymbol]`. -/
def ValidRow (nsymbol : Int) (row : List lookahead_action) : Prop :=
  row ≠ [] ∧ (row.map (fun e => e.lookahead)).Nodup ∧
    ∀ e ∈ row, 0 ≤ e.lookahead ∧ e.lookahead ≤ nsymbol

instance (nsymbol : Int) (row : List lookahead_action) : Decidable (ValidRow nsymbol row) := by
  unfold ValidRow; infer_instance

/-- Rows as `ReportTable` enters them: non-empty, every lookahead a symbol code in
`[0, nsymbol]`.  A lookahead may occur more than once. -/
def BoundedRow (nsymbol : Int) (row : List lookahead_action) : Prop :=
  row ≠ [] ∧ ∀ e ∈ row, 0 ≤ e.lookahead ∧ e.lookahead ≤ nsymbol

instance (nsymbol : Int) (row : List lookahead_action) : Decidable (BoundedRow nsymbol row) := by
  unfold BoundedRow; infer_instance

/-- The entry `e` is in `row` and no later entry of `row` has its lookahead. -/
def LastOf (row : List lookahead_action) (e : lookahead_action) : Prop :=
  ∃ pre post, row = pre ++ e :: post ∧ ∀ x ∈ post, x.lookahead ≠ e.lookahead

/-- Facts about the table that hold between two rows. -/
structure TabInv (p : acttab) : Prop where
  len : (p.aAction.length : Int) = p.nActionAlloc
  nonneg : 0 ≤ p.nAction
  low : ∀ k x, rdAt p.aAction k = some x → -1 ≤ x.lookahead
  free : ∀ k x, rdAt p.aAction k = some x → p.nAction ≤ k → x.lookahead < 0

/-- What the transaction fields look like once the row `row` has been entered. -/
structure Entered (p : acttab) (row : List lookahead_action) : Prop where
  buf : p.aLookahead = row
  mn_le : ∀ e ∈ row, p.mnLookahead ≤ e.lookahead
  le_mx : ∀ e ∈ row, e.lookahead ≤ p.mxLookahead
  mn_mem : ∃ e ∈ row, e.lookahead = p.mnLookahead ∧ e.action = p.mnAction
  mx_mem : ∃ e ∈ row, e.lookahead = p.mxLookahead

/-- The fields `acttab_action` leaves alone. -/
def SameTable (p q : acttab) : Prop :=
  q.nAction = p.nAction ∧ q.nActionAlloc = p.nActionAlloc ∧ q.aAction = p.aAction ∧
    q.nterminal = p.nterminal ∧ q.nsymbol = p.nsymbol

/-- The slot the entry `e` goes to when the row is placed at position `i`. -/
def slotOf (p : acttab) (i : Int) (e : lookahead_action) : Int :=
  e.lookahead - p.mnLookahead + i

/-- Slot `k` is allocated and free. -/
def FreeAt (p : acttab) (k : Int) : Prop :=
  ∃ x, rdAt p.aAction k = some x ∧ x.lookahead < 0

/-- Every target slot of the transaction set is free at position `i`. -/
def RowFree (p : acttab) (i : Int) : Prop :=
  ∀ e ∈ p.aLookahead, FreeAt p (slotOf p i e)

/-- No slot below `nAction` holds the lookahead that the offset of position `i` maps to it. -/
def DiagClear (p : acttab) (i : Int) : Prop :=
  ∀ j x, j < p.nAction → rdAt p.aAction j = some x → x.lookahead ≠ j + p.mnLookahead - i

/-- The table after the growth step, with the row `row` in the transaction buffer. -/
structure Ready (p : acttab) (row : List lookahead_action) : Prop where
  inv : TabInv p
  room : p.nAction + p.nsymbol + 1 < p.nActionAlloc
  ent : Entered p row
  valid : BoundedRow p.nsymbol row

/-- The transaction set is already in the table at position `i`, below `nAction`. -/
def RowPresent (p : acttab) (i : Int) : Prop :=
  ∀ e ∈ p.aLookahead, 0 ≤ slotOf p i e ∧ slotOf p i e < p.nAction ∧
    rdAt p.aAction (slotOf p i e) = some e

/-- Everything the proofs below need to know about one `insertRow p0 row s`: it returns
`(off, q)`, the row was placed at position `i`, and the table keeps its invariant. -/
structure InsertOK (p0 : acttab) (row : List lookahead_action) (s : Int) (i off : Int)
    (q : acttab) : Prop where
  pos : choosePos (acttab_grow (enterRow p0 row)) s = some i
  ret : insertRow p0 row s = some (off, q)
  off_eq : off = i - (enterRow p0 row).mnLookahead
  mn_eq : q.mnLookahead = (enterRow p0 row).mnLookahead
  inv : TabInv q
  buf : q.aLookahead = []
  nsym : q.nsymbol = p0.nsymbol
  nterm : q.nterminal = p0.nterminal
  pos_nonneg : 0 ≤ i
  mn_nonneg : 0 ≤ (enterRow p0 row).mnLookahead
  mn_le : ∀ e ∈ row, (enterRow p0 row).mnLookahead ≤ e.lookahead
  safe_pos : s ≠ 0 → (enterRow p0 row).mnLookahead ≤ i
  placed : ∀ e, LastOf row e → rdAt q.aAction (off + e.lookahead) = some e
  frame : ∀ k x, rdAt p0.aAction k = some x → 0 ≤ x.lookahead → rdAt q.aAction k = some x
  pad : s ≠ 0 → i + p0.nterminal + 1 ≤ q.nAction
  grow : p0.nAction ≤ q.nAction

/-- Tables reachable from `acttab_alloc nsymbol nterminal` by entering and inserting
complete rows, each a valid row, with any `makeItSafe`. -/
inductive Reach (nsymbol nterminal : Int) : acttab → Prop
  | alloc : Reach nsymbol nterminal (acttab_alloc nsymbol nterminal)
  | insert {p q : acttab} {row : List lookahead_action} {s off : Int} :
      Reach nsymbol nterminal p → ValidRow nsymbol row →
      insertRow p row s = some (off, q) → Reach nsymbol nterminal q

/-- Tables reachable from `acttab_alloc nsymbol nterminal` by entering and inserting
complete rows, each non-empty with lookaheads in `[0, nsymbol]` (repeats allowed), with
any `makeItSafe`. -/
inductive Built (nsymbol nterminal : Int) : acttab → Prop
  | alloc : Built nsymbol nterminal (acttab_alloc nsymbol nterminal)
  | insert {p q : acttab} {row : List lookahead_action} {s off : Int} :
      Built nsymbol nterminal p → BoundedRow nsymbol row →
      insertRow p row s = some (off, q) → Built nsymbol nterminal q

/-- Insert a sequence of rows, each with its own `makeItSafe`, collecting the offsets. -/
def runRows (p : acttab) : List (List lookahead_action × Int) → Option (List Int × acttab)
  | [] => some ([], p)
  | (row, s) :: rest =>
    match insertRow p row s with
    | none => none
    | some (off, q) =>
      match runRows q rest with
      | none => none
      | some (offs, r) => some (off :: offs, r)

/-- A run of ten rows over 10 symbols, one of them a terminal: terminal rows are inserted
with `makeItSafe = 1`, nonterminal rows with `makeItSafe = 0`, as `ReportTable` does. -/
def phantomRows : List (List lookahead_action × Int) :=
  [([⟨5, 1⟩, ⟨6, 1⟩, ⟨3, 1⟩], 0), ([⟨0, 1⟩], 1), ([⟨2, 1⟩, ⟨3, 1⟩, ⟨4, 0⟩], 0), ([⟨8, 1⟩], 0),
   ([⟨1, 1⟩, ⟨7, 0⟩, ⟨5, 1⟩], 0), ([⟨9, 0⟩], 0), ([⟨0, 0⟩], 1), ([⟨2, 1⟩, ⟨1, 1⟩], 0),
   ([⟨1, 1⟩], 0), ([⟨5, 1⟩, ⟨6, 1⟩, ⟨9, 0⟩], 0)]

/-! ## Grammar data (`struct symbol`, `struct rule` of `lemon.h`, as used by `src/lemon.cpp`)

The header is not part of the sources; the records below carry the fields that the
embedded functions read or write.  A `symbol*` is the position of the symbol in the
symbol table `lemp.symbols`, a null pointer is `none`. -/

/-- The three kinds of symbol (`enum class symbol_type`). -/
inductive symbol_type where
  | TERMINAL
  | NONTERMINAL
  | MULTITERMINAL
  deriving DecidableEq, Repr

/-- Associativity of a terminal (`enum class e_assoc`). -/
inductive e_assoc where
  | LEFT
  | RIGHT
  | NONE
  | UNK
  deriving DecidableEq, Repr

/-- A grammar symbol.  `firstset` is the `char` array of `SetNew`, `none` while it is
the null pointer; `subsym` holds the `nsubsym` sub-symbols of a multiterminal; `name`
is the interned name; `rule` is the chain of the rules with this left-hand side, linked
by `nextlhs`. -/
structure symbol where
  name : String := ""
  index : Int := 0
  type : symbol_type := symbol_type.TERMINAL
  prec : Int := -1
  assoc : e_assoc := e_assoc.UNK
  firstset : Option (List Bool) := none
  lambda : Bool := false
  subsym : List Nat := []
  rule : List Nat := []
  deriving DecidableEq, Repr

/-- A production.  `rhs` holds the `nrhs` right-hand-side symbols, `code` is the action
code (`none` for the null pointer), `iRule` the number that `main` assigns; `noCode` is
true from the creation of the rule until code is attached. -/
structure rule where
  lhs : Nat
  rhs : List Nat := []
  precsym : Option Nat := none
  index : Int := 0
  code : Option String := none
  iRule : Int := 0
  lhsStart : Int := 0
  noCode : Bool := true
  canReduce : Bool := false
  deriving DecidableEq, Repr

/-- The part of `struct lemon` read by the analysis: the symbol table, the rule list in
list order (`rp->next`), the two symbol counts, the numbers of states and rules, the
action-code constants that `ReportTable` sets, the wildcard, error and start symbols, the
array `sorted` of state pointers, and the two counters. -/
structure lemon where
  symbols : List symbol
  rule : List rule
  nsymbol : Nat
  nterminal : Nat
  nstate : Int := 0
  nxstate : Int := 0
  nrule : Int := 0
  minShiftReduce : Int := 0
  errAction : Int := 0
  accAction : Int := 0
  noAction : Int := 0
  minReduce : Int := 0
  maxAction : Int := 0
  wildcard : Option Nat := none
  errsym : Option Nat := none
  start : Option String := none
  startRule : Option Nat := none
  sorted : List Nat := []
  nconflict : Int := 0
  errorcnt : Int := 0
  deriving DecidableEq, Repr

/-! ## The set module (`src/lemon.cpp`, lines 5138-5186)

`size` is the module's static variable, passed explicitly. -/

/-- `SetNew` (lines 5146-5153): `size` bytes, all zero. -/
def SetNew (size : Nat) : List Bool := List.replicate size false

/-- `SetAdd` (lines 5163-5170): the `assert` on `e`, then set byte `e`; returns `!rv`
and the new set. -/
def SetAdd (size : Nat) (s : List Bool) (e : Int) : Option (Int × List Bool) :=
  if 0 ≤ e ∧ e < (size : Int) then
    match s[e.toNat]? with
    | none => none
    | some rv => some (if rv then 0 else 1, s.set e.toNat true)
  else none

/-- The loop of `SetUnion` (lines 5177-5183) with `c` iterations left at index `i`. -/
def SetUnion_loop (s2 : List Bool) : Nat → Nat → Int → List Bool → Option (Int × List Bool)
  | 0, _, progress, s1 => some (progress, s1)
  | c + 1, i, progress, s1 =>
    match s2[i]? with
    | none => none
    | some false => SetUnion_loop s2 c (i + 1) progress s1
    | some true =>
      match s1[i]? with
      | none => none
      | some false => SetUnion_loop s2 c (i + 1) 1 (s1.set i true)
      | some true => SetUnion_loop s2 c (i + 1) progress s1

/-- `SetUnion` (lines 5173-5185): add every element of `s2` to `s1`; returns the
progress flag and the new `s1`. -/
def SetUnion (size : Nat) (s1 s2 : List Bool) : Option (Int × List Bool) :=
  SetUnion_loop s2 size 0 0 s1

/-! ## `FindFirstSets` (`src/lemon.cpp`, lines 636-695) -/

/-- Lines 642-644: `lambda = LEMON_FALSE` for the symbols `i, i+1, ..., i+c-1`. -/
def resetLambda : Nat → Nat → List symbol → Option (List symbol)
  | 0, _, syms => some syms
  | c + 1, i, syms =>
    match syms[i]? with
    | none => none
    | some s => resetLambda c (i + 1) (syms.set i { s with lambda := false })

/-- Lines 645-647: a fresh first set for the symbols `i, i+1, ..., i+c-1`. -/
def newFirstSets (size : Nat) : Nat → Nat → List symbol → Option (List symbol)
  | 0, _, syms => some syms
  | c + 1, i, syms =>
    match syms[i]? with
    | none => none
    | some s => newFirstSets size c (i + 1) (syms.set i { s with firstset := some (SetNew size) })

/-- Lines 654-658: walk the right-hand side; `true` when the loop reaches `nrhs`.
The `assert` of line 656 fails as `none`. -/
def allLambda (syms : List symbol) : List Nat → Option Bool
  | [] => some true
  | p :: rest =>
    match syms[p]? with
    | none => none
    | some sp =>
      if sp.type = symbol_type.NONTERMINAL ∨ sp.lambda = false then
        if sp.lambda = false then some false else allLambda syms rest
      else none

/-- Lines 653-662: the body of the nullable pass for one rule. -/
def lambdaRule (st : List symbol × Int) (rp : rule) : Option (List symbol × Int) :=
  match st.1[rp.lhs]? with
  | none => none
  | some l =>
    if l.lambda = true then some st
    else
      match allLambda st.1 rp.rhs with
      | none => none
      | some false => some st
      | some true => some (st.1.set rp.lhs { l with lambda := true }, 1)

/-- Line 652: one pass of the nullable loop over the rule list. -/
def lambdaPass : List rule → List symbol × Int → Option (List symbol × Int)
  | [], st => some st
  | rp :: rest, st =>
    match lambdaRule st rp with
    | none => none
    | some st1 => lambdaPass rest st1

/-- Lines 650-664: the `do ... while (progress)` loop; `none` when `fuel` passes do not
reach a pass without progress. -/
def lambdaLoop (rules : List rule) : Nat → List symbol → Option (List symbol)
  | 0, _ => none
  | fuel + 1, syms =>
    match lambdaPass rules (syms, 0) with
    | none => none
    | some (syms1, progress) =>
      if progress ≠ 0 then lambdaLoop rules fuel syms1 else some syms1

/-- The call `SetAdd(s1->firstset, e)` for the symbol `s1` at position `lhs`: returns the
result of `SetAdd` and the symbol table with the enlarged set. -/
def addFirst (size : Nat) (syms : List symbol) (lhs : Nat) (e : Int) :
    Option (Int × List symbol) :=
  match syms[lhs]? with
  | none => none
  | some s1 =>
    match s1.firstset with
    | none => none
    | some f1 =>
      match SetAdd size f1 e with
      | none => none
      | some (c, f2) => some (c, syms.set lhs { s1 with firstset := some f2 })

/-- The call `SetUnion(s1->firstset, s2->firstset)` for the symbols at positions `lhs`
and `p2`. -/
def unionFirst (size : Nat) (syms : List symbol) (lhs p2 : Nat) :
    Option (Int × List symbol) :=
  match syms[lhs]?, syms[p2]? with
  | some s1, some s2 =>
    match s1.firstset, s2.firstset with
    | some f1, some f2 =>
      match SetUnion size f1 f2 with
      | none => none
      | some (c, f3) => some (c, syms.set lhs { s1 with firstset := some f3 })
    | _, _ => none
  | _, _ => none

/-- Lines 679-681: `progress += SetAdd(s1->firstset, s2->subsym[j]->index)` for every
sub-symbol. -/
def addSubsyms (size : Nat) (lhs : Nat) :
    List Nat → List symbol × Int → Option (List symbol × Int)
  | [], st => some st
  | q :: rest, (syms, progress) =>
    match syms[q]? with
    | none => none
    | some sub =>
      match addFirst size syms lhs sub.index with
      | none => none
      | some (c, syms1) => addSubsyms size lhs rest (syms1, progress + c)

/-- Lines 672-691: the scan of the right-hand side of one rule with left-hand side `lhs`. -/
def firstScan (size : Nat) (lhs : Nat) :
    List Nat → List symbol × Int → Option (List symbol × Int)
  | [], st => some st
  | p2 :: rest, (syms, progress) =>
    match syms[p2]? with
    | none => none
    | some s2 =>
      if s2.type = symbol_type.TERMINAL then
        match addFirst size syms lhs s2.index with
        | none => none
        | some (c, syms1) => some (syms1, progress + c)
      else if s2.type = symbol_type.MULTITERMINAL then
        addSubsyms size lhs s2.subsym (syms, progress)
      else if lhs = p2 then
        if s2.lambda = false then some (syms, progress)
        else firstScan size lhs rest (syms, progress)
      else
        match unionFirst size syms lhs p2 with
        | none => none
        | some (c, syms1) =>
          if s2.lambda = false then some (syms1, progress + c)
          else firstScan size lhs rest (syms1, progress + c)

/-- Line 670: one pass of the first-set loop over the rule list. -/
def firstPass (size : Nat) : List rule → List symbol × Int → Option (List symbol × Int)
  | [], st => some st
  | rp :: rest, st =>
    match firstScan size rp.lhs rp.rhs st with
    | none => none
    | some st1 => firstPass size rest st1

/-- Lines 667-693: the `do ... while (progress)` loop of the first sets. -/
def firstLoop (size : Nat) (rules : List rule) : Nat → List symbol → Option (List symbol)
  | 0, _ => none
  | fuel + 1, syms =>
    match firstPass size rules (syms, 0) with
    | none => none
    | some (syms1, progress) =>
      if progress ≠ 0 then firstLoop size rules fuel syms1 else some syms1

/-- `FindFirstSets` (lines 636-695).  `size` is the static `size` of the set module,
`fuel` bounds the number of passes of each of the two loops. -/
def FindFirstSets (size : Nat) (fuel : Nat) (lemp : lemon) : Option lemon :=
  match resetLambda lemp.nsymbol 0 lemp.symbols with
  | none => none
  | some syms0 =>
    match newFirstSets size (lemp.nsymbol - lemp.nterminal) lemp.nterminal syms0 with
    | none => none
    | some syms1 =>
      match lambdaLoop lemp.rule fuel syms1 with
      | none => none
      | some syms2 =>
        match firstLoop size lemp.rule fuel syms2 with
        | none => none
        | some syms3 => some { lemp with symbols := syms3 }

/-! ## Derivations -/

/-- One derivation step: one occurrence of a left-hand side is replaced by the
right-hand side of one of its rules. -/
inductive Step (rules : List rule) : List Nat → List Nat → Prop
  | rewrite (u v : List Nat) (r : rule) :
      r ∈ rules → Step rules (u ++ r.lhs :: v) (u ++ r.rhs ++ v)

/-- Derivation in any number of steps. -/
def Derives (rules : List rule) : List Nat → List Nat → Prop :=
  Relation.ReflTransGen (Step rules)

/-- A symbol that is the left-hand side of a rule all of whose right-hand-side symbols
are nullable, well-foundedly down to an empty right-hand side. -/
inductive Nullable (rules : List rule) : Nat → Prop
  | intro (r : rule) : r ∈ rules → (∀ x ∈ r.rhs, Nullable rules x) → Nullable rules r.lhs

/-- The `lambda` flag of the symbol at position `p` (`false` for a dangling pointer). -/
def isLambda (syms : List symbol) (p : Nat) : Bool :=
  match syms[p]? with
  | some s => s.lambda
  | none => false

/-- `SetFind(sp->firstset, t)` for the symbol at position `p`; `false` when the symbol
has no first set. -/
def firstBit (syms : List symbol) (p t : Nat) : Bool :=
  match syms[p]? with
  | some s =>
    match s.firstset with
    | some f => f.getD t false
    | none => false
  | none => false

/-- The `type` of the symbol at position `p`. -/
def symType (syms : List symbol) (p : Nat) : Option symbol_type :=
  (syms[p]?).map (fun s => s.type)

/-- A symbol without the two fields `FindFirstSets` writes. -/
def core (s : symbol) : symbol := { s with firstset := none, lambda := false }

/-- A symbol without its first set. -/
def eraseFirst (s : symbol) : symbol := { s with firstset := none }

/-- The rule `rp` is closed under the nullable flags of `syms`. -/
def RuleClosed (syms : List symbol) (rp : rule) : Prop :=
  (∀ x ∈ rp.rhs, isLambda syms x = true) → isLambda syms rp.lhs = true

/-- Terminal `t` (an index) can begin a sentential form derived from `A`: some terminal
symbol `s` with `index = t` is the first symbol of the form, or is a sub-symbol of the
multiterminal that is the first symbol of the form. -/
def BeginsWith (rules : List rule) (cs : List symbol) (A : Nat) (t : Nat) : Prop :=
  ∃ (s : Nat) (ss : symbol) (w : List Nat), cs[s]? = some ss ∧ ss.index = (t : Int) ∧
    ss.type = symbol_type.TERMINAL ∧
    (Derives rules [A] (s :: w) ∨
      ∃ (X : Nat) (sx : symbol), cs[X]? = some sx ∧ sx.type = symbol_type.MULTITERMINAL ∧
        s ∈ sx.subsym ∧ Derives rules [A] (X :: w))

/-- Every sub-symbol of a multiterminal is a terminal. -/
def MultiOK (cs : List symbol) : Prop :=
  ∀ sx ∈ cs, sx.type = symbol_type.MULTITERMINAL →
    ∀ q ∈ sx.subsym, symType cs q = some symbol_type.TERMINAL

instance (cs : List symbol) : Decidable (MultiOK cs) := by
  unfold MultiOK; infer_instance

/-- The invariant of the first-set loop: the static part of the symbol table is `cs`,
nullable flags are justified by derivations of the empty string, and every bit of every
first set is justified by a derivation. -/
structure FirstInv (rules : List rule) (cs syms : List symbol) : Prop where
  shape : syms.map core = cs
  lam : ∀ p, isLambda syms p = true → Derives rules [p] []
  sound : ∀ A t, firstBit syms A t = true → BeginsWith rules cs A t

/-- A symbol without its nullable flag. -/
def eraseLam (s : symbol) : symbol := { s with lambda := false }

/-- The invariant of the nullable loop: the static part of the symbol table is `cs`, and
every symbol marked nullable is nullable by the rules. -/
structure LamInv (rules : List rule) (cs syms : List symbol) : Prop where
  shape : syms.map core = cs
  just : ∀ p, isLambda syms p = true → Nullable rules p

/-- On entry the symbols that `FindFirstSets` does not reset (positions from `nsymbol` on:
`{default}` and the multiterminals) have `lambda` false, as `Symbol_new` left it. -/
def FreshLambda (lemp : lemon) : Prop :=
  ∀ s ∈ lemp.symbols.drop lemp.nsymbol, s.lambda = false

instance (lemp : lemon) : Decidable (FreshLambda lemp) := by
  unfold FreshLambda; infer_instance

/-- On entry the symbols that get no first set from `FindFirstSets` (positions below
`nterminal` and from `nsymbol` on) have the null `firstset` of `Symbol_new`. -/
def FreshFirst (lemp : lemon) : Prop :=
  ∀ s ∈ lemp.symbols.take lemp.nterminal ++ lemp.symbols.drop lemp.nsymbol, s.firstset = none

instance (lemp : lemon) : Decidable (FreshFirst lemp) := by
  unfold FreshFirst; infer_instance

/-- The left-hand side of every rule is a symbol of type `NONTERMINAL`. -/
def LhsNonterminal (lemp : lemon) : Prop :=
  ∀ rp ∈ lemp.rule, symType lemp.symbols rp.lhs = some symbol_type.NONTERMINAL

instance (lemp : lemon) : Decidable (LhsNonterminal lemp) := by
  unfold LhsNonterminal; infer_instance

/-- The grammar `A -> a A b | (empty) ; B -> b` with symbols `$`, `a`, `b` (terminals
0-2), `A`, `B` (nonterminals 3-4) and `{default}` (position 5). -/
def grammarAB : lemon :=
  { symbols := [{ index := 0 }, { index := 1 }, { index := 2 },
      { index := 3, type := symbol_type.NONTERMINAL },
      { index := 4, type := symbol_type.NONTERMINAL },
      { index := 5, type := symbol_type.NONTERMINAL }],
    rule := [{ lhs := 3, rhs := [1, 3, 2] }, { lhs := 3 }, { lhs := 4, rhs := [2], index := 2 }],
    nsymbol := 5, nterminal := 3 }

/-- What `FindFirstSets` computes for `grammarAB` with set size 5: `A` is nullable with
first set `{a}`, `B` is not nullable and has first set `{b}`. -/
def grammarAB_first : lemon :=
  { grammarAB with
    symbols := [{ index := 0 }, { index := 1 }, { index := 2 },
      { index := 3, type := symbol_type.NONTERMINAL, lambda := true,
        firstset := some [false, true, false, false, false] },
      { index := 4, type := symbol_type.NONTERMINAL,
        firstset := some [false, false, true, false, false] },
      { index := 5, type := symbol_type.NONTERMINAL }] }

/-! ## Parser actions (`struct action` of `lemon.h`; `src/lemon.cpp`, lines 268-347)

An action holds pointers to a symbol, and to a state or a rule; these always point into
the symbol table and the rule table, so `symAt` and `ruleAt` read the tables and give a
default record for a position outside them. -/

/-- The tags of an action (`enum class e_action`). -/
inductive e_action where
  | SHIFT
  | ACCEPT
  | REDUCE
  | ERROR
  | SSCONFLICT
  | SRCONFLICT
  | RRCONFLICT
  | SH_RESOLVED
  | RD_RESOLVED
  | NOT_USED
  | SHIFTREDUCE
  deriving DecidableEq, Repr

/-- A parser action.  `x` is the union `x.stp` / `x.rp`: the target state of a SHIFT, the
rule of a REDUCE or SHIFTREDUCE.  `addr` is the address of the record, in units of
`sizeof(action)`, which `actioncmp` uses as its last key. -/
structure action where
  sp : Nat
  type : e_action
  x : Nat := 0
  spOpt : Option Nat := none
  addr : Int := 0
  deriving DecidableEq, Repr

/-- The symbol a `symbol*` points to. -/
def symAt (syms : List symbol) (p : Nat) : symbol := syms.getD p {}

/-- The rule a `rule*` points to. -/
def ruleAt (rules : List rule) (p : Nat) : rule := rules.getD p { lhs := 0 }

/-- `actioncmp` (lines 300-316).  `code` is the integer value of each tag, which the
missing header fixes. -/
def actioncmp (syms : List symbol) (rules : List rule) (code : e_action → Int)
    (ap1 ap2 : action) : Int :=
  let rc := (symAt syms ap1.sp).index - (symAt syms ap2.sp).index
  let rc := if rc = 0 then code ap1.type - code ap2.type else rc
  let rc :=
    if rc = 0 ∧ (ap1.type = e_action.REDUCE ∨ ap1.type = e_action.SHIFTREDUCE) then
      (ruleAt rules ap1.x).index - (ruleAt rules ap2.x).index
    else rc
  let rc := if rc = 0 then ap2.addr - ap1.addr else rc
  rc

/-- The loop of `merge` (lines 1682-1722) with `n` iterations left: the lists `a` and
`b` are consumed from the front, the smaller head first, `a` on a tie. -/
def mergeLoop {α : Type} (cmp : α → α → Int) : Nat → List α → List α → List α
  | 0, a, b => a ++ b
  | _ + 1, [], b => b
  | _ + 1, a, [] => a
  | n + 1, x :: a, y :: b =>
    if cmp x y ≤ 0 then x :: mergeLoop cmp n a (y :: b)
    else y :: mergeLoop cmp n (x :: a) b

/-- `merge` (lines 1682-1722) on lists; the empty list is the null pointer. -/
def merge {α : Type} (cmp : α → α → Int) (a b : List α) : List α :=
  mergeLoop cmp (a.length + b.length) a b

/-- The inner loop of `msort` (lines 1753-1757): `ep` is merged with the buckets
`set[i], set[i+1], ...` while they are occupied and `i < LISTSIZE - 1`, and stored in
the first bucket that stops the loop.  `n` is `LISTSIZE - 1 - i`, the list is
`set[i ..]`. -/
def msortCarry {α : Type} (cmp : α → α → Int) (ep : List α) :
    Nat → List (List α) → List (List α)
  | _, [] => []
  | 0, _ :: rest => ep :: rest
  | _ + 1, [] :: rest => ep :: rest
  | n + 1, (y :: s) :: rest => [] :: msortCarry cmp (merge cmp ep (y :: s)) n rest

/-- The outer loop of `msort` (lines 1749-1758): every element is carried into the
buckets. -/
def msortFill {α : Type} (cmp : α → α → Int) : List α → List (List α) → List (List α)
  | [], set => set
  | e :: list, set => msortFill cmp list (msortCarry cmp [e] 29 set)

/-- `msort` (lines 1738-1762) with `LISTSIZE = 30` buckets. -/
def msort {α : Type} (cmp : α → α → Int) (list : List α) : List α :=
  (msortFill cmp list (List.replicate 30 [])).foldl
    (fun ep s => match s with
      | [] => ep
      | y :: t => merge cmp (y :: t) ep) []

/-- `Action_sort` (lines 319-325). -/
def Action_sort (syms : List symbol) (rules : List rule) (code : e_action → Int)
    (ap : List action) : List action :=
  msort (actioncmp syms rules code) ap

/-- Lines 1038-1041 of `resolve_conflict`: the Shift/Shift case.  Returns `apy` and the
error count after the first `if`. -/
def resolveShiftShift (apx apy : action) : action × Int :=
  if apx.type = e_action.SHIFT ∧ apy.type = e_action.SHIFT then
    ({ apy with type := e_action.SSCONFLICT }, 1)
  else (apy, 0)

/-- Lines 1042-1099 of `resolve_conflict`: the chain Shift/Reduce, Reduce/Reduce,
otherwise the `assert`.  A failed `assert` is `none`. -/
def resolveRest (syms : List symbol) (rules : List rule) (apx apy : action) (errcnt : Int) :
    Option (action × action × Int) :=
  if apx.type = e_action.SHIFT ∧ apy.type = e_action.REDUCE then
    let spx := symAt syms apx.sp
    match (ruleAt rules apy.x).precsym with
    | none => some (apx, { apy with type := e_action.SRCONFLICT }, errcnt + 1)
    | some py =>
      let spy := symAt syms py
      if spx.prec < 0 ∨ spy.prec < 0 then
        some (apx, { apy with type := e_action.SRCONFLICT }, errcnt + 1)
      else if spx.prec > spy.prec then
        some (apx, { apy with type := e_action.RD_RESOLVED }, errcnt)
      else if spx.prec < spy.prec then
        some ({ apx with type := e_action.SH_RESOLVED }, apy, errcnt)
      else if spx.prec = spy.prec ∧ spx.assoc = e_assoc.RIGHT then
        some (apx, { apy with type := e_action.RD_RESOLVED }, errcnt)
      else if spx.prec = spy.prec ∧ spx.assoc = e_assoc.LEFT then
        some ({ apx with type := e_action.SH_RESOLVED }, apy, errcnt)
      else if spx.prec = spy.prec ∧ spx.assoc = e_assoc.NONE then
        some ({ apx with type := e_action.ERROR }, apy, errcnt)
      else none
  else if apx.type = e_action.REDUCE ∧ apy.type = e_action.REDUCE then
    match (ruleAt rules apx.x).precsym, (ruleAt rules apy.x).precsym with
    | some px, some py =>
      let spx := symAt syms px
      let spy := symAt syms py
      if spx.prec < 0 ∨ spy.prec < 0 ∨ spx.prec = spy.prec then
        some (apx, { apy with type := e_action.RRCONFLICT }, errcnt + 1)
      else if spx.prec > spy.prec then
        some (apx, { apy with type := e_action.RD_RESOLVED }, errcnt)
      else if spx.prec < spy.prec then
        some ({ apx with type := e_action.RD_RESOLVED }, apy, errcnt)
      else some (apx, apy, errcnt)
    | _, _ => some (apx, { apy with type := e_action.RRCONFLICT }, errcnt + 1)
  else if
      apx.type = e_action.SH_RESOLVED ∨ apx.type = e_action.RD_RESOLVED ∨
      apx.type = e_action.SSCONFLICT ∨ apx.type = e_action.SRCONFLICT ∨
      apx.type = e_action.RRCONFLICT ∨
      apy.type = e_action.SH_RESOLVED ∨ apy.type = e_action.RD_RESOLVED ∨
      apy.type = e_action.SSCONFLICT ∨ apy.type = e_action.SRCONFLICT ∨
      apy.type = e_action.RRCONFLICT then
    some (apx, apy, errcnt)
  else none

/-- `resolve_conflict` (lines 1031-1100): the two actions after the call and the
returned error count.  The `assert` of line 1037 comes first. -/
def resolve_conflict (syms : List symbol) (rules : List rule) (apx apy : action) :
    Option (action × action × Int) :=
  if apx.sp = apy.sp then
    resolveRest syms rules apx (resolveShiftShift apx apy).1 (resolveShiftShift apx apy).2
  else none

/-- The inner loop of `FindActions` (lines 995-999) for the action `ap`: it walks the
actions after `ap` while they have the lookahead of `ap`.  Returns `ap`, the rest of the
list and the number of conflicts, after the calls of `resolve_conflict`. -/
def resolveWith (syms : List symbol) (rules : List rule) (ap : action) :
    List action → Option (action × List action × Int)
  | [] => some (ap, [], 0)
  | nap :: rest =>
    if nap.sp = ap.sp then
      match resolve_conflict syms rules ap nap with
      | none => none
      | some (ap1, nap1, e) =>
        match resolveWith syms rules ap1 rest with
        | none => none
        | some (ap2, rest2, e2) => some (ap2, nap1 :: rest2, e + e2)
    else some (ap, nap :: rest, 0)

/-- The outer loop of `FindActions` (lines 994-1000) with `n` iterations left. -/
def resolveAll (syms : List symbol) (rules : List rule) :
    Nat → List action → Option (List action × Int)
  | 0, l => some (l, 0)
  | _ + 1, [] => some ([], 0)
  | n + 1, ap :: rest =>
    match resolveWith syms rules ap rest with
    | none => none
    | some (ap1, rest1, e) =>
      match resolveAll syms rules n rest1 with
      | none => none
      | some (out, e2) => some (ap1 :: out, e + e2)

/-- Lines 993-1000 of `FindActions` for one state: sort the action list, then resolve the
conflicts.  Returns the list and the number added to `nconflict`. -/
def resolveState (syms : List symbol) (rules : List rule) (code : e_action → Int)
    (ap : List action) : Option (List action × Int) :=
  let sorted := Action_sort syms rules code ap
  resolveAll syms rules sorted.length sorted

/-- A surviving, non-error action: tag Shift, Reduce or Accept. -/
def Surviving (t : e_action) : Prop :=
  t = e_action.SHIFT ∨ t = e_action.REDUCE ∨ t = e_action.ACCEPT

instance (t : e_action) : Decidable (Surviving t) := by
  unfold Surviving; infer_instance

/-- The integer values of the tags in the order of their declaration. -/
def actionCode : e_action → Int
  | e_action.SHIFT => 0
  | e_action.ACCEPT => 1
  | e_action.REDUCE => 2
  | e_action.ERROR => 3
  | e_action.SSCONFLICT => 4
  | e_action.SRCONFLICT => 5
  | e_action.RRCONFLICT => 6
  | e_action.SH_RESOLVED => 7
  | e_action.RD_RESOLVED => 8
  | e_action.NOT_USED => 9
  | e_action.SHIFTREDUCE => 10

/-- The relation between an action before and after calls of `resolve_conflict`: the
lookahead is kept, and the action is unchanged unless it stopped being a survivor. -/
def Weakened (a b : action) : Prop :=
  b.sp = a.sp ∧ (b = a ∨ ¬ Surviving b.type)

/-- The two actions do not both survive on one lookahead. -/
def NoClash (a b : action) : Prop :=
  a.sp = b.sp → ¬ (Surviving a.type ∧ Surviving b.type)

/-- Distinct lookahead symbols of the actions have distinct indices. -/
def IndexInjective (syms : List symbol) (ap : List action) : Prop :=
  ∀ a ∈ ap, ∀ b ∈ ap, (symAt syms a.sp).index = (symAt syms b.sp).index → a.sp = b.sp

instance (syms : List symbol) (ap : List action) : Decidable (IndexInjective syms ap) := by
  unfold IndexInjective; infer_instance

/-- The lookahead symbols `sps`, in list order, are ordered by symbol index, and distinct
symbols among them have distinct indices. -/
def SortedByIndex (syms : List symbol) (sps : List Nat) : Prop :=
  sps.Pairwise (fun s t => (symAt syms s).index ≤ (symAt syms t).index) ∧
    ∀ s ∈ sps, ∀ t ∈ sps, (symAt syms s).index = (symAt syms t).index → s = t

/-- A state with four conflicts on two lookaheads: symbols `$`, `PLUS` (precedence 1,
left) and `TIMES` (precedence 2, left); rule 0 has precedence symbol `PLUS`, rule 1 has
`TIMES`. -/
def conflictSyms : List symbol :=
  [{ index := 0 }, { index := 1, prec := 1, assoc := e_assoc.LEFT },
   { index := 2, prec := 2, assoc := e_assoc.LEFT }]

/-- The two rules of the conflict example. -/
def conflictRules : List rule :=
  [{ lhs := 3, precsym := some 1, index := 0 }, { lhs := 3, precsym := some 2, index := 1 }]

/-- The unsorted action list of the conflict example. -/
def conflictActions : List action :=
  [{ sp := 1, type := e_action.REDUCE, x := 0, addr := 0 },
   { sp := 1, type := e_action.SHIFT, x := 5, addr := 1 },
   { sp := 2, type := e_action.REDUCE, x := 0, addr := 2 },
   { sp := 2, type := e_action.SHIFT, x := 6, addr := 3 },
   { sp := 0, type := e_action.REDUCE, x := 1, addr := 4 },
   { sp := 1, type := e_action.REDUCE, x := 1, addr := 5 }]

/-- The action list of the conflict example after sorting and conflict resolution. -/
def conflictResolved : List action :=
  [{ sp := 0, type := e_action.REDUCE, x := 1, addr := 4 },
   { sp := 1, type := e_action.SH_RESOLVED, x := 5, addr := 1 },
   { sp := 1, type := e_action.RD_RESOLVED, x := 0, addr := 0 },
   { sp := 1, type := e_action.REDUCE, x := 1, addr := 5 },
   { sp := 2, type := e_action.SHIFT, x := 6, addr := 3 },
   { sp := 2, type := e_action.RD_RESOLVED, x := 0, addr := 2 }]

/-! ## The state store and `getstate` (`src/lemon.cpp`, lines 762-802 and 5344-5515)

A basis is the chain of configurations linked by `bp`, modelled as the list of its
configurations; a `state*` is the position of the state in the order of `State_new`. -/

/-- The two values of `enum cfgstatus`. -/
inductive cfgstatus where
  | COMPLETE
  | INCOMPLETE
  deriving DecidableEq, Repr

/-- The fields of `struct config` read here: the rule and the dot, which identify a
configuration, the follow set `fws` (a set of `SetNew`), the forward and backward
propagation links (the configurations of the `plink` chains, head first), `status`, and
the state `stp` that `FindLinks` records.  The chains `next` and `bp` are modelled by the
lists that hold the configurations. -/
structure config where
  rp : Nat
  dot : Int
  fws : List Bool := []
  fplp : List Nat := []
  bplp : List Nat := []
  status : cfgstatus := cfgstatus.INCOMPLETE
  stp : Option Nat := none
  deriving DecidableEq, Repr

/-- The fields of `struct state` read or written here: the basis `bp` (the
configurations of the `bp` chain, whose rule and dot never change) and the number
`statenum` set by `getstate`, the closure `cfp` and the basis `bpa` as the addresses of
their configurations in the heap of configurations, the action list `ap`, and the fields
that `ResortStates` and `CompressTables` write. -/
structure state where
  bp : List config
  statenum : Int
  cfp : List Nat := []
  bpa : List Nat := []
  ap : List action := []
  nTknAct : Int := 0
  nNtAct : Int := 0
  iDfltReduce : Int := 0
  iTknOfst : Int := 0
  iNtOfst : Int := 0
  autoReduce : Int := 0
  pDfltReduce : Option Nat := none
  deriving DecidableEq, Repr

/-- The pair `(rp->index, dot)` that `Configcmp`, `statecmp` and `statehash` read. -/
def configKey (rules : List rule) (c : config) : Int × Int :=
  ((ruleAt rules c.rp).index, c.dot)

/-- `Configcmp` (lines 5325-5333). -/
def Configcmp (rules : List rule) (a b : config) : Int :=
  let x := (ruleAt rules a.rp).index - (ruleAt rules b.rp).index
  if x = 0 then a.dot - b.dot else x

/-- `Configlist_sortbasis` (lines 1270-1275): the basis under construction, sorted. -/
def Configlist_sortbasis (rules : List rule) (basis : List config) : List config :=
  msort (Configcmp rules) basis

/-- `statecmp` (lines 5347-5359). -/
def statecmp (rules : List rule) : List config → List config → Int
  | [], [] => 0
  | _ :: _, [] => 1
  | [], _ :: _ => -1
  | a :: as, b :: bs =>
    let rc := (ruleAt rules a.rp).index - (ruleAt rules b.rp).index
    let rc := if rc = 0 then a.dot - b.dot else rc
    if rc = 0 then statecmp rules as bs else rc

/-- `statehash` (lines 5362-5370), in `unsigned` arithmetic (modulo `2^32`). -/
def statehash (rules : List rule) (a : List config) : Nat :=
  a.foldl (fun h c =>
    (((h : Int) * 571 + (ruleAt rules c.rp).index * 37 + c.dot) % 4294967296).toNat) 0

/-- A node of the associative array (`struct s_x3node`); `next` is the position in `tbl`
of the next node with the same hash. -/
structure x3node where
  data : Nat
  key : List config
  next : Option Nat
  deriving DecidableEq, Repr

/-- The associative array of states (`struct s_x3`); `tbl` holds the `count` filled
slots, `ht` the `size` heads of the hash chains. -/
structure s_x3 where
  size : Nat
  count : Nat
  tbl : List x3node
  ht : List (Option Nat)
  deriving DecidableEq, Repr

/-- `State_init` (lines 5409-5426). -/
def State_init : s_x3 :=
  { size := 128, count := 0, tbl := [], ht := List.replicate 128 none }

/-- The `while (np)` loop of `State_find` and `State_insert` (lines 5439-5446 and
5494-5497), with `fuel` iterations left: the node whose key compares equal, or `none`
for the end of the chain.  A dangling position or an exhausted `fuel` fails. -/
def x3walk (rules : List rule) (tbl : List x3node) (key : List config) :
    Nat → Option Nat → Option (Option x3node)
  | 0, _ => none
  | _ + 1, none => some none
  | fuel + 1, some i =>
    match tbl[i]? with
    | none => none
    | some np =>
      if statecmp rules np.key key = 0 then some (some np)
      else x3walk rules tbl key fuel np.next

/-- `State_find` (lines 5486-5499): the stored state for the key, `some none` when
there is none. -/
def State_find (rules : List rule) (x3a : s_x3) (key : List config) :
    Option (Option Nat) :=
  let h := statehash rules key &&& (x3a.size - 1)
  match x3a.ht[h]? with
  | none => none
  | some np =>
    match x3walk rules x3a.tbl key (x3a.count + 1) np with
    | none => none
    | some none => some none
    | some (some n) => some (some n.data)

/-- The re-hashing loop of `State_insert` (lines 5457-5468): the nodes of the old table
are copied in order into the new table `tbl` and linked at the head of their chain. -/
def x3rehash (rules : List rule) (arrSize : Nat) :
    List x3node → List x3node → List (Option Nat) → Option (List x3node × List (Option Nat))
  | [], tbl, ht => some (tbl, ht)
  | oldnp :: rest, tbl, ht =>
    let h := statehash rules oldnp.key &&& (arrSize - 1)
    match ht[h]? with
    | none => none
    | some head =>
      x3rehash rules arrSize rest
        (tbl ++ [{ data := oldnp.data, key := oldnp.key, next := head }])
        (ht.set h (some tbl.length))

/-- `State_insert` (lines 5429-5482): the new array and the return value. -/
def State_insert (rules : List rule) (x3a : s_x3) (data : Nat) (key : List config) :
    Option (s_x3 × Int) :=
  let ph := statehash rules key
  let h := ph &&& (x3a.size - 1)
  match x3a.ht[h]? with
  | none => none
  | some np =>
    match x3walk rules x3a.tbl key (x3a.count + 1) np with
    | none => none
    | some (some _) => some (x3a, 0)
    | some none =>
      let grown : Option s_x3 :=
        if x3a.count ≥ x3a.size then
          let arrSize := x3a.size * 2
          match x3rehash rules arrSize x3a.tbl [] (List.replicate arrSize none) with
          | none => none
          | some (tbl, ht) => some { size := arrSize, count := x3a.count, tbl := tbl, ht := ht }
        else some x3a
      match grown with
      | none => none
      | some x =>
        let h := ph &&& (x.size - 1)
        match x.ht[h]? with
        | none => none
        | some head =>
          some ({ size := x.size, count := x.count + 1,
                  tbl := x.tbl ++ [{ data := data, key := key, next := head }],
                  ht := x.ht.set h (some x.count) }, 1)

/-- The globals `getstate` works on: the associative array `x3a`, the states created by
`State_new` in order of creation, and `lemp.nstate`. -/
structure stateStore where
  x3a : s_x3
  states : List state
  nstate : Int
  deriving DecidableEq, Repr

/-- The loop of `buildshifts` (lines 837-871) as far as the state store is concerned:
`getstate` is called once for the basis of each successor.  `gs` is `getstate`. -/
def buildshifts (gs : List config → stateStore → Option (Nat × stateStore)) :
    List (List config) → stateStore → Option stateStore
  | [], g => some g
  | basis :: rest, g =>
    match gs basis g with
    | none => none
    | some (_, g1) => buildshifts gs rest g1

/-- `getstate` (lines 762-802).  `basis` is the basis built by `Configlist_addbasis`;
`succ` gives, for a sorted basis, the bases of the successors that `Configlist_closure`
and `buildshifts` construct from it, in order.  The propagation links copied in the
first branch and the closure stored in the second are not part of `stateStore`.
`fuel` bounds the depth of the recursion through `buildshifts`. -/
def getstate (rules : List rule) (succ : List config → List (List config)) :
    Nat → List config → stateStore → Option (Nat × stateStore)
  | 0, _, _ => none
  | fuel + 1, basis, g =>
    let bp := Configlist_sortbasis rules basis
    match State_find rules g.x3a bp with
    | none => none
    | some (some stp) => some (stp, g)
    | some none =>
      let stp := g.states.length
      let g1 : stateStore :=
        { g with states := g.states ++ [{ bp := bp, statenum := g.nstate }],
                 nstate := g.nstate + 1 }
      match State_insert rules g1.x3a stp bp with
      | none => none
      | some (x3a1, _) =>
        match buildshifts (getstate rules succ fuel) (succ bp) { g1 with x3a := x3a1 } with
        | none => none
        | some g3 => some (stp, g3)

/-- The empty store `main` sets up before `FindStates`. -/
def storeInit : stateStore := { x3a := State_init, states := [], nstate := 0 }

/-- `FindStates` (lines 702-756) as far as the state store is concerned: `State_init`
and `lemp.nstate = 0` have been done by `main`, and `getstate` is called on the basis of
the start rules. -/
def FindStates (rules : List rule) (succ : List config → List (List config)) (fuel : Nat)
    (startBasis : List config) : Option (Nat × stateStore) :=
  getstate rules succ fuel startBasis storeInit

/-- The largest `i < n` with `q i`, if any. -/
def lastWith (q : Nat → Bool) : Nat → Option Nat
  | 0 => none
  | n + 1 => if q n then some n else lastWith q n

/-- The hash bucket of a key in an array of `size` chains. -/
def bucketOf (rules : List rule) (size : Nat) (key : List config) : Nat :=
  statehash rules key &&& (size - 1)

/-- Node `j` of `tbl` exists and hashes to bucket `h`. -/
def bucketIs (rules : List rule) (size : Nat) (tbl : List x3node) (h j : Nat) : Bool :=
  match tbl[j]? with
  | some n => decide (bucketOf rules size n.key = h)
  | none => false

/-- The shape of the hash chains: the head of chain `h` is the last node inserted into
bucket `h`, and every node links to the previous node of its bucket. -/
structure ChainOK (rules : List rule) (size : Nat) (tbl : List x3node)
    (ht : List (Option Nat)) : Prop where
  size_pos : 0 < size
  ht_len : ht.length = size
  heads : ∀ h, h < size → ht[h]? = some (lastWith (bucketIs rules size tbl h) tbl.length)
  nexts : ∀ (i : Nat) (node : x3node), tbl[i]? = some node →
    node.next = lastWith (bucketIs rules size tbl (bucketOf rules size node.key)) i

/-- The invariant of the state store: well-formed hash chains, stored bases pairwise
different as sequences of `(rule index, dot)`, and the `i`-th stored state is state
number `i` with the stored key as its basis. -/
structure StoreInv (rules : List rule) (g : stateStore) : Prop where
  chain : ChainOK rules g.x3a.size g.x3a.tbl g.x3a.ht
  count : g.x3a.tbl.length = g.x3a.count
  distinct : ∀ (i j : Nat) (ni nj : x3node),
    g.x3a.tbl[i]? = some ni → g.x3a.tbl[j]? = some nj → i ≠ j →
    ni.key.map (configKey rules) ≠ nj.key.map (configKey rules)
  data : ∀ (i : Nat) (node : x3node), g.x3a.tbl[i]? = some node →
    node.data = i ∧ g.states[i]? = some ({ bp := node.key, statenum := (i : Int) } : state)
  nstate : g.nstate = (g.x3a.count : Int) ∧ g.states.length = g.x3a.count

/-- Three rules with indices 0, 1, 2, for the example run of `FindStates`. -/
def storeRules : List rule :=
  [{ lhs := 3, index := 0 }, { lhs := 3, index := 1 }, { lhs := 4, index := 2 }]

/-- Successor bases for the example run: the start state has three successors, two of
them with the same basis, and one successor leads back to the start basis. -/
def storeSucc (b : List config) : List (List config) :=
  if b = [{ rp := 0, dot := 0 }, { rp := 1, dot := 0 }] then [[{ rp := 0, dot := 1 }], [{ rp := 1, dot := 1 }, { rp := 0, dot := 1 }], [{ rp := 0, dot := 1 }]]
  else if b = [{ rp := 0, dot := 1 }] then [[{ rp := 0, dot := 2 }, { rp := 2, dot := 0 }]]
  else if b = [{ rp := 0, dot := 1 }, { rp := 1, dot := 1 }] then [[{ rp := 2, dot := 0 }, { rp := 0, dot := 2 }], [{ rp := 0, dot := 0 }, { rp := 1, dot := 0 }]]
  else []

/-- The store after the example run: four states. -/
def storeFinal : stateStore :=
  { x3a :=
      { size := 128, count := 4,
        tbl := [{ data := 0, key := [{ rp := 0, dot := 0 }, { rp := 1, dot := 0 }], next := none },
                { data := 1, key := [{ rp := 0, dot := 1 }], next := none },
                { data := 2, key := [{ rp := 0, dot := 2 }, { rp := 2, dot := 0 }], next := none },
                { data := 3, key := [{ rp := 0, dot := 1 }, { rp := 1, dot := 1 }], next := none }],
        ht := ((((List.replicate 128 none).set 37 (some 0)).set 1 (some 1)).set 64
                (some 2)).set 97 (some 3) },
    states := [{ bp := [{ rp := 0, dot := 0 }, { rp := 1, dot := 0 }], statenum := 0 }, { bp := [{ rp := 0, dot := 1 }], statenum := 1 },
               { bp := [{ rp := 0, dot := 2 }, { rp := 2, dot := 0 }], statenum := 2 },
               { bp := [{ rp := 0, dot := 1 }, { rp := 1, dot := 1 }], statenum := 3 }],
    nstate := 4 }
/-- The keys and data of the nodes, without the chain links. -/
def x3entries (tbl : List x3node) : List (Nat × List config) :=
  tbl.map (fun n => (n.data, n.key))

/-! ## Precedence information read by `resolve_conflict` -/

/-- The precedence of the precedence symbol of the rule of a reduce action
(`apy->x.rp->precsym->prec`), `none` when the rule has no precedence symbol. -/
def rulePrec (syms : List symbol) (rules : List rule) (ap : action) : Option Int :=
  ((ruleAt rules ap.x).precsym).map (fun p => (symAt syms p).prec)

/-- The precedence of the lookahead symbol of an action (`apx->sp->prec`). -/
def lookPrec (syms : List symbol) (ap : action) : Int := (symAt syms ap.sp).prec

/-- The associativity of the lookahead symbol of an action (`apx->sp->assoc`). -/
def lookAssoc (syms : List symbol) (ap : action) : e_assoc := (symAt syms ap.sp).assoc

/-- Not enough precedence information for a shift/reduce pair (line 1045): the rule has
no precedence symbol, or one of the two precedences is negative. -/
def PrecUnset (syms : List symbol) (rules : List rule) (apx apy : action) : Prop :=
  match rulePrec syms rules apy with
  | none => True
  | some pr => lookPrec syms apx < 0 ∨ pr < 0

instance (syms : List symbol) (rules : List rule) (apx apy : action) :
    Decidable (PrecUnset syms rules apx apy) := by
  unfold PrecUnset; split <;> infer_instance

/-- The condition of line 1070 for a reduce/reduce pair: a rule without precedence
symbol, a negative precedence, or equal precedences. -/
def PrecTied (syms : List symbol) (rules : List rule) (apx apy : action) : Prop :=
  match rulePrec syms rules apx, rulePrec syms rules apy with
  | some px, some py => px < 0 ∨ py < 0 ∨ px = py
  | _, _ => True

instance (syms : List symbol) (rules : List rule) (apx apy : action) :
    Decidable (PrecTied syms rules apx apy) := by
  unfold PrecTied; split <;> infer_instance

/-- Three symbols of precedence 1 with the three associativities, and a rule whose
precedence symbol is the first. -/
def assocSyms : List symbol :=
  [{ index := 0, prec := 1, assoc := e_assoc.LEFT },
   { index := 1, prec := 1, assoc := e_assoc.RIGHT },
   { index := 2, prec := 1, assoc := e_assoc.NONE },
   { index := 3 }]

/-- Rules for the examples: precedence symbol of precedence 1, none, and an unset
one. -/
def assocRules : List rule :=
  [{ lhs := 4, precsym := some 0 }, { lhs := 4 }, { lhs := 4, precsym := some 3 }]

/-! ## Action codes (`src/lemon.cpp`, lines 3486-3506 and 4250-4255) -/

/-- The state a `state*` points to; states are addressed by their position in the order
of `State_new`. -/
def stateAt (states : List state) (p : Nat) : state :=
  states.getD p { bp := [], statenum := 0 }

/-- Lines 4250-4255 of `ReportTable`: the bounds of the action-code ranges. -/
def ReportTable_codes (lemp : lemon) : lemon :=
  let minShiftReduce := lemp.nstate
  let errAction := minShiftReduce + lemp.nrule
  let accAction := errAction + 1
  let noAction := accAction + 1
  let minReduce := noAction + 1
  let maxAction := minReduce + lemp.nrule
  { lemp with
    minShiftReduce := minShiftReduce
    errAction := errAction
    accAction := accAction
    noAction := noAction
    minReduce := minReduce
    maxAction := maxAction }

/-- `compute_action` (lines 3486-3506).  `states` is the heap of states that `x.stp`
points into; `x.rp` points into `lemp.rule`. -/
def compute_action (lemp : lemon) (states : List state) (ap : action) : Int :=
  match ap.type with
  | e_action.SHIFT => (stateAt states ap.x).statenum
  | e_action.SHIFTREDUCE =>
    if (symAt lemp.symbols ap.sp).index ≥ (lemp.nterminal : Int) then
      lemp.minReduce + (ruleAt lemp.rule ap.x).iRule
    else
      lemp.minShiftReduce + (ruleAt lemp.rule ap.x).iRule
  | e_action.REDUCE => lemp.minReduce + (ruleAt lemp.rule ap.x).iRule
  | e_action.ERROR => lemp.errAction
  | e_action.ACCEPT => lemp.accAction
  | _ => -1

/-- A grammar with one terminal (`$`), one nonterminal, one rule and two states. -/
def codesExample : lemon :=
  { symbols := [{ index := 0 }, { index := 1, type := symbol_type.NONTERMINAL }]
    rule := [{ lhs := 1, iRule := 0 }]
    nsymbol := 1
    nterminal := 1
    nstate := 2
    nrule := 1 }

/-! ## `FindRulePrecedences` (`src/lemon.cpp`, lines 606-629) -/

/-- Lines 615-620: the first sub-symbol with a defined precedence. -/
def firstPrecSub (syms : List symbol) : List Nat → Option Nat
  | [] => none
  | q :: rest => if (symAt syms q).prec ≥ 0 then some q else firstPrecSub syms rest

/-- Lines 612-625: the loop over the right-hand side, which runs while `precsym` is
null. -/
def precScan (syms : List symbol) : List Nat → Option Nat
  | [] => none
  | p :: rest =>
    let found :=
      if (symAt syms p).type = symbol_type.MULTITERMINAL then
        firstPrecSub syms (symAt syms p).subsym
      else if (symAt syms p).prec ≥ 0 then some p
      else none
    match found with
    | some q => some q
    | none => precScan syms rest

/-- `FindRulePrecedences` (lines 606-629). -/
def FindRulePrecedences (xp : lemon) : lemon :=
  { xp with
    rule := xp.rule.map (fun rp =>
      if rp.precsym = none then { rp with precsym := precScan xp.symbols rp.rhs } else rp) }

/-- The right-hand-side symbol `p` gives the precedence symbol `q`: `p` itself when it
is not a multiterminal and has `prec ≥ 0`, the first sub-symbol with `prec ≥ 0` when it
is a multiterminal. -/
def Contributes (syms : List symbol) (p q : Nat) : Prop :=
  if (symAt syms p).type = symbol_type.MULTITERMINAL then
    ∃ s1 s2, (symAt syms p).subsym = s1 ++ q :: s2 ∧ (∀ y ∈ s1, (symAt syms y).prec < 0) ∧
      0 ≤ (symAt syms q).prec
  else q = p ∧ 0 ≤ (symAt syms p).prec

/-- The right-hand-side symbol `p` gives no precedence symbol. -/
def NoPrec (syms : List symbol) (p : Nat) : Prop :=
  if (symAt syms p).type = symbol_type.MULTITERMINAL then
    ∀ y ∈ (symAt syms p).subsym, (symAt syms y).prec < 0
  else (symAt syms p).prec < 0

/-- Symbols `PLUS` (precedence 1), `X` (no precedence), a multiterminal `X|PLUS`, and a
nonterminal; rules `e ::= X e X|PLUS e PLUS`, `e ::= X` and a rule with an explicit
precedence symbol. -/
def precExample : lemon :=
  { symbols := [{ index := 0 }, { index := 1, prec := 1, assoc := e_assoc.LEFT }, { index := 2 },
      { index := 3, type := symbol_type.NONTERMINAL },
      { index := 4, type := symbol_type.MULTITERMINAL, subsym := [2, 1] }]
    rule := [{ lhs := 3, rhs := [2, 3, 4, 3, 1] }, { lhs := 3, rhs := [2] },
      { lhs := 3, rhs := [1], precsym := some 2 }]
    nsymbol := 4
    nterminal := 3 }

/-! ## `ResortStates` (`src/lemon.cpp`, lines 5071-5129) -/

/-- `NO_OFFSET` (line 243). -/
def NO_OFFSET : Int := -2147483647

/-- `stateResortCompare` (lines 5071-5085) on two state pointers; the `assert` fails as
`none`. -/
def stateResortCompare (states : List state) (a b : Nat) : Option Int :=
  let pA := stateAt states a
  let pB := stateAt states b
  let n := pB.nNtAct - pA.nNtAct
  let n := if n = 0 then
      (let n := pB.nTknAct - pA.nTknAct
       if n = 0 then pB.statenum - pA.statenum else n)
    else n
  if n ≠ 0 then some n else none

/-- Lines 5104-5118: the loop over the actions of the state at `p`. -/
def resortCount (lemp : lemon) (p : Nat) : List action → List state → Option (List state)
  | [], states => some states
  | ap :: rest, states =>
    let iAction := compute_action lemp states ap
    if iAction ≥ 0 then
      let stp := stateAt states p
      if (symAt lemp.symbols ap.sp).index < (lemp.nterminal : Int) then
        resortCount lemp p rest (states.set p { stp with nTknAct := stp.nTknAct + 1 })
      else if (symAt lemp.symbols ap.sp).index < (lemp.nsymbol : Int) then
        resortCount lemp p rest (states.set p { stp with nNtAct := stp.nNtAct + 1 })
      else if stp.autoReduce = 0 ∨ stp.pDfltReduce = some ap.x then
        resortCount lemp p rest (states.set p { stp with iDfltReduce := iAction })
      else none
    else resortCount lemp p rest states

/-- Lines 5098-5119: the first loop, over the state pointers `sorted[0 .. nstate)`. -/
def resortInit (lemp : lemon) : List Nat → List state → Option (List state)
  | [], states => some states
  | p :: rest, states =>
    match states[p]? with
    | none => none
    | some stp =>
      match resortCount lemp p stp.ap
          (states.set p { stp with
            nTknAct := 0
            nNtAct := 0
            iDfltReduce := -1
            iTknOfst := NO_OFFSET
            iNtOfst := NO_OFFSET }) with
      | none => none
      | some states1 => resortInit lemp rest states1

/-- Lines 5122-5124: `sorted[i]->statenum = i` for the pointers of the list, counting
from `i`. -/
def renumber : List Nat → Int → List state → Option (List state)
  | [], _, states => some states
  | p :: rest, i, states =>
    match states[p]? with
    | none => none
    | some stp => renumber rest (i + 1) (states.set p { stp with statenum := i })

/-- Lines 5125-5128: `nxstate` drops the trailing auto-reduce states; `rev` holds
`sorted[nxstate-1], sorted[nxstate-2], ...`. -/
def trimAuto (states : List state) : List Nat → Int → Int
  | [], nxstate => nxstate
  | p :: rev, nxstate =>
    if nxstate > 1 ∧ (stateAt states p).autoReduce ≠ 0 then trimAuto states rev (nxstate - 1)
    else nxstate

/-- `ResortStates` (lines 5092-5129).  `states` is the heap of states, `lemp.sorted` the
array of pointers into it.  `qsort` is the library function, applied to the array slice
`sorted[1 .. nstate)`; a run in which the comparison function aborts is `none`. -/
def ResortStates (qsort : (Nat → Nat → Option Int) → List Nat → Option (List Nat))
    (lemp : lemon) (states : List state) : Option (lemon × List state) :=
  let n := lemp.nstate.toNat
  if lemp.nstate < 1 ∨ lemp.sorted.length < n then none
  else
    match resortInit lemp (lemp.sorted.take n) states with
    | none => none
    | some states1 =>
      match lemp.sorted with
      | [] => none
      | s0 :: rest =>
        match qsort (stateResortCompare states1) (rest.take (n - 1)) with
        | none => none
        | some seg =>
          let sorted1 := s0 :: seg ++ rest.drop (n - 1)
          match renumber (sorted1.take n) 0 states1 with
          | none => none
          | some states2 =>
            some ({ lemp with
                    sorted := sorted1
                    nxstate := trimAuto states2 (sorted1.take n).reverse lemp.nstate },
                  states2)

/-- Insertion of `a` into a list, in front of the first element that does not compare
below it. -/
def insertBy (cmp : Nat → Nat → Option Int) (a : Nat) : List Nat → Option (List Nat)
  | [] => some [a]
  | b :: rest =>
    match cmp a b with
    | none => none
    | some c =>
      if c ≤ 0 then some (a :: b :: rest)
      else (insertBy cmp a rest).map (fun l => b :: l)

/-- A sorting function with the interface of `qsort`: insertion sort. -/
def sortBy (cmp : Nat → Nat → Option Int) : List Nat → Option (List Nat)
  | [] => some []
  | a :: rest =>
    match sortBy cmp rest with
    | none => none
    | some l => insertBy cmp a l

/-- Four states: the start state, a state with one terminal action, a state with one
nonterminal and one terminal action, and a state with two terminal actions. -/
def resortStatesExample : List state :=
  [{ bp := [], statenum := 0, ap := [{ sp := 0, type := e_action.REDUCE, x := 0 }] },
   { bp := [], statenum := 1, ap := [{ sp := 0, type := e_action.REDUCE, x := 0 }] },
   { bp := [], statenum := 2,
     ap := [{ sp := 1, type := e_action.SHIFT, x := 1 },
            { sp := 0, type := e_action.REDUCE, x := 0 }] },
   { bp := [], statenum := 3,
     ap := [{ sp := 0, type := e_action.REDUCE, x := 0 },
            { sp := 0, type := e_action.SHIFT, x := 2 }] }]

/-- The grammar data of the example: `codesExample` with four states; the nonterminal
counts as a symbol. -/
def resortLemon : lemon :=
  { codesExample with
    nsymbol := 2
    nstate := 4
    sorted := [0, 1, 2, 3] }

/-! ## `FindActions` (`src/lemon.cpp`, lines 948-1016) -/

/-- The configuration a `config*` points to; configurations are addressed by their
position in the heap of configurations. -/
def cfgAt (cfgs : List config) (p : Nat) : config := cfgs.getD p { rp := 0, dot := 0 }

/-- `Action_add` (lines 327-346): a new action at the head of the list.  `next` is the
address that `Action_new` hands out, in units of `sizeof(action)`; addresses are handed
out in increasing order.  Returns the list and the next free address. -/
def Action_add (app : List action × Int) (type : e_action) (sp : Nat) (arg : Nat) :
    List action × Int :=
  ({ sp := sp, type := type, x := arg, spOpt := none, addr := app.2 } :: app.1, app.2 + 1)

/-- The state pointers `sorted[0], ..., sorted[nstate-1]` that the loops over the states
visit; `none` when the array is shorter than `nstate`. -/
def sortedStates (lemp : lemon) : Option (List Nat) :=
  if lemp.nstate.toNat ≤ lemp.sorted.length then some (lemp.sorted.take lemp.nstate.toNat)
  else none

/-- Lines 964-970: the loop over the terminals `j, j+1, ..., j+c-1` for a configuration
with rule `rp` and follow set `fws`. -/
def addReduces (rp : Nat) (fws : List Bool) :
    Nat → Nat → List action × Int → Option (List action × Int)
  | 0, _, app => some app
  | c + 1, j, app =>
    match fws[j]? with
    | none => none
    | some true => addReduces rp fws c (j + 1) (Action_add app e_action.REDUCE j rp)
    | some false => addReduces rp fws c (j + 1) app

/-- Lines 962-972: the loop over the configurations of one state; `cfp` holds the
addresses of the closure. -/
def reduceState (lemp : lemon) (cfgs : List config) :
    List Nat → List action × Int → Option (List action × Int)
  | [], app => some app
  | c :: rest, app =>
    if ((ruleAt lemp.rule (cfgAt cfgs c).rp).rhs.length : Int) = (cfgAt cfgs c).dot then
      match addReduces (cfgAt cfgs c).rp (cfgAt cfgs c).fws lemp.nterminal 0 app with
      | none => none
      | some app1 => reduceState lemp cfgs rest app1
    else reduceState lemp cfgs rest app

/-- Lines 960-973: the first loop of `FindActions`, over the state pointers `ps`.
`st` holds the heap of states and the next free action address. -/
def findReduces (lemp : lemon) (cfgs : List config) :
    List Nat → List state × Int → Option (List state × Int)
  | [], st => some st
  | p :: rest, st =>
    match st.1[p]? with
    | none => none
    | some stp =>
      match reduceState lemp cfgs stp.cfp (stp.ap, st.2) with
      | none => none
      | some app => findReduces lemp cfgs rest (st.1.set p { stp with ap := app.1 }, app.2)

/-- `Symbol_find` (lines 5292-5296): the symbol with the given name, if any. -/
def Symbol_find (syms : List symbol) (key : String) : Option Nat :=
  match syms.findIdx? (fun s => s.name = key) with
  | some i => some i
  | none => none

/-- Lines 976-982: the start symbol. -/
def startSymbol (lemp : lemon) : Option Nat :=
  match lemp.start with
  | some name =>
    match Symbol_find lemp.symbols name with
    | some sp => some sp
    | none => lemp.startRule.map (fun r => (ruleAt lemp.rule r).lhs)
  | none => lemp.startRule.map (fun r => (ruleAt lemp.rule r).lhs)

/-- Lines 989-1001: sort the actions of each state and resolve the conflicts.  `code`
gives the integer values of the action tags. -/
def resolveStates (lemp : lemon) (code : e_action → Int) :
    List Nat → List state × Int → Option (List state × Int)
  | [], st => some st
  | p :: rest, st =>
    match st.1[p]? with
    | none => none
    | some stp =>
      match resolveState lemp.symbols lemp.rule code stp.ap with
      | none => none
      | some (ap1, n) =>
        resolveStates lemp code rest (st.1.set p { stp with ap := ap1 }, st.2 + n)

/-- Line 1008 for the actions of one state: `canReduce` of the rule of every `REDUCE`
action. -/
def markActions : List action → List rule → Option (List rule)
  | [], rules => some rules
  | ap :: rest, rules =>
    if ap.type = e_action.REDUCE then
      match rules[ap.x]? with
      | none => none
      | some rp => markActions rest (rules.set ap.x { rp with canReduce := true })
    else markActions rest rules

/-- Lines 1005-1010: the loop over the states. -/
def markStates (states : List state) : List Nat → List rule → Option (List rule)
  | [], rules => some rules
  | p :: rest, rules =>
    match states[p]? with
    | none => none
    | some stp =>
      match markActions stp.ap rules with
      | none => none
      | some rules1 => markStates states rest rules1

/-- Lines 1011-1015: one error for each rule whose `canReduce` is false. -/
def countUnreduced : List rule → Int → Int
  | [], errorcnt => errorcnt
  | rp :: rest, errorcnt =>
    if rp.canReduce = true then countUnreduced rest errorcnt
    else countUnreduced rest (errorcnt + 1)

/-- Lines 1003-1015 of `FindActions`: the report of the rules that can never be
reduced. -/
def findUnreduced (lemp : lemon) (states : List state) : Option lemon :=
  match sortedStates lemp with
  | none => none
  | some ps =>
    match markStates states ps (lemp.rule.map (fun rp => { rp with canReduce := false })) with
    | none => none
    | some rules1 =>
      some { lemp with
        rule := rules1
        errorcnt := countUnreduced rules1 lemp.errorcnt }

/-- `FindActions` (lines 948-1016).  `cfgs` is the heap of configurations, `st` the heap
of states with the next free action address. -/
def FindActions (lemp : lemon) (code : e_action → Int) (cfgs : List config)
    (st : List state × Int) : Option (lemon × List state × Int) :=
  match sortedStates lemp with
  | none => none
  | some ps =>
    match findReduces lemp cfgs ps st with
    | none => none
    | some st1 =>
      match startSymbol lemp, lemp.sorted[0]? with
      | some sp, some p0 =>
        match st1.1[p0]? with
        | none => none
        | some stp0 =>
          let app := Action_add (stp0.ap, st1.2) e_action.ACCEPT sp 0
          match resolveStates lemp code ps (st1.1.set p0 { stp0 with ap := app.1 }, 0) with
          | none => none
          | some st2 =>
            match findUnreduced { lemp with nconflict := lemp.nconflict + st2.2 } st2.1 with
            | none => none
            | some lemp1 => some (lemp1, st2.1, app.2)
      | _, _ => none

/-- The configuration at `c` has its dot at the extreme right and `t` in its follow
set. -/
def ReducesOn (lemp : lemon) (cfgs : List config) (r t : Nat) (c : Nat) : Bool :=
  decide ((cfgAt cfgs c).rp = r ∧
    ((ruleAt lemp.rule (cfgAt cfgs c).rp).rhs.length : Int) = (cfgAt cfgs c).dot ∧
    (cfgAt cfgs c).fws[t]? = some true)

/-- The action is a `REDUCE` by rule `r` on lookahead `t`. -/
def IsReduce (r t : Nat) (a : action) : Bool :=
  decide (a.type = e_action.REDUCE ∧ a.x = r ∧ a.sp = t)

/-- One state whose closure holds a configuration of rule 0 with the dot at the end and
follow set `{0, 2}`, and a configuration of rule 1 with the dot in front. -/
def reduceCfgs : List config :=
  [{ rp := 0, dot := 1, fws := [true, false, true, false] },
   { rp := 1, dot := 0, fws := [false, true, false, false] }]

/-- The grammar data of the example: three terminals, rules `a ::= X` and `a ::= Y a`. -/
def reduceLemon : lemon :=
  { symbols := [{ index := 0 }, { index := 1 }, { index := 2 },
      { index := 3, type := symbol_type.NONTERMINAL }]
    rule := [{ lhs := 3, rhs := [1] }, { lhs := 3, rhs := [2, 3], index := 1 }]
    nsymbol := 4
    nterminal := 3
    nstate := 1
    sorted := [0] }

/-- The state of the example, with one shift action. -/
def reduceStates : List state :=
  [{ bp := [], statenum := 0, cfp := [0, 1], ap := [{ sp := 2, type := e_action.SHIFT, x := 0 }] }]

/-! ## `CompressTables` (`src/lemon.cpp`, lines 4952-5062) -/

/-- `ISUPPER(*x)` for the first character of a name (`false` for the empty string, whose
first byte is the terminator). -/
def firstIsUpper (x : String) : Bool :=
  match x.data with
  | [] => false
  | c :: _ => decide (65 ≤ c.toNat ∧ c.toNat ≤ 90)

/-- `Symbol_new` (lines 5230-5261): the symbol named `x`, created at the end of the
symbol store when it does not exist yet.  The store is the list of all symbols, so its
length is `x2a_map.size()`.  Returns the pointer and the store. -/
def Symbol_new (syms : List symbol) (x : String) : Nat × List symbol :=
  match Symbol_find syms x with
  | some sp => (sp, syms)
  | none =>
    (syms.length, syms ++ [{
      name := x
      index := (syms.length : Int) + 1
      type := if firstIsUpper x then symbol_type.TERMINAL else symbol_type.NONTERMINAL
      prec := -1
      assoc := e_assoc.UNK
      firstset := none
      lambda := false
      subsym := []
      rule := [] }])

/-- Lines 4976-4981: the count `n` after the inner loop over the actions that follow
`ap`. -/
def countSame (rp : Nat) (rbest : Option Nat) : List action → Int → Int
  | [], n => n
  | ap2 :: rest, n =>
    if ap2.type ≠ e_action.REDUCE then countSame rp rbest rest n
    else if some ap2.x = rbest then countSame rp rbest rest n
    else if ap2.x = rp then countSame rp rbest rest (n + 1)
    else countSame rp rbest rest n

/-- Lines 4967-4986: the loop that finds the most frequent rule; the state is
`(nbest, rbest, usesWildcard)`. -/
def bestRule (lemp : lemon) : List action → Int × Option Nat × Int → Int × Option Nat × Int
  | [], st => st
  | ap :: rest, (nbest, rbest, usesWildcard) =>
    let uses : Int :=
      if ap.type = e_action.SHIFT ∧ some ap.sp = lemp.wildcard then 1 else usesWildcard
    if ap.type ≠ e_action.REDUCE then bestRule lemp rest (nbest, rbest, uses)
    else if (ruleAt lemp.rule ap.x).lhsStart ≠ 0 then bestRule lemp rest (nbest, rbest, uses)
    else if some ap.x = rbest then bestRule lemp rest (nbest, rbest, uses)
    else if countSame ap.x rbest rest 1 > nbest then
      bestRule lemp rest (countSame ap.x rbest rest 1, some ap.x, uses)
    else bestRule lemp rest (nbest, rbest, uses)

/-- Lines 4996-5003: the first `REDUCE` by `rbest` gets the lookahead `dflt`, every later
one is tagged `NOT_USED`; the `assert` fails as `none`. -/
def markDefault (dflt rbest : Nat) : List action → Option (List action)
  | [] => none
  | ap :: rest =>
    if ap.type = e_action.REDUCE ∧ ap.x = rbest then
      some ({ ap with sp := dflt } :: rest.map (fun a =>
        if a.type = e_action.REDUCE ∧ a.x = rbest then { a with type := e_action.NOT_USED }
        else a))
    else (markDefault dflt rbest rest).map (fun l => ap :: l)

/-- Lines 5006-5009: the loop runs to the end of the list, that is, no action is a
`SHIFT` or a `REDUCE` by another rule than `rbest`. -/
def onlyDefault (rbest : Nat) (aps : List action) : Bool :=
  aps.all (fun ap =>
    !(decide (ap.type = e_action.SHIFT) ||
      decide (ap.type = e_action.REDUCE ∧ ap.x ≠ rbest)))

/-- Lines 4962-5013: the body of the first loop for the state `stp`.  Returns the symbol
store too, which `Symbol_new` may extend. -/
def compressState (lemp : lemon) (code : e_action → Int) (stp : state) :
    Option (List symbol × state) :=
  match bestRule lemp stp.ap (0, none, 0) with
  | (nbest, rbest, usesWildcard) =>
    if nbest < 1 ∨ usesWildcard ≠ 0 then some (lemp.symbols, stp)
    else
      match rbest with
      | none => none
      | some rb =>
        match markDefault (Symbol_new lemp.symbols "{default}").1 rb stp.ap with
        | none => none
        | some ap1 =>
          let syms1 := (Symbol_new lemp.symbols "{default}").2
          let ap2 := Action_sort syms1 lemp.rule code ap1
          if onlyDefault rb ap2 then
            some (syms1, { stp with
              ap := ap2
              autoReduce := 1
              pDfltReduce := some rb })
          else some (syms1, { stp with ap := ap2 })

/-- Lines 4961-5014: the first loop, over the state pointers `ps`. -/
def compressStates (code : e_action → Int) :
    List Nat → lemon × List state → Option (lemon × List state)
  | [], st => some st
  | p :: rest, (lemp, states) =>
    match states[p]? with
    | none => none
    | some stp =>
      match compressState lemp code stp with
      | none => none
      | some (syms1, stp1) =>
        compressStates code rest ({ lemp with symbols := syms1 }, states.set p stp1)

/-- Lines 5023-5029: the body of the second loop for one action. -/
def fuseAction (states : List state) (ap : action) : action :=
  if ap.type ≠ e_action.SHIFT then ap
  else
    match (stateAt states ap.x).pDfltReduce with
    | none => ap
    | some r =>
      if (stateAt states ap.x).autoReduce ≠ 0 then
        { ap with
          type := e_action.SHIFTREDUCE
          x := r }
      else ap

/-- Lines 5020-5031: the second loop, over the state pointers `ps`. -/
def fuseStates : List Nat → List state → Option (List state)
  | [], states => some states
  | p :: rest, states =>
    match states[p]? with
    | none => none
    | some stp => fuseStates rest (states.set p { stp with ap := stp.ap.map (fuseAction states) })

/-- Line 5055: the first action of the list, other than the one at position `i`, whose
lookahead is `lhs`; `k` is the position of the head of the list. -/
def findOther (lhs i : Nat) : List action → Nat → Option action
  | [], _ => none
  | a :: rest, k => if k ≠ i ∧ a.sp = lhs then some a else findOther lhs i rest (k + 1)

/-- The action qualifies for the unit-production rewrite (lines 5043-5051). -/
def unitCandidate (lemp : lemon) (ap : action) : Bool :=
  decide (ap.type = e_action.SHIFTREDUCE ∧ (ruleAt lemp.rule ap.x).noCode = true ∧
    (ruleAt lemp.rule ap.x).rhs.length = 1 ∧
    ¬ (symAt lemp.symbols ap.sp).index < (lemp.nterminal : Int))

/-- Lines 5041-5060: the loop over the actions of one state, at position `i`; a
rewritten action is examined again (`nextap = ap`).  `fuel` bounds the number of
iterations; the `assert` fails as `none`. -/
def unitLoop (lemp : lemon) : Nat → Nat → List action → Option (List action)
  | 0, _, _ => none
  | fuel + 1, i, l =>
    match l[i]? with
    | none => some l
    | some ap =>
      if unitCandidate lemp ap then
        match findOther (ruleAt lemp.rule ap.x).lhs i l 0 with
        | none => none
        | some ap2 =>
          unitLoop lemp fuel i (l.set i { ap with
            spOpt := some ap2.sp
            type := ap2.type
            x := ap2.x })
      else unitLoop lemp fuel (i + 1) l

/-- Lines 5039-5061: the third loop, over the state pointers `ps`. -/
def unitStates (lemp : lemon) (fuel : Nat) : List Nat → List state → Option (List state)
  | [], states => some states
  | p :: rest, states =>
    match states[p]? with
    | none => none
    | some stp =>
      match unitLoop lemp fuel 0 stp.ap with
      | none => none
      | some ap1 => unitStates lemp fuel rest (states.set p { stp with ap := ap1 })

/-- `CompressTables` (lines 4952-5062) on the heap of states. -/
def CompressTables (code : e_action → Int) (fuel : Nat) (lemp : lemon) (states : List state) :
    Option (lemon × List state) :=
  match sortedStates lemp with
  | none => none
  | some ps =>
    match compressStates code ps (lemp, states) with
    | none => none
    | some (lemp1, states1) =>
      match fuseStates ps states1 with
      | none => none
      | some states2 =>
        match unitStates lemp1 fuel ps states2 with
        | none => none
        | some states3 => some (lemp1, states3)

/-- The number of `REDUCE` actions by rule `r` in an action list. -/
def reduceCount (r : Nat) (aps : List action) : Nat :=
  aps.countP (fun a => decide (a.type = e_action.REDUCE ∧ a.x = r))

/-- The rule that lines 4963-4992 select as the default of a state with the action list
`aps`; `none` when the loop body continues at line 4992. -/
def defaultRule (lemp : lemon) (aps : List action) : Option Nat :=
  if (bestRule lemp aps (0, none, 0)).1 < 1 ∨ (bestRule lemp aps (0, none, 0)).2.2 ≠ 0 then none
  else (bestRule lemp aps (0, none, 0)).2.1

/-- The invariant of the loop of lines 4967-4986 after the actions `pre` of the list
`all`: `usesWildcard` records a `SHIFT` on the wildcard, `nbest` bounds the number of
`REDUCE` actions of every rule seen so far whose left-hand side is not the start symbol,
and `rbest`, when set, is such a rule with exactly `nbest` actions. -/
def BestInv (lemp : lemon) (all pre : List action) (st : Int × Option Nat × Int) : Prop :=
  (st.2.2 ≠ 0 ↔ ∃ a ∈ pre, a.type = e_action.SHIFT ∧ some a.sp = lemp.wildcard) ∧
  (∀ a ∈ pre, a.type = e_action.REDUCE → (ruleAt lemp.rule a.x).lhsStart = 0 →
    (reduceCount a.x all : Int) ≤ st.1) ∧
  (match st.2.1 with
   | none => st.1 = 0 ∧
      ∀ a ∈ pre, a.type = e_action.REDUCE → (ruleAt lemp.rule a.x).lhsStart ≠ 0
   | some r => (ruleAt lemp.rule r).lhsStart = 0 ∧ (reduceCount r all : Int) = st.1 ∧
      ∃ a ∈ pre, a.type = e_action.REDUCE ∧ a.x = r)

/-- The condition under which lines 4988-4992 give a state with the action list `aps` no
default: no `REDUCE` by a rule whose left-hand side is not the start symbol, or a `SHIFT`
on the wildcard. -/
def NoDefaultCond (lemp : lemon) (aps : List action) : Prop :=
  (∀ a ∈ aps, a.type = e_action.REDUCE → (ruleAt lemp.rule a.x).lhsStart ≠ 0) ∨
  ∃ a ∈ aps, a.type = e_action.SHIFT ∧ some a.sp = lemp.wildcard

instance (lemp : lemon) (aps : List action) : Decidable (NoDefaultCond lemp aps) := by
  unfold NoDefaultCond; infer_instance

/-! ## The bucket loop of the two merge sorts -/

/-- The bucket loop shared by `msort` and `Rule_sort`: the list `ep` is carried through
the buckets, merged by `m` with every occupied bucket it passes, and stored in the first
free bucket, or in the last bucket when `n` reaches 0. -/
def carryBy {α : Type} (m : List α → List α → List α) (ep : List α) :
    Nat → List (List α) → List (List α)
  | _, [] => []
  | 0, _ :: rest => ep :: rest
  | _ + 1, [] :: rest => ep :: rest
  | n + 1, (y :: s) :: rest => [] :: carryBy m (m ep (y :: s)) n rest

/-- Every bucket is empty or holds `2^(k+j)` elements, where `j` is its position. -/
def Sized {α : Type} (k : Nat) (set : List (List α)) : Prop :=
  ∀ (j : Nat) (b : List α), set[j]? = some b → b = [] ∨ b.length = 2 ^ (k + j)

/-! ## Rule numbering and `Rule_sort` (`src/lemon.cpp`, lines 1386-1433 and 1554-1566) -/

/-- Lines 1558-1560 of `main`: the first numbering pass; returns the rules and `i`. -/
def numberCoded : List rule → Int → List rule × Int
  | [], i => ([], i)
  | rp :: rest, i =>
    if rp.code ≠ none then
      ({ rp with iRule := i } :: (numberCoded rest (i + 1)).1, (numberCoded rest (i + 1)).2)
    else ({ rp with iRule := -1 } :: (numberCoded rest i).1, (numberCoded rest i).2)

/-- Lines 1562-1564 of `main`: the second numbering pass. -/
def numberUncoded : List rule → Int → List rule × Int
  | [], i => ([], i)
  | rp :: rest, i =>
    if rp.iRule < 0 then
      ({ rp with iRule := i } :: (numberUncoded rest (i + 1)).1, (numberUncoded rest (i + 1)).2)
    else (rp :: (numberUncoded rest i).1, (numberUncoded rest i).2)

/-- The loop of `Rule_merge` (lines 1389-1406) with `n` iterations left. -/
def Rule_mergeLoop : Nat → List rule → List rule → List rule
  | 0, pA, pB => pA ++ pB
  | _ + 1, [], pB => pB
  | _ + 1, pA, [] => pA
  | n + 1, a :: pA, b :: pB =>
    if a.iRule < b.iRule then a :: Rule_mergeLoop n pA (b :: pB)
    else b :: Rule_mergeLoop n (a :: pA) pB

/-- `Rule_merge` (lines 1386-1408). -/
def Rule_merge (pA pB : List rule) : List rule :=
  Rule_mergeLoop (pA.length + pB.length) pA pB

/-- The inner loop of `Rule_sort` (lines 1421-1425): `rp` is merged with the buckets
`x[i], x[i+1], ...` while they are occupied and `i < 31`, and stored in the bucket that
stops the loop.  `n` is `31 - i`, the list is `x[i ..]`. -/
def Rule_carry (rp : List rule) : Nat → List (List rule) → List (List rule)
  | _, [] => []
  | 0, _ :: rest => rp :: rest
  | _ + 1, [] :: rest => rp :: rest
  | n + 1, (y :: s) :: rest => [] :: Rule_carry (Rule_merge (y :: s) rp) n rest

/-- The outer loop of `Rule_sort` (lines 1418-1427). -/
def Rule_fill : List rule → List (List rule) → List (List rule)
  | [], x => x
  | rp :: rest, x => Rule_fill rest (Rule_carry [rp] 31 x)

/-- `Rule_sort` (lines 1413-1433) with its 32 buckets. -/
def Rule_sort (rp : List rule) : List rule :=
  (Rule_fill rp (List.replicate 32 [])).foldl (fun rp b => Rule_merge b rp) []

/-- Lines 1558-1566 of `main`: the two numbering passes and the sort.  Returns the
sorted rule list and `nruleWithAction`. -/
def numberRules (rules : List rule) : List rule × Int :=
  (Rule_sort (numberUncoded (numberCoded rules 0).1 (numberCoded rules 0).2).1,
    (numberCoded rules 0).2)

/-- The number of rules with action code. -/
def codedCount (rules : List rule) : Nat := rules.countP (fun rp => decide (rp.code ≠ none))

/-- The number of rules without action code. -/
def uncodedCount (rules : List rule) : Nat := rules.countP (fun rp => decide (rp.code = none))

/-- The number that the two passes give to the rule at position `j` of the input list. -/
def ruleNumber (rules : List rule) (j : Nat) : Int :=
  match rules[j]? with
  | none => 0
  | some rp =>
    if rp.code ≠ none then (codedCount (rules.take j) : Int)
    else (codedCount rules : Int) + (uncodedCount (rules.take j) : Int)

/-- Four rules, the second and the fourth with action code. -/
def numberExample : List rule :=
  [{ lhs := 1, index := 0 }, { lhs := 1, index := 1, code := some "a" },
   { lhs := 2, index := 2 }, { lhs := 2, index := 3, code := some "b" }]

/-! ## Symbol indexing in `main` (`src/lemon.cpp`, lines 1528-1552) -/

/-- The test `name[0] > 'Z'` of `Symbolcmpp`, for names of 7-bit characters. -/
def firstAboveZ (x : String) : Bool :=
  match x.data with
  | [] => false
  | c :: _ => decide (90 < c.toNat)

/-- `Symbolcmpp` (lines 5277-5283). -/
def Symbolcmpp (a b : symbol) : Bool :=
  let i1 : Int := if a.type = symbol_type.MULTITERMINAL then 3 else if firstAboveZ a.name then 2 else 1
  let i2 : Int := if b.type = symbol_type.MULTITERMINAL then 3 else if firstAboveZ b.name then 2 else 1
  if i1 = i2 then decide (a.index < b.index) else decide (i1 < i2)

/-- The integer values of the enumerators of `symbol_type`, in the order of their
declaration. -/
def symbolTypeCode : symbol_type → Int
  | symbol_type.TERMINAL => 0
  | symbol_type.NONTERMINAL => 1
  | symbol_type.MULTITERMINAL => 2

/-- Insertion of `a` into a list sorted by `lt`, behind the elements that are not above
it. -/
def insertSorted {α : Type} (lt : α → α → Bool) (a : α) : List α → List α
  | [] => [a]
  | b :: rest => if lt a b then a :: b :: rest else b :: insertSorted lt a rest

/-- The library function `std::sort` with the comparison `lt`, as insertion sort: on a
strict total order every sorting algorithm gives this result. -/
def std_sort {α : Type} (lt : α → α → Bool) : List α → List α
  | [] => []
  | a :: rest => insertSorted lt a (std_sort lt rest)

/-- The binary search of the library function `std::lower_bound` on `[first, first+len)`:
the first position whose element does not satisfy `below`. -/
def lower_bound {α : Type} (below : α → Bool) (l : List α) : Nat → Nat → Nat → Nat
  | 0, first, _ => first
  | fuel + 1, first, len =>
    if len = 0 then first
    else
      match l[first + len / 2]? with
      | none => first
      | some e =>
        if below e then lower_bound below l fuel (first + len / 2 + 1) (len - len / 2 - 1)
        else lower_bound below l fuel first (len / 2)

/-- The library function `std::equal_range` with the comparison `comp` and the value
`val`: the pair of `std::lower_bound` and `std::upper_bound`, which is its result on a
range partitioned with respect to `val`. -/
def equal_range {α : Type} (comp : α → α → Bool) (val : α) (l : List α) : Nat × Nat :=
  (lower_bound (fun e => comp e val) l (l.length + 1) 0 l.length,
   lower_bound (fun e => !comp val e) l (l.length + 1) 0 l.length)

/-- Lines 1535-1537: `sp->index = i++` over the array. -/
def reindex : List symbol → Int → List symbol
  | [], _ => []
  | sp :: rest, i => { sp with index := i } :: reindex rest (i + 1)

/-- Lines 1528-1552 of `main`: `syms` is the symbol store after `Parse`.  Returns the
array `lem.symbols`, `lem.nsymbol` and `lem.nterminal`; the `assert` fails as `none`. -/
def indexSymbols (syms : List symbol) : Option (List symbol × Int × Int) :=
  let dflt := (Symbol_new syms "{default}").1
  let store := (Symbol_new syms "{default}").2
  let symbols := reindex (std_sort Symbolcmpp store) 0
  let range := equal_range
    (fun x y => decide (symbolTypeCode x.type < symbolTypeCode y.type)) (symAt store dflt) symbols
  let nsymbol : Int := (range.2 : Int) - 1
  if 0 ≤ nsymbol ∧ (symAt symbols nsymbol.toNat).name = "{default}" then
    some (symbols, nsymbol, (range.1 : Int))
  else none

/-- The symbol store after parsing the grammar `start ::= .`, which declares no
upper-case symbol: `$` (created by `main`) and `start`. -/
def noTerminalStore : List symbol :=
  (Symbol_new (Symbol_new [] "$").2 "start").2

/-- The symbol store after parsing the grammar `start ::= X.` -/
def oneTerminalStore : List symbol :=
  (Symbol_new (Symbol_new (Symbol_new [] "$").2 "start").2 "X").2

/-! ## FIRST-set completeness -/

/-- Terminal `t` is contributed by the symbol `X` standing first: `X` is the terminal
with index `t`, a multiterminal with a sub-symbol of index `t`, or a nonterminal whose
first set holds `t`. -/
def Emits (syms : List symbol) (X t : Nat) : Prop :=
  match syms[X]? with
  | none => False
  | some sx =>
    match sx.type with
    | symbol_type.TERMINAL => sx.index = (t : Int)
    | symbol_type.MULTITERMINAL =>
      ∃ q ∈ sx.subsym, ∃ sq, syms[q]? = some sq ∧ sq.index = (t : Int)
    | symbol_type.NONTERMINAL => firstBit syms X t = true

/-- Terminal `t` is contributed by the sentential form: by its first symbol, or by a
later symbol when all symbols in front of it are marked nullable. -/
def StartsIn (syms : List symbol) : List Nat → Nat → Prop
  | [], _ => False
  | X :: rest, t => Emits syms X t ∨ (isLambda syms X = true ∧ StartsIn syms rest t)

/-- The first set of `lhs` is closed under the scan of the right-hand side `rhs` (lines
672-691): the scan would add nothing. -/
def ScanClosed (syms : List symbol) (lhs : Nat) : List Nat → Prop
  | [] => True
  | p2 :: rest =>
    match syms[p2]? with
    | none => True
    | some s2 =>
      if s2.type = symbol_type.TERMINAL then
        0 ≤ s2.index ∧ firstBit syms lhs s2.index.toNat = true
      else if s2.type = symbol_type.MULTITERMINAL then
        ∀ q ∈ s2.subsym, ∃ sq, syms[q]? = some sq ∧ 0 ≤ sq.index ∧
          firstBit syms lhs sq.index.toNat = true
      else if lhs = p2 then s2.lambda = true → ScanClosed syms lhs rest
      else (∀ t, firstBit syms p2 t = true → firstBit syms lhs t = true) ∧
        (s2.lambda = true → ScanClosed syms lhs rest)

/-- Every first set has `size` entries. -/
def LenInv (size : Nat) (syms : List symbol) : Prop :=
  ∀ s ∈ syms, ∀ f, s.firstset = some f → f.length = size

/-! ## Defaults, fusion and unit rewrites of CompressTables -/

/-- The grammar `s ::= a Y.  a ::= b.  b ::= X.` as `main` hands it to `CompressTables`:
the symbols `$ Y X s a b {default}` at their indices and the three rules. -/
def unitLemon : lemon :=
  { symbols := [
      { name := "$", index := 0, type := symbol_type.NONTERMINAL },
      { name := "Y", index := 1, type := symbol_type.TERMINAL },
      { name := "X", index := 2, type := symbol_type.TERMINAL },
      { name := "s", index := 3, type := symbol_type.NONTERMINAL, rule := [0] },
      { name := "a", index := 4, type := symbol_type.NONTERMINAL, rule := [1] },
      { name := "b", index := 5, type := symbol_type.NONTERMINAL, rule := [2] },
      { name := "{default}", index := 6, type := symbol_type.NONTERMINAL }],
    rule := [
      { lhs := 3, rhs := [4, 1], index := 0, iRule := 0, lhsStart := 1, canReduce := true },
      { lhs := 4, rhs := [5], index := 1, iRule := 1, canReduce := true },
      { lhs := 5, rhs := [2], index := 2, iRule := 2, canReduce := true }],
    nsymbol := 6,
    nterminal := 3,
    nstate := 5,
    nrule := 3,
    start := some "s",
    sorted := [0, 1, 2, 3, 4] }

/-- The five states of that grammar with the actions that `FindActions` leaves:
state 0 is `s ::= . a Y`, state 1 is `s ::= a . Y`, state 2 is `s ::= a Y .`,
state 3 is `a ::= b .` and state 4 is `b ::= X .`. -/
def unitStatesExample : List state := [
  { bp := [{ rp := 0, dot := 0 }], statenum := 0,
    ap := [
      { sp := 2, type := e_action.SHIFT, x := 4, addr := 2 },
      { sp := 3, type := e_action.ACCEPT, x := 0, addr := 5 },
      { sp := 4, type := e_action.SHIFT, x := 1, addr := 0 },
      { sp := 5, type := e_action.SHIFT, x := 3, addr := 1 }] },
  { bp := [{ rp := 0, dot := 1 }], statenum := 1,
    ap := [{ sp := 1, type := e_action.SHIFT, x := 2, addr := 3 }] },
  { bp := [{ rp := 0, dot := 2 }], statenum := 2,
    ap := [{ sp := 0, type := e_action.REDUCE, x := 0, addr := 4 }] },
  { bp := [{ rp := 1, dot := 1 }], statenum := 3,
    ap := [{ sp := 1, type := e_action.REDUCE, x := 1, addr := 6 }] },
  { bp := [{ rp := 2, dot := 1 }], statenum := 4,
    ap := [{ sp := 1, type := e_action.REDUCE, x := 2, addr := 7 }] }]

/-- The grammar `%wildcard ANY.  s ::= a ANY.  a ::= X.`: the symbols
`$ ANY X s a {default}` and the two rules. -/
def wildLemon : lemon :=
  { symbols := [
      { name := "$", index := 0, type := symbol_type.NONTERMINAL },
      { name := "ANY", index := 1, type := symbol_type.TERMINAL },
      { name := "X", index := 2, type := symbol_type.TERMINAL },
      { name := "s", index := 3, type := symbol_type.NONTERMINAL, rule := [0] },
      { name := "a", index := 4, type := symbol_type.NONTERMINAL, rule := [1] },
      { name := "{default}", index := 5, type := symbol_type.NONTERMINAL }],
    rule := [
      { lhs := 3, rhs := [4, 1], index := 0, iRule := 0, lhsStart := 1, canReduce := true },
      { lhs := 4, rhs := [2], index := 1, iRule := 1, canReduce := true }],
    nsymbol := 5,
    nterminal := 3,
    nstate := 4,
    nrule := 2,
    wildcard := some 1,
    start := some "s",
    sorted := [0, 1, 2, 3] }

/-- The four states of that grammar with the actions that `FindActions` leaves:
state 0 is `s ::= . a ANY`, state 1 is `s ::= a . ANY`, state 2 is `s ::= a ANY .` and
state 3 is `a ::= X .`, whose only action is the `REDUCE` on the lookahead `ANY`. -/
def wildStates : List state := [
  { bp := [{ rp := 0, dot := 0 }], statenum := 0,
    ap := [
      { sp := 2, type := e_action.SHIFT, x := 3, addr := 1 },
      { sp := 3, type := e_action.ACCEPT, x := 0, addr := 4 },
      { sp := 4, type := e_action.SHIFT, x := 1, addr := 0 }] },
  { bp := [{ rp := 0, dot := 1 }], statenum := 1,
    ap := [{ sp := 1, type := e_action.SHIFT, x := 2, addr := 2 }] },
  { bp := [{ rp := 0, dot := 2 }], statenum := 2,
    ap := [{ sp := 0, type := e_action.REDUCE, x := 0, addr := 3 }] },
  { bp := [{ rp := 1, dot := 1 }], statenum := 3,
    ap := [{ sp := 1, type := e_action.REDUCE, x := 1, addr := 5 }] }]

/-- The states of `unitLemon` after `CompressTables`. -/
def unitFinal : List state := [
  { bp := [{ rp := 0, dot := 0 }], statenum := 0,
    ap := [
      { sp := 2, type := e_action.SHIFTREDUCE, x := 2, addr := 2 },
      { sp := 3, type := e_action.ACCEPT, x := 0, addr := 5 },
      { sp := 4, type := e_action.SHIFT, x := 1, addr := 0 },
      { sp := 5, type := e_action.SHIFT, x := 1, spOpt := some 4, addr := 1 }] },
  { bp := [{ rp := 0, dot := 1 }], statenum := 1,
    ap := [{ sp := 1, type := e_action.SHIFT, x := 2, addr := 3 }] },
  { bp := [{ rp := 0, dot := 2 }], statenum := 2,
    ap := [{ sp := 0, type := e_action.REDUCE, x := 0, addr := 4 }] },
  { bp := [{ rp := 1, dot := 1 }], statenum := 3,
    ap := [{ sp := 6, type := e_action.REDUCE, x := 1, addr := 6 }],
    autoReduce := 1, pDfltReduce := some 1 },
  { bp := [{ rp := 2, dot := 1 }], statenum := 4,
    ap := [{ sp := 6, type := e_action.REDUCE, x := 2, addr := 7 }],
    autoReduce := 1, pDfltReduce := some 2 }]

/-- The action list has no `SHIFT` and no `REDUCE` by a rule other than `r` (the loop of
lines 5006-5009 runs to the end of the list). -/
def OnlyDefault (r : Nat) (aps : List action) : Prop :=
  ∀ a ∈ aps, a.type ≠ e_action.SHIFT ∧ ¬ (a.type = e_action.REDUCE ∧ a.x ≠ r)

/-- What lines 5023-5029 do to the action `old` of a state, on the heap `states`: a
`SHIFT` to a state with `autoReduce` set becomes the `SHIFTREDUCE` by the `pDfltReduce`
of that state, on the same lookahead; any other action is left as it is. -/
def Fused (states : List state) (old new : action) : Prop :=
  if old.type = e_action.SHIFT ∧ (stateAt states old.x).autoReduce ≠ 0 then
    new.type = e_action.SHIFTREDUCE ∧ some new.x = (stateAt states old.x).pDfltReduce ∧
      new.sp = old.sp
  else new = old

/-- The states of `wildLemon` after `CompressTables`. -/
def wildFinal : List state := [
  { bp := [{ rp := 0, dot := 0 }], statenum := 0,
    ap := [
      { sp := 2, type := e_action.SHIFTREDUCE, x := 1, addr := 1 },
      { sp := 3, type := e_action.ACCEPT, x := 0, addr := 4 },
      { sp := 4, type := e_action.SHIFT, x := 1, addr := 0 }] },
  { bp := [{ rp := 0, dot := 1 }], statenum := 1,
    ap := [{ sp := 1, type := e_action.SHIFT, x := 2, addr := 2 }] },
  { bp := [{ rp := 0, dot := 2 }], statenum := 2,
    ap := [{ sp := 0, type := e_action.REDUCE, x := 0, addr := 3 }] },
  { bp := [{ rp := 1, dot := 1 }], statenum := 3,
    ap := [{ sp := 5, type := e_action.REDUCE, x := 1, addr := 5 }],
    autoReduce := 1, pDfltReduce := some 1 }]

/-- One rewrite of the loop of lines 5041-5060: the action at position `i` qualifies and
takes the tag and payload of the action at position `j`, the first other action of the
list whose lookahead is the left-hand side of its rule; `spOpt` records that lookahead. -/
def UnitStep (lemp : lemon) (l l1 : List action) : Prop :=
  ∃ (i : Nat) (ap : action) (j : Nat) (ap2 : action),
    l[i]? = some ap ∧ unitCandidate lemp ap = true ∧ l[j]? = some ap2 ∧ j ≠ i ∧
    ap2.sp = (ruleAt lemp.rule ap.x).lhs ∧
    (∀ (j1 : Nat) (c : action), j1 < j → l[j1]? = some c → j1 ≠ i →
      c.sp ≠ (ruleAt lemp.rule ap.x).lhs) ∧
    l1 = l.set i { ap with
      spOpt := some ap2.sp
      type := ap2.type
      x := ap2.x }

/-- The relation between an action before and after the second and third loop of
`CompressTables` as far as the default is concerned: the lookahead is kept, and the
action is a `REDUCE` by `r` afterwards exactly when it was one before, and stays
`NOT_USED` when it was. -/
def KeepsRed (r : Nat) (a b : action) : Prop :=
  b.sp = a.sp ∧
    ((b.type = e_action.REDUCE ∧ b.x = r) ↔ (a.type = e_action.REDUCE ∧ a.x = r)) ∧
    (a.type = e_action.NOT_USED → b.type = e_action.NOT_USED)

/-- The relation between an action of a state and the same action after `CompressTables`
selected the default rule `r`: a `REDUCE` by `r` either is the default, with the
lookahead `dflt`, or is tagged `NOT_USED`; any other action keeps its lookahead. -/
def Defaulted (dflt r : Nat) (old new : action) : Prop :=
  ((old.type = e_action.REDUCE ∧ old.x = r) →
    (new.type = e_action.REDUCE ∧ new.x = r ∧ new.sp = dflt) ∨
      new.type = e_action.NOT_USED) ∧
  (¬ (old.type = e_action.REDUCE ∧ old.x = r) →
    new.sp = old.sp ∧ ¬ (new.type = e_action.REDUCE ∧ new.x = r))

/-- `confighash` (lines 5336-5341), in `unsigned` arithmetic (modulo `2^32`). -/
def confighash (rules : List rule) (a : config) : Nat :=
  ((((0 : Nat) : Int) * 571 + (ruleAt rules a.rp).index * 37 + a.dot) % 4294967296).toNat

/-- A node of the associative array of configurations (`struct s_x4node`): `data` is the
address of the configuration, `key` its rule and dot as `Configlist_add` set them (they
never change afterwards), `next` the position in `tbl` of the next node with the same
hash. -/
structure x4node where
  data : Nat
  key : config
  next : Option Nat
  deriving DecidableEq, Repr

/-- The associative array of configurations (`struct s_x4`); `tbl` holds the `count`
filled slots, `ht` the `size` heads of the hash chains. -/
structure s_x4 where
  size : Nat
  count : Nat
  tbl : List x4node
  ht : List (Option Nat)
  deriving DecidableEq, Repr

/-- `Configtable_init` (lines 5547-5565). -/
def Configtable_init : s_x4 :=
  { size := 64, count := 0, tbl := [], ht := List.replicate 64 none }

/-- The `while (np)` loop of `Configtable_find` and `Configtable_insert` (lines 5579-5586
and 5633-5636), with `fuel` iterations left: the node whose configuration compares equal,
or `none` for the end of the chain.  A dangling position or an exhausted `fuel` fails. -/
def x4walk (rules : List rule) (tbl : List x4node) (key : config) :
    Nat → Option Nat → Option (Option x4node)
  | 0, _ => none
  | _ + 1, none => some none
  | fuel + 1, some i =>
    match tbl[i]? with
    | none => none
    | some np =>
      if Configcmp rules np.key key = 0 then some (some np)
      else x4walk rules tbl key fuel np.next

/-- `Configtable_find` (lines 5625-5638): the stored configuration for the key,
`some none` when there is none. -/
def Configtable_find (rules : List rule) (x4a : s_x4) (key : config) :
    Option (Option Nat) :=
  let h := confighash rules key &&& (x4a.size - 1)
  match x4a.ht[h]? with
  | none => none
  | some np =>
    match x4walk rules x4a.tbl key (x4a.count + 1) np with
    | none => none
    | some none => some none
    | some (some n) => some (some n.data)

/-- The re-hashing loop of `Configtable_insert` (lines 5597-5607). -/
def x4rehash (rules : List rule) (arrSize : Nat) :
    List x4node → List x4node → List (Option Nat) → Option (List x4node × List (Option Nat))
  | [], tbl, ht => some (tbl, ht)
  | oldnp :: rest, tbl, ht =>
    let h := confighash rules oldnp.key &&& (arrSize - 1)
    match ht[h]? with
    | none => none
    | some head =>
      x4rehash rules arrSize rest
        (tbl ++ [{ data := oldnp.data, key := oldnp.key, next := head }])
        (ht.set h (some tbl.length))

/-- `Configtable_insert` (lines 5569-5621): the new array and the return value. -/
def Configtable_insert (rules : List rule) (x4a : s_x4) (data : Nat) (key : config) :
    Option (s_x4 × Int) :=
  let ph := confighash rules key
  let h := ph &&& (x4a.size - 1)
  match x4a.ht[h]? with
  | none => none
  | some np =>
    match x4walk rules x4a.tbl key (x4a.count + 1) np with
    | none => none
    | some (some _) => some (x4a, 0)
    | some none =>
      let grown : Option s_x4 :=
        if x4a.count ≥ x4a.size then
          let arrSize := x4a.size * 2
          match x4rehash rules arrSize x4a.tbl [] (List.replicate arrSize none) with
          | none => none
          | some (tbl, ht) => some { size := arrSize, count := x4a.count, tbl := tbl, ht := ht }
        else some x4a
      match grown with
      | none => none
      | some x =>
        let h := ph &&& (x.size - 1)
        match x.ht[h]? with
        | none => none
        | some head =>
          some ({ size := x.size, count := x.count + 1,
                  tbl := x.tbl ++ [{ data := data, key := key, next := head }],
                  ht := x.ht.set h (some x.count) }, 1)

/-- `Configtable_clear` (lines 5642-5650) with a null `f`. -/
def Configtable_clear (x4a : s_x4) : s_x4 :=
  if x4a.count = 0 then x4a
  else { size := x4a.size, count := 0, tbl := [], ht := List.replicate x4a.size none }

/-- The static variables of the configuration list builder (lines 1107-1111) and the
heap of configurations.  `current` and `basis` are the chains through `next` and `bp`,
as the addresses of their configurations; `currentend` and `basisend` tell whether the
end pointers are non-null.  `newconfig` hands out the next record of the heap: a record
that `Configlist_eat` frees is referenced by nothing but the associative array, which is
cleared before its next use, so recycling it is not observable. -/
structure configlist where
  cfgs : List config
  current : List Nat
  currentend : Bool
  basis : List Nat
  basisend : Bool
  x4a : s_x4
  deriving DecidableEq, Repr

/-- `Configlist_init` (lines 1141-1148), called once, before any other routine. -/
def Configlist_init (cfgs : List config) : configlist :=
  { cfgs := cfgs, current := [], currentend := true, basis := [], basisend := true,
    x4a := Configtable_init }

/-- `Configlist_reset` (lines 1151-1158). -/
def Configlist_reset (g : configlist) : configlist :=
  { g with
    current := []
    currentend := true
    basis := []
    basisend := true
    x4a := Configtable_clear g.x4a }

/-- The record that `Configlist_add` and `Configlist_addbasis` fill in (lines 1172-1179);
`status` is the zero of `calloc`. -/
def freshConfig (size : Nat) (rp : Nat) (dot : Int) : config :=
  { rp := rp, dot := dot, fws := SetNew size, fplp := [], bplp := [],
    status := cfgstatus.COMPLETE, stp := none }

/-- `Configlist_add` (lines 1161-1186): the configuration and the new builder state. -/
def Configlist_add (rules : List rule) (size : Nat) (g : configlist) (rp : Nat) (dot : Int) :
    Option (Nat × configlist) :=
  if g.currentend = false then none
  else
    match Configtable_find rules g.x4a { rp := rp, dot := dot } with
    | none => none
    | some (some cfp) => some (cfp, g)
    | some none =>
      match Configtable_insert rules g.x4a g.cfgs.length { rp := rp, dot := dot } with
      | none => none
      | some (x4a1, _) =>
        some (g.cfgs.length, { g with
          cfgs := g.cfgs ++ [freshConfig size rp dot]
          current := g.current ++ [g.cfgs.length]
          x4a := x4a1 })

/-- `Configlist_addbasis` (lines 1189-1214). -/
def Configlist_addbasis (rules : List rule) (size : Nat) (g : configlist) (rp : Nat)
    (dot : Int) : Option (Nat × configlist) :=
  if g.basisend = false ∨ g.currentend = false then none
  else
    match Configtable_find rules g.x4a { rp := rp, dot := dot } with
    | none => none
    | some (some cfp) => some (cfp, g)
    | some none =>
      match Configtable_insert rules g.x4a g.cfgs.length { rp := rp, dot := dot } with
      | none => none
      | some (x4a1, _) =>
        some (g.cfgs.length, { g with
          cfgs := g.cfgs ++ [freshConfig size rp dot]
          current := g.current ++ [g.cfgs.length]
          basis := g.basis ++ [g.cfgs.length]
          x4a := x4a1 })

/-- The symbol `rp->rhs[dot]` of a configuration whose dot is not at the end; a dot
outside `0 .. nrhs-1` fails. -/
def afterDot (rules : List rule) (c : config) : Option Nat :=
  if 0 ≤ c.dot then (ruleAt rules c.rp).rhs[c.dot.toNat]? else none

/-- Lines 1243-1246: `SetAdd` of the index of every sub-symbol. -/
def closureSubs (size : Nat) (syms : List symbol) : List Nat → List Bool → Option (List Bool)
  | [], fws => some fws
  | q :: rest, fws =>
    match SetAdd size fws (symAt syms q).index with
    | none => none
    | some r => closureSubs size syms rest r.2

/-- Lines 1236-1253: the loop over the symbols `rhs[dot+1], ...` that follow the symbol
after the dot.  Returns the follow set and whether the loop ran to `nrhs`. -/
def closureFollow (size : Nat) (syms : List symbol) :
    List Nat → List Bool → Option (List Bool × Bool)
  | [], fws => some (fws, true)
  | xsp :: rest, fws =>
    match (symAt syms xsp).type with
    | symbol_type.TERMINAL =>
      match SetAdd size fws (symAt syms xsp).index with
      | none => none
      | some r => some (r.2, false)
    | symbol_type.MULTITERMINAL =>
      match closureSubs size syms (symAt syms xsp).subsym fws with
      | none => none
      | some fws1 => some (fws1, false)
    | symbol_type.NONTERMINAL =>
      match (symAt syms xsp).firstset with
      | none => none
      | some fs =>
        match SetUnion size fws fs with
        | none => none
        | some r =>
          if (symAt syms xsp).lambda = false then some (r.2, false)
          else closureFollow size syms rest r.2

/-- The body of the loop of lines 1234-1255 for the rule `newrp`: `cfp` is the
configuration being expanded and `rest` the symbols after the one that follows its
dot. -/
def closureRule (lemp : lemon) (size : Nat) (cfp : Nat) (rest : List Nat) (g : configlist)
    (newrp : Nat) : Option configlist :=
  match Configlist_add lemp.rule size g newrp 0 with
  | none => none
  | some (newcfp, g1) =>
    match closureFollow size lemp.symbols rest (cfgAt g1.cfgs newcfp).fws with
    | none => none
    | some (fws1, atEnd) =>
      let cfgs1 := g1.cfgs.set newcfp { cfgAt g1.cfgs newcfp with fws := fws1 }
      if atEnd then
        some { g1 with
          cfgs := cfgs1.set cfp { cfgAt cfgs1 cfp with fplp := newcfp :: (cfgAt cfgs1 cfp).fplp } }
      else some { g1 with cfgs := cfgs1 }

/-- The loop of lines 1234-1255 over the rules of the symbol after the dot. -/
def closureRules (lemp : lemon) (size : Nat) (cfp : Nat) (rest : List Nat) :
    List Nat → configlist → Option configlist
  | [], g => some g
  | newrp :: more, g =>
    match closureRule lemp size cfp rest g newrp with
    | none => none
    | some g1 => closureRules lemp size cfp rest more g1

/-- The loop of `Configlist_closure` (lines 1224-1257) at position `i` of the list
`current`, which grows while the loop runs; `fuel` bounds the number of iterations.  The
second component is `lemp.errorcnt`. -/
def closureLoop (lemp : lemon) (size : Nat) :
    Nat → Nat → configlist × Int → Option (configlist × Int)
  | 0, _, _ => none
  | fuel + 1, i, (g, errorcnt) =>
    match g.current[i]? with
    | none => some (g, errorcnt)
    | some cfp =>
      let rp := ruleAt lemp.rule (cfgAt g.cfgs cfp).rp
      let dot := (cfgAt g.cfgs cfp).dot
      if dot ≥ (rp.rhs.length : Int) then closureLoop lemp size fuel (i + 1) (g, errorcnt)
      else
        match afterDot lemp.rule (cfgAt g.cfgs cfp) with
        | none => none
        | some sp =>
          if (symAt lemp.symbols sp).type = symbol_type.NONTERMINAL then
            let errorcnt1 :=
              if (symAt lemp.symbols sp).rule = [] ∧ some sp ≠ lemp.errsym then errorcnt + 1
              else errorcnt
            match closureRules lemp size cfp (rp.rhs.drop (dot.toNat + 1))
                (symAt lemp.symbols sp).rule g with
            | none => none
            | some g1 => closureLoop lemp size fuel (i + 1) (g1, errorcnt1)
          else closureLoop lemp size fuel (i + 1) (g, errorcnt)

/-- `Configlist_closure` (lines 1217-1259). -/
def Configlist_closure (lemp : lemon) (size fuel : Nat) (g : configlist) (errorcnt : Int) :
    Option (configlist × Int) :=
  if g.currentend = false then none else closureLoop lemp size fuel 0 (g, errorcnt)

/-! ## FindStates, FindLinks and FindFollowSets on the heap (lines 702-942) -/

/-- `same_symbol` (lines 807-818) on two symbol pointers. -/
def same_symbol (syms : List symbol) (a b : Nat) : Bool :=
  if a = b then true
  else if (symAt syms a).type ≠ symbol_type.MULTITERMINAL then false
  else if (symAt syms b).type ≠ symbol_type.MULTITERMINAL then false
  else if (symAt syms a).subsym.length ≠ (symAt syms b).subsym.length then false
  else decide ((symAt syms a).subsym = (symAt syms b).subsym)

/-- `Plink_copy` (lines 3053-3062) on the lists of the linked configurations: every link
of `src` moves to the head of `dst`, one after the other. -/
def Plink_copy (dst src : List Nat) : List Nat := src.reverse ++ dst

/-- What `FindStates` and the routines it calls work on: the grammar, the configuration
list builder with the heap of configurations, the state store, and the next free action
address. -/
structure Heap.world where
  lemp : lemon
  cl : configlist
  store : stateStore
  nextap : Int
  deriving DecidableEq, Repr

/-- `Configlist_sortbasis` followed by `Configlist_basis` (lines 1270-1275 and
1288-1295): the chain from `current` through `bp`, which is the basis when the basis was
added first, sorted by `Configcmp`. -/
def Heap.Configlist_sortbasis (rules : List rule) (g : configlist) :
    Option (List Nat × configlist) :=
  if g.current.head? = g.basis.head? then
    some (msort (fun a b => Configcmp rules (cfgAt g.cfgs a) (cfgAt g.cfgs b)) g.basis,
      { g with
        basis := []
        basisend := false })
  else none

/-- `Configlist_sort` followed by `Configlist_return` (lines 1262-1267 and
1278-1285). -/
def Heap.Configlist_sort (rules : List rule) (g : configlist) : List Nat × configlist :=
  (msort (fun a b => Configcmp rules (cfgAt g.cfgs a) (cfgAt g.cfgs b)) g.current,
    { g with
      current := []
      currentend := false })

/-- The loop of lines 780-784 over the new basis `x` and the basis `y` of the state that
exists already. -/
def Heap.copyLinks : List Nat → List Nat → List config → List config
  | x :: xs, y :: ys, cfgs =>
    let cfgs1 := cfgs.set y { cfgAt cfgs y with
      bplp := Plink_copy (cfgAt cfgs y).bplp (cfgAt cfgs x).bplp }
    Heap.copyLinks xs ys (cfgs1.set x { cfgAt cfgs1 x with
      fplp := []
      bplp := [] })
  | _, _, cfgs => cfgs

/-- `Configlist_eat` (lines 1298-1309): the two `assert`s for every configuration of the
list; the records go back to the free list. -/
def Heap.Configlist_eat (cfgs : List config) (l : List Nat) : Option Unit :=
  if l.all (fun a => (cfgAt cfgs a).fplp = [] ∧ (cfgAt cfgs a).bplp = []) then some ()
  else none

/-- The inner loop of `buildshifts` (lines 846-854) over the configurations from `cfp`
on: those with `sp` after the dot are marked and enter the new basis with the dot moved
one symbol to the right. -/
def Heap.shiftBasis (lemp : lemon) (size : Nat) (sp : Nat) :
    List Nat → configlist → Option configlist
  | [], g => some g
  | bcfp :: rest, g =>
    if (cfgAt g.cfgs bcfp).status = cfgstatus.COMPLETE then
      Heap.shiftBasis lemp size sp rest g
    else if (cfgAt g.cfgs bcfp).dot ≥ ((ruleAt lemp.rule (cfgAt g.cfgs bcfp).rp).rhs.length : Int) then
      Heap.shiftBasis lemp size sp rest g
    else
      match afterDot lemp.rule (cfgAt g.cfgs bcfp) with
      | none => none
      | some bsp =>
        if same_symbol lemp.symbols bsp sp = false then Heap.shiftBasis lemp size sp rest g
        else
          let c := cfgAt g.cfgs bcfp
          match Configlist_addbasis lemp.rule size
              { g with cfgs := g.cfgs.set bcfp { c with status := cfgstatus.COMPLETE } }
              c.rp (c.dot + 1) with
          | none => none
          | some (newcfg, g1) =>
            Heap.shiftBasis lemp size sp rest { g1 with
              cfgs := g1.cfgs.set newcfg { cfgAt g1.cfgs newcfg with
                bplp := bcfp :: (cfgAt g1.cfgs newcfg).bplp } }

/-- Lines 863-871 of `buildshifts`: the `SHIFT` actions to the state `newstp`. -/
def Heap.addShifts (syms : List symbol) (sp newstp : Nat) (app : List action × Int) :
    List action × Int :=
  if (symAt syms sp).type = symbol_type.MULTITERMINAL then
    (symAt syms sp).subsym.foldl (fun a q => Action_add a e_action.SHIFT q newstp) app
  else Action_add app e_action.SHIFT sp newstp

/-- The outer loop of `buildshifts` (lines 837-871) for the state `stp`, over its
configurations; `gs` is `getstate`. -/
def Heap.shiftLoop (gs : Heap.world → Option (Nat × Heap.world)) (size : Nat) (stp : Nat) :
    List Nat → Heap.world → Option Heap.world
  | [], w => some w
  | cfp :: rest, w =>
    if (cfgAt w.cl.cfgs cfp).status = cfgstatus.COMPLETE then
      Heap.shiftLoop gs size stp rest w
    else if (cfgAt w.cl.cfgs cfp).dot ≥
        ((ruleAt w.lemp.rule (cfgAt w.cl.cfgs cfp).rp).rhs.length : Int) then
      Heap.shiftLoop gs size stp rest w
    else
      match afterDot w.lemp.rule (cfgAt w.cl.cfgs cfp) with
      | none => none
      | some sp =>
        match Heap.shiftBasis w.lemp size sp (cfp :: rest) (Configlist_reset w.cl) with
        | none => none
        | some cl1 =>
          match gs { w with cl := cl1 } with
          | none => none
          | some (newstp, w1) =>
            match w1.store.states[stp]? with
            | none => none
            | some st =>
              let app := Heap.addShifts w1.lemp.symbols sp newstp (st.ap, w1.nextap)
              Heap.shiftLoop gs size stp rest { w1 with
                store := { w1.store with states := w1.store.states.set stp { st with ap := app.1 } }
                nextap := app.2 }

/-- `buildshifts` (lines 823-872); `gs` is `getstate`. -/
def Heap.buildshifts (gs : Heap.world → Option (Nat × Heap.world)) (size : Nat) (stp : Nat)
    (w : Heap.world) : Option Heap.world :=
  match w.store.states[stp]? with
  | none => none
  | some st =>
    Heap.shiftLoop gs size stp st.cfp { w with
      cl := { w.cl with
        cfgs := st.cfp.foldl
          (fun cfgs a => cfgs.set a { cfgAt cfgs a with status := cfgstatus.INCOMPLETE })
          w.cl.cfgs } }

/-- `getstate` (lines 762-802) on the whole heap; `fuel` bounds the depth of the
recursion through `buildshifts`, `cfuel` the iterations of `Configlist_closure`. -/
def Heap.getstate (size cfuel : Nat) : Nat → Heap.world → Option (Nat × Heap.world)
  | 0, _ => none
  | fuel + 1, w =>
    match Heap.Configlist_sortbasis w.lemp.rule w.cl with
    | none => none
    | some (bp, cl1) =>
      match State_find w.lemp.rule w.store.x3a (bp.map (cfgAt cl1.cfgs)) with
      | none => none
      | some (some stp) =>
        match w.store.states[stp]? with
        | none => none
        | some st =>
          let cfgs1 := Heap.copyLinks bp st.bpa cl1.cfgs
          match Heap.Configlist_eat cfgs1 cl1.current with
          | none => none
          | some _ =>
            some (stp, { w with
              cl := { cl1 with
                cfgs := cfgs1
                current := []
                currentend := false } })
      | some none =>
        match Configlist_closure w.lemp size cfuel cl1 w.lemp.errorcnt with
        | none => none
        | some (cl2, errorcnt) =>
          let stp := w.store.states.length
          let st : state :=
            { bp := bp.map (cfgAt cl2.cfgs), statenum := w.store.nstate,
              cfp := (Heap.Configlist_sort w.lemp.rule cl2).1, bpa := bp, ap := [] }
          match State_insert w.lemp.rule w.store.x3a stp st.bp with
          | none => none
          | some (x3a1, _) =>
            match Heap.buildshifts (Heap.getstate size cfuel fuel) size stp
                { lemp := { w.lemp with errorcnt := errorcnt },
                  cl := (Heap.Configlist_sort w.lemp.rule cl2).2,
                  store := { x3a := x3a1, states := w.store.states ++ [st],
                             nstate := w.store.nstate + 1 },
                  nextap := w.nextap } with
            | none => none
            | some w1 => some (stp, w1)

/-- Lines 730-740 of `FindStates`: the number of occurrences of the start symbol on the
right-hand sides. -/
def Heap.startOnRhs (rules : List rule) (sp : Nat) : Int :=
  ((rules.map (fun rp => rp.rhs.count sp)).sum : Nat)

/-- Lines 745-750 of `FindStates`: the rules of the start symbol enter the basis with
the end marker in their follow sets. -/
def Heap.startBasis (size : Nat) : List Nat → lemon × configlist → Option (lemon × configlist)
  | [], r => some r
  | rp :: rest, (lemp, g) =>
    let rules1 := lemp.rule.set rp { ruleAt lemp.rule rp with lhsStart := 1 }
    match Configlist_addbasis rules1 size g rp 0 with
    | none => none
    | some (newcfp, g1) =>
      match SetAdd size (cfgAt g1.cfgs newcfp).fws 0 with
      | none => none
      | some r =>
        Heap.startBasis size rest ({ lemp with rule := rules1 },
          { g1 with cfgs := g1.cfgs.set newcfp { cfgAt g1.cfgs newcfp with fws := r.2 } })

/-- `FindStates` (lines 702-756), after `State_init` and `lemp.nstate = 0` of `main`. -/
def Heap.FindStates (size cfuel fuel : Nat) (lemp : lemon) : Option Heap.world :=
  let found := lemp.start.bind (Symbol_find lemp.symbols)
  let lemp1 :=
    if lemp.start.isSome ∧ found = none then { lemp with errorcnt := lemp.errorcnt + 1 }
    else lemp
  match startSymbol lemp with
  | none => none
  | some sp =>
    let lemp2 := { lemp1 with errorcnt := lemp1.errorcnt + Heap.startOnRhs lemp1.rule sp }
    match Heap.startBasis size (symAt lemp2.symbols sp).rule (lemp2, Configlist_init []) with
    | none => none
    | some (lemp3, g) =>
      match Heap.getstate size cfuel fuel
          { lemp := { lemp3 with nstate := 0 }, cl := g, store := storeInit, nextap := 0 } with
      | none => none
      | some (_, w) => some { w with lemp := { w.lemp with nstate := w.store.nstate } }

/-- `State_arrayof` (lines 5503-5514). -/
def State_arrayof (x3a : s_x3) : List Nat := (x3a.tbl.take x3a.count).map (fun n => n.data)

/-- The first loop of `FindLinks` (lines 887-892): `cfp->stp = stp`. -/
def Heap.linkStates (states : List state) : List Nat → List config → Option (List config)
  | [], cfgs => some cfgs
  | p :: rest, cfgs =>
    match states[p]? with
    | none => none
    | some st =>
      Heap.linkStates states rest
        (st.cfp.foldl (fun c a => c.set a { cfgAt c a with stp := some p }) cfgs)

/-- Lines 899-902 of `FindLinks`: a forward link to `cfp` in every configuration of its
backward list. -/
def Heap.forwardLinks (cfp : Nat) (cfgs : List config) : List config :=
  (cfgAt cfgs cfp).bplp.foldl
    (fun c other => c.set other { cfgAt c other with fplp := cfp :: (cfgAt c other).fplp }) cfgs

/-- The second loop of `FindLinks` (lines 896-904). -/
def Heap.linkForward (states : List state) : List Nat → List config → Option (List config)
  | [], cfgs => some cfgs
  | p :: rest, cfgs =>
    match states[p]? with
    | none => none
    | some st =>
      Heap.linkForward states rest (st.cfp.foldl (fun c a => Heap.forwardLinks a c) cfgs)

/-- `FindLinks` (lines 877-905). -/
def Heap.FindLinks (lemp : lemon) (states : List state) (cfgs : List config) :
    Option (List config) :=
  match sortedStates lemp with
  | none => none
  | some ps =>
    match Heap.linkStates states ps cfgs with
    | none => none
    | some cfgs1 => Heap.linkForward states ps cfgs1

/-- Lines 931-937 of `FindFollowSets`: the follow set of `cfp` is added to the follow set
of every configuration of its forward list. -/
def Heap.propagate (size : Nat) (cfp : Nat) :
    List Nat → List config × Int → Option (List config × Int)
  | [], r => some r
  | other :: rest, (cfgs, progress) =>
    match SetUnion size (cfgAt cfgs other).fws (cfgAt cfgs cfp).fws with
    | none => none
    | some (change, fws1) =>
      if change ≠ 0 then
        Heap.propagate size cfp rest
          (cfgs.set other { cfgAt cfgs other with
            fws := fws1
            status := cfgstatus.INCOMPLETE }, 1)
      else Heap.propagate size cfp rest (cfgs.set other { cfgAt cfgs other with fws := fws1 },
        progress)

/-- Lines 929-939 of `FindFollowSets` for the configurations of one state. -/
def Heap.followConfigs (size : Nat) :
    List Nat → List config × Int → Option (List config × Int)
  | [], r => some r
  | cfp :: rest, (cfgs, progress) =>
    if (cfgAt cfgs cfp).status = cfgstatus.COMPLETE then
      Heap.followConfigs size rest (cfgs, progress)
    else
      match Heap.propagate size cfp (cfgAt cfgs cfp).fplp (cfgs, progress) with
      | none => none
      | some (cfgs1, progress1) =>
        Heap.followConfigs size rest
          (cfgs1.set cfp { cfgAt cfgs1 cfp with status := cfgstatus.COMPLETE }, progress1)

/-- One pass of the `do` loop of `FindFollowSets` (lines 927-940) over the states. -/
def Heap.followPass (size : Nat) (states : List state) :
    List Nat → List config × Int → Option (List config × Int)
  | [], r => some r
  | p :: rest, r =>
    match states[p]? with
    | none => none
    | some st =>
      match Heap.followConfigs size st.cfp r with
      | none => none
      | some r1 => Heap.followPass size states rest r1

/-- The `do ... while (progress)` loop of `FindFollowSets`, with `fuel` passes left. -/
def Heap.followLoop (size : Nat) (states : List state) (ps : List Nat) :
    Nat → List config → Option (List config)
  | 0, _ => none
  | fuel + 1, cfgs =>
    match Heap.followPass size states ps (cfgs, 0) with
    | none => none
    | some (cfgs1, progress) =>
      if progress ≠ 0 then Heap.followLoop size states ps fuel cfgs1 else some cfgs1

/-- `FindFollowSets` (lines 912-942). -/
def Heap.FindFollowSets (size fuel : Nat) (lemp : lemon) (states : List state)
    (cfgs : List config) : Option (List config) :=
  match sortedStates lemp with
  | none => none
  | some ps =>
    let cfgs0 := ps.foldl (fun c p =>
      (stateAt states p).cfp.foldl
        (fun c1 a => c1.set a { cfgAt c1 a with status := cfgstatus.INCOMPLETE }) c) cfgs
    Heap.followLoop size states ps fuel cfgs0

/-- Lines 1573-1591 of `main`: `SetSize(nterminal + 1)`, then `FindRulePrecedences`,
`FindFirstSets`, `FindStates`, `State_arrayof`, `FindLinks` and `FindFollowSets`.
Returns the grammar, the states, the configurations and the next free action address. -/
def Heap.followed (fuel : Nat) (lemp : lemon) :
    Option (lemon × List state × List config × Int) :=
  match FindFirstSets (lemp.nterminal + 1 + 1) fuel (FindRulePrecedences lemp) with
  | none => none
  | some lemp1 =>
    match Heap.FindStates (lemp.nterminal + 1 + 1) fuel fuel lemp1 with
    | none => none
    | some w =>
      match Heap.FindLinks { w.lemp with sorted := State_arrayof w.store.x3a } w.store.states
          w.cl.cfgs with
      | none => none
      | some cfgs1 =>
        match Heap.FindFollowSets (lemp.nterminal + 1 + 1) fuel
            { w.lemp with sorted := State_arrayof w.store.x3a } w.store.states cfgs1 with
        | none => none
        | some cfgs2 =>
          some ({ w.lemp with sorted := State_arrayof w.store.x3a }, w.store.states, cfgs2,
            w.nextap)

/-- Lines 1573-1594 of `main`: the analysis up to `FindActions`. -/
def Heap.analyse (code : e_action → Int) (fuel : Nat) (lemp : lemon) :
    Option (lemon × List state × Int) :=
  match Heap.followed fuel lemp with
  | none => none
  | some (lemp2, states, cfgs, nextap) => FindActions lemp2 code cfgs (states, nextap)

/-- The grammar `e ::= e PLUS t | t.  t ::= t TIMES f | f.  f ::= LP e RP | ID.` as
`main` hands it to the analysis: the symbols `$ PLUS TIMES LP RP ID e t f {default}` at
their indices, the six rules, no start symbol and no precedence declared. -/
def exprLemon : lemon :=
  { symbols := [
      { name := "$", index := 0, type := symbol_type.NONTERMINAL },
      { name := "PLUS", index := 1, type := symbol_type.TERMINAL },
      { name := "TIMES", index := 2, type := symbol_type.TERMINAL },
      { name := "LP", index := 3, type := symbol_type.TERMINAL },
      { name := "RP", index := 4, type := symbol_type.TERMINAL },
      { name := "ID", index := 5, type := symbol_type.TERMINAL },
      { name := "e", index := 6, type := symbol_type.NONTERMINAL, rule := [1, 0] },
      { name := "t", index := 7, type := symbol_type.NONTERMINAL, rule := [3, 2] },
      { name := "f", index := 8, type := symbol_type.NONTERMINAL, rule := [5, 4] },
      { name := "{default}", index := 9, type := symbol_type.NONTERMINAL }],
    rule := [
      { lhs := 6, rhs := [6, 1, 7], index := 0, iRule := 0 },
      { lhs := 6, rhs := [7], index := 1, iRule := 1 },
      { lhs := 7, rhs := [7, 2, 8], index := 2, iRule := 2 },
      { lhs := 7, rhs := [8], index := 3, iRule := 3 },
      { lhs := 8, rhs := [3, 6, 4], index := 4, iRule := 4 },
      { lhs := 8, rhs := [5], index := 5, iRule := 5 }],
    nsymbol := 9,
    nterminal := 6,
    nrule := 6,
    startRule := some 0 }

/-! ## The closure of a configuration list -/

/-- A node of the array of configurations as a node of the array of states whose key is
the list of the one configuration. -/
def node3 (n : x4node) : x3node := { data := n.data, key := [n.key], next := n.next }

/-- The array of configurations as an array of states with one-configuration keys. -/
def toX3 (x : s_x4) : s_x3 :=
  { size := x.size, count := x.count, tbl := x.tbl.map node3, ht := x.ht }

/-- The rule and the dot of the configuration at address `a`. -/
def item (cfgs : List config) (a : Nat) : Nat × Int := ((cfgAt cfgs a).rp, (cfgAt cfgs a).dot)

/-- The pair `(rp->index, dot)` of the configuration at address `a`, by which the array
of configurations tells configurations apart. -/
def keyOf (rules : List rule) (cfgs : List config) (a : Nat) : Int × Int :=
  configKey rules (cfgAt cfgs a)

/-- The invariant of the configuration list builder between `Configlist_reset` and
`Configlist_sort`: the array of configurations has well-formed hash chains and holds
exactly the configurations of `current`, in order, which are in the heap, pairwise
different in `(rule index, dot)`, with follow sets of `size` bytes and dots that are not
negative; `currentend` is not null. -/
structure ListInv (rules : List rule) (size : Nat) (g : configlist) : Prop where
  chain : ChainOK rules g.x4a.size (g.x4a.tbl.map node3) g.x4a.ht
  count : g.x4a.tbl.length = g.x4a.count
  entries : g.x4a.tbl.map (fun n => (n.data, configKey rules n.key)) =
    g.current.map (fun a => (a, keyOf rules g.cfgs a))
  nodup : (g.current.map (keyOf rules g.cfgs)).Nodup
  valid : ∀ a ∈ g.current, a < g.cfgs.length
  isOpen : g.currentend = true
  fws : ∀ a ∈ g.current, (cfgAt g.cfgs a).fws.length = size
  dots : ∀ a ∈ g.current, 0 ≤ (cfgAt g.cfgs a).dot

/-- What the loop of lines 1236-1253 needs of the symbol `x`: a terminal (or every
sub-symbol of a multiterminal) has its index in `0 .. size-1`, the range that the `assert`
of `SetAdd` admits, and a nonterminal has a first set of `size` bytes. -/
def symFollowOK (size : Nat) (syms : List symbol) (x : Nat) : Bool :=
  match (symAt syms x).type with
  | symbol_type.TERMINAL =>
    decide (0 ≤ (symAt syms x).index ∧ (symAt syms x).index < (size : Int))
  | symbol_type.MULTITERMINAL =>
    (symAt syms x).subsym.all (fun q =>
      decide (0 ≤ (symAt syms q).index ∧ (symAt syms q).index < (size : Int)))
  | symbol_type.NONTERMINAL =>
    match (symAt syms x).firstset with
    | some fs => decide (fs.length = size)
    | none => false

/-- Every right-hand-side symbol of every rule satisfies `symFollowOK`, as is the case
after `FindFirstSets` with `size = nterminal + 2`. -/
def FollowOK (size : Nat) (lemp : lemon) : Prop :=
  ∀ rp ∈ lemp.rule, ∀ x ∈ rp.rhs, symFollowOK size lemp.symbols x = true

instance (size : Nat) (lemp : lemon) : Decidable (FollowOK size lemp) := by
  unfold FollowOK; infer_instance

/-- The items `(rule, dot)` that the expansion step of the closure reaches from the items
`B`: an item of `B`, or `(newrp, 0)` for a rule `newrp` of the nonterminal that follows
the dot of an item reached before. -/
inductive Expansion (lemp : lemon) (B : List (Nat × Int)) : Nat × Int → Prop where
  | basis {it : Nat × Int} : it ∈ B → Expansion lemp B it
  | expand {rp : Nat} {dot : Int} {sp newrp : Nat} :
      Expansion lemp B (rp, dot) →
      dot < ((ruleAt lemp.rule rp).rhs.length : Int) →
      afterDot lemp.rule { rp := rp, dot := dot } = some sp →
      (symAt lemp.symbols sp).type = symbol_type.NONTERMINAL →
      newrp ∈ (symAt lemp.symbols sp).rule →
      Expansion lemp B (newrp, 0)

/-- The configuration at `a` is expanded in the list `g.current`: when a nonterminal
follows its dot, the list holds, for every rule of that nonterminal, a configuration
with the index of that rule and the dot at 0. -/
def Expanded (lemp : lemon) (g : configlist) (a : Nat) : Prop :=
  ∀ sp, (cfgAt g.cfgs a).dot < ((ruleAt lemp.rule (cfgAt g.cfgs a).rp).rhs.length : Int) →
    afterDot lemp.rule (cfgAt g.cfgs a) = some sp →
    (symAt lemp.symbols sp).type = symbol_type.NONTERMINAL →
    ∀ newrp ∈ (symAt lemp.symbols sp).rule, ∃ b ∈ g.current,
      keyOf lemp.rule g.cfgs b = configKey lemp.rule { rp := newrp, dot := 0 }

/-- The invariant of the loop of `Configlist_closure` at position `i`, for the list `g0`
at the call: the builder invariant holds, the list is the list at the call followed by
new configurations with the dot at 0, the configurations of the heap at the call have
kept their rule and dot, every configuration of the list is reached by expansions from
the list at the call, and the configurations before position `i` are expanded. -/
structure ClosInv (lemp : lemon) (size : Nat) (g0 g : configlist) (i : Nat) : Prop where
  inv : ListInv lemp.rule size g
  grow : g0.cfgs.length ≤ g.cfgs.length
  keep : ∀ a, a < g0.cfgs.length → item g.cfgs a = item g0.cfgs a
  ext : ∃ new, g.current = g0.current ++ new ∧ ∀ a ∈ new, (cfgAt g.cfgs a).dot = 0
  reach : ∀ a ∈ g.current, Expansion lemp (g0.current.map (item g0.cfgs)) (item g.cfgs a)
  closed : ∀ (k a : Nat), k < i → g.current[k]? = some a → Expanded lemp g a

/-- The grammar `exprLemon` with the first sets that `FindFirstSets` computes. -/
def exprFirst : lemon :=
  (FindFirstSets 8 30 (FindRulePrecedences exprLemon)).getD exprLemon

/-- The configuration list after `Configlist_init` and `Configlist_addbasis` for the item
`e ::= . e PLUS t` of `exprFirst`. -/
def closureExample : configlist :=
  ((Configlist_addbasis exprFirst.rule 8 (Configlist_init []) 0 0).map Prod.snd).getD
    (Configlist_init [])

/-! ## Further example inputs -/

/-- The grammar `%nonassoc OP ID.  s ::= ID OP ID.  s ::= e OP ID.  s ::= f OP ID.
e ::= ID.  f ::= ID.` as `main` hands it to the analysis: the symbols
`$ OP ID s e f {default}` at their indices, `OP` and `ID` with precedence 1 and no
associativity, and the five rules. -/
def nonassocLemon : lemon :=
  { symbols := [
      { name := "$", index := 0, type := symbol_type.NONTERMINAL },
      { name := "OP", index := 1, type := symbol_type.TERMINAL, prec := 1, assoc := e_assoc.NONE },
      { name := "ID", index := 2, type := symbol_type.TERMINAL, prec := 1, assoc := e_assoc.NONE },
      { name := "s", index := 3, type := symbol_type.NONTERMINAL, rule := [2, 1, 0] },
      { name := "e", index := 4, type := symbol_type.NONTERMINAL, rule := [3] },
      { name := "f", index := 5, type := symbol_type.NONTERMINAL, rule := [4] },
      { name := "{default}", index := 6, type := symbol_type.NONTERMINAL }],
    rule := [
      { lhs := 3, rhs := [2, 1, 2], index := 0, iRule := 0 },
      { lhs := 3, rhs := [4, 1, 2], index := 1, iRule := 1 },
      { lhs := 3, rhs := [5, 1, 2], index := 2, iRule := 2 },
      { lhs := 4, rhs := [2], index := 3, iRule := 3 },
      { lhs := 5, rhs := [2], index := 4, iRule := 4 }],
    nsymbol := 6,
    nterminal := 3,
    nrule := 5,
    startRule := some 0 }

/-- The table after the first nine rows of `phantomRows`, with the tenth row entered by
`acttab_action` and the growth step of `acttab_insert` done: the table on which the two
searches of the tenth `acttab_insert` run. -/
def phantomTable : Option acttab :=
  (runRows (acttab_alloc 10 1) (phantomRows.take 9)).map (fun r =>
    acttab_grow (enterRow r.2 [⟨5, 1⟩, ⟨6, 1⟩, ⟨9, 0⟩]))

/-! ## Termination measures of the fixpoint loops -/

/-- Number of symbols whose `lambda` flag is set. -/
def lambdaCount (syms : List symbol) : Nat :=
  (syms.map (fun s => if s.lambda = true then 1 else 0)).sum

/-- Number of bits set in the first set of a symbol. -/
def firstBits (s : symbol) : Nat :=
  match s.firstset with
  | some f => f.count true
  | none => 0

/-- Total number of bits set in the first sets of the symbol table. -/
def firstCount (syms : List symbol) : Nat := (syms.map firstBits).sum

/-- What the two loops of `FindFirstSets` rely on, for the symbol table `syms` at the start
of a pass: first sets have `size` bytes; only nonterminals are flagged nullable (the
`assert` of line 656); the left-hand side of every rule is a nonterminal with a first
set; a right-hand-side terminal and the sub-symbols of a right-hand-side multiterminal
have their index in `0 .. size-1` (the `assert` of `SetAdd`), and a right-hand-side
nonterminal has a first set. -/
structure PassInv (size : Nat) (rules : List rule) (syms : List symbol) : Prop where
  len : LenInv size syms
  lam : ∀ s ∈ syms, s.lambda = true → s.type = symbol_type.NONTERMINAL
  lhs : ∀ rp ∈ rules, ∃ s, syms[rp.lhs]? = some s ∧ s.type = symbol_type.NONTERMINAL ∧
    s.firstset ≠ none
  rhs : ∀ rp ∈ rules, ∀ p ∈ rp.rhs, ∃ s, syms[p]? = some s ∧
    (s.type = symbol_type.TERMINAL → 0 ≤ s.index ∧ s.index < (size : Int)) ∧
    (s.type = symbol_type.MULTITERMINAL → ∀ q ∈ s.subsym, ∃ sq, syms[q]? = some sq ∧
      0 ≤ sq.index ∧ sq.index < (size : Int)) ∧
    (s.type = symbol_type.NONTERMINAL → s.firstset ≠ none)

/-- A right-hand-side symbol at position `p` of the grammar as `main` hands it over: it
is in the table; a terminal has its index in `0 .. size-1`, so have the sub-symbols of a
multiterminal, and a nonterminal lies in `nterminal .. nsymbol-1`, the positions that get
a first set. -/
def rhsOK (size : Nat) (lemp : lemon) (p : Nat) : Bool :=
  match lemp.symbols[p]? with
  | none => false
  | some s =>
    match s.type with
    | symbol_type.TERMINAL => decide (0 ≤ s.index ∧ s.index < (size : Int))
    | symbol_type.MULTITERMINAL =>
      s.subsym.all (fun q =>
        match lemp.symbols[q]? with
        | none => false
        | some sq => decide (0 ≤ sq.index ∧ sq.index < (size : Int)))
    | symbol_type.NONTERMINAL => decide (lemp.nterminal ≤ p ∧ p < lemp.nsymbol)

/-- The grammar as `main` hands it to `FindFirstSets`: the symbol counts lie within the
table, the symbols that `FindFirstSets` does not initialise are as `Symbol_new` left them
(`FreshLambda`, `FreshFirst`), every left-hand side is a
nonterminal in `nterminal .. nsymbol-1`, and every right-hand-side symbol is `rhsOK`. -/
def FirstOK (size : Nat) (lemp : lemon) : Prop :=
  lemp.nterminal ≤ lemp.nsymbol ∧ lemp.nsymbol ≤ lemp.symbols.length ∧ FreshLambda lemp ∧
  FreshFirst lemp ∧
  ∀ rp ∈ lemp.rule, lemp.nterminal ≤ rp.lhs ∧ rp.lhs < lemp.nsymbol ∧
    symType lemp.symbols rp.lhs = some symbol_type.NONTERMINAL ∧
    ∀ p ∈ rp.rhs, rhsOK size lemp p = true

instance (size : Nat) (lemp : lemon) : Decidable (FirstOK size lemp) := by
  unfold FirstOK; infer_instance

/-- One or more steps of a first-set pass took the table and the progress counter from
`st` to `st1`: the table keeps its length and everything but the first sets, and either
nothing changed or both the counter and the number of bits set went up. -/
def StepOK (st st1 : List symbol × Int) : Prop :=
  st1.1.length = st.1.length ∧ st1.1.map eraseFirst = st.1.map eraseFirst ∧
    (st1 = st ∨ (st.2 < st1.2 ∧ firstCount st.1 < firstCount st1.1))

/-! ## The fixpoint of the follow sets -/

/-- Every element of the set `f` is an element of the set `g`. -/
def SubSet (f g : List Bool) : Prop := ∀ t, f.getD t false = true → g.getD t false = true

/-- Total number of bits set in the follow sets of the configurations. -/
def fwsCount (cfgs : List config) : Nat := (cfgs.map (fun c => c.fws.count true)).sum

/-- The configuration at address `a` is on the `cfp` list of one of the states `ps`. -/
def InStates (states : List state) (ps : List Nat) (a : Nat) : Prop :=
  ∃ p ∈ ps, a ∈ (stateAt states p).cfp

/-- What `FindFollowSets` relies on: the state pointers and the configuration pointers of
the states are valid, every follow set has `size` bytes, and every forward link points to
a configuration. -/
def FollowWF (size : Nat) (states : List state) (ps : List Nat) (cfgs : List config) : Prop :=
  (∀ p ∈ ps, p < states.length) ∧
  (∀ p ∈ ps, ∀ a ∈ (stateAt states p).cfp, a < cfgs.length) ∧
  (∀ c ∈ cfgs, c.fws.length = size) ∧
  (∀ c ∈ cfgs, ∀ d ∈ c.fplp, d < cfgs.length)

instance (size : Nat) (states : List state) (ps : List Nat) (cfgs : List config) :
    Decidable (FollowWF size states ps cfgs) := by
  unfold FollowWF; infer_instance

/-- The invariant of the loops of `FindFollowSets`, for the configurations `cfgs` reached
from the configurations `cfgs0` at the call: only `fws` and `status` change, follow sets
keep their size and only grow, and a configuration of the states that is marked
`COMPLETE` has its follow set contained in that of every target of its forward links. -/
structure FolInv (size : Nat) (states : List state) (ps : List Nat)
    (cfgs0 cfgs : List config) : Prop where
  len : cfgs.length = cfgs0.length
  fplp : ∀ a, (cfgAt cfgs a).fplp = (cfgAt cfgs0 a).fplp
  fws : ∀ a, a < cfgs.length → (cfgAt cfgs a).fws.length = size
  grow : ∀ a, SubSet (cfgAt cfgs0 a).fws (cfgAt cfgs a).fws
  link : ∀ a, a < cfgs.length → ∀ d ∈ (cfgAt cfgs a).fplp, d < cfgs.length
  done : ∀ a, InStates states ps a → (cfgAt cfgs a).status = cfgstatus.COMPLETE →
    ∀ d ∈ (cfgAt cfgs a).fplp, SubSet (cfgAt cfgs a).fws (cfgAt cfgs d).fws

/-- The part of a pass from `st` to `st1` changed no follow set: the progress flag is as
it was, configurations marked `COMPLETE` are still marked, and so is every configuration
of `V`, the ones visited. -/
def Quiet (V : List Nat) (st st1 : List config × Int) : Prop :=
  st1.2 = st.2 ∧ fwsCount st1.1 = fwsCount st.1 ∧
    (∀ a, (cfgAt st1.1 a).fws = (cfgAt st.1 a).fws) ∧
    (∀ a, (cfgAt st.1 a).status = cfgstatus.COMPLETE →
      (cfgAt st1.1 a).status = cfgstatus.COMPLETE) ∧
    ∀ c ∈ V, (cfgAt st1.1 c).status = cfgstatus.COMPLETE

/-- The part of a pass from `st` to `st1` enlarged a follow set: the progress flag is 1 and
the number of bits set went up. -/
def Loud (st st1 : List config × Int) : Prop :=
  st1.2 = 1 ∧ fwsCount st.1 < fwsCount st1.1

/-- Line 922 of `FindFollowSets`: `cfp->status = INCOMPLETE` for the configuration at `a`. -/
def markIncomplete (cfgs : List config) (a : Nat) : List config :=
  cfgs.set a { cfgAt cfgs a with status := cfgstatus.INCOMPLETE }

/-- Three configurations with follow sets of three bytes whose forward links form the
cycle `0 → 1 → 2 → 0`, with a second link `0 → 2`. -/
def followCfgs : List config :=
  [{ rp := 0, dot := 0, fws := [true, false, false], fplp := [1, 2] },
   { rp := 1, dot := 0, fws := [false, true, false], fplp := [2],
     status := cfgstatus.COMPLETE },
   { rp := 2, dot := 0, fws := [false, false, false], fplp := [0] }]

/-- Two states that hold the configurations of `followCfgs`. -/
def followStates : List state :=
  [{ bp := [], statenum := 0, cfp := [0, 1] }, { bp := [], statenum := 1, cfp := [2] }]

/-- A grammar record whose `sorted` array holds the two states of `followStates`. -/
def followLemon : lemon :=
  { symbols := [], rule := [], nsymbol := 0, nterminal := 0, nstate := 2, sorted := [0, 1] }

/-! ## Follow sets and forward links of the closure -/

/-- Every symbol of `rest` is a nonterminal flagged nullable: the loop of lines 1236-1253
runs to `nrhs`. -/
def AllNullable (syms : List symbol) (rest : List Nat) : Prop :=
  ∀ x ∈ rest, (symAt syms x).type = symbol_type.NONTERMINAL ∧ (symAt syms x).lambda = true

/-- The symbols that follow the symbol after the dot of the configuration at `c`. -/
def restOf (rules : List rule) (cfgs : List config) (c : Nat) : List Nat :=
  (ruleAt rules (cfgAt cfgs c).rp).rhs.drop ((cfgAt cfgs c).dot.toNat + 1)

/-- The configuration at `c` has propagated to its expansions: when a nonterminal follows
its dot, then for every rule of that nonterminal the list holds the configuration `n` with
the index of that rule and the dot at 0, the follow set of `n` holds every terminal that the first
sets and nullable flags let begin the rest of the rule of `c`, and `c` has a forward link
to `n` exactly when the rest consists of nullable nonterminals. -/
def Linked (lemp : lemon) (g : configlist) (c : Nat) : Prop :=
  ∀ sp, (cfgAt g.cfgs c).dot < ((ruleAt lemp.rule (cfgAt g.cfgs c).rp).rhs.length : Int) →
    afterDot lemp.rule (cfgAt g.cfgs c) = some sp →
    (symAt lemp.symbols sp).type = symbol_type.NONTERMINAL →
    ∀ newrp ∈ (symAt lemp.symbols sp).rule, ∃ n ∈ g.current,
      keyOf lemp.rule g.cfgs n = configKey lemp.rule { rp := newrp, dot := 0 } ∧
      (∀ t, StartsIn lemp.symbols (restOf lemp.rule g.cfgs c) t →
        (cfgAt g.cfgs n).fws.getD t false = true) ∧
      (n ∈ (cfgAt g.cfgs c).fplp ↔ AllNullable lemp.symbols (restOf lemp.rule g.cfgs c))

/-- The invariant of the loop of `Configlist_closure` at position `i` as far as follow
sets and forward links go: the configurations before position `i` have propagated, the
others have no forward link yet. -/
structure LinkInv (lemp : lemon) (g : configlist) (i : Nat) : Prop where
  done : ∀ (k c : Nat), k < i → g.current[k]? = some c → Linked lemp g c
  todo : ∀ (k c : Nat), i ≤ k → g.current[k]? = some c → (cfgAt g.cfgs c).fplp = []

/-! ## buildshifts and getstate on the heap: successors and SHIFT actions -/

/-- The grammar `%token_class number INTEGER|FLOAT.  s ::= expr.  expr ::= number.
expr ::= INTEGER.` as `main` hands it to the analysis: the symbols
`$ INTEGER FLOAT s expr {default} number` at their indices, the multiterminal `number`
with its two sub-symbols, and the three rules. -/
def mtLemon : lemon :=
  { symbols := [
      { name := "$", index := 0, type := symbol_type.NONTERMINAL },
      { name := "INTEGER", index := 1, type := symbol_type.TERMINAL },
      { name := "FLOAT", index := 2, type := symbol_type.TERMINAL },
      { name := "s", index := 3, type := symbol_type.NONTERMINAL, rule := [0] },
      { name := "expr", index := 4, type := symbol_type.NONTERMINAL, rule := [2, 1] },
      { name := "{default}", index := 5, type := symbol_type.NONTERMINAL },
      { name := "number", index := 6, type := symbol_type.MULTITERMINAL, subsym := [1, 2] }],
    rule := [
      { lhs := 3, rhs := [4], index := 0, iRule := 0 },
      { lhs := 4, rhs := [6], index := 1, iRule := 1 },
      { lhs := 4, rhs := [1], index := 2, iRule := 2 }],
    nsymbol := 5,
    nterminal := 3,
    nrule := 3,
    startRule := some 0 }

/-- The grammar `mtLemon` with the first sets that `FindFirstSets` computes. -/
def mtFirst : lemon :=
  (FindFirstSets 5 30 (FindRulePrecedences mtLemon)).getD mtLemon

/-- The array of configurations is well formed: the hash chains are, and `count` is the
number of nodes. -/
def TabOK (rules : List rule) (x : s_x4) : Prop :=
  ChainOK rules x.size (x.tbl.map node3) x.ht ∧ x.tbl.length = x.count

/-- The configurations `c` and `d` agree in rule, dot, status and backward links. -/
def SameCore (c d : config) : Prop :=
  c.rp = d.rp ∧ c.dot = d.dot ∧ c.status = d.status ∧ c.bplp = d.bplp

/-- What `Configlist_add` and `Configlist_closure` do to the heap and the list: the heap
grows, the configurations that exist keep rule, dot, status and backward links, and the
list gains only configurations that are new in the heap. -/
structure HeapStep (g g1 : configlist) : Prop where
  heap : g.cfgs.length ≤ g1.cfgs.length
  same : ∀ a, a < g.cfgs.length → SameCore (cfgAt g1.cfgs a) (cfgAt g.cfgs a)
  cur : ∀ a ∈ g1.current, a ∈ g.current ∨ (g.cfgs.length ≤ a ∧ a < g1.cfgs.length)

/-- The inner loop of `buildshifts` takes the configuration at `c` for the symbol `sp`:
its dot is not at the end and the symbol after the dot is `same_symbol` to `sp`. -/
def ShiftsOver (rules : List rule) (syms : List symbol) (cfgs : List config) (sp c : Nat) :
    Prop :=
  (cfgAt cfgs c).dot < ((ruleAt rules (cfgAt cfgs c).rp).rhs.length : Int) ∧
    ∃ bsp, afterDot rules (cfgAt cfgs c) = some bsp ∧ same_symbol syms bsp sp = true

/-- The pair `(rp->index, dot + 1)` of the configuration at `c`: the key of the
configuration with the dot moved one symbol to the right. -/
def shiftedKey (rules : List rule) (cfgs : List config) (c : Nat) : Int × Int :=
  ((ruleAt rules (cfgAt cfgs c).rp).index, (cfgAt cfgs c).dot + 1)

/-- The invariant of the inner loop of `buildshifts` (lines 846-854) for the symbol `sp`:
`g0` is the builder after `Configlist_reset`, `done` the configurations visited so far.
The list under construction is a basis of new configurations, each the shifted
configuration of a visited one that was not used before and has `sp` after its dot; the
configurations that existed keep rule, dot and backward links, and are marked exactly
when they were marked before or are visited ones with `sp` after the dot; and every such
visited configuration has its shifted configuration in the list, linked back to it. -/
structure BasisInv (lemp : lemon) (size sp : Nat) (g0 : configlist) (done : List Nat)
    (g : configlist) : Prop where
  inv : ListInv lemp.rule size g
  basis : g.basis = g.current
  bend : g.basisend = true
  heap : g0.cfgs.length ≤ g.cfgs.length
  src : ∀ x ∈ g.current, g0.cfgs.length ≤ x ∧ ∃ c ∈ done,
    (cfgAt g0.cfgs c).status ≠ cfgstatus.COMPLETE ∧ ShiftsOver lemp.rule lemp.symbols g0.cfgs sp c ∧
      keyOf lemp.rule g.cfgs x = shiftedKey lemp.rule g0.cfgs c
  old : ∀ a, a < g0.cfgs.length → item g.cfgs a = item g0.cfgs a ∧
    (cfgAt g.cfgs a).bplp = (cfgAt g0.cfgs a).bplp ∧
    ((cfgAt g.cfgs a).status = cfgstatus.COMPLETE ↔
      ((cfgAt g0.cfgs a).status = cfgstatus.COMPLETE ∨
        (a ∈ done ∧ ShiftsOver lemp.rule lemp.symbols g0.cfgs sp a)))
  link : ∀ c ∈ done, (cfgAt g0.cfgs c).status ≠ cfgstatus.COMPLETE →
    ShiftsOver lemp.rule lemp.symbols g0.cfgs sp c →
    ∃ x ∈ g.current, keyOf lemp.rule g.cfgs x = shiftedKey lemp.rule g0.cfgs c ∧
      c ∈ (cfgAt g.cfgs x).bplp

/-- Every configuration of the closure and of the basis of every state is below `B` in
the heap. -/
def Owned (B : Nat) (states : List state) : Prop :=
  ∀ p, p < states.length →
    (∀ a ∈ (stateAt states p).cfp, a < B) ∧ (∀ a ∈ (stateAt states p).bpa, a < B)

/-- The invariant of `getstate` and `buildshifts` between two calls of the configuration
list builder: the array of configurations and the array of states are well formed, every
node of the array of states points to a state whose basis has the keys of the node, the
configurations of the states are in the heap, and, when the heap has fewer than `2^30`
configurations, no basis holds a key twice. -/
structure WorldOK (w : Heap.world) : Prop where
  tab : TabOK w.lemp.rule w.cl.x4a
  chain : ChainOK w.lemp.rule w.store.x3a.size w.store.x3a.tbl w.store.x3a.ht
  count : w.store.x3a.tbl.length = w.store.x3a.count
  nodes : ∀ (i : Nat) (node : x3node), w.store.x3a.tbl[i]? = some node →
    node.data < w.store.states.length ∧
      node.key.map (configKey w.lemp.rule) =
        (stateAt w.store.states node.data).bpa.map (keyOf w.lemp.rule w.cl.cfgs)
  own : Owned w.cl.cfgs.length w.store.states
  nodup : w.cl.cfgs.length < 2 ^ 30 → ∀ p, p < w.store.states.length →
    ((stateAt w.store.states p).bpa.map (keyOf w.lemp.rule w.cl.cfgs)).Nodup

/-- What a stretch of `getstate` and `buildshifts` leaves alone: the rules and symbols,
rule and dot of every configuration, the backward links (which only grow) of the
configurations below `B`, the status of those that satisfy `P`, the closure and the basis
of every state, and the whole record of the states that satisfy `Q`. -/
structure Frame (B : Nat) (P Q : Nat → Prop) (w w1 : Heap.world) : Prop where
  rule : w1.lemp.rule = w.lemp.rule
  syms : w1.lemp.symbols = w.lemp.symbols
  heap : w.cl.cfgs.length ≤ w1.cl.cfgs.length
  item : ∀ a, a < w.cl.cfgs.length → item w1.cl.cfgs a = item w.cl.cfgs a
  link : ∀ a, a < B → ∀ c ∈ (cfgAt w.cl.cfgs a).bplp, c ∈ (cfgAt w1.cl.cfgs a).bplp
  stat : ∀ a, a < B → P a → (cfgAt w1.cl.cfgs a).status = (cfgAt w.cl.cfgs a).status
  slen : w.store.states.length ≤ w1.store.states.length
  shape : ∀ p, p < w.store.states.length →
    (stateAt w1.store.states p).cfp = (stateAt w.store.states p).cfp ∧
    (stateAt w1.store.states p).bpa = (stateAt w.store.states p).bpa
  keep : ∀ p, p < w.store.states.length → Q p →
    stateAt w1.store.states p = stateAt w.store.states p

/-- The actions that lines 862-870 of `buildshifts` add for the symbol `sp` and the
successor `newstp`, as `(type, lookahead, target)` in the order of the calls of
`Action_add`: one `SHIFT` on `sp`, or one per sub-symbol of a multiterminal. -/
def shiftPairs (syms : List symbol) (sp newstp : Nat) : List (e_action × Nat × Nat) :=
  if (symAt syms sp).type = symbol_type.MULTITERMINAL then
    (symAt syms sp).subsym.map (fun q => (e_action.SHIFT, q, newstp))
  else [(e_action.SHIFT, sp, newstp)]

/-- What `buildshifts` did in state `p` for the symbol `X`, with the successor `T`: `X`
follows the dot of a configuration of `p`; the basis of `T` holds only shifted
configurations of configurations of `p` with a symbol `same_symbol` to `X` after the dot;
and, when the heap has fewer than `2^30` configurations, it holds the shifted
configuration of every such configuration, with a backward link to it. -/
structure ShiftClass (rules : List rule) (syms : List symbol) (cfgs : List config)
    (states : List state) (p X T : Nat) : Prop where
  rep : ∃ c ∈ (stateAt states p).cfp,
    (cfgAt cfgs c).dot < ((ruleAt rules (cfgAt cfgs c).rp).rhs.length : Int) ∧
      afterDot rules (cfgAt cfgs c) = some X
  tgt : T < states.length
  sound : ∀ b ∈ (stateAt states T).bpa, ∃ c ∈ (stateAt states p).cfp,
    ShiftsOver rules syms cfgs X c ∧ keyOf rules cfgs b = shiftedKey rules cfgs c
  complete : cfgs.length < 2 ^ 30 → ∀ c ∈ (stateAt states p).cfp,
    ShiftsOver rules syms cfgs X c → ∃ b ∈ (stateAt states T).bpa,
      keyOf rules cfgs b = shiftedKey rules cfgs c ∧ c ∈ (cfgAt cfgs b).bplp

/-- The state `p` after `buildshifts`: there is a list of pairs `(X, T)` of a symbol and
a successor such that the actions of `p` are, in the order of their creation, the
`shiftPairs` of the pairs; no two symbols of the list are `same_symbol`; every
configuration of `p` whose dot is not at the end has a symbol after the dot that is
`same_symbol` to one of the list; and every pair is a `ShiftClass`. -/
def ShiftsOK (rules : List rule) (syms : List symbol) (cfgs : List config)
    (states : List state) (p : Nat) : Prop :=
  ∃ cls : List (Nat × Nat),
    (stateAt states p).ap.reverse.map (fun a => (a.type, a.sp, a.x)) =
      cls.flatMap (fun cl => shiftPairs syms cl.1 cl.2) ∧
    cls.Pairwise (fun c d => same_symbol syms c.1 d.1 = false) ∧
    (∀ c ∈ (stateAt states p).cfp,
      (cfgAt cfgs c).dot < ((ruleAt rules (cfgAt cfgs c).rp).rhs.length : Int) →
      ∃ cl ∈ cls, ShiftsOver rules syms cfgs cl.1 c) ∧
    ∀ cl ∈ cls, ShiftClass rules syms cfgs states p cl.1 cl.2

/-- One turn of the loop of lines 780-784: the links of `x` move to `y`, and `x` loses
its links. -/
def copyStep (cfgs : List config) (x y : Nat) : List config :=
  (cfgs.set y { cfgAt cfgs y with
    bplp := Plink_copy (cfgAt cfgs y).bplp (cfgAt cfgs x).bplp }).set x
      { cfgAt (cfgs.set y { cfgAt cfgs y with
          bplp := Plink_copy (cfgAt cfgs y).bplp (cfgAt cfgs x).bplp }) x with
        fplp := []
        bplp := [] }

/-- What `getstate` has done when it returns the state `stp` and the world `w1` for the
world `w` whose configuration list lies at and above `B` in the heap. -/
structure GsPost (B : Nat) (w : Heap.world) (stp : Nat) (w1 : Heap.world) : Prop where
  ok : WorldOK w1
  frame : Frame B (fun _ => True) (fun _ => True) w w1
  tgt : stp < w1.store.states.length
  sound : ∀ b ∈ (stateAt w1.store.states stp).bpa, ∃ x ∈ w.cl.current,
    keyOf w.lemp.rule w1.cl.cfgs b = keyOf w.lemp.rule w.cl.cfgs x
  complete : w1.cl.cfgs.length < 2 ^ 30 → ∀ x ∈ w.cl.current,
    ∃ b ∈ (stateAt w1.store.states stp).bpa,
      keyOf w.lemp.rule w1.cl.cfgs b = keyOf w.lemp.rule w.cl.cfgs x ∧
      ∀ c ∈ (cfgAt w.cl.cfgs x).bplp, c ∈ (cfgAt w1.cl.cfgs b).bplp
  fresh : ∀ p, w.store.states.length ≤ p → p < w1.store.states.length →
    ShiftsOK w1.lemp.rule w1.lemp.symbols w1.cl.cfgs w1.store.states p

/-- The specification of `getstate` that `buildshifts` relies on. -/
def GsSpec (size : Nat) (gs : Heap.world → Option (Nat × Heap.world)) : Prop :=
  ∀ (B : Nat) (w : Heap.world) (stp : Nat) (w1 : Heap.world),
    WorldOK w → ListInv w.lemp.rule size w.cl → w.cl.basis = w.cl.current →
    (∀ a ∈ w.cl.current, B ≤ a) → B ≤ w.cl.cfgs.length → Owned B w.store.states →
    gs w = some (stp, w1) → GsPost B w stp w1

/-- The invariant of the outer loop of `buildshifts` (lines 837-871) for the state `s`
with the configurations `L`, of which `done` have been visited; `cls` are the pairs of a
symbol and its successor made so far. -/
structure LoopInv (s : Nat) (L done : List Nat) (cls : List (Nat × Nat)) (w : Heap.world) :
    Prop where
  ok : WorldOK w
  sIn : s < w.store.states.length
  cfp : (stateAt w.store.states s).cfp = L
  acts : (stateAt w.store.states s).ap.reverse.map (fun a => (a.type, a.sp, a.x)) =
    cls.flatMap (fun cl => shiftPairs w.lemp.symbols cl.1 cl.2)
  pw : cls.Pairwise (fun c d => same_symbol w.lemp.symbols c.1 d.1 = false)
  marked : ∀ c ∈ L, ((cfgAt w.cl.cfgs c).status = cfgstatus.COMPLETE ↔
    ∃ cl ∈ cls, ShiftsOver w.lemp.rule w.lemp.symbols w.cl.cfgs cl.1 c)
  seen : ∀ c ∈ done, (cfgAt w.cl.cfgs c).status = cfgstatus.COMPLETE ∨
    (cfgAt w.cl.cfgs c).dot ≥ ((ruleAt w.lemp.rule (cfgAt w.cl.cfgs c).rp).rhs.length : Int)
  classes : ∀ cl ∈ cls,
    ShiftClass w.lemp.rule w.lemp.symbols w.cl.cfgs w.store.states s cl.1 cl.2
  others : ∀ p, s < p → p < w.store.states.length →
    ShiftsOK w.lemp.rule w.lemp.symbols w.cl.cfgs w.store.states p

/-- The world that `FindStates` leaves for the grammar `mtFirst`. -/
def mtWorld : Heap.world :=
  (Heap.FindStates 5 30 30 mtFirst).getD
    { lemp := mtFirst, cl := Configlist_init [], store := storeInit, nextap := 0 }

/-- The relation between an action before and after calls of `resolve_conflict` that do
not take the Shift/Shift branch: the lookahead is kept, an action tagged `SHIFT` was a
`SHIFT` before, and an action tagged `SSCONFLICT` was tagged so before. -/
def Tame (a b : action) : Prop :=
  b.sp = a.sp ∧ (b.type = e_action.SHIFT → a.type = e_action.SHIFT) ∧
    (b.type = e_action.SSCONFLICT → a.type = e_action.SSCONFLICT)

/-- The two actions are not both `SHIFT`s on one lookahead. -/
def NoShiftPair (a b : action) : Prop :=
  ¬ (a.type = e_action.SHIFT ∧ b.type = e_action.SHIFT ∧ a.sp = b.sp)

/-- No two actions of the list are `SHIFT`s on one lookahead, and none is tagged
`SSCONFLICT`. -/
def ShiftsApart (ap : List action) : Prop :=
  ap.Pairwise NoShiftPair ∧ ∀ a ∈ ap, a.type ≠ e_action.SSCONFLICT

/-- The lookahead symbols of the `SHIFT` actions that lines 862-870 of `buildshifts` add
for the symbol `sp`: `sp` itself, or the sub-symbols of a multiterminal. -/
def shiftLookaheads (syms : List symbol) (sp : Nat) : List Nat :=
  if (symAt syms sp).type = symbol_type.MULTITERMINAL then (symAt syms sp).subsym else [sp]

/-- The symbols that follow the dot of a configuration of the state `p`, in the order
of the configurations. -/
def afterDots (rules : List rule) (cfgs : List config) (states : List state) (p : Nat) :
    List Nat :=
  (stateAt states p).cfp.filterMap (fun c =>
    if (cfgAt cfgs c).dot < ((ruleAt rules (cfgAt cfgs c).rp).rhs.length : Int) then
      afterDot rules (cfgAt cfgs c)
    else none)

/-- The symbols after the dots of the state `p` keep their lookaheads apart: no such
symbol is a multiterminal with a repeated sub-symbol, and two of them that are not
`same_symbol` have no lookahead in common (neither is a sub-symbol of the other, and they
are not multiterminals that share a sub-symbol). -/
def LookaheadsApart (rules : List rule) (syms : List symbol) (cfgs : List config)
    (states : List state) (p : Nat) : Prop :=
  ∀ X ∈ afterDots rules cfgs states p, (shiftLookaheads syms X).Nodup ∧
    ∀ Y ∈ afterDots rules cfgs states p, same_symbol syms X Y = false →
      ∀ l ∈ shiftLookaheads syms X, l ∉ shiftLookaheads syms Y

instance (rules : List rule) (syms : List symbol) (cfgs : List config) (states : List state)
    (p : Nat) : Decidable (LookaheadsApart rules syms cfgs states p) := by
  unfold LookaheadsApart; infer_instance

/-- The grammar `%token_class number INTEGER|FLOAT.  s ::= expr.  expr ::= number.` as
`main` hands it to the analysis: the symbols `$ INTEGER FLOAT s expr {default} number` at
their indices, the multiterminal `number` with its two sub-symbols, and the two rules. -/
def classLemon : lemon :=
  { symbols := [
      { name := "$", index := 0, type := symbol_type.NONTERMINAL },
      { name := "INTEGER", index := 1, type := symbol_type.TERMINAL },
      { name := "FLOAT", index := 2, type := symbol_type.TERMINAL },
      { name := "s", index := 3, type := symbol_type.NONTERMINAL, rule := [0] },
      { name := "expr", index := 4, type := symbol_type.NONTERMINAL, rule := [1] },
      { name := "{default}", index := 5, type := symbol_type.NONTERMINAL },
      { name := "number", index := 6, type := symbol_type.MULTITERMINAL, subsym := [1, 2] }],
    rule := [
      { lhs := 3, rhs := [4], index := 0, iRule := 0 },
      { lhs := 4, rhs := [6], index := 1, iRule := 1 }],
    nsymbol := 5,
    nterminal := 3,
    nrule := 2,
    startRule := some 0 }

/-- The grammar `classLemon` with the first sets that `FindFirstSets` computes. -/
def classFirst : lemon :=
  (FindFirstSets 5 30 (FindRulePrecedences classLemon)).getD classLemon

/-- The world that `FindStates` leaves for the grammar `classFirst`. -/
def classWorld : Heap.world :=
  (Heap.FindStates 5 30 30 classFirst).getD
    { lemp := classFirst, cl := Configlist_init [], store := storeInit, nextap := 0 }

/-! ## Termination of FindStates -/

/-- The greatest number of right-hand-side symbols of a rule. -/
def maxRhs (rules : List rule) : Nat := (rules.map (fun r => r.rhs.length)).foldr max 0

/-- The pairs `(rule index, dot)` that a configuration of the grammar can have: the index
of a rule (or 0, the index read through a null pointer in the model) and a dot from 0 to
the greatest number of right-hand-side symbols. -/
def keyList (rules : List rule) : List (Int × Int) :=
  (0 :: rules.map (fun r => r.index)).flatMap
    (fun i => (List.range (maxRhs rules + 1)).map (fun (d : Nat) => (i, (d : Int))))

/-- The number of pairs of `keyList`. -/
def keyCount (rules : List rule) : Nat := (rules.length + 1) * (maxRhs rules + 1)

/-- A bound of the number of states: the number of sequences without repetition of pairs
of `keyList`. -/
def stateBound (rules : List rule) : Nat :=
  ((keyList rules).sublists.flatMap List.permutations).length

/-- What the termination of `getstate` needs of the store on top of `WorldOK`: node `i`
of the array of states points to state `i`, the stored keys are pairwise different as
sequences of `(rule index, dot)`, and the basis of every state holds no pair twice and
only dots from 0 to the greatest number of right-hand-side symbols. -/
structure WorldFit (w : Heap.world) : Prop where
  full : w.store.x3a.tbl.length = w.store.states.length
  data : ∀ (i : Nat) (node : x3node), w.store.x3a.tbl[i]? = some node → node.data = i
  distinct : ∀ (i j : Nat) (ni nj : x3node), w.store.x3a.tbl[i]? = some ni →
    w.store.x3a.tbl[j]? = some nj → i ≠ j →
    ni.key.map (configKey w.lemp.rule) ≠ nj.key.map (configKey w.lemp.rule)
  dots : ∀ p, p < w.store.states.length → ∀ b ∈ (stateAt w.store.states p).bpa,
    0 ≤ (cfgAt w.cl.cfgs b).dot ∧ (cfgAt w.cl.cfgs b).dot ≤ (maxRhs w.lemp.rule : Int)
  nodup : ∀ p, p < w.store.states.length →
    ((stateAt w.store.states p).bpa.map (keyOf w.lemp.rule w.cl.cfgs)).Nodup

/-- What a call of `getstate` needs to return: the invariants of the world, a basis under
construction whose configurations lie at and above `B` in the heap with dots up to the
greatest number of right-hand-side symbols, first sets that fit the follow sets, fewer
than `2^30` pairs `(rule index, dot)`, and enough fuel for the closure. -/
structure GsPre (size cfuel B : Nat) (w : Heap.world) : Prop where
  ok : WorldOK w
  fit : WorldFit w
  inv : ListInv w.lemp.rule size w.cl
  basis : w.cl.basis = w.cl.current
  ge : ∀ a ∈ w.cl.current, B ≤ a
  heap : B ≤ w.cl.cfgs.length
  own : Owned B w.store.states
  dots : ∀ a ∈ w.cl.current, (cfgAt w.cl.cfgs a).dot ≤ (maxRhs w.lemp.rule : Int)
  follow : FollowOK size w.lemp
  small : keyCount w.lemp.rule < 2 ^ 30
  enough : keyCount w.lemp.rule + w.lemp.rule.length + 1 < cfuel

/-- The function `gs` returns on every world that meets `GsPre` and has fewer than `fuel`
states left to the bound, and the world it returns meets `WorldFit`. -/
def GsTot (size cfuel fuel : Nat) (gs : Heap.world → Option (Nat × Heap.world)) : Prop :=
  ∀ (B : Nat) (w : Heap.world), GsPre size cfuel B w →
    stateBound w.lemp.rule - w.store.states.length < fuel →
    ∃ stp w1, gs w = some (stp, w1) ∧ WorldFit w1 ∧ FollowOK size w1.lemp

/-- The two rule lists agree in the indices and the right-hand sides of their rules. -/
def SameShape (r1 r2 : List rule) : Prop :=
  r1.map (fun r => (r.index, r.rhs)) = r2.map (fun r => (r.index, r.rhs))

/-! ## Theorems -/

theorem rdAt_eq_some {a : List lookahead_action} {k : Int} {x : lookahead_action} :
    rdAt a k = some x ↔ 0 ≤ k ∧ a[k.toNat]? = some x := by
  unfold rdAt
  by_cases h : k < 0
  · simp [h]
  · simp [h]; omega

theorem rdAt_lt {a : List lookahead_action} {k : Int} {x : lookahead_action}
    (h : rdAt a k = some x) : 0 ≤ k ∧ k < (a.length : Int) := by
  rw [rdAt_eq_some] at h
  obtain ⟨h0, h1⟩ := h
  have := (List.getElem?_eq_some.1 h1).1
  omega

theorem rdAt_of_lt {a : List lookahead_action} {k : Int} (h0 : 0 ≤ k)
    (h1 : k < (a.length : Int)) : ∃ x, rdAt a k = some x := by
  have h2 : k.toNat < a.length := by omega
  refine ⟨a[k.toNat], ?_⟩
  rw [rdAt_eq_some]
  exact ⟨h0, List.getElem?_eq_getElem h2⟩

theorem rdAt_append_left {a b : List lookahead_action} {k : Int} {x : lookahead_action}
    (h : rdAt a k = some x) : rdAt (a ++ b) k = some x := by
  have hl := rdAt_lt h
  rw [rdAt_eq_some] at h ⊢
  refine ⟨h.1, ?_⟩
  rw [List.getElem?_append_left (by omega)]
  exact h.2

theorem rdAt_append_replicate {a : List lookahead_action} {n : Nat} {k : Int}
    {x : lookahead_action} (h : rdAt (a ++ List.replicate n emptySlot) k = some x) :
    rdAt a k = some x ∨ ((a.length : Int) ≤ k ∧ x = emptySlot) := by
  rw [rdAt_eq_some] at h
  obtain ⟨h0, h1⟩ := h
  by_cases hk : k.toNat < a.length
  · left
    rw [List.getElem?_append_left hk] at h1
    exact rdAt_eq_some.2 ⟨h0, h1⟩
  · right
    refine ⟨by omega, ?_⟩
    rw [List.getElem?_append_right (by omega)] at h1
    have := (List.getElem?_eq_some.1 h1)
    obtain ⟨hh, he⟩ := this
    simp at he
    exact he.symm

theorem acttab_action_sameTable (p : acttab) (l a : Int) :
    SameTable p (acttab_action p l a) := by
  unfold acttab_action SameTable
  simp only
  split_ifs <;> simp

theorem acttab_action_first (p : acttab) (l a : Int) (h : p.aLookahead = []) :
    Entered (acttab_action p l a) [⟨l, a⟩] := by
  have h0 : p.nLookahead = 0 := by simp [acttab.nLookahead, h]
  unfold acttab_action
  simp only [h0, if_true]
  constructor <;> simp [h]

theorem acttab_action_fields (p : acttab) (l a : Int) (h0 : ¬ p.nLookahead = 0) :
    (acttab_action p l a).aLookahead = p.aLookahead ++ [⟨l, a⟩] ∧
    (acttab_action p l a).mnLookahead = (if p.mnLookahead > l then l else p.mnLookahead) ∧
    (acttab_action p l a).mnAction = (if p.mnLookahead > l then a else p.mnAction) ∧
    (acttab_action p l a).mxLookahead = (if p.mxLookahead < l then l else p.mxLookahead) := by
  unfold acttab_action
  simp only [h0, if_false]
  split_ifs <;> simp

theorem acttab_action_next (p : acttab) (l a : Int) (pre : List lookahead_action)
    (hne : pre ≠ []) (h : Entered p pre) :
    Entered (acttab_action p l a) (pre ++ [⟨l, a⟩]) := by
  have h0 : ¬ p.nLookahead = 0 := by
    simp only [acttab.nLookahead, h.buf]
    cases pre with
    | nil => exact absurd rfl hne
    | cons x xs => simp; omega
  obtain ⟨hb, h1, h2, ⟨e1, he1, he1a, he1b⟩, ⟨e2, he2, he2a⟩⟩ := h
  obtain ⟨f1, f2, f3, f4⟩ := acttab_action_fields p l a h0
  constructor
  · rw [f1, hb]
  · intro e he
    rw [f2]
    rcases List.mem_append.1 he with he | he
    · have := h1 e he
      split_ifs <;> omega
    · rw [List.mem_singleton] at he
      subst he
      split_ifs <;> simp only [] <;> omega
  · intro e he
    rw [f4]
    rcases List.mem_append.1 he with he | he
    · have := h2 e he
      split_ifs <;> omega
    · rw [List.mem_singleton] at he
      subst he
      split_ifs <;> simp only [] <;> omega
  · rw [f2, f3]
    by_cases hc : p.mnLookahead > l
    · simp only [hc, if_true]
      exact ⟨⟨l, a⟩, by simp, rfl, rfl⟩
    · simp only [hc, if_false]
      exact ⟨e1, List.mem_append_left _ he1, he1a, he1b⟩
  · rw [f4]
    by_cases hc : p.mxLookahead < l
    · simp only [hc, if_true]
      exact ⟨⟨l, a⟩, by simp, rfl⟩
    · simp only [hc, if_false]
      exact ⟨e2, List.mem_append_left _ he2, he2a⟩

theorem enterRow_from (rest : List lookahead_action) (p : acttab) (pre : List lookahead_action)
    (hne : pre ≠ []) (h : Entered p pre) :
    Entered (enterRow p rest) (pre ++ rest) ∧ SameTable p (enterRow p rest) := by
  induction rest generalizing p pre with
  | nil => simpa [enterRow, SameTable] using h
  | cons e es ih =>
    have h1 := acttab_action_next p e.lookahead e.action pre hne h
    have h2 := ih (acttab_action p e.lookahead e.action) (pre ++ [⟨e.lookahead, e.action⟩])
      (by simp) h1
    have h3 := acttab_action_sameTable p e.lookahead e.action
    have he : (⟨e.lookahead, e.action⟩ : lookahead_action) = e := rfl
    rw [he] at h2
    simp only [List.append_assoc, List.singleton_append] at h2
    refine ⟨h2.1, ?_⟩
    obtain ⟨a1, a2, a3, a4, a5⟩ := h2.2
    obtain ⟨b1, b2, b3, b4, b5⟩ := h3
    exact ⟨a1.trans b1, a2.trans b2, a3.trans b3, a4.trans b4, a5.trans b5⟩

theorem enterRow_spec (p : acttab) (row : List lookahead_action) (hp : p.aLookahead = [])
    (hne : row ≠ []) : Entered (enterRow p row) row ∧ SameTable p (enterRow p row) := by
  cases row with
  | nil => exact absurd rfl hne
  | cons e es =>
    have h1 := acttab_action_first p e.lookahead e.action hp
    have h2 := enterRow_from es (acttab_action p e.lookahead e.action) [e] (by simp) h1
    have h3 := acttab_action_sameTable p e.lookahead e.action
    refine ⟨h2.1, ?_⟩
    obtain ⟨a1, a2, a3, a4, a5⟩ := h2.2
    obtain ⟨b1, b2, b3, b4, b5⟩ := h3
    exact ⟨a1.trans b1, a2.trans b2, a3.trans b3, a4.trans b4, a5.trans b5⟩

theorem acttab_grow_eq (p : acttab) :
    ∃ (A : Int) (n : Nat), acttab_grow p =
      { p with nActionAlloc := A, aAction := p.aAction ++ List.replicate n emptySlot } ∧
      ((p.aAction.length : Int) = p.nActionAlloc → ((p.aAction.length + n : Nat) : Int) = A) ∧
      ((p.aAction.length : Int) = p.nActionAlloc → p.nAction + p.nsymbol + 1 < A) := by
  unfold acttab_grow
  by_cases h : p.nAction + (p.nsymbol + 1) ≥ p.nActionAlloc
  · simp only [h, if_true]
    refine ⟨_, _, rfl, ?_, ?_⟩
    · intro hl; push_cast; omega
    · intro hl; omega
  · simp only [h, if_false]
    refine ⟨p.nActionAlloc, 0, ?_, ?_, ?_⟩
    · simp
    · intro hl; simpa using hl
    · intro hl; omega

theorem acttab_grow_inv (p : acttab) (h : TabInv p) :
    TabInv (acttab_grow p) ∧
      (acttab_grow p).nAction + (acttab_grow p).nsymbol + 1 < (acttab_grow p).nActionAlloc := by
  obtain ⟨A, n, he, h1, h2⟩ := acttab_grow_eq p
  rw [he]
  refine ⟨⟨?_, ?_, ?_, ?_⟩, ?_⟩
  · simp only [List.length_append, List.length_replicate]
    exact h1 h.len
  · exact h.nonneg
  · intro k x hx
    rcases rdAt_append_replicate hx with hx | ⟨_, rfl⟩
    · exact h.low k x hx
    · simp [emptySlot]
  · intro k x hx hk
    rcases rdAt_append_replicate hx with hx | ⟨_, rfl⟩
    · exact h.free k x hx hk
    · simp [emptySlot]
  · exact h2 h.len

theorem acttab_grow_keep (p : acttab) (k : Int) (x : lookahead_action)
    (h : rdAt p.aAction k = some x) : rdAt (acttab_grow p).aAction k = some x := by
  obtain ⟨A, n, he, -, -⟩ := acttab_grow_eq p
  rw [he]
  exact rdAt_append_left h

theorem acttab_grow_fields (p : acttab) :
    (acttab_grow p).nAction = p.nAction ∧ (acttab_grow p).aLookahead = p.aLookahead ∧
    (acttab_grow p).mnLookahead = p.mnLookahead ∧ (acttab_grow p).mnAction = p.mnAction ∧
    (acttab_grow p).mxLookahead = p.mxLookahead ∧ (acttab_grow p).nterminal = p.nterminal ∧
    (acttab_grow p).nsymbol = p.nsymbol := by
  obtain ⟨A, n, he, -, -⟩ := acttab_grow_eq p
  rw [he]
  simp

theorem acttab_grow_entered (p : acttab) (row : List lookahead_action) (h : Entered p row) :
    Entered (acttab_grow p) row := by
  obtain ⟨f1, f2, f3, f4, f5, -, -⟩ := acttab_grow_fields p
  obtain ⟨a, b, c, d, e⟩ := h
  constructor
  · rw [f2]; exact a
  · rw [f3]; exact b
  · rw [f5]; exact c
  · rw [f3, f4]; exact d
  · rw [f5]; exact e

theorem matchRow_spec (p : acttab) (i : Int) (es : List lookahead_action)
    (hlen : p.nAction ≤ (p.aAction.length : Int)) :
    ∃ b, matchRow p i es = some b ∧
      (b = true ↔ ∀ e ∈ es, 0 ≤ slotOf p i e ∧ slotOf p i e < p.nAction ∧
        rdAt p.aAction (slotOf p i e) = some e) := by
  induction es with
  | nil => exact ⟨true, rfl, by simp⟩
  | cons e es ih =>
    obtain ⟨b, hb, hiff⟩ := ih
    unfold matchRow
    simp only []
    by_cases hk : e.lookahead - p.mnLookahead + i < 0 ∨ e.lookahead - p.mnLookahead + i ≥ p.nAction
    · rw [if_pos hk]
      refine ⟨false, rfl, ?_⟩
      constructor
      · intro h; exact absurd h (by simp)
      · intro h
        have := h e (List.mem_cons_self _ _)
        unfold slotOf at this
        omega
    · rw [if_neg hk]
      obtain ⟨x, hx⟩ := rdAt_of_lt (a := p.aAction) (k := e.lookahead - p.mnLookahead + i)
        (by omega) (by omega)
      rw [hx]
      simp only []
      by_cases h1 : e.lookahead ≠ x.lookahead
      · rw [if_pos h1]
        refine ⟨false, rfl, ?_⟩
        constructor
        · intro h; exact absurd h (by simp)
        · intro h
          have := (h e (List.mem_cons_self _ _)).2.2
          unfold slotOf at this
          rw [hx] at this
          injection this with this
          exact absurd (by rw [this]) h1
      · rw [if_neg h1]
        by_cases h2 : e.action ≠ x.action
        · rw [if_pos h2]
          refine ⟨false, rfl, ?_⟩
          constructor
          · intro h; exact absurd h (by simp)
          · intro h
            have := (h e (List.mem_cons_self _ _)).2.2
            unfold slotOf at this
            rw [hx] at this
            injection this with this
            exact absurd (by rw [this]) h2
        · rw [if_neg h2]
          refine ⟨b, hb, ?_⟩
          rw [hiff]
          push_neg at h1 h2
          have hxe : x = e := by
            cases x; cases e; simp only [lookahead_action.mk.injEq]
            exact ⟨h1.symm, h2.symm⟩
          constructor
          · intro h e' he'
            rcases List.mem_cons.1 he' with rfl | he'
            · refine ⟨?_, ?_, ?_⟩
              · unfold slotOf; omega
              · unfold slotOf; omega
              · unfold slotOf; rw [hx, hxe]
            · exact h e' he'
          · intro h e' he'
            exact h e' (List.mem_cons_of_mem _ he')

theorem countDiag_total (p : acttab) (i : Int) (c : Nat) (j n : Int) (h0 : 0 ≤ j)
    (h1 : j + c ≤ (p.aAction.length : Int)) : ∃ m, countDiag p i c j n = some m := by
  induction c generalizing j n with
  | zero => exact ⟨n, rfl⟩
  | succ c ih =>
    unfold countDiag
    obtain ⟨x, hx⟩ := rdAt_of_lt (a := p.aAction) (k := j) h0 (by push_cast at h1; omega)
    rw [hx]
    simp only []
    split_ifs
    · exact ih (j + 1) n (by omega) (by push_cast at h1 ⊢; omega)
    · exact ih (j + 1) (n + 1) (by omega) (by push_cast at h1 ⊢; omega)
    · exact ih (j + 1) n (by omega) (by push_cast at h1 ⊢; omega)

theorem overlapAt_spec (p : acttab) (i : Int) (hlen : p.nAction ≤ (p.aAction.length : Int))
    (h0 : 0 ≤ i) (h1 : i < p.nAction) :
    ∃ b, overlapAt p i = some b ∧ (b = true → matchRow p i p.aLookahead = some true) := by
  unfold overlapAt
  obtain ⟨x, hx⟩ := rdAt_of_lt (a := p.aAction) (k := i) h0 (by omega)
  rw [hx]
  simp only []
  by_cases ha : x.lookahead = p.mnLookahead
  · rw [if_pos ha]
    by_cases hb : x.action ≠ p.mnAction
    · rw [if_pos hb]; exact ⟨false, rfl, by simp⟩
    · rw [if_neg hb]
      obtain ⟨b, hb1, -⟩ := matchRow_spec p i p.aLookahead hlen
      rw [hb1]
      cases b with
      | false => exact ⟨false, rfl, by simp⟩
      | true =>
        obtain ⟨m, hm⟩ := countDiag_total p i p.nAction.toNat 0 0 (le_refl _) (by omega)
        simp only [hm]
        exact ⟨_, rfl, fun _ => trivial⟩
  · rw [if_neg ha]; exact ⟨false, rfl, by simp⟩

theorem overlapSearch_spec (p : acttab) (e : Int) (c : Nat)
    (hlen : p.nAction ≤ (p.aAction.length : Int)) (h0 : 0 ≤ e) (h1 : e + c ≤ p.nAction) :
    ∃ r, overlapSearch p e c = some r ∧
      ∀ i, r = some i → e ≤ i ∧ i < p.nAction ∧ matchRow p i p.aLookahead = some true := by
  induction c with
  | zero => exact ⟨none, rfl, by simp⟩
  | succ c ih =>
    unfold overlapSearch
    obtain ⟨b, hb, hb2⟩ := overlapAt_spec p (e + c) hlen (by omega) (by push_cast at h1; omega)
    rw [hb]
    cases b with
    | true =>
      refine ⟨some (e + c), rfl, ?_⟩
      intro i hi
      injection hi with hi
      subst hi
      exact ⟨by omega, by push_cast at h1; omega, hb2 rfl⟩
    | false =>
      exact ih (by push_cast at h1; omega)

theorem Ready.mn_nonneg {p : acttab} {row : List lookahead_action} (h : Ready p row) :
    0 ≤ p.mnLookahead := by
  obtain ⟨e, he, he1, -⟩ := h.ent.mn_mem
  have := (h.valid.2 e he).1
  omega

theorem Ready.mx_le {p : acttab} {row : List lookahead_action} (h : Ready p row) :
    p.mxLookahead ≤ p.nsymbol := by
  obtain ⟨e, he, he1⟩ := h.ent.mx_mem
  have := (h.valid.2 e he).2
  omega

theorem Ready.mn_le_mx {p : acttab} {row : List lookahead_action} (h : Ready p row) :
    p.mnLookahead ≤ p.mxLookahead := by
  obtain ⟨e, he, he1⟩ := h.ent.mx_mem
  have := h.ent.mn_le e he
  omega

theorem Ready.slot_bounds {p : acttab} {row : List lookahead_action} (h : Ready p row)
    (i : Int) (e : lookahead_action) (he : e ∈ row) :
    i ≤ slotOf p i e ∧ slotOf p i e ≤ i + p.mxLookahead - p.mnLookahead := by
  have h1 := h.ent.mn_le e he
  have h2 := h.ent.le_mx e he
  unfold slotOf
  omega

theorem holeRow_spec (p : acttab) (i : Int) (es : List lookahead_action)
    (h0 : ∀ e ∈ es, 0 ≤ slotOf p i e)
    (h1 : ∀ e ∈ es, slotOf p i e < (p.aAction.length : Int)) :
    ∃ b, holeRow p i es = some b ∧ (b = true ↔ ∀ e ∈ es, FreeAt p (slotOf p i e)) := by
  induction es with
  | nil => exact ⟨true, rfl, by simp⟩
  | cons e es ih =>
    obtain ⟨b, hb, hiff⟩ := ih (fun e he => h0 e (List.mem_cons_of_mem _ he))
      (fun e he => h1 e (List.mem_cons_of_mem _ he))
    have e0 := h0 e (List.mem_cons_self _ _)
    have e1 := h1 e (List.mem_cons_self _ _)
    unfold holeRow
    simp only []
    have hk : ¬ e.lookahead - p.mnLookahead + i < 0 := by unfold slotOf at e0; omega
    rw [if_neg hk]
    obtain ⟨x, hx⟩ := rdAt_of_lt (a := p.aAction) (k := e.lookahead - p.mnLookahead + i)
      (by omega) (by unfold slotOf at e1; omega)
    rw [hx]
    simp only []
    by_cases hx0 : x.lookahead ≥ 0
    · rw [if_pos hx0]
      refine ⟨false, rfl, ?_⟩
      constructor
      · intro h; exact absurd h (by simp)
      · intro h
        obtain ⟨y, hy, hy0⟩ := h e (List.mem_cons_self _ _)
        unfold slotOf at hy
        rw [hx] at hy
        injection hy with hy
        subst hy
        omega
    · rw [if_neg hx0]
      refine ⟨b, hb, ?_⟩
      rw [hiff]
      constructor
      · intro h e' he'
        rcases List.mem_cons.1 he' with rfl | he'
        · exact ⟨x, hx, by omega⟩
        · exact h e' he'
      · intro h e' he'
        exact h e' (List.mem_cons_of_mem _ he')

theorem holeDiag_spec (p : acttab) (i : Int) (c : Nat) (j : Int) (h0 : 0 ≤ j)
    (h1 : j + c ≤ (p.aAction.length : Int)) :
    ∃ b, holeDiag p i c j = some b ∧
      (b = true ↔ ∀ j' x, j ≤ j' → j' < j + c → rdAt p.aAction j' = some x →
        x.lookahead ≠ j' + p.mnLookahead - i) := by
  induction c generalizing j with
  | zero =>
    refine ⟨true, rfl, ?_⟩
    simp only [true_iff]
    intro j' x ha hb
    simp at hb
    omega
  | succ c ih =>
    obtain ⟨b, hb, hiff⟩ := ih (j + 1) (by omega) (by push_cast at h1 ⊢; omega)
    unfold holeDiag
    obtain ⟨x, hx⟩ := rdAt_of_lt (a := p.aAction) (k := j) h0 (by push_cast at h1; omega)
    rw [hx]
    simp only []
    by_cases hd : x.lookahead = j + p.mnLookahead - i
    · rw [if_pos hd]
      refine ⟨false, rfl, ?_⟩
      constructor
      · intro h; exact absurd h (by simp)
      · intro h
        exact absurd hd (h j x (le_refl _) (by push_cast; omega) hx)
    · rw [if_neg hd]
      refine ⟨b, hb, ?_⟩
      rw [hiff]
      constructor
      · intro h j' y ha hb' hy
        by_cases hj : j' = j
        · subst hj
          rw [hx] at hy
          injection hy with hy
          subst hy
          exact hd
        · exact h j' y (by omega) (by push_cast at hb' ⊢; omega) hy
      · intro h j' y ha hb' hy
        exact h j' y (by omega) (by push_cast at hb' ⊢; omega) hy

theorem holeAt_spec (p : acttab) (row : List lookahead_action) (h : Ready p row) (i : Int)
    (h0 : 0 ≤ i) (h1 : i < p.nActionAlloc - p.mxLookahead) :
    ∃ b, holeAt p i = some b ∧
      (b = true ↔ FreeAt p i ∧ RowFree p i ∧ DiagClear p i) := by
  have hlen := h.inv.len
  have hmn := h.mn_nonneg
  have hmx := h.mn_le_mx
  have hroom := h.room
  have hnn := h.inv.nonneg
  have hmxs := h.mx_le
  unfold holeAt
  obtain ⟨x, hx⟩ := rdAt_of_lt (a := p.aAction) (k := i) h0 (by omega)
  rw [hx]
  simp only []
  by_cases hx0 : x.lookahead < 0
  · rw [if_pos hx0]
    obtain ⟨b, hb, hiff⟩ := holeRow_spec p i p.aLookahead
      (by
        intro e he
        rw [h.ent.buf] at he
        have := (h.slot_bounds i e he).1
        omega)
      (by
        intro e he
        rw [h.ent.buf] at he
        have := (h.slot_bounds i e he).2
        omega)
    rw [hb]
    cases b with
    | false =>
      refine ⟨false, rfl, ?_⟩
      constructor
      · intro h; exact absurd h (by simp)
      · intro hh
        exact absurd (hiff.2 hh.2.1) (by simp)
    | true =>
      obtain ⟨b2, hb2, hiff2⟩ := holeDiag_spec p i p.nAction.toNat 0 (le_refl _) (by omega)
      simp only []
      refine ⟨b2, hb2, ?_⟩
      rw [hiff2]
      constructor
      · intro hh
        refine ⟨⟨x, hx, hx0⟩, hiff.1 rfl, ?_⟩
        intro j y hj hy
        exact hh j y (rdAt_lt hy).1 (by omega) hy
      · intro hh j y ha hb' hy
        exact hh.2.2 j y (by omega) hy
  · rw [if_neg hx0]
    refine ⟨false, rfl, ?_⟩
    constructor
    · intro h; exact absurd h (by simp)
    · intro hh
      obtain ⟨y, hy, hy0⟩ := hh.1
      rw [hx] at hy
      injection hy with hy
      subst hy
      exact absurd hy0 hx0

theorem holeSearch_spec (p : acttab) (row : List lookahead_action) (h : Ready p row)
    (c : Nat) (i : Int) (h0 : 0 ≤ i) (h1 : i + c ≤ p.nActionAlloc - p.mxLookahead) :
    ∃ r, holeSearch p c i = some r ∧ i ≤ r ∧
      ((r < i + c ∧ FreeAt p r ∧ RowFree p r ∧ DiagClear p r) ∨
       (r = i + c ∧ ∀ i', i ≤ i' → i' < i + c → ¬ (FreeAt p i' ∧ RowFree p i' ∧ DiagClear p i'))) := by
  induction c generalizing i with
  | zero =>
    refine ⟨i, rfl, le_refl _, Or.inr ⟨by simp, ?_⟩⟩
    intro i' ha hb
    simp at hb
    omega
  | succ c ih =>
    unfold holeSearch
    obtain ⟨b, hb, hiff⟩ := holeAt_spec p row h i h0 (by push_cast at h1; omega)
    rw [hb]
    cases b with
    | true =>
      exact ⟨i, rfl, le_refl _, Or.inl ⟨by push_cast; omega, hiff.1 rfl⟩⟩
    | false =>
      obtain ⟨r, hr, hir, hcase⟩ := ih (i + 1) (by omega) (by push_cast at h1 ⊢; omega)
      refine ⟨r, hr, by omega, ?_⟩
      rcases hcase with ⟨ha, hb'⟩ | ⟨ha, hb'⟩
      · exact Or.inl ⟨by push_cast; omega, hb'⟩
      · refine Or.inr ⟨by push_cast; omega, ?_⟩
        intro i' hi1 hi2
        by_cases hi : i' = i
        · subst hi
          intro hh
          exact absurd (hiff.2 hh) (by simp)
        · exact hb' i' (by omega) (by push_cast at hi2; omega)

theorem wrAt_of_lt {a : List lookahead_action} {k : Int} (v : lookahead_action) (h0 : 0 ≤ k)
    (h1 : k < (a.length : Int)) : wrAt a k v = some (a.set k.toNat v) := by
  unfold wrAt
  rw [if_neg (by omega), if_pos (by omega)]

theorem rdAt_set_self {a : List lookahead_action} {k : Int} (v : lookahead_action)
    (h0 : 0 ≤ k) (h1 : k < (a.length : Int)) : rdAt (a.set k.toNat v) k = some v := by
  rw [rdAt_eq_some]
  exact ⟨h0, List.getElem?_set_self (by omega)⟩

theorem rdAt_set_ne {a : List lookahead_action} {k k' : Int} (v : lookahead_action)
    (h0 : 0 ≤ k) (hne : k ≠ k') : rdAt (a.set k.toNat v) k' = rdAt a k' := by
  unfold rdAt
  by_cases h : k' < 0
  · simp [h]
  · simp only [h, if_false]
    exact List.getElem?_set_ne (by omega)

theorem freeAt_of_ge (p : acttab) (h : TabInv p) (k : Int) (h0 : p.nAction ≤ k)
    (h1 : k < p.nActionAlloc) : FreeAt p k := by
  have := h.len
  have := h.nonneg
  obtain ⟨x, hx⟩ := rdAt_of_lt (a := p.aAction) (k := k) (by omega) (by omega)
  exact ⟨x, hx, h.free k x hx h0⟩

theorem choosePos_spec (p : acttab) (row : List lookahead_action) (h : Ready p row) (s : Int) :
    ∃ i, choosePos p s = some i ∧ 0 ≤ i ∧ (s ≠ 0 → p.mnLookahead ≤ i) ∧
      (RowPresent p i ∨ RowFree p i) := by
  have hlen := h.inv.len
  have hmn := h.mn_nonneg
  have hmx := h.mn_le_mx
  have hroom := h.room
  have hnn := h.inv.nonneg
  have hmxs := h.mx_le
  unfold choosePos
  simp only []
  generalize he : (if s ≠ 0 then p.mnLookahead else 0) = e
  have he0 : 0 ≤ e := by rw [← he]; split_ifs <;> omega
  have hes : s ≠ 0 → p.mnLookahead ≤ e := by
    intro hs; rw [← he, if_pos hs]
  have hov : ∃ r, overlapSearch p e (p.nAction - e).toNat = some r ∧
      ∀ i, r = some i → e ≤ i ∧ i < p.nAction ∧ matchRow p i p.aLookahead = some true := by
    by_cases hc : p.nAction - e ≤ 0
    · have : (p.nAction - e).toNat = 0 := by omega
      rw [this]
      exact ⟨none, rfl, by simp⟩
    · exact overlapSearch_spec p e _ (by omega) he0 (by omega)
  obtain ⟨r, hr, hr2⟩ := hov
  rw [hr]
  cases r with
  | some i =>
    obtain ⟨h1, h2, h3⟩ := hr2 i rfl
    refine ⟨i, rfl, by omega, fun hs => by have := hes hs; omega, Or.inl ?_⟩
    obtain ⟨b, hb, hiff⟩ := matchRow_spec p i p.aLookahead (by omega)
    rw [h3] at hb
    injection hb with hb
    exact hiff.1 hb.symm
  | none =>
    simp only []
    by_cases hc : p.nActionAlloc - p.mxLookahead - e ≤ 0
    · have hz : (p.nActionAlloc - p.mxLookahead - e).toNat = 0 := by omega
      rw [hz]
      have hs : s ≠ 0 := by
        intro hs
        rw [if_neg (by simpa using hs)] at he
        omega
      have hem : e = p.mnLookahead := by rw [← he, if_pos hs]
      refine ⟨e, rfl, he0, fun _ => by omega, Or.inr ?_⟩
      intro x hx
      rw [h.ent.buf] at hx
      have hb := h.slot_bounds e x hx
      exact freeAt_of_ge p h.inv _ (by omega) (by omega)
    · obtain ⟨r, hr, hir, hcase⟩ := holeSearch_spec p row h
        (p.nActionAlloc - p.mxLookahead - e).toNat e he0 (by omega)
      refine ⟨r, hr, by omega, fun hs => by have := hes hs; omega, Or.inr ?_⟩
      rcases hcase with ⟨-, -, hfree, -⟩ | ⟨hre, hnone⟩
      · exact hfree
      · by_cases hm0 : p.mnLookahead = 0
        · exfalso
          have hez : e = 0 := by rw [← he]; split_ifs <;> omega
          refine hnone (p.nAction + 1) (by omega) (by omega) ⟨?_, ?_, ?_⟩
          · exact freeAt_of_ge p h.inv _ (by omega) (by omega)
          · intro x hx
            rw [h.ent.buf] at hx
            have hb := h.slot_bounds (p.nAction + 1) x hx
            exact freeAt_of_ge p h.inv _ (by omega) (by omega)
          · intro j x hj hx
            have := h.inv.low j x hx
            omega
        · intro x hx
          rw [h.ent.buf] at hx
          have hb := h.slot_bounds r x hx
          exact freeAt_of_ge p h.inv _ (by omega) (by omega)

theorem writeRow_spec (i : Int) (es : List lookahead_action) (p : acttab)
    (hin : ∀ e ∈ es, 0 ≤ slotOf p i e ∧ slotOf p i e < (p.aAction.length : Int)) :
    ∃ q, writeRow p i es = some q ∧ q.aAction.length = p.aAction.length ∧
      q.nActionAlloc = p.nActionAlloc ∧ q.aLookahead = p.aLookahead ∧
      q.mnLookahead = p.mnLookahead ∧ q.mnAction = p.mnAction ∧
      q.mxLookahead = p.mxLookahead ∧ q.nterminal = p.nterminal ∧ q.nsymbol = p.nsymbol ∧
      p.nAction ≤ q.nAction ∧ (∀ e ∈ es, slotOf p i e < q.nAction) ∧
      (q.nAction = p.nAction ∨ ∃ e ∈ es, q.nAction = slotOf p i e + 1) ∧
      (∀ k, (∀ e ∈ es, slotOf p i e ≠ k) → rdAt q.aAction k = rdAt p.aAction k) ∧
      (∀ e, LastOf es e → rdAt q.aAction (slotOf p i e) = some e) ∧
      (∀ e ∈ es, ∃ x ∈ es, slotOf p i x = slotOf p i e ∧
        rdAt q.aAction (slotOf p i e) = some x) := by
  induction es generalizing p with
  | nil =>
    refine ⟨p, rfl, rfl, rfl, rfl, rfl, rfl, rfl, rfl, rfl, le_refl _, by simp, Or.inl rfl,
      fun _ _ => rfl, ?_, by simp⟩
    rintro e ⟨pre, post, h, -⟩
    cases pre <;> simp at h
  | cons e es ih =>
    have e0 := hin e (List.mem_cons_self _ _)
    unfold writeRow
    simp only []
    have hw := wrAt_of_lt (a := p.aAction) e (k := e.lookahead - p.mnLookahead + i)
      (by have := e0.1; unfold slotOf at this; omega)
      (by have := e0.2; unfold slotOf at this; omega)
    rw [hw]
    simp only []
    generalize hp1 : ({ p with
        aAction := p.aAction.set (e.lookahead - p.mnLookahead + i).toNat e,
        nAction := if e.lookahead - p.mnLookahead + i ≥ p.nAction
          then e.lookahead - p.mnLookahead + i + 1 else p.nAction } : acttab) = p1
    have hmn1 : p1.mnLookahead = p.mnLookahead := by rw [← hp1]
    have hs1 : ∀ x, slotOf p1 i x = slotOf p i x := by
      intro x; unfold slotOf; rw [hmn1]
    have hl1 : p1.aAction.length = p.aAction.length := by rw [← hp1]; simp
    have ha1 : p1.aAction = p.aAction.set (slotOf p i e).toNat e := by rw [← hp1]; rfl
    have hn1 : p1.nAction = if slotOf p i e ≥ p.nAction then slotOf p i e + 1 else p.nAction := by
      rw [← hp1]; rfl
    obtain ⟨q, hq, q1, q2, q3, q4, q5, q6, q7, q8, q9, q10, q11, q12, q13, q14⟩ := ih p1 (by
      intro x hx
      rw [hs1, hl1]
      exact hin x (List.mem_cons_of_mem _ hx))
    refine ⟨q, hq, by rw [q1, hl1], by rw [q2, ← hp1], by rw [q3, ← hp1], by rw [q4, hmn1],
      by rw [q5, ← hp1], by rw [q6, ← hp1], by rw [q7, ← hp1], by rw [q8, ← hp1], ?_, ?_, ?_, ?_, ?_,
      ?_⟩
    · rw [hn1] at q9
      split_ifs at q9 <;> omega
    · intro x hx
      rcases List.mem_cons.1 hx with rfl | hx
      · rw [hn1] at q9
        split_ifs at q9 <;> omega
      · rw [← hs1]; exact q10 x hx
    · rcases q11 with h1 | ⟨x, hx, h1⟩
      · rw [hn1] at h1
        by_cases hc : slotOf p i e ≥ p.nAction
        · rw [if_pos hc] at h1
          exact Or.inr ⟨e, List.mem_cons_self _ _, h1⟩
        · rw [if_neg hc] at h1
          exact Or.inl h1
      · exact Or.inr ⟨x, List.mem_cons_of_mem _ hx, by rw [h1, hs1]⟩
    · intro k hk
      rw [q12 k (fun x hx => by rw [hs1]; exact hk x (List.mem_cons_of_mem _ hx)), ha1]
      exact rdAt_set_ne e e0.1 (hk e (List.mem_cons_self _ _))
    · rintro x ⟨pre, post, hsplit, hpost⟩
      cases pre with
      | nil =>
        simp only [List.nil_append, List.cons.injEq] at hsplit
        obtain ⟨rfl, rfl⟩ := hsplit
        rw [q12, ha1]
        · exact rdAt_set_self e e0.1 e0.2
        · intro y hy heq
          apply hpost y hy
          rw [hs1] at heq; unfold slotOf at heq; omega
      | cons a pre =>
        simp only [List.cons_append, List.cons.injEq] at hsplit
        rw [← hs1]
        exact q13 x ⟨pre, post, hsplit.2, hpost⟩
    · intro x hx
      by_cases hex : ∃ y ∈ es, slotOf p i y = slotOf p i x
      · obtain ⟨y, hy, hyx⟩ := hex
        obtain ⟨z, hz, hz1, hz2⟩ := q14 y hy
        rw [hs1, hs1] at hz1
        rw [hs1, hyx] at hz2
        exact ⟨z, List.mem_cons_of_mem _ hz, by rw [hz1, hyx], hz2⟩
      · push_neg at hex
        have hxe : slotOf p i x = slotOf p i e := by
          rcases List.mem_cons.1 hx with rfl | hx
          · rfl
          · exact absurd rfl (hex x hx)
        refine ⟨e, List.mem_cons_self _ _, hxe.symm, ?_⟩
        rw [q12, ha1, hxe]
        · exact rdAt_set_self e e0.1 e0.2
        · intro y hy
          rw [hs1]
          exact hex y hy

theorem insertRow_ok (p0 : acttab) (row : List lookahead_action) (s : Int)
    (hinv : TabInv p0) (hbuf : p0.aLookahead = []) (hrow : BoundedRow p0.nsymbol row) :
    ∃ i off q, InsertOK p0 row s i off q := by
  obtain ⟨hent, hs1, hs2, hs3, hs4, hs5⟩ := enterRow_spec p0 row hbuf hrow.1
  have hinvE : TabInv (enterRow p0 row) :=
    ⟨by rw [hs3, hs2]; exact hinv.len, by rw [hs1]; exact hinv.nonneg,
     by rw [hs3]; exact hinv.low, by rw [hs3, hs1]; exact hinv.free⟩
  obtain ⟨g1, g2, g3, g4, g5, g6, g7⟩ := acttab_grow_fields (enterRow p0 row)
  obtain ⟨hinvG, hroom⟩ := acttab_grow_inv (enterRow p0 row) hinvE
  have hready : Ready (acttab_grow (enterRow p0 row)) row :=
    ⟨hinvG, hroom, acttab_grow_entered _ _ hent, by rw [g7, hs5]; exact hrow⟩
  generalize hp1 : acttab_grow (enterRow p0 row) = p1 at *
  obtain ⟨i, hi, hi0, hisafe, hcase⟩ := choosePos_spec p1 row hready s
  have hlen := hinvG.len
  have hin : ∀ e ∈ p1.aLookahead, 0 ≤ slotOf p1 i e ∧ slotOf p1 i e < (p1.aAction.length : Int) := by
    intro e he
    rcases hcase with hc | hc
    · obtain ⟨a, b, c⟩ := hc e he
      exact ⟨a, (rdAt_lt c).2⟩
    · obtain ⟨x, hx, -⟩ := hc e he
      exact rdAt_lt hx
  obtain ⟨p2, hp2, w1, w2, w3, w4, w5, w6, w7, w8, w9, w10, w11, w12, w13, w14⟩ :=
    writeRow_spec i p1.aLookahead p1 hin
  have hbufE := hready.ent.buf
  have hnl : p0.nLookahead = 0 := by simp [acttab.nLookahead, hbuf]
  have hnlE : (enterRow p0 row).nLookahead > 0 := by
    simp only [acttab.nLookahead, hent.buf]
    have : row.length ≠ 0 := by
      intro h0; exact hrow.1 (List.length_eq_zero.1 h0)
    omega
  generalize hp3 : (if s ≠ 0 ∧ i + p2.nterminal ≥ p2.nAction then
      { p2 with nAction := i + p2.nterminal + 1 } else p2 : acttab) = p3
  have h3a : p3.aAction = p2.aAction := by rw [← hp3]; split_ifs <;> rfl
  have h3b : p3.nActionAlloc = p2.nActionAlloc := by rw [← hp3]; split_ifs <;> rfl
  have h3c : p3.mnLookahead = p2.mnLookahead := by rw [← hp3]; split_ifs <;> rfl
  have h3d : p3.nsymbol = p2.nsymbol := by rw [← hp3]; split_ifs <;> rfl
  have h3e : p3.nterminal = p2.nterminal := by rw [← hp3]; split_ifs <;> rfl
  have h3f : p2.nAction ≤ p3.nAction := by
    rw [← hp3]; split_ifs with hc
    · simp only []; omega
    · exact le_refl _
  have h3g : s ≠ 0 → i + p2.nterminal + 1 ≤ p3.nAction := by
    intro hs
    rw [← hp3]
    by_cases hc : i + p2.nterminal ≥ p2.nAction
    · rw [if_pos ⟨hs, hc⟩]
    · rw [if_neg (fun h => hc h.2)]; omega
  have hret : insertRow p0 row s = some (i - p3.mnLookahead, { p3 with aLookahead := [] }) := by
    unfold insertRow acttab_insert
    rw [if_pos hnlE]
    simp only [hp1, hi, hp2, hp3]
  have hslot : ∀ e, i - p1.mnLookahead + e.lookahead = slotOf p1 i e := by
    intro e; unfold slotOf; omega
  refine ⟨i, i - p3.mnLookahead, { p3 with aLookahead := [] }, ?_⟩
  constructor
  · rw [hp1]; exact hi
  · exact hret
  · rw [h3c, w4, ← g3]
  · show p3.mnLookahead = _
    rw [h3c, w4, ← g3]
  · constructor
    · show (p3.aAction.length : Int) = p3.nActionAlloc
      rw [h3a, h3b, w1, w2]; exact hlen
    · show 0 ≤ p3.nAction
      have := hinvG.nonneg; omega
    · intro k x hx
      change rdAt p3.aAction k = some x at hx
      rw [h3a] at hx
      by_cases hk : ∀ e ∈ p1.aLookahead, slotOf p1 i e ≠ k
      · rw [w12 k hk] at hx
        exact hinvG.low k x hx
      · push_neg at hk
        obtain ⟨e, he, hek⟩ := hk
        obtain ⟨y, hy, -, hy2⟩ := w14 e he
        rw [hek, hx] at hy2
        injection hy2 with hy2
        subst hy2
        rw [hbufE] at hy
        have := (hrow.2 x hy).1
        omega
    · intro k x hx hk
      change rdAt p3.aAction k = some x at hx
      change p3.nAction ≤ k at hk
      rw [h3a] at hx
      have hk2 : ∀ e ∈ p1.aLookahead, slotOf p1 i e ≠ k := by
        intro e he heq
        have := w10 e he
        omega
      rw [w12 k hk2] at hx
      exact hinvG.free k x hx (by omega)
  · rfl
  · show p3.nsymbol = _
    rw [h3d, w8, g7, hs5]
  · show p3.nterminal = _
    rw [h3e, w7, g6, hs4]
  · exact hi0
  · rw [← g3]; exact hready.mn_nonneg
  · rw [← g3]; exact hready.ent.mn_le
  · rw [← g3]; exact hisafe
  · intro e he
    show rdAt p3.aAction _ = some e
    rw [h3a, h3c, w4, hslot]
    rw [← hbufE] at he
    exact w13 e he
  · intro k x hx hx0
    show rdAt p3.aAction k = some x
    rw [h3a]
    have hx1 : rdAt p1.aAction k = some x := by
      rw [← hp1]
      apply acttab_grow_keep
      rw [hs3]; exact hx
    by_cases hk : ∀ e ∈ p1.aLookahead, slotOf p1 i e ≠ k
    · rw [w12 k hk]; exact hx1
    · push_neg at hk
      obtain ⟨e, he, hek⟩ := hk
      rcases hcase with hc | hc
      · obtain ⟨y, hy, hy1, hy2⟩ := w14 e he
        obtain ⟨-, -, c⟩ := hc y hy
        rw [hy1, hek, hx1] at c
        injection c with c
        subst c
        rw [← hek]
        exact hy2
      · obtain ⟨y, hy, hy0⟩ := hc e he
        rw [hek, hx1] at hy
        injection hy with hy
        subst hy
        omega
  · intro hs
    show _ ≤ p3.nAction
    have := h3g hs
    rw [w7, g6, hs4] at this
    exact this
  · show _ ≤ p3.nAction
    have : p1.nAction = p0.nAction := by rw [g1, hs1]
    omega

theorem validRow_bounded {nsymbol : Int} {row : List lookahead_action}
    (h : ValidRow nsymbol row) : BoundedRow nsymbol row :=
  ⟨h.1, h.2.2⟩

theorem lastOf_of_nodup {row : List lookahead_action}
    (h : (row.map (fun e => e.lookahead)).Nodup) {e : lookahead_action} (he : e ∈ row) :
    LastOf row e := by
  obtain ⟨pre, post, rfl⟩ := List.append_of_mem he
  refine ⟨pre, post, rfl, ?_⟩
  intro x hx heq
  rw [List.map_append, List.map_cons] at h
  have h2 := (List.nodup_append.1 h).2.1
  rw [List.nodup_cons] at h2
  apply h2.1
  rw [← heq]
  exact List.mem_map_of_mem _ hx

theorem lastOf_mem {row : List lookahead_action} {e : lookahead_action} (h : LastOf row e) :
    e ∈ row := by
  obtain ⟨pre, post, rfl, -⟩ := h
  simp

theorem reach_built {nsymbol nterminal : Int} {p : acttab} (h : Reach nsymbol nterminal p) :
    Built nsymbol nterminal p := by
  induction h with
  | alloc => exact Built.alloc
  | insert _ hrow hins ih => exact Built.insert ih (validRow_bounded hrow) hins

theorem built_inv {nsymbol nterminal : Int} {p : acttab} (h : Built nsymbol nterminal p) :
    TabInv p ∧ p.aLookahead = [] ∧ p.nsymbol = nsymbol ∧ p.nterminal = nterminal := by
  induction h with
  | alloc =>
    refine ⟨⟨rfl, le_refl _, ?_, ?_⟩, rfl, rfl, rfl⟩
    · intro k x hx
      have := rdAt_lt hx
      simp [acttab_alloc] at this
      omega
    · intro k x hx
      have := rdAt_lt hx
      simp [acttab_alloc] at this
      omega
  | @insert p q row s off _ hrow hins ih =>
    obtain ⟨hinv, hbuf, hns, hnt⟩ := ih
    obtain ⟨i, off2, q2, hok⟩ := insertRow_ok p row s hinv hbuf (by rw [hns]; exact hrow)
    have := hok.ret
    rw [hins] at this
    injection this with this
    injection this with h1 h2
    subst h1 h2
    exact ⟨hok.inv, hok.buf, by rw [hok.nsym, hns], by rw [hok.nterm, hnt]⟩

theorem reach_inv {nsymbol nterminal : Int} {p : acttab} (h : Reach nsymbol nterminal p) :
    TabInv p ∧ p.aLookahead = [] ∧ p.nsymbol = nsymbol ∧ p.nterminal = nterminal :=
  built_inv (reach_built h)

theorem insertRow_built {nsymbol nterminal : Int} {p : acttab}
    (hp : Built nsymbol nterminal p) (row : List lookahead_action)
    (hrow : BoundedRow nsymbol row) (s : Int) :
    ∃ i off q, InsertOK p row s i off q ∧ Built nsymbol nterminal q := by
  obtain ⟨hinv, hbuf, hns, hnt⟩ := built_inv hp
  obtain ⟨i, off, q, hok⟩ := insertRow_ok p row s hinv hbuf (by rw [hns]; exact hrow)
  exact ⟨i, off, q, hok, Built.insert hp hrow hok.ret⟩

theorem insertRow_reach {nsymbol nterminal : Int} {p : acttab}
    (hp : Reach nsymbol nterminal p) (row : List lookahead_action)
    (hrow : ValidRow nsymbol row) (s : Int) :
    ∃ i off q, InsertOK p row s i off q ∧ Reach nsymbol nterminal q := by
  obtain ⟨hinv, hbuf, hns, hnt⟩ := reach_inv hp
  obtain ⟨i, off, q, hok⟩ := insertRow_ok p row s hinv hbuf
    (by rw [hns]; exact validRow_bounded hrow)
  exact ⟨i, off, q, hok, Reach.insert hp hrow hok.ret⟩

theorem runRows_ok {nsymbol nterminal : Int} (rows : List (List lookahead_action × Int))
    (p : acttab) (hp : Built nsymbol nterminal p) (hrows : ∀ r ∈ rows, BoundedRow nsymbol r.1) :
    ∃ offs q, runRows p rows = some (offs, q) ∧ offs.length = rows.length ∧
      (∀ k x, rdAt p.aAction k = some x → 0 ≤ x.lookahead → rdAt q.aAction k = some x) ∧
      (∀ (n : Nat) (r : List lookahead_action × Int) (off : Int), rows[n]? = some r → offs[n]? = some off →
        ∀ e, LastOf r.1 e → rdAt q.aAction (off + e.lookahead) = some e) := by
  induction rows generalizing p with
  | nil => exact ⟨[], p, rfl, rfl, fun _ _ h _ => h, by simp⟩
  | cons r rest ih =>
    obtain ⟨row, s⟩ := r
    have hrow : BoundedRow nsymbol row := hrows (row, s) (List.mem_cons_self _ _)
    obtain ⟨i, off, q1, hok, hq1⟩ := insertRow_built hp row hrow s
    obtain ⟨offs, q, hrun, hlen, hframe, hplaced⟩ :=
      ih q1 hq1 (fun r hr => hrows r (List.mem_cons_of_mem _ hr))
    refine ⟨off :: offs, q, ?_, by simp [hlen], ?_, ?_⟩
    · unfold runRows
      simp only [hok.ret, hrun]
    · intro k x hx hx0
      exact hframe k x (hok.frame k x hx hx0) hx0
    · intro n r o hr ho e he
      cases n with
      | zero =>
        simp only [List.getElem?_cons_zero, Option.some.injEq] at hr ho
        subst hr ho
        exact hframe _ e (hok.placed e he) (hrow.2 e (lastOf_mem he)).1
      | succ n =>
        simp only [List.getElem?_cons_succ] at hr ho
        exact hplaced n r o hr ho e he

/-- C1: on a table reached from `acttab_alloc` by complete rows, entering a non-empty row with
pairwise distinct lookaheads in `[0, nsymbol]` and calling `acttab_insert` (any `makeItSafe`)
returns an offset `off` such that `aAction[off + l] = (l, a)` for every entry `(l, a)`. -/
theorem acttab_insert_places_row (nsymbol nterminal : Int) (p : acttab)
    (hp : Reach nsymbol nterminal p) (row : List lookahead_action)
    (hrow : ValidRow nsymbol row) (makeItSafe : Int) :
    ∃ off q, insertRow p row makeItSafe = some (off, q) ∧
      ∀ e ∈ row, rdAt q.aAction (off + e.lookahead) = some e := by
  obtain ⟨i, off, q, hok, -⟩ := insertRow_reach hp row hrow makeItSafe
  exact ⟨off, q, hok.ret, fun e he => hok.placed e (lastOf_of_nodup hrow.2.1 he)⟩

theorem acttab_insert_places_row_witness :
    Reach 3 2 (acttab_alloc 3 2) ∧ ValidRow 3 [⟨1, 7⟩, ⟨0, 5⟩] ∧
    ∃ off q, insertRow (acttab_alloc 3 2) [⟨1, 7⟩, ⟨0, 5⟩] 1 = some (off, q) ∧
      ∀ e ∈ [(⟨1, 7⟩ : lookahead_action), ⟨0, 5⟩], rdAt q.aAction (off + e.lookahead) = some e :=
  ⟨Reach.alloc, by decide,
    acttab_insert_places_row 3 2 (acttab_alloc 3 2) Reach.alloc [⟨1, 7⟩, ⟨0, 5⟩] (by decide) 1⟩

set_option maxRecDepth 100000 in
/-- C2 (the code at a failing input): after the ten rows of `phantomRows`, the ninth row
`{1 ↦ 1}` and the tenth row `{5 ↦ 1, 6 ↦ 1, 9 ↦ 0}` both have offset 17, so slot `17 + 5 = 22`,
which lies below `nAction = 27`, holds lookahead 5 although 5 is not a lookahead of the
ninth row. -/
theorem acttab_insert_phantom_match :
    (runRows (acttab_alloc 10 1) phantomRows).map
      (fun r => (r.1, r.2.nAction, rdAt r.2.aAction (17 + 5))) =
    some ([-3, 1, 2, -1, 7, 0, 10, 15, 17, 17], 27, some ⟨5, 1⟩) := by
  decide

theorem overlapSearch_ge (p : acttab) (e : Int) (c : Nat) (i : Int)
    (h : overlapSearch p e c = some (some i)) : e ≤ i := by
  induction c with
  | zero => simp [overlapSearch] at h
  | succ c ih =>
    unfold overlapSearch at h
    split at h
    · cases h
    · injection h with h
      injection h with h
      omega
    · exact ih h

theorem holeSearch_ge (p : acttab) (c : Nat) (i0 i : Int)
    (h : holeSearch p c i0 = some i) : i0 ≤ i := by
  induction c generalizing i0 with
  | zero =>
    simp only [holeSearch, Option.some.injEq] at h
    omega
  | succ c ih =>
    unfold holeSearch at h
    split at h
    · cases h
    · injection h with h
      omega
    · have := ih _ h
      omega

theorem choosePos_ge (p : acttab) (s i : Int) (hs : s ≠ 0) (h : choosePos p s = some i) :
    p.mnLookahead ≤ i := by
  unfold choosePos at h
  simp only [if_pos hs] at h
  split at h
  · cases h
  · rename_i j hj
    injection h with h
    subst h
    exact overlapSearch_ge p _ _ _ hj
  · exact holeSearch_ge p _ _ _ h

theorem writeRow_fields (i : Int) (es : List lookahead_action) (p q : acttab)
    (h : writeRow p i es = some q) :
    q.mnLookahead = p.mnLookahead ∧ q.nterminal = p.nterminal ∧ p.nAction ≤ q.nAction := by
  induction es generalizing p with
  | nil =>
    simp only [writeRow, Option.some.injEq] at h
    subst h
    exact ⟨rfl, rfl, le_refl _⟩
  | cons e es ih =>
    unfold writeRow at h
    simp only [] at h
    split at h
    · cases h
    · obtain ⟨h1, h2, h3⟩ := ih _ h
      refine ⟨h1, h2, ?_⟩
      simp only [] at h3
      split_ifs at h3 <;> omega

theorem acttab_insert_eq (p : acttab) (s off : Int) (q : acttab)
    (h : acttab_insert p s = some (off, q)) :
    ∃ i, choosePos (acttab_grow p) s = some i ∧ off = i - p.mnLookahead ∧
      q.mnLookahead = p.mnLookahead ∧ q.nterminal = p.nterminal ∧
      (s ≠ 0 → i + p.nterminal + 1 ≤ q.nAction) := by
  obtain ⟨-, -, g3, -, -, g6, -⟩ := acttab_grow_fields p
  unfold acttab_insert at h
  split_ifs at h
  simp only [] at h
  split at h
  · cases h
  · rename_i i hi
    split at h
    · cases h
    · rename_i p2 hp2
      obtain ⟨w1, w2, w3⟩ := writeRow_fields _ _ _ _ hp2
      injection h with h
      injection h with h1 h2
      refine ⟨i, hi, ?_, ?_, ?_, ?_⟩
      · rw [← h1]
        split_ifs <;> (show i - p2.mnLookahead = _) <;> rw [w1, g3]
      · rw [← h2]
        simp only []
        split_ifs <;> exact w1.trans g3
      · rw [← h2]
        simp only []
        split_ifs <;> exact w2.trans g6
      · intro hs
        rw [← h2]
        simp only []
        rw [w2, g6] at *
        by_cases hc : i + p.nterminal ≥ p2.nAction
        · rw [if_pos ⟨hs, hc⟩]
        · rw [if_neg (fun hh => hc hh.2)]
          omega

set_option maxRecDepth 100000 in
/-- C3 (the claim fails here): the row `{1 ↦ 7, 1 ↦ 5}` has two entries on lookahead 1, as
a terminal row of `ReportTable` has after a `%nonassoc` resolution left a Reduce and an
Error on one symbol.  Its insert returns offset 0, and slot `0 + 1` holds `(1, 5)`: the
entry `(1, 7)` of the row is not at `off + l`, already after the row's own insert.  And a
lookahead above `nsymbol`, which the growth step of `nsymbol + 1` slots does not provide
for, does change a defined slot: with `nsymbol = 1`, after the row `{0 ↦ 5}` has been put
in slot 0, the row `{25 ↦ 1}` makes the hole loop end at once (`0 < 22 - 25` fails) and the
write loop puts `(25, 1)` into slot 0. -/
theorem acttab_insert_repeated_lookahead :
    (insertRow (acttab_alloc 3 2) [⟨1, 7⟩, ⟨1, 5⟩] 1).map
      (fun r => (r.1, rdAt r.2.aAction (r.1 + 1))) = some (0, some ⟨1, 5⟩) ∧
    ¬ BoundedRow 1 [⟨25, 1⟩] ∧
    (runRows (acttab_alloc 1 1) [([⟨0, 5⟩], 0)]).map (fun r => (r.1, rdAt r.2.aAction 0)) =
      some ([0], some ⟨0, 5⟩) ∧
    (runRows (acttab_alloc 1 1) [([⟨0, 5⟩], 0), ([⟨25, 1⟩], 0)]).map
      (fun r => (r.1, rdAt r.2.aAction 0)) = some ([0, -25], some ⟨25, 1⟩) := by
  refine ⟨by decide, by decide, by decide, by decide⟩

/-- C3 (amended): on a table built from `acttab_alloc` by inserts of non-empty rows with
lookaheads in `[0, nsymbol]` (a lookahead may repeat within a row), every further sequence
of such rows is inserted, no insert changes a defined slot, and at the end every row of
the sequence is found at its offset, `aAction[off + l] = (l, a)`, for each of its entries
`(l, a)` that no later entry of the same row repeats the lookahead of. -/
theorem acttab_insert_keeps_defined (nsymbol nterminal : Int) (p : acttab)
    (hp : Built nsymbol nterminal p) (rows : List (List lookahead_action × Int))
    (hrows : ∀ r ∈ rows, BoundedRow nsymbol r.1) :
    ∃ offs q, runRows p rows = some (offs, q) ∧ offs.length = rows.length ∧
      (∀ k x, rdAt p.aAction k = some x → 0 ≤ x.lookahead → rdAt q.aAction k = some x) ∧
      (∀ (n : Nat) (r : List lookahead_action × Int) (off : Int), rows[n]? = some r → offs[n]? = some off →
        ∀ e, LastOf r.1 e → rdAt q.aAction (off + e.lookahead) = some e) :=
  runRows_ok rows p hp hrows

theorem acttab_insert_keeps_defined_witness :
    Built 3 2 (acttab_alloc 3 2) ∧
    (∀ r ∈ [([(⟨1, 7⟩ : lookahead_action), ⟨1, 5⟩, ⟨0, 5⟩], (1 : Int)), ([⟨2, 4⟩, ⟨3, 9⟩], 0),
        ([⟨1, 6⟩], 1)], BoundedRow 3 r.1) ∧
    ∃ offs q, runRows (acttab_alloc 3 2)
        [([⟨1, 7⟩, ⟨1, 5⟩, ⟨0, 5⟩], 1), ([⟨2, 4⟩, ⟨3, 9⟩], 0), ([⟨1, 6⟩], 1)] = some (offs, q) ∧
      offs.length = [([(⟨1, 7⟩ : lookahead_action), ⟨1, 5⟩, ⟨0, 5⟩], (1 : Int)),
        ([⟨2, 4⟩, ⟨3, 9⟩], 0), ([⟨1, 6⟩], 1)].length ∧
      (∀ k x, rdAt (acttab_alloc 3 2).aAction k = some x → 0 ≤ x.lookahead →
        rdAt q.aAction k = some x) ∧
      (∀ (n : Nat) (r : List lookahead_action × Int) (off : Int),
        [([(⟨1, 7⟩ : lookahead_action), ⟨1, 5⟩, ⟨0, 5⟩], (1 : Int)), ([⟨2, 4⟩, ⟨3, 9⟩], 0),
        ([⟨1, 6⟩], 1)][n]? = some r → offs[n]? = some off →
        ∀ e, LastOf r.1 e → rdAt q.aAction (off + e.lookahead) = some e) :=
  ⟨Built.alloc, by decide,
    acttab_insert_keeps_defined 3 2 (acttab_alloc 3 2) Built.alloc _ (by decide)⟩

/-- C4: with `makeItSafe` non-zero both searches of `acttab_insert` start or stop at
`mnLookahead`: a `break` of the overlap loop and the final `i` of the hole loop are never
below it.  So for every table and every transaction set, whenever the call returns, the
chosen position `i` is `≥ mnLookahead`, the returned offset `i - mnLookahead` is `≥ 0`, and
`off + l ≥ 0` for every `l ≥ 0`.  The call does return on every table built from
`acttab_alloc` by inserts of non-empty rows with lookaheads in `[0, nsymbol]`, repeated
lookaheads included. -/
theorem acttab_insert_safe_offset_nonneg (p : acttab) (makeItSafe : Int)
    (hsafe : makeItSafe ≠ 0) :
    (∀ c i, overlapSearch (acttab_grow p) p.mnLookahead c = some (some i) →
      p.mnLookahead ≤ i) ∧
    (∀ c i, holeSearch (acttab_grow p) c p.mnLookahead = some i → p.mnLookahead ≤ i) ∧
    (∀ off q, acttab_insert p makeItSafe = some (off, q) →
      ∃ i, choosePos (acttab_grow p) makeItSafe = some i ∧ off = i - p.mnLookahead ∧
        p.mnLookahead ≤ i ∧ 0 ≤ off ∧ ∀ l, 0 ≤ l → 0 ≤ off + l) ∧
    (∀ nsymbol nterminal p0 row, Built nsymbol nterminal p0 → BoundedRow nsymbol row →
      p = enterRow p0 row → ∃ off q, acttab_insert p makeItSafe = some (off, q)) := by
  refine ⟨fun c i h => overlapSearch_ge _ _ c i h, fun c i h => holeSearch_ge _ c _ i h, ?_, ?_⟩
  · intro off q h
    obtain ⟨i, hi, hoff, -, -, -⟩ := acttab_insert_eq p makeItSafe off q h
    have hge := choosePos_ge _ _ _ hsafe hi
    obtain ⟨-, -, g3, -, -, -, -⟩ := acttab_grow_fields p
    rw [g3] at hge
    exact ⟨i, hi, hoff, hge, by omega, fun l hl => by omega⟩
  · intro nsymbol nterminal p0 row hp hrow hpe
    obtain ⟨i, off, q, hok, -⟩ := insertRow_built hp row hrow makeItSafe
    refine ⟨off, q, ?_⟩
    rw [hpe]
    exact hok.ret

set_option maxRecDepth 100000 in
theorem acttab_insert_safe_offset_nonneg_witness :
    (1 : Int) ≠ 0 ∧
    (acttab_insert (enterRow (acttab_alloc 3 2) [⟨1, 7⟩, ⟨1, 5⟩, ⟨2, 4⟩]) 1).map
      (fun r => r.1) = some 0 ∧
    ∀ off q, acttab_insert (enterRow (acttab_alloc 3 2) [⟨1, 7⟩, ⟨1, 5⟩, ⟨2, 4⟩]) 1 =
        some (off, q) →
      ∃ i, choosePos (acttab_grow (enterRow (acttab_alloc 3 2) [⟨1, 7⟩, ⟨1, 5⟩, ⟨2, 4⟩])) 1 =
          some i ∧
        off = i - (enterRow (acttab_alloc 3 2) [⟨1, 7⟩, ⟨1, 5⟩, ⟨2, 4⟩]).mnLookahead ∧
        (enterRow (acttab_alloc 3 2) [⟨1, 7⟩, ⟨1, 5⟩, ⟨2, 4⟩]).mnLookahead ≤ i ∧ 0 ≤ off ∧
        ∀ l, 0 ≤ l → 0 ≤ off + l :=
  ⟨by decide, by decide,
    (acttab_insert_safe_offset_nonneg
      (enterRow (acttab_alloc 3 2) [⟨1, 7⟩, ⟨1, 5⟩, ⟨2, 4⟩]) 1 (by decide)).2.2.1⟩

/-- C5: with `makeItSafe` non-zero, for every table and every transaction set, whenever
`acttab_insert` returns offset `off` the used size satisfies
`nAction ≥ i + nterminal + 1` for the chosen position `i = off + mnLookahead`, so
`off + l < nAction` for every `l` in `[0, nterminal)` as soon as `mnLookahead ≥ 0`.  On
every table built from `acttab_alloc` by inserts of non-empty rows with lookaheads in
`[0, nsymbol]`, repeated lookaheads included, the call returns and `mnLookahead ≥ 0`. -/
theorem acttab_insert_safe_pad (p : acttab) (makeItSafe : Int) (hsafe : makeItSafe ≠ 0) :
    (∀ off q, acttab_insert p makeItSafe = some (off, q) →
      q.mnLookahead = p.mnLookahead ∧ q.nterminal = p.nterminal ∧
      choosePos (acttab_grow p) makeItSafe = some (off + q.mnLookahead) ∧
      q.nAction ≥ (off + q.mnLookahead) + q.nterminal + 1 ∧
      (0 ≤ q.mnLookahead → ∀ l, 0 ≤ l → l < q.nterminal → off + l < q.nAction)) ∧
    (∀ nsymbol nterminal p0 row, Built nsymbol nterminal p0 → BoundedRow nsymbol row →
      p = enterRow p0 row →
      ∃ off q, acttab_insert p makeItSafe = some (off, q) ∧ q.nterminal = nterminal ∧
        0 ≤ q.mnLookahead ∧ (∀ e ∈ row, q.mnLookahead ≤ e.lookahead) ∧
        ∀ l, 0 ≤ l → l < nterminal → off + l < q.nAction) := by
  have hgen : ∀ off q, acttab_insert p makeItSafe = some (off, q) →
      q.mnLookahead = p.mnLookahead ∧ q.nterminal = p.nterminal ∧
      choosePos (acttab_grow p) makeItSafe = some (off + q.mnLookahead) ∧
      q.nAction ≥ (off + q.mnLookahead) + q.nterminal + 1 ∧
      (0 ≤ q.mnLookahead → ∀ l, 0 ≤ l → l < q.nterminal → off + l < q.nAction) := by
    intro off q h
    obtain ⟨i, hi, hoff, hmn, hnt, hpad⟩ := acttab_insert_eq p makeItSafe off q h
    have hp2 := hpad hsafe
    have hio : off + q.mnLookahead = i := by omega
    refine ⟨hmn, hnt, by rw [hio]; exact hi, by rw [hio, hnt]; omega, ?_⟩
    intro h0 l _ hl
    omega
  refine ⟨hgen, ?_⟩
  intro nsymbol nterminal p0 row hp hrow hpe
  obtain ⟨i, off, q, hok, -⟩ := insertRow_built hp row hrow makeItSafe
  obtain ⟨-, -, -, hnt0⟩ := built_inv hp
  have hret : acttab_insert p makeItSafe = some (off, q) := by
    rw [hpe]
    exact hok.ret
  obtain ⟨h1, h2, h3, h4, h5⟩ := hgen off q hret
  have hm0 : 0 ≤ q.mnLookahead := by
    rw [hok.mn_eq]
    exact hok.mn_nonneg
  have hnt : q.nterminal = nterminal := by rw [hok.nterm, hnt0]
  refine ⟨off, q, hret, hnt, hm0, ?_, ?_⟩
  · rw [hok.mn_eq]
    exact hok.mn_le
  · intro l hl0 hl
    exact h5 hm0 l hl0 (by rw [hnt]; exact hl)

set_option maxRecDepth 100000 in
theorem acttab_insert_safe_pad_witness :
    (1 : Int) ≠ 0 ∧
    (acttab_insert (enterRow (acttab_alloc 3 2) [⟨1, 7⟩, ⟨1, 5⟩, ⟨2, 4⟩]) 1).map
      (fun r => (r.1, r.2.nAction, r.2.mnLookahead, r.2.nterminal)) = some (0, 4, 1, 2) ∧
    ∀ off q, acttab_insert (enterRow (acttab_alloc 3 2) [⟨1, 7⟩, ⟨1, 5⟩, ⟨2, 4⟩]) 1 =
        some (off, q) →
      q.mnLookahead = (enterRow (acttab_alloc 3 2) [⟨1, 7⟩, ⟨1, 5⟩, ⟨2, 4⟩]).mnLookahead ∧
      q.nterminal = (enterRow (acttab_alloc 3 2) [⟨1, 7⟩, ⟨1, 5⟩, ⟨2, 4⟩]).nterminal ∧
      choosePos (acttab_grow (enterRow (acttab_alloc 3 2) [⟨1, 7⟩, ⟨1, 5⟩, ⟨2, 4⟩])) 1 =
        some (off + q.mnLookahead) ∧
      q.nAction ≥ (off + q.mnLookahead) + q.nterminal + 1 ∧
      (0 ≤ q.mnLookahead → ∀ l, 0 ≤ l → l < q.nterminal → off + l < q.nAction) :=
  ⟨by decide, by decide,
    (acttab_insert_safe_pad
      (enterRow (acttab_alloc 3 2) [⟨1, 7⟩, ⟨1, 5⟩, ⟨2, 4⟩]) 1 (by decide)).1⟩


theorem isLambda_eq_true {syms : List symbol} {p : Nat} :
    isLambda syms p = true ↔ ∃ s, syms[p]? = some s ∧ s.lambda = true := by
  unfold isLambda
  cases h : syms[p]? with
  | none => simp
  | some s => simp

theorem set_map_same {α β : Type} (f : α → β) (l : List α) (p : Nat) (a b : α)
    (h : l[p]? = some a) (hf : f b = f a) : (l.set p b).map f = l.map f := by
  apply List.ext_getElem?
  intro n
  rw [List.getElem?_map, List.getElem?_map]
  by_cases hn : p = n
  · subst hn
    have hlt := (List.getElem?_eq_some.1 h).1
    rw [List.getElem?_set_self hlt, h]
    simp [hf]
  · rw [List.getElem?_set_ne hn]

theorem allLambda_false {syms : List symbol} {rhs : List Nat}
    (h : allLambda syms rhs = some false) : ∃ x ∈ rhs, isLambda syms x = false := by
  induction rhs with
  | nil => simp [allLambda] at h
  | cons p rest ih =>
    unfold allLambda at h
    cases hp : syms[p]? with
    | none => simp [hp] at h
    | some sp =>
      simp only [hp] at h
      by_cases hl : sp.lambda = false
      · exact ⟨p, List.mem_cons_self _ _, by simp [isLambda, hp, hl]⟩
      · split_ifs at h
        obtain ⟨x, hx, hx2⟩ := ih h
        exact ⟨x, List.mem_cons_of_mem _ hx, hx2⟩

theorem allLambda_true {syms : List symbol} {rhs : List Nat}
    (h : allLambda syms rhs = some true) : ∀ x ∈ rhs, isLambda syms x = true := by
  induction rhs with
  | nil => simp
  | cons p rest ih =>
    unfold allLambda at h
    cases hp : syms[p]? with
    | none => simp [hp] at h
    | some sp =>
      simp only [hp] at h
      by_cases hl : sp.lambda = false
      · split_ifs at h
        simp at h
      · split_ifs at h
        intro x hx
        rcases List.mem_cons.1 hx with rfl | hx
        · simp [isLambda, hp]; simpa using hl
        · exact ih h x hx

/-- What one rule of the nullable pass does: nothing, or it marks the left-hand side of a
rule whose right-hand side is all nullable. -/
theorem lambdaRule_cases {st st1 : List symbol × Int} {rp : rule}
    (h : lambdaRule st rp = some st1) :
    (st1 = st ∧ (isLambda st.1 rp.lhs = true ∨ ∃ x ∈ rp.rhs, isLambda st.1 x = false)) ∨
    (∃ l, st.1[rp.lhs]? = some l ∧ l.lambda = false ∧
      (∀ x ∈ rp.rhs, isLambda st.1 x = true) ∧
      st1 = (st.1.set rp.lhs { l with lambda := true }, 1)) := by
  unfold lambdaRule at h
  cases hl : st.1[rp.lhs]? with
  | none => simp [hl] at h
  | some l =>
    simp only [hl] at h
    by_cases hlam : l.lambda = true
    · rw [if_pos hlam] at h
      injection h with h
      exact Or.inl ⟨h.symm, Or.inl (by simp [isLambda, hl, hlam])⟩
    · rw [if_neg hlam] at h
      cases ha : allLambda st.1 rp.rhs with
      | none => simp [ha] at h
      | some b =>
        cases b with
        | false =>
          simp only [ha] at h
          injection h with h
          exact Or.inl ⟨h.symm, Or.inr (allLambda_false ha)⟩
        | true =>
          simp only [ha] at h
          injection h with h
          exact Or.inr ⟨l, rfl, by simpa using hlam, allLambda_true ha, h.symm⟩

theorem lambdaPass_quiet (rules : List rule) (st st1 : List symbol × Int)
    (h : lambdaPass rules st = some st1) (h0 : st1.2 = 0) :
    st1 = st ∧ ∀ rp ∈ rules, RuleClosed st.1 rp := by
  induction rules generalizing st with
  | nil =>
    simp only [lambdaPass, Option.some.injEq] at h
    exact ⟨h.symm, by simp⟩
  | cons rp rest ih =>
    unfold lambdaPass at h
    cases hr : lambdaRule st rp with
    | none => simp [hr] at h
    | some st2 =>
      simp only [hr] at h
      obtain ⟨e1, hclosed⟩ := ih st2 h
      subst e1
      rcases lambdaRule_cases hr with ⟨e2, hc⟩ | ⟨l, -, -, -, e2⟩
      · subst e2
        refine ⟨rfl, ?_⟩
        intro r hr'
        rcases List.mem_cons.1 hr' with rfl | hr'
        · intro hall
          rcases hc with hc | ⟨x, hx, hx2⟩
          · exact hc
          · rw [hall x hx] at hx2
            exact absurd hx2 (by simp)
        · exact hclosed r hr'
      · rw [e2] at h0
        simp at h0

theorem lambdaLoop_closed (rules : List rule) (fuel : Nat) (syms out : List symbol)
    (h : lambdaLoop rules fuel syms = some out) : ∀ rp ∈ rules, RuleClosed out rp := by
  induction fuel generalizing syms with
  | zero => simp [lambdaLoop] at h
  | succ fuel ih =>
    unfold lambdaLoop at h
    cases hp : lambdaPass rules (syms, 0) with
    | none => simp [hp] at h
    | some st1 =>
      obtain ⟨syms1, progress⟩ := st1
      simp only [hp] at h
      by_cases hprog : progress ≠ 0
      · rw [if_pos hprog] at h
        exact ih syms1 h
      · rw [if_neg hprog] at h
        injection h with h
        subst h
        push_neg at hprog
        obtain ⟨e, hc⟩ := lambdaPass_quiet rules (syms, 0) (syms1, progress) hp hprog
        injection e with e1 e2
        subst e1
        exact hc

theorem core_eraseFirst (s : symbol) : core (eraseFirst s) = core s := rfl

theorem map_core_of_eraseFirst {a b : List symbol}
    (h : a.map eraseFirst = b.map eraseFirst) : a.map core = b.map core := by
  have := congrArg (List.map core) h
  simpa [List.map_map, Function.comp, core_eraseFirst] using this

theorem isLambda_of_eraseFirst {a b : List symbol}
    (h : a.map eraseFirst = b.map eraseFirst) (p : Nat) : isLambda a p = isLambda b p := by
  have h1 := congrArg (fun l => l[p]?) h
  simp only [List.getElem?_map] at h1
  unfold isLambda
  cases ha : a[p]? with
  | none =>
    cases hb : b[p]? with
    | none => rfl
    | some y => simp [ha, hb] at h1
  | some x =>
    cases hb : b[p]? with
    | none => simp [ha, hb] at h1
    | some y =>
      simp only [ha, hb, Option.map_some', Option.some.injEq] at h1
      have := congrArg symbol.lambda h1
      simpa [eraseFirst] using this

theorem getElem?_of_map_core {a : List symbol} {cs : List symbol} (h : a.map core = cs)
    {p : Nat} {s : symbol} (hs : a[p]? = some s) : cs[p]? = some (core s) := by
  rw [← h, List.getElem?_map, hs]
  rfl

theorem firstBit_set {syms : List symbol} {lhs : Nat} {s1 : symbol} {f : List Bool}
    (h1 : syms[lhs]? = some s1) (A t : Nat) :
    firstBit (syms.set lhs { s1 with firstset := some f }) A t =
      if A = lhs then f.getD t false else firstBit syms A t := by
  have hlt := (List.getElem?_eq_some.1 h1).1
  unfold firstBit
  by_cases hA : A = lhs
  · subst hA
    rw [List.getElem?_set_self hlt, if_pos rfl]
  · rw [List.getElem?_set_ne (Ne.symm hA), if_neg hA]

theorem firstBit_of {syms : List symbol} {A : Nat} {s : symbol} {f : List Bool}
    (h1 : syms[A]? = some s) (h2 : s.firstset = some f) (t : Nat) :
    firstBit syms A t = f.getD t false := by
  unfold firstBit
  rw [h1]
  simp only [h2]

theorem SetAdd_bits {size : Nat} {f f2 : List Bool} {e c : Int}
    (h : SetAdd size f e = some (c, f2)) (t : Nat) (ht : f2.getD t false = true) :
    f.getD t false = true ∨ (t : Int) = e := by
  unfold SetAdd at h
  split_ifs at h with he
  cases hr : f[e.toNat]? with
  | none => simp [hr] at h
  | some rv =>
    simp only [hr, Option.some.injEq, Prod.mk.injEq] at h
    obtain ⟨-, h2⟩ := h
    subst h2
    by_cases hte : t = e.toNat
    · right; omega
    · left
      rw [List.getD_eq_getElem?_getD] at ht ⊢
      rw [List.getElem?_set_ne (Ne.symm hte)] at ht
      exact ht

theorem SetUnion_loop_bits (s2 : List Bool) (c i : Nat) (pr : Int) (s1 : List Bool)
    (pr1 : Int) (s3 : List Bool) (h : SetUnion_loop s2 c i pr s1 = some (pr1, s3))
    (t : Nat) (ht : s3.getD t false = true) :
    s1.getD t false = true ∨ s2.getD t false = true := by
  induction c generalizing i pr s1 with
  | zero =>
    simp only [SetUnion_loop, Option.some.injEq, Prod.mk.injEq] at h
    rw [h.2]; exact Or.inl ht
  | succ c ih =>
    unfold SetUnion_loop at h
    cases h2 : s2[i]? with
    | none => simp [h2] at h
    | some b2 =>
      cases b2 with
      | false =>
        simp only [h2] at h
        exact ih _ _ _ h
      | true =>
        simp only [h2] at h
        cases h1 : s1[i]? with
        | none => simp [h1] at h
        | some b1 =>
          cases b1 with
          | true =>
            simp only [h1] at h
            exact ih _ _ _ h
          | false =>
            simp only [h1] at h
            rcases ih _ _ _ h with hx | hx
            · by_cases hti : t = i
              · right
                subst hti
                rw [List.getD_eq_getElem?_getD, h2]
                rfl
              · left
                rw [List.getD_eq_getElem?_getD] at hx ⊢
                rw [List.getElem?_set_ne (Ne.symm hti)] at hx
                exact hx
            · exact Or.inr hx

theorem addFirst_spec {size : Nat} {syms syms1 : List symbol} {lhs : Nat} {e c : Int}
    (h : addFirst size syms lhs e = some (c, syms1)) :
    syms1.map eraseFirst = syms.map eraseFirst ∧
    ∀ A t, firstBit syms1 A t = true → firstBit syms A t = true ∨ (A = lhs ∧ (t : Int) = e) := by
  unfold addFirst at h
  cases h1 : syms[lhs]? with
  | none => simp [h1] at h
  | some s1 =>
    simp only [h1] at h
    cases hf : s1.firstset with
    | none => simp [hf] at h
    | some f1 =>
      simp only [hf] at h
      cases ha : SetAdd size f1 e with
      | none => simp [ha] at h
      | some r =>
        obtain ⟨c2, f2⟩ := r
        simp only [ha, Option.some.injEq, Prod.mk.injEq] at h
        obtain ⟨-, h3⟩ := h
        subst h3
        refine ⟨set_map_same eraseFirst syms lhs s1 _ h1 rfl, ?_⟩
        intro A t ht
        rw [firstBit_set h1] at ht
        by_cases hA : A = lhs
        · rw [if_pos hA] at ht
          rcases SetAdd_bits ha t ht with hx | hx
          · left
            subst hA
            rw [firstBit_of h1 hf]; exact hx
          · exact Or.inr ⟨hA, hx⟩
        · rw [if_neg hA] at ht
          exact Or.inl ht

theorem unionFirst_spec {size : Nat} {syms syms1 : List symbol} {lhs p2 : Nat} {c : Int}
    (h : unionFirst size syms lhs p2 = some (c, syms1)) :
    syms1.map eraseFirst = syms.map eraseFirst ∧
    ∀ A t, firstBit syms1 A t = true →
      firstBit syms A t = true ∨ (A = lhs ∧ firstBit syms p2 t = true) := by
  unfold unionFirst at h
  cases h1 : syms[lhs]? with
  | none => simp [h1] at h
  | some s1 =>
    cases h2 : syms[p2]? with
    | none => simp [h1, h2] at h
    | some s2 =>
      simp only [h1, h2] at h
      cases hf1 : s1.firstset with
      | none => simp [hf1] at h
      | some f1 =>
        cases hf2 : s2.firstset with
        | none => simp [hf1, hf2] at h
        | some f2 =>
          simp only [hf1, hf2] at h
          cases hu : SetUnion size f1 f2 with
          | none => simp [hu] at h
          | some r =>
            obtain ⟨c2, f3⟩ := r
            simp only [hu, Option.some.injEq, Prod.mk.injEq] at h
            obtain ⟨-, h3⟩ := h
            subst h3
            refine ⟨set_map_same eraseFirst syms lhs s1 _ h1 rfl, ?_⟩
            intro A t ht
            rw [firstBit_set h1] at ht
            by_cases hA : A = lhs
            · rw [if_pos hA] at ht
              rcases SetUnion_loop_bits f2 size 0 0 f1 c2 f3 hu t ht with hx | hx
              · left
                subst hA
                rw [firstBit_of h1 hf1]; exact hx
              · right
                refine ⟨hA, ?_⟩
                rw [firstBit_of h2 hf2]; exact hx
            · rw [if_neg hA] at ht
              exact Or.inl ht

theorem addSubsyms_spec {size : Nat} {lhs : Nat} (subs : List Nat)
    (st st1 : List symbol × Int) (h : addSubsyms size lhs subs st = some st1) :
    st1.1.map eraseFirst = st.1.map eraseFirst ∧
    ∀ A t, firstBit st1.1 A t = true → firstBit st.1 A t = true ∨
      (A = lhs ∧ ∃ q ∈ subs, ∃ sq, (st.1.map core)[q]? = some sq ∧ sq.index = (t : Int)) := by
  induction subs generalizing st with
  | nil =>
    simp only [addSubsyms, Option.some.injEq] at h
    subst h
    exact ⟨rfl, fun A t ht => Or.inl ht⟩
  | cons q rest ih =>
    obtain ⟨syms, progress⟩ := st
    unfold addSubsyms at h
    cases hq : syms[q]? with
    | none => simp [hq] at h
    | some sub =>
      simp only [hq] at h
      cases ha : addFirst size syms lhs sub.index with
      | none => simp [ha] at h
      | some r =>
        obtain ⟨c, syms1⟩ := r
        simp only [ha] at h
        obtain ⟨e1, b1⟩ := addFirst_spec ha
        obtain ⟨e2, b2⟩ := ih (syms1, progress + c) h
        refine ⟨e2.trans e1, ?_⟩
        intro A t ht
        rcases b2 A t ht with hx | ⟨hA, q', hq', sq, hsq, hidx⟩
        · rcases b1 A t hx with hy | ⟨hA, hidx⟩
          · exact Or.inl hy
          · refine Or.inr ⟨hA, q, List.mem_cons_self _ _, core sub, ?_, ?_⟩
            · exact getElem?_of_map_core rfl hq
            · exact hidx.symm
        · refine Or.inr ⟨hA, q', List.mem_cons_of_mem _ hq', sq, ?_, hidx⟩
          rw [← map_core_of_eraseFirst e1]
          exact hsq

theorem step_append_right {rules : List rule} {u v : List Nat} (w : List Nat)
    (h : Step rules u v) : Step rules (u ++ w) (v ++ w) := by
  cases h with
  | rewrite a b r hr =>
    have := Step.rewrite a (b ++ w) r hr
    simpa [List.append_assoc] using this

theorem step_append_left {rules : List rule} {u v : List Nat} (w : List Nat)
    (h : Step rules u v) : Step rules (w ++ u) (w ++ v) := by
  cases h with
  | rewrite a b r hr =>
    have := Step.rewrite (w ++ a) b r hr
    simpa [List.append_assoc] using this

theorem derives_append_right {rules : List rule} {u v : List Nat} (w : List Nat)
    (h : Derives rules u v) : Derives rules (u ++ w) (v ++ w) := by
  induction h with
  | refl => exact Relation.ReflTransGen.refl
  | tail _ hs ih => exact Relation.ReflTransGen.tail ih (step_append_right w hs)

theorem derives_append_left {rules : List rule} {u v : List Nat} (w : List Nat)
    (h : Derives rules u v) : Derives rules (w ++ u) (w ++ v) := by
  induction h with
  | refl => exact Relation.ReflTransGen.refl
  | tail _ hs ih => exact Relation.ReflTransGen.tail ih (step_append_left w hs)

theorem derives_rule {rules : List rule} {r : rule} (hr : r ∈ rules) :
    Derives rules [r.lhs] r.rhs := by
  have := Step.rewrite [] [] r hr
  simp only [List.nil_append, List.append_nil] at this
  exact Relation.ReflTransGen.single this

theorem derives_erase_prefix {rules : List rule} (pre rest : List Nat)
    (h : ∀ x ∈ pre, Derives rules [x] []) : Derives rules (pre ++ rest) rest := by
  induction pre with
  | nil => exact Relation.ReflTransGen.refl
  | cons x xs ih =>
    have h1 : Derives rules ([x] ++ (xs ++ rest)) ([] ++ (xs ++ rest)) :=
      derives_append_right (xs ++ rest) (h x (List.mem_cons_self _ _))
    have h2 := ih (fun y hy => h y (List.mem_cons_of_mem _ hy))
    exact Relation.ReflTransGen.trans h1 h2

theorem Nullable.derives {rules : List rule} {p : Nat} (h : Nullable rules p) :
    Derives rules [p] [] := by
  induction h with
  | intro r hr _ ih =>
    have h1 := derives_rule hr
    have h2 := derives_erase_prefix r.rhs [] ih
    rw [List.append_nil] at h2
    exact Relation.ReflTransGen.trans h1 h2

theorem derives_skip {rules : List rule} {lhs p2 : Nat} {rest : List Nat}
    (hd : Derives rules [lhs] (p2 :: rest)) (hp : Derives rules [p2] []) :
    Derives rules [lhs] rest := by
  have := derives_append_right rest hp
  exact Relation.ReflTransGen.trans hd this

theorem BeginsWith.lift {rules : List rule} {cs : List symbol} {lhs p2 t : Nat}
    {rest : List Nat} (hd : Derives rules [lhs] (p2 :: rest))
    (h : BeginsWith rules cs p2 t) : BeginsWith rules cs lhs t := by
  obtain ⟨s, ss, w, h1, h2, h3, h4⟩ := h
  refine ⟨s, ss, w ++ rest, h1, h2, h3, ?_⟩
  rcases h4 with h4 | ⟨X, sx, hx1, hx2, hx3, h4⟩
  · left
    have := derives_append_right rest h4
    exact Relation.ReflTransGen.trans hd this
  · right
    refine ⟨X, sx, hx1, hx2, hx3, ?_⟩
    have := derives_append_right rest h4
    exact Relation.ReflTransGen.trans hd this

theorem FirstInv.step {rules : List rule} {cs syms syms1 : List symbol}
    (h : FirstInv rules cs syms) (he : syms1.map eraseFirst = syms.map eraseFirst)
    (hb : ∀ A t, firstBit syms1 A t = true →
      firstBit syms A t = true ∨ BeginsWith rules cs A t) : FirstInv rules cs syms1 := by
  refine ⟨?_, ?_, ?_⟩
  · rw [map_core_of_eraseFirst he]; exact h.shape
  · intro p hp
    rw [isLambda_of_eraseFirst he] at hp
    exact h.lam p hp
  · intro A t ht
    rcases hb A t ht with hx | hx
    · exact h.sound A t hx
    · exact hx

theorem firstScan_sound {rules : List rule} {cs : List symbol} {size lhs : Nat}
    (hm : MultiOK cs) (rest : List Nat) (st st1 : List symbol × Int)
    (hd : Derives rules [lhs] rest) (hinv : FirstInv rules cs st.1)
    (h : firstScan size lhs rest st = some st1) : FirstInv rules cs st1.1 := by
  induction rest generalizing st with
  | nil =>
    simp only [firstScan, Option.some.injEq] at h
    subst h; exact hinv
  | cons p2 rest ih =>
    obtain ⟨syms, progress⟩ := st
    unfold firstScan at h
    cases h2 : syms[p2]? with
    | none => simp [h2] at h
    | some s2 =>
      simp only [h2] at h
      have hc2 : cs[p2]? = some (core s2) := getElem?_of_map_core hinv.shape h2
      by_cases ht : s2.type = symbol_type.TERMINAL
      · rw [if_pos ht] at h
        cases ha : addFirst size syms lhs s2.index with
        | none => simp [ha] at h
        | some r =>
          obtain ⟨c, syms1⟩ := r
          simp only [ha, Option.some.injEq] at h
          subst h
          obtain ⟨e1, b1⟩ := addFirst_spec ha
          refine hinv.step e1 ?_
          intro A t hbit
          rcases b1 A t hbit with hx | ⟨hA, hidx⟩
          · exact Or.inl hx
          · right
            subst hA
            exact ⟨p2, core s2, rest, hc2, hidx.symm, ht, Or.inl hd⟩
      · rw [if_neg ht] at h
        by_cases hmt : s2.type = symbol_type.MULTITERMINAL
        · rw [if_pos hmt] at h
          obtain ⟨e1, b1⟩ := addSubsyms_spec s2.subsym (syms, progress) st1 h
          refine hinv.step e1 ?_
          intro A t hbit
          rcases b1 A t hbit with hx | ⟨hA, q, hq, sq, hsq, hidx⟩
          · exact Or.inl hx
          · right
            subst hA
            have hsh : syms.map core = cs := hinv.shape
            rw [hsh] at hsq
            have hmem : core s2 ∈ cs := List.getElem?_mem hc2
            have hty := hm (core s2) hmem hmt q hq
            unfold symType at hty
            rw [hsq] at hty
            simp only [Option.map_some', Option.some.injEq] at hty
            exact ⟨q, sq, rest, hsq, hidx, hty, Or.inr ⟨p2, core s2, hc2, hmt, hq, hd⟩⟩
        · rw [if_neg hmt] at h
          have hlam2 : isLambda syms p2 = s2.lambda := by simp [isLambda, h2]
          by_cases hself : lhs = p2
          · rw [if_pos hself] at h
            by_cases hl : s2.lambda = false
            · rw [if_pos hl] at h
              injection h with h
              subst h; exact hinv
            · rw [if_neg hl] at h
              have hl2 : isLambda syms p2 = true := by rw [hlam2]; simpa using hl
              exact ih (syms, progress) (derives_skip hd (hinv.lam p2 hl2)) hinv h
          · rw [if_neg hself] at h
            cases hu : unionFirst size syms lhs p2 with
            | none => simp [hu] at h
            | some r =>
              obtain ⟨c, syms1⟩ := r
              simp only [hu] at h
              obtain ⟨e1, b1⟩ := unionFirst_spec hu
              have hinv1 : FirstInv rules cs syms1 := by
                refine hinv.step e1 ?_
                intro A t hbit
                rcases b1 A t hbit with hx | ⟨hA, hb2⟩
                · exact Or.inl hx
                · right
                  subst hA
                  exact BeginsWith.lift hd (hinv.sound p2 t hb2)
              by_cases hl : s2.lambda = false
              · rw [if_pos hl] at h
                injection h with h
                subst h; exact hinv1
              · rw [if_neg hl] at h
                have hl2 : isLambda syms p2 = true := by rw [hlam2]; simpa using hl
                exact ih (syms1, progress + c) (derives_skip hd (hinv.lam p2 hl2)) hinv1 h

theorem firstPass_sound {rules : List rule} {cs : List symbol} {size : Nat}
    (hm : MultiOK cs) (rs : List rule) (hrs : ∀ r ∈ rs, r ∈ rules)
    (st st1 : List symbol × Int) (hinv : FirstInv rules cs st.1)
    (h : firstPass size rs st = some st1) : FirstInv rules cs st1.1 := by
  induction rs generalizing st with
  | nil =>
    simp only [firstPass, Option.some.injEq] at h
    subst h; exact hinv
  | cons rp rest ih =>
    unfold firstPass at h
    cases hs : firstScan size rp.lhs rp.rhs st with
    | none => simp [hs] at h
    | some st2 =>
      simp only [hs] at h
      have h2 := firstScan_sound hm rp.rhs st st2
        (derives_rule (hrs rp (List.mem_cons_self _ _))) hinv hs
      exact ih (fun r hr => hrs r (List.mem_cons_of_mem _ hr)) st2 h2 h

theorem firstLoop_sound {rules : List rule} {cs : List symbol} {size : Nat}
    (hm : MultiOK cs) (fuel : Nat) (syms out : List symbol) (hinv : FirstInv rules cs syms)
    (h : firstLoop size rules fuel syms = some out) : FirstInv rules cs out := by
  induction fuel generalizing syms with
  | zero => simp [firstLoop] at h
  | succ fuel ih =>
    unfold firstLoop at h
    cases hp : firstPass size rules (syms, 0) with
    | none => simp [hp] at h
    | some st1 =>
      obtain ⟨syms1, progress⟩ := st1
      simp only [hp] at h
      have h1 := firstPass_sound hm rules (fun r hr => hr) (syms, 0) (syms1, progress) hinv hp
      by_cases hprog : progress ≠ 0
      · rw [if_pos hprog] at h
        exact ih syms1 h1 h
      · rw [if_neg hprog] at h
        injection h with h
        subst h
        exact h1

theorem firstScan_preserve {Q : List symbol → Prop} {size lhs : Nat}
    (hadd : ∀ syms e c syms1, Q syms → addFirst size syms lhs e = some (c, syms1) → Q syms1)
    (huni : ∀ syms p2 c syms1, Q syms → unionFirst size syms lhs p2 = some (c, syms1) → Q syms1)
    (rest : List Nat) (st st1 : List symbol × Int) (hq : Q st.1)
    (h : firstScan size lhs rest st = some st1) : Q st1.1 := by
  have hsub : ∀ (subs : List Nat) (st st1 : List symbol × Int), Q st.1 →
      addSubsyms size lhs subs st = some st1 → Q st1.1 := by
    intro subs
    induction subs with
    | nil =>
      intro st st1 hq h
      simp only [addSubsyms, Option.some.injEq] at h
      subst h; exact hq
    | cons q rest ih =>
      intro st st1 hq h
      obtain ⟨syms, progress⟩ := st
      unfold addSubsyms at h
      cases hq2 : syms[q]? with
      | none => simp [hq2] at h
      | some sub =>
        simp only [hq2] at h
        cases ha : addFirst size syms lhs sub.index with
        | none => simp [ha] at h
        | some r =>
          obtain ⟨c, syms1⟩ := r
          simp only [ha] at h
          exact ih (syms1, progress + c) st1 (hadd _ _ _ _ hq ha) h
  induction rest generalizing st with
  | nil =>
    simp only [firstScan, Option.some.injEq] at h
    subst h; exact hq
  | cons p2 rest ih =>
    obtain ⟨syms, progress⟩ := st
    unfold firstScan at h
    cases h2 : syms[p2]? with
    | none => simp [h2] at h
    | some s2 =>
      simp only [h2] at h
      split_ifs at h with c1 c2 c3 c4 c5
      · cases ha : addFirst size syms lhs s2.index with
        | none => simp [ha] at h
        | some r =>
          obtain ⟨c, syms1⟩ := r
          simp only [ha, Option.some.injEq] at h
          subst h
          exact hadd _ _ _ _ hq ha
      · exact hsub _ _ _ hq h
      · injection h with h
        subst h; exact hq
      · exact ih (syms, progress) hq h
      · cases hu : unionFirst size syms lhs p2 with
        | none => simp [hu] at h
        | some r =>
          obtain ⟨c, syms1⟩ := r
          simp only [hu, Option.some.injEq] at h
          subst h
          exact huni _ _ _ _ hq hu
      · cases hu : unionFirst size syms lhs p2 with
        | none => simp [hu] at h
        | some r =>
          obtain ⟨c, syms1⟩ := r
          simp only [hu] at h
          exact ih (syms1, progress + c) (huni _ _ _ _ hq hu) h

theorem firstLoop_preserve {Q : List symbol → Prop} {size : Nat} {rules : List rule}
    (hadd : ∀ lhs syms e c syms1, Q syms → addFirst size syms lhs e = some (c, syms1) → Q syms1)
    (huni : ∀ lhs syms p2 c syms1, Q syms →
      unionFirst size syms lhs p2 = some (c, syms1) → Q syms1)
    (fuel : Nat) (syms out : List symbol) (hq : Q syms)
    (h : firstLoop size rules fuel syms = some out) : Q out := by
  have hpass : ∀ (rs : List rule) (st st1 : List symbol × Int), Q st.1 →
      firstPass size rs st = some st1 → Q st1.1 := by
    intro rs
    induction rs with
    | nil =>
      intro st st1 hq h
      simp only [firstPass, Option.some.injEq] at h
      subst h; exact hq
    | cons rp rest ih =>
      intro st st1 hq h
      unfold firstPass at h
      cases hs : firstScan size rp.lhs rp.rhs st with
      | none => simp [hs] at h
      | some st2 =>
        simp only [hs] at h
        exact ih st2 st1 (firstScan_preserve (hadd rp.lhs) (huni rp.lhs) rp.rhs st st2 hq hs) h
  induction fuel generalizing syms with
  | zero => simp [firstLoop] at h
  | succ fuel ih =>
    unfold firstLoop at h
    cases hp : firstPass size rules (syms, 0) with
    | none => simp [hp] at h
    | some st1 =>
      obtain ⟨syms1, progress⟩ := st1
      simp only [hp] at h
      have h1 := hpass rules (syms, 0) (syms1, progress) hq hp
      by_cases hprog : progress ≠ 0
      · rw [if_pos hprog] at h
        exact ih syms1 h1 h
      · rw [if_neg hprog] at h
        injection h with h
        subst h
        exact h1

theorem firstLoop_eraseFirst {size : Nat} {rules : List rule} (fuel : Nat)
    (syms out : List symbol) (h : firstLoop size rules fuel syms = some out) :
    out.map eraseFirst = syms.map eraseFirst := by
  refine firstLoop_preserve (Q := fun s => s.map eraseFirst = syms.map eraseFirst)
    ?_ ?_ fuel syms out rfl h
  · intro lhs s e c s1 hq ha
    exact (addFirst_spec ha).1.trans hq
  · intro lhs s p2 c s1 hq hu
    exact (unionFirst_spec hu).1.trans hq

theorem core_eraseLam (s : symbol) : core (eraseLam s) = core s := rfl

theorem map_core_of_eraseLam {a b : List symbol}
    (h : a.map eraseLam = b.map eraseLam) : a.map core = b.map core := by
  have := congrArg (List.map core) h
  simpa [List.map_map, Function.comp, core_eraseLam] using this

theorem firstBit_of_eraseLam {a b : List symbol}
    (h : a.map eraseLam = b.map eraseLam) (p t : Nat) : firstBit a p t = firstBit b p t := by
  have h1 := congrArg (fun l => l[p]?) h
  simp only [List.getElem?_map] at h1
  unfold firstBit
  cases ha : a[p]? with
  | none =>
    cases hb : b[p]? with
    | none => rfl
    | some y => simp [ha, hb] at h1
  | some x =>
    cases hb : b[p]? with
    | none => simp [ha, hb] at h1
    | some y =>
      simp only [ha, hb, Option.map_some', Option.some.injEq] at h1
      have : x.firstset = y.firstset := by
        have := congrArg symbol.firstset h1
        simpa [eraseLam] using this
      simp only [this]

theorem symType_map_core (syms : List symbol) (p : Nat) :
    symType (syms.map core) p = symType syms p := by
  unfold symType
  rw [List.getElem?_map]
  cases syms[p]? with
  | none => rfl
  | some s => rfl

theorem isLambda_set {syms : List symbol} {lhs : Nat} {l s1 : symbol}
    (h1 : syms[lhs]? = some l) (p : Nat) :
    isLambda (syms.set lhs s1) p = if p = lhs then s1.lambda else isLambda syms p := by
  have hlt := (List.getElem?_eq_some.1 h1).1
  unfold isLambda
  by_cases hp : p = lhs
  · subst hp
    rw [List.getElem?_set_self hlt, if_pos rfl]
  · rw [List.getElem?_set_ne (Ne.symm hp), if_neg hp]

theorem lambdaRule_inv {rules : List rule} {cs : List symbol} {st st1 : List symbol × Int}
    {rp : rule} (hrp : rp ∈ rules) (hinv : LamInv rules cs st.1) (h : lambdaRule st rp = some st1) :
    LamInv rules cs st1.1 ∧ st1.1.map eraseLam = st.1.map eraseLam := by
  rcases lambdaRule_cases h with ⟨e, -⟩ | ⟨l, hl, -, hall, e⟩
  · subst e; exact ⟨hinv, rfl⟩
  · subst e
    refine ⟨⟨?_, ?_⟩, ?_⟩
    · show List.map core (st.1.set rp.lhs _) = cs
      exact (set_map_same core st.1 rp.lhs l { l with lambda := true } hl rfl).trans hinv.shape
    · intro p hp
      change isLambda (st.1.set rp.lhs _) p = true at hp
      rw [isLambda_set hl] at hp
      by_cases hpl : p = rp.lhs
      · subst hpl
        exact Nullable.intro rp hrp (fun x hx => hinv.just x (hall x hx))
      · rw [if_neg hpl] at hp
        exact hinv.just p hp
    · exact set_map_same eraseLam st.1 rp.lhs l _ hl rfl

theorem lambdaPass_inv {rules : List rule} {cs : List symbol} (rs : List rule)
    (hrs : ∀ r ∈ rs, r ∈ rules)
    (st st1 : List symbol × Int) (hinv : LamInv rules cs st.1)
    (h : lambdaPass rs st = some st1) :
    LamInv rules cs st1.1 ∧ st1.1.map eraseLam = st.1.map eraseLam := by
  induction rs generalizing st with
  | nil =>
    simp only [lambdaPass, Option.some.injEq] at h
    subst h; exact ⟨hinv, rfl⟩
  | cons rp rest ih =>
    unfold lambdaPass at h
    cases hr : lambdaRule st rp with
    | none => simp [hr] at h
    | some st2 =>
      simp only [hr] at h
      have hmem := hrs rp (List.mem_cons_self _ _)
      obtain ⟨i1, e1⟩ := lambdaRule_inv hmem hinv hr
      obtain ⟨i2, e2⟩ := ih (fun r hr => hrs r (List.mem_cons_of_mem _ hr)) st2 i1 h
      exact ⟨i2, e2.trans e1⟩

theorem lambdaLoop_inv {rules : List rule} {cs : List symbol}
    (fuel : Nat) (syms out : List symbol) (hinv : LamInv rules cs syms)
    (h : lambdaLoop rules fuel syms = some out) :
    LamInv rules cs out ∧ out.map eraseLam = syms.map eraseLam := by
  induction fuel generalizing syms with
  | zero => simp [lambdaLoop] at h
  | succ fuel ih =>
    unfold lambdaLoop at h
    cases hp : lambdaPass rules (syms, 0) with
    | none => simp [hp] at h
    | some st1 =>
      obtain ⟨syms1, progress⟩ := st1
      simp only [hp] at h
      obtain ⟨i1, e1⟩ := lambdaPass_inv rules (fun r hr => hr) (syms, 0) (syms1, progress)
        hinv hp
      by_cases hprog : progress ≠ 0
      · rw [if_pos hprog] at h
        obtain ⟨i2, e2⟩ := ih syms1 i1 h
        exact ⟨i2, e2.trans e1⟩
      · rw [if_neg hprog] at h
        injection h with h
        subst h
        exact ⟨i1, e1⟩

theorem resetLambda_spec (c i : Nat) (syms out : List symbol)
    (h : resetLambda c i syms = some out) :
    out.map eraseLam = syms.map eraseLam ∧
    ∀ p, isLambda out p = if i ≤ p ∧ p < i + c then false else isLambda syms p := by
  induction c generalizing i syms with
  | zero =>
    simp only [resetLambda, Option.some.injEq] at h
    subst h
    refine ⟨rfl, fun p => ?_⟩
    rw [if_neg (by omega)]
  | succ c ih =>
    unfold resetLambda at h
    cases hs : syms[i]? with
    | none => simp [hs] at h
    | some s =>
      simp only [hs] at h
      obtain ⟨e1, b1⟩ := ih (i + 1) _ h
      refine ⟨e1.trans (set_map_same eraseLam syms i s _ hs rfl), ?_⟩
      intro p
      rw [b1 p, isLambda_set hs]
      by_cases hp : p = i
      · subst hp
        rw [if_neg (by omega), if_pos rfl, if_pos (by omega)]
      · simp only [hp, if_false]
        by_cases hr : i + 1 ≤ p ∧ p < i + 1 + c
        · rw [if_pos hr, if_pos (by omega)]
        · rw [if_neg hr, if_neg (by omega)]

theorem getD_SetNew (size t : Nat) : (SetNew size).getD t false = false := by
  unfold SetNew
  rw [List.getD_eq_getElem?_getD]
  cases h : (List.replicate size false)[t]? with
  | none => rfl
  | some b =>
    have := List.getElem?_mem h
    rw [List.mem_replicate] at this
    simp [this.2]

theorem newFirstSets_spec (size c i : Nat) (syms out : List symbol)
    (h : newFirstSets size c i syms = some out) :
    out.map eraseFirst = syms.map eraseFirst ∧
    ∀ p t, firstBit out p t = if i ≤ p ∧ p < i + c then false else firstBit syms p t := by
  induction c generalizing i syms with
  | zero =>
    simp only [newFirstSets, Option.some.injEq] at h
    subst h
    refine ⟨rfl, fun p t => ?_⟩
    rw [if_neg (by omega)]
  | succ c ih =>
    unfold newFirstSets at h
    cases hs : syms[i]? with
    | none => simp [hs] at h
    | some s =>
      simp only [hs] at h
      obtain ⟨e1, b1⟩ := ih (i + 1) _ h
      refine ⟨e1.trans (set_map_same eraseFirst syms i s _ hs rfl), ?_⟩
      intro p t
      rw [b1 p t, firstBit_set hs]
      by_cases hp : p = i
      · subst hp
        rw [if_neg (by omega), if_pos rfl, if_pos (by omega)]
        exact getD_SetNew _ _
      · simp only [hp, if_false]
        by_cases hr : i + 1 ≤ p ∧ p < i + 1 + c
        · rw [if_pos hr, if_pos (by omega)]
        · rw [if_neg hr, if_neg (by omega)]

theorem FindFirstSets_stages {size fuel : Nat} {lemp r : lemon}
    (h : FindFirstSets size fuel lemp = some r) :
    ∃ syms0 syms1 syms2,
      resetLambda lemp.nsymbol 0 lemp.symbols = some syms0 ∧
      newFirstSets size (lemp.nsymbol - lemp.nterminal) lemp.nterminal syms0 = some syms1 ∧
      lambdaLoop lemp.rule fuel syms1 = some syms2 ∧
      firstLoop size lemp.rule fuel syms2 = some r.symbols ∧
      r.rule = lemp.rule ∧ r.nsymbol = lemp.nsymbol ∧ r.nterminal = lemp.nterminal := by
  unfold FindFirstSets at h
  cases h0 : resetLambda lemp.nsymbol 0 lemp.symbols with
  | none => simp [h0] at h
  | some syms0 =>
    simp only [h0] at h
    cases h1 : newFirstSets size (lemp.nsymbol - lemp.nterminal) lemp.nterminal syms0 with
    | none => simp [h1] at h
    | some syms1 =>
      simp only [h1] at h
      cases h2 : lambdaLoop lemp.rule fuel syms1 with
      | none => simp [h2] at h
      | some syms2 =>
        simp only [h2] at h
        cases h3 : firstLoop size lemp.rule fuel syms2 with
        | none => simp [h3] at h
        | some syms3 =>
          simp only [h3, Option.some.injEq] at h
          subst h
          exact ⟨syms0, syms1, syms2, rfl, h1, h2, h3, rfl, rfl, rfl⟩

theorem mem_drop_of_getElem? {α : Type} {l : List α} {n p : Nat} {a : α}
    (h : l[p]? = some a) (hp : n ≤ p) : a ∈ l.drop n := by
  apply List.getElem?_mem (n := p - n)
  rw [List.getElem?_drop]
  have : n + (p - n) = p := by omega
  rw [this]; exact h

theorem mem_take_of_getElem? {α : Type} {l : List α} {n p : Nat} {a : α}
    (h : l[p]? = some a) (hp : p < n) : a ∈ l.take n := by
  apply List.getElem?_mem (n := p)
  rw [List.getElem?_take_of_lt hp]; exact h

theorem FindFirstSets_init {size : Nat} {lemp : lemon} {syms0 syms1 : List symbol}
    (h0 : resetLambda lemp.nsymbol 0 lemp.symbols = some syms0)
    (h1 : newFirstSets size (lemp.nsymbol - lemp.nterminal) lemp.nterminal syms0 = some syms1) :
    syms1.map core = lemp.symbols.map core ∧
    (FreshLambda lemp → ∀ p, isLambda syms1 p = false) ∧
    (FreshFirst lemp → ∀ p t, firstBit syms1 p t = false) := by
  obtain ⟨e0, b0⟩ := resetLambda_spec _ _ _ _ h0
  obtain ⟨e1, b1⟩ := newFirstSets_spec _ _ _ _ _ h1
  refine ⟨(map_core_of_eraseFirst e1).trans (map_core_of_eraseLam e0), ?_, ?_⟩
  · intro hf p
    rw [isLambda_of_eraseFirst e1, b0 p]
    by_cases hp : 0 ≤ p ∧ p < 0 + lemp.nsymbol
    · rw [if_pos hp]
    · rw [if_neg hp]
      unfold isLambda
      cases hs : lemp.symbols[p]? with
      | none => rfl
      | some s => exact hf s (mem_drop_of_getElem? hs (by omega))
  · intro hf p t
    rw [b1 p t]
    by_cases hp : lemp.nterminal ≤ p ∧ p < lemp.nterminal + (lemp.nsymbol - lemp.nterminal)
    · rw [if_pos hp]
    · rw [if_neg hp, firstBit_of_eraseLam e0]
      unfold firstBit
      cases hs : lemp.symbols[p]? with
      | none => rfl
      | some s =>
        have : s.firstset = none := by
          apply hf s
          rw [List.mem_append]
          by_cases hlt : p < lemp.nterminal
          · exact Or.inl (mem_take_of_getElem? hs hlt)
          · exact Or.inr (mem_drop_of_getElem? hs (by omega))
        simp only [this]

theorem Nullable.is_lhs {rules : List rule} {p : Nat} (h : Nullable rules p) :
    ∃ r ∈ rules, r.lhs = p := by
  cases h with
  | intro r hr _ => exact ⟨r, hr, rfl⟩

theorem MultiOK.map_core {syms : List symbol} (h : MultiOK syms) : MultiOK (syms.map core) := by
  intro sx hsx hty q hq
  rw [List.mem_map] at hsx
  obtain ⟨s0, hs0, rfl⟩ := hsx
  rw [symType_map_core]
  exact h s0 hs0 hty q hq

theorem BeginsWith.of_core {rules : List rule} {syms : List symbol} {A t : Nat}
    (h : BeginsWith rules (syms.map core) A t) : BeginsWith rules syms A t := by
  obtain ⟨s, ss, w, h1, h2, h3, h4⟩ := h
  rw [List.getElem?_map] at h1
  cases hs : syms[s]? with
  | none => simp [hs] at h1
  | some s0 =>
    simp only [hs, Option.map_some', Option.some.injEq] at h1
    subst h1
    refine ⟨s, s0, w, hs, h2, h3, ?_⟩
    rcases h4 with h4 | ⟨X, sx, hx1, hx2, hx3, h4⟩
    · exact Or.inl h4
    · right
      rw [List.getElem?_map] at hx1
      cases hX : syms[X]? with
      | none => simp [hX] at hx1
      | some x0 =>
        simp only [hX, Option.map_some', Option.some.injEq] at hx1
        subst hx1
        exact ⟨X, x0, hX, hx2, hx3, h4⟩

/-- C8: in the symbol table returned by `FindFirstSets`, every rule all of whose
right-hand-side symbols are marked nullable (in particular every rule with an empty
right-hand side) has its left-hand side marked nullable. -/
theorem FindFirstSets_nullable_closed (size fuel : Nat) (lemp r : lemon)
    (h : FindFirstSets size fuel lemp = some r) :
    ∀ rp ∈ r.rule, (∀ x ∈ rp.rhs, isLambda r.symbols x = true) →
      isLambda r.symbols rp.lhs = true := by
  obtain ⟨syms0, syms1, syms2, -, -, h2, h3, hr, -, -⟩ := FindFirstSets_stages h
  have hclosed := lambdaLoop_closed lemp.rule fuel syms1 syms2 h2
  have he := firstLoop_eraseFirst fuel syms2 r.symbols h3
  intro rp hrp hall
  rw [hr] at hrp
  rw [isLambda_of_eraseFirst he]
  apply hclosed rp hrp
  intro x hx
  rw [← isLambda_of_eraseFirst he]
  exact hall x hx

/-- C9: in the symbol table returned by `FindFirstSets`, every symbol marked nullable has
type `NONTERMINAL` (so it is no terminal and no multiterminal), is the left-hand side of a
rule whose right-hand side is nullable throughout (well-foundedly), and derives the empty
string. -/
theorem FindFirstSets_nullable_sound (size fuel : Nat) (lemp r : lemon)
    (hfresh : FreshLambda lemp) (hlhs : LhsNonterminal lemp)
    (h : FindFirstSets size fuel lemp = some r) :
    ∀ p, isLambda r.symbols p = true →
      symType r.symbols p = some symbol_type.NONTERMINAL ∧ Nullable r.rule p ∧
        Derives r.rule [p] [] := by
  obtain ⟨syms0, syms1, syms2, h0, h1, h2, h3, hr, -, -⟩ := FindFirstSets_stages h
  obtain ⟨hc, hl, -⟩ := FindFirstSets_init h0 h1
  have hinv1 : LamInv lemp.rule (lemp.symbols.map core) syms1 :=
    ⟨hc, fun p hp => by rw [hl hfresh p] at hp; exact absurd hp (by simp)⟩
  obtain ⟨hinv2, -⟩ := lambdaLoop_inv fuel syms1 syms2 hinv1 h2
  have he := firstLoop_eraseFirst fuel syms2 r.symbols h3
  intro p hp
  rw [isLambda_of_eraseFirst he] at hp
  have hn := hinv2.just p hp
  rw [hr]
  refine ⟨?_, hn, hn.derives⟩
  obtain ⟨rp, hrp, rfl⟩ := hn.is_lhs
  have := hlhs rp hrp
  rw [← symType_map_core, ← hinv2.shape, ← map_core_of_eraseFirst he, symType_map_core] at this
  exact this

/-- C10 (FIRST soundness): in the symbol table returned by `FindFirstSets`, whenever bit
`t` is set in the first set of a symbol `A`, some terminal with index `t` begins a
sentential form derived from `A`, either itself or as a sub-symbol of a multiterminal
that begins the form. -/
theorem FindFirstSets_first_sound (size fuel : Nat) (lemp r : lemon)
    (hlam : FreshLambda lemp) (hfirst : FreshFirst lemp) (hmulti : MultiOK lemp.symbols)
    (h : FindFirstSets size fuel lemp = some r) :
    ∀ A t, firstBit r.symbols A t = true → BeginsWith r.rule r.symbols A t := by
  obtain ⟨syms0, syms1, syms2, h0, h1, h2, h3, hr, -, -⟩ := FindFirstSets_stages h
  obtain ⟨hc, hl, hf⟩ := FindFirstSets_init h0 h1
  have hinv1 : LamInv lemp.rule (lemp.symbols.map core) syms1 :=
    ⟨hc, fun p hp => by rw [hl hlam p] at hp; exact absurd hp (by simp)⟩
  obtain ⟨hinv2, he2⟩ := lambdaLoop_inv fuel syms1 syms2 hinv1 h2
  have hfinv2 : FirstInv lemp.rule (lemp.symbols.map core) syms2 := by
    refine ⟨hinv2.shape, fun p hp => (hinv2.just p hp).derives, ?_⟩
    intro A t ht
    rw [firstBit_of_eraseLam he2, hf hfirst A t] at ht
    exact absurd ht (by simp)
  have hfinv3 := firstLoop_sound hmulti.map_core fuel syms2 r.symbols hfinv2 h3
  intro A t ht
  rw [hr]
  have := hfinv3.sound A t ht
  rw [← hfinv3.shape] at this
  exact this.of_core

theorem FindFirstSets_nullable_closed_witness :
    FindFirstSets 5 3 grammarAB = some grammarAB_first ∧
    ∀ rp ∈ grammarAB_first.rule, (∀ x ∈ rp.rhs, isLambda grammarAB_first.symbols x = true) →
      isLambda grammarAB_first.symbols rp.lhs = true :=
  ⟨by decide, FindFirstSets_nullable_closed 5 3 grammarAB grammarAB_first (by decide)⟩

theorem FindFirstSets_nullable_sound_witness :
    FreshLambda grammarAB ∧ LhsNonterminal grammarAB ∧
    FindFirstSets 5 3 grammarAB = some grammarAB_first ∧
    ∀ p, isLambda grammarAB_first.symbols p = true →
      symType grammarAB_first.symbols p = some symbol_type.NONTERMINAL ∧
        Nullable grammarAB_first.rule p ∧ Derives grammarAB_first.rule [p] [] :=
  ⟨by decide, by decide, by decide,
    FindFirstSets_nullable_sound 5 3 grammarAB grammarAB_first (by decide) (by decide)
      (by decide)⟩

theorem FindFirstSets_first_sound_witness :
    FreshLambda grammarAB ∧ FreshFirst grammarAB ∧ MultiOK grammarAB.symbols ∧
    FindFirstSets 5 3 grammarAB = some grammarAB_first ∧
    ∀ A t, firstBit grammarAB_first.symbols A t = true →
      BeginsWith grammarAB_first.rule grammarAB_first.symbols A t :=
  ⟨by decide, by decide, by decide, by decide,
    FindFirstSets_first_sound 5 3 grammarAB grammarAB_first (by decide) (by decide)
      (by decide) (by decide)⟩

theorem mergeLoop_mem {α : Type} (cmp : α → α → Int) (n : Nat) (a b : List α) (z : α)
    (h : z ∈ mergeLoop cmp n a b) : z ∈ a ∨ z ∈ b := by
  induction n generalizing a b with
  | zero =>
    simp only [mergeLoop] at h
    exact List.mem_append.1 h
  | succ n ih =>
    cases a with
    | nil =>
      simp only [mergeLoop] at h
      exact Or.inr h
    | cons x a =>
      cases b with
      | nil =>
        simp only [mergeLoop] at h
        exact Or.inl h
      | cons y b =>
        simp only [mergeLoop] at h
        split_ifs at h
        · rcases List.mem_cons.1 h with rfl | h
          · exact Or.inl (List.mem_cons_self _ _)
          · rcases ih a (y :: b) h with h | h
            · exact Or.inl (List.mem_cons_of_mem _ h)
            · exact Or.inr h
        · rcases List.mem_cons.1 h with rfl | h
          · exact Or.inr (List.mem_cons_self _ _)
          · rcases ih (x :: a) b h with h | h
            · exact Or.inl h
            · exact Or.inr (List.mem_cons_of_mem _ h)

theorem mergeLoop_sorted {α : Type} (cmp : α → α → Int) (R : α → α → Prop)
    (hle : ∀ x y, cmp x y ≤ 0 → R x y) (hgt : ∀ x y, ¬ cmp x y ≤ 0 → R y x)
    (htr : ∀ x y z, R x y → R y z → R x z)
    (n : Nat) (a b : List α) (ha : a.Pairwise R) (hb : b.Pairwise R)
    (hn : a.length + b.length ≤ n) : (mergeLoop cmp n a b).Pairwise R := by
  induction n generalizing a b with
  | zero =>
    have h1 : a = [] := List.length_eq_zero.1 (by omega)
    have h2 : b = [] := List.length_eq_zero.1 (by omega)
    subst h1 h2
    simp [mergeLoop]
  | succ n ih =>
    cases a with
    | nil => simpa [mergeLoop] using hb
    | cons x a =>
      cases b with
      | nil => simpa [mergeLoop] using ha
      | cons y b =>
        simp only [mergeLoop]
        rw [List.pairwise_cons] at ha hb
        simp only [List.length_cons] at hn
        split_ifs with hc
        · rw [List.pairwise_cons]
          refine ⟨?_, ih a (y :: b) ha.2 (List.pairwise_cons.2 hb) (by simp; omega)⟩
          intro z hz
          rcases mergeLoop_mem cmp n a (y :: b) z hz with hz | hz
          · exact ha.1 z hz
          · rcases List.mem_cons.1 hz with rfl | hz
            · exact hle _ _ hc
            · exact htr _ _ _ (hle _ _ hc) (hb.1 z hz)
        · rw [List.pairwise_cons]
          refine ⟨?_, ih (x :: a) b (List.pairwise_cons.2 ha) hb.2 (by simp; omega)⟩
          intro z hz
          rcases mergeLoop_mem cmp n (x :: a) b z hz with hz | hz
          · rcases List.mem_cons.1 hz with rfl | hz
            · exact hgt _ _ hc
            · exact htr _ _ _ (hgt _ _ hc) (ha.1 z hz)
          · exact hb.1 z hz

theorem msortCarry_inv {α : Type} (cmp : α → α → Int) (P : List α → Prop) (hnil : P [])
    (hmerge : ∀ a b, P a → P b → P (merge cmp a b))
    (n : Nat) (set : List (List α)) (ep : List α) (hep : P ep) (hset : ∀ s ∈ set, P s) :
    ∀ s ∈ msortCarry cmp ep n set, P s := by
  induction n generalizing set ep with
  | zero =>
    cases set with
    | nil => simp [msortCarry]
    | cons s rest =>
      simp only [msortCarry]
      intro t ht
      rcases List.mem_cons.1 ht with rfl | ht
      · exact hep
      · exact hset t (List.mem_cons_of_mem _ ht)
  | succ n ih =>
    cases set with
    | nil => simp [msortCarry]
    | cons s rest =>
      cases s with
      | nil =>
        simp only [msortCarry]
        intro t ht
        rcases List.mem_cons.1 ht with rfl | ht
        · exact hep
        · exact hset t (List.mem_cons_of_mem _ ht)
      | cons y s =>
        simp only [msortCarry]
        intro t ht
        rcases List.mem_cons.1 ht with rfl | ht
        · exact hnil
        · exact ih rest _ (hmerge _ _ hep (hset _ (List.mem_cons_self _ _)))
            (fun u hu => hset u (List.mem_cons_of_mem _ hu)) t ht

theorem msort_inv {α : Type} (cmp : α → α → Int) (P : List α → Prop) (hnil : P [])
    (hmerge : ∀ a b, P a → P b → P (merge cmp a b))
    (list : List α) (hone : ∀ e ∈ list, P [e]) : P (msort cmp list) := by
  have hfill : ∀ (l : List α) (set : List (List α)), (∀ e ∈ l, P [e]) → (∀ s ∈ set, P s) →
      ∀ s ∈ msortFill cmp l set, P s := by
    intro l
    induction l with
    | nil => intro set _ hset; simpa [msortFill] using hset
    | cons e l ih =>
      intro set hl hset
      simp only [msortFill]
      exact ih _ (fun x hx => hl x (List.mem_cons_of_mem _ hx))
        (msortCarry_inv cmp P hnil hmerge 29 set [e] (hl e (List.mem_cons_self _ _)) hset)
  have hfold : ∀ (set : List (List α)) (ep : List α), P ep → (∀ s ∈ set, P s) →
      P (set.foldl (fun ep s => match s with
        | [] => ep
        | y :: t => merge cmp (y :: t) ep) ep) := by
    intro set
    induction set with
    | nil => intro ep hep _; simpa using hep
    | cons s rest ih =>
      intro ep hep hset
      simp only [List.foldl_cons]
      apply ih
      · cases s with
        | nil => exact hep
        | cons y t => exact hmerge _ _ (hset _ (List.mem_cons_self _ _)) hep
      · exact fun u hu => hset u (List.mem_cons_of_mem _ hu)
  unfold msort
  apply hfold _ _ hnil
  apply hfill list _ hone
  intro s hs
  rw [List.mem_replicate] at hs
  rw [hs.2]; exact hnil

/-- The result of `msort` is ordered by every transitive relation that the comparison
function respects, and holds only elements of the input. -/
theorem msort_sorted {α : Type} (cmp : α → α → Int) (R : α → α → Prop)
    (hle : ∀ x y, cmp x y ≤ 0 → R x y) (hgt : ∀ x y, ¬ cmp x y ≤ 0 → R y x)
    (htr : ∀ x y z, R x y → R y z → R x z) (list : List α) :
    (msort cmp list).Pairwise R ∧ ∀ x ∈ msort cmp list, x ∈ list := by
  refine msort_inv cmp (fun s => s.Pairwise R ∧ ∀ x ∈ s, x ∈ list) ⟨by simp, by simp⟩ ?_ list ?_
  · intro a b ha hb
    refine ⟨mergeLoop_sorted cmp R hle hgt htr _ a b ha.1 hb.1 (le_refl _), ?_⟩
    intro x hx
    rcases mergeLoop_mem cmp _ a b x hx with h | h
    · exact ha.2 x h
    · exact hb.2 x h
  · intro e he
    exact ⟨by simp, by simpa using he⟩

theorem Weakened.refl (a : action) : Weakened a a := ⟨rfl, Or.inl rfl⟩

theorem Weakened.trans {a b c : action} (h1 : Weakened a b) (h2 : Weakened b c) :
    Weakened a c := by
  refine ⟨h2.1.trans h1.1, ?_⟩
  rcases h2.2 with rfl | h
  · exact h1.2
  · exact Or.inr h

theorem Weakened.retag (a : action) (t : e_action) (ht : ¬ Surviving t) :
    Weakened a { a with type := t } := ⟨rfl, Or.inr ht⟩

theorem NoClash.weaken {a b a1 b1 : action} (h : NoClash a b) (ha : Weakened a a1)
    (hb : Weakened b b1) : NoClash a1 b1 := by
  intro hsp hs
  rcases ha.2 with rfl | h1
  · rcases hb.2 with rfl | h2
    · exact h hsp hs
    · exact h2 hs.2
  · exact h1 hs.1

theorem resolveRest_spec {syms : List symbol} {rules : List rule} {apx apy ax ay : action}
    {e0 e : Int} (h : resolveRest syms rules apx apy e0 = some (ax, ay, e)) :
    Weakened apx ax ∧ Weakened apy ay ∧ ¬ (Surviving ax.type ∧ Surviving ay.type) := by
  have hretag_y : ∀ t, ¬ Surviving t →
      Weakened apx apx ∧ Weakened apy { apy with type := t } ∧
        ¬ (Surviving apx.type ∧ Surviving ({ apy with type := t } : action).type) :=
    fun t ht => ⟨Weakened.refl _, Weakened.retag _ _ ht, fun hh => ht hh.2⟩
  have hretag_x : ∀ t, ¬ Surviving t →
      Weakened apx { apx with type := t } ∧ Weakened apy apy ∧
        ¬ (Surviving ({ apx with type := t } : action).type ∧ Surviving apy.type) :=
    fun t ht => ⟨Weakened.retag _ _ ht, Weakened.refl _, fun hh => ht hh.1⟩
  unfold resolveRest at h
  by_cases hsr : apx.type = e_action.SHIFT ∧ apy.type = e_action.REDUCE
  · rw [if_pos hsr] at h
    simp only at h
    cases hp : (ruleAt rules apy.x).precsym with
    | none =>
      simp only [hp, Option.some.injEq, Prod.mk.injEq] at h
      obtain ⟨rfl, rfl, -⟩ := h
      exact hretag_y _ (by simp [Surviving])
    | some py =>
      simp only [hp] at h
      split_ifs at h
      all_goals simp only [Option.some.injEq, Prod.mk.injEq] at h
      all_goals obtain ⟨rfl, rfl, -⟩ := h
      all_goals first
        | exact hretag_y _ (by simp [Surviving])
        | exact hretag_x _ (by simp [Surviving])
  · rw [if_neg hsr] at h
    by_cases hrr : apx.type = e_action.REDUCE ∧ apy.type = e_action.REDUCE
    · rw [if_pos hrr] at h
      cases hpx : (ruleAt rules apx.x).precsym with
      | none =>
        simp only [hpx, Option.some.injEq, Prod.mk.injEq] at h
        obtain ⟨rfl, rfl, -⟩ := h
        exact hretag_y _ (by simp [Surviving])
      | some px =>
        cases hpy : (ruleAt rules apy.x).precsym with
        | none =>
          simp only [hpx, hpy, Option.some.injEq, Prod.mk.injEq] at h
          obtain ⟨rfl, rfl, -⟩ := h
          exact hretag_y _ (by simp [Surviving])
        | some py =>
          simp only [hpx, hpy] at h
          by_cases c1 : (symAt syms px).prec < 0 ∨ (symAt syms py).prec < 0 ∨
              (symAt syms px).prec = (symAt syms py).prec
          · rw [if_pos c1] at h
            simp only [Option.some.injEq, Prod.mk.injEq] at h
            obtain ⟨rfl, rfl, -⟩ := h
            exact hretag_y _ (by simp [Surviving])
          · rw [if_neg c1] at h
            by_cases c2 : (symAt syms px).prec > (symAt syms py).prec
            · rw [if_pos c2] at h
              simp only [Option.some.injEq, Prod.mk.injEq] at h
              obtain ⟨rfl, rfl, -⟩ := h
              exact hretag_y _ (by simp [Surviving])
            · rw [if_neg c2] at h
              have c3 : (symAt syms px).prec < (symAt syms py).prec := by
                push_neg at c1
                omega
              rw [if_pos c3] at h
              simp only [Option.some.injEq, Prod.mk.injEq] at h
              obtain ⟨rfl, rfl, -⟩ := h
              exact hretag_x _ (by simp [Surviving])
    · rw [if_neg hrr] at h
      split_ifs at h with h3
      simp only [Option.some.injEq, Prod.mk.injEq] at h
      obtain ⟨rfl, rfl, -⟩ := h
      refine ⟨Weakened.refl _, Weakened.refl _, ?_⟩
      rintro ⟨hx, hy⟩
      unfold Surviving at hx hy
      rcases h3 with h3 | h3 | h3 | h3 | h3 | h3 | h3 | h3 | h3 | h3 <;>
        simp [h3] at hx hy

theorem resolve_conflict_spec {syms : List symbol} {rules : List rule} {apx apy ax ay : action}
    {e : Int} (h : resolve_conflict syms rules apx apy = some (ax, ay, e)) :
    Weakened apx ax ∧ Weakened apy ay ∧ ¬ (Surviving ax.type ∧ Surviving ay.type) := by
  unfold resolve_conflict at h
  split_ifs at h with hsp
  obtain ⟨h1, h2, h3⟩ := resolveRest_spec h
  refine ⟨h1, Weakened.trans ?_ h2, h3⟩
  unfold resolveShiftShift
  split_ifs
  · exact Weakened.retag _ _ (by simp [Surviving])
  · exact Weakened.refl _

theorem forall₂_weakened_sp {l l1 : List action} (h : List.Forall₂ Weakened l l1) :
    l1.map (fun a => a.sp) = l.map (fun a => a.sp) := by
  induction h with
  | nil => rfl
  | cons hw _ ih => simp only [List.map_cons, ih, hw.1]

theorem forall₂_weakened_trans {l l1 l2 : List action} (h1 : List.Forall₂ Weakened l l1)
    (h2 : List.Forall₂ Weakened l1 l2) : List.Forall₂ Weakened l l2 := by
  induction h1 generalizing l2 with
  | nil => cases h2; exact List.Forall₂.nil
  | cons hw _ ih =>
    cases h2 with
    | cons hw2 ht2 => exact List.Forall₂.cons (hw.trans hw2) (ih ht2)

theorem forall₂_weakened_refl (l : List action) : List.Forall₂ Weakened l l := by
  induction l with
  | nil => exact List.Forall₂.nil
  | cons a l ih => exact List.Forall₂.cons (Weakened.refl a) ih

theorem forall₂_weakened_mem {l l1 : List action} (h : List.Forall₂ Weakened l l1)
    {y : action} (hy : y ∈ l1) : ∃ x ∈ l, Weakened x y := by
  induction h with
  | nil => simp at hy
  | cons hw _ ih =>
    rcases List.mem_cons.1 hy with rfl | hy
    · exact ⟨_, List.mem_cons_self _ _, hw⟩
    · obtain ⟨x, hx, hxy⟩ := ih hy
      exact ⟨x, List.mem_cons_of_mem _ hx, hxy⟩

theorem resolveWith_spec {syms : List symbol} {rules : List rule} (rest : List action)
    (ap ap2 : action) (rest2 : List action) (e : Int)
    (hc : ∀ pre x post, rest = pre ++ x :: post → x.sp ≠ ap.sp → ∀ y ∈ post, y.sp ≠ ap.sp)
    (h : resolveWith syms rules ap rest = some (ap2, rest2, e)) :
    Weakened ap ap2 ∧ List.Forall₂ Weakened rest rest2 ∧ ∀ y ∈ rest2, NoClash ap2 y := by
  induction rest generalizing ap ap2 rest2 e with
  | nil =>
    simp only [resolveWith, Option.some.injEq, Prod.mk.injEq] at h
    obtain ⟨rfl, rfl, -⟩ := h
    exact ⟨Weakened.refl _, List.Forall₂.nil, by simp⟩
  | cons nap rest ih =>
    unfold resolveWith at h
    by_cases hsp : nap.sp = ap.sp
    · rw [if_pos hsp] at h
      cases hr : resolve_conflict syms rules ap nap with
      | none => simp [hr] at h
      | some r =>
        obtain ⟨ap1, nap1, e1⟩ := r
        simp only [hr] at h
        obtain ⟨w1, w2, hns⟩ := resolve_conflict_spec hr
        cases hw : resolveWith syms rules ap1 rest with
        | none => simp [hw] at h
        | some r2 =>
          obtain ⟨ap3, rest3, e3⟩ := r2
          simp only [hw, Option.some.injEq, Prod.mk.injEq] at h
          obtain ⟨rfl, rfl, -⟩ := h
          obtain ⟨w3, f3, n3⟩ := ih ap1 ap3 rest3 e3 (by
            intro pre x post hsplit hx y hy
            rw [w1.1] at hx ⊢
            exact hc (nap :: pre) x post (by rw [hsplit]; rfl) hx y hy) hw
          refine ⟨w1.trans w3, List.Forall₂.cons w2 f3, ?_⟩
          intro y hy
          rcases List.mem_cons.1 hy with rfl | hy
          · exact NoClash.weaken (fun _ => hns) w3 (Weakened.refl _)
          · exact n3 y hy
    · rw [if_neg hsp] at h
      simp only [Option.some.injEq, Prod.mk.injEq] at h
      obtain ⟨rfl, rfl, -⟩ := h
      refine ⟨Weakened.refl _, forall₂_weakened_refl _, ?_⟩
      intro y hy hsame
      exfalso
      rcases List.mem_cons.1 hy with rfl | hy
      · exact hsp hsame.symm
      · exact hc [] nap rest rfl hsp y hy hsame.symm

theorem sortedByIndex_contig {syms : List symbol} {s : Nat} {sps : List Nat}
    (h : SortedByIndex syms (s :: sps)) (pre : List Nat) (x : Nat) (post : List Nat)
    (hsplit : sps = pre ++ x :: post) (hx : x ≠ s) : ∀ y ∈ post, y ≠ s := by
  intro y hy hys
  subst hys
  obtain ⟨hp, hinj⟩ := h
  rw [List.pairwise_cons] at hp
  have hxm : x ∈ sps := by rw [hsplit]; simp
  have hym : y ∈ sps := by rw [hsplit]; simp [hy]
  have h1 := hp.1 x hxm
  have h2 : (symAt syms x).index ≤ (symAt syms y).index := by
    have := hp.2
    rw [hsplit, List.pairwise_append] at this
    have := this.2.1
    rw [List.pairwise_cons] at this
    exact this.1 y hy
  have := hinj x (List.mem_cons_of_mem _ hxm) y (List.mem_cons_self _ _) (by omega)
  exact hx this

theorem SortedByIndex.tail {syms : List symbol} {s : Nat} {sps : List Nat}
    (h : SortedByIndex syms (s :: sps)) : SortedByIndex syms sps :=
  ⟨(List.pairwise_cons.1 h.1).2,
    fun a ha b hb => h.2 a (List.mem_cons_of_mem _ ha) b (List.mem_cons_of_mem _ hb)⟩

theorem resolveAll_spec {syms : List symbol} {rules : List rule} (n : Nat) (l out : List action)
    (e : Int) (hs : SortedByIndex syms (l.map (fun a => a.sp)))
    (h : resolveAll syms rules n l = some (out, e)) (hn : l.length ≤ n) :
    List.Forall₂ Weakened l out ∧ out.Pairwise NoClash := by
  induction n generalizing l out e with
  | zero =>
    have : l = [] := List.length_eq_zero.1 (by omega)
    subst this
    simp only [resolveAll, Option.some.injEq, Prod.mk.injEq] at h
    obtain ⟨rfl, -⟩ := h
    exact ⟨List.Forall₂.nil, List.Pairwise.nil⟩
  | succ n ih =>
    cases l with
    | nil =>
      simp only [resolveAll, Option.some.injEq, Prod.mk.injEq] at h
      obtain ⟨rfl, -⟩ := h
      exact ⟨List.Forall₂.nil, List.Pairwise.nil⟩
    | cons ap rest =>
      unfold resolveAll at h
      cases hw : resolveWith syms rules ap rest with
      | none => simp [hw] at h
      | some r =>
        obtain ⟨ap1, rest1, e1⟩ := r
        simp only [hw] at h
        cases ha : resolveAll syms rules n rest1 with
        | none => simp [ha] at h
        | some r2 =>
          obtain ⟨out1, e2⟩ := r2
          simp only [ha, Option.some.injEq, Prod.mk.injEq] at h
          obtain ⟨rfl, -⟩ := h
          simp only [List.map_cons] at hs
          obtain ⟨w1, f1, n1⟩ := resolveWith_spec rest ap ap1 rest1 e1 (by
            intro pre x post hsplit hx y hy
            have hsplit2 : rest.map (fun a => a.sp) =
                pre.map (fun a => a.sp) ++ x.sp :: post.map (fun a => a.sp) := by
              rw [hsplit]; simp
            exact sortedByIndex_contig hs _ _ _ hsplit2 hx y.sp
              (List.mem_map_of_mem _ hy)) hw
          have hs1 : SortedByIndex syms (rest1.map (fun a => a.sp)) := by
            rw [forall₂_weakened_sp f1]
            exact hs.tail
          obtain ⟨f2, p2⟩ := ih rest1 out1 e2 hs1 ha (by
            have := f1.length_eq
            simp only [List.length_cons] at hn
            omega)
          refine ⟨List.Forall₂.cons w1 (forall₂_weakened_trans f1 f2), ?_⟩
          rw [List.pairwise_cons]
          refine ⟨?_, p2⟩
          intro y hy
          obtain ⟨x, hx, hxy⟩ := forall₂_weakened_mem f2 hy
          exact NoClash.weaken (n1 x hx) (Weakened.refl _) hxy

theorem Action_sort_sorted (syms : List symbol) (rules : List rule) (code : e_action → Int)
    (ap : List action) (hinj : IndexInjective syms ap) :
    SortedByIndex syms ((Action_sort syms rules code ap).map (fun a => a.sp)) := by
  obtain ⟨h1, h2⟩ := msort_sorted (actioncmp syms rules code)
    (fun a b => (symAt syms a.sp).index ≤ (symAt syms b.sp).index)
    (by
      intro x y hc
      unfold actioncmp at hc
      simp only at hc
      by_contra hlt
      have hne : ¬ (symAt syms x.sp).index - (symAt syms y.sp).index = 0 := by omega
      simp only [hne, if_false, false_and] at hc
      omega)
    (by
      intro x y hc
      unfold actioncmp at hc
      simp only at hc
      by_contra hlt
      have hne : ¬ (symAt syms x.sp).index - (symAt syms y.sp).index = 0 := by omega
      simp only [hne, if_false, false_and] at hc
      omega)
    (fun x y z hxy hyz => le_trans hxy hyz) ap
  unfold Action_sort
  constructor
  · rw [List.pairwise_map]
    exact h1
  · intro s hs t ht hidx
    rw [List.mem_map] at hs ht
    obtain ⟨a, ha, rfl⟩ := hs
    obtain ⟨b, hb, rfl⟩ := ht
    exact hinj a (h2 a ha) b (h2 b hb) hidx

/-- C6: after the action list of a state has been sorted by `Action_sort` and
`resolve_conflict` has run over every pair of actions sharing a lookahead (lines 993-1000
of `FindActions`), no two actions of the list with the same lookahead symbol both carry a
tag among Shift, Reduce and Accept - for any symbol table, rule table, precedences and
associativities, and any numbering of the tags. -/
theorem FindActions_no_two_survivors (syms : List symbol) (rules : List rule)
    (code : e_action → Int) (ap out : List action) (n : Int)
    (hinj : IndexInjective syms ap)
    (h : resolveState syms rules code ap = some (out, n)) :
    out.Pairwise (fun a b => a.sp = b.sp → ¬ (Surviving a.type ∧ Surviving b.type)) := by
  unfold resolveState at h
  exact (resolveAll_spec _ _ out n (Action_sort_sorted syms rules code ap hinj) h
    (le_refl _)).2

theorem FindActions_no_two_survivors_witness :
    IndexInjective conflictSyms conflictActions ∧
    resolveState conflictSyms conflictRules actionCode conflictActions =
      some (conflictResolved, 0) ∧
    conflictResolved.Pairwise
      (fun a b => a.sp = b.sp → ¬ (Surviving a.type ∧ Surviving b.type)) :=
  ⟨by decide, by decide,
    FindActions_no_two_survivors conflictSyms conflictRules actionCode conflictActions
      conflictResolved 0 (by decide) (by decide)⟩

theorem statecmp_eq_zero_iff (rules : List rule) (a b : List config) :
    statecmp rules a b = 0 ↔ a.map (configKey rules) = b.map (configKey rules) := by
  induction a generalizing b with
  | nil =>
    cases b with
    | nil => simp [statecmp]
    | cons y bs => simp [statecmp]
  | cons x as ih =>
    cases b with
    | nil => simp [statecmp]
    | cons y bs =>
      simp only [statecmp, List.map_cons, List.cons.injEq, configKey, Prod.mk.injEq]
      by_cases h1 : (ruleAt rules x.rp).index - (ruleAt rules y.rp).index = 0
      · simp only [h1, if_true]
        by_cases h2 : x.dot - y.dot = 0
        · simp only [h2, if_true]
          rw [ih bs]
          constructor
          · intro h; exact ⟨⟨by omega, by omega⟩, h⟩
          · intro h; exact h.2
        · simp only [h2, if_false]
          constructor
          · intro h; exact absurd h (by simp)
          · intro h; omega
      · simp only [h1, if_false]
        constructor
        · intro h; exact absurd h (by simp)
        · intro h; omega

theorem statehash_congr (rules : List rule) (a b : List config)
    (h : a.map (configKey rules) = b.map (configKey rules)) :
    statehash rules a = statehash rules b := by
  unfold statehash
  generalize (0 : Nat) = h0
  induction a generalizing b h0 with
  | nil =>
    cases b with
    | nil => rfl
    | cons y bs => simp at h
  | cons x as ih =>
    cases b with
    | nil => simp at h
    | cons y bs =>
      simp only [List.map_cons, List.cons.injEq, configKey, Prod.mk.injEq] at h
      simp only [List.foldl_cons]
      rw [h.1.1, h.1.2]
      exact ih bs h.2 _

theorem lastWith_congr (q q1 : Nat → Bool) (n : Nat) (h : ∀ j, j < n → q j = q1 j) :
    lastWith q n = lastWith q1 n := by
  induction n with
  | zero => rfl
  | succ n ih =>
    simp only [lastWith]
    rw [h n (by omega), ih (fun j hj => h j (by omega))]

theorem lastWith_lt (q : Nat → Bool) (n i : Nat) (h : lastWith q n = some i) : i < n := by
  induction n with
  | zero => simp [lastWith] at h
  | succ n ih =>
    simp only [lastWith] at h
    split_ifs at h
    · injection h with h; omega
    · have := ih h; omega

/-- What walking a hash chain returns, when the chain starts at the last node of bucket
`h` among the first `n` nodes. -/
theorem x3walk_spec (rules : List rule) (size : Nat) (tbl : List x3node)
    (ht : List (Option Nat)) (hc : ChainOK rules size tbl ht) (key : List config) (h : Nat)
    (n : Nat) (hn : n ≤ tbl.length) (fuel : Nat) (hf : n < fuel) :
    ∃ r, x3walk rules tbl key fuel (lastWith (bucketIs rules size tbl h) n) = some r ∧
      (∀ node, r = some node →
        ∃ i, i < n ∧ tbl[i]? = some node ∧ statecmp rules node.key key = 0) ∧
      (r = none → ∀ i node, i < n → tbl[i]? = some node →
        bucketOf rules size node.key = h → statecmp rules node.key key ≠ 0) := by
  induction n generalizing fuel with
  | zero =>
    cases fuel with
    | zero => omega
    | succ fuel =>
      refine ⟨none, rfl, by simp, ?_⟩
      intro _ i node hi
      omega
  | succ n ih =>
    cases fuel with
    | zero => omega
    | succ fuel =>
      obtain ⟨r, hr, hr1, hr2⟩ := ih (by omega) fuel (by omega)
      simp only [lastWith]
      by_cases hq : bucketIs rules size tbl h n = true
      · rw [if_pos hq]
        unfold x3walk
        have hlt : n < tbl.length := by omega
        have hget : tbl[n]? = some tbl[n] := List.getElem?_eq_getElem hlt
        rw [hget]
        simp only
        have hb : bucketOf rules size tbl[n].key = h := by
          unfold bucketIs at hq
          rw [hget] at hq
          simpa using hq
        by_cases hm : statecmp rules tbl[n].key key = 0
        · rw [if_pos hm]
          refine ⟨some tbl[n], rfl, ?_, by simp⟩
          intro node hnode
          injection hnode with hnode
          subst hnode
          exact ⟨n, by omega, hget, hm⟩
        · rw [if_neg hm]
          have hnext := hc.nexts n tbl[n] hget
          rw [hb] at hnext
          rw [hnext]
          refine ⟨r, hr, ?_, ?_⟩
          · intro node hnode
            obtain ⟨i, hi, hi2, hi3⟩ := hr1 node hnode
            exact ⟨i, by omega, hi2, hi3⟩
          · intro hnone i node hi hnode hbk
            by_cases hin : i = n
            · subst hin
              rw [hget] at hnode
              injection hnode with hnode
              subst hnode
              exact hm
            · exact hr2 hnone i node (by omega) hnode hbk
      · rw [if_neg hq]
        obtain ⟨r1, hr1a, hr1b, hr1c⟩ := ih (by omega) (fuel + 1) (by omega)
        refine ⟨r1, hr1a, ?_, ?_⟩
        · intro node hnode
          obtain ⟨i, hi, hi2, hi3⟩ := hr1b node hnode
          exact ⟨i, by omega, hi2, hi3⟩
        · intro hnone i node hi hnode hbk
          by_cases hin : i = n
          · subst hin
            exfalso
            apply hq
            unfold bucketIs
            rw [hnode]
            simpa using hbk
          · exact hr1c hnone i node (by omega) hnode hbk

theorem bucketOf_lt (rules : List rule) (size : Nat) (key : List config) (h : 0 < size) :
    bucketOf rules size key < size := by
  unfold bucketOf
  have := Nat.and_le_right (n := statehash rules key) (m := size - 1)
  omega

theorem bucketIs_append_lt (rules : List rule) (size : Nat) (tbl : List x3node) (n : x3node)
    (h j : Nat) (hj : j < tbl.length) :
    bucketIs rules size (tbl ++ [n]) h j = bucketIs rules size tbl h j := by
  unfold bucketIs
  rw [List.getElem?_append_left hj]

theorem bucketIs_append_last (rules : List rule) (size : Nat) (tbl : List x3node)
    (n : x3node) (h : Nat) :
    bucketIs rules size (tbl ++ [n]) h tbl.length = decide (bucketOf rules size n.key = h) := by
  unfold bucketIs
  rw [List.getElem?_append_right (le_refl _)]
  simp

/-- Linking one more node at the head of its chain keeps the chains well formed. -/
theorem chain_link {rules : List rule} {size : Nat} {tbl : List x3node}
    {ht : List (Option Nat)} (hc : ChainOK rules size tbl ht) (data : Nat)
    (key : List config) :
    ∃ head, ht[bucketOf rules size key]? = some head ∧
      ChainOK rules size (tbl ++ [{ data := data, key := key, next := head }])
        (ht.set (bucketOf rules size key) (some tbl.length)) := by
  have hb := bucketOf_lt rules size key hc.size_pos
  refine ⟨_, hc.heads _ hb, ?_⟩
  generalize hn : ({
      data := data
      key := key
      next := lastWith (bucketIs rules size tbl (bucketOf rules size key)) tbl.length } :
        x3node) = n
  have hkey : n.key = key := by rw [← hn]
  have hnext : n.next = lastWith (bucketIs rules size tbl (bucketOf rules size key))
      tbl.length := by rw [← hn]
  have hcongr : ∀ h i, i ≤ tbl.length →
      lastWith (bucketIs rules size (tbl ++ [n]) h) i = lastWith (bucketIs rules size tbl h) i :=
    fun h i hi => lastWith_congr _ _ i
      (fun j hj => bucketIs_append_lt rules size tbl n h j (by omega))
  refine ⟨hc.size_pos, by simp [hc.ht_len], ?_, ?_⟩
  · intro h hh
    simp only [List.length_append, List.length_singleton, lastWith]
    rw [bucketIs_append_last, hkey, hcongr h _ (le_refl _)]
    by_cases he : bucketOf rules size key = h
    · subst he
      rw [List.getElem?_set_self (by rw [hc.ht_len]; exact hb)]
      simp
    · rw [List.getElem?_set_ne he]
      simp only [he, decide_False, Bool.false_eq_true, if_false]
      exact hc.heads h hh
  · intro i node hnode
    by_cases hi : i < tbl.length
    · rw [List.getElem?_append_left hi] at hnode
      rw [hcongr _ i (by omega)]
      exact hc.nexts i node hnode
    · have hlen := (List.getElem?_eq_some.1 hnode).1
      simp only [List.length_append, List.length_singleton] at hlen
      have hi2 : i = tbl.length := by omega
      subst hi2
      rw [List.getElem?_append_right (le_refl _)] at hnode
      simp only [Nat.sub_self, List.getElem?_cons_zero, Option.some.injEq] at hnode
      subst hnode
      rw [hcongr _ _ (le_refl _), hkey, hnext]

theorem chain_empty (rules : List rule) (size : Nat) (h : 0 < size) :
    ChainOK rules size [] (List.replicate size none) := by
  refine ⟨h, by simp, ?_, ?_⟩
  · intro b hb
    simp only [List.length_nil, lastWith]
    rw [List.getElem?_replicate]
    simp [hb]
  · intro i node hnode
    simp at hnode

theorem x3rehash_spec (rules : List rule) (size : Nat) (old tbl : List x3node)
    (ht : List (Option Nat)) (hc : ChainOK rules size tbl ht) :
    ∃ tbl1 ht1, x3rehash rules size old tbl ht = some (tbl1, ht1) ∧
      ChainOK rules size tbl1 ht1 ∧ x3entries tbl1 = x3entries (tbl ++ old) := by
  induction old generalizing tbl ht with
  | nil => exact ⟨tbl, ht, rfl, hc, by simp⟩
  | cons o rest ih =>
    obtain ⟨head, hh, hc1⟩ := chain_link hc o.data o.key
    unfold x3rehash
    change ht[bucketOf rules size o.key]? = some head at hh
    simp only
    have hh2 : ht[statehash rules o.key &&& (size - 1)]? = some head := hh
    rw [hh2]
    obtain ⟨tbl1, ht1, h1, h2, h3⟩ := ih _ _ hc1
    refine ⟨tbl1, ht1, h1, h2, ?_⟩
    rw [h3]
    simp [x3entries]

theorem x3entries_getElem? {tbl : List x3node} {i : Nat} {e : Nat × List config}
    (h : (x3entries tbl)[i]? = some e) :
    ∃ n, tbl[i]? = some n ∧ n.data = e.1 ∧ n.key = e.2 := by
  unfold x3entries at h
  rw [List.getElem?_map] at h
  cases hn : tbl[i]? with
  | none => simp [hn] at h
  | some n =>
    simp only [hn, Option.map_some', Option.some.injEq] at h
    subst h
    exact ⟨n, rfl, rfl, rfl⟩

theorem x3entries_of_getElem? {tbl : List x3node} {i : Nat} {n : x3node}
    (h : tbl[i]? = some n) : (x3entries tbl)[i]? = some (n.data, n.key) := by
  unfold x3entries
  rw [List.getElem?_map, h]
  rfl

/-- `State_find` on a well-formed store: it returns, and it returns a stored state exactly
when some stored key has the `(rule index, dot)` sequence of the key looked up. -/
theorem State_find_spec {rules : List rule} {x : s_x3}
    (hc : ChainOK rules x.size x.tbl x.ht) (hcount : x.tbl.length = x.count)
    (key : List config) :
    ∃ r, State_find rules x key = some r ∧
      (∀ d, r = some d → ∃ (i : Nat) (node : x3node), x.tbl[i]? = some node ∧ node.data = d ∧
        node.key.map (configKey rules) = key.map (configKey rules)) ∧
      (r = none → ∀ (i : Nat) (node : x3node), x.tbl[i]? = some node →
        node.key.map (configKey rules) ≠ key.map (configKey rules)) := by
  have hb := bucketOf_lt rules x.size key hc.size_pos
  have hhead := hc.heads _ hb
  obtain ⟨r, hr, hr1, hr2⟩ := x3walk_spec rules x.size x.tbl x.ht hc key
    (bucketOf rules x.size key) x.tbl.length (le_refl _) (x.count + 1) (by omega)
  unfold State_find
  change x.ht[bucketOf rules x.size key]? = _ at hhead
  have hhead2 : x.ht[statehash rules key &&& (x.size - 1)]? = _ := hhead
  simp only [hhead2, hr]
  cases r with
  | none =>
    refine ⟨none, rfl, by simp, ?_⟩
    intro _ i node hnode heq
    have hlt := (List.getElem?_eq_some.1 hnode).1
    refine hr2 rfl i node hlt hnode ?_ ((statecmp_eq_zero_iff rules _ _).2 heq)
    unfold bucketOf
    rw [statehash_congr rules _ _ heq]
  | some node =>
    refine ⟨some node.data, rfl, ?_, by simp⟩
    intro d hd
    injection hd with hd
    obtain ⟨i, -, hi2, hi3⟩ := hr1 node rfl
    exact ⟨i, node, hi2, hd, (statecmp_eq_zero_iff rules _ _).1 hi3⟩

/-- `State_insert` of a key that no stored key equals: the key is appended, with chains
that are again well formed (after re-hashing when the array was full). -/
theorem State_insert_new {rules : List rule} {x : s_x3}
    (hc : ChainOK rules x.size x.tbl x.ht) (hcount : x.tbl.length = x.count)
    (data : Nat) (key : List config)
    (hnew : ∀ (i : Nat) (node : x3node), x.tbl[i]? = some node →
      node.key.map (configKey rules) ≠ key.map (configKey rules)) :
    ∃ x1, State_insert rules x data key = some (x1, 1) ∧
      ChainOK rules x1.size x1.tbl x1.ht ∧ x1.tbl.length = x1.count ∧
      x1.count = x.count + 1 ∧ x3entries x1.tbl = x3entries x.tbl ++ [(data, key)] := by
  have hb := bucketOf_lt rules x.size key hc.size_pos
  have hhead := hc.heads _ hb
  obtain ⟨r, hr, hr1, -⟩ := x3walk_spec rules x.size x.tbl x.ht hc key
    (bucketOf rules x.size key) x.tbl.length (le_refl _) (x.count + 1) (by omega)
  have hrn : r = none := by
    cases r with
    | none => rfl
    | some node =>
      obtain ⟨i, -, hi2, hi3⟩ := hr1 node rfl
      exact absurd ((statecmp_eq_zero_iff rules _ _).1 hi3) (hnew i node hi2)
  subst hrn
  have hgrown : ∃ y : s_x3,
      (if x.count ≥ x.size then
        match x3rehash rules (x.size * 2) x.tbl [] (List.replicate (x.size * 2) none) with
        | none => none
        | some (tbl, ht) =>
          some ({ size := x.size * 2, count := x.count, tbl := tbl, ht := ht } : s_x3)
      else some x) = some y ∧
      ChainOK rules y.size y.tbl y.ht ∧ y.tbl.length = y.count ∧ y.count = x.count ∧
      x3entries y.tbl = x3entries x.tbl := by
    by_cases hfull : x.count ≥ x.size
    · rw [if_pos hfull]
      obtain ⟨tbl1, ht1, h1, h2, h3⟩ := x3rehash_spec rules (x.size * 2) x.tbl [] _
        (chain_empty rules (x.size * 2) (by have := hc.size_pos; omega))
      rw [h1]
      simp only [List.nil_append] at h3
      refine ⟨_, rfl, h2, ?_, rfl, h3⟩
      have := congrArg List.length h3
      simp only [x3entries, List.length_map] at this
      simp only
      omega
    · rw [if_neg hfull]
      exact ⟨x, rfl, hc, hcount, rfl, rfl⟩
  obtain ⟨y, hy, hcy, hly, hcnt, hent⟩ := hgrown
  obtain ⟨head, hh, hc1⟩ := chain_link hcy data key
  unfold State_insert
  change x.ht[bucketOf rules x.size key]? = _ at hhead
  have hhead2 : x.ht[statehash rules key &&& (x.size - 1)]? = _ := hhead
  have hh2 : y.ht[statehash rules key &&& (y.size - 1)]? = some head := hh
  simp only [hhead2, hr, hy, hh2]
  refine ⟨_, rfl, ?_, ?_, ?_, ?_⟩
  · simp only
    rw [← hly]
    exact hc1
  · simp [hly]
  · simp [hcnt]
  · simp only [x3entries, List.map_append, List.map_cons, List.map_nil] at hent ⊢
    rw [hent]

theorem StoreInv_init (rules : List rule) :
    StoreInv rules { x3a := State_init, states := [], nstate := 0 } := by
  refine ⟨chain_empty rules 128 (by omega), rfl, ?_, ?_, ⟨rfl, rfl⟩⟩
  · intro i j ni nj hi
    simp [State_init] at hi
  · intro i node hi
    simp [State_init] at hi

theorem getstate_found {rules : List rule} {succ : List config → List (List config)}
    {g : stateStore} (hg : StoreInv rules g) (basis : List config) (i : Nat) (node : x3node)
    (hnode : g.x3a.tbl[i]? = some node)
    (heq : (Configlist_sortbasis rules basis).map (configKey rules) =
      node.key.map (configKey rules)) (fuel : Nat) :
    getstate rules succ (fuel + 1) basis g = some (node.data, g) := by
  obtain ⟨r, hr, hr1, hr2⟩ := State_find_spec hg.chain hg.count
    (Configlist_sortbasis rules basis)
  unfold getstate
  simp only [hr]
  cases r with
  | none => exact absurd heq.symm (hr2 rfl i node hnode)
  | some d =>
    obtain ⟨j, nj, hj, hd, hk⟩ := hr1 d rfl
    have hij : j = i := by
      by_contra hne
      exact hg.distinct j i nj node hj hnode hne (hk.trans heq)
    subst hij
    rw [hnode] at hj
    injection hj with hj
    subst hj
    simp only [hd]

theorem getstate_new_inv {rules : List rule} {g : stateStore} (hg : StoreInv rules g)
    (bp : List config)
    (hnew : ∀ (i : Nat) (node : x3node), g.x3a.tbl[i]? = some node →
      node.key.map (configKey rules) ≠ bp.map (configKey rules)) :
    ∃ x1 r, State_insert rules g.x3a g.states.length bp = some (x1, r) ∧
      StoreInv rules {
        x3a := x1
        states := g.states ++ [{ bp := bp, statenum := g.nstate }]
        nstate := g.nstate + 1 } := by
  obtain ⟨x1, h1, hc1, hl1, hcnt1, hent1⟩ :=
    State_insert_new hg.chain hg.count g.states.length bp hnew
  refine ⟨x1, 1, h1, ?_⟩
  have hlen : (x3entries g.x3a.tbl).length = g.x3a.count := by
    simp [x3entries, hg.count]
  have hsplit : ∀ (i : Nat) (n1 : x3node), x1.tbl[i]? = some n1 →
      (∃ n, g.x3a.tbl[i]? = some n ∧ n.data = n1.data ∧ n.key = n1.key) ∨
      (i = g.x3a.count ∧ n1.data = g.states.length ∧ n1.key = bp) := by
    intro i n1 hn1
    have he := x3entries_of_getElem? hn1
    rw [hent1] at he
    by_cases hi : i < g.x3a.count
    · left
      rw [List.getElem?_append_left (by omega)] at he
      obtain ⟨n, hn, hd, hk⟩ := x3entries_getElem? he
      exact ⟨n, hn, hd, hk⟩
    · right
      have hlt := (List.getElem?_eq_some.1 hn1).1
      have hi2 : i = g.x3a.count := by omega
      subst hi2
      rw [List.getElem?_append_right (by omega)] at he
      simp only [hlen, Nat.sub_self, List.getElem?_cons_zero, Option.some.injEq,
        Prod.mk.injEq] at he
      exact ⟨rfl, he.1.symm, he.2.symm⟩
  refine ⟨hc1, hl1, ?_, ?_, ?_⟩
  · intro i j ni nj hi hj hne
    change x1.tbl[i]? = some ni at hi
    change x1.tbl[j]? = some nj at hj
    rcases hsplit i ni hi with ⟨a, ha, -, hka⟩ | ⟨hia, -, hka⟩
    · rcases hsplit j nj hj with ⟨b, hb, -, hkb⟩ | ⟨hjb, -, hkb⟩
      · rw [← hka, ← hkb]
        exact hg.distinct i j a b ha hb hne
      · rw [← hka, hkb]
        exact hnew i a ha
    · rcases hsplit j nj hj with ⟨b, hb, -, hkb⟩ | ⟨hjb, -, hkb⟩
      · rw [hka, ← hkb]
        exact fun h => hnew j b hb h.symm
      · omega
  · intro i node hi
    change x1.tbl[i]? = some node at hi
    change node.data = i ∧ (g.states ++ [_])[i]? = _
    rcases hsplit i node hi with ⟨a, ha, hda, hka⟩ | ⟨hia, hda, hka⟩
    · obtain ⟨d1, d2⟩ := hg.data i a ha
      have hlt := (List.getElem?_eq_some.1 d2).1
      refine ⟨by omega, ?_⟩
      rw [List.getElem?_append_left hlt, ← hka]
      exact d2
    · subst hia
      refine ⟨by rw [hda, hg.nstate.2], ?_⟩
      rw [List.getElem?_append_right (by rw [hg.nstate.2]), hg.nstate.2]
      simp only [Nat.sub_self, List.getElem?_cons_zero, hka, hg.nstate.1]
  · change g.nstate + 1 = (x1.count : Int) ∧ (g.states ++ [_]).length = x1.count
    rw [hcnt1, hg.nstate.1]
    simp [hg.nstate.2]

theorem buildshifts_inv {rules : List rule}
    (gs : List config → stateStore → Option (Nat × stateStore))
    (hgs : ∀ basis g stp g1, StoreInv rules g → gs basis g = some (stp, g1) →
      StoreInv rules g1)
    (bases : List (List config)) (g g1 : stateStore) (hg : StoreInv rules g)
    (h : buildshifts gs bases g = some g1) : StoreInv rules g1 := by
  induction bases generalizing g with
  | nil =>
    simp only [buildshifts, Option.some.injEq] at h
    subst h; exact hg
  | cons b rest ih =>
    unfold buildshifts at h
    cases hb : gs b g with
    | none => simp [hb] at h
    | some r =>
      obtain ⟨stp, g2⟩ := r
      simp only [hb] at h
      exact ih g2 (hgs b g stp g2 hg hb) h

theorem getstate_inv {rules : List rule} {succ : List config → List (List config)}
    (fuel : Nat) (basis : List config) (g : stateStore) (stp : Nat) (g1 : stateStore)
    (hg : StoreInv rules g) (h : getstate rules succ fuel basis g = some (stp, g1)) :
    StoreInv rules g1 := by
  induction fuel generalizing basis g stp g1 with
  | zero => simp [getstate] at h
  | succ fuel ih =>
    obtain ⟨r, hr, -, hr2⟩ := State_find_spec hg.chain hg.count
      (Configlist_sortbasis rules basis)
    unfold getstate at h
    simp only [hr] at h
    cases r with
    | some d =>
      simp only [Option.some.injEq, Prod.mk.injEq] at h
      rw [← h.2]; exact hg
    | none =>
      simp only at h
      obtain ⟨x1, rc, hins, hinv1⟩ := getstate_new_inv hg (Configlist_sortbasis rules basis)
        (hr2 rfl)
      simp only [hins] at h
      cases hb : buildshifts (getstate rules succ fuel)
          (succ (Configlist_sortbasis rules basis)) {
            x3a := x1
            states := g.states ++ [{ bp := Configlist_sortbasis rules basis, statenum := g.nstate }]
            nstate := g.nstate + 1 } with
      | none => simp [hb] at h
      | some g3 =>
        simp only [hb, Option.some.injEq, Prod.mk.injEq] at h
        rw [← h.2]
        exact buildshifts_inv (getstate rules succ fuel)
          (fun b g' s g'' hg' hrun => ih b g' s g'' hg' hrun) _ _ _ hinv1 hb

/-- C7: `getstate` keeps the state store canonical.  Starting from a store that satisfies
the invariant `StoreInv` (as the store of `State_init` does), every call of `getstate`,
with all the calls it makes through `buildshifts`, leaves a store that satisfies it again;
in such a store two different entries hold different states whose sorted bases differ as
sequences of `(rule index, dot)`; and when the sorted basis under construction equals
the basis of a stored state, `getstate` returns that state and changes nothing, so no
state number is allocated. -/
theorem getstate_canonical (rules : List rule) (succ : List config → List (List config))
    (g0 : stateStore) (h0 : StoreInv rules g0) (basis : List config) :
    (∀ fuel stp g, getstate rules succ fuel basis g0 = some (stp, g) →
      StoreInv rules g ∧
      ∀ (i j : Nat) (ni nj : x3node), g.x3a.tbl[i]? = some ni → g.x3a.tbl[j]? = some nj →
        i ≠ j → ni.data ≠ nj.data ∧
          ni.key.map (configKey rules) ≠ nj.key.map (configKey rules)) ∧
    (∀ (i : Nat) (node : x3node) (fuel : Nat), g0.x3a.tbl[i]? = some node →
      (Configlist_sortbasis rules basis).map (configKey rules) =
        node.key.map (configKey rules) →
      getstate rules succ (fuel + 1) basis g0 = some (node.data, g0)) := by
  constructor
  · intro fuel stp g h
    have hinv := getstate_inv fuel basis g0 stp g h0 h
    refine ⟨hinv, ?_⟩
    intro i j ni nj hi hj hne
    refine ⟨?_, hinv.distinct i j ni nj hi hj hne⟩
    rw [(hinv.data i ni hi).1, (hinv.data j nj hj).1]
    exact hne
  · intro i node fuel hnode heq
    exact getstate_found h0 basis i node hnode heq fuel

set_option maxRecDepth 100000 in
theorem getstate_canonical_witness :
    StoreInv storeRules storeInit ∧
    FindStates storeRules storeSucc 10 [{ rp := 1, dot := 0 }, { rp := 0, dot := 0 }] = some (0, storeFinal) ∧
    (StoreInv storeRules storeFinal ∧
      ∀ (i j : Nat) (ni nj : x3node), storeFinal.x3a.tbl[i]? = some ni →
        storeFinal.x3a.tbl[j]? = some nj → i ≠ j → ni.data ≠ nj.data ∧
          ni.key.map (configKey storeRules) ≠ nj.key.map (configKey storeRules)) ∧
    getstate storeRules storeSucc 1 [{ rp := 1, dot := 1 }, { rp := 0, dot := 1 }] storeFinal = some (3, storeFinal) :=
  have h1 := (getstate_canonical storeRules storeSucc storeInit (StoreInv_init storeRules)
    [{ rp := 1, dot := 0 }, { rp := 0, dot := 0 }]).1 10 0 storeFinal (by decide)
  ⟨StoreInv_init storeRules, by decide, h1,
    (getstate_canonical storeRules storeSucc storeFinal h1.1 [{ rp := 1, dot := 1 }, { rp := 0, dot := 1 }]).2 3
      { data := 3, key := [{ rp := 0, dot := 1 }, { rp := 1, dot := 1 }], next := none } 0 (by decide) (by decide)⟩

theorem resolveShiftShift_of_reduce (apx apy : action) (hy : apy.type ≠ e_action.SHIFT) :
    resolveShiftShift apx apy = (apy, 0) := by
  simp [resolveShiftShift, hy]

/-- C12: on a shift/reduce pair with both precedences defined and different, the higher
precedence wins: the reduce becomes `RD_RESOLVED` when the lookahead has the higher
precedence, the shift becomes `SH_RESOLVED` when the rule has; the other action is
unchanged and the function returns 0. -/
theorem resolve_conflict_precedence (syms : List symbol) (rules : List rule)
    (apx apy : action) (pr : Int)
    (hsp : apx.sp = apy.sp) (hx : apx.type = e_action.SHIFT)
    (hy : apy.type = e_action.REDUCE) (hpr : rulePrec syms rules apy = some pr)
    (hps0 : 0 ≤ lookPrec syms apx) (hpr0 : 0 ≤ pr) (hne : lookPrec syms apx ≠ pr) :
    (lookPrec syms apx > pr → resolve_conflict syms rules apx apy =
      some (apx, { apy with type := e_action.RD_RESOLVED }, 0)) ∧
    (lookPrec syms apx < pr → resolve_conflict syms rules apx apy =
      some ({ apx with type := e_action.SH_RESOLVED }, apy, 0)) := by
  have hss := resolveShiftShift_of_reduce apx apy (by rw [hy]; decide)
  unfold rulePrec at hpr
  unfold lookPrec at *
  cases hp : (ruleAt rules apy.x).precsym with
  | none => simp [hp] at hpr
  | some py =>
    simp [hp] at hpr
    subst hpr
    constructor
    · intro hgt
      simp [resolve_conflict, hsp, hss, resolveRest, hx, hy, hp]
      rw [← hsp]
      simp [not_lt.mpr hps0, not_lt.mpr hpr0, hgt]
    · intro hlt
      simp [resolve_conflict, hsp, hss, resolveRest, hx, hy, hp]
      rw [← hsp]
      simp [not_lt.mpr hps0, not_lt.mpr hpr0, hlt, not_lt.mpr (le_of_lt hlt)]

/-- The shift on `TIMES` against the reduce by the rule of precedence `PLUS`, and the
shift on `PLUS` against the reduce by the rule of precedence `TIMES`. -/
theorem resolve_conflict_precedence_witness :
    resolve_conflict conflictSyms conflictRules
        { sp := 2, type := e_action.SHIFT, x := 6 } { sp := 2, type := e_action.REDUCE, x := 0 } =
      some ({ sp := 2, type := e_action.SHIFT, x := 6 },
        { sp := 2, type := e_action.RD_RESOLVED, x := 0 }, 0) ∧
    resolve_conflict conflictSyms conflictRules
        { sp := 1, type := e_action.SHIFT, x := 5 } { sp := 1, type := e_action.REDUCE, x := 1 } =
      some ({ sp := 1, type := e_action.SH_RESOLVED, x := 5 },
        { sp := 1, type := e_action.REDUCE, x := 1 }, 0) :=
  ⟨(resolve_conflict_precedence conflictSyms conflictRules
      { sp := 2, type := e_action.SHIFT, x := 6 } { sp := 2, type := e_action.REDUCE, x := 0 } 1
      (by decide) (by decide) (by decide) (by decide) (by decide) (by decide) (by decide)).1
      (by decide),
   (resolve_conflict_precedence conflictSyms conflictRules
      { sp := 1, type := e_action.SHIFT, x := 5 } { sp := 1, type := e_action.REDUCE, x := 1 } 2
      (by decide) (by decide) (by decide) (by decide) (by decide) (by decide) (by decide)).2
      (by decide)⟩

/-- C13: on a shift/reduce pair with equal, defined precedences the associativity of the
lookahead decides: `RIGHT` turns the reduce into `RD_RESOLVED`, `LEFT` turns the shift
into `SH_RESOLVED`, `NONE` re-tags the shift `ERROR` and leaves the reduce; the function
returns 0 in the three cases. -/
theorem resolve_conflict_associativity (syms : List symbol) (rules : List rule)
    (apx apy : action)
    (hsp : apx.sp = apy.sp) (hx : apx.type = e_action.SHIFT)
    (hy : apy.type = e_action.REDUCE)
    (hpr : rulePrec syms rules apy = some (lookPrec syms apx))
    (hps0 : 0 ≤ lookPrec syms apx) :
    (lookAssoc syms apx = e_assoc.RIGHT → resolve_conflict syms rules apx apy =
      some (apx, { apy with type := e_action.RD_RESOLVED }, 0)) ∧
    (lookAssoc syms apx = e_assoc.LEFT → resolve_conflict syms rules apx apy =
      some ({ apx with type := e_action.SH_RESOLVED }, apy, 0)) ∧
    (lookAssoc syms apx = e_assoc.NONE → resolve_conflict syms rules apx apy =
      some ({ apx with type := e_action.ERROR }, apy, 0)) := by
  have hss := resolveShiftShift_of_reduce apx apy (by rw [hy]; decide)
  unfold rulePrec at hpr
  unfold lookPrec at *
  unfold lookAssoc
  cases hp : (ruleAt rules apy.x).precsym with
  | none => simp [hp] at hpr
  | some py =>
    simp [hp] at hpr
    refine ⟨?_, ?_, ?_⟩ <;> intro ha <;>
      simp [resolve_conflict, hsp, hss, resolveRest, hx, hy, hp] <;>
      rw [← hsp] <;>
      simp [hpr, not_lt.mpr hps0, ha]

/-- The three associativities on the example symbols. -/
theorem resolve_conflict_associativity_witness :
    resolve_conflict assocSyms assocRules
        { sp := 1, type := e_action.SHIFT } { sp := 1, type := e_action.REDUCE } =
      some ({ sp := 1, type := e_action.SHIFT }, { sp := 1, type := e_action.RD_RESOLVED }, 0) ∧
    resolve_conflict assocSyms assocRules
        { sp := 0, type := e_action.SHIFT } { sp := 0, type := e_action.REDUCE } =
      some ({ sp := 0, type := e_action.SH_RESOLVED }, { sp := 0, type := e_action.REDUCE }, 0) ∧
    resolve_conflict assocSyms assocRules
        { sp := 2, type := e_action.SHIFT } { sp := 2, type := e_action.REDUCE } =
      some ({ sp := 2, type := e_action.ERROR }, { sp := 2, type := e_action.REDUCE }, 0) :=
  ⟨(resolve_conflict_associativity assocSyms assocRules
      { sp := 1, type := e_action.SHIFT } { sp := 1, type := e_action.REDUCE }
      (by decide) (by decide) (by decide) (by decide) (by decide)).1 (by decide),
   (resolve_conflict_associativity assocSyms assocRules
      { sp := 0, type := e_action.SHIFT } { sp := 0, type := e_action.REDUCE }
      (by decide) (by decide) (by decide) (by decide) (by decide)).2.1 (by decide),
   (resolve_conflict_associativity assocSyms assocRules
      { sp := 2, type := e_action.SHIFT } { sp := 2, type := e_action.REDUCE }
      (by decide) (by decide) (by decide) (by decide) (by decide)).2.2 (by decide)⟩

/-- C14: on a shift/reduce pair the function returns 1, re-tags the reduce `SRCONFLICT`
and leaves the shift unchanged exactly when the precedence information is missing: the
rule has no precedence symbol, or its precedence or the precedence of the lookahead is
negative.  In every other outcome the return value is not 1 and the reduce is not
tagged `SRCONFLICT`. -/
theorem resolve_conflict_sr_conflict (syms : List symbol) (rules : List rule)
    (apx apy : action)
    (hsp : apx.sp = apy.sp) (hx : apx.type = e_action.SHIFT)
    (hy : apy.type = e_action.REDUCE) :
    (resolve_conflict syms rules apx apy =
        some (apx, { apy with type := e_action.SRCONFLICT }, 1) ↔
      PrecUnset syms rules apx apy) ∧
    (∀ ax ay n, resolve_conflict syms rules apx apy = some (ax, ay, n) →
      (n = 1 ∨ ay.type = e_action.SRCONFLICT) → PrecUnset syms rules apx apy) := by
  have hss := resolveShiftShift_of_reduce apx apy (by rw [hy]; decide)
  have key : (PrecUnset syms rules apx apy → resolve_conflict syms rules apx apy =
        some (apx, { apy with type := e_action.SRCONFLICT }, 1)) ∧
      (¬ PrecUnset syms rules apx apy → ∀ ax ay n,
        resolve_conflict syms rules apx apy = some (ax, ay, n) →
        n = 0 ∧ ay.type ≠ e_action.SRCONFLICT) := by
    unfold PrecUnset rulePrec lookPrec
    cases hp : (ruleAt rules apy.x).precsym with
    | none =>
      simp [resolve_conflict, hsp, hss, resolveRest, hx, hy, hp]
    | some py =>
      simp only [Option.map_some']
      constructor
      · intro hu
        simp [resolve_conflict, hsp, hss, resolveRest, hx, hy, hp]
        rw [← hsp]
        rcases hu with hu | hu
        · simp [hu]
        · simp [hu]
      · intro hu ax ay n hres
        push_neg at hu
        simp [resolve_conflict, hsp, hss, resolveRest, hx, hy, hp] at hres
        rw [← hsp] at hres
        simp [not_lt.mpr hu.1, not_lt.mpr hu.2] at hres
        split_ifs at hres <;> simp at hres <;>
          obtain ⟨-, h2, h3⟩ := hres <;> subst h2 <;> subst h3 <;> simp [hy]
  refine ⟨⟨fun h => ?_, key.1⟩, fun ax ay n h hn => ?_⟩
  · by_contra hu
    have := key.2 hu _ _ _ h
    simp at this
  · by_contra hu
    have := key.2 hu _ _ _ h
    rcases hn with hn | hn
    · omega
    · exact this.2 hn

/-- A reduce by a rule without precedence symbol against a shift. -/
theorem resolve_conflict_sr_conflict_witness :
    resolve_conflict assocSyms assocRules
        { sp := 1, type := e_action.SHIFT } { sp := 1, type := e_action.REDUCE, x := 1 } =
      some ({ sp := 1, type := e_action.SHIFT },
        { sp := 1, type := e_action.SRCONFLICT, x := 1 }, 1) :=
  (resolve_conflict_sr_conflict assocSyms assocRules
      { sp := 1, type := e_action.SHIFT } { sp := 1, type := e_action.REDUCE, x := 1 }
      (by decide) (by decide) (by decide)).1.2 (by decide)

/-- C15: on a reduce/reduce pair, a missing precedence symbol, a negative precedence or
equal precedences turn the second action into `RRCONFLICT` and the function returns 1;
otherwise the action of the rule with the lower precedence becomes `RD_RESOLVED`, the
other action is unchanged, and the function returns 0. -/
theorem resolve_conflict_reduce_reduce (syms : List symbol) (rules : List rule)
    (apx apy : action)
    (hsp : apx.sp = apy.sp) (hx : apx.type = e_action.REDUCE)
    (hy : apy.type = e_action.REDUCE) :
    (PrecTied syms rules apx apy → resolve_conflict syms rules apx apy =
      some (apx, { apy with type := e_action.RRCONFLICT }, 1)) ∧
    (∀ px py, rulePrec syms rules apx = some px → rulePrec syms rules apy = some py →
      ¬ PrecTied syms rules apx apy →
      (py < px → resolve_conflict syms rules apx apy =
        some (apx, { apy with type := e_action.RD_RESOLVED }, 0)) ∧
      (px < py → resolve_conflict syms rules apx apy =
        some ({ apx with type := e_action.RD_RESOLVED }, apy, 0)) ∧
      (py < px ∨ px < py)) := by
  have hss := resolveShiftShift_of_reduce apx apy (by rw [hy]; decide)
  unfold PrecTied rulePrec
  cases hpx : (ruleAt rules apx.x).precsym with
  | none =>
    simp [resolve_conflict, hsp, hss, resolveRest, hx, hy, hpx]
  | some qx =>
    cases hpy : (ruleAt rules apy.x).precsym with
    | none =>
      simp [resolve_conflict, hsp, hss, resolveRest, hx, hy, hpx, hpy]
    | some qy =>
      simp only [Option.map_some']
      constructor
      · intro h
        simp [resolve_conflict, hsp, hss, resolveRest, hx, hy, hpx, hpy]
        intro h1 h2 h3
        exfalso
        rcases h with h | h | h
        · omega
        · omega
        · exact h3 h
      · intro px py h1 h2 hu
        simp only [Option.some.injEq] at h1 h2
        subst h1; subst h2
        have hu2 := hu
        push_neg at hu2
        refine ⟨fun hlt => ?_, fun hlt => ?_, ?_⟩
        · simp [resolve_conflict, hsp, hss, resolveRest, hx, hy, hpx, hpy,
            not_lt.mpr hu2.1, not_lt.mpr hu2.2.1, hu2.2.2, hlt]
        · simp [resolve_conflict, hsp, hss, resolveRest, hx, hy, hpx, hpy,
            not_lt.mpr hu2.1, not_lt.mpr hu2.2.1, hu2.2.2, hlt, not_lt.mpr (le_of_lt hlt)]
        · have := hu2.2.2
          omega

/-- The reduce by the rule of precedence `PLUS` against the reduce by the rule of
precedence `TIMES`: the first loses. -/
theorem resolve_conflict_reduce_reduce_witness :
    resolve_conflict conflictSyms conflictRules
        { sp := 1, type := e_action.REDUCE, x := 0 } { sp := 1, type := e_action.REDUCE, x := 1 } =
      some ({ sp := 1, type := e_action.RD_RESOLVED, x := 0 },
        { sp := 1, type := e_action.REDUCE, x := 1 }, 0) :=
  ((resolve_conflict_reduce_reduce conflictSyms conflictRules
      { sp := 1, type := e_action.REDUCE, x := 0 } { sp := 1, type := e_action.REDUCE, x := 1 }
      (by decide) (by decide) (by decide)).2 1 2 (by decide) (by decide)
      (by decide)).2.1 (by decide)

/-- C16, as stated, fails: a `SHIFTREDUCE` on a nonterminal lookahead is coded as a
reduce, `nstate + nrule + 3 + r`, not as `nstate + r`. -/
theorem compute_action_shiftreduce_nonterminal :
    compute_action (ReportTable_codes codesExample) []
        { sp := 1, type := e_action.SHIFTREDUCE, x := 0 } = 6 ∧
      codesExample.nstate + (ruleAt codesExample.rule 0).iRule = 2 := by
  decide

/-- C16 (amended): with the constants of `ReportTable`, `compute_action` gives the
target's `statenum` for a `SHIFT`, `nstate + r` for a `SHIFTREDUCE` by rule `r` on a
terminal lookahead (index below `nterminal`), `nstate + nrule + 3 + r` for a `REDUCE` and
for a `SHIFTREDUCE` on any other lookahead, `nstate + nrule` for `ERROR`,
`nstate + nrule + 1` for `ACCEPT` and `-1` for every other tag; for
`0 ≤ statenum < nstate` and `0 ≤ r < nrule` the codes lie in the ranges
`[0, nstate)`, `[nstate, nstate + nrule)`, `{nstate + nrule}`, `{nstate + nrule + 1}` and
`[nstate + nrule + 3, nstate + 2 nrule + 3)`, which are pairwise disjoint and miss the
no-action code `nstate + nrule + 2`. -/
theorem compute_action_codes (lemp : lemon) (states : List state) (ap : action)
    (c r n : Int) (hc : c = compute_action (ReportTable_codes lemp) states ap)
    (hr : r = (ruleAt lemp.rule ap.x).iRule) (hn : n = (stateAt states ap.x).statenum) :
    ((ReportTable_codes lemp).noAction = lemp.nstate + lemp.nrule + 2) ∧
    (ap.type = e_action.SHIFT → c = n ∧ (0 ≤ n → n < lemp.nstate → 0 ≤ c ∧ c < lemp.nstate)) ∧
    (ap.type = e_action.SHIFTREDUCE →
      (symAt lemp.symbols ap.sp).index < (lemp.nterminal : Int) → c = lemp.nstate + r ∧
      (0 ≤ r → r < lemp.nrule → lemp.nstate ≤ c ∧ c < lemp.nstate + lemp.nrule)) ∧
    (ap.type = e_action.SHIFTREDUCE →
      ¬ (symAt lemp.symbols ap.sp).index < (lemp.nterminal : Int) →
      c = lemp.nstate + lemp.nrule + 3 + r ∧
      (0 ≤ r → r < lemp.nrule →
        lemp.nstate + lemp.nrule + 3 ≤ c ∧ c < lemp.nstate + lemp.nrule + 3 + lemp.nrule)) ∧
    (ap.type = e_action.REDUCE → c = lemp.nstate + lemp.nrule + 3 + r ∧
      (0 ≤ r → r < lemp.nrule →
        lemp.nstate + lemp.nrule + 3 ≤ c ∧ c < lemp.nstate + lemp.nrule + 3 + lemp.nrule)) ∧
    (ap.type = e_action.ERROR → c = lemp.nstate + lemp.nrule) ∧
    (ap.type = e_action.ACCEPT → c = lemp.nstate + lemp.nrule + 1) ∧
    (ap.type ≠ e_action.SHIFT → ap.type ≠ e_action.SHIFTREDUCE → ap.type ≠ e_action.REDUCE →
      ap.type ≠ e_action.ERROR → ap.type ≠ e_action.ACCEPT → c = -1) := by
  subst hc hr hn
  refine ⟨by simp [ReportTable_codes]; ring, ?_, ?_, ?_, ?_, ?_, ?_, ?_⟩
  · intro h
    have hc : compute_action (ReportTable_codes lemp) states ap =
        (stateAt states ap.x).statenum := by simp [compute_action, h]
    exact ⟨hc, fun h1 h2 => by omega⟩
  · intro h ht
    have hc : compute_action (ReportTable_codes lemp) states ap =
        lemp.nstate + (ruleAt lemp.rule ap.x).iRule := by
      simp only [compute_action, h, ReportTable_codes]
      rw [if_neg (by simpa using ht)]
    exact ⟨hc, fun h1 h2 => by omega⟩
  · intro h ht
    have hc : compute_action (ReportTable_codes lemp) states ap =
        lemp.nstate + lemp.nrule + 3 + (ruleAt lemp.rule ap.x).iRule := by
      simp only [compute_action, h, ReportTable_codes]
      rw [if_pos (by simpa using ht)]
      ring
    exact ⟨hc, fun h1 h2 => by omega⟩
  · intro h
    have hc : compute_action (ReportTable_codes lemp) states ap =
        lemp.nstate + lemp.nrule + 3 + (ruleAt lemp.rule ap.x).iRule := by
      simp only [compute_action, h, ReportTable_codes]
      ring
    exact ⟨hc, fun h1 h2 => by omega⟩
  · intro h
    simp [compute_action, h, ReportTable_codes]
  · intro h
    simp [compute_action, h, ReportTable_codes]
  · intro h1 h2 h3 h4 h5
    simp only [compute_action]

/-- A `REDUCE` by rule 0 in the example: code `2 + 1 + 3 + 0`. -/
theorem compute_action_codes_witness :
    compute_action (ReportTable_codes codesExample) []
        { sp := 0, type := e_action.REDUCE, x := 0 } =
      codesExample.nstate + codesExample.nrule + 3 + 0 :=
  ((compute_action_codes codesExample [] { sp := 0, type := e_action.REDUCE, x := 0 }
    _ 0 0 rfl (by decide) (by decide)).2.2.2.2.1 (by decide)).1

theorem firstPrecSub_some (syms : List symbol) (l : List Nat) (q : Nat) :
    firstPrecSub syms l = some q ↔
      ∃ s1 s2, l = s1 ++ q :: s2 ∧ (∀ y ∈ s1, (symAt syms y).prec < 0) ∧
        0 ≤ (symAt syms q).prec := by
  induction l with
  | nil => simp [firstPrecSub]
  | cons a rest ih =>
    unfold firstPrecSub
    by_cases ha : (symAt syms a).prec ≥ 0
    · simp only [ha, if_true, Option.some.injEq]
      constructor
      · rintro rfl
        exact ⟨[], rest, rfl, by simp, ha⟩
      · rintro ⟨s1, s2, h1, h2, h3⟩
        cases s1 with
        | nil => simp at h1; exact h1.1
        | cons b s1 =>
          simp at h1
          have := h2 b (by simp)
          rw [← h1.1] at this
          omega
    · simp only [ha, if_false, ih]
      constructor
      · rintro ⟨s1, s2, h1, h2, h3⟩
        refine ⟨a :: s1, s2, by simp [h1], ?_, h3⟩
        intro y hy
        simp at hy
        rcases hy with rfl | hy
        · omega
        · exact h2 y hy
      · rintro ⟨s1, s2, h1, h2, h3⟩
        cases s1 with
        | nil =>
          simp at h1
          rw [h1.1] at ha
          omega
        | cons b s1 =>
          simp at h1
          exact ⟨s1, s2, h1.2, fun y hy => h2 y (by simp [hy]), h3⟩

theorem firstPrecSub_none (syms : List symbol) (l : List Nat) :
    firstPrecSub syms l = none ↔ ∀ y ∈ l, (symAt syms y).prec < 0 := by
  induction l with
  | nil => simp [firstPrecSub]
  | cons a rest ih =>
    unfold firstPrecSub
    by_cases ha : (symAt syms a).prec ≥ 0
    · simp [ha]
    · simp [ha, ih]
      omega

theorem contributes_or_noPrec (syms : List symbol) (p : Nat) :
    (∃ q, (if (symAt syms p).type = symbol_type.MULTITERMINAL then
        firstPrecSub syms (symAt syms p).subsym
      else if (symAt syms p).prec ≥ 0 then some p else none) = some q ∧
        Contributes syms p q) ∨
    ((if (symAt syms p).type = symbol_type.MULTITERMINAL then
        firstPrecSub syms (symAt syms p).subsym
      else if (symAt syms p).prec ≥ 0 then some p else none) = none ∧ NoPrec syms p) := by
  unfold Contributes NoPrec
  by_cases hm : (symAt syms p).type = symbol_type.MULTITERMINAL
  · simp only [hm, if_true]
    cases h : firstPrecSub syms (symAt syms p).subsym with
    | none => exact Or.inr ⟨rfl, (firstPrecSub_none _ _).1 h⟩
    | some q => exact Or.inl ⟨q, rfl, (firstPrecSub_some _ _ _).1 h⟩
  · simp only [hm, if_false]
    by_cases hp : (symAt syms p).prec ≥ 0
    · simp [hp]
    · simp [hp]
      omega

theorem contributes_not_noPrec (syms : List symbol) (p q : Nat)
    (h : Contributes syms p q) (hn : NoPrec syms p) : False := by
  unfold Contributes at h
  unfold NoPrec at hn
  by_cases hm : (symAt syms p).type = symbol_type.MULTITERMINAL
  · simp only [hm, if_true] at h hn
    obtain ⟨s1, s2, h1, -, h3⟩ := h
    have := hn q (by simp [h1])
    omega
  · simp only [hm, if_false] at h hn
    omega

theorem contributes_unique (syms : List symbol) (p q q' : Nat)
    (h : Contributes syms p q) (h' : Contributes syms p q') : q = q' := by
  have h1 := contributes_or_noPrec syms p
  unfold Contributes at h h'
  by_cases hm : (symAt syms p).type = symbol_type.MULTITERMINAL
  · simp only [hm, if_true] at h h'
    have a := (firstPrecSub_some _ _ _).2 h
    have b := (firstPrecSub_some _ _ _).2 h'
    rw [a] at b
    exact Option.some.inj b
  · simp only [hm, if_false] at h h'
    rw [h.1, h'.1]

theorem precScan_some (syms : List symbol) (rhs : List Nat) (q : Nat) :
    precScan syms rhs = some q ↔
      ∃ pre p post, rhs = pre ++ p :: post ∧ (∀ y ∈ pre, NoPrec syms y) ∧
        Contributes syms p q := by
  induction rhs with
  | nil => simp [precScan]
  | cons a rest ih =>
    unfold precScan
    rcases contributes_or_noPrec syms a with ⟨q0, h0, hc⟩ | ⟨h0, hn⟩
    · simp only [h0, Option.some.injEq]
      constructor
      · rintro rfl
        exact ⟨[], a, rest, rfl, by simp, hc⟩
      · rintro ⟨pre, p, post, h1, h2, h3⟩
        cases pre with
        | nil =>
          simp at h1
          rw [← h1.1] at h3
          exact contributes_unique syms a _ _ hc h3
        | cons b pre =>
          simp at h1
          have := h2 b (by simp)
          rw [← h1.1] at this
          exact (contributes_not_noPrec syms a q0 hc this).elim
    · simp only [h0, ih]
      constructor
      · rintro ⟨pre, p, post, h1, h2, h3⟩
        refine ⟨a :: pre, p, post, by simp [h1], ?_, h3⟩
        intro y hy
        simp at hy
        rcases hy with rfl | hy
        · exact hn
        · exact h2 y hy
      · rintro ⟨pre, p, post, h1, h2, h3⟩
        cases pre with
        | nil =>
          simp at h1
          rw [← h1.1] at h3
          exact (contributes_not_noPrec syms a q h3 hn).elim
        | cons b pre =>
          simp at h1
          exact ⟨pre, p, post, h1.2, fun y hy => h2 y (by simp [hy]), h3⟩

theorem precScan_none (syms : List symbol) (rhs : List Nat) :
    precScan syms rhs = none ↔ ∀ y ∈ rhs, NoPrec syms y := by
  induction rhs with
  | nil => simp [precScan]
  | cons a rest ih =>
    unfold precScan
    rcases contributes_or_noPrec syms a with ⟨q0, h0, hc⟩ | ⟨h0, hn⟩
    · simp only [h0, reduceCtorEq, false_iff]
      intro h
      exact contributes_not_noPrec syms a q0 hc (h a (by simp))
    · simp only [h0, ih]
      simp [hn]

/-- C25: `FindRulePrecedences` keeps the symbol table and the number and order of the
rules, changes no field of a rule other than `precsym`, leaves a rule that has a
precedence symbol unchanged, and gives every other rule the symbol contributed by the
first right-hand-side symbol that contributes one (a symbol with `prec ≥ 0`, or for a
multiterminal its first sub-symbol with `prec ≥ 0`); `precsym` stays null exactly when no
right-hand-side symbol contributes. -/
theorem FindRulePrecedences_spec (xp : lemon) :
    (FindRulePrecedences xp).symbols = xp.symbols ∧
    (FindRulePrecedences xp).rule.length = xp.rule.length ∧
    ∀ (i : Nat) (rp : rule), xp.rule[i]? = some rp →
      ∃ rp1, (FindRulePrecedences xp).rule[i]? = some rp1 ∧
        rp1 = { rp with precsym := rp1.precsym } ∧
        (rp.precsym ≠ none → rp1 = rp) ∧
        (rp.precsym = none →
          (∀ q, rp1.precsym = some q ↔
            ∃ pre p post, rp.rhs = pre ++ p :: post ∧ (∀ y ∈ pre, NoPrec xp.symbols y) ∧
              Contributes xp.symbols p q) ∧
          (rp1.precsym = none ↔ ∀ y ∈ rp.rhs, NoPrec xp.symbols y)) := by
  refine ⟨rfl, by simp [FindRulePrecedences], ?_⟩
  intro i rp hi
  by_cases hp : rp.precsym = none
  · refine ⟨{ rp with precsym := precScan xp.symbols rp.rhs }, ?_, rfl, ?_, ?_⟩
    · simp [FindRulePrecedences, hi, hp]
    · intro h; exact (h hp).elim
    · intro _
      exact ⟨fun q => precScan_some _ _ _, precScan_none _ _⟩
  · refine ⟨rp, ?_, rfl, fun _ => rfl, fun h => (hp h).elim⟩
    simp [FindRulePrecedences, hi, hp]

/-- The example: the first rule takes `PLUS` from the multiterminal, the second gets no
precedence symbol, the third keeps its explicit one. -/
theorem FindRulePrecedences_example :
    (FindRulePrecedences precExample).rule.map (fun rp => rp.precsym) =
      [some 1, none, some 2] := by
  decide

theorem stateAt_set_ne (states : List state) (p q : Nat) (s : state) (h : p ≠ q) :
    stateAt (states.set p s) q = stateAt states q := by
  simp [stateAt, List.getD, List.getElem?_set_ne h]

theorem stateAt_set_eq (states : List state) (p : Nat) (s : state) (h : p < states.length) :
    stateAt (states.set p s) p = s := by
  simp [stateAt, List.getD, List.getElem?_set_self h]

theorem stateAt_of_getElem? {states : List state} {p : Nat} {s : state}
    (h : states[p]? = some s) : stateAt states p = s := by
  simp [stateAt, List.getD, h]

theorem resortCount_keeps (lemp : lemon) (p : Nat) (aps : List action) (states states1 : List state)
    (h : resortCount lemp p aps states = some states1) :
    states1.length = states.length ∧
      ∀ q, (stateAt states1 q).statenum = (stateAt states q).statenum ∧
        (stateAt states1 q).autoReduce = (stateAt states q).autoReduce := by
  induction aps generalizing states with
  | nil =>
    simp [resortCount] at h
    subst h
    exact ⟨rfl, fun q => ⟨rfl, rfl⟩⟩
  | cons ap rest ih =>
    have step : ∀ (s : state), s.statenum = (stateAt states p).statenum →
        s.autoReduce = (stateAt states p).autoReduce →
        resortCount lemp p rest (states.set p s) = some states1 →
        states1.length = states.length ∧
        ∀ q, (stateAt states1 q).statenum = (stateAt states q).statenum ∧
          (stateAt states1 q).autoReduce = (stateAt states q).autoReduce := by
      intro s hs ha hr
      obtain ⟨h1, h2⟩ := ih _ hr
      refine ⟨by simpa using h1, fun q => ?_⟩
      rw [(h2 q).1, (h2 q).2]
      by_cases hq : p = q
      · subst hq
        by_cases hp : p < states.length
        · rw [stateAt_set_eq _ _ _ hp]; exact ⟨hs, ha⟩
        · rw [List.set_eq_of_length_le (by omega)]; exact ⟨rfl, rfl⟩
      · rw [stateAt_set_ne _ _ _ _ hq]; exact ⟨rfl, rfl⟩
    unfold resortCount at h
    simp only at h
    split_ifs at h
    · refine step _ ?_ ?_ h <;> rfl
    · refine step _ ?_ ?_ h <;> rfl
    · refine step _ ?_ ?_ h <;> rfl
    · exact ih _ h

theorem resortInit_keeps (lemp : lemon) (ps : List Nat) (states states1 : List state)
    (h : resortInit lemp ps states = some states1) :
    states1.length = states.length ∧
      ∀ q, (stateAt states1 q).statenum = (stateAt states q).statenum ∧
        (stateAt states1 q).autoReduce = (stateAt states q).autoReduce := by
  induction ps generalizing states with
  | nil =>
    simp [resortInit] at h
    subst h
    exact ⟨rfl, fun q => ⟨rfl, rfl⟩⟩
  | cons p rest ih =>
    unfold resortInit at h
    cases hp : states[p]? with
    | none => simp [hp] at h
    | some stp =>
      simp only [hp] at h
      split at h
      · simp at h
      · rename_i states2 h2
        obtain ⟨a1, a2⟩ := resortCount_keeps _ _ _ _ _ h2
        obtain ⟨b1, b2⟩ := ih _ h
        have hlt : p < states.length := by
          by_contra hc
          rw [List.getElem?_eq_none (by omega)] at hp
          simp at hp
        refine ⟨by rw [b1, a1]; simp, fun q => ?_⟩
        rw [(b2 q).1, (b2 q).2, (a2 q).1, (a2 q).2]
        by_cases hq : p = q
        · subst hq
          rw [stateAt_set_eq _ _ _ hlt, stateAt_of_getElem? hp]
          exact ⟨rfl, rfl⟩
        · rw [stateAt_set_ne _ _ _ _ hq]; exact ⟨rfl, rfl⟩

theorem renumber_spec (ps : List Nat) (i : Int) (states states1 : List state)
    (hnd : ps.Nodup) (h : renumber ps i states = some states1) :
    states1.length = states.length ∧
    (∀ (k : Nat) (p : Nat), ps[k]? = some p → (stateAt states1 p).statenum = i + k) ∧
    (∀ q, q ∉ ps → stateAt states1 q = stateAt states q) := by
  induction ps generalizing states i with
  | nil =>
    simp [renumber] at h
    subst h
    simp
  | cons p rest ih =>
    unfold renumber at h
    cases hp : states[p]? with
    | none => simp [hp] at h
    | some stp =>
      simp only [hp] at h
      have hlt : p < states.length := by
        by_contra hc
        rw [List.getElem?_eq_none (by omega)] at hp
        simp at hp
      obtain ⟨hnp, hnd1⟩ := List.nodup_cons.1 hnd
      obtain ⟨a1, a2, a3⟩ := ih _ _ hnd1 h
      refine ⟨by simpa using a1, ?_, ?_⟩
      · intro k q hk
        cases k with
        | zero =>
          simp at hk
          subst hk
          rw [a3 _ hnp, stateAt_set_eq _ _ _ hlt]
          simp
        | succ k =>
          simp at hk
          rw [a2 k q hk]
          push_cast
          ring
      · intro q hq
        simp at hq
        push_neg at hq
        rw [a3 q hq.2, stateAt_set_ne _ _ _ _ (Ne.symm hq.1)]

theorem renumber_total (ps : List Nat) (i : Int) (states : List state)
    (h : ∀ p ∈ ps, p < states.length) : ∃ states1, renumber ps i states = some states1 := by
  induction ps generalizing states i with
  | nil => exact ⟨states, rfl⟩
  | cons p rest ih =>
    unfold renumber
    have hp := h p (by simp)
    rw [List.getElem?_eq_getElem hp]
    exact ih _ _ (fun q hq => by simpa using h q (by simp [hq]))

theorem resortCount_total (lemp : lemon) (p : Nat) (aps : List action) (states : List state)
    (h0 : (stateAt states p).autoReduce = 0) :
    ∃ states1, resortCount lemp p aps states = some states1 := by
  induction aps generalizing states with
  | nil => exact ⟨states, rfl⟩
  | cons ap rest ih =>
    have keep : ∀ s : state, s.autoReduce = 0 → (stateAt (states.set p s) p).autoReduce = 0 := by
      intro s hs
      by_cases hp : p < states.length
      · rw [stateAt_set_eq _ _ _ hp]; exact hs
      · rw [List.set_eq_of_length_le (by omega)]; exact h0
    unfold resortCount
    simp only
    split_ifs with c1 c2 c3 c4
    · exact ih _ (keep _ h0)
    · exact ih _ (keep _ h0)
    · exact ih _ (keep _ h0)
    · exact (c4 (Or.inl h0)).elim
    · exact ih _ h0

theorem resortInit_total (lemp : lemon) (ps : List Nat) (states : List state)
    (hr : ∀ p ∈ ps, p < states.length)
    (h0 : ∀ p ∈ ps, (stateAt states p).autoReduce = 0) :
    ∃ states1, resortInit lemp ps states = some states1 := by
  induction ps generalizing states with
  | nil => exact ⟨states, rfl⟩
  | cons p rest ih =>
    unfold resortInit
    have hp := hr p (by simp)
    rw [List.getElem?_eq_getElem hp]
    simp only
    have hs : (stateAt (states.set p { states[p] with
        nTknAct := 0
        nNtAct := 0
        iDfltReduce := -1
        iTknOfst := NO_OFFSET
        iNtOfst := NO_OFFSET }) p).autoReduce = 0 := by
      rw [stateAt_set_eq _ _ _ hp]
      have := h0 p (by simp)
      rw [stateAt_of_getElem? (List.getElem?_eq_getElem hp)] at this
      exact this
    obtain ⟨states1, h1⟩ := resortCount_total lemp p states[p].ap _ hs
    rw [h1]
    simp only
    obtain ⟨a1, a2⟩ := resortCount_keeps _ _ _ _ _ h1
    apply ih
    · intro q hq
      rw [a1]
      simpa using hr q (by simp [hq])
    · intro q hq
      rw [(a2 q).2]
      by_cases hpq : p = q
      · subst hpq; exact hs
      · rw [stateAt_set_ne _ _ _ _ hpq]; exact h0 q (by simp [hq])

theorem insertBy_perm (cmp : Nat → Nat → Option Int) (a : Nat) (l l1 : List Nat)
    (h : insertBy cmp a l = some l1) : l1.Perm (a :: l) := by
  induction l generalizing l1 with
  | nil =>
    simp [insertBy] at h
    subst h
    exact List.Perm.refl _
  | cons b rest ih =>
    unfold insertBy at h
    cases hc : cmp a b with
    | none => simp [hc] at h
    | some c =>
      simp only [hc] at h
      split_ifs at h
      · simp at h
        subst h
        exact List.Perm.refl _
      · cases hr : insertBy cmp a rest with
        | none => simp [hr] at h
        | some l2 =>
          simp [hr] at h
          subst h
          exact ((ih _ hr).cons b).trans (List.Perm.swap a b rest)

theorem sortBy_perm (cmp : Nat → Nat → Option Int) (l l1 : List Nat)
    (h : sortBy cmp l = some l1) : l1.Perm l := by
  induction l generalizing l1 with
  | nil =>
    simp [sortBy] at h
    subst h
    exact List.Perm.refl _
  | cons a rest ih =>
    unfold sortBy at h
    cases hr : sortBy cmp rest with
    | none => simp [hr] at h
    | some l2 =>
      simp only [hr] at h
      exact (insertBy_perm _ _ _ _ h).trans ((ih _ hr).cons a)

theorem stateResortCompare_some (states : List state) (a b : Nat)
    (h : (stateAt states a).statenum ≠ (stateAt states b).statenum) :
    stateResortCompare states a b ≠ none := by
  unfold stateResortCompare
  simp only
  split_ifs <;> first | (exfalso; omega) | simp

/-- C18: `ResortStates` leaves `sorted[0]` in place, permutes `sorted[1 ..]`, and
afterwards `sorted[i]->statenum = i` for every `i < nstate`; it returns whenever the
state pointers are valid, no state is an auto-reduce state, and the library sort returns.
`qsort` is only assumed to return a permutation of its input; the pointers of `sorted`
are pairwise different and `nstate` is the length of `sorted`, as `State_arrayof` leaves
them. -/
theorem ResortStates_renumbers
    (qsort : (Nat → Nat → Option Int) → List Nat → Option (List Nat))
    (lemp : lemon) (states : List state)
    (hq : ∀ cmp l l1, qsort cmp l = some l1 → l1.Perm l)
    (hlen : lemp.nstate = (lemp.sorted.length : Int)) (hnd : lemp.sorted.Nodup) :
    (∀ lemp1 states1, ResortStates qsort lemp states = some (lemp1, states1) →
      lemp1.sorted.head? = lemp.sorted.head? ∧
      lemp1.sorted.tail.Perm lemp.sorted.tail ∧
      lemp1.nstate = lemp.nstate ∧
      ∀ i : Nat, i < lemp.sorted.length →
        ∃ p, lemp1.sorted[i]? = some p ∧ (stateAt states1 p).statenum = (i : Int)) ∧
    (1 ≤ lemp.nstate →
      (∀ p ∈ lemp.sorted, p < states.length ∧ (stateAt states p).autoReduce = 0) →
      (∀ cmp l, (∀ a ∈ l, ∀ b ∈ l, a ≠ b → cmp a b ≠ none) → ∃ l1, qsort cmp l = some l1) →
      (∀ a ∈ lemp.sorted, ∀ b ∈ lemp.sorted, a ≠ b →
        (stateAt states a).statenum ≠ (stateAt states b).statenum) →
      ∃ r, ResortStates qsort lemp states = some r) := by
  have hn : lemp.nstate.toNat = lemp.sorted.length := by rw [hlen]; simp
  constructor
  · intro lemp1 states1 h
    unfold ResortStates at h
    simp only [hn] at h
    split_ifs at h with hc
    simp only [List.take_length] at h
    cases h1 : resortInit lemp lemp.sorted states with
    | none => simp [h1] at h
    | some st1 =>
      simp only [h1] at h
      cases hs : lemp.sorted with
      | nil => simp [hs] at h
      | cons s0 rest =>
        simp only [hs, List.length_cons, Nat.add_sub_cancel, List.take_length,
          List.drop_length, List.append_nil] at h
        cases h2 : qsort (stateResortCompare st1) rest with
        | none => simp [h2] at h
        | some seg =>
          simp only [h2] at h
          have hperm := hq _ _ _ h2
          have hlen2 : seg.length = rest.length := hperm.length_eq
          rw [List.take_of_length_le (by simp [hlen2])] at h
          cases h3 : renumber (s0 :: seg) 0 st1 with
          | none => simp [h3] at h
          | some st2 =>
            simp only [h3, Option.some.injEq, Prod.mk.injEq] at h
            obtain ⟨hl, hst⟩ := h
            subst hl hst
            have hnd2 : (s0 :: seg).Nodup := by
              rw [hs] at hnd
              exact (List.Perm.nodup_iff (hperm.cons s0)).2 hnd
            obtain ⟨-, b2, -⟩ := renumber_spec _ _ _ _ hnd2 h3
            refine ⟨rfl, hperm, rfl, fun i hi => ?_⟩
            simp only [List.length_cons] at hi
            have hi2 : i < (s0 :: seg).length := by simp [hlen2]; omega
            refine ⟨(s0 :: seg)[i], List.getElem?_eq_getElem hi2, ?_⟩
            rw [b2 i _ (List.getElem?_eq_getElem hi2)]
            simp
  · intro h1 hok hsort hdist
    unfold ResortStates
    simp only [hn]
    rw [if_neg (by omega)]
    simp only [List.take_length]
    obtain ⟨st1, e1⟩ := resortInit_total lemp lemp.sorted states
      (fun p hp => (hok p hp).1) (fun p hp => (hok p hp).2)
    obtain ⟨k1, k2⟩ := resortInit_keeps _ _ _ _ e1
    rw [e1]
    cases hs : lemp.sorted with
    | nil => rw [hs] at hlen; simp at hlen; omega
    | cons s0 rest =>
      simp only [List.length_cons, Nat.add_sub_cancel, List.take_length,
        List.drop_length, List.append_nil]
      obtain ⟨seg, e2⟩ := hsort (stateResortCompare st1) rest (by
        intro a ha b hb hab
        apply stateResortCompare_some
        rw [(k2 a).1, (k2 b).1]
        exact hdist a (by simp [hs, ha]) b (by simp [hs, hb]) hab)
      rw [e2]
      simp only
      have hperm := hq _ _ _ e2
      have hlen2 : seg.length = rest.length := hperm.length_eq
      rw [List.take_of_length_le (by simp [hlen2])]
      obtain ⟨st2, e3⟩ := renumber_total (s0 :: seg) 0 st1 (by
        intro p hp
        rw [k1]
        have : p ∈ s0 :: rest := (hperm.cons s0).subset hp
        exact (hok p (by rw [hs]; exact this)).1)
      rw [e3]
      exact ⟨_, rfl⟩

set_option maxRecDepth 100000 in
/-- The example with insertion sort as `qsort`: the states with more nonterminal and
more terminal actions come first after the start state, and the numbers follow the new
order. -/
theorem ResortStates_renumbers_witness :
    (ResortStates sortBy resortLemon resortStatesExample).map
        (fun r => (r.1.sorted, r.2.map (fun s => s.statenum))) =
      some ([0, 2, 3, 1], [0, 3, 1, 2]) ∧
    ∀ lemp1 states1, ResortStates sortBy resortLemon resortStatesExample = some (lemp1, states1) →
      lemp1.sorted.head? = resortLemon.sorted.head? ∧
      lemp1.sorted.tail.Perm resortLemon.sorted.tail ∧
      lemp1.nstate = resortLemon.nstate ∧
      ∀ i : Nat, i < resortLemon.sorted.length →
        ∃ p, lemp1.sorted[i]? = some p ∧ (stateAt states1 p).statenum = (i : Int) :=
  ⟨by decide,
   (ResortStates_renumbers sortBy resortLemon resortStatesExample sortBy_perm
      (by decide) (by decide)).1⟩

theorem addReduces_spec (rp : Nat) (fws : List Bool) (c j : Nat) (app app1 : List action × Int)
    (h : addReduces rp fws c j app = some app1) :
    ∃ added, app1.1 = added ++ app.1 ∧
      (∀ a ∈ added, a.type = e_action.REDUCE ∧ a.x = rp ∧ j ≤ a.sp ∧ a.sp < j + c) ∧
      ∀ t, j ≤ t → t < j + c →
        added.countP (fun a => decide (a.sp = t)) = if fws[t]? = some true then 1 else 0 := by
  induction c generalizing j app with
  | zero =>
    simp [addReduces] at h
    subst h
    exact ⟨[], rfl, by simp, fun t h1 h2 => by omega⟩
  | succ c ih =>
    unfold addReduces at h
    cases hf : fws[j]? with
    | none => simp [hf] at h
    | some b =>
      cases b with
      | true =>
        simp only [hf] at h
        obtain ⟨added, e1, e2, e3⟩ := ih _ _ h
        let a0 : action := { sp := j, type := e_action.REDUCE, x := rp, addr := app.2 }
        refine ⟨added ++ [a0], by simp [e1, Action_add, a0], ?_, ?_⟩
        · intro a ha
          simp at ha
          rcases ha with ha | ha
          · have := e2 a ha
            exact ⟨this.1, this.2.1, by omega, by omega⟩
          · subst ha
            refine ⟨rfl, rfl, ?_, ?_⟩ <;> simp [a0]
        · intro t h1 h2
          rw [List.countP_append]
          by_cases ht : t = j
          · subst ht
            have : List.countP (fun a => decide (a.sp = t)) added = 0 := by
              rw [List.countP_eq_zero]
              intro a ha
              have := (e2 a ha).2.2.1
              simp
              omega
            simp [this, hf]
          · rw [e3 t (by omega) (by omega)]
            simp [List.countP_cons, Ne.symm ht]
      | false =>
        simp only [hf] at h
        obtain ⟨added, e1, e2, e3⟩ := ih _ _ h
        refine ⟨added, e1, ?_, ?_⟩
        · intro a ha
          have := e2 a ha
          exact ⟨this.1, this.2.1, by omega, by omega⟩
        · intro t h1 h2
          by_cases ht : t = j
          · subst ht
            have : List.countP (fun a => decide (a.sp = t)) added = 0 := by
              rw [List.countP_eq_zero]
              intro a ha
              have := (e2 a ha).2.2.1
              simp
              omega
            simp [this, hf]
          · exact e3 t (by omega) (by omega)

theorem addReduces_total (rp : Nat) (fws : List Bool) (c j : Nat) (app : List action × Int)
    (h : j + c ≤ fws.length) : ∃ app1, addReduces rp fws c j app = some app1 := by
  induction c generalizing j app with
  | zero => exact ⟨app, rfl⟩
  | succ c ih =>
    unfold addReduces
    rw [List.getElem?_eq_getElem (by omega)]
    cases fws[j] with
    | true => exact ih _ _ (by omega)
    | false => exact ih _ _ (by omega)

theorem reduceState_spec (lemp : lemon) (cfgs : List config) (cfps : List Nat)
    (app app1 : List action × Int) (h : reduceState lemp cfgs cfps app = some app1) :
    ∃ added, app1.1 = added ++ app.1 ∧
      (∀ a ∈ added, a.type = e_action.REDUCE ∧ a.sp < lemp.nterminal) ∧
      ∀ r t, t < lemp.nterminal →
        added.countP (IsReduce r t) = cfps.countP (ReducesOn lemp cfgs r t) := by
  induction cfps generalizing app with
  | nil =>
    simp [reduceState] at h
    subst h
    exact ⟨[], rfl, by simp, fun r t _ => by simp⟩
  | cons c rest ih =>
    unfold reduceState at h
    split_ifs at h with hc
    · cases ha : addReduces (cfgAt cfgs c).rp (cfgAt cfgs c).fws lemp.nterminal 0 app with
      | none => simp [ha] at h
      | some app2 =>
        simp only [ha] at h
        obtain ⟨add1, a1, a2, a3⟩ := addReduces_spec _ _ _ _ _ _ ha
        obtain ⟨add2, b1, b2, b3⟩ := ih _ h
        refine ⟨add2 ++ add1, by simp [b1, a1], ?_, ?_⟩
        · intro a ha'
          simp at ha'
          rcases ha' with ha' | ha'
          · exact b2 a ha'
          · have := a2 a ha'
            exact ⟨this.1, by omega⟩
        · intro r t ht
          rw [List.countP_append, b3 r t ht, List.countP_cons]
          congr 1
          by_cases hr : (cfgAt cfgs c).rp = r
          · have e : List.countP (IsReduce r t) add1 =
                List.countP (fun a => decide (a.sp = t)) add1 := by
              apply List.countP_congr
              intro a ha'
              have := a2 a ha'
              simp [IsReduce, this.1, this.2.1, hr]
            rw [e, a3 t (by omega) (by omega)]
            subst hr
            simp [ReducesOn, hc]
          · have e : List.countP (IsReduce r t) add1 = 0 := by
              rw [List.countP_eq_zero]
              intro a ha'
              have := a2 a ha'
              simp [IsReduce, this.2.1, hr]
            rw [e]
            simp [ReducesOn, hr]
    · obtain ⟨add2, b1, b2, b3⟩ := ih _ h
      refine ⟨add2, b1, b2, ?_⟩
      intro r t ht
      rw [b3 r t ht, List.countP_cons]
      simp [ReducesOn, hc]

theorem reduceState_total (lemp : lemon) (cfgs : List config) (cfps : List Nat)
    (app : List action × Int)
    (h : ∀ c ∈ cfps, lemp.nterminal ≤ (cfgAt cfgs c).fws.length) :
    ∃ app1, reduceState lemp cfgs cfps app = some app1 := by
  induction cfps generalizing app with
  | nil => exact ⟨app, rfl⟩
  | cons c rest ih =>
    unfold reduceState
    split_ifs
    · obtain ⟨app2, e⟩ := addReduces_total (cfgAt cfgs c).rp (cfgAt cfgs c).fws
        lemp.nterminal 0 app (by simpa using h c (by simp))
      rw [e]
      exact ih _ (fun c' hc' => h c' (by simp [hc']))
    · exact ih _ (fun c' hc' => h c' (by simp [hc']))

theorem lt_of_getElem?_some {α : Type} {l : List α} {p : Nat} {s : α}
    (h : l[p]? = some s) : p < l.length := by
  by_contra hc
  rw [List.getElem?_eq_none (by omega)] at h
  simp at h

theorem findReduces_spec (lemp : lemon) (cfgs : List config) (ps : List Nat)
    (st st1 : List state × Int) (hnd : ps.Nodup)
    (h : findReduces lemp cfgs ps st = some st1) :
    st1.1.length = st.1.length ∧
    (∀ q, q ∉ ps → stateAt st1.1 q = stateAt st.1 q) ∧
    ∀ p ∈ ps, ∃ added,
      stateAt st1.1 p = { stateAt st.1 p with ap := added ++ (stateAt st.1 p).ap } ∧
      (∀ a ∈ added, a.type = e_action.REDUCE ∧ a.sp < lemp.nterminal) ∧
      ∀ r t, t < lemp.nterminal →
        added.countP (IsReduce r t) =
          (stateAt st.1 p).cfp.countP (ReducesOn lemp cfgs r t) := by
  induction ps generalizing st with
  | nil =>
    simp [findReduces] at h
    subst h
    simp
  | cons p rest ih =>
    unfold findReduces at h
    cases hp : st.1[p]? with
    | none => simp [hp] at h
    | some stp =>
      simp only [hp] at h
      cases hr : reduceState lemp cfgs stp.cfp (stp.ap, st.2) with
      | none => simp [hr] at h
      | some app =>
        simp only [hr] at h
        obtain ⟨hnp, hnd1⟩ := List.nodup_cons.1 hnd
        obtain ⟨a1, a2, a3⟩ := ih _ hnd1 h
        obtain ⟨added, b1, b2, b3⟩ := reduceState_spec _ _ _ _ _ hr
        have hlt := lt_of_getElem?_some hp
        have hsp := stateAt_of_getElem? hp
        refine ⟨by simpa using a1, ?_, ?_⟩
        · intro q hq
          simp at hq
          push_neg at hq
          rw [a2 q hq.2]
          exact stateAt_set_ne _ _ _ _ (Ne.symm hq.1)
        · intro q hq
          simp at hq
          rcases hq with rfl | hq
          · refine ⟨added, ?_, b2, ?_⟩
            · rw [a2 q hnp]
              simp only at b1
              rw [stateAt_set_eq _ _ _ hlt, hsp, b1]
            · rw [hsp]; exact b3
          · have hne : p ≠ q := fun e => hnp (e ▸ hq)
            obtain ⟨add, c1, c2, c3⟩ := a3 q hq
            simp only at c1 c3
            rw [stateAt_set_ne _ _ _ _ hne] at c1 c3
            exact ⟨add, c1, c2, c3⟩

theorem findReduces_total (lemp : lemon) (cfgs : List config) (ps : List Nat)
    (st : List state × Int)
    (hok : ∀ p ∈ ps, p < st.1.length ∧
      ∀ c ∈ (stateAt st.1 p).cfp, lemp.nterminal ≤ (cfgAt cfgs c).fws.length) :
    ∃ st1, findReduces lemp cfgs ps st = some st1 := by
  induction ps generalizing st with
  | nil => exact ⟨st, rfl⟩
  | cons p rest ih =>
    unfold findReduces
    have hp := (hok p (by simp)).1
    have hsp : stateAt st.1 p = st.1[p] := stateAt_of_getElem? (List.getElem?_eq_getElem hp)
    rw [List.getElem?_eq_getElem hp]
    simp only
    obtain ⟨app, e⟩ := reduceState_total lemp cfgs st.1[p].cfp (st.1[p].ap, st.2)
      (by rw [← hsp]; exact (hok p (by simp)).2)
    rw [e]
    simp only
    apply ih
    intro q hq
    simp only [List.length_set]
    refine ⟨(hok q (by simp [hq])).1, ?_⟩
    by_cases hpq : p = q
    · subst hpq
      rw [stateAt_set_eq _ _ _ hp]
      simp only
      rw [← hsp]
      exact (hok p (by simp)).2
    · rw [stateAt_set_ne _ _ _ _ hpq]
      exact (hok q (by simp [hq])).2

/-- C20: after the first loop of `FindActions` over pairwise different state pointers, a
state that had no `REDUCE` action before has, for every rule `r` and terminal
`t < nterminal`, as many `REDUCE` actions by `r` on lookahead `t` as its closure has
configurations of `r` with the dot at the extreme right and `t` in the follow set, so it
has such an action if and only if the closure has such a configuration; the closure is
unchanged.  The loop returns whenever the state pointers are valid and every follow set
has at least `nterminal` entries. -/
theorem FindActions_reduce_actions (lemp : lemon) (cfgs : List config) (ps : List Nat)
    (st : List state × Int) (hnd : ps.Nodup) :
    (∀ st1, findReduces lemp cfgs ps st = some st1 → ∀ p ∈ ps,
      (∀ a ∈ (stateAt st.1 p).ap, a.type ≠ e_action.REDUCE) →
      (stateAt st1.1 p).cfp = (stateAt st.1 p).cfp ∧
      ∀ r t, t < lemp.nterminal →
        (stateAt st1.1 p).ap.countP (IsReduce r t) =
          (stateAt st.1 p).cfp.countP (ReducesOn lemp cfgs r t) ∧
        ((∃ a ∈ (stateAt st1.1 p).ap, a.type = e_action.REDUCE ∧ a.x = r ∧ a.sp = t) ↔
          ∃ c ∈ (stateAt st.1 p).cfp, ReducesOn lemp cfgs r t c = true)) ∧
    ((∀ p ∈ ps, p < st.1.length ∧
        ∀ c ∈ (stateAt st.1 p).cfp, lemp.nterminal ≤ (cfgAt cfgs c).fws.length) →
      ∃ st1, findReduces lemp cfgs ps st = some st1) := by
  refine ⟨?_, findReduces_total lemp cfgs ps st⟩
  intro st1 h p hp hno
  obtain ⟨-, -, a3⟩ := findReduces_spec lemp cfgs ps st st1 hnd h
  obtain ⟨added, b1, b2, b3⟩ := a3 p hp
  have hcount : ∀ r t, t < lemp.nterminal →
      (stateAt st1.1 p).ap.countP (IsReduce r t) =
        (stateAt st.1 p).cfp.countP (ReducesOn lemp cfgs r t) := by
    intro r t ht
    rw [b1]
    simp only
    rw [List.countP_append, b3 r t ht]
    have : List.countP (IsReduce r t) (stateAt st.1 p).ap = 0 := by
      rw [List.countP_eq_zero]
      intro a ha
      simp [IsReduce, hno a ha]
    omega
  refine ⟨by rw [b1], fun r t ht => ⟨hcount r t ht, ?_⟩⟩
  have e := hcount r t ht
  constructor
  · rintro ⟨a, ha, h1, h2, h3⟩
    have : 0 < (stateAt st1.1 p).ap.countP (IsReduce r t) :=
      List.countP_pos_iff.2 ⟨a, ha, by simp [IsReduce, h1, h2, h3]⟩
    rw [e] at this
    obtain ⟨c, hc, hc2⟩ := List.countP_pos_iff.1 this
    exact ⟨c, hc, hc2⟩
  · rintro ⟨c, hc, hc2⟩
    have : 0 < (stateAt st.1 p).cfp.countP (ReducesOn lemp cfgs r t) :=
      List.countP_pos_iff.2 ⟨c, hc, hc2⟩
    rw [← e] at this
    obtain ⟨a, ha, ha2⟩ := List.countP_pos_iff.1 this
    simp [IsReduce] at ha2
    exact ⟨a, ha, ha2⟩

/-- The example: the state gets the reduce actions by rule 0 on the terminals 0 and 2
in front of its shift action. -/
theorem FindActions_reduce_actions_witness :
    findReduces reduceLemon reduceCfgs [0] (reduceStates, 0) =
      some ([{ bp := [], statenum := 0, cfp := [0, 1],
               ap := [{ sp := 2, type := e_action.REDUCE, x := 0, addr := 1 },
                      { sp := 0, type := e_action.REDUCE, x := 0, addr := 0 },
                      { sp := 2, type := e_action.SHIFT, x := 0 }] }], 2) ∧
    ∃ st1, findReduces reduceLemon reduceCfgs [0] (reduceStates, 0) = some st1 :=
  ⟨by decide,
   (FindActions_reduce_actions reduceLemon reduceCfgs [0] (reduceStates, 0) (by decide)).2
     (by decide)⟩

theorem markActions_spec (aps : List action) (rules rules1 : List rule)
    (h : markActions aps rules = some rules1) :
    rules1.length = rules.length ∧
    ∀ (i : Nat) (rp1 : rule), rules1[i]? = some rp1 →
      ∃ rp, rules[i]? = some rp ∧ rp1 = { rp with canReduce := rp1.canReduce } ∧
        (rp1.canReduce = true ↔ rp.canReduce = true ∨
          ∃ a ∈ aps, a.type = e_action.REDUCE ∧ a.x = i) := by
  induction aps generalizing rules with
  | nil =>
    simp [markActions] at h
    subst h
    exact ⟨rfl, fun i rp1 hi => ⟨rp1, hi, rfl, by simp⟩⟩
  | cons ap rest ih =>
    unfold markActions at h
    split_ifs at h with ht
    · cases hx : rules[ap.x]? with
      | none => simp [hx] at h
      | some r0 =>
        simp only [hx] at h
        obtain ⟨a1, a2⟩ := ih _ h
        have hlt := lt_of_getElem?_some hx
        refine ⟨by simpa using a1, fun i rp1 hi => ?_⟩
        obtain ⟨rp, b1, b2, b3⟩ := a2 i rp1 hi
        by_cases hi2 : ap.x = i
        · subst hi2
          rw [List.getElem?_set_self hlt] at b1
          simp only [Option.some.injEq] at b1
          subst b1
          refine ⟨r0, hx, by rw [b2], ?_⟩
          rw [b3]
          simp [ht]
        · rw [List.getElem?_set_ne hi2] at b1
          refine ⟨rp, b1, b2, ?_⟩
          rw [b3]
          constructor
          · rintro (h1 | ⟨a, ha, h2, h3⟩)
            · exact Or.inl h1
            · exact Or.inr ⟨a, by simp [ha], h2, h3⟩
          · rintro (h1 | ⟨a, ha, h2, h3⟩)
            · exact Or.inl h1
            · simp at ha
              rcases ha with rfl | ha
              · exact (hi2 h3).elim
              · exact Or.inr ⟨a, ha, h2, h3⟩
    · obtain ⟨a1, a2⟩ := ih _ h
      refine ⟨a1, fun i rp1 hi => ?_⟩
      obtain ⟨rp, b1, b2, b3⟩ := a2 i rp1 hi
      refine ⟨rp, b1, b2, ?_⟩
      rw [b3]
      constructor
      · rintro (h1 | ⟨a, ha, h2, h3⟩)
        · exact Or.inl h1
        · exact Or.inr ⟨a, by simp [ha], h2, h3⟩
      · rintro (h1 | ⟨a, ha, h2, h3⟩)
        · exact Or.inl h1
        · simp at ha
          rcases ha with rfl | ha
          · exact (ht h2).elim
          · exact Or.inr ⟨a, ha, h2, h3⟩

theorem markActions_total (aps : List action) (rules : List rule)
    (h : ∀ a ∈ aps, a.type = e_action.REDUCE → a.x < rules.length) :
    ∃ rules1, markActions aps rules = some rules1 := by
  induction aps generalizing rules with
  | nil => exact ⟨rules, rfl⟩
  | cons ap rest ih =>
    unfold markActions
    split_ifs with ht
    · rw [List.getElem?_eq_getElem (h ap (by simp) ht)]
      exact ih _ (fun a ha hr => by simpa using h a (by simp [ha]) hr)
    · exact ih _ (fun a ha hr => h a (by simp [ha]) hr)

theorem markStates_spec (states : List state) (ps : List Nat) (rules rules1 : List rule)
    (h : markStates states ps rules = some rules1) :
    rules1.length = rules.length ∧
    ∀ (i : Nat) (rp1 : rule), rules1[i]? = some rp1 →
      ∃ rp, rules[i]? = some rp ∧ rp1 = { rp with canReduce := rp1.canReduce } ∧
        (rp1.canReduce = true ↔ rp.canReduce = true ∨
          ∃ p ∈ ps, ∃ a ∈ (stateAt states p).ap, a.type = e_action.REDUCE ∧ a.x = i) := by
  induction ps generalizing rules with
  | nil =>
    simp [markStates] at h
    subst h
    exact ⟨rfl, fun i rp1 hi => ⟨rp1, hi, rfl, by simp⟩⟩
  | cons p rest ih =>
    unfold markStates at h
    cases hp : states[p]? with
    | none => simp [hp] at h
    | some stp =>
      simp only [hp] at h
      cases hm : markActions stp.ap rules with
      | none => simp [hm] at h
      | some rules2 =>
        simp only [hm] at h
        obtain ⟨a1, a2⟩ := markActions_spec _ _ _ hm
        obtain ⟨c1, c2⟩ := ih _ h
        have hsp := stateAt_of_getElem? hp
        refine ⟨by rw [c1, a1], fun i rp1 hi => ?_⟩
        obtain ⟨rp2, d1, d2, d3⟩ := c2 i rp1 hi
        obtain ⟨rp, e1, e2, e3⟩ := a2 i rp2 d1
        refine ⟨rp, e1, ?_, ?_⟩
        · rw [d2, e2]
        · rw [d3, e3]
          constructor
          · rintro ((h1 | ⟨a, ha, h2, h3⟩) | ⟨q, hq, a, ha, h2, h3⟩)
            · exact Or.inl h1
            · exact Or.inr ⟨p, by simp, a, by rw [hsp]; exact ha, h2, h3⟩
            · exact Or.inr ⟨q, by simp [hq], a, ha, h2, h3⟩
          · rintro (h1 | ⟨q, hq, a, ha, h2, h3⟩)
            · exact Or.inl (Or.inl h1)
            · simp at hq
              rcases hq with rfl | hq
              · rw [hsp] at ha
                exact Or.inl (Or.inr ⟨a, ha, h2, h3⟩)
              · exact Or.inr ⟨q, hq, a, ha, h2, h3⟩

theorem markStates_total (states : List state) (ps : List Nat) (rules : List rule)
    (h : ∀ p ∈ ps, p < states.length ∧
      ∀ a ∈ (stateAt states p).ap, a.type = e_action.REDUCE → a.x < rules.length) :
    ∃ rules1, markStates states ps rules = some rules1 := by
  induction ps generalizing rules with
  | nil => exact ⟨rules, rfl⟩
  | cons p rest ih =>
    unfold markStates
    have hp := (h p (by simp)).1
    have hsp : stateAt states p = states[p] := stateAt_of_getElem? (List.getElem?_eq_getElem hp)
    rw [List.getElem?_eq_getElem hp]
    simp only
    obtain ⟨rules2, e⟩ := markActions_total states[p].ap rules
      (by rw [← hsp]; exact (h p (by simp)).2)
    rw [e]
    simp only
    apply ih
    intro q hq
    rw [(markActions_spec _ _ _ e).1]
    exact h q (by simp [hq])

theorem countUnreduced_spec (rules : List rule) (errorcnt : Int) :
    countUnreduced rules errorcnt =
      errorcnt + (rules.countP (fun rp => !rp.canReduce) : Nat) := by
  induction rules generalizing errorcnt with
  | nil => simp [countUnreduced]
  | cons rp rest ih =>
    unfold countUnreduced
    split_ifs with hc
    · rw [ih, List.countP_cons]
      simp [hc]
    · rw [ih, List.countP_cons]
      simp [hc]
      ring

/-- C21: the last part of `FindActions` changes no field of a rule other than
`canReduce`, sets `canReduce` true exactly for the rules that are the rule of an action
tagged `REDUCE` in one of the states, and adds to `errorcnt` the number of rules left
with `canReduce` false.  It returns whenever the state pointers are valid and the
`REDUCE` actions point to rules. -/
theorem FindActions_can_reduce (lemp : lemon) (states : List state) (ps : List Nat)
    (hps : sortedStates lemp = some ps) :
    (∀ lemp1, findUnreduced lemp states = some lemp1 →
      lemp1.rule.length = lemp.rule.length ∧
      (∀ (i : Nat) (rp1 : rule), lemp1.rule[i]? = some rp1 →
        (∃ rp, lemp.rule[i]? = some rp ∧ rp1 = { rp with canReduce := rp1.canReduce }) ∧
        (rp1.canReduce = true ↔
          ∃ p ∈ ps, ∃ a ∈ (stateAt states p).ap, a.type = e_action.REDUCE ∧ a.x = i)) ∧
      lemp1.errorcnt =
        lemp.errorcnt + (lemp1.rule.countP (fun rp => !rp.canReduce) : Nat)) ∧
    ((∀ p ∈ ps, p < states.length ∧
        ∀ a ∈ (stateAt states p).ap, a.type = e_action.REDUCE → a.x < lemp.rule.length) →
      ∃ lemp1, findUnreduced lemp states = some lemp1) := by
  constructor
  · intro lemp1 h
    unfold findUnreduced at h
    simp only [hps] at h
    cases hm : markStates states ps (lemp.rule.map (fun rp => { rp with canReduce := false })) with
    | none => simp [hm] at h
    | some rules1 =>
      simp only [hm, Option.some.injEq] at h
      subst h
      obtain ⟨a1, a2⟩ := markStates_spec _ _ _ _ hm
      refine ⟨by simpa using a1, fun i rp1 hi => ?_, countUnreduced_spec _ _⟩
      obtain ⟨rp, b1, b2, b3⟩ := a2 i rp1 hi
      simp only [List.getElem?_map, Option.map_eq_some'] at b1
      obtain ⟨rp0, c1, c2⟩ := b1
      subst c2
      refine ⟨⟨rp0, c1, by rw [b2]⟩, ?_⟩
      rw [b3]
      simp
  · intro hok
    unfold findUnreduced
    simp only [hps]
    obtain ⟨rules1, e⟩ := markStates_total states ps
      (lemp.rule.map (fun rp => { rp with canReduce := false }))
      (by simpa using hok)
    rw [e]
    exact ⟨_, rfl⟩

/-- The example state after an (empty) conflict resolution: rule 0 is reduced, rule 1 is
not, and one error is counted. -/
theorem FindActions_can_reduce_witness :
    (findUnreduced reduceLemon
        [{ bp := [], statenum := 0,
           ap := [{ sp := 2, type := e_action.REDUCE, x := 0 },
                  { sp := 1, type := e_action.RD_RESOLVED, x := 1 }] }]).map
      (fun l => (l.rule.map (fun rp => rp.canReduce), l.errorcnt)) =
      some ([true, false], 1) ∧
    ∃ lemp1, findUnreduced reduceLemon
        [{ bp := [], statenum := 0,
           ap := [{ sp := 2, type := e_action.REDUCE, x := 0 },
                  { sp := 1, type := e_action.RD_RESOLVED, x := 1 }] }] = some lemp1 :=
  ⟨by decide,
   (FindActions_can_reduce reduceLemon _ [0] (by decide)).2 (by decide)⟩

theorem countSame_eq (r : Nat) (rbest : Option Nat) (l : List action) (n : Int)
    (h : some r ≠ rbest) : countSame r rbest l n = n + (reduceCount r l : Int) := by
  induction l generalizing n with
  | nil => simp [countSame, reduceCount]
  | cons a rest ih =>
    have hc : reduceCount r (a :: rest) =
        reduceCount r rest + (if a.type = e_action.REDUCE ∧ a.x = r then 1 else 0) := by
      unfold reduceCount
      rw [List.countP_cons]
      simp
    rw [hc]
    unfold countSame
    by_cases h1 : a.type = e_action.REDUCE
    · by_cases h2 : some a.x = rbest
      · have h3 : a.x ≠ r := by
          intro e
          rw [e] at h2
          exact h h2
        simp [h1, h2, h3, ih]
      · by_cases h3 : a.x = r
        · subst h3
          simp [h1, h2, ih]
          ring
        · simp [h1, h2, h3, ih]
    · simp [h1, ih]

theorem reduceCount_pos {r : Nat} {l : List action}
    (h : ∃ a ∈ l, a.type = e_action.REDUCE ∧ a.x = r) : 1 ≤ reduceCount r l := by
  obtain ⟨a, ha, h1, h2⟩ := h
  exact List.countP_pos_iff.2 ⟨a, ha, by simp [h1, h2]⟩

theorem reduceCount_zero {r : Nat} {l : List action}
    (h : ¬ ∃ a ∈ l, a.type = e_action.REDUCE ∧ a.x = r) : reduceCount r l = 0 := by
  unfold reduceCount
  rw [List.countP_eq_zero]
  intro a ha
  simp
  intro h1 h2
  exact h ⟨a, ha, h1, h2⟩

theorem reduceCount_split (pre rest : List action) (ap : action)
    (h1 : ap.type = e_action.REDUCE) :
    reduceCount ap.x (pre ++ ap :: rest) =
      reduceCount ap.x pre + 1 + reduceCount ap.x rest := by
  unfold reduceCount
  rw [List.countP_append, List.countP_cons]
  simp [h1]
  ring

theorem bestRule_inv (lemp : lemon) (all : List action) (suf pre : List action)
    (st : Int × Option Nat × Int) (hall : pre ++ suf = all) (hinv : BestInv lemp all pre st) :
    BestInv lemp all all (bestRule lemp suf st) := by
  induction suf generalizing pre st with
  | nil =>
    simp at hall
    subst hall
    simpa [bestRule] using hinv
  | cons ap rest ih =>
    obtain ⟨nbest, rbest, uses⟩ := st
    obtain ⟨i1, i2, i3⟩ := hinv
    simp only at i1 i2 i3
    have hall2 : (pre ++ [ap]) ++ rest = all := by simpa using hall
    have u0 : ((if ap.type = e_action.SHIFT ∧ some ap.sp = lemp.wildcard then (1 : Int)
        else uses) ≠ 0 ↔
        ∃ a ∈ pre ++ [ap], a.type = e_action.SHIFT ∧ some a.sp = lemp.wildcard) := by
      by_cases hw : ap.type = e_action.SHIFT ∧ some ap.sp = lemp.wildcard
      · simp only [hw, and_self, if_true]
        simp
        exact ⟨ap, Or.inr rfl, hw⟩
      · rw [if_neg hw, i1]
        constructor
        · rintro ⟨a, ha, h⟩
          exact ⟨a, by simp [ha], h⟩
        · rintro ⟨a, ha, h⟩
          simp at ha
          rcases ha with ha | rfl
          · exact ⟨a, ha, h⟩
          · exact (hw h).elim
    unfold bestRule
    simp only
    generalize (if ap.type = e_action.SHIFT ∧ some ap.sp = lemp.wildcard then (1 : Int)
        else uses) = uses1 at u0 ⊢
    have u1 := u0
    -- the cases in which the action does not change `nbest` and `rbest`
    have keep : (ap.type = e_action.REDUCE → (ruleAt lemp.rule ap.x).lhsStart = 0 →
          (reduceCount ap.x all : Int) ≤ nbest) →
        (rbest = none → ap.type = e_action.REDUCE → (ruleAt lemp.rule ap.x).lhsStart ≠ 0) →
        BestInv lemp all (pre ++ [ap]) (nbest, rbest, uses1) := by
      intro k1 k2
      refine ⟨u1, ?_, ?_⟩
      · intro a ha h1 h2
        simp at ha
        rcases ha with ha | rfl
        · exact i2 a ha h1 h2
        · exact k1 h1 h2
      · cases rbest with
        | none =>
          simp only at i3 ⊢
          refine ⟨i3.1, fun a ha h1 => ?_⟩
          simp at ha
          rcases ha with ha | rfl
          · exact i3.2 a ha h1
          · exact k2 rfl h1
        | some r =>
          simp only at i3 ⊢
          obtain ⟨j1, j2, a, ha, j3⟩ := i3
          exact ⟨j1, j2, a, by simp [ha], j3⟩
    split_ifs with c1 c2 c3 c4
    · exact ih _ _ hall2 (keep (fun h => (c1 h).elim) (fun _ h => (c1 h).elim))
    · exact ih _ _ hall2 (keep (fun _ h => (c2 h).elim) (fun _ _ => c2))
    · refine ih _ _ hall2 (keep ?_ ?_)
      · intro _ _
        rw [← c3] at i3
        simp only at i3
        exact le_of_eq i3.2.1
      · intro h
        rw [h] at c3
        simp at c3
    · -- a new best rule
      have ht : ap.type = e_action.REDUCE := by simpa using c1
      have hs : (ruleAt lemp.rule ap.x).lhsStart = 0 := by simpa using c2
      rw [countSame_eq _ _ _ _ c3] at c4 ⊢
      have hsplit := reduceCount_split pre rest ap ht
      rw [hall] at hsplit
      have hpre : reduceCount ap.x pre = 0 := by
        by_contra hne
        have : ∃ a ∈ pre, a.type = e_action.REDUCE ∧ a.x = ap.x := by
          by_contra hno
          exact hne (reduceCount_zero hno)
        obtain ⟨a, ha, h1, h2⟩ := this
        have := i2 a ha h1 (by rw [h2]; exact hs)
        rw [h2] at this
        omega
      apply ih _ _ hall2
      refine ⟨u1, ?_, ?_⟩
      · intro a ha h1 h2
        simp at ha
        simp only
        rcases ha with ha | rfl
        · have := i2 a ha h1 h2
          omega
        · omega
      · simp only
        refine ⟨hs, by omega, ap, by simp, ht, rfl⟩
    · have ht : ap.type = e_action.REDUCE := by simpa using c1
      have hs : (ruleAt lemp.rule ap.x).lhsStart = 0 := by simpa using c2
      rw [countSame_eq _ _ _ _ c3] at c4
      have hsplit := reduceCount_split pre rest ap ht
      rw [hall] at hsplit
      refine ih _ _ hall2 (keep ?_ ?_)
      · intro _ _
        by_cases hpre : ∃ a ∈ pre, a.type = e_action.REDUCE ∧ a.x = ap.x
        · obtain ⟨a, ha, h1, h2⟩ := hpre
          have := i2 a ha h1 (by rw [h2]; exact hs)
          rw [h2] at this
          exact this
        · have := reduceCount_zero hpre
          omega
      · intro h
        rw [h] at i3
        simp only at i3
        omega

theorem bestRule_spec (lemp : lemon) (aps : List action) :
    BestInv lemp aps aps (bestRule lemp aps (0, none, 0)) := by
  apply bestRule_inv lemp aps aps [] _ rfl
  refine ⟨by simp, by simp, ?_⟩
  simp

/-- What the stand-alone selection `defaultRule` returns: a rule with the most `REDUCE`
actions among those whose left-hand side is not the start symbol, or nothing. -/
theorem defaultRule_spec (lemp : lemon) (aps : List action) :
    (defaultRule lemp aps = none ↔
      (∀ a ∈ aps, a.type = e_action.REDUCE → (ruleAt lemp.rule a.x).lhsStart ≠ 0) ∨
      ∃ a ∈ aps, a.type = e_action.SHIFT ∧ some a.sp = lemp.wildcard) ∧
    (∀ r, defaultRule lemp aps = some r →
      (ruleAt lemp.rule r).lhsStart = 0 ∧ 1 ≤ reduceCount r aps ∧
      ∀ r1, (ruleAt lemp.rule r1).lhsStart = 0 → reduceCount r1 aps ≤ reduceCount r aps) := by
  have h := bestRule_spec lemp aps
  unfold defaultRule
  generalize bestRule lemp aps (0, none, 0) = st at h
  obtain ⟨nbest, rbest, uses⟩ := st
  obtain ⟨i1, i2, i3⟩ := h
  simp only at i1 i2 i3 ⊢
  have hmax : ∀ r1, (ruleAt lemp.rule r1).lhsStart = 0 → (reduceCount r1 aps : Int) ≤ nbest := by
    intro r1 h1
    by_cases hex : ∃ a ∈ aps, a.type = e_action.REDUCE ∧ a.x = r1
    · obtain ⟨a, ha, h2, h3⟩ := hex
      have := i2 a ha h2 (by rw [h3]; exact h1)
      rw [h3] at this
      exact this
    · rw [reduceCount_zero hex]
      cases rbest with
      | none => simp only at i3; omega
      | some r => simp only at i3; omega
  constructor
  · constructor
    · intro hd
      by_cases hu : uses ≠ 0
      · exact Or.inr (i1.1 hu)
      · left
        cases rbest with
        | none => exact i3.2
        | some r =>
          simp only at i3
          rw [if_neg] at hd
          · simp at hd
          · push_neg
            have := reduceCount_pos i3.2.2
            push_neg at hu
            exact ⟨by omega, hu⟩
    · rintro (hno | hw)
      · have : nbest < 1 := by
          cases rbest with
          | none => simp only at i3; omega
          | some r =>
            simp only at i3
            obtain ⟨j1, -, a, ha, j3, j4⟩ := i3
            exact ((hno a ha j3) (by rw [j4]; exact j1)).elim
        rw [if_pos (Or.inl this)]
      · rw [if_pos (Or.inr (i1.2 hw))]
  · intro r hr
    split_ifs at hr with hc
    subst hr
    simp only at i3
    obtain ⟨j1, j2, j3⟩ := i3
    refine ⟨j1, reduceCount_pos j3, fun r1 h1 => ?_⟩
    have := hmax r1 h1
    omega

theorem msortCarry_eq_carryBy {α : Type} (cmp : α → α → Int) (ep : List α) (n : Nat)
    (set : List (List α)) : msortCarry cmp ep n set = carryBy (merge cmp) ep n set := by
  induction n generalizing ep set with
  | zero =>
    cases set with
    | nil => simp [msortCarry, carryBy]
    | cons b rest => simp [msortCarry, carryBy]
  | succ n ih =>
    cases set with
    | nil => simp [msortCarry, carryBy]
    | cons b rest =>
      cases b with
      | nil => simp [msortCarry, carryBy]
      | cons y s => simp [msortCarry, carryBy, ih]

theorem mergeLoop_perm {α : Type} (cmp : α → α → Int) (n : Nat) (a b : List α) :
    (mergeLoop cmp n a b).Perm (a ++ b) := by
  induction n generalizing a b with
  | zero => simp [mergeLoop]
  | succ n ih =>
    cases a with
    | nil => simp [mergeLoop]
    | cons x a =>
      cases b with
      | nil => simp [mergeLoop]
      | cons y b =>
        simp only [mergeLoop]
        split_ifs
        · exact (ih a (y :: b)).cons x
        · refine ((ih (x :: a) b).cons y).trans ?_
          exact (List.perm_middle : ((x :: a) ++ y :: b).Perm (y :: ((x :: a) ++ b))).symm

theorem merge_perm {α : Type} (cmp : α → α → Int) (a b : List α) :
    (merge cmp a b).Perm (a ++ b) :=
  mergeLoop_perm cmp _ a b

theorem sized_tail {α : Type} {k : Nat} {b : List α} {rest : List (List α)}
    (h : Sized k (b :: rest)) : Sized (k + 1) rest := by
  intro j c hj
  have := h (j + 1) c (by simpa using hj)
  rw [show k + 1 + j = k + (j + 1) by omega]
  exact this

theorem sized_cons {α : Type} {k : Nat} {b : List α} {rest : List (List α)}
    (hb : b = [] ∨ b.length = 2 ^ k) (h : Sized (k + 1) rest) : Sized k (b :: rest) := by
  intro j c hj
  cases j with
  | zero =>
    simp at hj
    subst hj
    simpa using hb
  | succ j =>
    have := h j c (by simpa using hj)
    rw [show k + (j + 1) = k + 1 + j by omega]
    exact this

theorem carryBy_perm {α : Type} (m : List α → List α → List α)
    (hm : ∀ a b, (m a b).Perm (a ++ b)) (n : Nat) (k : Nat) (ep : List α)
    (set : List (List α)) (hlen : set.length = n + 1) (hep : ep.length = 2 ^ k)
    (hs : Sized k set) (htot : ep.length + set.flatten.length < 2 ^ (k + n + 1)) :
    (carryBy m ep n set).flatten.Perm (ep ++ set.flatten) ∧ Sized k (carryBy m ep n set) ∧
      (carryBy m ep n set).length = n + 1 := by
  induction n generalizing k ep set with
  | zero =>
    cases set with
    | nil => simp at hlen
    | cons b rest =>
      have hr : rest = [] := List.length_eq_zero.1 (by simpa using hlen)
      subst hr
      have hb : b = [] := by
        rcases hs 0 b (by simp) with h | h
        · exact h
        · simp at h
          simp [h, hep] at htot
          rw [pow_succ] at htot
          omega
      subst hb
      simp only [carryBy]
      refine ⟨by simp, sized_cons (Or.inr hep) (fun j c hj => by simp at hj), by simp⟩
  | succ n ih =>
    cases set with
    | nil => simp at hlen
    | cons b rest =>
      cases b with
      | nil =>
        simp only [carryBy]
        refine ⟨by simp, sized_cons (Or.inr hep) (sized_tail hs), by simpa using hlen⟩
      | cons y s =>
        simp only [carryBy]
        have hb : (y :: s).length = 2 ^ k := by
          rcases hs 0 (y :: s) (by simp) with h | h
          · simp at h
          · simpa using h
        have hml : (m ep (y :: s)).length = 2 ^ (k + 1) := by
          rw [(hm ep (y :: s)).length_eq, List.length_append, hep, hb, pow_succ]
          omega
        obtain ⟨p1, p2, p3⟩ := ih (k + 1) (m ep (y :: s)) rest (by simpa using hlen) hml
          (sized_tail hs) (by
            rw [(hm ep (y :: s)).length_eq, List.length_append]
            simp only [List.flatten_cons, List.length_append] at htot
            rw [show k + 1 + n + 1 = k + (n + 1) + 1 by omega]
            omega)
        refine ⟨?_, sized_cons (Or.inl rfl) p2, by simpa using p3⟩
        simp only [List.flatten_cons, List.nil_append]
        refine p1.trans ?_
        refine ((hm ep (y :: s)).append_right _).trans ?_
        simp

theorem flatten_replicate_nil {α : Type} (n : Nat) :
    (List.replicate n ([] : List α)).flatten = [] := by
  induction n with
  | zero => rfl
  | succ n ih => simp [List.replicate_succ, ih]

theorem sized_replicate_nil {α : Type} (k n : Nat) :
    Sized k (List.replicate n ([] : List α)) := by
  intro j b hj
  left
  have := List.getElem?_mem hj
  exact (List.mem_replicate.1 this).2

theorem msortFill_perm {α : Type} (cmp : α → α → Int) (list : List α) (set : List (List α))
    (hlen : set.length = 30) (hs : Sized 0 set)
    (htot : list.length + set.flatten.length < 2 ^ 30) :
    (msortFill cmp list set).flatten.Perm (list ++ set.flatten) := by
  induction list generalizing set with
  | nil => simp [msortFill]
  | cons e rest ih =>
    simp only [msortFill]
    rw [msortCarry_eq_carryBy]
    obtain ⟨p1, p2, p3⟩ := carryBy_perm (merge cmp) (merge_perm cmp) 29 0 [e] set
      (by simpa using hlen) (by simp) hs (by
        simp only [List.length_cons, List.length_nil] at htot ⊢
        omega)
    refine (ih _ (by simpa using p3) p2 (by
      rw [p1.length_eq]
      simp only [List.length_cons, List.length_append, List.length_nil] at htot ⊢
      omega)).trans ?_
    refine (p1.append_left rest).trans ?_
    simp only [List.singleton_append]
    exact List.perm_middle

theorem foldl_merge_perm {α : Type} (cmp : α → α → Int) (set : List (List α)) (ep : List α) :
    (set.foldl (fun ep s => match s with
      | [] => ep
      | y :: t => merge cmp (y :: t) ep) ep).Perm (set.flatten ++ ep) := by
  induction set generalizing ep with
  | nil => simp
  | cons b rest ih =>
    simp only [List.foldl_cons, List.flatten_cons]
    cases b with
    | nil => simpa using ih ep
    | cons y t =>
      refine (ih _).trans ?_
      refine ((merge_perm cmp (y :: t) ep).append_left _).trans ?_
      rw [← List.append_assoc]
      exact (List.perm_append_comm : (rest.flatten ++ (y :: t)).Perm ((y :: t) ++ rest.flatten)).append_right ep

theorem msort_perm {α : Type} (cmp : α → α → Int) (list : List α)
    (h : list.length < 2 ^ 30) : (msort cmp list).Perm list := by
  unfold msort
  refine (foldl_merge_perm cmp _ []).trans ?_
  simp only [List.append_nil]
  refine (msortFill_perm cmp list _ (by simp) (sized_replicate_nil 0 30) (by
    rw [flatten_replicate_nil]
    simpa using h)).trans ?_
  rw [flatten_replicate_nil]
  simp

theorem Rule_carry_eq_carryBy (rp : List rule) (n : Nat) (x : List (List rule)) :
    Rule_carry rp n x = carryBy (fun ep b => Rule_merge b ep) rp n x := by
  induction n generalizing rp x with
  | zero =>
    cases x with
    | nil => simp [Rule_carry, carryBy]
    | cons b rest => simp [Rule_carry, carryBy]
  | succ n ih =>
    cases x with
    | nil => simp [Rule_carry, carryBy]
    | cons b rest =>
      cases b with
      | nil => simp [Rule_carry, carryBy]
      | cons y s => simp [Rule_carry, carryBy, ih]

theorem Rule_mergeLoop_perm (n : Nat) (a b : List rule) :
    (Rule_mergeLoop n a b).Perm (a ++ b) := by
  induction n generalizing a b with
  | zero => simp [Rule_mergeLoop]
  | succ n ih =>
    cases a with
    | nil => simp [Rule_mergeLoop]
    | cons x a =>
      cases b with
      | nil => simp [Rule_mergeLoop]
      | cons y b =>
        simp only [Rule_mergeLoop]
        split_ifs
        · exact (ih a (y :: b)).cons x
        · refine ((ih (x :: a) b).cons y).trans ?_
          exact (List.perm_middle : ((x :: a) ++ y :: b).Perm (y :: ((x :: a) ++ b))).symm

theorem Rule_merge_perm (a b : List rule) : (Rule_merge a b).Perm (a ++ b) :=
  Rule_mergeLoop_perm _ a b

theorem Rule_mergeLoop_sorted (n : Nat) (a b : List rule)
    (ha : a.Pairwise (fun r s => r.iRule ≤ s.iRule))
    (hb : b.Pairwise (fun r s => r.iRule ≤ s.iRule))
    (hn : a.length + b.length ≤ n) :
    (Rule_mergeLoop n a b).Pairwise (fun r s => r.iRule ≤ s.iRule) := by
  induction n generalizing a b with
  | zero =>
    have h1 : a = [] := List.length_eq_zero.1 (by omega)
    have h2 : b = [] := List.length_eq_zero.1 (by omega)
    subst h1 h2
    simp [Rule_mergeLoop]
  | succ n ih =>
    cases a with
    | nil => simpa [Rule_mergeLoop] using hb
    | cons x a =>
      cases b with
      | nil => simpa [Rule_mergeLoop] using ha
      | cons y b =>
        simp only [Rule_mergeLoop]
        rw [List.pairwise_cons] at ha hb
        simp only [List.length_cons] at hn
        split_ifs with hc
        · rw [List.pairwise_cons]
          refine ⟨?_, ih a (y :: b) ha.2 (List.pairwise_cons.2 hb) (by simp; omega)⟩
          intro z hz
          have hz2 := (Rule_mergeLoop_perm n a (y :: b)).subset hz
          rcases List.mem_append.1 hz2 with hz3 | hz3
          · exact ha.1 z hz3
          · rcases List.mem_cons.1 hz3 with rfl | hz4
            · omega
            · have := hb.1 z hz4
              omega
        · rw [List.pairwise_cons]
          refine ⟨?_, ih (x :: a) b (List.pairwise_cons.2 ha) hb.2 (by simp; omega)⟩
          intro z hz
          have hz2 := (Rule_mergeLoop_perm n (x :: a) b).subset hz
          rcases List.mem_append.1 hz2 with hz3 | hz3
          · rcases List.mem_cons.1 hz3 with rfl | hz4
            · omega
            · have := ha.1 z hz4
              omega
          · exact hb.1 z hz3

theorem Rule_merge_sorted (a b : List rule)
    (ha : a.Pairwise (fun r s => r.iRule ≤ s.iRule))
    (hb : b.Pairwise (fun r s => r.iRule ≤ s.iRule)) :
    (Rule_merge a b).Pairwise (fun r s => r.iRule ≤ s.iRule) :=
  Rule_mergeLoop_sorted _ a b ha hb (le_refl _)

theorem Rule_carry_sorted (rp : List rule) (n : Nat) (x : List (List rule))
    (hrp : rp.Pairwise (fun r s => r.iRule ≤ s.iRule))
    (hx : ∀ b ∈ x, b.Pairwise (fun r s => r.iRule ≤ s.iRule)) :
    ∀ b ∈ Rule_carry rp n x, b.Pairwise (fun r s => r.iRule ≤ s.iRule) := by
  induction n generalizing rp x with
  | zero =>
    cases x with
    | nil => simp [Rule_carry]
    | cons b rest =>
      simp only [Rule_carry]
      intro c hc
      rcases List.mem_cons.1 hc with rfl | hc
      · exact hrp
      · exact hx c (by simp [hc])
  | succ n ih =>
    cases x with
    | nil => simp [Rule_carry]
    | cons b rest =>
      cases b with
      | nil =>
        simp only [Rule_carry]
        intro c hc
        rcases List.mem_cons.1 hc with rfl | hc
        · exact hrp
        · exact hx c (by simp [hc])
      | cons y s =>
        simp only [Rule_carry]
        intro c hc
        rcases List.mem_cons.1 hc with rfl | hc
        · simp
        · exact ih _ rest (Rule_merge_sorted _ _ (hx _ (by simp)) hrp)
            (fun b hb => hx b (by simp [hb])) c hc

theorem Rule_fill_sorted (l : List rule) (x : List (List rule))
    (hx : ∀ b ∈ x, b.Pairwise (fun r s => r.iRule ≤ s.iRule)) :
    ∀ b ∈ Rule_fill l x, b.Pairwise (fun r s => r.iRule ≤ s.iRule) := by
  induction l generalizing x with
  | nil => simpa [Rule_fill] using hx
  | cons rp rest ih =>
    simp only [Rule_fill]
    exact ih _ (Rule_carry_sorted [rp] 31 x (by simp) hx)

theorem Rule_fold_sorted (x : List (List rule)) (rp : List rule)
    (hx : ∀ b ∈ x, b.Pairwise (fun r s => r.iRule ≤ s.iRule))
    (hrp : rp.Pairwise (fun r s => r.iRule ≤ s.iRule)) :
    (x.foldl (fun rp b => Rule_merge b rp) rp).Pairwise (fun r s => r.iRule ≤ s.iRule) := by
  induction x generalizing rp with
  | nil => simpa using hrp
  | cons b rest ih =>
    simp only [List.foldl_cons]
    exact ih _ (fun c hc => hx c (by simp [hc]))
      (Rule_merge_sorted _ _ (hx b (by simp)) hrp)

theorem Rule_sort_sorted (l : List rule) :
    (Rule_sort l).Pairwise (fun r s => r.iRule ≤ s.iRule) := by
  unfold Rule_sort
  apply Rule_fold_sorted _ _ _ (by simp)
  apply Rule_fill_sorted
  intro b hb
  rw [(List.mem_replicate.1 hb).2]
  simp

theorem Rule_fill_perm (l : List rule) (x : List (List rule))
    (hlen : x.length = 32) (hs : Sized 0 x)
    (htot : l.length + x.flatten.length < 2 ^ 32) :
    (Rule_fill l x).flatten.Perm (l ++ x.flatten) := by
  induction l generalizing x with
  | nil => simp [Rule_fill]
  | cons e rest ih =>
    simp only [Rule_fill]
    rw [Rule_carry_eq_carryBy]
    obtain ⟨p1, p2, p3⟩ := carryBy_perm (fun ep b => Rule_merge b ep)
      (fun a b => (Rule_merge_perm b a).trans List.perm_append_comm) 31 0 [e] x
      (by simpa using hlen) (by simp) hs (by
        simp only [List.length_cons, List.length_nil] at htot ⊢
        omega)
    refine (ih _ (by simpa using p3) p2 (by
      rw [p1.length_eq]
      simp only [List.length_cons, List.length_append, List.length_nil] at htot ⊢
      omega)).trans ?_
    refine (p1.append_left rest).trans ?_
    simp only [List.singleton_append]
    exact List.perm_middle

theorem Rule_fold_perm (x : List (List rule)) (rp : List rule) :
    (x.foldl (fun rp b => Rule_merge b rp) rp).Perm (x.flatten ++ rp) := by
  induction x generalizing rp with
  | nil => simp
  | cons b rest ih =>
    simp only [List.foldl_cons, List.flatten_cons]
    refine (ih _).trans ?_
    refine ((Rule_merge_perm b rp).append_left _).trans ?_
    rw [← List.append_assoc]
    exact (List.perm_append_comm : (rest.flatten ++ b).Perm (b ++ rest.flatten)).append_right rp

theorem Rule_sort_perm (l : List rule) (h : l.length < 2 ^ 32) : (Rule_sort l).Perm l := by
  unfold Rule_sort
  refine (Rule_fold_perm _ []).trans ?_
  simp only [List.append_nil]
  refine (Rule_fill_perm l _ (by simp) (sized_replicate_nil 0 32) (by
    rw [flatten_replicate_nil]
    simpa using h)).trans ?_
  rw [flatten_replicate_nil]
  simp

theorem codedCount_take_succ (rules : List rule) (j : Nat) (rp : rule)
    (h : rules[j]? = some rp) :
    codedCount (rules.take (j + 1)) =
        codedCount (rules.take j) + (if rp.code ≠ none then 1 else 0) ∧
      uncodedCount (rules.take (j + 1)) =
        uncodedCount (rules.take j) + (if rp.code = none then 1 else 0) := by
  unfold codedCount uncodedCount
  rw [List.take_succ, h]
  simp [List.countP_append, List.countP_cons]

theorem counts_take_mono (rules : List rule) (j1 j2 : Nat) (h : j1 ≤ j2) :
    codedCount (rules.take j1) ≤ codedCount (rules.take j2) ∧
      uncodedCount (rules.take j1) ≤ uncodedCount (rules.take j2) := by
  have hs : (rules.take j1).Sublist (rules.take j2) := by
    have : rules.take j1 = (rules.take j2).take j1 := by
      rw [List.take_take, Nat.min_eq_left h]
    rw [this]
    exact List.take_sublist _ _
  exact ⟨hs.countP_le _, hs.countP_le _⟩

theorem counts_take_le (rules : List rule) (j : Nat) :
    codedCount (rules.take j) ≤ codedCount rules ∧
      uncodedCount (rules.take j) ≤ uncodedCount rules :=
  ⟨(List.take_sublist j rules).countP_le _, (List.take_sublist j rules).countP_le _⟩

theorem counts_total (rules : List rule) :
    codedCount rules + uncodedCount rules = rules.length := by
  induction rules with
  | nil => simp [codedCount, uncodedCount]
  | cons rp rest ih =>
    have e1 : codedCount (rp :: rest) = codedCount rest + (if rp.code ≠ none then 1 else 0) := by
      unfold codedCount
      rw [List.countP_cons]
      simp
    have e2 : uncodedCount (rp :: rest) =
        uncodedCount rest + (if rp.code = none then 1 else 0) := by
      unfold uncodedCount
      rw [List.countP_cons]
      simp
    rw [e1, e2, List.length_cons]
    by_cases h : rp.code = none
    · rw [if_neg (by simpa using h), if_pos h]
      omega
    · rw [if_pos h, if_neg h]
      omega

theorem numberPasses_spec (rules : List rule) (i k : Int) (hi : 0 ≤ i) :
    (numberCoded rules i).2 = i + (codedCount rules : Int) ∧
    (numberUncoded (numberCoded rules i).1 k).1.length = rules.length ∧
    ∀ (j : Nat) (rp : rule), rules[j]? = some rp →
      (numberUncoded (numberCoded rules i).1 k).1[j]? =
        some { rp with
          iRule := if rp.code ≠ none then i + (codedCount (rules.take j) : Int)
            else k + (uncodedCount (rules.take j) : Int) } := by
  induction rules generalizing i k with
  | nil => simp [numberCoded, numberUncoded, codedCount]
  | cons r rest ih =>
    by_cases hc : r.code ≠ none
    · obtain ⟨a1, a2, a3⟩ := ih (i + 1) k (by omega)
      have e1 : numberCoded (r :: rest) i =
          ({ r with iRule := i } :: (numberCoded rest (i + 1)).1,
            (numberCoded rest (i + 1)).2) := by
        simp [numberCoded, hc]
      have e2 : numberUncoded ({ r with iRule := i } :: (numberCoded rest (i + 1)).1) k =
          ({ r with iRule := i } :: (numberUncoded (numberCoded rest (i + 1)).1 k).1,
            (numberUncoded (numberCoded rest (i + 1)).1 k).2) := by
        simp [numberUncoded, not_lt.mpr hi]
      rw [e1]
      simp only
      rw [e2]
      refine ⟨?_, by simp [a2], ?_⟩
      · rw [a1]
        unfold codedCount
        rw [List.countP_cons]
        simp [hc]
        ring
      · intro j rp hj
        cases j with
        | zero =>
          simp at hj
          subst hj
          simp [hc, codedCount]
        | succ j =>
          simp only [List.getElem?_cons_succ] at hj ⊢
          rw [a3 j rp hj]
          simp only [List.take_succ_cons]
          unfold codedCount uncodedCount
          rw [List.countP_cons, List.countP_cons]
          simp [hc]
          split_ifs <;> ring
    · obtain ⟨a1, a2, a3⟩ := ih i (k + 1) hi
      have e1 : numberCoded (r :: rest) i =
          ({ r with iRule := -1 } :: (numberCoded rest i).1, (numberCoded rest i).2) := by
        simp [numberCoded, hc]
      have e2 : numberUncoded ({ r with iRule := -1 } :: (numberCoded rest i).1) k =
          ({ r with iRule := k } :: (numberUncoded (numberCoded rest i).1 (k + 1)).1,
            (numberUncoded (numberCoded rest i).1 (k + 1)).2) := by
        simp [numberUncoded]
      rw [e1]
      simp only
      rw [e2]
      refine ⟨?_, by simp [a2], ?_⟩
      · rw [a1]
        unfold codedCount
        rw [List.countP_cons]
        simp [hc]
      · intro j rp hj
        cases j with
        | zero =>
          simp at hj
          subst hj
          simp [hc, uncodedCount]
        | succ j =>
          simp only [List.getElem?_cons_succ] at hj ⊢
          rw [a3 j rp hj]
          simp only [List.take_succ_cons]
          unfold codedCount uncodedCount
          rw [List.countP_cons, List.countP_cons]
          have hc2 : r.code = none := by simpa using hc
          simp [hc2]
          split_ifs <;> ring

theorem ruleNumber_of (rules : List rule) (j : Nat) (rp : rule) (h : rules[j]? = some rp) :
    ruleNumber rules j =
      if rp.code ≠ none then (codedCount (rules.take j) : Int)
      else (codedCount rules : Int) + (uncodedCount (rules.take j) : Int) := by
  simp [ruleNumber, h]

theorem ruleNumber_props (rules : List rule) :
    (∀ j, j < rules.length →
      0 ≤ ruleNumber rules j ∧ ruleNumber rules j < (rules.length : Int)) ∧
    (∀ (j1 j2 : Nat) (r1 r2 : rule), rules[j1]? = some r1 → rules[j2]? = some r2 →
      r1.code ≠ none → r2.code = none → ruleNumber rules j1 < ruleNumber rules j2) ∧
    (∀ (j1 j2 : Nat) (r1 r2 : rule), rules[j1]? = some r1 → rules[j2]? = some r2 →
      j1 < j2 → (r1.code = none ↔ r2.code = none) →
      ruleNumber rules j1 < ruleNumber rules j2) := by
  have htot := counts_total rules
  have key : ∀ (j : Nat) (rp : rule), rules[j]? = some rp →
      (rp.code ≠ none → codedCount (rules.take j) < codedCount rules) ∧
      (rp.code = none → uncodedCount (rules.take j) < uncodedCount rules) := by
    intro j rp hj
    have h1 := codedCount_take_succ rules j rp hj
    have h2 := counts_take_le rules (j + 1)
    constructor
    · intro hc
      rw [if_pos hc] at h1
      omega
    · intro hc
      rw [if_pos hc] at h1
      omega
  refine ⟨?_, ?_, ?_⟩
  · intro j hj
    have hjs : rules[j]? = some rules[j] := List.getElem?_eq_getElem hj
    rw [ruleNumber_of rules j _ hjs]
    have k := key j _ hjs
    split_ifs with hc
    · have := k.1 hc
      omega
    · have := k.2 (by simpa using hc)
      omega
  · intro j1 j2 r1 r2 h1 h2 c1 c2
    rw [ruleNumber_of rules j1 r1 h1, ruleNumber_of rules j2 r2 h2, if_pos c1,
      if_neg (by simpa using c2)]
    have := (key j1 r1 h1).1 c1
    omega
  · intro j1 j2 r1 r2 h1 h2 hlt hsame
    rw [ruleNumber_of rules j1 r1 h1, ruleNumber_of rules j2 r2 h2]
    have s1 := codedCount_take_succ rules j1 r1 h1
    have m := counts_take_mono rules (j1 + 1) j2 (by omega)
    by_cases c1 : r1.code = none
    · have c2 := hsame.1 c1
      rw [if_neg (by simpa using c1), if_neg (by simpa using c2)]
      rw [if_pos c1] at s1
      omega
    · have c2 : r2.code ≠ none := fun h => c1 (hsame.2 h)
      rw [if_pos c1, if_pos c2]
      rw [if_pos c1] at s1
      omega

theorem ruleNumber_injective (rules : List rule) (j1 j2 : Nat) (h1 : j1 < rules.length)
    (h2 : j2 < rules.length) (h : ruleNumber rules j1 = ruleNumber rules j2) : j1 = j2 := by
  obtain ⟨-, p2, p3⟩ := ruleNumber_props rules
  have e1 : rules[j1]? = some rules[j1] := List.getElem?_eq_getElem h1
  have e2 : rules[j2]? = some rules[j2] := List.getElem?_eq_getElem h2
  by_contra hne
  by_cases c1 : rules[j1].code = none <;> by_cases c2 : rules[j2].code = none
  · rcases Nat.lt_or_gt_of_ne hne with hlt | hlt
    · have := p3 j1 j2 _ _ e1 e2 hlt (by simp [c1, c2])
      omega
    · have := p3 j2 j1 _ _ e2 e1 hlt (by simp [c1, c2])
      omega
  · have := p2 j2 j1 _ _ e2 e1 c2 c1
    omega
  · have := p2 j1 j2 _ _ e1 e2 c1 c2
    omega
  · rcases Nat.lt_or_gt_of_ne hne with hlt | hlt
    · have := p3 j1 j2 _ _ e1 e2 hlt (by simp [c1, c2])
      omega
    · have := p3 j2 j1 _ _ e2 e1 hlt (by simp [c1, c2])
      omega

theorem ruleNumber_perm (rules : List rule) :
    ((List.range rules.length).map (ruleNumber rules)).Perm
      ((List.range rules.length).map (fun (k : Nat) => (k : Int))) := by
  obtain ⟨p1, -, -⟩ := ruleNumber_props rules
  apply List.Subperm.perm_of_length_le
  · apply List.subperm_of_subset
    · rw [List.nodup_map_iff_inj_on (List.nodup_range _)]
      intro x hx y hy hxy
      exact ruleNumber_injective rules x y (List.mem_range.1 hx) (List.mem_range.1 hy) hxy
    · intro v hv
      obtain ⟨j, hj, rfl⟩ := List.mem_map.1 hv
      have := p1 j (List.mem_range.1 hj)
      refine List.mem_map.2 ⟨(ruleNumber rules j).toNat, List.mem_range.2 (by omega), ?_⟩
      omega
  · simp

/-- C17: for a rule list of fewer than `2^31` rules (the range of the `int` counter),
the two numbering passes of `main` give the rule at position `j` of the input the number
`ruleNumber rules j`: these numbers lie in `[0, nrule)` and are pairwise different, every
rule with action code has a smaller number than every rule without, and inside each of
the two groups the numbers grow with the input position; `Rule_sort` returns a
permutation of the numbered rules in which the `k`-th rule has `iRule = k`.  The second
component is `nruleWithAction`. -/
theorem main_rule_numbers (rules : List rule) (hlen : rules.length < 2 ^ 31) :
    (numberRules rules).2 = (codedCount rules : Int) ∧
    (numberRules rules).1.length = rules.length ∧
    (∃ N : List rule, (numberRules rules).1.Perm N ∧ N.length = rules.length ∧
      ∀ (j : Nat) (rp : rule), rules[j]? = some rp →
        N[j]? = some { rp with iRule := ruleNumber rules j }) ∧
    (∀ (k : Nat) (r : rule), (numberRules rules).1[k]? = some r → r.iRule = (k : Int)) ∧
    (∀ j, j < rules.length →
      0 ≤ ruleNumber rules j ∧ ruleNumber rules j < (rules.length : Int)) ∧
    (∀ j1 j2, j1 < rules.length → j2 < rules.length →
      ruleNumber rules j1 = ruleNumber rules j2 → j1 = j2) ∧
    (∀ (j1 j2 : Nat) (r1 r2 : rule), rules[j1]? = some r1 → rules[j2]? = some r2 →
      r1.code ≠ none → r2.code = none → ruleNumber rules j1 < ruleNumber rules j2) ∧
    (∀ (j1 j2 : Nat) (r1 r2 : rule), rules[j1]? = some r1 → rules[j2]? = some r2 →
      j1 < j2 → (r1.code = none ↔ r2.code = none) →
      ruleNumber rules j1 < ruleNumber rules j2) := by
  obtain ⟨a1, a2, a3⟩ := numberPasses_spec rules 0 (numberCoded rules 0).2 (le_refl _)
  have hk : (numberCoded rules 0).2 = (codedCount rules : Int) := by simpa using a1
  obtain ⟨p1, p2, p3⟩ := ruleNumber_props rules
  have hN : ∀ (j : Nat) (rp : rule), rules[j]? = some rp →
      (numberUncoded (numberCoded rules 0).1 (numberCoded rules 0).2).1[j]? =
        some { rp with iRule := ruleNumber rules j } := by
    intro j rp hj
    rw [a3 j rp hj, ruleNumber_of rules j rp hj, hk]
    simp
  have hperm := Rule_sort_perm (numberUncoded (numberCoded rules 0).1 (numberCoded rules 0).2).1
    (by rw [a2]; exact lt_trans hlen (by norm_num))
  have hout : (numberRules rules).1.length = rules.length := by
    unfold numberRules
    simp only
    rw [hperm.length_eq, a2]
  refine ⟨hk, hout, ⟨_, hperm, a2, hN⟩, ?_, p1,
    fun j1 j2 h1 h2 h => ruleNumber_injective rules j1 j2 h1 h2 h, p2, p3⟩
  have hmap : ((numberUncoded (numberCoded rules 0).1 (numberCoded rules 0).2).1.map
      (fun r => r.iRule)) = (List.range rules.length).map (ruleNumber rules) := by
    apply List.ext_getElem?
    intro j
    by_cases hj : j < rules.length
    · rw [List.getElem?_map, hN j _ (List.getElem?_eq_getElem hj)]
      simp [List.getElem?_range hj]
    · rw [List.getElem?_eq_none (by simp [a2]; omega),
        List.getElem?_eq_none (by simp; omega)]
  have hsorted : ((numberRules rules).1.map (fun r => r.iRule)).Sorted (· ≤ ·) := by
    unfold numberRules
    simp only
    exact List.pairwise_map.2 (Rule_sort_sorted _)
  have hperm2 : ((numberRules rules).1.map (fun r => r.iRule)).Perm
      ((List.range rules.length).map (fun (k : Nat) => (k : Int))) := by
    unfold numberRules
    simp only
    refine (hperm.map _).trans ?_
    rw [hmap]
    exact ruleNumber_perm rules
  have hsorted2 : ((List.range rules.length).map (fun (k : Nat) => (k : Int))).Sorted (· ≤ ·) := by
    apply List.pairwise_map.2
    exact (List.pairwise_lt_range _).imp (fun h => by omega)
  have heq := List.eq_of_perm_of_sorted hperm2 hsorted hsorted2
  intro k r hk2
  have hklt : k < rules.length := by
    rw [← hout]
    exact lt_of_getElem?_some hk2
  have : ((numberRules rules).1.map (fun r => r.iRule))[k]? = some r.iRule := by
    rw [List.getElem?_map, hk2]
    rfl
  rw [heq, List.getElem?_map, List.getElem?_range hklt] at this
  simp at this
  omega

/-- The example: the rules with code get 0 and 1, those without get 2 and 3, and the
sorted list has `iRule = 0, 1, 2, 3` with the original rules 1, 3, 0, 2. -/
theorem main_rule_numbers_witness :
    ((numberRules numberExample).1.map (fun r => (r.index, r.iRule)),
        (numberRules numberExample).2) = ([(1, 0), (3, 1), (0, 2), (2, 3)], 2) ∧
    ∀ (k : Nat) (r : rule), (numberRules numberExample).1[k]? = some r → r.iRule = (k : Int) :=
  ⟨by decide, (main_rule_numbers numberExample (by decide)).2.2.2.1⟩

set_option maxRecDepth 100000 in
/-- C19 on the grammar `start ::= .`: the sentinel `$` has index 0 and `{default}` is
`symbols[nsymbol]`, but `nterminal` is 0, not 1. -/
theorem main_nterminal_without_terminals :
    (indexSymbols noTerminalStore).map
        (fun r => (r.1.map (fun s => (s.name, s.index)), r.2)) =
      some ([("$", 0), ("start", 1), ("{default}", 2)], 2, 0) := by
  decide

theorem SetAdd_zero {size : Nat} {f f2 : List Bool} {e c : Int}
    (h : SetAdd size f e = some (c, f2)) :
    0 ≤ c ∧ f2.length = f.length ∧
      (c = 0 → f2 = f ∧ 0 ≤ e ∧ f.getD e.toNat false = true) := by
  unfold SetAdd at h
  split_ifs at h with hc
  cases hg : f[e.toNat]? with
  | none => simp [hg] at h
  | some rv =>
    simp only [hg, Option.some.injEq, Prod.mk.injEq] at h
    obtain ⟨h1, h2⟩ := h
    subst h1 h2
    refine ⟨by split_ifs <;> simp, by simp, ?_⟩
    intro h0
    have hrv : rv = true := by
      by_contra hne
      simp [hne] at h0
    subst hrv
    refine ⟨?_, hc.1, by simp [List.getD, hg]⟩
    apply List.ext_getElem?
    intro i
    by_cases hi : e.toNat = i
    · subst hi
      rw [List.getElem?_set_self (lt_of_getElem?_some hg), hg]
    · rw [List.getElem?_set_ne hi]

theorem SetUnion_loop_zero (s2 : List Bool) (c i : Nat) (pr : Int) (s1 : List Bool)
    (pr1 : Int) (s3 : List Bool) (h : SetUnion_loop s2 c i pr s1 = some (pr1, s3))
    (hpr : 0 ≤ pr) :
    0 ≤ pr1 ∧ s3.length = s1.length ∧
      (pr1 = 0 → s3 = s1 ∧
        ∀ t, i ≤ t → t < i + c → s2.getD t false = true → s1.getD t false = true) := by
  induction c generalizing i pr s1 with
  | zero =>
    simp [SetUnion_loop] at h
    obtain ⟨h1, h2⟩ := h
    subst h1 h2
    exact ⟨hpr, rfl, fun _ => ⟨rfl, fun t h1 h2 => by omega⟩⟩
  | succ c ih =>
    unfold SetUnion_loop at h
    cases h2 : s2[i]? with
    | none => simp [h2] at h
    | some b2 =>
      cases b2 with
      | false =>
        simp only [h2] at h
        obtain ⟨a1, a2, a3⟩ := ih _ _ _ h hpr
        refine ⟨a1, a2, fun h0 => ⟨(a3 h0).1, fun t ht1 ht2 ht3 => ?_⟩⟩
        by_cases hti : t = i
        · subst hti
          simp [List.getD, h2] at ht3
        · exact (a3 h0).2 t (by omega) (by omega) ht3
      | true =>
        simp only [h2] at h
        cases h1 : s1[i]? with
        | none => simp [h1] at h
        | some b1 =>
          cases b1 with
          | false =>
            simp only [h1] at h
            obtain ⟨a1, a2, a3⟩ := ih _ _ _ h (by norm_num)
            refine ⟨a1, by simpa using a2, fun h0 => ?_⟩
            exfalso
            -- the progress flag was set and cannot return to zero
            have : ∀ (c i : Nat) (s1 : List Bool) (pr1 : Int) (s3 : List Bool),
                SetUnion_loop s2 c i 1 s1 = some (pr1, s3) → pr1 = 1 := by
              intro c
              induction c with
              | zero =>
                intro i s1 pr1 s3 h
                simp [SetUnion_loop] at h
                exact h.1.symm
              | succ c ihc =>
                intro i s1 pr1 s3 h
                unfold SetUnion_loop at h
                cases hh : s2[i]? with
                | none => simp [hh] at h
                | some b =>
                  cases b with
                  | false => simp only [hh] at h; exact ihc _ _ _ _ h
                  | true =>
                    simp only [hh] at h
                    cases hh1 : s1[i]? with
                    | none => simp [hh1] at h
                    | some b1 =>
                      cases b1 with
                      | false => simp only [hh1] at h; exact ihc _ _ _ _ h
                      | true => simp only [hh1] at h; exact ihc _ _ _ _ h
            have := this _ _ _ _ _ h
            omega
          | true =>
            simp only [h1] at h
            obtain ⟨a1, a2, a3⟩ := ih _ _ _ h hpr
            refine ⟨a1, a2, fun h0 => ⟨(a3 h0).1, fun t ht1 ht2 ht3 => ?_⟩⟩
            by_cases hti : t = i
            · subst hti
              simp [List.getD, h1]
            · exact (a3 h0).2 t (by omega) (by omega) ht3

theorem firstBit_lt_size {size : Nat} {syms : List symbol} (hlen : LenInv size syms)
    {p t : Nat} (h : firstBit syms p t = true) : t < size := by
  unfold firstBit at h
  cases hp : syms[p]? with
  | none => simp [hp] at h
  | some s =>
    simp only [hp] at h
    cases hf : s.firstset with
    | none => simp [hf] at h
    | some f =>
      simp only [hf] at h
      have := hlen s (List.getElem?_mem hp) f hf
      by_contra hc
      rw [List.getD_eq_getElem?_getD, List.getElem?_eq_none (by omega)] at h
      simp at h

theorem set_same {α : Type} (l : List α) (p : Nat) (a : α) (h : l[p]? = some a) :
    l.set p a = l := by
  apply List.ext_getElem?
  intro i
  by_cases hi : p = i
  · subst hi
    rw [List.getElem?_set_self (lt_of_getElem?_some h), h]
  · rw [List.getElem?_set_ne hi]

theorem lenInv_set {size : Nat} {syms : List symbol} (hlen : LenInv size syms) (p : Nat)
    (s : symbol) (hs : ∀ f, s.firstset = some f → f.length = size) :
    LenInv size (syms.set p s) := by
  intro s1 hs1 f hf
  rcases List.mem_or_eq_of_mem_set hs1 with h | h
  · exact hlen s1 h f hf
  · subst h
    exact hs f hf

theorem addFirst_zero {size : Nat} {syms syms1 : List symbol} {lhs : Nat} {e c : Int}
    (h : addFirst size syms lhs e = some (c, syms1)) :
    0 ≤ c ∧ (LenInv size syms → LenInv size syms1) ∧
      (c = 0 → syms1 = syms ∧ 0 ≤ e ∧ firstBit syms lhs e.toNat = true) := by
  unfold addFirst at h
  cases h1 : syms[lhs]? with
  | none => simp [h1] at h
  | some s1 =>
    simp only [h1] at h
    cases h2 : s1.firstset with
    | none => simp [h2] at h
    | some f1 =>
      simp only [h2] at h
      cases h3 : SetAdd size f1 e with
      | none => simp [h3] at h
      | some r =>
        obtain ⟨c0, f2⟩ := r
        simp only [h3, Option.some.injEq, Prod.mk.injEq] at h
        obtain ⟨hc, hs⟩ := h
        subst hc hs
        obtain ⟨a1, a2, a3⟩ := SetAdd_zero h3
        refine ⟨a1, ?_, ?_⟩
        · intro hlen
          apply lenInv_set hlen
          intro f hf
          simp only [Option.some.injEq] at hf
          subst hf
          rw [a2]
          exact hlen s1 (List.getElem?_mem h1) f1 h2
        · intro h0
          obtain ⟨b1, b2, b3⟩ := a3 h0
          subst b1
          refine ⟨?_, b2, ?_⟩
          · apply set_same
            rw [h1, ← h2]
          · rw [firstBit_of h1 h2]
            exact b3

theorem unionFirst_zero {size : Nat} {syms syms1 : List symbol} {lhs p2 : Nat} {c : Int}
    (h : unionFirst size syms lhs p2 = some (c, syms1)) :
    0 ≤ c ∧ (LenInv size syms → LenInv size syms1) ∧
      (c = 0 → syms1 = syms ∧
        (LenInv size syms → ∀ t, firstBit syms p2 t = true → firstBit syms lhs t = true)) := by
  unfold unionFirst at h
  cases h1 : syms[lhs]? with
  | none => simp [h1] at h
  | some s1 =>
    cases h2 : syms[p2]? with
    | none => simp [h1, h2] at h
    | some s2 =>
      simp only [h1, h2] at h
      cases h3 : s1.firstset with
      | none => simp [h3] at h
      | some f1 =>
        cases h4 : s2.firstset with
        | none => simp [h3, h4] at h
        | some f2 =>
          simp only [h3, h4] at h
          cases h5 : SetUnion size f1 f2 with
          | none => simp [h5] at h
          | some r =>
            obtain ⟨c0, f3⟩ := r
            simp only [h5, Option.some.injEq, Prod.mk.injEq] at h
            obtain ⟨hc, hs⟩ := h
            subst hc hs
            unfold SetUnion at h5
            obtain ⟨a1, a2, a3⟩ := SetUnion_loop_zero _ _ _ _ _ _ _ h5 (le_refl _)
            refine ⟨a1, ?_, ?_⟩
            · intro hlen
              apply lenInv_set hlen
              intro f hf
              simp only [Option.some.injEq] at hf
              subst hf
              rw [a2]
              exact hlen s1 (List.getElem?_mem h1) f1 h3
            · intro h0
              obtain ⟨b1, b2⟩ := a3 h0
              subst b1
              refine ⟨?_, ?_⟩
              · apply set_same
                rw [h1, ← h3]
              · intro hlen t ht
                have hts := firstBit_lt_size hlen ht
                rw [firstBit_of h2 h4] at ht
                rw [firstBit_of h1 h3]
                exact b2 t (by omega) (by omega) ht

theorem addSubsyms_zero {size lhs : Nat} (subs : List Nat) (st st1 : List symbol × Int)
    (h : addSubsyms size lhs subs st = some st1) :
    st.2 ≤ st1.2 ∧ (LenInv size st.1 → LenInv size st1.1) ∧
      (st1.2 = st.2 → st1.1 = st.1 ∧
        ∀ q ∈ subs, ∃ sq, st.1[q]? = some sq ∧ 0 ≤ sq.index ∧
          firstBit st.1 lhs sq.index.toNat = true) := by
  induction subs generalizing st with
  | nil =>
    simp [addSubsyms] at h
    subst h
    exact ⟨le_refl _, id, fun _ => ⟨rfl, by simp⟩⟩
  | cons q rest ih =>
    obtain ⟨syms, pr⟩ := st
    unfold addSubsyms at h
    cases hq : syms[q]? with
    | none => simp [hq] at h
    | some sub =>
      simp only [hq] at h
      cases ha : addFirst size syms lhs sub.index with
      | none => simp [ha] at h
      | some r =>
        obtain ⟨c, syms1⟩ := r
        simp only [ha] at h
        obtain ⟨a1, a2, a3⟩ := addFirst_zero ha
        obtain ⟨b1, b2, b3⟩ := ih _ h
        simp only at b1 b2 b3 ⊢
        refine ⟨by omega, fun hl => b2 (a2 hl), fun h0 => ?_⟩
        have hc : c = 0 := by omega
        obtain ⟨c1, c2, c3⟩ := a3 hc
        subst c1
        obtain ⟨d1, d2⟩ := b3 (by omega)
        refine ⟨d1, fun q1 hq1 => ?_⟩
        simp at hq1
        rcases hq1 with rfl | hq1
        · exact ⟨sub, hq, c2, c3⟩
        · exact d2 q1 hq1

theorem firstScan_zero {size lhs : Nat} (rhs : List Nat) (st st1 : List symbol × Int)
    (h : firstScan size lhs rhs st = some st1) :
    st.2 ≤ st1.2 ∧ (LenInv size st.1 → LenInv size st1.1) ∧
      (st1.2 = st.2 → st1.1 = st.1 ∧ (LenInv size st.1 → ScanClosed st.1 lhs rhs)) := by
  induction rhs generalizing st with
  | nil =>
    simp [firstScan] at h
    subst h
    exact ⟨le_refl _, id, fun _ => ⟨rfl, fun _ => trivial⟩⟩
  | cons p2 rest ih =>
    obtain ⟨syms, pr⟩ := st
    unfold firstScan at h
    cases hp : syms[p2]? with
    | none => simp [hp] at h
    | some s2 =>
      simp only [hp] at h
      unfold ScanClosed
      simp only [hp]
      split_ifs at h ⊢ with c1 c2 c3 c4 c5
      · -- a terminal
        cases ha : addFirst size syms lhs s2.index with
        | none => simp [ha] at h
        | some r =>
          obtain ⟨c, syms1⟩ := r
          simp only [ha, Option.some.injEq] at h
          subst h
          obtain ⟨a1, a2, a3⟩ := addFirst_zero ha
          refine ⟨by simp only; omega, a2, fun h0 => ?_⟩
          simp only at h0
          obtain ⟨b1, b2, b3⟩ := a3 (by omega)
          exact ⟨b1, fun _ => ⟨b2, b3⟩⟩
      · -- a multiterminal
        obtain ⟨a1, a2, a3⟩ := addSubsyms_zero _ _ _ h
        exact ⟨a1, a2, fun h0 => ⟨(a3 h0).1, fun _ => (a3 h0).2⟩⟩
      · -- the left-hand side itself, not nullable
        simp only [Option.some.injEq] at h
        subst h
        exact ⟨le_refl _, id, fun _ => ⟨rfl, fun _ hl => by simp [c4] at hl⟩⟩
      · -- the left-hand side itself, nullable
        obtain ⟨a1, a2, a3⟩ := ih _ h
        exact ⟨a1, a2, fun h0 => ⟨(a3 h0).1, fun hl _ => (a3 h0).2 hl⟩⟩
      · -- another nonterminal, not nullable
        cases hu : unionFirst size syms lhs p2 with
        | none => simp [hu] at h
        | some r =>
          obtain ⟨c, syms1⟩ := r
          simp only [hu] at h
          obtain ⟨a1, a2, a3⟩ := unionFirst_zero hu
          simp only [Option.some.injEq] at h
          subst h
          refine ⟨by simp only; omega, a2, fun h0 => ?_⟩
          simp only at h0
          obtain ⟨b1, b2⟩ := a3 (by omega)
          exact ⟨b1, fun hl => ⟨b2 hl, fun hl2 => by simp [c5] at hl2⟩⟩
      · -- another nonterminal, nullable
        cases hu : unionFirst size syms lhs p2 with
        | none => simp [hu] at h
        | some r =>
          obtain ⟨c, syms1⟩ := r
          simp only [hu] at h
          obtain ⟨a1, a2, a3⟩ := unionFirst_zero hu
          obtain ⟨d1, d2, d3⟩ := ih _ h
          simp only at d1 d2 d3 ⊢
          refine ⟨by omega, fun hl => d2 (a2 hl), fun h0 => ?_⟩
          obtain ⟨b1, b2⟩ := a3 (by omega)
          subst b1
          obtain ⟨e1, e2⟩ := d3 (by omega)
          exact ⟨e1, fun hl => ⟨b2 hl, fun _ => e2 hl⟩⟩

theorem firstPass_zero {size : Nat} (rules : List rule) (st st1 : List symbol × Int)
    (h : firstPass size rules st = some st1) :
    st.2 ≤ st1.2 ∧ (LenInv size st.1 → LenInv size st1.1) ∧
      (st1.2 = st.2 → st1.1 = st.1 ∧
        (LenInv size st.1 → ∀ rp ∈ rules, ScanClosed st.1 rp.lhs rp.rhs)) := by
  induction rules generalizing st with
  | nil =>
    simp [firstPass] at h
    subst h
    exact ⟨le_refl _, id, fun _ => ⟨rfl, fun _ => by simp⟩⟩
  | cons rp rest ih =>
    unfold firstPass at h
    cases hs : firstScan size rp.lhs rp.rhs st with
    | none => simp [hs] at h
    | some st2 =>
      simp only [hs] at h
      obtain ⟨a1, a2, a3⟩ := firstScan_zero _ _ _ hs
      obtain ⟨b1, b2, b3⟩ := ih _ h
      refine ⟨by omega, fun hl => b2 (a2 hl), fun h0 => ?_⟩
      obtain ⟨c1, c2⟩ := a3 (by omega)
      obtain ⟨d1, d2⟩ := b3 (by omega)
      rw [c1] at d1 d2
      refine ⟨d1, fun hl r hr => ?_⟩
      simp at hr
      rcases hr with rfl | hr
      · exact c2 hl
      · exact d2 hl r hr

theorem firstLoop_fix {size : Nat} (rules : List rule) (fuel : Nat) (syms out : List symbol)
    (hlen : LenInv size syms) (h : firstLoop size rules fuel syms = some out) :
    LenInv size out ∧ ∀ rp ∈ rules, ScanClosed out rp.lhs rp.rhs := by
  induction fuel generalizing syms with
  | zero => simp [firstLoop] at h
  | succ fuel ih =>
    unfold firstLoop at h
    cases hp : firstPass size rules (syms, 0) with
    | none => simp [hp] at h
    | some st1 =>
      obtain ⟨syms1, pr⟩ := st1
      simp only [hp] at h
      obtain ⟨a1, a2, a3⟩ := firstPass_zero _ _ _ hp
      simp only at a1 a2 a3
      split_ifs at h with hc
      · exact ih _ (a2 hlen) h
      · simp only [Option.some.injEq] at h
        subst h
        obtain ⟨b1, b2⟩ := a3 (by simpa using hc)
        subst b1
        exact ⟨hlen, b2 hlen⟩

theorem newFirstSets_len (size c i : Nat) (syms out : List symbol)
    (h : newFirstSets size c i syms = some out)
    (hrest : ∀ (p : Nat) (s : symbol), syms[p]? = some s → ¬ (i ≤ p ∧ p < i + c) →
      ∀ f, s.firstset = some f → f.length = size) :
    LenInv size out := by
  induction c generalizing i syms with
  | zero =>
    simp [newFirstSets] at h
    subst h
    intro s hs f hf
    obtain ⟨p, hp⟩ := List.getElem?_of_mem hs
    exact hrest p s hp (by omega) f hf
  | succ c ih =>
    unfold newFirstSets at h
    cases hi : syms[i]? with
    | none => simp [hi] at h
    | some s0 =>
      simp only [hi] at h
      apply ih _ _ h
      intro p s hp hnot f hf
      by_cases hpi : i = p
      · subst hpi
        rw [List.getElem?_set_self (lt_of_getElem?_some hi)] at hp
        simp only [Option.some.injEq] at hp
        subst hp
        simp only [Option.some.injEq] at hf
        subst hf
        simp [SetNew]
      · rw [List.getElem?_set_ne hpi] at hp
        exact hrest p s hp (by omega) f hf

theorem firstset_of_eraseLam {a b : List symbol} (h : a.map eraseLam = b.map eraseLam)
    {p : Nat} {s : symbol} (hs : a[p]? = some s) :
    ∃ s1, b[p]? = some s1 ∧ s1.firstset = s.firstset := by
  have h1 : (a.map eraseLam)[p]? = some (eraseLam s) := by simp [hs]
  rw [h] at h1
  simp only [List.getElem?_map, Option.map_eq_some'] at h1
  obtain ⟨s1, h2, h3⟩ := h1
  refine ⟨s1, h2, ?_⟩
  have := congrArg symbol.firstset h3
  simpa [eraseLam] using this

theorem lenInv_of_eraseLam {size : Nat} {a b : List symbol}
    (h : a.map eraseLam = b.map eraseLam) (hb : LenInv size b) : LenInv size a := by
  intro s hs f hf
  obtain ⟨p, hp⟩ := List.getElem?_of_mem hs
  obtain ⟨s1, h1, h2⟩ := firstset_of_eraseLam h hp
  exact hb s1 (List.getElem?_mem h1) f (by rw [h2]; exact hf)

theorem startsIn_append (syms : List symbol) (a b : List Nat) (t : Nat) :
    StartsIn syms (a ++ b) t ↔
      StartsIn syms a t ∨ ((∀ y ∈ a, isLambda syms y = true) ∧ StartsIn syms b t) := by
  induction a with
  | nil => simp [StartsIn]
  | cons x rest ih =>
    rw [List.cons_append]
    simp only [StartsIn]
    rw [ih]
    constructor
    · rintro (h | ⟨h1, h2 | ⟨h2, h3⟩⟩)
      · exact Or.inl (Or.inl h)
      · exact Or.inl (Or.inr ⟨h1, h2⟩)
      · refine Or.inr ⟨?_, h3⟩
        intro y hy
        simp at hy
        rcases hy with rfl | hy
        · exact h1
        · exact h2 y hy
    · rintro ((h | ⟨h1, h2⟩) | ⟨h1, h2⟩)
      · exact Or.inl h
      · exact Or.inr ⟨h1, Or.inl h2⟩
      · exact Or.inr ⟨h1 x (by simp), Or.inr ⟨fun y hy => h1 y (by simp [hy]), h2⟩⟩

theorem emits_nonterminal {syms : List symbol} {A t : Nat}
    (h : symType syms A = some symbol_type.NONTERMINAL) :
    Emits syms A t ↔ firstBit syms A t = true := by
  unfold symType at h
  unfold Emits
  cases hA : syms[A]? with
  | none => simp [hA] at h
  | some sx =>
    simp only [hA, Option.map_some', Option.some.injEq] at h
    simp only [h]

theorem scanClosed_starts {syms : List symbol} {lhs : Nat} (rhs : List Nat) (t : Nat)
    (hl : ∀ p, isLambda syms p = true → symType syms p = some symbol_type.NONTERMINAL)
    (hc : ScanClosed syms lhs rhs) (hs : StartsIn syms rhs t) :
    firstBit syms lhs t = true := by
  induction rhs with
  | nil => simp [StartsIn] at hs
  | cons X rest ih =>
    unfold ScanClosed at hc
    simp only [StartsIn] at hs
    cases hX : syms[X]? with
    | none =>
      rcases hs with hs | ⟨hs, -⟩
      · simp [Emits, hX] at hs
      · simp [isLambda, hX] at hs
    | some sx =>
      simp only [hX] at hc
      rcases hs with hs | ⟨hs1, hs2⟩
      · unfold Emits at hs
        simp only [hX] at hs
        cases hty : sx.type with
        | TERMINAL =>
          simp only [hty] at hs hc
          simp only [if_true] at hc
          have : sx.index.toNat = t := by omega
          rw [← this]
          exact hc.2
        | MULTITERMINAL =>
          simp only [hty] at hs hc
          simp only [reduceCtorEq, if_false, if_true] at hc
          obtain ⟨q, hq, sq, h1, h2⟩ := hs
          obtain ⟨sq1, h3, h4, h5⟩ := hc q hq
          rw [h1] at h3
          simp only [Option.some.injEq] at h3
          subst h3
          have : sq.index.toNat = t := by omega
          rw [← this]
          exact h5
        | NONTERMINAL =>
          simp only [hty] at hs hc
          simp only [reduceCtorEq, if_false] at hc
          split_ifs at hc with he
          · subst he
            exact hs
          · exact hc.1 t hs
      · have hty := hl X hs1
        have hlam : sx.lambda = true := by simpa [isLambda, hX] using hs1
        simp only [symType, hX, Option.map_some', Option.some.injEq] at hty
        simp only [hty, reduceCtorEq, if_false] at hc
        split_ifs at hc with he
        · exact ih (hc hlam) hs2
        · exact ih (hc.2 hlam) hs2

theorem startsIn_step {rules : List rule} {syms : List symbol}
    (hl : ∀ p, isLambda syms p = true → symType syms p = some symbol_type.NONTERMINAL)
    (hlhs : ∀ rp ∈ rules, symType syms rp.lhs = some symbol_type.NONTERMINAL)
    (hclosed : ∀ rp ∈ rules, ScanClosed syms rp.lhs rp.rhs)
    (hnull : ∀ rp ∈ rules, RuleClosed syms rp)
    {u v : List Nat} (hstep : Step rules u v) (t : Nat) (h : StartsIn syms v t) :
    StartsIn syms u t := by
  obtain ⟨u0, v0, r, hr⟩ := hstep
  rw [List.append_assoc, startsIn_append, startsIn_append] at h
  rw [startsIn_append]
  rcases h with h | ⟨h1, h2 | ⟨h2, h3⟩⟩
  · exact Or.inl h
  · refine Or.inr ⟨h1, ?_⟩
    simp only [StartsIn]
    left
    rw [emits_nonterminal (hlhs r hr)]
    exact scanClosed_starts r.rhs t hl (hclosed r hr) h2
  · refine Or.inr ⟨h1, ?_⟩
    simp only [StartsIn]
    right
    exact ⟨hnull r hr h2, h3⟩

theorem startsIn_derives {rules : List rule} {syms : List symbol}
    (hl : ∀ p, isLambda syms p = true → symType syms p = some symbol_type.NONTERMINAL)
    (hlhs : ∀ rp ∈ rules, symType syms rp.lhs = some symbol_type.NONTERMINAL)
    (hclosed : ∀ rp ∈ rules, ScanClosed syms rp.lhs rp.rhs)
    (hnull : ∀ rp ∈ rules, RuleClosed syms rp)
    {u v : List Nat} (hd : Derives rules u v) (t : Nat) (h : StartsIn syms v t) :
    StartsIn syms u t := by
  induction hd using Relation.ReflTransGen.head_induction_on with
  | refl => exact h
  | head hstep _ ih => exact startsIn_step hl hlhs hclosed hnull hstep t ih

/-- C11 (FIRST completeness): in the symbol table returned by `FindFirstSets`, for every
symbol `A` of type `NONTERMINAL` and every terminal index `t` such that some derivation
from `A` yields a sentential form that begins with a terminal of index `t` (or with a
multiterminal that has such a sub-symbol), bit `t` is set in the first set of `A`.  The
left-recursion shortcut of line 684 is part of `firstScan`, so it loses no terminal. -/
theorem FindFirstSets_first_complete (size fuel : Nat) (lemp r : lemon)
    (hlam : FreshLambda lemp) (hfirst : FreshFirst lemp) (hlhs : LhsNonterminal lemp)
    (h : FindFirstSets size fuel lemp = some r) :
    ∀ A t, symType r.symbols A = some symbol_type.NONTERMINAL →
      BeginsWith r.rule r.symbols A t → firstBit r.symbols A t = true := by
  obtain ⟨syms0, syms1, syms2, h0, h1, h2, h3, hr, -, -⟩ := FindFirstSets_stages h
  obtain ⟨hc, hl, -⟩ := FindFirstSets_init h0 h1
  have hinv1 : LamInv lemp.rule (lemp.symbols.map core) syms1 :=
    ⟨hc, fun p hp => by rw [hl hlam p] at hp; exact absurd hp (by simp)⟩
  obtain ⟨hinv2, he2⟩ := lambdaLoop_inv fuel syms1 syms2 hinv1 h2
  have he := firstLoop_eraseFirst fuel syms2 r.symbols h3
  -- every first set has `size` entries
  have hlen1 : LenInv size syms1 := by
    apply newFirstSets_len _ _ _ _ _ h1
    intro p s hp hnot f hf
    obtain ⟨s1, e1, e2⟩ := firstset_of_eraseLam (resetLambda_spec _ _ _ _ h0).1 hp
    have hfresh : s1.firstset = none := by
      apply hfirst s1
      rw [List.mem_append]
      by_cases hpt : p < lemp.nterminal
      · exact Or.inl (mem_take_of_getElem? e1 hpt)
      · exact Or.inr (mem_drop_of_getElem? e1 (by omega))
    rw [← e2, hfresh] at hf
    simp at hf
  have hlen2 : LenInv size syms2 := lenInv_of_eraseLam he2 hlen1
  obtain ⟨-, hclosed⟩ := firstLoop_fix lemp.rule fuel syms2 r.symbols hlen2 h3
  -- the facts about the nullable flags
  have hnull : ∀ rp ∈ lemp.rule, RuleClosed r.symbols rp := by
    intro rp hrp hall
    rw [isLambda_of_eraseFirst he]
    apply lambdaLoop_closed lemp.rule fuel syms1 syms2 h2 rp hrp
    intro x hx
    rw [← isLambda_of_eraseFirst he]
    exact hall x hx
  have hty : ∀ rp ∈ lemp.rule, symType r.symbols rp.lhs = some symbol_type.NONTERMINAL := by
    intro rp hrp
    have := hlhs rp hrp
    rw [← symType_map_core, ← hinv2.shape, ← map_core_of_eraseFirst he, symType_map_core] at this
    exact this
  have hlt : ∀ p, isLambda r.symbols p = true →
      symType r.symbols p = some symbol_type.NONTERMINAL := by
    intro p hp
    rw [isLambda_of_eraseFirst he] at hp
    obtain ⟨rp, hrp, rfl⟩ := (hinv2.just p hp).is_lhs
    exact hty rp hrp
  intro A t hA hb
  rw [hr] at hb
  obtain ⟨s, ss, w, h1, h2, h3, hd⟩ := hb
  rw [← emits_nonterminal hA]
  have key : ∀ β, Derives lemp.rule [A] β → StartsIn r.symbols β t → Emits r.symbols A t := by
    intro β hβ hs
    have := startsIn_derives hlt hty hclosed hnull hβ t hs
    simpa [StartsIn] using this
  rcases hd with hd | ⟨X, sx, h4, h5, h6, hd⟩
  · apply key _ hd
    simp only [StartsIn]
    left
    simp only [Emits, h1, h3]
    exact h2
  · apply key _ hd
    simp only [StartsIn]
    left
    simp only [Emits, h4, h5]
    exact ⟨s, h6, ss, h1, h2⟩

/-- The grammar `A -> a A b | (empty) ; B -> b`: the computed first sets hold every
terminal that begins a sentential form derived from `A` or `B`. -/
theorem FindFirstSets_first_complete_witness :
    FreshLambda grammarAB ∧ FreshFirst grammarAB ∧ LhsNonterminal grammarAB ∧
    FindFirstSets 5 3 grammarAB = some grammarAB_first ∧
    ∀ A t, symType grammarAB_first.symbols A = some symbol_type.NONTERMINAL →
      BeginsWith grammarAB_first.rule grammarAB_first.symbols A t →
      firstBit grammarAB_first.symbols A t = true :=
  ⟨by decide, by decide, by decide, by decide,
    FindFirstSets_first_complete 5 3 grammarAB grammarAB_first (by decide) (by decide)
      (by decide) (by decide)⟩

theorem Symbol_new_found {syms : List symbol} {x : String} {dflt : Nat}
    (h : Symbol_find syms x = some dflt) : Symbol_new syms x = (dflt, syms) := by
  simp [Symbol_new, h]

theorem compressState_spec (lemp : lemon) (code : e_action → Int) (stp : state) (dflt : Nat)
    (syms1 : List symbol) (stp1 : state)
    (hd : Symbol_find lemp.symbols "{default}" = some dflt)
    (h : compressState lemp code stp = some (syms1, stp1)) :
    syms1 = lemp.symbols ∧
    match defaultRule lemp stp.ap with
    | none => stp1 = stp
    | some r => ∃ ap1, markDefault dflt r stp.ap = some ap1 ∧
        stp1 =
          if onlyDefault r (Action_sort lemp.symbols lemp.rule code ap1) = true then
            { stp with
              ap := Action_sort lemp.symbols lemp.rule code ap1
              autoReduce := 1
              pDfltReduce := some r }
          else { stp with ap := Action_sort lemp.symbols lemp.rule code ap1 } := by
  unfold compressState at h
  unfold defaultRule
  rw [Symbol_new_found hd] at h
  generalize bestRule lemp stp.ap (0, none, 0) = st at h ⊢
  obtain ⟨nbest, rbest, uses⟩ := st
  simp only at h ⊢
  by_cases hc : nbest < 1 ∨ uses ≠ 0
  · rw [if_pos hc] at h ⊢
    simp only [Option.some.injEq, Prod.mk.injEq] at h
    exact ⟨h.1.symm, h.2.symm⟩
  · rw [if_neg hc] at h ⊢
    cases rbest with
    | none => simp at h
    | some rb =>
      simp only at h ⊢
      cases hm : markDefault dflt rb stp.ap with
      | none => simp [hm] at h
      | some ap1 =>
        simp only [hm] at h
        split_ifs at h with ho
        · simp only [Option.some.injEq, Prod.mk.injEq] at h
          exact ⟨h.1.symm, ap1, rfl, by rw [if_pos ho]; exact h.2.symm⟩
        · simp only [Option.some.injEq, Prod.mk.injEq] at h
          exact ⟨h.1.symm, ap1, rfl, by rw [if_neg ho]; exact h.2.symm⟩

theorem compressStates_spec (code : e_action → Int) (dflt : Nat) (ps : List Nat) (lemp : lemon)
    (states : List state) (lemp1 : lemon) (states1 : List state)
    (hd : Symbol_find lemp.symbols "{default}" = some dflt) (hnd : ps.Nodup)
    (h : compressStates code ps (lemp, states) = some (lemp1, states1)) :
    lemp1 = lemp ∧ states1.length = states.length ∧
    (∀ q, q ∉ ps → states1[q]? = states[q]?) ∧
    ∀ p ∈ ps, ∃ stp stp1, states[p]? = some stp ∧
      compressState lemp code stp = some (lemp.symbols, stp1) ∧ states1[p]? = some stp1 := by
  induction ps generalizing states with
  | nil =>
    simp only [compressStates, Option.some.injEq, Prod.mk.injEq] at h
    obtain ⟨rfl, rfl⟩ := h
    simp
  | cons p rest ih =>
    rw [List.nodup_cons] at hnd
    unfold compressStates at h
    cases hp : states[p]? with
    | none => simp [hp] at h
    | some stp =>
      simp only [hp] at h
      cases hc : compressState lemp code stp with
      | none => simp [hc] at h
      | some r =>
        obtain ⟨syms1, stp1⟩ := r
        simp only [hc] at h
        have hs := (compressState_spec lemp code stp dflt syms1 stp1 hd hc).1
        subst hs
        obtain ⟨e1, e2, e3, e4⟩ := ih (states.set p stp1) hnd.2 h
        refine ⟨e1, by simpa using e2, ?_, ?_⟩
        · intro q hq
          simp only [List.mem_cons, not_or] at hq
          rw [e3 q hq.2, List.getElem?_set_ne (Ne.symm hq.1)]
        · intro q hq
          simp only [List.mem_cons] at hq
          rcases hq with rfl | hq
          · refine ⟨stp, stp1, hp, hc, ?_⟩
            rw [e3 q hnd.1, List.getElem?_set_self (lt_of_getElem?_some hp)]
          · obtain ⟨s, s1, h1, h2, h3⟩ := e4 q hq
            have hne : p ≠ q := fun e => hnd.1 (e ▸ hq)
            rw [List.getElem?_set_ne hne] at h1
            exact ⟨s, s1, h1, h2, h3⟩

theorem fuseAction_congr {a b : List state}
    (h : ∀ q, (stateAt a q).autoReduce = (stateAt b q).autoReduce ∧
      (stateAt a q).pDfltReduce = (stateAt b q).pDfltReduce) (ap : action) :
    fuseAction a ap = fuseAction b ap := by
  unfold fuseAction
  rw [(h ap.x).1, (h ap.x).2]

theorem flags_set (states : List state) (p : Nat) (stp : state) (aps : List action)
    (hp : states[p]? = some stp) (q : Nat) :
    (stateAt (states.set p { stp with ap := aps }) q).autoReduce = (stateAt states q).autoReduce ∧
    (stateAt (states.set p { stp with ap := aps }) q).pDfltReduce =
      (stateAt states q).pDfltReduce := by
  by_cases e : p = q
  · subst e
    rw [stateAt_set_eq _ _ _ (lt_of_getElem?_some hp), stateAt_of_getElem? hp]
    exact ⟨rfl, rfl⟩
  · rw [stateAt_set_ne _ _ _ _ e]
    exact ⟨rfl, rfl⟩

theorem fuseStates_spec (ps : List Nat) (states states2 : List state) (hnd : ps.Nodup)
    (h : fuseStates ps states = some states2) :
    states2.length = states.length ∧
    (∀ q, q ∉ ps → states2[q]? = states[q]?) ∧
    ∀ p ∈ ps, ∃ stp, states[p]? = some stp ∧
      states2[p]? = some { stp with ap := stp.ap.map (fuseAction states) } := by
  induction ps generalizing states with
  | nil =>
    simp only [fuseStates, Option.some.injEq] at h
    subst h
    simp
  | cons p rest ih =>
    rw [List.nodup_cons] at hnd
    unfold fuseStates at h
    cases hp : states[p]? with
    | none => simp [hp] at h
    | some stp =>
      simp only [hp] at h
      obtain ⟨e2, e3, e4⟩ := ih _ hnd.2 h
      refine ⟨by simpa using e2, ?_, ?_⟩
      · intro q hq
        simp only [List.mem_cons, not_or] at hq
        rw [e3 q hq.2, List.getElem?_set_ne (Ne.symm hq.1)]
      · intro q hq
        simp only [List.mem_cons] at hq
        rcases hq with rfl | hq
        · refine ⟨stp, hp, ?_⟩
          rw [e3 q hnd.1, List.getElem?_set_self (lt_of_getElem?_some hp)]
        · obtain ⟨s, h1, h3⟩ := e4 q hq
          have hne : p ≠ q := fun e => hnd.1 (e ▸ hq)
          rw [List.getElem?_set_ne hne] at h1
          refine ⟨s, h1, ?_⟩
          rw [h3]
          congr 2
          apply List.map_congr_left
          intro a _
          exact fuseAction_congr (flags_set states p stp _ hp) a

theorem unitStates_spec (lemp : lemon) (fuel : Nat) (ps : List Nat) (states states3 : List state)
    (hnd : ps.Nodup) (h : unitStates lemp fuel ps states = some states3) :
    states3.length = states.length ∧
    (∀ q, q ∉ ps → states3[q]? = states[q]?) ∧
    ∀ p ∈ ps, ∃ stp ap1, states[p]? = some stp ∧ unitLoop lemp fuel 0 stp.ap = some ap1 ∧
      states3[p]? = some { stp with ap := ap1 } := by
  induction ps generalizing states with
  | nil =>
    simp only [unitStates, Option.some.injEq] at h
    subst h
    simp
  | cons p rest ih =>
    rw [List.nodup_cons] at hnd
    unfold unitStates at h
    cases hp : states[p]? with
    | none => simp [hp] at h
    | some stp =>
      simp only [hp] at h
      cases hu : unitLoop lemp fuel 0 stp.ap with
      | none => simp [hu] at h
      | some ap1 =>
        simp only [hu] at h
        obtain ⟨e2, e3, e4⟩ := ih _ hnd.2 h
        refine ⟨by simpa using e2, ?_, ?_⟩
        · intro q hq
          simp only [List.mem_cons, not_or] at hq
          rw [e3 q hq.2, List.getElem?_set_ne (Ne.symm hq.1)]
        · intro q hq
          simp only [List.mem_cons] at hq
          rcases hq with rfl | hq
          · refine ⟨stp, ap1, hp, hu, ?_⟩
            rw [e3 q hnd.1, List.getElem?_set_self (lt_of_getElem?_some hp)]
          · obtain ⟨s, a1, h1, h2, h3⟩ := e4 q hq
            have hne : p ≠ q := fun e => hnd.1 (e ▸ hq)
            rw [List.getElem?_set_ne hne] at h1
            exact ⟨s, a1, h1, h2, h3⟩

theorem forall₂_set {α : Type} {R : α → α → Prop} (hr : ∀ x, R x x) (l : List α) (i : Nat)
    (a b : α) (h : l[i]? = some a) (hab : R a b) : List.Forall₂ R l (l.set i b) := by
  induction l generalizing i with
  | nil => simp at h
  | cons x rest ih =>
    cases i with
    | zero =>
      simp only [List.getElem?_cons_zero, Option.some.injEq] at h
      subst h
      exact List.Forall₂.cons hab (List.forall₂_same.2 (fun y _ => hr y))
    | succ k =>
      simp only [List.getElem?_cons_succ] at h
      exact List.Forall₂.cons (hr x) (ih k h)

theorem forall₂_comp {α : Type} {R S T : α → α → Prop} (h : ∀ a b c, R a b → S b c → T a c)
    {l1 l2 l3 : List α} (h1 : List.Forall₂ R l1 l2) (h2 : List.Forall₂ S l2 l3) :
    List.Forall₂ T l1 l3 := by
  induction h1 generalizing l3 with
  | nil => cases h2; exact List.Forall₂.nil
  | cons hab _ ih =>
    cases h2 with
    | cons hbc hrest => exact List.Forall₂.cons (h _ _ _ hab hbc) (ih hrest)

theorem findOther_spec (lhs i : Nat) (l : List action) (k : Nat) (a : action)
    (h : findOther lhs i l k = some a) :
    ∃ j, l[j]? = some a ∧ j + k ≠ i ∧ a.sp = lhs ∧
      ∀ (j1 : Nat) (c : action), j1 < j → l[j1]? = some c → j1 + k ≠ i → c.sp ≠ lhs := by
  induction l generalizing k with
  | nil => simp [findOther] at h
  | cons x rest ih =>
    unfold findOther at h
    by_cases hc : k ≠ i ∧ x.sp = lhs
    · rw [if_pos hc] at h
      simp only [Option.some.injEq] at h
      subst h
      exact ⟨0, by simp, by simpa using hc.1, hc.2, by intro j1 c hj; omega⟩
    · rw [if_neg hc] at h
      obtain ⟨j, h1, h2, h3, h4⟩ := ih (k + 1) h
      refine ⟨j + 1, by simpa using h1, by omega, h3, ?_⟩
      intro j1 c hj hj1 hne
      cases j1 with
      | zero =>
        simp only [List.getElem?_cons_zero, Option.some.injEq] at hj1
        subst hj1
        intro e
        exact hc ⟨by omega, e⟩
      | succ m =>
        simp only [List.getElem?_cons_succ] at hj1
        exact h4 m c (by omega) hj1 (by omega)

theorem unitLoop_steps (lemp : lemon) (fuel i : Nat) (l out : List action)
    (h : unitLoop lemp fuel i l = some out) : Relation.ReflTransGen (UnitStep lemp) l out := by
  induction fuel generalizing i l with
  | zero => simp [unitLoop] at h
  | succ n ih =>
    unfold unitLoop at h
    cases hi : l[i]? with
    | none =>
      simp only [hi, Option.some.injEq] at h
      subst h
      exact Relation.ReflTransGen.refl
    | some ap =>
      simp only [hi] at h
      by_cases hc : unitCandidate lemp ap = true
      · rw [if_pos hc] at h
        cases hf : findOther (ruleAt lemp.rule ap.x).lhs i l 0 with
        | none => simp [hf] at h
        | some ap2 =>
          simp only [hf] at h
          obtain ⟨j, h1, h2, h3, h4⟩ := findOther_spec _ _ _ _ _ hf
          refine Relation.ReflTransGen.head ?_ (ih _ _ h)
          exact ⟨i, ap, j, ap2, hi, hc, h1, by simpa using h2, h3,
            fun j1 c x1 x2 x3 => h4 j1 c x1 x2 (by simpa using x3), rfl⟩
      · rw [if_neg hc] at h
        exact ih _ _ h

theorem ruleAt_mem {rules : List rule} {k : Nat} (h : (ruleAt rules k).rhs.length = 1) :
    ruleAt rules k ∈ rules := by
  cases hk : rules[k]? with
  | none => simp [ruleAt, List.getD, hk] at h
  | some r =>
    have e : ruleAt rules k = r := by simp [ruleAt, List.getD, hk]
    rw [e]
    exact List.getElem?_mem hk

theorem unitCandidate_spec {lemp : lemon} {ap : action} (h : unitCandidate lemp ap = true) :
    ap.type = e_action.SHIFTREDUCE ∧ (ruleAt lemp.rule ap.x).noCode = true ∧
    (ruleAt lemp.rule ap.x).rhs.length = 1 ∧
    ¬ (symAt lemp.symbols ap.sp).index < (lemp.nterminal : Int) := by
  simpa [unitCandidate] using h

theorem unitStep_keep (lemp : lemon) (P : e_action → Nat → Prop) {l l1 : List action}
    (h : UnitStep lemp l l1) (hP : ∀ a ∈ l, P a.type a.x) : ∀ b ∈ l1, P b.type b.x := by
  obtain ⟨i, ap, j, ap2, h1, -, h3, -, -, -, rfl⟩ := h
  intro b hb
  rcases List.mem_or_eq_of_mem_set hb with hb | rfl
  · exact hP b hb
  · exact hP ap2 (List.getElem?_mem h3)

theorem unitLoop_keep (lemp : lemon) (P : e_action → Nat → Prop) (fuel i : Nat)
    (l out : List action) (h : unitLoop lemp fuel i l = some out)
    (hP : ∀ a ∈ l, P a.type a.x) : ∀ b ∈ out, P b.type b.x := by
  have hs := unitLoop_steps lemp fuel i l out h
  clear h
  induction hs with
  | refl => exact hP
  | tail _ hstep ih => exact unitStep_keep lemp P hstep ih

theorem unitStep_red (lemp : lemon) (dflt r : Nat) {l l1 : List action}
    (hlhs : ∀ rp ∈ lemp.rule, rp.lhs ≠ dflt)
    (hI : ∀ a ∈ l, a.type = e_action.REDUCE ∧ a.x = r → a.sp = dflt)
    (h : UnitStep lemp l l1) :
    List.Forall₂ (KeepsRed r) l l1 := by
  obtain ⟨i, ap, j, ap2, h1, h2, h3, -, h5, -, rfl⟩ := h
  apply forall₂_set (fun x => ⟨rfl, Iff.rfl, id⟩) l i ap _ h1
  obtain ⟨c1, -, c3, -⟩ := unitCandidate_spec h2
  refine ⟨rfl, ?_, fun e => absurd (c1.symm.trans e) (by decide)⟩
  simp only
  constructor
  · intro hr
    exfalso
    have := hI ap2 (List.getElem?_mem h3) hr
    rw [h5] at this
    exact hlhs _ (ruleAt_mem c3) this
  · intro hr
    rw [c1] at hr
    exact absurd hr.1 (by decide)

theorem keepsRed_inv {dflt r : Nat} {l l1 : List action} (h : List.Forall₂ (KeepsRed r) l l1)
    (hI : ∀ a ∈ l, a.type = e_action.REDUCE ∧ a.x = r → a.sp = dflt) :
    ∀ b ∈ l1, b.type = e_action.REDUCE ∧ b.x = r → b.sp = dflt := by
  induction h with
  | nil => simp
  | cons hab _ ih =>
    intro b hb hr
    simp only [List.mem_cons] at hb
    rcases hb with rfl | hb
    · rw [hab.1]
      exact hI _ (by simp) (hab.2.1.1 hr)
    · exact ih (fun a ha => hI a (by simp [ha])) b hb hr

theorem keepsRed_count {r : Nat} {l l1 : List action} (h : List.Forall₂ (KeepsRed r) l l1) :
    reduceCount r l1 = reduceCount r l := by
  unfold reduceCount
  induction h with
  | nil => rfl
  | cons hab _ ih =>
    rw [List.countP_cons, List.countP_cons, ih]
    rename_i a b _ _ _
    by_cases e : a.type = e_action.REDUCE ∧ a.x = r
    · simp [hab.2.1.2 e, e]
    · have e1 : ¬ (b.type = e_action.REDUCE ∧ b.x = r) := fun h => e (hab.2.1.1 h)
      simp only [e, e1, decide_False]

theorem unitLoop_red (lemp : lemon) (dflt r : Nat) (fuel i : Nat) (l out : List action)
    (hlhs : ∀ rp ∈ lemp.rule, rp.lhs ≠ dflt)
    (hI : ∀ a ∈ l, a.type = e_action.REDUCE ∧ a.x = r → a.sp = dflt)
    (h : unitLoop lemp fuel i l = some out) : List.Forall₂ (KeepsRed r) l out := by
  have hs := unitLoop_steps lemp fuel i l out h
  clear h
  induction hs with
  | refl => exact List.forall₂_same.2 (fun x _ => ⟨rfl, Iff.rfl, id⟩)
  | tail _ hstep ih =>
    refine forall₂_comp ?_ ih (unitStep_red lemp dflt r hlhs (keepsRed_inv ih hI) hstep)
    intro a b c h1 h2
    exact ⟨h2.1.trans h1.1, h2.2.1.trans h1.2.1, fun e => h2.2.2 (h1.2.2 e)⟩

theorem fuse_keepsRed (states : List state) (r : Nat) (l : List action) :
    List.Forall₂ (KeepsRed r) l (l.map (fuseAction states)) := by
  rw [List.forall₂_map_right_iff, List.forall₂_same]
  intro a _
  unfold fuseAction
  by_cases h : a.type ≠ e_action.SHIFT
  · rw [if_pos h]
    exact ⟨rfl, Iff.rfl, id⟩
  · rw [if_neg h]
    push_neg at h
    cases (stateAt states a.x).pDfltReduce with
    | none => exact ⟨rfl, Iff.rfl, id⟩
    | some q =>
      simp only
      split_ifs
      · refine ⟨rfl, ?_, ?_⟩
        · simp [h]
        · simp [h]
      · exact ⟨rfl, Iff.rfl, id⟩

theorem markDefault_spec (dflt r : Nat) (l out : List action)
    (h : markDefault dflt r l = some out) :
    List.Forall₂ (Defaulted dflt r) l out ∧ reduceCount r out = 1 ∧
    ∀ b ∈ out, b.type = e_action.REDUCE ∧ b.x = r → b.sp = dflt := by
  induction l generalizing out with
  | nil => simp [markDefault] at h
  | cons ap rest ih =>
    unfold markDefault at h
    by_cases hc : ap.type = e_action.REDUCE ∧ ap.x = r
    · rw [if_pos hc] at h
      simp only [Option.some.injEq] at h
      subst h
      refine ⟨List.Forall₂.cons ⟨fun _ => Or.inl ⟨hc.1, hc.2, rfl⟩, fun hn => absurd hc hn⟩ ?_,
        ?_, ?_⟩
      · rw [List.forall₂_map_right_iff, List.forall₂_same]
        intro a _
        by_cases ha : a.type = e_action.REDUCE ∧ a.x = r
        · rw [if_pos ha]
          exact ⟨fun _ => Or.inr rfl, fun hn => absurd ha hn⟩
        · rw [if_neg ha]
          exact ⟨fun h1 => absurd h1 ha, fun _ => ⟨rfl, ha⟩⟩
      · unfold reduceCount
        rw [List.countP_cons, List.countP_eq_zero.2]
        · simp [hc]
        · intro b hb
          simp only [List.mem_map] at hb
          obtain ⟨a, -, rfl⟩ := hb
          by_cases ha : a.type = e_action.REDUCE ∧ a.x = r
          · rw [if_pos ha]
            simp
          · rw [if_neg ha]
            simpa using ha
      · intro b hb hr
        simp only [List.mem_cons, List.mem_map] at hb
        rcases hb with rfl | ⟨a, -, rfl⟩
        · rfl
        · by_cases ha : a.type = e_action.REDUCE ∧ a.x = r
          · rw [if_pos ha] at hr
            simp at hr
          · rw [if_neg ha] at hr
            exact absurd hr ha
    · rw [if_neg hc] at h
      cases hm : markDefault dflt r rest with
      | none => simp [hm] at h
      | some out1 =>
        simp only [hm, Option.map_some', Option.some.injEq] at h
        subst h
        obtain ⟨i1, i2, i3⟩ := ih out1 hm
        refine ⟨List.Forall₂.cons ⟨fun h1 => absurd h1 hc, fun _ => ⟨rfl, hc⟩⟩ i1, ?_, ?_⟩
        · unfold reduceCount at i2 ⊢
          rw [List.countP_cons, i2]
          simp [hc]
        · intro b hb hr
          simp only [List.mem_cons] at hb
          rcases hb with rfl | hb
          · exact absurd hr hc
          · exact i3 b hb hr

theorem stateAt_congr {a b : List state} {q : Nat} (h : a[q]? = b[q]?) :
    stateAt a q = stateAt b q := by
  simp [stateAt, List.getD, h]

theorem CompressTables_stages (code : e_action → Int) (fuel : Nat) (lemp lemp1 : lemon)
    (states states3 : List state) (ps : List Nat) (dflt : Nat)
    (hs : sortedStates lemp = some ps) (hnd : ps.Nodup)
    (hd : Symbol_find lemp.symbols "{default}" = some dflt)
    (h : CompressTables code fuel lemp states = some (lemp1, states3)) :
    lemp1 = lemp ∧ ∃ states1 states2,
      compressStates code ps (lemp, states) = some (lemp, states1) ∧
      fuseStates ps states1 = some states2 ∧
      unitStates lemp fuel ps states2 = some states3 := by
  unfold CompressTables at h
  simp only [hs] at h
  cases h1 : compressStates code ps (lemp, states) with
  | none => simp [h1] at h
  | some r1 =>
    obtain ⟨l1, states1⟩ := r1
    obtain ⟨rfl, -⟩ := compressStates_spec code dflt ps lemp states l1 states1 hd hnd h1
    simp only [h1] at h
    cases h2 : fuseStates ps states1 with
    | none => simp [h2] at h
    | some states2 =>
      simp only [h2] at h
      cases h3 : unitStates l1 fuel ps states2 with
      | none => simp [h3] at h
      | some s3 =>
        simp only [h3, Option.some.injEq, Prod.mk.injEq] at h
        obtain ⟨rfl, rfl⟩ := h
        exact ⟨rfl, states1, states2, rfl, h2, h3⟩

theorem CompressTables_state (code : e_action → Int) (fuel : Nat) (lemp lemp1 : lemon)
    (states states3 : List state) (ps : List Nat) (dflt : Nat)
    (hs : sortedStates lemp = some ps) (hnd : ps.Nodup)
    (hd : Symbol_find lemp.symbols "{default}" = some dflt)
    (h : CompressTables code fuel lemp states = some (lemp1, states3)) :
    ∃ states1, compressStates code ps (lemp, states) = some (lemp, states1) ∧
      (∀ q, (stateAt states3 q).autoReduce = (stateAt states1 q).autoReduce ∧
        (stateAt states3 q).pDfltReduce = (stateAt states1 q).pDfltReduce) ∧
      (∀ q, q ∉ ps → stateAt states3 q = stateAt states q) ∧
      ∀ p ∈ ps, ∃ stp1 ap3,
        compressState lemp code (stateAt states p) = some (lemp.symbols, stp1) ∧
        stateAt states1 p = stp1 ∧
        unitLoop lemp fuel 0 (stp1.ap.map (fuseAction states1)) = some ap3 ∧
        stateAt states3 p = { stp1 with ap := ap3 } := by
  obtain ⟨-, states1, states2, h1, h2, h3⟩ :=
    CompressTables_stages code fuel lemp lemp1 states states3 ps dflt hs hnd hd h
  obtain ⟨-, -, a3, a4⟩ := compressStates_spec code dflt ps lemp states lemp states1 hd hnd h1
  obtain ⟨-, b3, b4⟩ := fuseStates_spec ps states1 states2 hnd h2
  obtain ⟨-, c3, c4⟩ := unitStates_spec lemp fuel ps states2 states3 hnd h3
  have key : ∀ p ∈ ps, ∃ stp1 ap3,
      compressState lemp code (stateAt states p) = some (lemp.symbols, stp1) ∧
      stateAt states1 p = stp1 ∧
      unitLoop lemp fuel 0 (stp1.ap.map (fuseAction states1)) = some ap3 ∧
      stateAt states3 p = { stp1 with ap := ap3 } := by
    intro p hp
    obtain ⟨stp, stp1, x1, x2, x3⟩ := a4 p hp
    obtain ⟨s1, y1, y2⟩ := b4 p hp
    obtain ⟨s2, ap3, z1, z2, z3⟩ := c4 p hp
    rw [x3] at y1
    simp only [Option.some.injEq] at y1
    subst y1
    rw [y2] at z1
    simp only [Option.some.injEq] at z1
    subst z1
    refine ⟨stp1, ap3, ?_, stateAt_of_getElem? x3, z2, ?_⟩
    · rw [stateAt_of_getElem? x1]
      exact x2
    · rw [stateAt_of_getElem? z3]
  refine ⟨states1, h1, ?_, ?_, key⟩
  · intro q
    by_cases hq : q ∈ ps
    · obtain ⟨stp1, ap3, -, k2, -, k4⟩ := key q hq
      rw [k4, k2]
      exact ⟨rfl, rfl⟩
    · rw [stateAt_congr ((c3 q hq).trans (b3 q hq))]
      exact ⟨rfl, rfl⟩
  · intro q hq
    exact stateAt_congr (((c3 q hq).trans (b3 q hq)).trans (a3 q hq))

theorem defaulted_keeps {dflt r : Nat} (a b c : action) (h1 : Defaulted dflt r a b)
    (h2 : KeepsRed r b c) : Defaulted dflt r a c := by
  constructor
  · intro ha
    rcases h1.1 ha with ⟨t1, t2, t3⟩ | t
    · have := h2.2.1.2 ⟨t1, t2⟩
      exact Or.inl ⟨this.1, this.2, h2.1.trans t3⟩
    · exact Or.inr (h2.2.2 t)
  · intro ha
    obtain ⟨t1, t2⟩ := h1.2 ha
    exact ⟨h2.1.trans t1, fun hc => t2 (h2.2.1.1 hc)⟩

theorem compress_default_state (code : e_action → Int) (fuel : Nat) (lemp : lemon)
    (states1 : List state) (dflt r : Nat) (stp stp1 : state) (ap3 : List action)
    (hd : Symbol_find lemp.symbols "{default}" = some dflt)
    (hlhs : ∀ rp ∈ lemp.rule, rp.lhs ≠ dflt)
    (hlen : stp.ap.length < 2 ^ 30)
    (hr : defaultRule lemp stp.ap = some r)
    (h1 : compressState lemp code stp = some (lemp.symbols, stp1))
    (h3 : unitLoop lemp fuel 0 (stp1.ap.map (fuseAction states1)) = some ap3) :
    reduceCount r ap3 = 1 ∧
    (∀ b ∈ ap3, b.type = e_action.REDUCE ∧ b.x = r → b.sp = dflt) ∧
    ∃ l, l.Perm stp.ap ∧ List.Forall₂ (Defaulted dflt r) l ap3 := by
  have hc := (compressState_spec lemp code stp dflt _ stp1 hd h1).2
  rw [hr] at hc
  obtain ⟨ap1, m1, m2⟩ := hc
  obtain ⟨d1, d2, d3⟩ := markDefault_spec dflt r stp.ap ap1 m1
  have hap : stp1.ap = Action_sort lemp.symbols lemp.rule code ap1 := by
    rw [m2]
    split_ifs <;> rfl
  have hperm : stp1.ap.Perm ap1 := by
    rw [hap]
    apply msort_perm
    rw [← d1.length_eq]
    exact hlen
  have k2 := fuse_keepsRed states1 r stp1.ap
  have i2 : ∀ b ∈ stp1.ap, b.type = e_action.REDUCE ∧ b.x = r → b.sp = dflt :=
    fun b hb => d3 b (hperm.subset hb)
  have i3 := keepsRed_inv k2 i2
  have k3 := unitLoop_red lemp dflt r fuel 0 _ ap3 hlhs i3 h3
  refine ⟨?_, keepsRed_inv k3 i3, ?_⟩
  · rw [keepsRed_count k3, keepsRed_count k2]
    unfold reduceCount at d2 ⊢
    rw [hperm.countP_eq, d2]
  · have hcomp : Relation.Comp (List.Forall₂ (Defaulted dflt r)) List.Perm stp.ap stp1.ap :=
      ⟨ap1, d1, hperm.symm⟩
    rw [List.forall₂_comp_perm_eq_perm_comp_forall₂] at hcomp
    obtain ⟨l, p1, p2⟩ := hcomp
    refine ⟨l, p1.symm, ?_⟩
    exact forall₂_comp defaulted_keeps (forall₂_comp defaulted_keeps p2 k2) k3

theorem onlyDefault_iff (r : Nat) (aps : List action) :
    onlyDefault r aps = true ↔ OnlyDefault r aps := by
  unfold onlyDefault OnlyDefault
  rw [List.all_eq_true]
  constructor
  · intro h a ha
    have := h a ha
    simp only [Bool.not_eq_true', Bool.or_eq_false_iff, decide_eq_false_iff_not] at this
    exact this
  · intro h a ha
    have := h a ha
    simp only [Bool.not_eq_true', Bool.or_eq_false_iff, decide_eq_false_iff_not]
    exact this

theorem stateAt_auto_zero {states : List state} (h0 : ∀ s ∈ states, s.autoReduce = 0) (q : Nat) :
    (stateAt states q).autoReduce = 0 := by
  cases hq : states[q]? with
  | none => simp [stateAt, List.getD, hq]
  | some s =>
    rw [stateAt_of_getElem? hq]
    exact h0 s (List.getElem?_mem hq)

theorem compressState_auto (lemp : lemon) (code : e_action → Int) (stp stp1 : state)
    (dflt : Nat) (hd : Symbol_find lemp.symbols "{default}" = some dflt)
    (h0 : stp.autoReduce = 0)
    (h : compressState lemp code stp = some (lemp.symbols, stp1)) (r : Nat) :
    ((stp1.autoReduce ≠ 0 ∧ stp1.pDfltReduce = some r) ↔
      (defaultRule lemp stp.ap = some r ∧ OnlyDefault r stp1.ap)) ∧
    (stp1.autoReduce ≠ 0 → stp1.autoReduce = 1 ∧ ∃ r1, stp1.pDfltReduce = some r1) := by
  have hc := (compressState_spec lemp code stp dflt _ stp1 hd h).2
  cases hdr : defaultRule lemp stp.ap with
  | none =>
    rw [hdr] at hc
    simp only at hc
    subst hc
    simp [h0]
  | some r1 =>
    rw [hdr] at hc
    obtain ⟨ap1, -, m2⟩ := hc
    by_cases ho : onlyDefault r1 (Action_sort lemp.symbols lemp.rule code ap1) = true
    · rw [if_pos ho] at m2
      subst m2
      simp only [ne_eq, one_ne_zero, not_false_eq_true, Option.some.injEq, true_and,
        exists_eq', and_self, implies_true, and_true]
      constructor
      · rintro rfl
        exact ⟨rfl, (onlyDefault_iff _ _).1 ho⟩
      · rintro ⟨e, -⟩
        exact e
    · rw [if_neg ho] at m2
      subst m2
      simp only [h0, ne_eq, not_true_eq_false, false_and, Option.some.injEq, false_iff, not_and,
        false_implies, and_true]
      rintro rfl hx
      exact ho ((onlyDefault_iff _ _).2 hx)

theorem fuse_fused (states : List state)
    (hp : ∀ q, (stateAt states q).autoReduce ≠ 0 → ∃ r, (stateAt states q).pDfltReduce = some r)
    (l : List action) : List.Forall₂ (Fused states) l (l.map (fuseAction states)) := by
  rw [List.forall₂_map_right_iff, List.forall₂_same]
  intro a _
  unfold Fused fuseAction
  by_cases h : a.type = e_action.SHIFT
  · by_cases ha : (stateAt states a.x).autoReduce ≠ 0
    · obtain ⟨r, hr⟩ := hp _ ha
      rw [if_pos ⟨h, ha⟩, if_neg (by simpa using h), hr]
      simp [if_pos ha]
    · rw [if_neg (fun e => ha e.2), if_neg (by simpa using h)]
      cases (stateAt states a.x).pDfltReduce with
      | none => rfl
      | some r => simp only [if_neg ha]
  · rw [if_neg (fun e => h e.1), if_pos h]

theorem fuse_noshift (states : List state)
    (hp : ∀ q, (stateAt states q).autoReduce ≠ 0 → ∃ r, (stateAt states q).pDfltReduce = some r)
    (l : List action) :
    ∀ b ∈ l.map (fuseAction states), b.type = e_action.SHIFT →
      (stateAt states b.x).autoReduce = 0 := by
  intro b hb hs
  simp only [List.mem_map] at hb
  obtain ⟨a, -, rfl⟩ := hb
  by_contra hne
  unfold fuseAction at hs hne
  by_cases h : a.type = e_action.SHIFT
  · rw [if_neg (by simpa using h)] at hs hne
    by_cases ha : (stateAt states a.x).autoReduce ≠ 0
    · obtain ⟨r, hr⟩ := hp _ ha
      rw [hr] at hs
      simp [if_pos ha] at hs
    · cases hq : (stateAt states a.x).pDfltReduce with
      | none =>
        rw [hq] at hne
        exact ha hne
      | some r =>
        rw [hq] at hne
        simp only [if_neg ha] at hne
        exact ha hne
  · rw [if_pos h] at hs
    exact h hs

theorem fuse_onlyDefault (states : List state) (r : Nat) (l : List action)
    (h : OnlyDefault r l) : OnlyDefault r (l.map (fuseAction states)) := by
  intro b hb
  simp only [List.mem_map] at hb
  obtain ⟨a, ha, rfl⟩ := hb
  have : fuseAction states a = a := by
    unfold fuseAction
    rw [if_pos (h a ha).1]
  rw [this]
  exact h a ha

/-- C22: for every state in which `CompressTables` selects a default rule `r`, after the
call exactly one action of the state is a `REDUCE` by `r`, the lookahead of that action
is the `{default}` symbol, every other action that was a `REDUCE` by `r` is tagged
`NOT_USED`, and every action that was not a `REDUCE` by `r` keeps its lookahead symbol
(`Defaulted` relates the actions before, in the order that `Action_sort` gives them, to
the actions after).  `{default}` is in the symbol table, as `main` puts it there, and is
no left-hand side. -/
theorem CompressTables_default_marks (code : e_action → Int) (fuel : Nat) (lemp lemp1 : lemon)
    (states states1 : List state) (ps : List Nat) (dflt : Nat)
    (hs : sortedStates lemp = some ps) (hnd : ps.Nodup)
    (hd : Symbol_find lemp.symbols "{default}" = some dflt)
    (hlhs : ∀ rp ∈ lemp.rule, rp.lhs ≠ dflt)
    (hlen : ∀ p ∈ ps, (stateAt states p).ap.length < 2 ^ 30)
    (h : CompressTables code fuel lemp states = some (lemp1, states1)) :
    ∀ p ∈ ps, ∀ r, defaultRule lemp (stateAt states p).ap = some r →
      reduceCount r (stateAt states1 p).ap = 1 ∧
      (∀ b ∈ (stateAt states1 p).ap, b.type = e_action.REDUCE ∧ b.x = r → b.sp = dflt) ∧
      ∃ l, l.Perm (stateAt states p).ap ∧
        List.Forall₂ (Defaulted dflt r) l (stateAt states1 p).ap := by
  obtain ⟨s1, -, -, -, key⟩ :=
    CompressTables_state code fuel lemp lemp1 states states1 ps dflt hs hnd hd h
  intro p hp r hr
  obtain ⟨stp1, ap3, k1, -, k3, k4⟩ := key p hp
  rw [k4]
  exact compress_default_state code fuel lemp s1 dflt r _ stp1 ap3 hd hlhs (hlen p hp) hr k1 k3

set_option maxRecDepth 100000 in
/-- The grammar `s ::= a Y.  a ::= b.  b ::= X.`: the states `a ::= b .` and `b ::= X .`
get a default. -/
theorem CompressTables_default_marks_witness :
    sortedStates unitLemon = some [0, 1, 2, 3, 4] ∧
    CompressTables actionCode 10 unitLemon unitStatesExample = some (unitLemon, unitFinal) ∧
    defaultRule unitLemon (stateAt unitStatesExample 3).ap = some 1 ∧
    ∀ p ∈ [0, 1, 2, 3, 4], ∀ r, defaultRule unitLemon (stateAt unitStatesExample p).ap = some r →
      reduceCount r (stateAt unitFinal p).ap = 1 ∧
      (∀ b ∈ (stateAt unitFinal p).ap, b.type = e_action.REDUCE ∧ b.x = r → b.sp = 6) ∧
      ∃ l, l.Perm (stateAt unitStatesExample p).ap ∧
        List.Forall₂ (Defaulted 6 r) l (stateAt unitFinal p).ap :=
  ⟨by decide, by decide, by decide,
    CompressTables_default_marks actionCode 10 unitLemon unitLemon unitStatesExample unitFinal
      [0, 1, 2, 3, 4] 6 (by decide) (by decide) (by decide) (by decide) (by decide) (by decide)⟩

/-- C23: the second loop of `CompressTables` (`fuseStates`) turns a `SHIFT` into the
`SHIFTREDUCE` by `r` exactly when the target state has `autoReduce` set, `r` being the
`pDfltReduce` of the target; a state with `autoReduce` set has a `pDfltReduce` `r` and no
`SHIFT` and no `REDUCE` by another rule than `r`, when the second loop runs and when
`CompressTables` returns; and after the return no `SHIFT` of a state in `sorted` targets a
state with `autoReduce` set.  The states come from `State_new`, which clears
`autoReduce`. -/
theorem CompressTables_fuses_shifts (code : e_action → Int) (fuel : Nat) (lemp lemp1 : lemon)
    (states states3 : List state) (ps : List Nat) (dflt : Nat)
    (hs : sortedStates lemp = some ps) (hnd : ps.Nodup)
    (hd : Symbol_find lemp.symbols "{default}" = some dflt)
    (h0 : ∀ s ∈ states, s.autoReduce = 0)
    (h : CompressTables code fuel lemp states = some (lemp1, states3)) :
    ∃ states1 states2, compressStates code ps (lemp, states) = some (lemp, states1) ∧
      fuseStates ps states1 = some states2 ∧
      (∀ p ∈ ps, List.Forall₂ (Fused states1) (stateAt states1 p).ap (stateAt states2 p).ap) ∧
      (∀ q, (stateAt states1 q).autoReduce ≠ 0 →
        ∃ r, (stateAt states1 q).pDfltReduce = some r ∧
          OnlyDefault r (stateAt states1 q).ap ∧ OnlyDefault r (stateAt states3 q).ap) ∧
      ∀ p ∈ ps, ∀ a ∈ (stateAt states3 p).ap, a.type = e_action.SHIFT →
        (stateAt states3 a.x).autoReduce = 0 := by
  obtain ⟨-, states1, states2, h1, h2, h3⟩ :=
    CompressTables_stages code fuel lemp lemp1 states states3 ps dflt hs hnd hd h
  obtain ⟨s1, h1b, flags, hout, key⟩ :=
    CompressTables_state code fuel lemp lemp1 states states3 ps dflt hs hnd hd h
  rw [h1] at h1b
  simp only [Option.some.injEq, Prod.mk.injEq, true_and] at h1b
  subst h1b
  obtain ⟨-, -, a3, -⟩ := compressStates_spec code dflt ps lemp states lemp states1 hd hnd h1
  obtain ⟨-, -, b4⟩ := fuseStates_spec ps states1 states2 hnd h2
  -- a state with `autoReduce` set was processed by the first loop
  have hauto : ∀ q, (stateAt states1 q).autoReduce ≠ 0 → ∃ r,
      (stateAt states1 q).pDfltReduce = some r ∧ OnlyDefault r (stateAt states1 q).ap ∧
      OnlyDefault r (stateAt states3 q).ap := by
    intro q hq
    by_cases hqp : q ∈ ps
    · obtain ⟨stp1, ap3, k1, k2, k3, k4⟩ := key q hqp
      subst k2
      have ha := compressState_auto lemp code _ _ dflt hd (stateAt_auto_zero h0 q) k1
      obtain ⟨-, r, hr⟩ := (ha 0).2 hq
      have hod := (((ha r).1).1 ⟨hq, hr⟩).2
      refine ⟨r, hr, hod, ?_⟩
      rw [k4]
      exact unitLoop_keep lemp
        (fun t x => t ≠ e_action.SHIFT ∧ ¬ (t = e_action.REDUCE ∧ x ≠ r)) fuel 0 _ ap3 k3
        (fuse_onlyDefault states1 r _ hod)
    · rw [stateAt_congr (a3 q hqp)] at hq
      exact absurd (stateAt_auto_zero h0 q) hq
  have hp : ∀ q, (stateAt states1 q).autoReduce ≠ 0 →
      ∃ r, (stateAt states1 q).pDfltReduce = some r := by
    intro q hq
    obtain ⟨r, hr, -⟩ := hauto q hq
    exact ⟨r, hr⟩
  refine ⟨states1, states2, h1, h2, ?_, hauto, ?_⟩
  · intro p hpp
    obtain ⟨stp, x1, x2⟩ := b4 p hpp
    rw [stateAt_of_getElem? x1, stateAt_of_getElem? x2]
    exact fuse_fused states1 hp stp.ap
  · intro p hpp a ha hsh
    obtain ⟨stp1, ap3, -, k2, k3, k4⟩ := key p hpp
    rw [k4] at ha
    rw [(flags a.x).1]
    exact unitLoop_keep lemp
      (fun t x => t = e_action.SHIFT → (stateAt states1 x).autoReduce = 0) fuel 0 _ ap3 k3
      (fuse_noshift states1 hp stp1.ap) a ha hsh

/-- C28: for a state of `sorted`, `CompressTables` leaves `autoReduce = 1` and
`pDfltReduce = r` if and only if it selected the default rule `r` for the state and the
action list of the state after the re-sort of line 5004 has no `SHIFT` and no `REDUCE` by
a rule other than `r`.  The states come from `State_new`, which clears `autoReduce`. -/
theorem CompressTables_auto_reduce (code : e_action → Int) (fuel : Nat) (lemp lemp1 : lemon)
    (states states3 : List state) (ps : List Nat) (dflt : Nat)
    (hs : sortedStates lemp = some ps) (hnd : ps.Nodup)
    (hd : Symbol_find lemp.symbols "{default}" = some dflt)
    (h0 : ∀ s ∈ states, s.autoReduce = 0)
    (h : CompressTables code fuel lemp states = some (lemp1, states3)) :
    ∃ states1, compressStates code ps (lemp, states) = some (lemp, states1) ∧
      ∀ p ∈ ps, ∀ r,
        ((stateAt states3 p).autoReduce = 1 ∧ (stateAt states3 p).pDfltReduce = some r) ↔
        (defaultRule lemp (stateAt states p).ap = some r ∧
          OnlyDefault r (stateAt states1 p).ap) := by
  obtain ⟨states1, h1, flags, -, key⟩ :=
    CompressTables_state code fuel lemp lemp1 states states3 ps dflt hs hnd hd h
  refine ⟨states1, h1, ?_⟩
  intro p hp r
  obtain ⟨stp1, ap3, k1, k2, -, -⟩ := key p hp
  subst k2
  have ha := compressState_auto lemp code _ _ dflt hd (stateAt_auto_zero h0 p) k1 r
  rw [(flags p).1, (flags p).2, ← ha.1]
  constructor
  · rintro ⟨e1, e2⟩
    exact ⟨by rw [e1]; decide, e2⟩
  · rintro ⟨e1, e2⟩
    exact ⟨(ha.2 e1).1, e2⟩

set_option maxRecDepth 100000 in
/-- The grammar `s ::= a Y.  a ::= b.  b ::= X.`: in state 0 the shifts on `X` and `b` are
fused, the shift on `a` is not. -/
theorem CompressTables_fuses_shifts_witness :
    sortedStates unitLemon = some [0, 1, 2, 3, 4] ∧
    CompressTables actionCode 10 unitLemon unitStatesExample = some (unitLemon, unitFinal) ∧
    ∃ states1 states2,
      compressStates actionCode [0, 1, 2, 3, 4] (unitLemon, unitStatesExample) =
        some (unitLemon, states1) ∧
      fuseStates [0, 1, 2, 3, 4] states1 = some states2 ∧
      (∀ p ∈ [0, 1, 2, 3, 4],
        List.Forall₂ (Fused states1) (stateAt states1 p).ap (stateAt states2 p).ap) ∧
      (∀ q, (stateAt states1 q).autoReduce ≠ 0 →
        ∃ r, (stateAt states1 q).pDfltReduce = some r ∧
          OnlyDefault r (stateAt states1 q).ap ∧ OnlyDefault r (stateAt unitFinal q).ap) ∧
      ∀ p ∈ [0, 1, 2, 3, 4], ∀ a ∈ (stateAt unitFinal p).ap, a.type = e_action.SHIFT →
        (stateAt unitFinal a.x).autoReduce = 0 :=
  ⟨by decide, by decide,
    CompressTables_fuses_shifts actionCode 10 unitLemon unitLemon unitStatesExample unitFinal
      [0, 1, 2, 3, 4] 6 (by decide) (by decide) (by decide) (by decide) (by decide)⟩

set_option maxRecDepth 100000 in
/-- The grammar `s ::= a Y.  a ::= b.  b ::= X.`: the states 3 and 4 get `autoReduce`. -/
theorem CompressTables_auto_reduce_witness :
    sortedStates unitLemon = some [0, 1, 2, 3, 4] ∧
    CompressTables actionCode 10 unitLemon unitStatesExample = some (unitLemon, unitFinal) ∧
    ((stateAt unitFinal 3).autoReduce = 1 ∧ (stateAt unitFinal 3).pDfltReduce = some 1) ∧
    ∃ states1,
      compressStates actionCode [0, 1, 2, 3, 4] (unitLemon, unitStatesExample) =
        some (unitLemon, states1) ∧
      ∀ p ∈ [0, 1, 2, 3, 4], ∀ r,
        ((stateAt unitFinal p).autoReduce = 1 ∧ (stateAt unitFinal p).pDfltReduce = some r) ↔
        (defaultRule unitLemon (stateAt unitStatesExample p).ap = some r ∧
          OnlyDefault r (stateAt states1 p).ap) :=
  ⟨by decide, by decide, by decide,
    CompressTables_auto_reduce actionCode 10 unitLemon unitLemon unitStatesExample unitFinal
      [0, 1, 2, 3, 4] 6 (by decide) (by decide) (by decide) (by decide) (by decide)⟩

set_option maxRecDepth 100000 in
/-- C27: the grammar `%wildcard ANY.  s ::= a ANY.  a ::= X.`  The only action of state 3
(`a ::= X .`) is the `REDUCE` by rule 1 on the wildcard `ANY` (symbol 1), so the wildcard
is a possible lookahead of the state; `CompressTables` still makes rule 1 the default of
the state: the lookahead of the action becomes `{default}` (symbol 5) and `autoReduce`
becomes 1. -/
theorem CompressTables_wildcard_reduce_default :
    wildLemon.wildcard = some 1 ∧
    (stateAt wildStates 3).ap = [{ sp := 1, type := e_action.REDUCE, x := 1, addr := 5 }] ∧
    CompressTables actionCode 10 wildLemon wildStates = some (wildLemon, wildFinal) ∧
    (stateAt wildFinal 3).ap = [{ sp := 5, type := e_action.REDUCE, x := 1, addr := 5 }] ∧
    (stateAt wildFinal 3).autoReduce = 1 := by
  decide

theorem markDefault_some (dflt r : Nat) (l : List action)
    (h : ∃ a ∈ l, a.type = e_action.REDUCE ∧ a.x = r) :
    ∃ out, markDefault dflt r l = some out := by
  induction l with
  | nil => simp at h
  | cons ap rest ih =>
    unfold markDefault
    by_cases hc : ap.type = e_action.REDUCE ∧ ap.x = r
    · rw [if_pos hc]
      exact ⟨_, rfl⟩
    · rw [if_neg hc]
      obtain ⟨a, ha, h1⟩ := h
      rcases List.mem_cons.1 ha with rfl | ha
      · exact absurd h1 hc
      · obtain ⟨out, ho⟩ := ih ⟨a, ha, h1⟩
        rw [ho]
        exact ⟨_, rfl⟩

theorem compressState_total (lemp : lemon) (code : e_action → Int) (stp : state) (dflt : Nat)
    (hd : Symbol_find lemp.symbols "{default}" = some dflt) :
    ∃ stp1, compressState lemp code stp = some (lemp.symbols, stp1) := by
  have hb := bestRule_spec lemp stp.ap
  unfold compressState
  rw [Symbol_new_found hd]
  generalize bestRule lemp stp.ap (0, none, 0) = st at hb ⊢
  obtain ⟨nbest, rbest, uses⟩ := st
  obtain ⟨-, -, i3⟩ := hb
  simp only at i3 ⊢
  by_cases hc : nbest < 1 ∨ uses ≠ 0
  · rw [if_pos hc]
    exact ⟨_, rfl⟩
  · rw [if_neg hc]
    cases rbest with
    | none =>
      simp only at i3
      exact absurd (Or.inl (by omega)) hc
    | some rb =>
      simp only at i3 ⊢
      obtain ⟨out, ho⟩ := markDefault_some dflt rb stp.ap i3.2.2
      rw [ho]
      simp only
      split_ifs
      · exact ⟨_, rfl⟩
      · exact ⟨_, rfl⟩

theorem compressStates_total (code : e_action → Int) (dflt : Nat) (ps : List Nat) (lemp : lemon)
    (states : List state) (hd : Symbol_find lemp.symbols "{default}" = some dflt)
    (hin : ∀ p ∈ ps, p < states.length) :
    ∃ states1, compressStates code ps (lemp, states) = some (lemp, states1) := by
  induction ps generalizing states with
  | nil => exact ⟨states, rfl⟩
  | cons p rest ih =>
    have hp := hin p (List.mem_cons_self _ _)
    obtain ⟨stp1, h1⟩ := compressState_total lemp code states[p] dflt hd
    obtain ⟨states1, h2⟩ := ih (states.set p stp1) (by
      intro q hq
      rw [List.length_set]
      exact hin q (List.mem_cons_of_mem _ hq))
    refine ⟨states1, ?_⟩
    unfold compressStates
    rw [List.getElem?_eq_getElem hp]
    simp only [h1]
    exact h2

theorem compressState_select (lemp : lemon) (code : e_action → Int) (stp stp1 : state)
    (dflt : Nat) (hd : Symbol_find lemp.symbols "{default}" = some dflt)
    (h : compressState lemp code stp = some (lemp.symbols, stp1)) :
    (NoDefaultCond lemp stp.ap ∧ stp1 = stp) ∨
    (¬ NoDefaultCond lemp stp.ap ∧
      ∃ r ap1, (ruleAt lemp.rule r).lhsStart = 0 ∧ 1 ≤ reduceCount r stp.ap ∧
        (∀ r1, (ruleAt lemp.rule r1).lhsStart = 0 →
          reduceCount r1 stp.ap ≤ reduceCount r stp.ap) ∧
        markDefault dflt r stp.ap = some ap1 ∧
        stp1.ap = Action_sort lemp.symbols lemp.rule code ap1) := by
  have hc := (compressState_spec lemp code stp dflt _ stp1 hd h).2
  obtain ⟨d1, d2⟩ := defaultRule_spec lemp stp.ap
  cases hdr : defaultRule lemp stp.ap with
  | none =>
    rw [hdr] at hc
    exact Or.inl ⟨d1.1 hdr, hc⟩
  | some r =>
    rw [hdr] at hc
    obtain ⟨ap1, m1, m2⟩ := hc
    obtain ⟨e1, e2, e3⟩ := d2 r hdr
    refine Or.inr ⟨?_, r, ap1, e1, e2, e3, m1, ?_⟩
    · intro hn
      have := d1.2 hn
      rw [hdr] at this
      cases this
    · rw [m2]
      split_ifs <;> rfl

/-- C26: the first loop of `CompressTables` (lines 4961-5014) runs to its end on the states
of `sorted`, and for each of them it does one of two things.  Either the state has no
`REDUCE` by a rule whose left-hand side is not the start symbol (`lhsStart = 0`) or has a
`SHIFT` on the wildcard, and the loop leaves the state as it is; or neither is the case,
and the loop selects a rule `r` with `lhsStart = 0` that has at least one `REDUCE` in the
state and at least as many as every other rule with `lhsStart = 0`: the action list of the
state becomes the re-sorted list in which the first `REDUCE` by `r` has the lookahead
`{default}` and the others are `NOT_USED` (`markDefault`).  `CompressTables` is this loop
followed by the two later loops.  `{default}` is in the symbol table, as `main` puts it
there. -/
theorem CompressTables_selects_most_frequent (code : e_action → Int) (fuel : Nat)
    (lemp : lemon) (states : List state) (ps : List Nat) (dflt : Nat)
    (hs : sortedStates lemp = some ps) (hnd : ps.Nodup) (hin : ∀ p ∈ ps, p < states.length)
    (hd : Symbol_find lemp.symbols "{default}" = some dflt) :
    ∃ states1, compressStates code ps (lemp, states) = some (lemp, states1) ∧
      CompressTables code fuel lemp states =
        (fuseStates ps states1).bind (fun states2 =>
          (unitStates lemp fuel ps states2).map (fun states3 => (lemp, states3))) ∧
      ∀ p ∈ ps,
        (NoDefaultCond lemp (stateAt states p).ap ∧ stateAt states1 p = stateAt states p) ∨
        (¬ NoDefaultCond lemp (stateAt states p).ap ∧
          ∃ r ap1, (ruleAt lemp.rule r).lhsStart = 0 ∧
            1 ≤ reduceCount r (stateAt states p).ap ∧
            (∀ r1, (ruleAt lemp.rule r1).lhsStart = 0 →
              reduceCount r1 (stateAt states p).ap ≤ reduceCount r (stateAt states p).ap) ∧
            markDefault dflt r (stateAt states p).ap = some ap1 ∧
            (stateAt states1 p).ap = Action_sort lemp.symbols lemp.rule code ap1) := by
  obtain ⟨states1, h1⟩ := compressStates_total code dflt ps lemp states hd hin
  obtain ⟨-, -, -, a4⟩ := compressStates_spec code dflt ps lemp states lemp states1 hd hnd h1
  refine ⟨states1, h1, ?_, ?_⟩
  · unfold CompressTables
    simp only [hs, h1]
    cases fuseStates ps states1 with
    | none => rfl
    | some states2 =>
      simp only [Option.some_bind]
      cases unitStates lemp fuel ps states2 <;> rfl
  · intro p hp
    obtain ⟨stp, stp1, x1, x2, x3⟩ := a4 p hp
    rw [stateAt_of_getElem? x1, stateAt_of_getElem? x3]
    exact compressState_select lemp code stp stp1 dflt hd x2

set_option maxRecDepth 100000 in
/-- The grammar `s ::= a Y.  a ::= b.  b ::= X.`: state 0 has no `REDUCE` and keeps its
actions, state 3 (`a ::= b .`) gets rule 1 as its default. -/
theorem CompressTables_selects_most_frequent_witness :
    sortedStates unitLemon = some [0, 1, 2, 3, 4] ∧ [0, 1, 2, 3, 4].Nodup ∧
    (∀ p ∈ [0, 1, 2, 3, 4], p < unitStatesExample.length) ∧
    Symbol_find unitLemon.symbols "{default}" = some 6 ∧
    NoDefaultCond unitLemon (stateAt unitStatesExample 0).ap ∧
    ¬ NoDefaultCond unitLemon (stateAt unitStatesExample 3).ap ∧
    ∃ states1, compressStates actionCode [0, 1, 2, 3, 4] (unitLemon, unitStatesExample) =
        some (unitLemon, states1) ∧
      CompressTables actionCode 10 unitLemon unitStatesExample =
        (fuseStates [0, 1, 2, 3, 4] states1).bind (fun states2 =>
          (unitStates unitLemon 10 [0, 1, 2, 3, 4] states2).map
            (fun states3 => (unitLemon, states3))) ∧
      ∀ p ∈ [0, 1, 2, 3, 4],
        (NoDefaultCond unitLemon (stateAt unitStatesExample p).ap ∧
          stateAt states1 p = stateAt unitStatesExample p) ∨
        (¬ NoDefaultCond unitLemon (stateAt unitStatesExample p).ap ∧
          ∃ r ap1, (ruleAt unitLemon.rule r).lhsStart = 0 ∧
            1 ≤ reduceCount r (stateAt unitStatesExample p).ap ∧
            (∀ r1, (ruleAt unitLemon.rule r1).lhsStart = 0 →
              reduceCount r1 (stateAt unitStatesExample p).ap ≤
                reduceCount r (stateAt unitStatesExample p).ap) ∧
            markDefault 6 r (stateAt unitStatesExample p).ap = some ap1 ∧
            (stateAt states1 p).ap =
              Action_sort unitLemon.symbols unitLemon.rule actionCode ap1) :=
  ⟨by decide, by decide, by decide, by decide, by decide, by decide,
    CompressTables_selects_most_frequent actionCode 10 unitLemon unitStatesExample
      [0, 1, 2, 3, 4] 6 (by decide) (by decide) (by decide) (by decide)⟩


theorem statecmp_single (rules : List rule) (a b : config) :
    statecmp rules [a] [b] = Configcmp rules a b := by
  simp only [statecmp, Configcmp]
  split_ifs <;> simp_all

theorem statehash_single (rules : List rule) (a : config) :
    statehash rules [a] = confighash rules a := by
  simp [statehash, confighash]

theorem x4walk_eq (rules : List rule) (tbl : List x4node) (key : config) (fuel : Nat)
    (np : Option Nat) :
    x3walk rules (tbl.map node3) [key] fuel np =
      (x4walk rules tbl key fuel np).map (Option.map node3) := by
  induction fuel generalizing np with
  | zero => simp [x3walk, x4walk]
  | succ n ih =>
    cases np with
    | none => simp [x3walk, x4walk]
    | some i =>
      simp only [x3walk, x4walk, List.getElem?_map]
      cases hi : tbl[i]? with
      | none => simp
      | some node =>
        simp only [Option.map_some']
        have e : statecmp rules (node3 node).key [key] = Configcmp rules node.key key :=
          statecmp_single rules node.key key
        rw [e]
        by_cases hc : Configcmp rules node.key key = 0
        · simp [hc]
        · simp only [hc, if_false]
          exact ih _

theorem Configtable_find_eq (rules : List rule) (x : s_x4) (key : config) :
    Configtable_find rules x key = State_find rules (toX3 x) [key] := by
  unfold Configtable_find State_find
  simp only [toX3, statehash_single, x4walk_eq]
  cases x.ht[confighash rules key &&& (x.size - 1)]? with
  | none => rfl
  | some np =>
    simp only
    cases x4walk rules x.tbl key (x.count + 1) np with
    | none => rfl
    | some r =>
      cases r with
      | none => rfl
      | some n => rfl

theorem x4rehash_eq (rules : List rule) (arrSize : Nat) (old tbl : List x4node)
    (ht : List (Option Nat)) :
    x3rehash rules arrSize (old.map node3) (tbl.map node3) ht =
      (x4rehash rules arrSize old tbl ht).map (fun r => (r.1.map node3, r.2)) := by
  induction old generalizing tbl ht with
  | nil => simp [x3rehash, x4rehash]
  | cons o rest ih =>
    simp only [List.map_cons, x3rehash, x4rehash]
    have e : statehash rules (node3 o).key = confighash rules o.key := statehash_single rules o.key
    rw [e]
    cases ht[confighash rules o.key &&& (arrSize - 1)]? with
    | none => rfl
    | some head =>
      simp only
      have := ih (tbl ++ [{ data := o.data, key := o.key, next := head }])
        (ht.set (confighash rules o.key &&& (arrSize - 1)) (some tbl.length))
      simp only [List.map_append, List.map_cons, List.map_nil, List.length_map] at this ⊢
      exact this

theorem Configtable_insert_eq (rules : List rule) (x : s_x4) (data : Nat) (key : config) :
    State_insert rules (toX3 x) data [key] =
      (Configtable_insert rules x data key).map (fun r => (toX3 r.1, r.2)) := by
  unfold Configtable_insert State_insert
  simp only [toX3, statehash_single, x4walk_eq]
  cases x.ht[confighash rules key &&& (x.size - 1)]? with
  | none => rfl
  | some np =>
    simp only
    cases x4walk rules x.tbl key (x.count + 1) np with
    | none => rfl
    | some r =>
      cases r with
      | some n => rfl
      | none =>
        simp only [Option.map_some', Option.map_none']
        by_cases hfull : x.count ≥ x.size
        · simp only [hfull, if_true]
          have := x4rehash_eq rules (x.size * 2) x.tbl [] (List.replicate (x.size * 2) none)
          simp only [List.map_nil] at this
          rw [this]
          cases x4rehash rules (x.size * 2) x.tbl [] (List.replicate (x.size * 2) none) with
          | none => rfl
          | some r =>
            obtain ⟨tbl1, ht1⟩ := r
            simp only [Option.map_some']
            cases ht1[confighash rules key &&& (x.size * 2 - 1)]? with
            | none => rfl
            | some head => simp [node3]
        · simp only [hfull, if_false]
          cases x.ht[confighash rules key &&& (x.size - 1)]? with
          | none => rfl
          | some head => simp [node3]

theorem configKey_single (rules : List rule) (a b : config) :
    [a].map (configKey rules) = [b].map (configKey rules) ↔ configKey rules a = configKey rules b := by
  simp

theorem Configtable_find_spec {rules : List rule} {x : s_x4}
    (hc : ChainOK rules x.size (x.tbl.map node3) x.ht) (hcount : x.tbl.length = x.count)
    (key : config) :
    ∃ r, Configtable_find rules x key = some r ∧
      (∀ d, r = some d → ∃ (i : Nat) (node : x4node), x.tbl[i]? = some node ∧ node.data = d ∧
        configKey rules node.key = configKey rules key) ∧
      (r = none → ∀ (i : Nat) (node : x4node), x.tbl[i]? = some node →
        configKey rules node.key ≠ configKey rules key) := by
  have hc3 : ChainOK rules (toX3 x).size (toX3 x).tbl (toX3 x).ht := hc
  have hcount3 : (toX3 x).tbl.length = (toX3 x).count := by simpa [toX3] using hcount
  obtain ⟨r, h1, h2, h3⟩ := State_find_spec hc3 hcount3 [key]
  rw [← Configtable_find_eq] at h1
  refine ⟨r, h1, ?_, ?_⟩
  · intro d hd
    obtain ⟨i, node, e1, e2, e3⟩ := h2 d hd
    simp only [toX3, List.getElem?_map, Option.map_eq_some'] at e1
    obtain ⟨n, e4, rfl⟩ := e1
    exact ⟨i, n, e4, e2, by simpa [node3] using e3⟩
  · intro hr i node hi
    have := h3 hr i (node3 node) (by simp [toX3, hi])
    simpa [node3] using this

theorem Configtable_insert_new {rules : List rule} {x : s_x4}
    (hc : ChainOK rules x.size (x.tbl.map node3) x.ht) (hcount : x.tbl.length = x.count)
    (data : Nat) (key : config)
    (hnew : ∀ (i : Nat) (node : x4node), x.tbl[i]? = some node →
      configKey rules node.key ≠ configKey rules key) :
    ∃ x1, Configtable_insert rules x data key = some (x1, 1) ∧
      ChainOK rules x1.size (x1.tbl.map node3) x1.ht ∧ x1.tbl.length = x1.count ∧
      x1.tbl.map (fun n => (n.data, n.key)) =
        x.tbl.map (fun n => (n.data, n.key)) ++ [(data, key)] := by
  have hc3 : ChainOK rules (toX3 x).size (toX3 x).tbl (toX3 x).ht := hc
  have hcount3 : (toX3 x).tbl.length = (toX3 x).count := by simpa [toX3] using hcount
  obtain ⟨y, h1, h2, h3, -, h5⟩ := State_insert_new hc3 hcount3 data [key] (by
    intro i node hi
    simp only [toX3, List.getElem?_map, Option.map_eq_some'] at hi
    obtain ⟨n, e4, rfl⟩ := hi
    simpa [node3] using hnew i n e4)
  rw [Configtable_insert_eq] at h1
  cases hins : Configtable_insert rules x data key with
  | none => simp [hins] at h1
  | some r =>
    obtain ⟨x1, rv⟩ := r
    simp only [hins, Option.map_some', Option.some.injEq, Prod.mk.injEq] at h1
    obtain ⟨rfl, rfl⟩ := h1
    refine ⟨x1, rfl, h2, by simpa [toX3] using h3, ?_⟩
    simp only [x3entries, toX3, List.map_map] at h5
    have h6 := congrArg (List.map (fun (p : Nat × List config) => (p.1, p.2.head?))) h5
    simp only [List.map_map, List.map_append, List.map_cons, List.map_nil] at h6
    have h7 : ∀ l : List x4node,
        List.map ((fun (p : Nat × List config) => (p.1, p.2.head?)) ∘
          ((fun n => (n.data, n.key)) ∘ node3)) l =
        (l.map (fun n => (n.data, n.key))).map (fun p => (p.1, some p.2)) := by
      intro l
      simp [node3, Function.comp_def]
    rw [h7, h7] at h6
    have hinj : Function.Injective (fun (p : Nat × config) => (p.1, some p.2)) := by
      intro a b hab
      simp only [Prod.mk.injEq, Option.some.injEq] at hab
      exact Prod.ext hab.1 hab.2
    apply List.map_injective_iff.2 hinj
    simpa using h6

theorem cfgAt_append_left (l : List config) (c : config) {a : Nat} (h : a < l.length) :
    cfgAt (l ++ [c]) a = cfgAt l a := by
  simp [cfgAt, List.getD, List.getElem?_append_left h]

theorem cfgAt_append_self (l : List config) (c : config) : cfgAt (l ++ [c]) l.length = c := by
  simp [cfgAt, List.getD]

theorem cfgAt_set_self (l : List config) (c : config) {a : Nat} (h : a < l.length) :
    cfgAt (l.set a c) a = c := by
  simp [cfgAt, List.getD, List.getElem?_set_self h]

theorem cfgAt_set_ne (l : List config) (c : config) {a b : Nat} (h : a ≠ b) :
    cfgAt (l.set a c) b = cfgAt l b := by
  simp [cfgAt, List.getD, List.getElem?_set_ne h]

theorem keyOf_of_item {rules : List rule} {c1 c2 : List config} {a b : Nat}
    (h : item c1 a = item c2 b) : keyOf rules c1 a = keyOf rules c2 b := by
  simp only [item, Prod.mk.injEq] at h
  simp [keyOf, configKey, h.1, h.2]

theorem ListInv.heap {rules : List rule} {size : Nat} {g : configlist}
    (h : ListInv rules size g) (cfgs1 : List config) (hl : cfgs1.length = g.cfgs.length)
    (hk : ∀ a ∈ g.current, item cfgs1 a = item g.cfgs a ∧ (cfgAt cfgs1 a).fws.length = size) :
    ListInv rules size { g with cfgs := cfgs1 } := by
  have hkey : ∀ a ∈ g.current, keyOf rules cfgs1 a = keyOf rules g.cfgs a :=
    fun a ha => keyOf_of_item (hk a ha).1
  refine ⟨h.chain, h.count, ?_, ?_, ?_, h.isOpen, fun a ha => (hk a ha).2, ?_⟩
  · rw [h.entries]
    apply List.map_congr_left
    intro a ha
    simp only [hkey a ha]
  · have : g.current.map (keyOf rules cfgs1) = g.current.map (keyOf rules g.cfgs) :=
      List.map_congr_left hkey
    simp only [this]
    exact h.nodup
  · intro a ha
    simp only [hl]
    exact h.valid a ha
  · intro a ha
    have := (hk a ha).1
    simp only [item, Prod.mk.injEq] at this
    simp only [this.2]
    exact h.dots a ha

theorem ListInv.lookup {rules : List rule} {size : Nat} {g : configlist}
    (h : ListInv rules size g) {i : Nat} {node : x4node} (hi : g.x4a.tbl[i]? = some node) :
    g.current[i]? = some node.data ∧
      keyOf rules g.cfgs node.data = configKey rules node.key := by
  have e := congrArg (fun l => l[i]?) h.entries
  simp only [List.getElem?_map, hi, Option.map_some'] at e
  cases hc : g.current[i]? with
  | none => simp [hc] at e
  | some a =>
    simp only [hc, Option.map_some', Option.some.injEq, Prod.mk.injEq] at e
    obtain ⟨e1, e2⟩ := e
    subst e1
    exact ⟨rfl, e2.symm⟩

theorem ListInv.stored {rules : List rule} {size : Nat} {g : configlist}
    (h : ListInv rules size g) {a : Nat} (ha : a ∈ g.current) :
    ∃ (i : Nat) (node : x4node), g.x4a.tbl[i]? = some node ∧ node.data = a ∧
      configKey rules node.key = keyOf rules g.cfgs a := by
  obtain ⟨i, hi⟩ := List.getElem?_of_mem ha
  have e := congrArg (fun l => l[i]?) h.entries
  simp only [List.getElem?_map, hi, Option.map_some'] at e
  cases hc : g.x4a.tbl[i]? with
  | none => simp [hc] at e
  | some node =>
    simp only [hc, Option.map_some', Option.some.injEq, Prod.mk.injEq] at e
    exact ⟨i, node, hc, e.1, e.2⟩

theorem Configlist_add_spec (rules : List rule) (size : Nat) (g : configlist) (rp : Nat)
    (dot : Int) (h : ListInv rules size g) (hdot : 0 ≤ dot) :
    ∃ cfp g1, Configlist_add rules size g rp dot = some (cfp, g1) ∧ ListInv rules size g1 ∧
      cfp ∈ g1.current ∧ keyOf rules g1.cfgs cfp = configKey rules { rp := rp, dot := dot } ∧
      g1.basis = g.basis ∧ g1.basisend = g.basisend ∧
      (g1 = g ∨
        (g1.current = g.current ++ [g.cfgs.length] ∧ cfp = g.cfgs.length ∧
          g1.cfgs = g.cfgs ++ [freshConfig size rp dot] ∧
          ∀ a ∈ g.current, keyOf rules g.cfgs a ≠ configKey rules { rp := rp, dot := dot })) := by
  obtain ⟨r, h1, h2, h3⟩ := Configtable_find_spec h.chain h.count { rp := rp, dot := dot }
  unfold Configlist_add
  rw [if_neg (by simp [h.isOpen]), h1]
  cases r with
  | some d =>
    obtain ⟨i, node, e1, e2, e3⟩ := h2 d rfl
    obtain ⟨l1, l2⟩ := h.lookup e1
    subst e2
    exact ⟨node.data, g, rfl, h, List.getElem?_mem l1, l2.trans e3, rfl, rfl, Or.inl rfl⟩
  | none =>
    have hnew := h3 rfl
    obtain ⟨x1, i1, i2, i3, i4⟩ :=
      Configtable_insert_new h.chain h.count g.cfgs.length { rp := rp, dot := dot } hnew
    simp only [i1]
    have hfresh : ∀ a ∈ g.current,
        keyOf rules g.cfgs a ≠ configKey rules { rp := rp, dot := dot } := by
      intro a ha
      obtain ⟨i, node, e1, -, e3⟩ := h.stored ha
      rw [← e3]
      exact hnew i node e1
    have hold : ∀ a ∈ g.current,
        keyOf rules (g.cfgs ++ [freshConfig size rp dot]) a = keyOf rules g.cfgs a := by
      intro a ha
      simp only [keyOf, cfgAt_append_left _ _ (h.valid a ha)]
    have hnewkey : keyOf rules (g.cfgs ++ [freshConfig size rp dot]) g.cfgs.length =
        configKey rules { rp := rp, dot := dot } := by
      simp [keyOf, cfgAt_append_self, freshConfig, configKey]
    refine ⟨_, _, rfl, ?_, by simp, hnewkey, rfl, rfl, Or.inr ⟨rfl, rfl, rfl, hfresh⟩⟩
    refine ⟨i2, i3, ?_, ?_, ?_, h.isOpen, ?_, ?_⟩
    · have e := congrArg (List.map (fun (p : Nat × config) => (p.1, configKey rules p.2))) i4
      simp only [List.map_map, List.map_append, List.map_cons, List.map_nil,
        Function.comp_def] at e
      simp only [e, List.map_append, List.map_cons, List.map_nil, hnewkey]
      congr 1
      rw [h.entries]
      apply List.map_congr_left
      intro a ha
      simp only [hold a ha]
    · simp only [List.map_append, List.map_cons, List.map_nil, hnewkey]
      rw [List.map_congr_left hold]
      apply List.Nodup.append h.nodup (by simp)
      intro k hk1 hk2
      simp only [List.mem_singleton] at hk2
      simp only [List.mem_map] at hk1
      obtain ⟨a, ha, rfl⟩ := hk1
      exact hfresh a ha hk2
    · intro a ha
      simp only [List.mem_append, List.mem_singleton] at ha
      simp only [List.length_append, List.length_singleton]
      rcases ha with ha | rfl
      · have := h.valid a ha
        omega
      · omega
    · intro a ha
      simp only [List.mem_append, List.mem_singleton] at ha
      rcases ha with ha | rfl
      · simp only [cfgAt_append_left _ _ (h.valid a ha)]
        exact h.fws a ha
      · simp [cfgAt_append_self, freshConfig, SetNew]
    · intro a ha
      simp only [List.mem_append, List.mem_singleton] at ha
      rcases ha with ha | rfl
      · simp only [cfgAt_append_left _ _ (h.valid a ha)]
        exact h.dots a ha
      · simpa [cfgAt_append_self, freshConfig] using hdot

theorem SetAdd_total {size : Nat} {s : List Bool} {e : Int} (hs : s.length = size)
    (h0 : 0 ≤ e) (h1 : e < (size : Int)) :
    ∃ r, SetAdd size s e = some r ∧ r.2.length = size := by
  unfold SetAdd
  rw [if_pos ⟨h0, h1⟩]
  have hlt : e.toNat < s.length := by omega
  rw [List.getElem?_eq_getElem hlt]
  exact ⟨_, rfl, by simp [hs]⟩

theorem SetUnion_loop_total (s2 : List Bool) (c i : Nat) (pr : Int) (s1 : List Bool)
    (h1 : i + c ≤ s1.length) (h2 : i + c ≤ s2.length) :
    ∃ r, SetUnion_loop s2 c i pr s1 = some r ∧ r.2.length = s1.length := by
  induction c generalizing i pr s1 with
  | zero => exact ⟨_, rfl, rfl⟩
  | succ c ih =>
    unfold SetUnion_loop
    rw [List.getElem?_eq_getElem (by omega : i < s2.length)]
    cases s2[i] with
    | false => exact ih (i + 1) pr s1 (by omega) (by omega)
    | true =>
      simp only
      rw [List.getElem?_eq_getElem (by omega : i < s1.length)]
      cases s1[i] with
      | false =>
        obtain ⟨r, e1, e2⟩ := ih (i + 1) 1 (s1.set i true) (by simp; omega) (by omega)
        exact ⟨r, e1, by simpa using e2⟩
      | true => exact ih (i + 1) pr s1 (by omega) (by omega)

theorem SetUnion_total {size : Nat} {s1 s2 : List Bool} (h1 : s1.length = size)
    (h2 : s2.length = size) : ∃ r, SetUnion size s1 s2 = some r ∧ r.2.length = size := by
  obtain ⟨r, e1, e2⟩ := SetUnion_loop_total s2 size 0 0 s1 (by omega) (by omega)
  exact ⟨r, e1, by omega⟩

theorem closureSubs_total (size : Nat) (syms : List symbol) (l : List Nat) (fws : List Bool)
    (hf : fws.length = size)
    (hl : ∀ q ∈ l, 0 ≤ (symAt syms q).index ∧ (symAt syms q).index < (size : Int)) :
    ∃ r, closureSubs size syms l fws = some r ∧ r.length = size := by
  induction l generalizing fws with
  | nil => exact ⟨fws, rfl, hf⟩
  | cons q rest ih =>
    obtain ⟨r, e1, e2⟩ := SetAdd_total hf (hl q (by simp)).1 (hl q (by simp)).2
    unfold closureSubs
    rw [e1]
    exact ih r.2 e2 (fun x hx => hl x (by simp [hx]))

theorem closureFollow_total (size : Nat) (syms : List symbol) (l : List Nat) (fws : List Bool)
    (hf : fws.length = size) (hl : ∀ x ∈ l, symFollowOK size syms x = true) :
    ∃ r, closureFollow size syms l fws = some r ∧ r.1.length = size := by
  induction l generalizing fws with
  | nil => exact ⟨_, rfl, hf⟩
  | cons x rest ih =>
    have hx := hl x (by simp)
    unfold symFollowOK at hx
    unfold closureFollow
    cases hty : (symAt syms x).type with
    | TERMINAL =>
      simp only [hty, decide_eq_true_eq] at hx
      obtain ⟨r, e1, e2⟩ := SetAdd_total hf hx.1 hx.2
      simp only [e1]
      exact ⟨_, rfl, e2⟩
    | MULTITERMINAL =>
      simp only [hty, List.all_eq_true, decide_eq_true_eq] at hx
      obtain ⟨r, e1, e2⟩ := closureSubs_total size syms _ fws hf hx
      simp only [e1]
      exact ⟨_, rfl, e2⟩
    | NONTERMINAL =>
      simp only [hty] at hx
      cases hfs : (symAt syms x).firstset with
      | none => simp [hfs] at hx
      | some fs =>
        simp only [hfs, decide_eq_true_eq] at hx
        obtain ⟨r, e1, e2⟩ := SetUnion_total hf hx
        simp only [e1]
        split_ifs
        · exact ⟨_, rfl, e2⟩
        · exact ih r.2 e2 (fun y hy => hl y (by simp [hy]))

theorem item_set (l : List config) (p : Nat) (c : config)
    (h : c.rp = (cfgAt l p).rp ∧ c.dot = (cfgAt l p).dot) (a : Nat) :
    item (l.set p c) a = item l a := by
  by_cases e : p = a
  · subst e
    by_cases hp : p < l.length
    · simp [item, cfgAt_set_self l c hp, h.1, h.2]
    · rw [List.set_eq_of_length_le (by omega)]
  · simp [item, cfgAt_set_ne l c e]

theorem fws_set (l : List config) (p : Nat) (c : config) (size : Nat)
    (h : c.fws.length = size) (a : Nat) (ha : (cfgAt l a).fws.length = size) :
    (cfgAt (l.set p c) a).fws.length = size := by
  by_cases e : p = a
  · subst e
    by_cases hp : p < l.length
    · simp [cfgAt_set_self l c hp, h]
    · rw [List.set_eq_of_length_le (by omega)]
      exact ha
  · simp [cfgAt_set_ne l c e, ha]

theorem fws_set_keep (l : List config) (p : Nat) (c : config)
    (h : c.fws = (cfgAt l p).fws) (a : Nat) :
    (cfgAt (l.set p c) a).fws = (cfgAt l a).fws := by
  by_cases e : p = a
  · subst e
    by_cases hp : p < l.length
    · simp [cfgAt_set_self l c hp, h]
    · rw [List.set_eq_of_length_le (by omega)]
  · simp [cfgAt_set_ne l c e]

theorem closureRule_spec (lemp : lemon) (size : Nat) (cfp : Nat) (rest : List Nat)
    (g : configlist) (newrp : Nat) (h : ListInv lemp.rule size g)
    (hrest : ∀ x ∈ rest, symFollowOK size lemp.symbols x = true) :
    ∃ g1, closureRule lemp size cfp rest g newrp = some g1 ∧ ListInv lemp.rule size g1 ∧
      g.cfgs.length ≤ g1.cfgs.length ∧
      (∀ a, a < g.cfgs.length → item g1.cfgs a = item g.cfgs a) ∧
      (∃ new, g1.current = g.current ++ new ∧
        ∀ a ∈ new, g.cfgs.length ≤ a ∧ item g1.cfgs a = (newrp, 0)) ∧
      (∃ b ∈ g1.current,
        keyOf lemp.rule g1.cfgs b = configKey lemp.rule { rp := newrp, dot := 0 }) := by
  obtain ⟨newcfp, ga, a1, a2, a3, a4, -, -, a7⟩ :=
    Configlist_add_spec lemp.rule size g newrp 0 h (le_refl 0)
  obtain ⟨r, f1, f2⟩ := closureFollow_total size lemp.symbols rest
    (cfgAt ga.cfgs newcfp).fws (a2.fws newcfp a3) hrest
  obtain ⟨fws1, atEnd⟩ := r
  simp only at f2
  -- the heap after the two updates
  have key : ∀ cfgsF : List config, cfgsF.length = ga.cfgs.length →
      (∀ a, item cfgsF a = item ga.cfgs a) →
      (∀ a, (cfgAt ga.cfgs a).fws.length = size → (cfgAt cfgsF a).fws.length = size) →
      ListInv lemp.rule size { ga with cfgs := cfgsF } ∧
      g.cfgs.length ≤ cfgsF.length ∧
      (∀ a, a < g.cfgs.length → item cfgsF a = item g.cfgs a) ∧
      (∃ new, ga.current = g.current ++ new ∧
        ∀ a ∈ new, g.cfgs.length ≤ a ∧ item cfgsF a = (newrp, 0)) ∧
      (∃ b ∈ ga.current,
        keyOf lemp.rule cfgsF b = configKey lemp.rule { rp := newrp, dot := 0 }) := by
    intro cfgsF hl hi hf
    refine ⟨a2.heap cfgsF hl (fun a ha => ⟨hi a, hf a (a2.fws a ha)⟩), ?_, ?_, ?_,
      ⟨newcfp, a3, (keyOf_of_item (hi newcfp)).trans a4⟩⟩
    · rcases a7 with rfl | ⟨-, -, e3, -⟩
      · omega
      · rw [hl, e3]
        simp
    · intro a ha
      rw [hi a]
      rcases a7 with rfl | ⟨-, -, e3, -⟩
      · rfl
      · simp only [item, e3, cfgAt_append_left _ _ ha]
    · rcases a7 with rfl | ⟨e1, e2, e3, -⟩
      · exact ⟨[], by simp, by simp⟩
      · refine ⟨[g.cfgs.length], e1, ?_⟩
        intro a ha
        simp only [List.mem_singleton] at ha
        subst ha
        refine ⟨le_refl _, ?_⟩
        rw [hi, e3]
        simp [item, cfgAt_append_self, freshConfig]
  have hs1 : ∀ a, item (ga.cfgs.set newcfp { cfgAt ga.cfgs newcfp with fws := fws1 }) a =
      item ga.cfgs a := item_set _ _ _ ⟨rfl, rfl⟩
  have hf1 : ∀ a, (cfgAt ga.cfgs a).fws.length = size →
      (cfgAt (ga.cfgs.set newcfp { cfgAt ga.cfgs newcfp with fws := fws1 }) a).fws.length = size :=
    fun a ha => fws_set _ _ _ size f2 a ha
  unfold closureRule
  simp only [a1, f1]
  cases atEnd with
  | false =>
    simp only [Bool.false_eq_true, if_false]
    exact ⟨_, rfl, key _ (by simp) hs1 hf1⟩
  | true =>
    simp only [if_true]
    refine ⟨_, rfl, key _ (by simp) ?_ ?_⟩
    · intro a
      refine (item_set _ _ _ ?_ a).trans (hs1 a)
      exact ⟨rfl, rfl⟩
    · intro a ha
      refine (congrArg List.length (fws_set_keep _ _ _ ?_ a)).trans (hf1 a ha)
      rfl

theorem closureRules_spec (lemp : lemon) (size : Nat) (cfp : Nat) (rest : List Nat)
    (chain : List Nat) (g : configlist) (h : ListInv lemp.rule size g)
    (hrest : ∀ x ∈ rest, symFollowOK size lemp.symbols x = true) :
    ∃ g1, closureRules lemp size cfp rest chain g = some g1 ∧ ListInv lemp.rule size g1 ∧
      g.cfgs.length ≤ g1.cfgs.length ∧
      (∀ a, a < g.cfgs.length → item g1.cfgs a = item g.cfgs a) ∧
      (∃ new, g1.current = g.current ++ new ∧
        ∀ a ∈ new, g.cfgs.length ≤ a ∧ ∃ newrp ∈ chain, item g1.cfgs a = (newrp, 0)) ∧
      (∀ newrp ∈ chain, ∃ b ∈ g1.current,
        keyOf lemp.rule g1.cfgs b = configKey lemp.rule { rp := newrp, dot := 0 }) := by
  induction chain generalizing g with
  | nil =>
    exact ⟨g, rfl, h, le_refl _, fun _ _ => rfl, ⟨[], by simp, by simp⟩, by simp⟩
  | cons newrp more ih =>
    obtain ⟨ga, a1, a2, a3, a4, ⟨new1, a5, a6⟩, ⟨b, b1, b2⟩⟩ :=
      closureRule_spec lemp size cfp rest g newrp h hrest
    obtain ⟨g1, c1, c2, c3, c4, ⟨new2, c5, c6⟩, c7⟩ := ih ga a2
    unfold closureRules
    simp only [a1, c1]
    refine ⟨g1, rfl, c2, by omega, fun a ha => (c4 a (by omega)).trans (a4 a ha), ?_, ?_⟩
    · refine ⟨new1 ++ new2, by rw [c5, a5, List.append_assoc], ?_⟩
      intro a ha
      simp only [List.mem_append] at ha
      rcases ha with ha | ha
      · have hv : a < ga.cfgs.length := a2.valid a (by rw [a5]; simp [ha])
        exact ⟨(a6 a ha).1, newrp, by simp, (c4 a hv).trans (a6 a ha).2⟩
      · obtain ⟨x1, r, x2, x3⟩ := c6 a ha
        exact ⟨by omega, r, by simp [x2], x3⟩
    · intro r hr
      simp only [List.mem_cons] at hr
      rcases hr with rfl | hr
      · refine ⟨b, by rw [c5]; simp [b1], ?_⟩
        rw [← b2]
        exact keyOf_of_item (c4 b (a2.valid b b1))
      · exact c7 r hr

theorem afterDot_item (rules : List rule) (c : config) :
    afterDot rules c = afterDot rules { rp := c.rp, dot := c.dot } := rfl

theorem ruleAt_index_mem (rules : List rule) (p : Nat) :
    (ruleAt rules p).index ∈ 0 :: rules.map (fun r => r.index) := by
  cases hp : rules[p]? with
  | none => simp [ruleAt, List.getD, hp]
  | some r =>
    have : ruleAt rules p = r := by simp [ruleAt, List.getD, hp]
    rw [this]
    simp only [List.mem_cons, List.mem_map]
    exact Or.inr ⟨r, List.getElem?_mem hp, rfl⟩

theorem ClosInv.bound {lemp : lemon} {size : Nat} {g0 g : configlist} {i : Nat}
    (h : ClosInv lemp size g0 g i) :
    g.current.length ≤ g0.current.length + lemp.rule.length + 1 := by
  obtain ⟨new, e1, e2⟩ := h.ext
  have hnd := h.inv.nodup
  rw [e1, List.map_append] at hnd
  have hnd2 := (List.nodup_append.1 hnd).2.1
  have hsub : new.map (keyOf lemp.rule g.cfgs) ⊆
      (0 :: lemp.rule.map (fun r => r.index)).map (fun x => (x, (0 : Int))) := by
    intro k hk
    simp only [List.mem_map] at hk
    obtain ⟨a, ha, rfl⟩ := hk
    simp only [keyOf, configKey, e2 a ha]
    exact List.mem_map.2 ⟨_, ruleAt_index_mem lemp.rule _, rfl⟩
  have := (List.subperm_of_subset hnd2 hsub).length_le
  simp only [List.length_map, List.length_cons] at this
  rw [e1, List.length_append]
  omega

theorem item_eq_iff {c1 c2 : List config} {a b : Nat} :
    item c1 a = item c2 b ↔
      (cfgAt c1 a).rp = (cfgAt c2 b).rp ∧ (cfgAt c1 a).dot = (cfgAt c2 b).dot := by
  simp [item]

theorem afterDot_of_item {rules : List rule} {c1 c2 : List config} {a b : Nat}
    (h : item c1 a = item c2 b) : afterDot rules (cfgAt c1 a) = afterDot rules (cfgAt c2 b) := by
  rw [item_eq_iff] at h
  simp [afterDot, h.1, h.2]

theorem Expanded.mono {lemp : lemon} {g g1 : configlist} {a : Nat}
    (hi : item g1.cfgs a = item g.cfgs a)
    (hb : ∀ b ∈ g.current, b ∈ g1.current ∧ keyOf lemp.rule g1.cfgs b = keyOf lemp.rule g.cfgs b)
    (h : Expanded lemp g a) : Expanded lemp g1 a := by
  intro sp hd ha hty newrp hr
  have hi2 := item_eq_iff.1 hi
  rw [hi2.1, hi2.2] at hd
  rw [afterDot_of_item hi] at ha
  obtain ⟨b, hb1, hb2⟩ := h sp hd ha hty newrp hr
  exact ⟨b, (hb b hb1).1, ((hb b hb1).2).trans hb2⟩

theorem ruleAt_mem_of_rhs {rules : List rule} {p x : Nat} (h : x ∈ (ruleAt rules p).rhs) :
    ruleAt rules p ∈ rules := by
  cases hp : rules[p]? with
  | none => simp [ruleAt, List.getD, hp] at h
  | some r =>
    have : ruleAt rules p = r := by simp [ruleAt, List.getD, hp]
    rw [this]
    exact List.getElem?_mem hp

theorem closureLoop_spec (lemp : lemon) (size : Nat) (g0 : configlist)
    (hok : FollowOK size lemp) (fuel : Nat) :
    ∀ (i : Nat) (g : configlist) (e : Int), ClosInv lemp size g0 g i →
      i ≤ g.current.length → g0.current.length + lemp.rule.length + 1 < fuel + i →
      ∃ g2 e2, closureLoop lemp size fuel i (g, e) = some (g2, e2) ∧
        ClosInv lemp size g0 g2 g2.current.length := by
  induction fuel with
  | zero =>
    intro i g e h hi hf
    have := h.bound
    omega
  | succ n ih =>
    intro i g e h hi hf
    unfold closureLoop
    cases hc : g.current[i]? with
    | none =>
      have h1 := List.getElem?_eq_none_iff.1 hc
      have : i = g.current.length := by omega
      subst this
      exact ⟨g, e, rfl, h⟩
    | some cfp =>
      have hlt : i < g.current.length := lt_of_getElem?_some hc
      have hmem : cfp ∈ g.current := List.getElem?_mem hc
      simp only
      -- the list up to position `i` of a longer list
      have hnext : ∀ g1 : configlist, ClosInv lemp size g0 g1 i →
          (∃ new, g1.current = g.current ++ new) → Expanded lemp g1 cfp →
          ClosInv lemp size g0 g1 (i + 1) := by
        intro g1 h1 hpre hex
        refine ⟨h1.inv, h1.grow, h1.keep, h1.ext, h1.reach, ?_⟩
        intro k a hk ha
        by_cases e1 : k = i
        · subst e1
          obtain ⟨new, hn⟩ := hpre
          rw [hn, List.getElem?_append_left hlt, hc] at ha
          simp only [Option.some.injEq] at ha
          subst ha
          exact hex
        · exact h1.closed k a (by omega) ha
      by_cases hd : (cfgAt g.cfgs cfp).dot ≥ ((ruleAt lemp.rule (cfgAt g.cfgs cfp).rp).rhs.length : Int)
      · rw [if_pos hd]
        apply ih (i + 1) g e _ (by omega) (by omega)
        apply hnext g h ⟨[], by simp⟩
        intro sp hd2
        omega
      · rw [if_neg hd]
        have hd0 := h.inv.dots cfp hmem
        push_neg at hd
        have hsome : ∃ sp, afterDot lemp.rule (cfgAt g.cfgs cfp) = some sp := by
          unfold afterDot
          rw [if_pos hd0]
          have : (cfgAt g.cfgs cfp).dot.toNat < (ruleAt lemp.rule (cfgAt g.cfgs cfp).rp).rhs.length := by
            omega
          exact ⟨_, List.getElem?_eq_getElem this⟩
        obtain ⟨sp, hsp⟩ := hsome
        simp only [hsp]
        by_cases hty : (symAt lemp.symbols sp).type = symbol_type.NONTERMINAL
        · rw [if_pos hty]
          have hrest : ∀ x ∈ (ruleAt lemp.rule (cfgAt g.cfgs cfp).rp).rhs.drop
              ((cfgAt g.cfgs cfp).dot.toNat + 1), symFollowOK size lemp.symbols x = true := by
            intro x hx
            have hx2 := List.mem_of_mem_drop hx
            exact hok _ (ruleAt_mem_of_rhs hx2) x hx2
          obtain ⟨g1, c1, c2, c3, c4, ⟨new2, c5, c6⟩, c7⟩ :=
            closureRules_spec lemp size cfp _ (symAt lemp.symbols sp).rule g h.inv hrest
          simp only [c1]
          have hitem : ∀ a ∈ g.current, item g1.cfgs a = item g.cfgs a :=
            fun a ha => c4 a (h.inv.valid a ha)
          have hkeys : ∀ b ∈ g.current, b ∈ g1.current ∧
              keyOf lemp.rule g1.cfgs b = keyOf lemp.rule g.cfgs b :=
            fun b hb => ⟨by rw [c5]; simp [hb], keyOf_of_item (hitem b hb)⟩
          apply ih (i + 1) g1 _ _ (by rw [c5, List.length_append]; omega) (by omega)
          apply hnext g1 _ ⟨new2, c5⟩
          · -- the configuration at position `i` is expanded now
            intro sp1 hd1 ha1 hty1 newrp hr
            rw [afterDot_of_item (hitem cfp hmem), hsp] at ha1
            simp only [Option.some.injEq] at ha1
            subst ha1
            exact c7 newrp hr
          · obtain ⟨new, e1, e2⟩ := h.ext
            refine ⟨c2, by have := h.grow; omega, ?_, ?_, ?_, ?_⟩
            · intro a ha
              exact (c4 a (by have := h.grow; omega)).trans (h.keep a ha)
            · refine ⟨new ++ new2, by rw [c5, e1, List.append_assoc], ?_⟩
              intro a ha
              simp only [List.mem_append] at ha
              rcases ha with ha | ha
              · have := item_eq_iff.1 (hitem a (by rw [e1]; simp [ha]))
                rw [this.2]
                exact e2 a ha
              · obtain ⟨-, r, -, x3⟩ := c6 a ha
                exact (item_eq_iff.1 (x3.trans (by simp [item, cfgAt] :
                  ((r, (0 : Int)) : Nat × Int) = item [{ rp := r, dot := 0 }] 0))).2
            · intro a ha
              rw [c5, List.mem_append] at ha
              rcases ha with ha | ha
              · rw [hitem a ha]
                exact h.reach a ha
              · obtain ⟨-, r, x2, x3⟩ := c6 a ha
                rw [x3]
                have hr := h.reach cfp hmem
                exact Expansion.expand hr hd hsp hty x2
            · intro k a hk ha
              have hk2 : k < g.current.length := by omega
              rw [c5, List.getElem?_append_left hk2] at ha
              exact (h.closed k a hk ha).mono (hitem a (List.getElem?_mem ha)) hkeys
        · rw [if_neg hty]
          apply ih (i + 1) g e _ (by omega) (by omega)
          apply hnext g h ⟨[], by simp⟩
          intro sp1 hd1 ha1 hty1
          rw [hsp] at ha1
          simp only [Option.some.injEq] at ha1
          subst ha1
          exact absurd hty1 hty

theorem ListInv_init (rules : List rule) (size : Nat) (cfgs : List config) :
    ListInv rules size (Configlist_init cfgs) := by
  refine ⟨chain_empty rules 64 (by omega), rfl, rfl, by simp [Configlist_init], ?_, rfl, ?_, ?_⟩
  all_goals simp [Configlist_init]

theorem Configlist_addbasis_inv (rules : List rule) (size : Nat) (g : configlist) (rp : Nat)
    (dot : Int) (h : ListInv rules size g) (hb : g.basisend = true) (hdot : 0 ≤ dot) :
    ∃ cfp g1, Configlist_addbasis rules size g rp dot = some (cfp, g1) ∧
      ListInv rules size g1 ∧ g1.basisend = true := by
  obtain ⟨cfp, g1, h1, h2, -⟩ := Configlist_add_spec rules size g rp dot h hdot
  unfold Configlist_add at h1
  unfold Configlist_addbasis
  rw [if_neg (by simp [h.isOpen])] at h1
  rw [if_neg (by simp [h.isOpen, hb])]
  cases hf : Configtable_find rules g.x4a { rp := rp, dot := dot } with
  | none => simp [hf] at h1
  | some r =>
    cases r with
    | some d => exact ⟨d, g, rfl, h, hb⟩
    | none =>
      simp only [hf] at h1 ⊢
      cases hi : Configtable_insert rules g.x4a g.cfgs.length { rp := rp, dot := dot } with
      | none => simp [hi] at h1
      | some r =>
        obtain ⟨x1, rv⟩ := r
        simp only [hi, Option.some.injEq, Prod.mk.injEq] at h1 ⊢
        obtain ⟨-, rfl⟩ := h1
        exact ⟨_, _, ⟨rfl, rfl⟩, ⟨h2.chain, h2.count, h2.entries, h2.nodup, h2.valid, h2.isOpen,
          h2.fws, h2.dots⟩, hb⟩

theorem Expansion.least {lemp : lemon} {B : List (Nat × Int)} (S : Nat × Int → Prop)
    (hB : ∀ it ∈ B, S it)
    (hS : ∀ (rp : Nat) (dot : Int) (sp newrp : Nat), S (rp, dot) →
      dot < ((ruleAt lemp.rule rp).rhs.length : Int) →
      afterDot lemp.rule { rp := rp, dot := dot } = some sp →
      (symAt lemp.symbols sp).type = symbol_type.NONTERMINAL →
      newrp ∈ (symAt lemp.symbols sp).rule → S (newrp, 0))
    {it : Nat × Int} (h : Expansion lemp B it) : S it := by
  induction h with
  | basis hb => exact hB _ hb
  | expand _ hd ha hty hr ih => exact hS _ _ _ _ ih hd ha hty hr

theorem closureExample_inv : ListInv exprFirst.rule 8 closureExample := by
  obtain ⟨cfp, g1, h1, h2, -⟩ := Configlist_addbasis_inv exprFirst.rule 8 (Configlist_init []) 0 0
    (ListInv_init _ _ _) rfl (le_refl 0)
  have : closureExample = g1 := by simp [closureExample, h1]
  rw [this]
  exact h2

/-- C30: for every configuration list `g` that satisfies the builder invariant (the basis,
as `Configlist_addbasis` builds it), `Configlist_closure` returns, given `fuel` beyond the
length of the list plus the number of rules, and the list `g2.current` it produces: starts
with the list at the call, whose configurations keep their rule and dot; is closed under
expansion (`Expanded`: for a configuration with a nonterminal after the dot and every rule
of that nonterminal it holds the configuration of that rule with the dot at 0); holds only
configurations reached from the list at the call by expansions, so that it lies in every
set `S` of items that holds the basis and is closed under expansion; has the dot at 0 in
every new configuration; and holds no pair of rule index and dot, hence no pair of rule
and dot, twice. -/
theorem Configlist_closure_least (lemp : lemon) (size fuel : Nat) (g : configlist) (e : Int)
    (hinv : ListInv lemp.rule size g) (hok : FollowOK size lemp)
    (hfuel : g.current.length + lemp.rule.length + 1 < fuel) :
    ∃ g2 e2, Configlist_closure lemp size fuel g e = some (g2, e2) ∧
      (∃ new, g2.current = g.current ++ new ∧ ∀ a ∈ new, (cfgAt g2.cfgs a).dot = 0) ∧
      (∀ a ∈ g.current, item g2.cfgs a = item g.cfgs a) ∧
      (∀ a ∈ g2.current, Expanded lemp g2 a) ∧
      (∀ a ∈ g2.current, Expansion lemp (g.current.map (item g.cfgs)) (item g2.cfgs a)) ∧
      (∀ S : Nat × Int → Prop, (∀ a ∈ g.current, S (item g.cfgs a)) →
        (∀ (rp : Nat) (dot : Int) (sp newrp : Nat), S (rp, dot) →
          dot < ((ruleAt lemp.rule rp).rhs.length : Int) →
          afterDot lemp.rule { rp := rp, dot := dot } = some sp →
          (symAt lemp.symbols sp).type = symbol_type.NONTERMINAL →
          newrp ∈ (symAt lemp.symbols sp).rule → S (newrp, 0)) →
        ∀ a ∈ g2.current, S (item g2.cfgs a)) ∧
      (g2.current.map (keyOf lemp.rule g2.cfgs)).Nodup ∧
      (g2.current.map (item g2.cfgs)).Nodup := by
  have h0 : ClosInv lemp size g g 0 := by
    refine ⟨hinv, le_refl _, fun _ _ => rfl, ⟨[], by simp, by simp⟩, ?_, ?_⟩
    · intro a ha
      exact Expansion.basis (List.mem_map.2 ⟨a, ha, rfl⟩)
    · intro k a hk
      omega
  obtain ⟨g2, e2, h1, h2⟩ :=
    closureLoop_spec lemp size g hok fuel 0 g e h0 (Nat.zero_le _) (by omega)
  refine ⟨g2, e2, ?_, h2.ext, fun a ha => h2.keep a (hinv.valid a ha), ?_, h2.reach, ?_,
    h2.inv.nodup, ?_⟩
  · unfold Configlist_closure
    rw [if_neg (by simp [hinv.isOpen])]
    exact h1
  · intro a ha
    obtain ⟨k, hk⟩ := List.getElem?_of_mem ha
    exact h2.closed k a (lt_of_getElem?_some hk) hk
  · intro S hB hS a ha
    apply Expansion.least S _ hS (h2.reach a ha)
    intro it hit
    obtain ⟨b, hb, rfl⟩ := List.mem_map.1 hit
    exact hB b hb
  · have hnd := h2.inv.nodup
    have e : g2.current.map (keyOf lemp.rule g2.cfgs) =
        (g2.current.map (item g2.cfgs)).map
          (fun it => ((ruleAt lemp.rule it.1).index, it.2)) := by
      rw [List.map_map]
      rfl
    rw [e] at hnd
    exact hnd.of_map _

set_option maxRecDepth 1000000 in
/-- The closure of the basis `e ::= . e PLUS t` of the expression grammar: the six
configurations with the dot at 0. -/
theorem Configlist_closure_least_witness :
    FollowOK 8 exprFirst ∧ closureExample.current.map (item closureExample.cfgs) = [(0, 0)] ∧
    (Configlist_closure exprFirst 8 30 closureExample 0).map
        (fun r => r.1.current.map (item r.1.cfgs)) =
      some [(0, 0), (1, 0), (3, 0), (2, 0), (5, 0), (4, 0)] ∧
    ∃ g2 e2, Configlist_closure exprFirst 8 30 closureExample 0 = some (g2, e2) ∧
      (∃ new, g2.current = closureExample.current ++ new ∧
        ∀ a ∈ new, (cfgAt g2.cfgs a).dot = 0) ∧
      (∀ a ∈ closureExample.current, item g2.cfgs a = item closureExample.cfgs a) ∧
      (∀ a ∈ g2.current, Expanded exprFirst g2 a) ∧
      (∀ a ∈ g2.current, Expansion exprFirst
        (closureExample.current.map (item closureExample.cfgs)) (item g2.cfgs a)) ∧
      (∀ S : Nat × Int → Prop, (∀ a ∈ closureExample.current, S (item closureExample.cfgs a)) →
        (∀ (rp : Nat) (dot : Int) (sp newrp : Nat), S (rp, dot) →
          dot < ((ruleAt exprFirst.rule rp).rhs.length : Int) →
          afterDot exprFirst.rule { rp := rp, dot := dot } = some sp →
          (symAt exprFirst.symbols sp).type = symbol_type.NONTERMINAL →
          newrp ∈ (symAt exprFirst.symbols sp).rule → S (newrp, 0)) →
        ∀ a ∈ g2.current, S (item g2.cfgs a)) ∧
      (g2.current.map (keyOf exprFirst.rule g2.cfgs)).Nodup ∧
      (g2.current.map (item g2.cfgs)).Nodup :=
  ⟨by decide, by decide, by decide,
    Configlist_closure_least exprFirst 8 30 closureExample 0 closureExample_inv (by decide)
      (by decide)⟩

set_option maxRecDepth 1000000 in
/-- C24: the grammar `e ::= e PLUS t | t.  t ::= t TIMES f | f.  f ::= LP e RP | ID.` with
the start symbol `e`.  `FindRulePrecedences`, `FindFirstSets`, `FindStates`, `FindLinks`
and `FindFollowSets` run to completion: 12 states, no conflict counted, two errors counted
by `FindStates` for the start symbol on right-hand sides, and the first sets of `e`, `t`
and `f` are `LP` and `ID` (indices 3 and 5).  State 0 then holds the `SHIFT` on `e` and
gets the `ACCEPT` on `e`; `resolve_conflict` fails its last `assert` on the two, so
`FindActions` and with it the analysis do not complete. -/
theorem main_expression_grammar_stops :
    (Heap.followed 30 exprLemon).map (fun r => r.1.nstate) = some 12 ∧
    (Heap.followed 30 exprLemon).map (fun r => r.2.1.length) = some 12 ∧
    (Heap.followed 30 exprLemon).map (fun r => r.1.nconflict) = some 0 ∧
    (Heap.followed 30 exprLemon).map (fun r => r.1.errorcnt) = some 2 ∧
    (Heap.followed 30 exprLemon).map (fun r => (r.1.symbols.drop 6).map (fun s => s.firstset)) =
      some [some [false, false, false, true, false, true, false, false],
        some [false, false, false, true, false, true, false, false],
        some [false, false, false, true, false, true, false, false], none] ∧
    (Heap.followed 30 exprLemon).map (fun r =>
        Action_sort r.1.symbols r.1.rule actionCode
          (Action_add ((stateAt r.2.1 0).ap, r.2.2.2) e_action.ACCEPT 6 0).1) =
      some [
        { sp := 3, type := e_action.SHIFT, x := 6, addr := 20 },
        { sp := 5, type := e_action.SHIFT, x := 11, addr := 21 },
        { sp := 6, type := e_action.SHIFT, x := 1, addr := 17 },
        { sp := 6, type := e_action.ACCEPT, x := 0, addr := 22 },
        { sp := 7, type := e_action.SHIFT, x := 9, addr := 18 },
        { sp := 8, type := e_action.SHIFT, x := 10, addr := 19 }] ∧
    resolve_conflict exprLemon.symbols exprLemon.rule
        { sp := 6, type := e_action.SHIFT, x := 1, addr := 17 }
        { sp := 6, type := e_action.ACCEPT, x := 0, addr := 22 } = none ∧
    Heap.analyse actionCode 30 exprLemon = none := by
  decide

set_option maxRecDepth 1000000 in
/-- C36: the grammar `%nonassoc OP ID.  s ::= ID OP ID | e OP ID | f OP ID.  e ::= ID.
f ::= ID.`  The analysis reaches `FindActions` with 10 states; state 1 (`s ::= ID . OP ID`,
`e ::= ID .`, `f ::= ID .`) has, after `Action_sort`, the `SHIFT` on `OP` followed by the
`REDUCE` actions by `e ::= ID` and `f ::= ID` on `OP`.  `resolve_conflict` on the first
pair tags the shift `ERROR` (equal precedence, no associativity); the next pair is then
an `ERROR` and a `REDUCE`, neither of which carries a resolved or a conflict tag, so the
last `assert` of `resolve_conflict` fails and `FindActions` does not return. -/
theorem FindActions_assert_fails :
    (Heap.followed 30 nonassocLemon).map (fun r => r.1.nstate) = some 10 ∧
    (Heap.followed 30 nonassocLemon).bind (fun r =>
        (findReduces r.1 r.2.2.1 r.1.sorted (r.2.1, r.2.2.2)).map (fun st =>
          Action_sort r.1.symbols r.1.rule actionCode (stateAt st.1 1).ap)) =
      some [
        { sp := 1, type := e_action.SHIFT, x := 2, addr := 1 },
        { sp := 1, type := e_action.REDUCE, x := 3, addr := 9 },
        { sp := 1, type := e_action.REDUCE, x := 4, addr := 10 }] ∧
    resolve_conflict nonassocLemon.symbols (FindRulePrecedences nonassocLemon).rule
        { sp := 1, type := e_action.SHIFT, x := 2, addr := 1 }
        { sp := 1, type := e_action.REDUCE, x := 3, addr := 9 } =
      some ({ sp := 1, type := e_action.ERROR, x := 2, addr := 1 },
        { sp := 1, type := e_action.REDUCE, x := 3, addr := 9 }, 0) ∧
    resolve_conflict nonassocLemon.symbols (FindRulePrecedences nonassocLemon).rule
        { sp := 1, type := e_action.ERROR, x := 2, addr := 1 }
        { sp := 1, type := e_action.REDUCE, x := 4, addr := 10 } = none ∧
    Heap.analyse actionCode 30 nonassocLemon = none := by
  decide

set_option maxRecDepth 100000 in
/-- C38 (the code at a failing input): the tenth row of `phantomRows`,
`{5 ↦ 1, 6 ↦ 1, 9 ↦ 0}` with `makeItSafe = 0`, is inserted at offset 17 and leaves
`nAction = 27`; inserting the same row again with the same `makeItSafe` returns offset 19,
raises `nAction` to 29 and fills slot 24, which was free. -/
theorem acttab_insert_twice_differs :
    (runRows (acttab_alloc 10 1) phantomRows).map
        (fun r => (r.1.getLast?, r.2.nAction, rdAt r.2.aAction 24)) =
      some (some 17, 27, some emptySlot) ∧
    (runRows (acttab_alloc 10 1) phantomRows).bind (fun r =>
        (insertRow r.2 [⟨5, 1⟩, ⟨6, 1⟩, ⟨9, 0⟩] 0).map (fun s =>
          (s.1, s.2.nAction, rdAt s.2.aAction 24))) =
      some (19, 29, some ⟨5, 1⟩) := by
  decide

set_option maxRecDepth 100000 in
/-- C39 (the code at a failing input): for the tenth row of `phantomRows` the overlap loop
finds no match, the hole loop rejects every position below its bound
`nActionAlloc - mxLookahead = 31 - 9 = 22` and ends there without its `break`; position 22
does not pass the checks of the loop body either (slot 18 holds lookahead 1, which the
offset of position 22 maps to slot 18), and the row is written there. -/
theorem acttab_insert_hole_loop_runs_out :
    phantomTable.map (fun p => (p.nAction, p.nActionAlloc - p.mxLookahead)) = some (19, 22) ∧
    phantomTable.bind (fun p => overlapSearch p 0 p.nAction.toNat) = some none ∧
    (∀ i ∈ List.range 23, phantomTable.bind (fun p => holeAt p (i : Int)) = some false) ∧
    phantomTable.bind (fun p => holeSearch p (p.nActionAlloc - p.mxLookahead).toNat 0) =
      some 22 ∧
    phantomTable.bind (fun p => choosePos p 0) = some 22 := by
  decide

theorem msortFill_append {α : Type} (cmp : α → α → Int) (a b : List α) (set : List (List α)) :
    msortFill cmp (a ++ b) set = msortFill cmp b (msortFill cmp a set) := by
  induction a generalizing set with
  | nil => rfl
  | cons e a ih =>
    rw [List.cons_append]
    simp only [msortFill]
    exact ih _

theorem sized_le {α : Type} (k : Nat) (set : List (List α)) (hs : Sized k set) :
    set.flatten.length + 2 ^ k ≤ 2 ^ (k + set.length) := by
  induction set generalizing k with
  | nil => simp
  | cons b rest ih =>
    have h1 := ih (k + 1) (sized_tail hs)
    have hb : b.length ≤ 2 ^ k := by
      rcases hs 0 b (by simp) with h | h
      · simp [h]
      · simp at h; omega
    simp only [List.flatten_cons, List.length_append, List.length_cons]
    rw [show k + (rest.length + 1) = k + 1 + rest.length by omega]
    rw [pow_succ] at h1
    omega

/-- When every bucket is occupied, the carry runs to the last bucket and replaces it: of
the `2^(k+n+1) - 2^k` stored elements and the `2^k` carried ones, `2^(k+n)` remain. -/
theorem carryBy_full {α : Type} (m : List α → List α → List α)
    (hm : ∀ a b, (m a b).Perm (a ++ b)) (n : Nat) (k : Nat) (ep : List α)
    (set : List (List α)) (hlen : set.length = n + 1) (hep : ep.length = 2 ^ k)
    (hs : Sized k set) (htot : set.flatten.length + 2 ^ k = 2 ^ (k + n + 1)) :
    (carryBy m ep n set).flatten.length = 2 ^ (k + n) := by
  induction n generalizing k ep set with
  | zero =>
    cases set with
    | nil => simp at hlen
    | cons b rest =>
      have hr : rest = [] := List.length_eq_zero.1 (by simpa using hlen)
      subst hr
      simp [carryBy, hep]
  | succ n ih =>
    cases set with
    | nil => simp at hlen
    | cons b rest =>
      have hrl : rest.length = n + 1 := by simpa using hlen
      have h1 := sized_le (k + 1) rest (sized_tail hs)
      rw [hrl] at h1
      simp only [List.flatten_cons, List.length_append] at htot
      rw [show k + (n + 1) + 1 = k + 1 + (n + 1) by omega] at htot
      have p1 : 2 ^ (k + 1) = 2 * 2 ^ k := by rw [pow_succ]; omega
      cases b with
      | nil =>
        simp only [List.length_nil] at htot
        have : 0 < 2 ^ k := Nat.pow_pos (by decide)
        omega
      | cons y s =>
        have hb : (y :: s).length = 2 ^ k := by
          rcases hs 0 (y :: s) (by simp) with h | h
          · simp at h
          · simpa using h
        simp only [carryBy]
        have hml : (m ep (y :: s)).length = 2 ^ (k + 1) := by
          rw [(hm ep (y :: s)).length_eq, List.length_append, hep, hb, p1]
          omega
        have := ih (k + 1) (m ep (y :: s)) rest hrl hml (sized_tail hs) (by
          rw [show k + 1 + n + 1 = k + 1 + (n + 1) by omega]
          omega)
        simp only [List.flatten_cons, List.nil_append]
        rw [this]
        congr 1
        omega

theorem msortFill_sized {α : Type} (cmp : α → α → Int) (list : List α) (set : List (List α))
    (hlen : set.length = 30) (hs : Sized 0 set)
    (htot : list.length + set.flatten.length < 2 ^ 30) :
    (msortFill cmp list set).length = 30 ∧ Sized 0 (msortFill cmp list set) := by
  induction list generalizing set with
  | nil => exact ⟨hlen, hs⟩
  | cons e rest ih =>
    simp only [msortFill]
    rw [msortCarry_eq_carryBy]
    obtain ⟨p1, p2, p3⟩ := carryBy_perm (merge cmp) (merge_perm cmp) 29 0 [e] set
      (by simpa using hlen) (by simp) hs (by
        simp only [List.length_cons, List.length_nil] at htot ⊢
        omega)
    exact ih _ (by simpa using p3) p2 (by
      rw [p1.length_eq]
      simp only [List.length_cons, List.length_append, List.length_nil] at htot ⊢
      omega)

/-- C40 (the code at a failing input): of a list of `2^30` elements `msort` returns only
`2^29`; the last element finds all 30 buckets occupied, and line 1757 stores the merged
buckets `0..28` over bucket 29. -/
theorem msort_drops_elements {α : Type} (cmp : α → α → Int) (list : List α)
    (h : list.length = 2 ^ 30) : (msort cmp list).length = 2 ^ 29 := by
  obtain ⟨l, e, rfl⟩ : ∃ l e, list = l ++ [e] := by
    rcases List.eq_nil_or_concat list with h0 | ⟨l, e, h1⟩
    · subst h0; simp at h
    · exact ⟨l, e, by simpa using h1⟩
  have hl : l.length + 1 = 2 ^ 30 := by simpa using h
  have hlt : l.length + (List.replicate 30 ([] : List α)).flatten.length < 2 ^ 30 := by
    rw [flatten_replicate_nil]; simp; omega
  have hp := msortFill_perm cmp l _ (by simp) (sized_replicate_nil 0 30) hlt
  obtain ⟨s1, s2⟩ := msortFill_sized cmp l _ (by simp) (sized_replicate_nil 0 30) hlt
  unfold msort
  rw [(foldl_merge_perm cmp _ []).length_eq, List.append_nil, msortFill_append]
  simp only [msortFill]
  rw [msortCarry_eq_carryBy]
  refine carryBy_full (merge cmp) (merge_perm cmp) 29 0 [e] _ s1 (by simp) s2 ?_
  rw [hp.length_eq, flatten_replicate_nil]
  simp only [List.append_nil, pow_zero]
  omega

theorem msort_drops_elements_witness :
    (List.replicate (2 ^ 30) (0 : Int)).length = 2 ^ 30 ∧
    (msort (fun a b => a - b) (List.replicate (2 ^ 30) (0 : Int))).length = 2 ^ 29 :=
  ⟨List.length_replicate _ _,
    msort_drops_elements (fun a b => a - b) _ (List.length_replicate _ _)⟩

theorem getElem?_set_cases {α : Type} (l : List α) (p x : Nat) (a b : α)
    (h : (l.set p a)[x]? = some b) : (x = p ∧ b = a) ∨ (x ≠ p ∧ l[x]? = some b) := by
  by_cases hx : p = x
  · subst hx
    have hlt : p < l.length := by
      have := lt_of_getElem?_some h
      simpa using this
    rw [List.getElem?_set_self hlt] at h
    injection h with h
    exact Or.inl ⟨rfl, h.symm⟩
  · rw [List.getElem?_set_ne hx] at h
    exact Or.inr ⟨fun e => hx e.symm, h⟩

theorem sum_map_set {α : Type} (g : α → Nat) (l : List α) (p : Nat) (a b : α)
    (h : l[p]? = some a) : ((l.set p b).map g).sum + g a = (l.map g).sum + g b := by
  induction l generalizing p with
  | nil => simp at h
  | cons x l ih =>
    cases p with
    | zero =>
      simp at h
      subst h
      simp only [List.set_cons_zero, List.map_cons, List.sum_cons]
      omega
    | succ p =>
      simp at h
      have := ih p h
      simp only [List.set_cons_succ, List.map_cons, List.sum_cons]
      omega

theorem sum_map_le {α : Type} (g : α → Nat) (n : Nat) (l : List α) (h : ∀ x ∈ l, g x ≤ n) :
    (l.map g).sum ≤ l.length * n := by
  induction l with
  | nil => simp
  | cons x l ih =>
    have h1 := h x (List.mem_cons_self _ _)
    have h2 := ih (fun y hy => h y (List.mem_cons_of_mem _ hy))
    simp only [List.map_cons, List.sum_cons, List.length_cons]
    rw [Nat.add_mul]
    omega

theorem count_set_true (l : List Bool) (i : Nat) (h : l[i]? = some false) :
    (l.set i true).count true = l.count true + 1 := by
  induction l generalizing i with
  | nil => simp at h
  | cons x l ih =>
    cases i with
    | zero =>
      simp at h
      subst h
      simp
    | succ i =>
      simp at h
      have := ih i h
      simp only [List.set_cons_succ, List.count_cons, this]
      omega

theorem lambdaCount_le (syms : List symbol) : lambdaCount syms ≤ syms.length := by
  have := sum_map_le (fun s : symbol => if s.lambda = true then 1 else 0) 1 syms
    (fun s _ => by dsimp only; split_ifs <;> omega)
  simpa [lambdaCount] using this

theorem firstCount_le {size : Nat} {syms : List symbol} (h : LenInv size syms) :
    firstCount syms ≤ syms.length * size := by
  apply sum_map_le
  intro s hs
  unfold firstBits
  cases hf : s.firstset with
  | none => simp
  | some f =>
    simp only
    rw [← h s hs f hf]
    exact List.count_le_length _ _

/-- Replacing a symbol by one with the same static fields keeps the invariant. -/
theorem PassInv.set {size : Nat} {rules : List rule} {syms : List symbol}
    (h : PassInv size rules syms) {p : Nat} {s s1 : symbol} (hp : syms[p]? = some s)
    (hty : s1.type = s.type) (hidx : s1.index = s.index) (hsub : s1.subsym = s.subsym)
    (hfs : s.firstset ≠ none → s1.firstset ≠ none)
    (hlen : ∀ f, s1.firstset = some f → f.length = size)
    (hlam : s1.lambda = true → s1.type = symbol_type.NONTERMINAL) :
    PassInv size rules (syms.set p s1) := by
  have hplt : p < syms.length := lt_of_getElem?_some hp
  have key : ∀ (x : Nat) (sx : symbol), syms[x]? = some sx →
      ∃ sy : symbol, (syms.set p s1)[x]? = some sy ∧
      sy.type = sx.type ∧ sy.index = sx.index ∧ sy.subsym = sx.subsym ∧
      (sx.firstset ≠ none → sy.firstset ≠ none) := by
    intro x sx hx
    by_cases hxp : p = x
    · subst hxp
      rw [hp] at hx
      injection hx with hx
      subst hx
      exact ⟨s1, List.getElem?_set_self hplt, hty, hidx, hsub, hfs⟩
    · exact ⟨sx, by rw [List.getElem?_set_ne hxp]; exact hx, rfl, rfl, rfl, id⟩
  refine ⟨lenInv_set h.len p s1 hlen, ?_, ?_, ?_⟩
  · intro sx hsx
    rcases List.mem_or_eq_of_mem_set hsx with h1 | h1
    · exact h.lam sx h1
    · subst h1; exact hlam
  · intro rp hrp
    obtain ⟨sx, h1, h2, h3⟩ := h.lhs rp hrp
    obtain ⟨sy, e1, e2, -, -, e5⟩ := key _ _ h1
    exact ⟨sy, e1, e2.trans h2, e5 h3⟩
  · intro rp hrp x hx
    obtain ⟨sx, h1, h2, h3, h4⟩ := h.rhs rp hrp x hx
    obtain ⟨sy, e1, e2, e3, e4, e5⟩ := key _ _ h1
    refine ⟨sy, e1, ?_, ?_, ?_⟩
    · intro ht
      rw [e3]
      exact h2 (e2 ▸ ht)
    · intro ht q hq
      rw [e4] at hq
      obtain ⟨sq, q1, q2, q3⟩ := h3 (e2 ▸ ht) q hq
      obtain ⟨sq1, r1, -, r3, -, -⟩ := key _ _ q1
      exact ⟨sq1, r1, by rw [r3]; exact ⟨q2, q3⟩⟩
    · intro ht
      exact e5 (h4 (e2 ▸ ht))

theorem allLambda_total {syms : List symbol}
    (hlam : ∀ s ∈ syms, s.lambda = true → s.type = symbol_type.NONTERMINAL) (rhs : List Nat)
    (h : ∀ p ∈ rhs, ∃ s, syms[p]? = some s) : ∃ b, allLambda syms rhs = some b := by
  induction rhs with
  | nil => exact ⟨true, rfl⟩
  | cons p rest ih =>
    obtain ⟨s, hs⟩ := h p (List.mem_cons_self _ _)
    unfold allLambda
    simp only [hs]
    by_cases hl : s.lambda = false
    · rw [if_pos (Or.inr hl), if_pos hl]
      exact ⟨false, rfl⟩
    · have hl1 : s.lambda = true := by simpa using hl
      rw [if_pos (Or.inl (hlam s (List.getElem?_mem hs) hl1)), if_neg hl]
      exact ih (fun q hq => h q (List.mem_cons_of_mem _ hq))

theorem lambdaRule_total {size : Nat} {rules : List rule} (st : List symbol × Int)
    (hinv : PassInv size rules st.1) (rp : rule) (hrp : rp ∈ rules) :
    ∃ st1, lambdaRule st rp = some st1 ∧ PassInv size rules st1.1 ∧
      st1.1.length = st.1.length ∧
      (st1 = st ∨ (st1.2 = 1 ∧ lambdaCount st1.1 = lambdaCount st.1 + 1)) := by
  obtain ⟨l, h1, h2, h3⟩ := hinv.lhs rp hrp
  unfold lambdaRule
  simp only [h1]
  by_cases hl : l.lambda = true
  · rw [if_pos hl]
    exact ⟨st, rfl, hinv, rfl, Or.inl rfl⟩
  · rw [if_neg hl]
    obtain ⟨b, hb⟩ := allLambda_total hinv.lam rp.rhs (fun p hp => by
      obtain ⟨s, e, -⟩ := hinv.rhs rp hrp p hp
      exact ⟨s, e⟩)
    rw [hb]
    cases b with
    | false => exact ⟨st, rfl, hinv, rfl, Or.inl rfl⟩
    | true =>
      refine ⟨_, rfl, ?_, by simp, Or.inr ⟨rfl, ?_⟩⟩
      · exact hinv.set h1 rfl rfl rfl (fun h => h) (fun f hf => hinv.len l (List.getElem?_mem h1) f hf)
          (fun _ => h2)
      · have hl0 : l.lambda = false := by simpa using hl
        have h4 := sum_map_set (fun s : symbol => if s.lambda = true then 1 else 0) st.1 rp.lhs l
          { l with lambda := true } h1
        have h5 : (if l.lambda = true then 1 else 0) = 0 := by rw [hl0]; rfl
        have h6 : (if ({ l with lambda := true } : symbol).lambda = true then 1 else 0) = 1 := rfl
        simp only [h5, h6] at h4
        exact h4

theorem lambdaPass_total {size : Nat} {rules : List rule} (rs : List rule)
    (hrs : ∀ rp ∈ rs, rp ∈ rules) (st : List symbol × Int) (hinv : PassInv size rules st.1) :
    ∃ st1, lambdaPass rs st = some st1 ∧ PassInv size rules st1.1 ∧
      st1.1.length = st.1.length ∧
      (st1 = st ∨ (st1.2 = 1 ∧ lambdaCount st.1 < lambdaCount st1.1)) := by
  induction rs generalizing st with
  | nil => exact ⟨st, rfl, hinv, rfl, Or.inl rfl⟩
  | cons rp rest ih =>
    obtain ⟨st1, e1, i1, l1, c1⟩ := lambdaRule_total st hinv rp (hrs rp (List.mem_cons_self _ _))
    obtain ⟨st2, e2, i2, l2, c2⟩ := ih (fun r hr => hrs r (List.mem_cons_of_mem _ hr)) st1 i1
    refine ⟨st2, by unfold lambdaPass; rw [e1]; exact e2, i2, l2.trans l1, ?_⟩
    rcases c1 with c1 | ⟨c1, d1⟩
    · subst c1
      exact c2
    · rcases c2 with c2 | ⟨c2, d2⟩
      · subst c2
        exact Or.inr ⟨c1, by omega⟩
      · exact Or.inr ⟨c2, by omega⟩

theorem lambdaLoop_total {size : Nat} {rules : List rule} (fuel : Nat) (syms : List symbol)
    (hinv : PassInv size rules syms) (hf : syms.length < fuel + lambdaCount syms) :
    ∃ out, lambdaLoop rules fuel syms = some out ∧ PassInv size rules out ∧
      out.length = syms.length := by
  induction fuel generalizing syms with
  | zero =>
    have := lambdaCount_le syms
    omega
  | succ fuel ih =>
    obtain ⟨st1, e1, i1, l1, c1⟩ := lambdaPass_total rules (fun _ h => h) (syms, 0) hinv
    obtain ⟨syms1, progress⟩ := st1
    unfold lambdaLoop
    simp only [e1]
    rcases c1 with c1 | ⟨c1, d1⟩
    · injection c1 with c1 c2
      subst c1 c2
      rw [if_neg (by simp)]
      exact ⟨syms1, rfl, hinv, rfl⟩
    · simp only at c1 d1 l1 i1
      subst c1
      rw [if_pos (by decide)]
      obtain ⟨out, o1, o2, o3⟩ := ih syms1 i1 (by omega)
      exact ⟨out, o1, o2, o3.trans l1⟩

theorem stepOK_refl (st : List symbol × Int) : StepOK st st := ⟨rfl, rfl, Or.inl rfl⟩

theorem stepOK_trans {a b c : List symbol × Int} (h1 : StepOK a b) (h2 : StepOK b c) :
    StepOK a c := by
  obtain ⟨l1, e1, c1⟩ := h1
  obtain ⟨l2, e2, c2⟩ := h2
  refine ⟨l2.trans l1, e2.trans e1, ?_⟩
  rcases c1 with c1 | ⟨c1, d1⟩
  · subst c1; exact c2
  · rcases c2 with c2 | ⟨c2, d2⟩
    · subst c2; exact Or.inr ⟨c1, d1⟩
    · exact Or.inr ⟨by omega, by omega⟩

theorem eraseFirst_get {a b : List symbol} (h : a.map eraseFirst = b.map eraseFirst) {q : Nat}
    {s : symbol} (hq : b[q]? = some s) :
    ∃ s1, a[q]? = some s1 ∧ s1.index = s.index ∧ s1.type = s.type ∧ s1.subsym = s.subsym ∧
      s1.lambda = s.lambda := by
  have h1 := congrArg (fun l => l[q]?) h
  simp only [List.getElem?_map, hq, Option.map_some'] at h1
  cases ha : a[q]? with
  | none => simp [ha] at h1
  | some s1 =>
    simp only [ha, Option.map_some', Option.some.injEq] at h1
    exact ⟨s1, rfl, (congrArg symbol.index h1 : (eraseFirst s1).index = (eraseFirst s).index),
      (congrArg symbol.type h1 : (eraseFirst s1).type = (eraseFirst s).type),
      (congrArg symbol.subsym h1 : (eraseFirst s1).subsym = (eraseFirst s).subsym),
      (congrArg symbol.lambda h1 : (eraseFirst s1).lambda = (eraseFirst s).lambda)⟩

theorem SetAdd_count {size : Nat} {f : List Bool} {e : Int} (hs : f.length = size)
    (h0 : 0 ≤ e) (h1 : e < (size : Int)) :
    ∃ c f2, SetAdd size f e = some (c, f2) ∧ f2.length = size ∧
      ((c = 0 ∧ f2 = f) ∨ (c = 1 ∧ f2.count true = f.count true + 1)) := by
  unfold SetAdd
  rw [if_pos ⟨h0, h1⟩]
  have hlt : e.toNat < f.length := by omega
  cases hb : f[e.toNat]? with
  | none =>
    rw [List.getElem?_eq_getElem hlt] at hb
    simp at hb
  | some rv =>
    cases rv with
    | true =>
      refine ⟨0, f.set e.toNat true, by simp, by simp [hs], Or.inl ⟨rfl, set_same f _ _ hb⟩⟩
    | false =>
      refine ⟨1, f.set e.toNat true, by simp, by simp [hs], Or.inr ⟨rfl, count_set_true f _ hb⟩⟩

theorem SetUnion_loop_count (s2 : List Bool) (c i : Nat) (pr : Int) (s1 : List Bool)
    (h1 : i + c ≤ s1.length) (h2 : i + c ≤ s2.length) :
    ∃ pr1 s3, SetUnion_loop s2 c i pr s1 = some (pr1, s3) ∧ s3.length = s1.length ∧
      ((pr1 = pr ∧ s3 = s1) ∨ (pr1 = 1 ∧ s1.count true < s3.count true)) := by
  induction c generalizing i pr s1 with
  | zero => exact ⟨pr, s1, rfl, rfl, Or.inl ⟨rfl, rfl⟩⟩
  | succ c ih =>
    unfold SetUnion_loop
    rw [List.getElem?_eq_getElem (by omega : i < s2.length)]
    cases s2[i] with
    | false => exact ih (i + 1) pr s1 (by omega) (by omega)
    | true =>
      simp only
      cases hb : s1[i]? with
      | none =>
        rw [List.getElem?_eq_getElem (by omega : i < s1.length)] at hb
        simp at hb
      | some b =>
        cases b with
        | true => exact ih (i + 1) pr s1 (by omega) (by omega)
        | false =>
          obtain ⟨pr1, s3, e1, e2, e3⟩ :=
            ih (i + 1) 1 (s1.set i true) (by simp; omega) (by omega)
          have hc := count_set_true s1 i hb
          refine ⟨pr1, s3, e1, by simpa using e2, Or.inr ?_⟩
          rcases e3 with ⟨a1, a2⟩ | ⟨a1, a2⟩
          · subst a2; exact ⟨a1, by omega⟩
          · exact ⟨a1, by omega⟩

theorem firstCount_set {syms : List symbol} {lhs : Nat} {s1 : symbol} {f1 f2 : List Bool}
    (h1 : syms[lhs]? = some s1) (hf : s1.firstset = some f1) :
    firstCount (syms.set lhs { s1 with firstset := some f2 }) + f1.count true =
      firstCount syms + f2.count true := by
  have := sum_map_set firstBits syms lhs s1 { s1 with firstset := some f2 } h1
  have e1 : firstBits s1 = f1.count true := by simp [firstBits, hf]
  have e2 : firstBits { s1 with firstset := some f2 } = f2.count true := rfl
  rw [e1, e2] at this
  exact this

theorem set_firstset_same {syms : List symbol} {lhs : Nat} {s1 : symbol} {f1 : List Bool}
    (h1 : syms[lhs]? = some s1) (hf : s1.firstset = some f1) :
    syms.set lhs { s1 with firstset := some f1 } = syms := by
  have : ({ s1 with firstset := some f1 } : symbol) = s1 := by
    cases s1
    simp only at hf
    subst hf
    rfl
  rw [this]
  exact set_same syms lhs s1 h1

theorem addFirst_total {size : Nat} {rules : List rule} {syms : List symbol}
    (hinv : PassInv size rules syms) {lhs : Nat}
    (hl : ∃ s, syms[lhs]? = some s ∧ s.firstset ≠ none) {e : Int}
    (h0 : 0 ≤ e) (h1 : e < (size : Int)) (pr : Int) :
    ∃ c syms1, addFirst size syms lhs e = some (c, syms1) ∧ PassInv size rules syms1 ∧
      StepOK (syms, pr) (syms1, pr + c) := by
  obtain ⟨s1, a1, a2⟩ := hl
  cases hf : s1.firstset with
  | none => exact absurd hf a2
  | some f1 =>
    have hlen := hinv.len s1 (List.getElem?_mem a1) f1 hf
    obtain ⟨c, f2, e1, e2, e3⟩ := SetAdd_count hlen h0 h1
    have he : addFirst size syms lhs e =
        some (c, syms.set lhs { s1 with firstset := some f2 }) := by
      unfold addFirst
      simp only [a1, hf, e1]
    refine ⟨c, _, he, ?_, by simp, (addFirst_spec he).1, ?_⟩
    · exact hinv.set a1 rfl rfl rfl (fun _ => by simp) (fun f hf2 => by
        simp only [Option.some.injEq] at hf2
        subst hf2
        exact e2) (fun hlam => hinv.lam s1 (List.getElem?_mem a1) hlam)
    · rcases e3 with ⟨b1, b2⟩ | ⟨b1, b2⟩
      · subst b1 b2
        left
        rw [set_firstset_same a1 hf]
        simp
      · subst b1
        right
        have := @firstCount_set syms lhs s1 f1 f2 a1 hf
        simp only
        omega

theorem unionFirst_total {size : Nat} {rules : List rule} {syms : List symbol}
    (hinv : PassInv size rules syms) {lhs p2 : Nat}
    (hl : ∃ s, syms[lhs]? = some s ∧ s.firstset ≠ none)
    (h2 : ∃ s, syms[p2]? = some s ∧ s.firstset ≠ none) (pr : Int) :
    ∃ c syms1, unionFirst size syms lhs p2 = some (c, syms1) ∧ PassInv size rules syms1 ∧
      StepOK (syms, pr) (syms1, pr + c) := by
  obtain ⟨s1, a1, a2⟩ := hl
  obtain ⟨s2, b1, b2⟩ := h2
  cases hf : s1.firstset with
  | none => exact absurd hf a2
  | some f1 =>
    cases hg : s2.firstset with
    | none => exact absurd hg b2
    | some f2 =>
      have hlen1 := hinv.len s1 (List.getElem?_mem a1) f1 hf
      have hlen2 := hinv.len s2 (List.getElem?_mem b1) f2 hg
      obtain ⟨c, f3, e1, e2, e3⟩ := SetUnion_loop_count f2 size 0 0 f1 (by omega) (by omega)
      have he : unionFirst size syms lhs p2 =
          some (c, syms.set lhs { s1 with firstset := some f3 }) := by
        unfold unionFirst SetUnion
        simp only [a1, b1, hf, hg, e1]
      refine ⟨c, _, he, ?_, by simp, (unionFirst_spec he).1, ?_⟩
      · exact hinv.set a1 rfl rfl rfl (fun _ => by simp) (fun f hf2 => by
          simp only [Option.some.injEq] at hf2
          subst hf2
          omega) (fun hlam => hinv.lam s1 (List.getElem?_mem a1) hlam)
      · rcases e3 with ⟨c1, c2⟩ | ⟨c1, c2⟩
        · subst c1 c2
          left
          rw [set_firstset_same a1 hf]
          simp
        · subst c1
          right
          have := @firstCount_set syms lhs s1 f1 f3 a1 hf
          simp only
          omega

theorem addSubsyms_total {size : Nat} {rules : List rule} {lhs : Nat} (subs : List Nat)
    (st : List symbol × Int) (hinv : PassInv size rules st.1)
    (hl : ∃ s, st.1[lhs]? = some s ∧ s.firstset ≠ none)
    (hs : ∀ q ∈ subs, ∃ sq, st.1[q]? = some sq ∧ 0 ≤ sq.index ∧ sq.index < (size : Int)) :
    ∃ st1, addSubsyms size lhs subs st = some st1 ∧ PassInv size rules st1.1 ∧
      StepOK st st1 := by
  induction subs generalizing st with
  | nil => exact ⟨st, rfl, hinv, stepOK_refl st⟩
  | cons q rest ih =>
    obtain ⟨syms, pr⟩ := st
    obtain ⟨sq, q1, q2, q3⟩ := hs q (List.mem_cons_self _ _)
    obtain ⟨c, syms1, e1, i1, k1⟩ := addFirst_total hinv hl q2 q3 pr
    have hl1 : ∃ s, syms1[lhs]? = some s ∧ s.firstset ≠ none := by
      have := (addFirst_spec e1)
      unfold addFirst at e1
      obtain ⟨s0, a1, a2⟩ := hl
      simp only at a1
      simp only [a1] at e1
      cases hf : s0.firstset with
      | none => exact absurd hf a2
      | some f0 =>
        simp only [hf] at e1
        cases hr : SetAdd size f0 sq.index with
        | none => simp [hr] at e1
        | some r =>
          simp only [hr, Option.some.injEq, Prod.mk.injEq] at e1
          rw [← e1.2]
          exact ⟨_, List.getElem?_set_self (lt_of_getElem?_some a1), by simp⟩
    obtain ⟨st2, e2, i2, k2⟩ := ih (syms1, pr + c) i1 hl1 (by
      intro x hx
      obtain ⟨sx, x1, x2, x3⟩ := hs x (List.mem_cons_of_mem _ hx)
      obtain ⟨sy, y1, y2, -⟩ := eraseFirst_get k1.2.1 x1
      exact ⟨sy, y1, by rw [y2]; exact ⟨x2, x3⟩⟩)
    refine ⟨st2, ?_, i2, stepOK_trans k1 k2⟩
    unfold addSubsyms
    simp only [q1, e1]
    exact e2

theorem firstScan_total {size : Nat} {rules : List rule} (rp : rule) (hrp : rp ∈ rules)
    (rhs : List Nat) (hsub : ∀ p ∈ rhs, p ∈ rp.rhs) (st : List symbol × Int)
    (hinv : PassInv size rules st.1) :
    ∃ st1, firstScan size rp.lhs rhs st = some st1 ∧ PassInv size rules st1.1 ∧
      StepOK st st1 := by
  induction rhs generalizing st with
  | nil => exact ⟨st, rfl, hinv, stepOK_refl st⟩
  | cons p2 rest ih =>
    obtain ⟨syms, pr⟩ := st
    have hrest : ∀ p ∈ rest, p ∈ rp.rhs := fun p hp => hsub p (List.mem_cons_of_mem _ hp)
    obtain ⟨s2, h1, t1, t2, t3⟩ := hinv.rhs rp hrp p2 (hsub p2 (List.mem_cons_self _ _))
    have hl : ∃ s, syms[rp.lhs]? = some s ∧ s.firstset ≠ none := by
      obtain ⟨s, a1, -, a3⟩ := hinv.lhs rp hrp
      exact ⟨s, a1, a3⟩
    unfold firstScan
    simp only [h1]
    by_cases hT : s2.type = symbol_type.TERMINAL
    · rw [if_pos hT]
      obtain ⟨c, syms1, e1, i1, k1⟩ := addFirst_total hinv hl (t1 hT).1 (t1 hT).2 pr
      simp only [e1]
      exact ⟨_, rfl, i1, k1⟩
    · rw [if_neg hT]
      by_cases hM : s2.type = symbol_type.MULTITERMINAL
      · rw [if_pos hM]
        exact addSubsyms_total s2.subsym (syms, pr) hinv hl (t2 hM)
      · rw [if_neg hM]
        have hN : s2.type = symbol_type.NONTERMINAL := by
          cases h : s2.type
          · exact absurd h hT
          · rfl
          · exact absurd h hM
        by_cases hself : rp.lhs = p2
        · rw [if_pos hself]
          by_cases hlam : s2.lambda = false
          · rw [if_pos hlam]
            exact ⟨_, rfl, hinv, stepOK_refl _⟩
          · rw [if_neg hlam]
            exact ih hrest (syms, pr) hinv
        · rw [if_neg hself]
          obtain ⟨c, syms1, e1, i1, k1⟩ := unionFirst_total hinv hl ⟨s2, h1, t3 hN⟩ pr
          simp only [e1]
          by_cases hlam : s2.lambda = false
          · rw [if_pos hlam]
            exact ⟨_, rfl, i1, k1⟩
          · rw [if_neg hlam]
            obtain ⟨st2, e2, i2, k2⟩ := ih hrest (syms1, pr + c) i1
            exact ⟨st2, e2, i2, stepOK_trans k1 k2⟩

theorem firstPass_total {size : Nat} {rules : List rule} (rs : List rule)
    (hrs : ∀ rp ∈ rs, rp ∈ rules) (st : List symbol × Int) (hinv : PassInv size rules st.1) :
    ∃ st1, firstPass size rs st = some st1 ∧ PassInv size rules st1.1 ∧ StepOK st st1 := by
  induction rs generalizing st with
  | nil => exact ⟨st, rfl, hinv, stepOK_refl st⟩
  | cons rp rest ih =>
    obtain ⟨st1, e1, i1, k1⟩ :=
      firstScan_total rp (hrs rp (List.mem_cons_self _ _)) rp.rhs (fun _ h => h) st hinv
    obtain ⟨st2, e2, i2, k2⟩ := ih (fun r hr => hrs r (List.mem_cons_of_mem _ hr)) st1 i1
    refine ⟨st2, ?_, i2, stepOK_trans k1 k2⟩
    unfold firstPass
    rw [e1]
    exact e2

theorem firstLoop_total {size : Nat} {rules : List rule} (fuel : Nat) (syms : List symbol)
    (hinv : PassInv size rules syms) (hf : syms.length * size < fuel + firstCount syms) :
    ∃ out, firstLoop size rules fuel syms = some out ∧ PassInv size rules out ∧
      out.length = syms.length := by
  induction fuel generalizing syms with
  | zero =>
    have := firstCount_le hinv.len
    omega
  | succ fuel ih =>
    obtain ⟨st1, e1, i1, l1, -, c1⟩ := firstPass_total rules (fun _ h => h) (syms, 0) hinv
    obtain ⟨syms1, progress⟩ := st1
    unfold firstLoop
    simp only [e1]
    rcases c1 with c1 | ⟨c1, d1⟩
    · injection c1 with c1 c2
      subst c1 c2
      rw [if_neg (by simp)]
      exact ⟨syms1, rfl, hinv, rfl⟩
    · simp only at c1 d1 l1 i1
      rw [if_pos (by omega)]
      obtain ⟨out, o1, o2, o3⟩ := ih syms1 i1 (by rw [l1]; omega)
      exact ⟨out, o1, o2, o3.trans l1⟩

theorem resetLambda_total (c i : Nat) (syms : List symbol) (h : i + c ≤ syms.length) :
    ∃ out, resetLambda c i syms = some out ∧ out.length = syms.length ∧
      ∀ (x : Nat) (s0 : symbol), syms[x]? = some s0 →
        out[x]? = some (if i ≤ x ∧ x < i + c then { s0 with lambda := false } else s0) := by
  induction c generalizing i syms with
  | zero =>
    refine ⟨syms, rfl, rfl, fun x s0 hx => ?_⟩
    rw [if_neg (by omega)]
    exact hx
  | succ c ih =>
    have hi : i < syms.length := by omega
    unfold resetLambda
    rw [List.getElem?_eq_getElem hi]
    simp only
    obtain ⟨out, e1, e2, e3⟩ := ih (i + 1) (syms.set i { syms[i] with lambda := false })
      (by simp; omega)
    refine ⟨out, e1, by simpa using e2, fun x s0 hx => ?_⟩
    by_cases hxi : i = x
    · subst hxi
      rw [List.getElem?_eq_getElem hi] at hx
      injection hx with hx
      subst hx
      rw [e3 i _ (List.getElem?_set_self hi), if_neg (by omega), if_pos (by omega)]
    · rw [e3 x s0 (by rw [List.getElem?_set_ne hxi]; exact hx)]
      by_cases hr : i + 1 ≤ x ∧ x < i + 1 + c
      · rw [if_pos hr, if_pos (by omega)]
      · rw [if_neg hr, if_neg (by omega)]

theorem newFirstSets_total (size c i : Nat) (syms : List symbol) (h : i + c ≤ syms.length) :
    ∃ out, newFirstSets size c i syms = some out ∧ out.length = syms.length ∧
      ∀ (x : Nat) (s0 : symbol), syms[x]? = some s0 →
        out[x]? = some (if i ≤ x ∧ x < i + c then { s0 with firstset := some (SetNew size) }
          else s0) := by
  induction c generalizing i syms with
  | zero =>
    refine ⟨syms, rfl, rfl, fun x s0 hx => ?_⟩
    rw [if_neg (by omega)]
    exact hx
  | succ c ih =>
    have hi : i < syms.length := by omega
    unfold newFirstSets
    rw [List.getElem?_eq_getElem hi]
    simp only
    obtain ⟨out, e1, e2, e3⟩ :=
      ih (i + 1) (syms.set i { syms[i] with firstset := some (SetNew size) }) (by simp; omega)
    refine ⟨out, e1, by simpa using e2, fun x s0 hx => ?_⟩
    by_cases hxi : i = x
    · subst hxi
      rw [List.getElem?_eq_getElem hi] at hx
      injection hx with hx
      subst hx
      rw [e3 i _ (List.getElem?_set_self hi), if_neg (by omega), if_pos (by omega)]
    · rw [e3 x s0 (by rw [List.getElem?_set_ne hxi]; exact hx)]
      by_cases hr : i + 1 ≤ x ∧ x < i + 1 + c
      · rw [if_pos hr, if_pos (by omega)]
      · rw [if_neg hr, if_neg (by omega)]

/-- The symbol at position `x` after the two initialisation loops of `FindFirstSets`. -/
theorem FindFirstSets_start {size : Nat} {lemp : lemon} (h1 : lemp.nterminal ≤ lemp.nsymbol)
    (h2 : lemp.nsymbol ≤ lemp.symbols.length) :
    ∃ syms0 syms1, resetLambda lemp.nsymbol 0 lemp.symbols = some syms0 ∧
      newFirstSets size (lemp.nsymbol - lemp.nterminal) lemp.nterminal syms0 = some syms1 ∧
      syms1.length = lemp.symbols.length ∧
      ∀ (x : Nat) (s0 : symbol), lemp.symbols[x]? = some s0 →
        ∃ s1, syms1[x]? = some s1 ∧ s1.type = s0.type ∧ s1.index = s0.index ∧
          s1.subsym = s0.subsym ∧
          s1.lambda = (if x < lemp.nsymbol then false else s0.lambda) ∧
          s1.firstset = (if lemp.nterminal ≤ x ∧ x < lemp.nsymbol then some (SetNew size)
            else s0.firstset) := by
  obtain ⟨syms0, e1, l1, k1⟩ := resetLambda_total lemp.nsymbol 0 lemp.symbols (by omega)
  obtain ⟨syms1, e2, l2, k2⟩ :=
    newFirstSets_total size (lemp.nsymbol - lemp.nterminal) lemp.nterminal syms0 (by omega)
  refine ⟨syms0, syms1, e1, e2, l2.trans l1, fun x s0 hx => ?_⟩
  have a1 := k1 x s0 hx
  have a2 := k2 x _ a1
  refine ⟨_, a2, ?_, ?_, ?_, ?_, ?_⟩
  · split_ifs <;> rfl
  · split_ifs <;> rfl
  · split_ifs <;> rfl
  · by_cases hx1 : x < lemp.nsymbol
    · rw [if_pos hx1]
      split_ifs <;> first | rfl | omega
    · rw [if_neg hx1]
      split_ifs <;> first | rfl | omega
  · by_cases hx1 : lemp.nterminal ≤ x ∧ x < lemp.nsymbol
    · rw [if_pos hx1, if_pos (by omega)]
    · rw [if_neg hx1, if_neg (by omega)]
      split_ifs <;> rfl

theorem rhsOK_spec {size : Nat} {lemp : lemon} {p : Nat} (h : rhsOK size lemp p = true) :
    ∃ s, lemp.symbols[p]? = some s ∧
      (s.type = symbol_type.TERMINAL → 0 ≤ s.index ∧ s.index < (size : Int)) ∧
      (s.type = symbol_type.MULTITERMINAL → ∀ q ∈ s.subsym, ∃ sq, lemp.symbols[q]? = some sq ∧
        0 ≤ sq.index ∧ sq.index < (size : Int)) ∧
      (s.type = symbol_type.NONTERMINAL → lemp.nterminal ≤ p ∧ p < lemp.nsymbol) := by
  unfold rhsOK at h
  cases hp : lemp.symbols[p]? with
  | none => simp [hp] at h
  | some s =>
    simp only [hp] at h
    refine ⟨s, rfl, ?_, ?_, ?_⟩
    · intro ht
      simp only [ht, decide_eq_true_eq] at h
      exact h
    · intro ht q hq
      simp only [ht, List.all_eq_true] at h
      have := h q hq
      cases hq2 : lemp.symbols[q]? with
      | none => simp [hq2] at this
      | some sq =>
        simp only [hq2, decide_eq_true_eq] at this
        exact ⟨sq, rfl, this⟩
    · intro ht
      simp only [ht, decide_eq_true_eq] at h
      exact h

theorem FindFirstSets_start_inv {size : Nat} {lemp : lemon} (hok : FirstOK size lemp) :
    ∃ syms0 syms1, resetLambda lemp.nsymbol 0 lemp.symbols = some syms0 ∧
      newFirstSets size (lemp.nsymbol - lemp.nterminal) lemp.nterminal syms0 = some syms1 ∧
      syms1.length = lemp.symbols.length ∧ PassInv size lemp.rule syms1 := by
  obtain ⟨h1, h2, hlam, hfirst, hrules⟩ := hok
  obtain ⟨syms0, syms1, e1, e2, l1, k⟩ := @FindFirstSets_start size lemp h1 h2
  refine ⟨syms0, syms1, e1, e2, l1, ?_⟩
  have back : ∀ s ∈ syms1, ∃ (x : Nat) (s0 : symbol), lemp.symbols[x]? = some s0 ∧
      syms1[x]? = some s := by
    intro s hs
    obtain ⟨x, hx⟩ := List.mem_iff_getElem?.1 hs
    have hlt : x < lemp.symbols.length := by
      rw [← l1]; exact lt_of_getElem?_some hx
    exact ⟨x, _, List.getElem?_eq_getElem hlt, hx⟩
  refine ⟨?_, ?_, ?_, ?_⟩
  · intro s hs f hf
    obtain ⟨x, s0, a1, a2⟩ := back s hs
    obtain ⟨s1, b1, -, -, -, -, b6⟩ := k x s0 a1
    rw [a2] at b1
    injection b1 with b1
    subst b1
    rw [b6] at hf
    by_cases hx : lemp.nterminal ≤ x ∧ x < lemp.nsymbol
    · rw [if_pos hx] at hf
      injection hf with hf
      subst hf
      simp [SetNew]
    · rw [if_neg hx] at hf
      have : s0.firstset = none := by
        apply hfirst s0
        rw [List.mem_append]
        by_cases hpt : x < lemp.nterminal
        · exact Or.inl (mem_take_of_getElem? a1 hpt)
        · exact Or.inr (mem_drop_of_getElem? a1 (by omega))
      rw [this] at hf
      simp at hf
  · intro s hs hl
    obtain ⟨x, s0, a1, a2⟩ := back s hs
    obtain ⟨s1, b1, -, -, -, b5, -⟩ := k x s0 a1
    rw [a2] at b1
    injection b1 with b1
    subst b1
    rw [b5] at hl
    by_cases hx : x < lemp.nsymbol
    · rw [if_pos hx] at hl
      simp at hl
    · rw [if_neg hx] at hl
      have := hlam s0 (mem_drop_of_getElem? a1 (by omega))
      rw [this] at hl
      simp at hl
  · intro rp hrp
    obtain ⟨r1, r2, r3, -⟩ := hrules rp hrp
    unfold symType at r3
    cases h0 : lemp.symbols[rp.lhs]? with
    | none => simp [h0] at r3
    | some s0 =>
      simp only [h0, Option.map_some', Option.some.injEq] at r3
      obtain ⟨s1, b1, b2, -, -, -, b6⟩ := k rp.lhs s0 h0
      refine ⟨s1, b1, b2.trans r3, ?_⟩
      rw [b6, if_pos ⟨r1, r2⟩]
      simp
  · intro rp hrp p hp
    obtain ⟨-, -, -, r4⟩ := hrules rp hrp
    obtain ⟨s0, a1, a2, a3, a4⟩ := rhsOK_spec (r4 p hp)
    obtain ⟨s1, b1, b2, b3, b4, -, b6⟩ := k p s0 a1
    refine ⟨s1, b1, ?_, ?_, ?_⟩
    · intro ht
      rw [b3]
      exact a2 (b2 ▸ ht)
    · intro ht q hq
      rw [b4] at hq
      obtain ⟨sq, q1, q2, q3⟩ := a3 (b2 ▸ ht) q hq
      obtain ⟨sq1, c1, -, c3, -, -, -⟩ := k q sq q1
      exact ⟨sq1, c1, by rw [c3]; exact ⟨q2, q3⟩⟩
    · intro ht
      rw [b6, if_pos (a4 (b2 ▸ ht))]
      simp

/-- C34: both fixpoint loops of `FindFirstSets` terminate.  For a grammar as `main` hands
it over (`FirstOK`), `FindFirstSets` returns as soon as the number of passes allowed to
each loop exceeds `(number of symbols) * (size + 1)`.  The reason is the one the claim
gives: from every symbol table that satisfies the pass invariant, a nullable pass returns,
and it either reports no progress and leaves the table unchanged, or strictly increases
the number of symbols flagged nullable, which is at most the number of symbols; a FIRST
pass returns, and it either reports no progress and leaves the table unchanged, or
strictly increases the number of bits set in the first sets, which is at most
`(number of symbols) * size`. -/
theorem FindFirstSets_terminates (size : Nat) (lemp : lemon) (hok : FirstOK size lemp) :
    (∀ fuel, lemp.symbols.length * (size + 1) < fuel →
      ∃ r, FindFirstSets size fuel lemp = some r) ∧
    (∀ syms, PassInv size lemp.rule syms →
      ∃ syms1 progress, lambdaPass lemp.rule (syms, 0) = some (syms1, progress) ∧
        PassInv size lemp.rule syms1 ∧ syms1.length = syms.length ∧
        lambdaCount syms1 ≤ syms1.length ∧
        (progress = 0 → syms1 = syms) ∧
        (progress ≠ 0 → lambdaCount syms < lambdaCount syms1)) ∧
    (∀ syms, PassInv size lemp.rule syms →
      ∃ syms1 progress, firstPass size lemp.rule (syms, 0) = some (syms1, progress) ∧
        PassInv size lemp.rule syms1 ∧ syms1.length = syms.length ∧
        firstCount syms1 ≤ syms1.length * size ∧
        (progress = 0 → syms1 = syms) ∧
        (progress ≠ 0 → firstCount syms < firstCount syms1)) := by
  refine ⟨?_, ?_, ?_⟩
  · intro fuel hfuel
    obtain ⟨syms0, syms1, e1, e2, l1, i1⟩ := FindFirstSets_start_inv hok
    rw [Nat.mul_add, Nat.mul_one] at hfuel
    obtain ⟨syms2, e3, i2, l2⟩ := lambdaLoop_total fuel syms1 i1 (by
      rw [l1]
      have : 0 ≤ lemp.symbols.length * size := Nat.zero_le _
      omega)
    obtain ⟨syms3, e4, -, -⟩ := firstLoop_total fuel syms2 i2 (by
      rw [l2, l1]
      omega)
    refine ⟨{ lemp with symbols := syms3 }, ?_⟩
    unfold FindFirstSets
    simp only [e1, e2, e3, e4]
  · intro syms hinv
    obtain ⟨st1, e1, i1, l1, c1⟩ := lambdaPass_total lemp.rule (fun _ h => h) (syms, 0) hinv
    obtain ⟨syms1, progress⟩ := st1
    refine ⟨syms1, progress, e1, i1, l1, lambdaCount_le syms1, ?_, ?_⟩
    · intro h0
      rcases c1 with c1 | ⟨c1, -⟩
      · injection c1
      · simp only at c1
        omega
    · intro h0
      rcases c1 with c1 | ⟨-, d1⟩
      · injection c1 with c1 c2
        exact absurd c2 h0
      · exact d1
  · intro syms hinv
    obtain ⟨st1, e1, i1, l1, -, c1⟩ := firstPass_total lemp.rule (fun _ h => h) (syms, 0) hinv
    obtain ⟨syms1, progress⟩ := st1
    refine ⟨syms1, progress, e1, i1, l1, firstCount_le i1.len, ?_, ?_⟩
    · intro h0
      rcases c1 with c1 | ⟨c1, -⟩
      · injection c1
      · simp only at c1
        omega
    · intro h0
      rcases c1 with c1 | ⟨-, d1⟩
      · injection c1 with c1 c2
        exact absurd c2 h0
      · exact d1

/-- The grammar `A -> a A b | (empty) ; B -> b` with set size 5. -/
theorem FindFirstSets_terminates_witness :
    FirstOK 5 grammarAB ∧
    (∀ fuel, grammarAB.symbols.length * (5 + 1) < fuel →
      ∃ r, FindFirstSets 5 fuel grammarAB = some r) ∧
    (∀ syms, PassInv 5 grammarAB.rule syms →
      ∃ syms1 progress, lambdaPass grammarAB.rule (syms, 0) = some (syms1, progress) ∧
        PassInv 5 grammarAB.rule syms1 ∧ syms1.length = syms.length ∧
        lambdaCount syms1 ≤ syms1.length ∧
        (progress = 0 → syms1 = syms) ∧
        (progress ≠ 0 → lambdaCount syms < lambdaCount syms1)) ∧
    (∀ syms, PassInv 5 grammarAB.rule syms →
      ∃ syms1 progress, firstPass 5 grammarAB.rule (syms, 0) = some (syms1, progress) ∧
        PassInv 5 grammarAB.rule syms1 ∧ syms1.length = syms.length ∧
        firstCount syms1 ≤ syms1.length * 5 ∧
        (progress = 0 → syms1 = syms) ∧
        (progress ≠ 0 → firstCount syms < firstCount syms1)) :=
  ⟨by decide, FindFirstSets_terminates 5 grammarAB (by decide)⟩

theorem subSet_refl (f : List Bool) : SubSet f f := fun _ h => h

theorem subSet_trans {f g h : List Bool} (h1 : SubSet f g) (h2 : SubSet g h) : SubSet f h :=
  fun t ht => h2 t (h1 t ht)

theorem SetUnion_loop_sup (s2 : List Bool) (c i : Nat) (pr : Int) (s1 : List Bool)
    (pr1 : Int) (s3 : List Bool) (h : SetUnion_loop s2 c i pr s1 = some (pr1, s3)) :
    SubSet s1 s3 ∧ ∀ t, i ≤ t → t < i + c → s2.getD t false = true →
      s3.getD t false = true := by
  induction c generalizing i pr s1 with
  | zero =>
    simp only [SetUnion_loop, Option.some.injEq, Prod.mk.injEq] at h
    rw [h.2]
    exact ⟨subSet_refl _, fun t h1 h2 => by omega⟩
  | succ c ih =>
    unfold SetUnion_loop at h
    cases h2 : s2[i]? with
    | none => simp [h2] at h
    | some b2 =>
      cases b2 with
      | false =>
        simp only [h2] at h
        obtain ⟨a1, a2⟩ := ih _ _ _ h
        refine ⟨a1, fun t ht1 ht2 ht3 => ?_⟩
        by_cases hti : t = i
        · subst hti
          simp [List.getD, h2] at ht3
        · exact a2 t (by omega) (by omega) ht3
      | true =>
        simp only [h2] at h
        cases h1 : s1[i]? with
        | none => simp [h1] at h
        | some b1 =>
          cases b1 with
          | true =>
            simp only [h1] at h
            obtain ⟨a1, a2⟩ := ih _ _ _ h
            refine ⟨a1, fun t ht1 ht2 ht3 => ?_⟩
            by_cases hti : t = i
            · subst hti
              exact a1 t (by simp [List.getD, h1])
            · exact a2 t (by omega) (by omega) ht3
          | false =>
            simp only [h1] at h
            obtain ⟨a1, a2⟩ := ih _ _ _ h
            have hi : i < s1.length := lt_of_getElem?_some h1
            refine ⟨fun t ht => a1 t ?_, fun t ht1 ht2 ht3 => ?_⟩
            · by_cases hti : i = t
              · subst hti
                simp [List.getD, h1] at ht
              · rw [List.getD_eq_getElem?_getD, List.getElem?_set_ne hti,
                  ← List.getD_eq_getElem?_getD]
                exact ht
            · by_cases hti : t = i
              · subst hti
                apply a1
                rw [List.getD_eq_getElem?_getD, List.getElem?_set_self hi]
                rfl
              · exact a2 t (by omega) (by omega) ht3

theorem SetUnion_full {size : Nat} {f1 f2 : List Bool} (h1 : f1.length = size)
    (h2 : f2.length = size) :
    ∃ c f3, SetUnion size f1 f2 = some (c, f3) ∧ f3.length = size ∧
      ((c = 0 ∧ f3 = f1) ∨ (c = 1 ∧ f1.count true < f3.count true)) ∧
      SubSet f1 f3 ∧ SubSet f2 f3 := by
  obtain ⟨c, f3, e1, e2, e3⟩ := SetUnion_loop_count f2 size 0 0 f1 (by omega) (by omega)
  obtain ⟨a1, a2⟩ := SetUnion_loop_sup f2 size 0 0 f1 c f3 e1
  refine ⟨c, f3, e1, by omega, e3, a1, fun t ht => ?_⟩
  by_cases hlt : t < size
  · exact a2 t (by omega) (by omega) ht
  · rw [List.getD_eq_getElem?_getD, List.getElem?_eq_none (by omega)] at ht
    simp at ht

theorem cfgAt_of_lt {cfgs : List config} {a : Nat} (h : a < cfgs.length) :
    cfgs[a]? = some (cfgAt cfgs a) := by
  simp [cfgAt, List.getD, List.getElem?_eq_getElem h]

theorem cfgAt_mem {cfgs : List config} {a : Nat} (h : a < cfgs.length) :
    cfgAt cfgs a ∈ cfgs := List.getElem?_mem (cfgAt_of_lt h)

theorem fwsCount_set {cfgs : List config} {a : Nat} (h : a < cfgs.length) (c : config) :
    fwsCount (cfgs.set a c) + (cfgAt cfgs a).fws.count true =
      fwsCount cfgs + c.fws.count true :=
  sum_map_set (fun c : config => c.fws.count true) cfgs a (cfgAt cfgs a) c (cfgAt_of_lt h)

theorem SetUnion_loop_self (s : List Bool) (c i : Nat) (pr : Int) (pr1 : Int) (s3 : List Bool)
    (h : SetUnion_loop s c i pr s = some (pr1, s3)) : pr1 = pr ∧ s3 = s := by
  induction c generalizing i with
  | zero =>
    simp only [SetUnion_loop, Option.some.injEq, Prod.mk.injEq] at h
    exact ⟨h.1.symm, h.2.symm⟩
  | succ c ih =>
    unfold SetUnion_loop at h
    cases h2 : s[i]? with
    | none => simp [h2] at h
    | some b2 =>
      cases b2 with
      | false =>
        simp only [h2] at h
        exact ih _ h
      | true =>
        simp only [h2] at h
        exact ih _ h

theorem set_fws_same {cfgs : List config} {a : Nat} (h : a < cfgs.length) :
    cfgs.set a { cfgAt cfgs a with fws := (cfgAt cfgs a).fws } = cfgs :=
  set_same cfgs a _ (cfgAt_of_lt h)

theorem propagate_spec {size : Nat} {states : List state} {ps : List Nat}
    {cfgs0 : List config} (cfp : Nat) (l : List Nat) (st : List config × Int)
    (hinv : FolInv size states ps cfgs0 st.1) (hcfp : cfp < st.1.length)
    (hl : ∀ d ∈ l, d < st.1.length) :
    ∃ st1, Heap.propagate size cfp l st = some st1 ∧ FolInv size states ps cfgs0 st1.1 ∧
      (st1 = st ∨ Loud st st1) ∧
      (∀ a, SubSet (cfgAt st.1 a).fws (cfgAt st1.1 a).fws) ∧
      (cfgAt st1.1 cfp).fws = (cfgAt st.1 cfp).fws ∧
      ∀ d ∈ l, SubSet (cfgAt st.1 cfp).fws (cfgAt st1.1 d).fws := by
  induction l generalizing st with
  | nil => exact ⟨st, rfl, hinv, Or.inl rfl, fun _ => subSet_refl _, rfl, by simp⟩
  | cons other rest ih =>
    obtain ⟨cfgs, pr⟩ := st
    simp only at hinv hcfp hl
    have ho : other < cfgs.length := hl other (List.mem_cons_self _ _)
    have hrest : ∀ d ∈ rest, d < cfgs.length := fun d hd => hl d (List.mem_cons_of_mem _ hd)
    obtain ⟨c, f3, e1, e2, e3, e4, e5⟩ := SetUnion_full (hinv.fws other ho) (hinv.fws cfp hcfp)
    unfold Heap.propagate
    simp only [e1]
    rcases e3 with ⟨c0, c1⟩ | ⟨c0, c1⟩
    · subst c0 c1
      rw [if_neg (by simp), set_fws_same ho]
      obtain ⟨st1, a1, a2, a3, a4, a5, a6⟩ := ih (cfgs, pr) hinv hcfp hrest
      refine ⟨st1, a1, a2, a3, a4, a5, ?_⟩
      intro d hd
      rcases List.mem_cons.1 hd with rfl | hd
      · exact subSet_trans e5 (a4 d)
      · exact a6 d hd
    · subst c0
      rw [if_pos (by decide)]
      have hne : other ≠ cfp := by
        intro e
        subst e
        have := SetUnion_loop_self _ size 0 0 1 f3 e1
        omega
      have hself : cfgAt (cfgs.set other { cfgAt cfgs other with
          fws := f3, status := cfgstatus.INCOMPLETE }) other =
          { cfgAt cfgs other with fws := f3, status := cfgstatus.INCOMPLETE } :=
        cfgAt_set_self _ _ ho
      have hother : ∀ a, a ≠ other → cfgAt (cfgs.set other { cfgAt cfgs other with
          fws := f3, status := cfgstatus.INCOMPLETE }) a = cfgAt cfgs a :=
        fun a ha => cfgAt_set_ne _ _ (Ne.symm ha)
      have hsub : ∀ a, SubSet (cfgAt cfgs a).fws (cfgAt (cfgs.set other { cfgAt cfgs other with
          fws := f3, status := cfgstatus.INCOMPLETE }) a).fws := by
        intro a
        by_cases ha : a = other
        · subst ha
          rw [hself]
          exact e4
        · rw [hother a ha]
          exact subSet_refl _
      have hfp : ∀ a, (cfgAt (cfgs.set other { cfgAt cfgs other with
          fws := f3, status := cfgstatus.INCOMPLETE }) a).fplp = (cfgAt cfgs a).fplp := by
        intro a
        by_cases ha : a = other
        · subst ha
          rw [hself]
        · rw [hother a ha]
      have hinv1 : FolInv size states ps cfgs0 (cfgs.set other { cfgAt cfgs other with
          fws := f3, status := cfgstatus.INCOMPLETE }) := by
        refine ⟨by simpa using hinv.len, fun a => (hfp a).trans (hinv.fplp a), ?_,
          fun a => subSet_trans (hinv.grow a) (hsub a), ?_, ?_⟩
        · intro a ha
          by_cases hao : a = other
          · subst hao
            rw [hself]
            exact e2
          · rw [hother a hao]
            exact hinv.fws a (by simpa using ha)
        · intro a ha d hd
          rw [hfp a] at hd
          simpa using hinv.link a (by simpa using ha) d hd
        · intro a hS hst d hd
          have hao : a ≠ other := by
            intro e
            subst e
            rw [hself] at hst
            simp at hst
          rw [hother a hao] at hst hd ⊢
          exact subSet_trans (hinv.done a hS hst d hd) (hsub d)
      obtain ⟨st1, a1, a2, a3, a4, a5, a6⟩ := ih (_, 1) hinv1 (by simpa using hcfp)
        (fun d hd => by simpa using hrest d hd)
      have hcount := fwsCount_set ho { cfgAt cfgs other with
          fws := f3, status := cfgstatus.INCOMPLETE }
      simp only at hcount
      refine ⟨st1, a1, a2, Or.inr ?_, fun a => subSet_trans (hsub a) (a4 a), ?_, ?_⟩
      · rcases a3 with a3 | ⟨b1, b2⟩
        · subst a3
          exact ⟨rfl, by simp only; omega⟩
        · exact ⟨b1, by simp only at b2 ⊢; omega⟩
      · rw [a5, hother cfp (Ne.symm hne)]
      · intro d hd
        rcases List.mem_cons.1 hd with rfl | hd
        · refine subSet_trans ?_ (a4 d)
          rw [hself]
          exact e5
        · have := a6 d hd
          rw [hother cfp (Ne.symm hne)] at this
          exact this

theorem quiet_trans {V W : List Nat} {a b c : List config × Int} (h1 : Quiet V a b)
    (h2 : Quiet W b c) : Quiet (V ++ W) a c := by
  obtain ⟨a1, a2, a3, a4, a5⟩ := h1
  obtain ⟨b1, b2, b3, b4, b5⟩ := h2
  refine ⟨b1.trans a1, b2.trans a2, fun x => (b3 x).trans (a3 x), fun x hx => b4 x (a4 x hx), ?_⟩
  intro x hx
  rcases List.mem_append.1 hx with hx | hx
  · exact b4 x (a5 x hx)
  · exact b5 x hx

theorem moved_trans {V W : List Nat} {a b c : List config × Int}
    (h1 : Quiet V a b ∨ Loud a b) (h2 : Quiet W b c ∨ Loud b c) :
    Quiet (V ++ W) a c ∨ Loud a c := by
  rcases h1 with h1 | h1
  · rcases h2 with h2 | h2
    · exact Or.inl (quiet_trans h1 h2)
    · exact Or.inr ⟨h2.1, by have := h1.2.1; have := h2.2; omega⟩
  · rcases h2 with h2 | h2
    · exact Or.inr ⟨h2.1.trans h1.1, by have := h2.2.1; have := h1.2; omega⟩
    · exact Or.inr ⟨h2.1, by have := h1.2; have := h2.2; omega⟩

theorem markComplete_spec {cfgs : List config} {cfp : Nat} (h : cfp < cfgs.length) :
    fwsCount (cfgs.set cfp { cfgAt cfgs cfp with status := cfgstatus.COMPLETE }) =
      fwsCount cfgs ∧
    (∀ a, (cfgAt (cfgs.set cfp { cfgAt cfgs cfp with status := cfgstatus.COMPLETE }) a).fws =
      (cfgAt cfgs a).fws) ∧
    (∀ a, (cfgAt (cfgs.set cfp { cfgAt cfgs cfp with status := cfgstatus.COMPLETE }) a).fplp =
      (cfgAt cfgs a).fplp) ∧
    (cfgAt (cfgs.set cfp { cfgAt cfgs cfp with status := cfgstatus.COMPLETE }) cfp).status =
      cfgstatus.COMPLETE ∧
    ∀ a, a ≠ cfp →
      cfgAt (cfgs.set cfp { cfgAt cfgs cfp with status := cfgstatus.COMPLETE }) a =
        cfgAt cfgs a := by
  have hself := cfgAt_set_self cfgs { cfgAt cfgs cfp with status := cfgstatus.COMPLETE } h
  have hother : ∀ a, a ≠ cfp →
      cfgAt (cfgs.set cfp { cfgAt cfgs cfp with status := cfgstatus.COMPLETE }) a =
        cfgAt cfgs a := fun a ha => cfgAt_set_ne _ _ (Ne.symm ha)
  refine ⟨?_, ?_, ?_, by rw [hself], hother⟩
  · have h1 : fwsCount (cfgs.set cfp { cfgAt cfgs cfp with status := cfgstatus.COMPLETE }) +
        (cfgAt cfgs cfp).fws.count true = fwsCount cfgs + (cfgAt cfgs cfp).fws.count true :=
      fwsCount_set h _
    omega
  · intro a
    by_cases ha : a = cfp
    · subst ha; rw [hself]
    · rw [hother a ha]
  · intro a
    by_cases ha : a = cfp
    · subst ha; rw [hself]
    · rw [hother a ha]

theorem followConfigs_spec {size : Nat} {states : List state} {ps : List Nat}
    {cfgs0 : List config} (l : List Nat) (st : List config × Int)
    (hinv : FolInv size states ps cfgs0 st.1) (hl : ∀ c ∈ l, c < st.1.length) :
    ∃ st1, Heap.followConfigs size l st = some st1 ∧ FolInv size states ps cfgs0 st1.1 ∧
      (Quiet l st st1 ∨ Loud st st1) := by
  induction l generalizing st with
  | nil => exact ⟨st, rfl, hinv, Or.inl ⟨rfl, rfl, fun _ => rfl, fun _ h => h, by simp⟩⟩
  | cons cfp rest ih =>
    obtain ⟨cfgs, pr⟩ := st
    simp only at hinv hl
    have hc : cfp < cfgs.length := hl cfp (List.mem_cons_self _ _)
    have hrest : ∀ d ∈ rest, d < cfgs.length := fun d hd => hl d (List.mem_cons_of_mem _ hd)
    unfold Heap.followConfigs
    by_cases hst : (cfgAt cfgs cfp).status = cfgstatus.COMPLETE
    · rw [if_pos hst]
      obtain ⟨st1, a1, a2, a3⟩ := ih (cfgs, pr) hinv hrest
      refine ⟨st1, a1, a2, ?_⟩
      have hq : Quiet [cfp] (cfgs, pr) (cfgs, pr) :=
        ⟨rfl, rfl, fun _ => rfl, fun _ h => h, fun c hc => by
          rw [List.mem_singleton.1 hc]; exact hst⟩
      exact moved_trans (Or.inl hq) a3
    · rw [if_neg hst]
      obtain ⟨st1, b1, b2, b3, b4, b5, b6⟩ := propagate_spec cfp (cfgAt cfgs cfp).fplp
        (cfgs, pr) hinv hc (hinv.link cfp hc)
      obtain ⟨cfgs1, pr1⟩ := st1
      simp only [b1]
      simp only at b2 b4 b5 b6
      have hc1 : cfp < cfgs1.length := by rw [b2.len, ← hinv.len]; exact hc
      obtain ⟨m1, m2, m3, m4, m5⟩ := markComplete_spec hc1
      have hfp1 : (cfgAt cfgs1 cfp).fplp = (cfgAt cfgs cfp).fplp :=
        (b2.fplp cfp).trans (hinv.fplp cfp).symm
      have hinv2 : FolInv size states ps cfgs0
          (cfgs1.set cfp { cfgAt cfgs1 cfp with status := cfgstatus.COMPLETE }) := by
        refine ⟨by simpa using b2.len, fun a => (m3 a).trans (b2.fplp a), ?_, ?_, ?_, ?_⟩
        · intro a ha
          rw [m2 a]
          exact b2.fws a (by simpa using ha)
        · intro a
          rw [m2 a]
          exact b2.grow a
        · intro a ha d hd
          rw [m3 a] at hd
          simpa using b2.link a (by simpa using ha) d hd
        · intro a hS hsta d hd
          rw [m2 a, m2 d]
          rw [m3 a] at hd
          by_cases hac : a = cfp
          · subst hac
            rw [b5]
            rw [hfp1] at hd
            exact b6 d hd
          · rw [m5 a hac] at hsta
            exact b2.done a hS hsta d hd
      obtain ⟨st3, a1, a2, a3⟩ := ih (_, pr1) hinv2 (fun d hd => by
        simp only [List.length_set]
        rw [b2.len, ← hinv.len]
        exact hrest d hd)
      refine ⟨st3, a1, a2, ?_⟩
      have hm : Quiet [cfp] (cfgs, pr)
            (cfgs1.set cfp { cfgAt cfgs1 cfp with status := cfgstatus.COMPLETE }, pr1) ∨
          Loud (cfgs, pr)
            (cfgs1.set cfp { cfgAt cfgs1 cfp with status := cfgstatus.COMPLETE }, pr1) := by
        rcases b3 with b3 | ⟨c1, c2⟩
        · injection b3 with e1 e2
          subst e1 e2
          left
          refine ⟨rfl, m1, m2, ?_, ?_⟩
          · intro a ha
            by_cases hac : a = cfp
            · subst hac; exact m4
            · rw [m5 a hac]; exact ha
          · intro c hcm
            rw [List.mem_singleton.1 hcm]
            exact m4
        · right
          refine ⟨c1, ?_⟩
          show fwsCount cfgs <
            fwsCount (cfgs1.set cfp { cfgAt cfgs1 cfp with status := cfgstatus.COMPLETE })
          rw [m1]
          exact c2
      exact moved_trans hm a3

theorem followPass_spec {size : Nat} {states : List state} {ps : List Nat}
    {cfgs0 : List config} (l : List Nat) (st : List config × Int)
    (hinv : FolInv size states ps cfgs0 st.1) (hl : ∀ p ∈ l, p < states.length)
    (hc : ∀ p ∈ l, ∀ a ∈ (stateAt states p).cfp, a < cfgs0.length) :
    ∃ st1, Heap.followPass size states l st = some st1 ∧ FolInv size states ps cfgs0 st1.1 ∧
      ∃ V, (∀ p ∈ l, ∀ a ∈ (stateAt states p).cfp, a ∈ V) ∧ (Quiet V st st1 ∨ Loud st st1) := by
  induction l generalizing st with
  | nil =>
    exact ⟨st, rfl, hinv, [], by simp, Or.inl ⟨rfl, rfl, fun _ => rfl, fun _ h => h, by simp⟩⟩
  | cons p rest ih =>
    have hp : p < states.length := hl p (List.mem_cons_self _ _)
    have hsp : states[p]? = some (stateAt states p) := by
      simp [stateAt, List.getD, List.getElem?_eq_getElem hp]
    obtain ⟨st1, a1, a2, a3⟩ := followConfigs_spec (stateAt states p).cfp st hinv (fun a ha => by
      rw [hinv.len]
      exact hc p (List.mem_cons_self _ _) a ha)
    obtain ⟨st2, b1, b2, V, b3, b4⟩ := ih st1 a2
      (fun q hq => hl q (List.mem_cons_of_mem _ hq))
      (fun q hq => hc q (List.mem_cons_of_mem _ hq))
    refine ⟨st2, ?_, b2, (stateAt states p).cfp ++ V, ?_, moved_trans a3 b4⟩
    · unfold Heap.followPass
      simp only [hsp, a1]
      exact b1
    · intro q hq a ha
      rcases List.mem_cons.1 hq with rfl | hq
      · exact List.mem_append_left _ ha
      · exact List.mem_append_right _ (b3 q hq a ha)

theorem fwsCount_le {size : Nat} {cfgs : List config}
    (h : ∀ a, a < cfgs.length → (cfgAt cfgs a).fws.length = size) :
    fwsCount cfgs ≤ cfgs.length * size := by
  apply sum_map_le
  intro c hc
  obtain ⟨a, ha⟩ := List.mem_iff_getElem?.1 hc
  have hlt := lt_of_getElem?_some ha
  have e : cfgAt cfgs a = c := by
    have := cfgAt_of_lt hlt
    rw [ha] at this
    injection this with this
    exact this.symm
  rw [← h a hlt, e]
  exact List.count_le_length _ _

theorem followLoop_spec {size : Nat} {states : List state} {ps : List Nat}
    {cfgs0 : List config} (hl : ∀ p ∈ ps, p < states.length)
    (hc : ∀ p ∈ ps, ∀ a ∈ (stateAt states p).cfp, a < cfgs0.length)
    (fuel : Nat) (cfgs : List config) (hinv : FolInv size states ps cfgs0 cfgs) :
    (∀ out, Heap.followLoop size states ps fuel cfgs = some out →
      FolInv size states ps cfgs0 out ∧
        ∀ a, InStates states ps a → (cfgAt out a).status = cfgstatus.COMPLETE) ∧
    (cfgs.length * size < fuel + fwsCount cfgs →
      ∃ out, Heap.followLoop size states ps fuel cfgs = some out) := by
  induction fuel generalizing cfgs with
  | zero =>
    refine ⟨fun out h => by simp [Heap.followLoop] at h, fun h => ?_⟩
    have := fwsCount_le hinv.fws
    omega
  | succ fuel ih =>
    obtain ⟨st1, a1, a2, V, a3, a4⟩ := followPass_spec ps (cfgs, 0) hinv hl hc
    obtain ⟨cfgs1, progress⟩ := st1
    unfold Heap.followLoop
    simp only [a1]
    rcases a4 with ⟨q1, -, -, -, q5⟩ | ⟨q1, q2⟩
    · simp only at q1
      subst q1
      rw [if_neg (by simp)]
      refine ⟨fun out h => ?_, fun _ => ⟨cfgs1, rfl⟩⟩
      injection h with h
      subst h
      exact ⟨a2, fun a ⟨p, hp, ha⟩ => q5 a (a3 p hp a ha)⟩
    · simp only at q1 q2
      subst q1
      rw [if_pos (by decide)]
      obtain ⟨i1, i2⟩ := ih cfgs1 a2
      refine ⟨i1, fun h => i2 ?_⟩
      rw [a2.len, ← hinv.len]
      omega

theorem markIncomplete_spec (l : List Nat) (cfgs : List config) :
    (l.foldl markIncomplete cfgs).length = cfgs.length ∧
    ∀ a, (cfgAt (l.foldl markIncomplete cfgs) a).fws = (cfgAt cfgs a).fws ∧
      (cfgAt (l.foldl markIncomplete cfgs) a).fplp = (cfgAt cfgs a).fplp ∧
      ((a ∈ l ∧ a < cfgs.length ∨ (cfgAt cfgs a).status = cfgstatus.INCOMPLETE) →
        (cfgAt (l.foldl markIncomplete cfgs) a).status = cfgstatus.INCOMPLETE) := by
  induction l generalizing cfgs with
  | nil => exact ⟨rfl, fun a => ⟨rfl, rfl, fun h => by simpa using h⟩⟩
  | cons x rest ih =>
    simp only [List.foldl_cons]
    obtain ⟨e1, e2⟩ := ih (markIncomplete cfgs x)
    have hlen : (markIncomplete cfgs x).length = cfgs.length := by simp [markIncomplete]
    refine ⟨e1.trans hlen, fun a => ?_⟩
    obtain ⟨b1, b2, b3⟩ := e2 a
    by_cases hax : a = x
    · subst hax
      by_cases hlt : a < cfgs.length
      · have hs : cfgAt (markIncomplete cfgs a) a =
            { cfgAt cfgs a with status := cfgstatus.INCOMPLETE } := cfgAt_set_self _ _ hlt
        rw [hs] at b1 b2 b3
        exact ⟨b1, b2, fun _ => b3 (Or.inr rfl)⟩
      · have hs : markIncomplete cfgs a = cfgs := List.set_eq_of_length_le (by omega)
        rw [hs] at b1 b2 b3
        rw [hs]
        refine ⟨b1, b2, fun h => b3 ?_⟩
        rcases h with ⟨-, h⟩ | h
        · exact absurd h hlt
        · exact Or.inr h
    · have hs : cfgAt (markIncomplete cfgs x) a = cfgAt cfgs a := cfgAt_set_ne _ _ (Ne.symm hax)
      rw [hs] at b1 b2 b3
      refine ⟨b1, b2, fun h => b3 ?_⟩
      rcases h with ⟨h1, h2⟩ | h
      · rcases List.mem_cons.1 h1 with h1 | h1
        · exact absurd h1 hax
        · exact Or.inl ⟨h1, by rw [hlen]; exact h2⟩
      · exact Or.inr h

theorem markAll_spec (states : List state) (ps : List Nat) (cfgs : List config) :
    (ps.foldl (fun c p => (stateAt states p).cfp.foldl markIncomplete c) cfgs).length =
      cfgs.length ∧
    ∀ a, (cfgAt (ps.foldl (fun c p => (stateAt states p).cfp.foldl markIncomplete c)
        cfgs) a).fws = (cfgAt cfgs a).fws ∧
      (cfgAt (ps.foldl (fun c p => (stateAt states p).cfp.foldl markIncomplete c)
        cfgs) a).fplp = (cfgAt cfgs a).fplp ∧
      ((InStates states ps a ∧ a < cfgs.length ∨
          (cfgAt cfgs a).status = cfgstatus.INCOMPLETE) →
        (cfgAt (ps.foldl (fun c p => (stateAt states p).cfp.foldl markIncomplete c)
          cfgs) a).status = cfgstatus.INCOMPLETE) := by
  induction ps generalizing cfgs with
  | nil =>
    refine ⟨rfl, fun a => ⟨rfl, rfl, fun h => ?_⟩⟩
    rcases h with ⟨⟨p, hp, -⟩, -⟩ | h
    · simp at hp
    · exact h
  | cons p rest ih =>
    simp only [List.foldl_cons]
    obtain ⟨m1, m2⟩ := markIncomplete_spec (stateAt states p).cfp cfgs
    obtain ⟨e1, e2⟩ := ih ((stateAt states p).cfp.foldl markIncomplete cfgs)
    refine ⟨e1.trans m1, fun a => ?_⟩
    obtain ⟨b1, b2, b3⟩ := e2 a
    obtain ⟨c1, c2, c3⟩ := m2 a
    refine ⟨b1.trans c1, b2.trans c2, fun h => b3 ?_⟩
    rcases h with ⟨⟨q, hq, ha⟩, hlt⟩ | h
    · rcases List.mem_cons.1 hq with rfl | hq
      · exact Or.inr (c3 (Or.inl ⟨ha, hlt⟩))
      · exact Or.inl ⟨⟨q, hq, ha⟩, by rw [m1]; exact hlt⟩
    · exact Or.inr (c3 (Or.inr h))

/-- C33: `FindFollowSets` terminates and reaches the fixpoint.  When the pointers it
follows are valid and the follow sets have `size` bytes (`FollowWF`), it returns as soon
as the number of passes allowed exceeds `(number of configurations) * size`; and whenever
it returns, for every configuration `c` on the list of a state and every target `d` of a
forward link of `c`, the follow set of `c` is contained in that of `d`, while links are
unchanged and every follow set contains its value before the call. -/
theorem FindFollowSets_fixpoint (size : Nat) (lemp : lemon) (states : List state)
    (cfgs : List config) (ps : List Nat) (hps : sortedStates lemp = some ps)
    (hwf : FollowWF size states ps cfgs) :
    (∀ fuel, cfgs.length * size < fuel →
      ∃ out, Heap.FindFollowSets size fuel lemp states cfgs = some out) ∧
    ∀ fuel out, Heap.FindFollowSets size fuel lemp states cfgs = some out →
      out.length = cfgs.length ∧
      (∀ a, (cfgAt out a).fplp = (cfgAt cfgs a).fplp) ∧
      (∀ p ∈ ps, ∀ c ∈ (stateAt states p).cfp, ∀ d ∈ (cfgAt out c).fplp,
        SubSet (cfgAt out c).fws (cfgAt out d).fws) ∧
      (∀ a, SubSet (cfgAt cfgs a).fws (cfgAt out a).fws) := by
  obtain ⟨w1, w2, w3, w4⟩ := hwf
  have hdef : ∀ fuel, Heap.FindFollowSets size fuel lemp states cfgs =
      Heap.followLoop size states ps fuel
        (ps.foldl (fun c p => (stateAt states p).cfp.foldl markIncomplete c) cfgs) := by
    intro fuel
    unfold Heap.FindFollowSets
    rw [hps]
    rfl
  obtain ⟨m1, m2⟩ := markAll_spec states ps cfgs
  have hinv : FolInv size states ps cfgs
      (ps.foldl (fun c p => (stateAt states p).cfp.foldl markIncomplete c) cfgs) := by
    refine ⟨m1, fun a => (m2 a).2.1, ?_, ?_, ?_, ?_⟩
    · intro a ha
      rw [(m2 a).1]
      exact w3 _ (cfgAt_mem (by rw [← m1]; exact ha))
    · intro a
      rw [(m2 a).1]
      exact subSet_refl _
    · intro a ha d hd
      rw [(m2 a).2.1] at hd
      rw [m1]
      exact w4 _ (cfgAt_mem (by rw [← m1]; exact ha)) d hd
    · intro a hS hst
      obtain ⟨p, hp, hap⟩ := hS
      have := (m2 a).2.2 (Or.inl ⟨⟨p, hp, hap⟩, w2 p hp a hap⟩)
      rw [this] at hst
      simp at hst
  refine ⟨fun fuel hfuel => ?_, fun fuel out hout => ?_⟩
  · rw [hdef]
    apply (followLoop_spec w1 w2 fuel _ hinv).2
    rw [m1]
    omega
  · rw [hdef] at hout
    obtain ⟨i1, i2⟩ := (followLoop_spec w1 w2 fuel _ hinv).1 out hout
    refine ⟨i1.len, i1.fplp, ?_, i1.grow⟩
    intro p hp c hc d hd
    exact i1.done c ⟨p, hp, hc⟩ (i2 c ⟨p, hp, hc⟩) d hd

set_option maxRecDepth 100000 in
/-- Three configurations linked in a cycle: every follow set ends as `{0, 1}`. -/
theorem FindFollowSets_fixpoint_witness :
    sortedStates followLemon = some [0, 1] ∧ FollowWF 3 followStates [0, 1] followCfgs ∧
    (Heap.FindFollowSets 3 10 followLemon followStates followCfgs).map
        (fun out => out.map (fun c => c.fws)) =
      some [[true, true, false], [true, true, false], [true, true, false]] ∧
    ((∀ fuel, followCfgs.length * 3 < fuel →
      ∃ out, Heap.FindFollowSets 3 fuel followLemon followStates followCfgs = some out) ∧
    ∀ fuel out, Heap.FindFollowSets 3 fuel followLemon followStates followCfgs = some out →
      out.length = followCfgs.length ∧
      (∀ a, (cfgAt out a).fplp = (cfgAt followCfgs a).fplp) ∧
      (∀ p ∈ [0, 1], ∀ c ∈ (stateAt followStates p).cfp, ∀ d ∈ (cfgAt out c).fplp,
        SubSet (cfgAt out c).fws (cfgAt out d).fws) ∧
      (∀ a, SubSet (cfgAt followCfgs a).fws (cfgAt out a).fws)) :=
  ⟨by decide, by decide, by decide,
    FindFollowSets_fixpoint 3 followLemon followStates followCfgs [0, 1] (by decide)
      (by decide)⟩

theorem markDefault_shifts (dflt r : Nat) (l out : List action)
    (h : markDefault dflt r l = some out) :
    ∀ b ∈ out, b.type = e_action.SHIFT → ∃ a ∈ l, a.type = e_action.SHIFT ∧ a.x = b.x := by
  induction l generalizing out with
  | nil => simp [markDefault] at h
  | cons ap rest ih =>
    unfold markDefault at h
    by_cases hc : ap.type = e_action.REDUCE ∧ ap.x = r
    · rw [if_pos hc] at h
      injection h with h
      subst h
      intro b hb hsh
      rcases List.mem_cons.1 hb with rfl | hb
      · simp only at hsh
        rw [hc.1] at hsh
        exact absurd hsh (by decide)
      · obtain ⟨a, ha, rfl⟩ := List.mem_map.1 hb
        by_cases hc2 : a.type = e_action.REDUCE ∧ a.x = r
        · rw [if_pos hc2] at hsh
          simp at hsh
        · rw [if_neg hc2] at hsh ⊢
          exact ⟨a, List.mem_cons_of_mem _ ha, hsh, rfl⟩
    · rw [if_neg hc] at h
      cases hm : markDefault dflt r rest with
      | none => simp [hm] at h
      | some l1 =>
        simp only [hm, Option.map_some', Option.some.injEq] at h
        subst h
        intro b hb hsh
        rcases List.mem_cons.1 hb with rfl | hb
        · exact ⟨b, List.mem_cons_self _ _, hsh, rfl⟩
        · obtain ⟨a, ha, e1, e2⟩ := ih l1 hm b hb hsh
          exact ⟨a, List.mem_cons_of_mem _ ha, e1, e2⟩

theorem compressState_shifts (lemp : lemon) (code : e_action → Int) (stp : state)
    (syms1 : List symbol) (stp1 : state) (h : compressState lemp code stp = some (syms1, stp1)) :
    ∀ b ∈ stp1.ap, b.type = e_action.SHIFT →
      ∃ a ∈ stp.ap, a.type = e_action.SHIFT ∧ a.x = b.x := by
  have hsort : ∀ (syms : List symbol) (l : List action),
      ∀ x ∈ Action_sort syms lemp.rule code l, x ∈ l := by
    intro syms l
    exact (msort_sorted _ (fun _ _ => True) (fun _ _ _ => trivial) (fun _ _ _ => trivial)
      (fun _ _ _ _ _ => trivial) l).2
  unfold compressState at h
  simp only at h
  split_ifs at h with hc
  · injection h with h
    injection h with h1 h2
    subst h2
    exact fun b hb hsh => ⟨b, hb, hsh, rfl⟩
  · cases hr : (bestRule lemp stp.ap (0, none, 0)).2.1 with
    | none => simp [hr] at h
    | some rb =>
      simp only [hr] at h
      cases hm : markDefault (Symbol_new lemp.symbols "{default}").1 rb stp.ap with
      | none => simp [hm] at h
      | some ap1 =>
        simp only [hm] at h
        have key : ∀ b ∈ Action_sort (Symbol_new lemp.symbols "{default}").2 lemp.rule code ap1,
            b.type = e_action.SHIFT → ∃ a ∈ stp.ap, a.type = e_action.SHIFT ∧ a.x = b.x :=
          fun b hb hsh => markDefault_shifts _ _ _ _ hm b (hsort _ _ b hb) hsh
        split_ifs at h
        · injection h with h
          injection h with h1 h2
          subst h2
          exact key
        · injection h with h
          injection h with h1 h2
          subst h2
          exact key

theorem fuseAction_shift (states : List state) (a : action)
    (h : (fuseAction states a).type = e_action.SHIFT) : fuseAction states a = a := by
  unfold fuseAction at h ⊢
  by_cases h1 : a.type ≠ e_action.SHIFT
  · rw [if_pos h1]
  · rw [if_neg h1] at h ⊢
    cases hp : (stateAt states a.x).pDfltReduce with
    | none => rfl
    | some r =>
      simp only [hp] at h ⊢
      by_cases h2 : (stateAt states a.x).autoReduce ≠ 0
      · rw [if_pos h2] at h
        simp at h
      · rw [if_neg h2]

/-- After `CompressTables`, a `SHIFT` of a state in `sorted` has the target of a `SHIFT`
that the state had before, and the target is not an auto-reduce state. -/
theorem CompressTables_shift_ok (code : e_action → Int) (fuel : Nat) (lemp lemp1 : lemon)
    (states states3 : List state) (ps : List Nat) (dflt : Nat)
    (hs : sortedStates lemp = some ps) (hnd : ps.Nodup)
    (hd : Symbol_find lemp.symbols "{default}" = some dflt)
    (h0 : ∀ s ∈ states, s.autoReduce = 0) (S : Nat → Prop)
    (htgt : ∀ p ∈ ps, ∀ a ∈ (stateAt states p).ap, a.type = e_action.SHIFT → S a.x)
    (h : CompressTables code fuel lemp states = some (lemp1, states3)) :
    ∀ p ∈ ps, ∀ a ∈ (stateAt states3 p).ap, a.type = e_action.SHIFT →
      S a.x ∧ (stateAt states3 a.x).autoReduce = 0 := by
  obtain ⟨states1, h1, flags, -, key⟩ :=
    CompressTables_state code fuel lemp lemp1 states states3 ps dflt hs hnd hd h
  obtain ⟨-, -, a3, -⟩ := compressStates_spec code dflt ps lemp states lemp states1 hd hnd h1
  have hp : ∀ q, (stateAt states1 q).autoReduce ≠ 0 →
      ∃ r, (stateAt states1 q).pDfltReduce = some r := by
    intro q hq
    by_cases hqp : q ∈ ps
    · obtain ⟨stp1, ap3, k1, k2, -, -⟩ := key q hqp
      subst k2
      have ha := compressState_auto lemp code _ _ dflt hd (stateAt_auto_zero h0 q) k1
      exact ((ha 0).2 hq).2
    · rw [stateAt_congr (a3 q hqp)] at hq
      exact absurd (stateAt_auto_zero h0 q) hq
  intro p hpp a ha hsh
  obtain ⟨stp1, ap3, k1, k2, k3, k4⟩ := key p hpp
  rw [k4] at ha
  rw [(flags a.x).1]
  refine unitLoop_keep lemp
    (fun t x => t = e_action.SHIFT → S x ∧ (stateAt states1 x).autoReduce = 0) fuel 0 _ ap3 k3
    ?_ a ha hsh
  intro b hb hbs
  refine ⟨?_, fuse_noshift states1 hp stp1.ap b hb hbs⟩
  obtain ⟨b0, hb0, rfl⟩ := List.mem_map.1 hb
  have e := fuseAction_shift states1 b0 hbs
  rw [e] at hbs ⊢
  obtain ⟨a0, q1, q2, q3⟩ := compressState_shifts lemp code _ _ _ k1 b0 hb0 hbs
  rw [← q3]
  exact htgt p hpp a0 q1 q2

theorem resortCount_ap (lemp : lemon) (p : Nat) (aps : List action) (states states1 : List state)
    (h : resortCount lemp p aps states = some states1) :
    ∀ q, (stateAt states1 q).ap = (stateAt states q).ap := by
  induction aps generalizing states with
  | nil =>
    simp [resortCount] at h
    subst h
    exact fun q => rfl
  | cons ap rest ih =>
    have step : ∀ (s : state), s.ap = (stateAt states p).ap →
        resortCount lemp p rest (states.set p s) = some states1 →
        ∀ q, (stateAt states1 q).ap = (stateAt states q).ap := by
      intro s hs hr q
      rw [ih _ hr q]
      by_cases hq : p = q
      · subst hq
        by_cases hp : p < states.length
        · rw [stateAt_set_eq _ _ _ hp]; exact hs
        · rw [List.set_eq_of_length_le (by omega)]
      · rw [stateAt_set_ne _ _ _ _ hq]
    unfold resortCount at h
    simp only at h
    split_ifs at h
    · refine step _ ?_ h; rfl
    · refine step _ ?_ h; rfl
    · refine step _ ?_ h; rfl
    · exact ih _ h

theorem resortInit_ap (lemp : lemon) (ps : List Nat) (states states1 : List state)
    (h : resortInit lemp ps states = some states1) :
    ∀ q, (stateAt states1 q).ap = (stateAt states q).ap := by
  induction ps generalizing states with
  | nil =>
    simp [resortInit] at h
    subst h
    exact fun q => rfl
  | cons p rest ih =>
    unfold resortInit at h
    cases hp : states[p]? with
    | none => simp [hp] at h
    | some stp =>
      simp only [hp] at h
      cases hc : resortCount lemp p stp.ap (states.set p { stp with
            nTknAct := 0
            nNtAct := 0
            iDfltReduce := -1
            iTknOfst := NO_OFFSET
            iNtOfst := NO_OFFSET }) with
      | none => simp [hc] at h
      | some st1 =>
        simp only [hc] at h
        intro q
        rw [ih _ h q, resortCount_ap _ _ _ _ _ hc q]
        by_cases hq : p = q
        · subst hq
          rw [stateAt_set_eq _ _ _ (lt_of_getElem?_some hp), stateAt_of_getElem? hp]
        · rw [stateAt_set_ne _ _ _ _ hq]

theorem renumber_keeps (ps : List Nat) (i : Int) (states states1 : List state)
    (h : renumber ps i states = some states1) :
    ∀ q, (stateAt states1 q).ap = (stateAt states q).ap ∧
      (stateAt states1 q).autoReduce = (stateAt states q).autoReduce := by
  induction ps generalizing states i with
  | nil =>
    simp [renumber] at h
    subst h
    exact fun q => ⟨rfl, rfl⟩
  | cons p rest ih =>
    unfold renumber at h
    cases hp : states[p]? with
    | none => simp [hp] at h
    | some stp =>
      simp only [hp] at h
      intro q
      obtain ⟨e1, e2⟩ := ih _ _ h q
      rw [e1, e2]
      by_cases hq : p = q
      · subst hq
        rw [stateAt_set_eq _ _ _ (lt_of_getElem?_some hp), stateAt_of_getElem? hp]
        exact ⟨rfl, rfl⟩
      · rw [stateAt_set_ne _ _ _ _ hq]
        exact ⟨rfl, rfl⟩

/-- The positions that the loop of lines 5126-5128 passes hold auto-reduce states: `rev`
is `sorted[m-1], sorted[m-2], ...`. -/
theorem trimAuto_spec (states : List state) (rev : List Nat) (m : Int) :
    trimAuto states rev m ≤ m ∧
    ∀ j : Nat, (j : Int) < m - trimAuto states rev m →
      ∃ p, rev[j]? = some p ∧ (stateAt states p).autoReduce ≠ 0 := by
  induction rev generalizing m with
  | nil =>
    simp only [trimAuto]
    exact ⟨le_refl _, fun j hj => by omega⟩
  | cons p rest ih =>
    unfold trimAuto
    by_cases hc : m > 1 ∧ (stateAt states p).autoReduce ≠ 0
    · rw [if_pos hc]
      obtain ⟨a1, a2⟩ := ih (m - 1)
      refine ⟨by omega, fun j hj => ?_⟩
      cases j with
      | zero => exact ⟨p, by simp, hc.2⟩
      | succ j =>
        obtain ⟨q, q1, q2⟩ := a2 j (by push_cast at hj; omega)
        exact ⟨q, by simpa using q1, q2⟩
    · rw [if_neg hc]
      exact ⟨le_refl _, fun j hj => by omega⟩

/-- What `ResortStates` leaves: `sorted` is permuted, the action lists and the
`autoReduce` flags are unchanged, the state at `sorted[i]` has number `i`, and the states
at the positions from `nxstate` on are auto-reduce states. -/
theorem ResortStates_spec
    (qsort : (Nat → Nat → Option Int) → List Nat → Option (List Nat))
    (lemp lemp1 : lemon) (states states1 : List state)
    (hq : ∀ cmp l l1, qsort cmp l = some l1 → l1.Perm l)
    (hlen : lemp.nstate = (lemp.sorted.length : Int)) (hnd : lemp.sorted.Nodup)
    (h : ResortStates qsort lemp states = some (lemp1, states1)) :
    lemp1.sorted.Perm lemp.sorted ∧
    (∀ q, (stateAt states1 q).ap = (stateAt states q).ap ∧
      (stateAt states1 q).autoReduce = (stateAt states q).autoReduce) ∧
    (∀ (i : Nat) (p : Nat), lemp1.sorted[i]? = some p →
      (stateAt states1 p).statenum = (i : Int) ∧
      (lemp1.nxstate ≤ (i : Int) → (stateAt states1 p).autoReduce ≠ 0)) := by
  have hn : lemp.nstate.toNat = lemp.sorted.length := by rw [hlen]; simp
  unfold ResortStates at h
  simp only [hn] at h
  split_ifs at h with hc
  simp only [List.take_length] at h
  cases h1 : resortInit lemp lemp.sorted states with
  | none => simp [h1] at h
  | some st1 =>
    simp only [h1] at h
    cases hs : lemp.sorted with
    | nil => simp [hs] at h
    | cons s0 rest =>
      simp only [hs, List.length_cons, Nat.add_sub_cancel, List.take_length,
        List.drop_length, List.append_nil] at h
      cases h2 : qsort (stateResortCompare st1) rest with
      | none => simp [h2] at h
      | some seg =>
        simp only [h2] at h
        have hperm := hq _ _ _ h2
        have hlen2 : seg.length = rest.length := hperm.length_eq
        rw [List.take_of_length_le (by simp [hlen2])] at h
        cases h3 : renumber (s0 :: seg) 0 st1 with
        | none => simp [h3] at h
        | some st2 =>
          simp only [h3, Option.some.injEq, Prod.mk.injEq] at h
          obtain ⟨hl, hst⟩ := h
          subst hl hst
          have hnd2 : (s0 :: seg).Nodup := by
            rw [hs] at hnd
            exact (List.Perm.nodup_iff (hperm.cons s0)).2 hnd
          obtain ⟨-, b2, -⟩ := renumber_spec _ _ _ _ hnd2 h3
          have k1 := resortInit_keeps _ _ _ _ h1
          have k2 := resortInit_ap _ _ _ _ h1
          have k3 := renumber_keeps _ _ _ _ h3
          refine ⟨hperm.cons s0, fun q => ?_, fun i p hi => ?_⟩
          · rw [(k3 q).1, (k3 q).2, k2 q, (k1.2 q).2]
            exact ⟨rfl, rfl⟩
          · simp only at hi
            refine ⟨by rw [b2 i p hi]; simp, fun hnx => ?_⟩
            simp only at hnx
            have hi2 : i < (s0 :: seg).length := lt_of_getElem?_some hi
            obtain ⟨-, t2⟩ := trimAuto_spec st2 (s0 :: seg).reverse lemp.nstate
            have hns : lemp.nstate = ((s0 :: seg).length : Int) := by
              rw [hlen, hs]
              simp [hlen2]
            obtain ⟨p1, q1, q2⟩ := t2 ((s0 :: seg).length - 1 - i) (by
              rw [hns] at hnx ⊢
              omega)
            rw [List.getElem?_reverse (by omega)] at q1
            have e : (s0 :: seg).length - 1 - ((s0 :: seg).length - 1 - i) = i := by omega
            rw [e, hi] at q1
            injection q1 with q1
            subst q1
            exact q2

/-- C37: after `CompressTables` followed by `ResortStates`, every `SHIFT` of every state
in `sorted` targets a state whose new `statenum` lies in `0 .. nxstate-1`, and this
number is the code that `compute_action` gives the action.  The states come from
`State_new`, which clears `autoReduce`; the pointers of `sorted` are pairwise different,
`nstate` is the length of `sorted`, and every `SHIFT` targets a state of `sorted`, as
`State_arrayof` and `buildshifts` leave them; `qsort` is only assumed to return a
permutation of its input. -/
theorem ResortStates_shift_below_nxstate
    (qsort : (Nat → Nat → Option Int) → List Nat → Option (List Nat))
    (code : e_action → Int) (fuel : Nat) (lemp : lemon) (states : List state) (dflt : Nat)
    (hq : ∀ cmp l l1, qsort cmp l = some l1 → l1.Perm l)
    (hlen : lemp.nstate = (lemp.sorted.length : Int)) (hnd : lemp.sorted.Nodup)
    (hd : Symbol_find lemp.symbols "{default}" = some dflt)
    (h0 : ∀ s ∈ states, s.autoReduce = 0)
    (htgt : ∀ p ∈ lemp.sorted, ∀ a ∈ (stateAt states p).ap, a.type = e_action.SHIFT →
      a.x ∈ lemp.sorted)
    (r : lemon × List state)
    (h : (CompressTables code fuel lemp states).bind (fun c => ResortStates qsort c.1 c.2) =
      some r) :
    ∀ p ∈ r.1.sorted, ∀ a ∈ (stateAt r.2 p).ap, a.type = e_action.SHIFT →
      0 ≤ (stateAt r.2 a.x).statenum ∧ (stateAt r.2 a.x).statenum < r.1.nxstate ∧
      ∀ l : lemon, compute_action l r.2 a = (stateAt r.2 a.x).statenum := by
  have hps : sortedStates lemp = some lemp.sorted := by
    unfold sortedStates
    have hn : lemp.nstate.toNat = lemp.sorted.length := by rw [hlen]; simp
    rw [hn, if_pos (le_refl _), List.take_length]
  cases hc : CompressTables code fuel lemp states with
  | none => simp [hc] at h
  | some c =>
    obtain ⟨lemp1, states3⟩ := c
    simp only [hc, Option.some_bind] at h
    obtain ⟨e1, -⟩ := CompressTables_stages code fuel lemp lemp1 states states3 lemp.sorted
      dflt hps hnd hd hc
    subst e1
    obtain ⟨lemp2, states4⟩ := r
    obtain ⟨r1, r2, r3⟩ := ResortStates_spec qsort lemp1 lemp2 states3 states4 hq hlen hnd h
    have hok := CompressTables_shift_ok code fuel lemp1 lemp1 states states3 lemp1.sorted dflt
      hps hnd hd h0 (fun x => x ∈ lemp1.sorted) htgt hc
    intro p hp a ha hsh
    simp only at hp ha ⊢
    rw [(r2 p).1] at ha
    obtain ⟨t1, t2⟩ := hok p (r1.subset hp) a ha hsh
    obtain ⟨i, hi⟩ := List.mem_iff_getElem?.1 (r1.symm.subset t1)
    obtain ⟨n1, n2⟩ := r3 i a.x hi
    refine ⟨by rw [n1]; omega, ?_, fun l => ?_⟩
    · by_contra hge
      exact n2 (by rw [n1] at hge; omega) (by rw [(r2 a.x).2]; exact t2)
    · unfold compute_action
      rw [hsh]

set_option maxRecDepth 100000 in
/-- The grammar `s ::= a Y.  a ::= b.  b ::= X.` with insertion sort as `qsort`: the two
auto-reduce states end up last, `nxstate` is 3, and the remaining `SHIFT` actions target
the states numbered 1 and 2. -/
theorem ResortStates_shift_below_nxstate_witness :
    unitLemon.nstate = (unitLemon.sorted.length : Int) ∧ unitLemon.sorted.Nodup ∧
    Symbol_find unitLemon.symbols "{default}" = some 6 ∧
    (∀ s ∈ unitStatesExample, s.autoReduce = 0) ∧
    (∀ p ∈ unitLemon.sorted, ∀ a ∈ (stateAt unitStatesExample p).ap,
      a.type = e_action.SHIFT → a.x ∈ unitLemon.sorted) ∧
    ((CompressTables actionCode 10 unitLemon unitStatesExample).bind
        (fun c => ResortStates sortBy c.1 c.2)).map
      (fun r => (r.1.sorted, r.1.nxstate, r.2.map (fun s => s.statenum))) =
      some ([0, 2, 1, 4, 3], 3, [0, 2, 1, 4, 3]) ∧
    ∀ r, (CompressTables actionCode 10 unitLemon unitStatesExample).bind
        (fun c => ResortStates sortBy c.1 c.2) = some r →
      ∀ p ∈ r.1.sorted, ∀ a ∈ (stateAt r.2 p).ap, a.type = e_action.SHIFT →
        0 ≤ (stateAt r.2 a.x).statenum ∧ (stateAt r.2 a.x).statenum < r.1.nxstate ∧
        ∀ l : lemon, compute_action l r.2 a = (stateAt r.2 a.x).statenum :=
  ⟨by decide, by decide, by decide, by decide, by decide, by decide,
    ResortStates_shift_below_nxstate sortBy actionCode 10 unitLemon unitStatesExample 6
      sortBy_perm (by decide) (by decide) (by decide) (by decide) (by decide)⟩

theorem symAt_of_getElem? {syms : List symbol} {p : Nat} {s : symbol}
    (h : syms[p]? = some s) : symAt syms p = s := by
  simp [symAt, List.getD, h]

theorem SetAdd_has {size : Nat} {f f2 : List Bool} {e c : Int}
    (h : SetAdd size f e = some (c, f2)) :
    SubSet f f2 ∧ 0 ≤ e ∧ f2.getD e.toNat false = true := by
  unfold SetAdd at h
  split_ifs at h with he
  cases hr : f[e.toNat]? with
  | none => simp [hr] at h
  | some rv =>
    simp only [hr, Option.some.injEq, Prod.mk.injEq] at h
    obtain ⟨-, h2⟩ := h
    subst h2
    have hlt : e.toNat < f.length := lt_of_getElem?_some hr
    refine ⟨fun t ht => ?_, he.1, ?_⟩
    · by_cases hte : e.toNat = t
      · subst hte
        rw [List.getD_eq_getElem?_getD, List.getElem?_set_self hlt]
        rfl
      · rw [List.getD_eq_getElem?_getD, List.getElem?_set_ne hte, ← List.getD_eq_getElem?_getD]
        exact ht
    · rw [List.getD_eq_getElem?_getD, List.getElem?_set_self hlt]
      rfl

theorem closureSubs_sem (size : Nat) (syms : List symbol) (l : List Nat) (fws out : List Bool)
    (h : closureSubs size syms l fws = some out) :
    SubSet fws out ∧ ∀ q ∈ l, 0 ≤ (symAt syms q).index ∧
      out.getD (symAt syms q).index.toNat false = true := by
  induction l generalizing fws with
  | nil =>
    simp only [closureSubs, Option.some.injEq] at h
    subst h
    exact ⟨subSet_refl _, by simp⟩
  | cons q rest ih =>
    unfold closureSubs at h
    cases ha : SetAdd size fws (symAt syms q).index with
    | none => simp [ha] at h
    | some r =>
      obtain ⟨c, f2⟩ := r
      simp only [ha] at h
      obtain ⟨a1, a2, a3⟩ := SetAdd_has ha
      obtain ⟨b1, b2⟩ := ih f2 h
      refine ⟨subSet_trans a1 b1, fun x hx => ?_⟩
      rcases List.mem_cons.1 hx with rfl | hx
      · exact ⟨a2, b1 _ a3⟩
      · exact b2 x hx

theorem closureFollow_sem (size : Nat) (syms : List symbol)
    (hlam : ∀ s ∈ syms, s.lambda = true → s.type = symbol_type.NONTERMINAL)
    (rest : List Nat) (hrest : ∀ x ∈ rest, symFollowOK size syms x = true)
    (fws out : List Bool) (b : Bool)
    (h : closureFollow size syms rest fws = some (out, b)) :
    SubSet fws out ∧ (∀ t, StartsIn syms rest t → out.getD t false = true) ∧
      (b = true ↔ AllNullable syms rest) := by
  induction rest generalizing fws with
  | nil =>
    simp only [closureFollow, Option.some.injEq, Prod.mk.injEq] at h
    obtain ⟨h1, h2⟩ := h
    subst h1 h2
    exact ⟨subSet_refl _, fun t ht => by simp [StartsIn] at ht,
      by simp [AllNullable]⟩
  | cons x more ih =>
    have hmore : ∀ y ∈ more, symFollowOK size syms y = true :=
      fun y hy => hrest y (List.mem_cons_of_mem _ hy)
    have hx := hrest x (List.mem_cons_self _ _)
    -- facts about the symbol table entry of `x`
    have hsym : ∀ t, StartsIn syms (x :: more) t →
        ∃ sx, syms[x]? = some sx ∧ symAt syms x = sx ∧
          (Emits syms x t ∨ (sx.lambda = true ∧ StartsIn syms more t)) := by
      intro t ht
      cases hs : syms[x]? with
      | none =>
        simp only [StartsIn, Emits, hs, isLambda] at ht
        simp at ht
      | some sx =>
        refine ⟨sx, rfl, symAt_of_getElem? hs, ?_⟩
        simp only [StartsIn, isLambda, hs] at ht
        exact ht
    unfold closureFollow at h
    unfold symFollowOK at hx
    cases hty : (symAt syms x).type with
    | TERMINAL =>
      simp only [hty] at h hx
      cases ha : SetAdd size fws (symAt syms x).index with
      | none => simp [ha] at h
      | some r =>
        obtain ⟨c, f2⟩ := r
        simp only [ha, Option.some.injEq, Prod.mk.injEq] at h
        obtain ⟨h1, h2⟩ := h
        subst h1 h2
        obtain ⟨a1, a2, a3⟩ := SetAdd_has ha
        refine ⟨a1, fun t ht => ?_, ?_⟩
        · obtain ⟨sx, s1, s2, s3⟩ := hsym t ht
          rw [s2] at hty a3
          rcases s3 with s3 | ⟨s3, -⟩
          · simp only [Emits, s1, hty] at s3
            rw [s3] at a3
            simpa using a3
          · have := hlam sx (List.getElem?_mem s1) s3
            rw [hty] at this
            exact absurd this (by decide)
        · constructor
          · intro hf
            exact absurd hf (by decide)
          · intro hall
            have := (hall x (List.mem_cons_self _ _)).1
            rw [hty] at this
            exact absurd this (by decide)
    | MULTITERMINAL =>
      simp only [hty] at h hx
      cases ha : closureSubs size syms (symAt syms x).subsym fws with
      | none => simp [ha] at h
      | some f2 =>
        simp only [ha, Option.some.injEq, Prod.mk.injEq] at h
        obtain ⟨h1, h2⟩ := h
        subst h1 h2
        obtain ⟨a1, a2⟩ := closureSubs_sem size syms _ fws f2 ha
        refine ⟨a1, fun t ht => ?_, ?_⟩
        · obtain ⟨sx, s1, s2, s3⟩ := hsym t ht
          rw [s2] at hty a2
          rcases s3 with s3 | ⟨s3, -⟩
          · simp only [Emits, s1, hty] at s3
            obtain ⟨q, hq, sq, q1, q2⟩ := s3
            have := (a2 q hq).2
            rw [symAt_of_getElem? q1, q2] at this
            simpa using this
          · have := hlam sx (List.getElem?_mem s1) s3
            rw [hty] at this
            exact absurd this (by decide)
        · constructor
          · intro hf
            exact absurd hf (by decide)
          · intro hall
            have := (hall x (List.mem_cons_self _ _)).1
            rw [hty] at this
            exact absurd this (by decide)
    | NONTERMINAL =>
      simp only [hty] at h hx
      cases hfs : (symAt syms x).firstset with
      | none => simp [hfs] at h
      | some fs =>
        simp only [hfs] at h hx
        have hlen : fs.length = size := by simpa using hx
        cases hu : SetUnion size fws fs with
        | none => simp [hu] at h
        | some r =>
          obtain ⟨c, f2⟩ := r
          simp only [hu] at h
          obtain ⟨u1, u2⟩ := SetUnion_loop_sup fs size 0 0 fws c f2 hu
          have hfirst : ∀ t, Emits syms x t → f2.getD t false = true := by
            intro t ht
            cases hs : syms[x]? with
            | none => simp [Emits, hs] at ht
            | some sx =>
              have e := symAt_of_getElem? hs
              rw [e] at hty hfs
              simp only [Emits, hs, hty, firstBit, hfs] at ht
              by_cases hlt : t < size
              · exact u2 t (by omega) (by omega) ht
              · rw [List.getD_eq_getElem?_getD, List.getElem?_eq_none (by omega)] at ht
                simp at ht
          by_cases hl : (symAt syms x).lambda = false
          · rw [if_pos hl] at h
            simp only [Option.some.injEq, Prod.mk.injEq] at h
            obtain ⟨h1, h2⟩ := h
            subst h1 h2
            refine ⟨u1, fun t ht => ?_, ?_⟩
            · obtain ⟨sx, s1, s2, s3⟩ := hsym t ht
              rcases s3 with s3 | ⟨s3, -⟩
              · exact hfirst t s3
              · rw [s2, s3] at hl
                exact absurd hl (by decide)
            · constructor
              · intro hf
                exact absurd hf (by decide)
              · intro hall
                have := (hall x (List.mem_cons_self _ _)).2
                rw [hl] at this
                exact absurd this (by decide)
          · rw [if_neg hl] at h
            obtain ⟨i1, i2, i3⟩ := ih hmore f2 h
            refine ⟨subSet_trans u1 i1, fun t ht => ?_, ?_⟩
            · obtain ⟨sx, s1, s2, s3⟩ := hsym t ht
              rcases s3 with s3 | ⟨-, s3⟩
              · exact i1 t (hfirst t s3)
              · exact i2 t s3
            · rw [i3]
              constructor
              · intro hall y hy
                rcases List.mem_cons.1 hy with rfl | hy
                · exact ⟨hty, by simpa using hl⟩
                · exact hall y hy
              · intro hall y hy
                exact hall y (List.mem_cons_of_mem _ hy)

theorem cfgAt_setFws (l : List config) (p : Nat) (f : List Bool) (hp : p < l.length)
    (a : Nat) :
    (cfgAt (l.set p { cfgAt l p with fws := f }) a).fplp = (cfgAt l a).fplp ∧
    (cfgAt (l.set p { cfgAt l p with fws := f }) a).fws =
      (if a = p then f else (cfgAt l a).fws) ∧
    item (l.set p { cfgAt l p with fws := f }) a = item l a := by
  by_cases e : a = p
  · subst e
    rw [if_pos rfl]
    simp [item, cfgAt_set_self l _ hp]
  · rw [if_neg e]
    simp [item, cfgAt_set_ne l _ (Ne.symm e)]

theorem cfgAt_setFplp (l : List config) (p : Nat) (x : List Nat) (hp : p < l.length)
    (a : Nat) :
    (cfgAt (l.set p { cfgAt l p with fplp := x }) a).fws = (cfgAt l a).fws ∧
    (cfgAt (l.set p { cfgAt l p with fplp := x }) a).fplp =
      (if a = p then x else (cfgAt l a).fplp) ∧
    item (l.set p { cfgAt l p with fplp := x }) a = item l a := by
  by_cases e : a = p
  · subst e
    rw [if_pos rfl]
    simp [item, cfgAt_set_self l _ hp]
  · rw [if_neg e]
    simp [item, cfgAt_set_ne l _ (Ne.symm e)]

theorem cfgAt_beyond (l : List config) {a : Nat} (h : l.length ≤ a) :
    cfgAt l a = { rp := 0, dot := 0 } := by
  simp [cfgAt, List.getD, List.getElem?_eq_none h]

/-- One rule of the nonterminal after the dot of `cfp`: the follow sets only grow, forward
links change at `cfp` only, the configuration of the rule gets the terminals that can
begin `rest`, and `cfp` gets the link exactly when `rest` is nullable. -/
theorem closureRule_link (lemp : lemon) (size : Nat) (cfp : Nat) (rest : List Nat)
    (g g1 : configlist) (newrp : Nat) (h : ListInv lemp.rule size g) (hcfp : cfp ∈ g.current)
    (hlam : ∀ s ∈ lemp.symbols, s.lambda = true → s.type = symbol_type.NONTERMINAL)
    (hrest : ∀ x ∈ rest, symFollowOK size lemp.symbols x = true)
    (he : closureRule lemp size cfp rest g newrp = some g1) :
    (∀ a, a < g.cfgs.length → SubSet (cfgAt g.cfgs a).fws (cfgAt g1.cfgs a).fws) ∧
    (∀ a, a ≠ cfp → a < g.cfgs.length → (cfgAt g1.cfgs a).fplp = (cfgAt g.cfgs a).fplp) ∧
    (∀ a, g.cfgs.length ≤ a → (cfgAt g1.cfgs a).fplp = []) ∧
    (∃ b ∈ g1.current,
      keyOf lemp.rule g1.cfgs b = configKey lemp.rule { rp := newrp, dot := 0 } ∧
      (∀ t, StartsIn lemp.symbols rest t → (cfgAt g1.cfgs b).fws.getD t false = true) ∧
      (AllNullable lemp.symbols rest → b ∈ (cfgAt g1.cfgs cfp).fplp)) ∧
    (¬ AllNullable lemp.symbols rest → (cfgAt g1.cfgs cfp).fplp = (cfgAt g.cfgs cfp).fplp) ∧
    (∀ x ∈ (cfgAt g.cfgs cfp).fplp, x ∈ (cfgAt g1.cfgs cfp).fplp) := by
  obtain ⟨newcfp, ga, a1, a2, a3, a4, -, -, a7⟩ :=
    Configlist_add_spec lemp.rule size g newrp 0 h (le_refl 0)
  have hc : cfp < g.cfgs.length := h.valid cfp hcfp
  have hn : newcfp < ga.cfgs.length := a2.valid newcfp a3
  -- the heap after `Configlist_add`
  have hold : ∀ a, a < g.cfgs.length → cfgAt ga.cfgs a = cfgAt g.cfgs a := by
    intro a ha
    rcases a7 with rfl | ⟨-, -, e3, -⟩
    · rfl
    · rw [e3, cfgAt_append_left _ _ ha]
  have hnew : ∀ a, g.cfgs.length ≤ a → (cfgAt ga.cfgs a).fplp = [] := by
    intro a ha
    rcases a7 with rfl | ⟨-, -, e3, -⟩
    · rw [cfgAt_beyond _ ha]
    · rw [e3]
      by_cases hal : a = g.cfgs.length
      · subst hal
        rw [cfgAt_append_self]
        rfl
      · rw [cfgAt_beyond _ (by simp; omega)]
  have hlen : g.cfgs.length ≤ ga.cfgs.length := by
    rcases a7 with rfl | ⟨-, -, e3, -⟩
    · exact le_refl _
    · rw [e3]; simp
  have hca : cfp < ga.cfgs.length := by omega
  unfold closureRule at he
  simp only [a1] at he
  cases hf : closureFollow size lemp.symbols rest (cfgAt ga.cfgs newcfp).fws with
  | none => simp [hf] at he
  | some r =>
    obtain ⟨fws1, atEnd⟩ := r
    simp only [hf] at he
    obtain ⟨s1, s2, s3⟩ := closureFollow_sem size lemp.symbols hlam rest hrest _ fws1 atEnd hf
    have hA := cfgAt_setFws ga.cfgs newcfp fws1 hn
    have hsub1 : ∀ a, SubSet (cfgAt ga.cfgs a).fws
        (cfgAt (ga.cfgs.set newcfp { cfgAt ga.cfgs newcfp with fws := fws1 }) a).fws := by
      intro a
      rw [(hA a).2.1]
      by_cases e : a = newcfp
      · subst e
        rw [if_pos rfl]
        exact s1
      · rw [if_neg e]
        exact subSet_refl _
    have hb1 : ∀ t, StartsIn lemp.symbols rest t →
        (cfgAt (ga.cfgs.set newcfp { cfgAt ga.cfgs newcfp with fws := fws1 }) newcfp).fws.getD
          t false = true := by
      intro t ht
      rw [(hA newcfp).2.1, if_pos rfl]
      exact s2 t ht
    cases atEnd with
    | false =>
      simp only [Bool.false_eq_true, if_false, Option.some.injEq] at he
      subst he
      have hnn : ¬ AllNullable lemp.symbols rest := fun hall => by
        have := s3.2 hall
        exact absurd this (by decide)
      refine ⟨fun a ha => ?_, fun a _ ha => ?_, fun a ha => ?_, ⟨newcfp, a3, ?_, hb1, ?_⟩,
        fun _ => ?_, fun x hx => ?_⟩
      · rw [← hold a ha]
        exact hsub1 a
      · show (cfgAt (ga.cfgs.set newcfp { cfgAt ga.cfgs newcfp with fws := fws1 }) a).fplp = _
        rw [(hA a).1, hold a ha]
      · show (cfgAt (ga.cfgs.set newcfp { cfgAt ga.cfgs newcfp with fws := fws1 }) a).fplp = _
        rw [(hA a).1]
        exact hnew a ha
      · exact (keyOf_of_item (hA newcfp).2.2).trans a4
      · intro hall
        exact absurd hall hnn
      · show (cfgAt (ga.cfgs.set newcfp { cfgAt ga.cfgs newcfp with fws := fws1 }) cfp).fplp = _
        rw [(hA cfp).1, hold cfp hc]
      · show x ∈ (cfgAt (ga.cfgs.set newcfp { cfgAt ga.cfgs newcfp with fws := fws1 }) cfp).fplp
        rw [(hA cfp).1, hold cfp hc]
        exact hx
    | true =>
      simp only [if_true, Option.some.injEq] at he
      subst he
      have hB := cfgAt_setFplp (ga.cfgs.set newcfp { cfgAt ga.cfgs newcfp with fws := fws1 }) cfp
        (newcfp :: (cfgAt (ga.cfgs.set newcfp { cfgAt ga.cfgs newcfp with fws := fws1 })
          cfp).fplp) (by simpa using hca)
      have hall : AllNullable lemp.symbols rest := s3.1 rfl
      refine ⟨fun a ha => ?_, fun a hne ha => ?_, fun a ha => ?_, ⟨newcfp, a3, ?_, ?_, ?_⟩,
        fun hnn => absurd hall hnn, fun x hx => ?_⟩
      · refine subSet_trans ?_ (by rw [(hB a).1]; exact subSet_refl _)
        rw [← hold a ha]
        exact hsub1 a
      · refine ((hB a).2.1).trans ?_
        rw [if_neg hne, (hA a).1, hold a ha]
      · refine ((hB a).2.1).trans ?_
        rw [if_neg (by omega), (hA a).1]
        exact hnew a ha
      · exact (keyOf_of_item ((hB newcfp).2.2.trans (hA newcfp).2.2)).trans a4
      · intro t ht
        refine Eq.trans ?_ (hb1 t ht)
        exact congrArg (fun f : List Bool => f.getD t false) (hB newcfp).1
      · intro _
        refine (congrArg (fun l : List Nat => newcfp ∈ l) (hB cfp).2.1).mpr ?_
        rw [if_pos rfl]
        exact List.mem_cons_self _ _
      · refine (congrArg (fun l : List Nat => x ∈ l) (hB cfp).2.1).mpr ?_
        rw [if_pos rfl, (hA cfp).1, hold cfp hc]
        exact List.mem_cons_of_mem _ hx

theorem closureRules_link (lemp : lemon) (size : Nat) (cfp : Nat) (rest : List Nat)
    (chain : List Nat) (g g1 : configlist) (h : ListInv lemp.rule size g)
    (hcfp : cfp ∈ g.current)
    (hlam : ∀ s ∈ lemp.symbols, s.lambda = true → s.type = symbol_type.NONTERMINAL)
    (hrest : ∀ x ∈ rest, symFollowOK size lemp.symbols x = true)
    (he : closureRules lemp size cfp rest chain g = some g1) :
    ListInv lemp.rule size g1 ∧ g.cfgs.length ≤ g1.cfgs.length ∧
    (∃ new, g1.current = g.current ++ new ∧ ∀ a ∈ new, g.cfgs.length ≤ a) ∧
    (∀ a, a < g.cfgs.length → item g1.cfgs a = item g.cfgs a) ∧
    (∀ a, a < g.cfgs.length → SubSet (cfgAt g.cfgs a).fws (cfgAt g1.cfgs a).fws) ∧
    (∀ a, a ≠ cfp → a < g.cfgs.length → (cfgAt g1.cfgs a).fplp = (cfgAt g.cfgs a).fplp) ∧
    (∀ a, g.cfgs.length ≤ a → (cfgAt g1.cfgs a).fplp = []) ∧
    (∀ newrp ∈ chain, ∃ b ∈ g1.current,
      keyOf lemp.rule g1.cfgs b = configKey lemp.rule { rp := newrp, dot := 0 } ∧
      (∀ t, StartsIn lemp.symbols rest t → (cfgAt g1.cfgs b).fws.getD t false = true) ∧
      (AllNullable lemp.symbols rest → b ∈ (cfgAt g1.cfgs cfp).fplp)) ∧
    (¬ AllNullable lemp.symbols rest → (cfgAt g1.cfgs cfp).fplp = (cfgAt g.cfgs cfp).fplp) ∧
    (∀ x ∈ (cfgAt g.cfgs cfp).fplp, x ∈ (cfgAt g1.cfgs cfp).fplp) := by
  induction chain generalizing g with
  | nil =>
    simp only [closureRules, Option.some.injEq] at he
    subst he
    refine ⟨h, le_refl _, ⟨[], by simp, by simp⟩, fun _ _ => rfl, fun _ _ => subSet_refl _,
      fun _ _ _ => rfl, fun a ha => by rw [cfgAt_beyond _ ha], by simp, fun _ => rfl,
      fun _ hx => hx⟩
  | cons newrp more ih =>
    obtain ⟨ga, a1, a2, a3, a4, ⟨new1, a5, a6⟩, -⟩ :=
      closureRule_spec lemp size cfp rest g newrp h hrest
    unfold closureRules at he
    simp only [a1] at he
    obtain ⟨l1, l2, l3, ⟨b, b1, b2, b3, b4⟩, l5, l6⟩ :=
      closureRule_link lemp size cfp rest g ga newrp h hcfp hlam hrest a1
    have hcfpa : cfp ∈ ga.current := by rw [a5]; exact List.mem_append_left _ hcfp
    have hc : cfp < g.cfgs.length := h.valid cfp hcfp
    obtain ⟨c1, c2, ⟨new2, c3, c3b⟩, c4, c5, c6, c7, c8, c9, c10⟩ := ih ga a2 hcfpa he
    refine ⟨c1, by omega, ⟨new1 ++ new2, by rw [c3, a5, List.append_assoc], ?_⟩,
      fun a ha => (c4 a (by omega)).trans (a4 a ha),
      fun a ha => subSet_trans (l1 a ha) (c5 a (by omega)),
      fun a hne ha => (c6 a hne (by omega)).trans (l2 a hne ha), ?_, ?_,
      fun hnn => (c9 hnn).trans (l5 hnn), fun x hx => c10 x (l6 x hx)⟩
    · intro a ha
      rcases List.mem_append.1 ha with ha | ha
      · exact (a6 a ha).1
      · have := c3b a ha
        omega
    · intro a ha
      by_cases hal : a < ga.cfgs.length
      · rw [c6 a (by omega) hal]
        exact l3 a ha
      · exact c7 a (by omega)
    · intro r hr
      rcases List.mem_cons.1 hr with rfl | hr
      · have hbv : b < ga.cfgs.length := a2.valid b b1
        refine ⟨b, by rw [c3]; exact List.mem_append_left _ b1, ?_, ?_, ?_⟩
        · rw [← b2]
          exact keyOf_of_item (c4 b hbv)
        · intro t ht
          exact c5 b hbv t (b3 t ht)
        · intro hall
          exact c10 b (b4 hall)
      · exact c8 r hr

theorem restOf_of_item {rules : List rule} {c1 c2 : List config} {a b : Nat}
    (h : item c1 a = item c2 b) : restOf rules c1 a = restOf rules c2 b := by
  rw [item_eq_iff] at h
  simp [restOf, h.1, h.2]

/-- A configuration that has propagated stays so while the list grows, follow sets grow
and its own forward links are left alone. -/
theorem linked_mono {lemp : lemon} {g g1 : configlist} {c : Nat}
    (hi : item g1.cfgs c = item g.cfgs c)
    (hfp : (cfgAt g1.cfgs c).fplp = (cfgAt g.cfgs c).fplp)
    (hb : ∀ b ∈ g.current, b ∈ g1.current ∧ item g1.cfgs b = item g.cfgs b ∧
      SubSet (cfgAt g.cfgs b).fws (cfgAt g1.cfgs b).fws)
    (h : Linked lemp g c) : Linked lemp g1 c := by
  intro sp hd ha hty newrp hr
  have hi2 := item_eq_iff.1 hi
  rw [hi2.1, hi2.2] at hd
  rw [afterDot_of_item hi] at ha
  obtain ⟨n, n1, n2, n3, n4⟩ := h sp hd ha hty newrp hr
  obtain ⟨b1, b2, b3⟩ := hb n n1
  refine ⟨n, b1, (keyOf_of_item b2).trans n2, ?_, ?_⟩
  · intro t ht
    rw [restOf_of_item hi] at ht
    exact b3 t (n3 t ht)
  · rw [hfp, restOf_of_item hi]
    exact n4

theorem closureLoop_link (lemp : lemon) (size : Nat) (hok : FollowOK size lemp)
    (hlam : ∀ s ∈ lemp.symbols, s.lambda = true → s.type = symbol_type.NONTERMINAL)
    (fuel : Nat) :
    ∀ (i : Nat) (g : configlist) (e : Int) (g2 : configlist) (e2 : Int),
      ListInv lemp.rule size g → LinkInv lemp g i → i ≤ g.current.length →
      closureLoop lemp size fuel i (g, e) = some (g2, e2) →
      LinkInv lemp g2 g2.current.length := by
  induction fuel with
  | zero =>
    intro i g e g2 e2 _ _ _ h
    simp [closureLoop] at h
  | succ n ih =>
    intro i g e g2 e2 hinv hl hi h
    unfold closureLoop at h
    cases hc : g.current[i]? with
    | none =>
      simp only [hc, Option.some.injEq, Prod.mk.injEq] at h
      obtain ⟨h1, -⟩ := h
      subst h1
      have h1 := List.getElem?_eq_none_iff.1 hc
      have : i = g.current.length := by omega
      subst this
      exact hl
    | some cfp =>
      have hlt : i < g.current.length := lt_of_getElem?_some hc
      have hmem : cfp ∈ g.current := List.getElem?_mem hc
      simp only [hc] at h
      -- nothing to do for the configuration at position `i`
      have hskip : Linked lemp g cfp → LinkInv lemp g (i + 1) := by
        intro hex
        refine ⟨fun k c hk hkc => ?_, fun k c hk hkc => hl.todo k c (by omega) hkc⟩
        by_cases e1 : k = i
        · subst e1
          rw [hc] at hkc
          injection hkc with hkc
          subst hkc
          exact hex
        · exact hl.done k c (by omega) hkc
      by_cases hd : (cfgAt g.cfgs cfp).dot ≥
          ((ruleAt lemp.rule (cfgAt g.cfgs cfp).rp).rhs.length : Int)
      · rw [if_pos hd] at h
        refine ih (i + 1) g e g2 e2 hinv (hskip ?_) (by omega) h
        intro sp hd2
        omega
      · rw [if_neg hd] at h
        push_neg at hd
        cases hsp : afterDot lemp.rule (cfgAt g.cfgs cfp) with
        | none => simp [hsp] at h
        | some sp =>
          simp only [hsp] at h
          by_cases hty : (symAt lemp.symbols sp).type = symbol_type.NONTERMINAL
          · rw [if_pos hty] at h
            have hrest : ∀ x ∈ (ruleAt lemp.rule (cfgAt g.cfgs cfp).rp).rhs.drop
                ((cfgAt g.cfgs cfp).dot.toNat + 1), symFollowOK size lemp.symbols x = true := by
              intro x hx
              have hx2 := List.mem_of_mem_drop hx
              exact hok _ (ruleAt_mem_of_rhs hx2) x hx2
            cases hr : closureRules lemp size cfp
                ((ruleAt lemp.rule (cfgAt g.cfgs cfp).rp).rhs.drop
                  ((cfgAt g.cfgs cfp).dot.toNat + 1)) (symAt lemp.symbols sp).rule g with
            | none => simp [hr] at h
            | some g1 =>
              simp only [hr] at h
              obtain ⟨c1, c2, ⟨new, c3, c3b⟩, c4, c5, c6, c7, c8, c9, c10⟩ :=
                closureRules_link lemp size cfp _ _ g g1 hinv hmem hlam hrest hr
              have hnd : g.current.Nodup := hinv.nodup.of_map _
              have hcv : cfp < g.cfgs.length := hinv.valid cfp hmem
              have hb : ∀ b ∈ g.current, b ∈ g1.current ∧ item g1.cfgs b = item g.cfgs b ∧
                  SubSet (cfgAt g.cfgs b).fws (cfgAt g1.cfgs b).fws :=
                fun b hb => ⟨by rw [c3]; exact List.mem_append_left _ hb,
                  c4 b (hinv.valid b hb), c5 b (hinv.valid b hb)⟩
              refine ih (i + 1) g1 _ g2 e2 c1 ?_ (by rw [c3, List.length_append]; omega) h
              refine ⟨fun k c hk hkc => ?_, fun k c hk hkc => ?_⟩
              · have hk2 : k < g.current.length := by omega
                rw [c3, List.getElem?_append_left hk2] at hkc
                by_cases e1 : k = i
                · subst e1
                  rw [hc] at hkc
                  injection hkc with hkc
                  subst hkc
                  intro sp1 hd1 ha1 hty1 newrp hnr
                  rw [afterDot_of_item (c4 cfp hcv), hsp] at ha1
                  injection ha1 with ha1
                  subst ha1
                  have hro : restOf lemp.rule g1.cfgs cfp =
                      (ruleAt lemp.rule (cfgAt g.cfgs cfp).rp).rhs.drop
                        ((cfgAt g.cfgs cfp).dot.toNat + 1) := restOf_of_item (c4 cfp hcv)
                  obtain ⟨b, b1, b2, b3, b4⟩ := c8 newrp hnr
                  refine ⟨b, b1, ?_, ?_, ?_⟩
                  · exact b2
                  · rw [hro]; exact b3
                  · rw [hro]
                    refine ⟨fun hin => ?_, b4⟩
                    by_contra hnn
                    rw [c9 hnn, hl.todo k cfp (le_refl _) hc] at hin
                    simp at hin
                · have hcc : c ≠ cfp := by
                    intro e2
                    subst e2
                    have hk3 := List.getElem?_eq_getElem hk2
                    have hi3 := List.getElem?_eq_getElem hlt
                    rw [hkc] at hk3
                    rw [hc] at hi3
                    have := (List.Nodup.getElem_inj_iff hnd).1
                      ((Option.some.inj hk3).symm.trans (Option.some.inj hi3))
                    exact e1 this
                  have hcv2 : c < g.cfgs.length := hinv.valid c (List.getElem?_mem hkc)
                  exact linked_mono (c4 c hcv2) (c6 c hcc hcv2) hb (hl.done k c (by omega) hkc)
              · by_cases hk2 : k < g.current.length
                · rw [c3, List.getElem?_append_left hk2] at hkc
                  have hcc : c ≠ cfp := by
                    intro e2
                    subst e2
                    have hk3 := List.getElem?_eq_getElem hk2
                    have hi3 := List.getElem?_eq_getElem hlt
                    rw [hkc] at hk3
                    rw [hc] at hi3
                    have := (List.Nodup.getElem_inj_iff hnd).1
                      ((Option.some.inj hk3).symm.trans (Option.some.inj hi3))
                    omega
                  have hcv2 : c < g.cfgs.length := hinv.valid c (List.getElem?_mem hkc)
                  rw [c6 c hcc hcv2]
                  exact hl.todo k c (by omega) hkc
                · rw [c3, List.getElem?_append_right (by omega)] at hkc
                  exact c7 c (c3b c (List.getElem?_mem hkc))
          · rw [if_neg hty] at h
            refine ih (i + 1) g e g2 e2 hinv (hskip ?_) (by omega) h
            intro sp1 hd1 ha1 hty1
            rw [hsp] at ha1
            injection ha1 with ha1
            subst ha1
            exact absurd hty1 hty

/-- C31: `Configlist_closure` returns, given `fuel` beyond the length of the list plus the
number of rules, and afterwards every configuration `c` of the list has propagated
(`Linked`): when a nonterminal `B` follows its dot, then for every rule of `B` the list
holds the configuration `n` with the index of that rule and the dot at 0, the follow set
of `n` holds every terminal that begins the rest `β` of the rule of `c` according to the
first sets and nullable flags (`StartsIn`), and `n` is on the forward list of `c` if and
only if every symbol of `β` is a nonterminal flagged nullable.  The list satisfies the
builder invariant and its configurations have no forward links at the call, as
`Configlist_addbasis` leaves them; only nonterminals are flagged nullable, as after
`FindFirstSets`. -/
theorem Configlist_closure_links (lemp : lemon) (size fuel : Nat) (g : configlist) (e : Int)
    (hinv : ListInv lemp.rule size g) (hok : FollowOK size lemp)
    (hlam : ∀ s ∈ lemp.symbols, s.lambda = true → s.type = symbol_type.NONTERMINAL)
    (hfp : ∀ a ∈ g.current, (cfgAt g.cfgs a).fplp = [])
    (hfuel : g.current.length + lemp.rule.length + 1 < fuel) :
    ∃ g2 e2, Configlist_closure lemp size fuel g e = some (g2, e2) ∧
      ∀ c ∈ g2.current, Linked lemp g2 c := by
  have h0 : ClosInv lemp size g g 0 := by
    refine ⟨hinv, le_refl _, fun _ _ => rfl, ⟨[], by simp, by simp⟩, ?_, ?_⟩
    · intro a ha
      exact Expansion.basis (List.mem_map.2 ⟨a, ha, rfl⟩)
    · intro k a hk
      omega
  obtain ⟨g2, e2, h1, -⟩ :=
    closureLoop_spec lemp size g hok fuel 0 g e h0 (Nat.zero_le _) (by omega)
  have hl0 : LinkInv lemp g 0 :=
    ⟨fun k c hk _ => by omega, fun k c _ hkc => hfp c (List.getElem?_mem hkc)⟩
  have hl := closureLoop_link lemp size hok hlam fuel 0 g e g2 e2 hinv hl0 (Nat.zero_le _) h1
  refine ⟨g2, e2, ?_, fun c hc => ?_⟩
  · unfold Configlist_closure
    rw [if_neg (by simp [hinv.isOpen])]
    exact h1
  · obtain ⟨k, hk⟩ := List.getElem?_of_mem hc
    exact hl.done k c (lt_of_getElem?_some hk) hk

set_option maxRecDepth 1000000 in
/-- The closure of the basis `e ::= . e PLUS t` of the expression grammar: the
configurations of the rules of `e` get `PLUS`, those of `t` get `TIMES`, and
`e ::= . t` and `t ::= . f`, whose rest is empty, get the forward links. -/
theorem Configlist_closure_links_witness :
    FollowOK 8 exprFirst ∧
    (∀ s ∈ exprFirst.symbols, s.lambda = true → s.type = symbol_type.NONTERMINAL) ∧
    (∀ a ∈ closureExample.current, (cfgAt closureExample.cfgs a).fplp = []) ∧
    (Configlist_closure exprFirst 8 30 closureExample 0).map
        (fun r => r.1.current.map (fun a => (cfgAt r.1.cfgs a).fplp)) =
      some [[], [3, 2], [5, 4], [], [], []] ∧
    (Configlist_closure exprFirst 8 30 closureExample 0).map
        (fun r => r.1.current.map (fun a => (cfgAt r.1.cfgs a).fws.indexesOf true)) =
      some [[1], [1], [2], [2], [], []] ∧
    ∃ g2 e2, Configlist_closure exprFirst 8 30 closureExample 0 = some (g2, e2) ∧
      ∀ c ∈ g2.current, Linked exprFirst g2 c :=
  ⟨by decide, by decide, by decide, by decide, by decide,
    Configlist_closure_links exprFirst 8 30 closureExample 0 closureExample_inv (by decide)
      (by decide) (by decide) (by decide)⟩

set_option maxRecDepth 1000000 in
/-- C35, counterexample: for the grammar `%token_class number INTEGER|FLOAT.  s ::= expr.
expr ::= number.  expr ::= INTEGER.` the state of the start rule has the items
`expr ::= . number` and `expr ::= . INTEGER`; `number` and `INTEGER` are not the same
symbol for `same_symbol`, so `buildshifts` builds two successors and gives the state the
`SHIFT` on `INTEGER` twice (to state 2 for `number`, to state 3 for `INTEGER`), and
`FindActions` tags the second one `SSCONFLICT` and counts one conflict. -/
theorem buildshifts_two_shifts_on_one_lookahead :
    FindFirstSets 5 30 (FindRulePrecedences mtLemon) = some mtFirst ∧
    same_symbol mtFirst.symbols 6 1 = false ∧
    (Heap.FindStates 5 30 30 mtFirst).map (fun w =>
        (stateAt w.store.states 0).ap.reverse.map (fun a => (a.type, a.sp, a.x))) =
      some [(e_action.SHIFT, 4, 1), (e_action.SHIFT, 1, 2), (e_action.SHIFT, 2, 2),
        (e_action.SHIFT, 1, 3)] ∧
    (Heap.analyse actionCode 30 mtLemon).map (fun r =>
        (stateAt r.2.1 0).ap.map (fun a => (a.type, a.sp, a.x))) =
      some [(e_action.SHIFT, 1, 3), (e_action.SSCONFLICT, 1, 2), (e_action.SHIFT, 2, 2),
        (e_action.ACCEPT, 3, 0), (e_action.SHIFT, 4, 1)] ∧
    (Heap.analyse actionCode 30 mtLemon).map (fun r => r.1.nconflict) = some 1 := by
  decide

theorem cfgAt_set (l : List config) (p : Nat) (c : config) (a : Nat) :
    cfgAt (l.set p c) a = if a = p ∧ p < l.length then c else cfgAt l a := by
  by_cases e : a = p
  · subst e
    by_cases hp : a < l.length
    · rw [if_pos ⟨rfl, hp⟩, cfgAt_set_self l c hp]
    · rw [if_neg (by tauto), List.set_eq_of_length_le (by omega)]
  · rw [if_neg (by tauto), cfgAt_set_ne l c (Ne.symm e)]

theorem sameCore_rfl (c : config) : SameCore c c := ⟨rfl, rfl, rfl, rfl⟩

theorem sameCore_comp {c d e : config} (h1 : SameCore c d) (h2 : SameCore d e) :
    SameCore c e :=
  ⟨h1.1.trans h2.1, h1.2.1.trans h2.2.1, h1.2.2.1.trans h2.2.2.1, h1.2.2.2.trans h2.2.2.2⟩

theorem sameCore_set (l : List config) (p : Nat) (c : config) (h : SameCore c (cfgAt l p))
    (a : Nat) : SameCore (cfgAt (l.set p c) a) (cfgAt l a) := by
  rw [cfgAt_set]
  split_ifs with e
  · rw [e.1]
    exact h
  · exact sameCore_rfl _

theorem heapStep_rfl (g : configlist) : HeapStep g g :=
  ⟨le_refl _, fun _ _ => sameCore_rfl _, fun _ ha => Or.inl ha⟩

theorem heapStep_comp {g g1 g2 : configlist} (h1 : HeapStep g g1) (h2 : HeapStep g1 g2) :
    HeapStep g g2 := by
  refine ⟨le_trans h1.heap h2.heap, ?_, ?_⟩
  · intro a ha
    exact sameCore_comp (h2.same a (lt_of_lt_of_le ha h1.heap)) (h1.same a ha)
  · intro a ha
    rcases h2.cur a ha with h | h
    · rcases h1.cur a h with k | k
      · exact Or.inl k
      · exact Or.inr ⟨k.1, lt_of_lt_of_le k.2 h2.heap⟩
    · exact Or.inr ⟨le_trans h1.heap h.1, h.2⟩

/-- A step that changes the heap by `set` operations that keep the core fields. -/
theorem heapStep_heap (g : configlist) (cfgs1 : List config)
    (hl : cfgs1.length = g.cfgs.length)
    (hs : ∀ a, SameCore (cfgAt cfgs1 a) (cfgAt g.cfgs a)) :
    HeapStep g { g with cfgs := cfgs1 } :=
  ⟨by simp [hl], fun a _ => hs a, fun _ ha => Or.inl ha⟩

theorem Configlist_add_step (rules : List rule) (size : Nat) (g : configlist) (rp : Nat)
    (dot : Int) (h : TabOK rules g.x4a) (cfp : Nat) (g1 : configlist)
    (he : Configlist_add rules size g rp dot = some (cfp, g1)) :
    TabOK rules g1.x4a ∧ HeapStep g g1 ∧ g1.currentend = g.currentend ∧
      g1.cfgs.length ≤ g.cfgs.length + 1 := by
  obtain ⟨r, h1, h2, h3⟩ := Configtable_find_spec h.1 h.2 { rp := rp, dot := dot }
  unfold Configlist_add at he
  split_ifs at he with hopen
  rw [h1] at he
  cases r with
  | some d =>
    simp only [Option.some.injEq, Prod.mk.injEq] at he
    obtain ⟨-, rfl⟩ := he
    exact ⟨h, heapStep_rfl _, rfl, by omega⟩
  | none =>
    have hnew := h3 rfl
    obtain ⟨x1, i1, i2, i3, -⟩ :=
      Configtable_insert_new h.1 h.2 g.cfgs.length { rp := rp, dot := dot } hnew
    simp only [i1, Option.some.injEq, Prod.mk.injEq] at he
    obtain ⟨-, rfl⟩ := he
    refine ⟨⟨i2, i3⟩, ⟨by simp, ?_, ?_⟩, rfl, by simp⟩
    · intro a ha
      simp only [cfgAt_append_left _ _ ha]
      exact sameCore_rfl _
    · intro a ha
      simp only [List.mem_append, List.mem_singleton] at ha
      rcases ha with ha | rfl
      · exact Or.inl ha
      · exact Or.inr ⟨le_refl _, by simp⟩

theorem closureRule_step (lemp : lemon) (size : Nat) (cfp : Nat) (rest : List Nat)
    (g g1 : configlist) (newrp : Nat) (h : TabOK lemp.rule g.x4a)
    (he : closureRule lemp size cfp rest g newrp = some g1) :
    TabOK lemp.rule g1.x4a ∧ HeapStep g g1 ∧ g1.currentend = g.currentend := by
  unfold closureRule at he
  cases ha : Configlist_add lemp.rule size g newrp 0 with
  | none => simp [ha] at he
  | some r =>
    obtain ⟨newcfp, g0⟩ := r
    obtain ⟨t1, t2, t3, -⟩ := Configlist_add_step lemp.rule size g newrp 0 h newcfp g0 ha
    simp only [ha] at he
    cases hf : closureFollow size lemp.symbols rest (cfgAt g0.cfgs newcfp).fws with
    | none => simp [hf] at he
    | some q =>
      obtain ⟨fws1, atEnd⟩ := q
      simp only [hf] at he
      have s1 : ∀ a, SameCore (cfgAt (g0.cfgs.set newcfp
          { cfgAt g0.cfgs newcfp with fws := fws1 }) a) (cfgAt g0.cfgs a) :=
        sameCore_set _ _ _ ⟨rfl, rfl, rfl, rfl⟩
      split_ifs at he
      · simp only [Option.some.injEq] at he
        subst he
        refine ⟨t1, heapStep_comp t2 (heapStep_heap g0 _ (by simp) ?_), t3⟩
        intro a
        refine sameCore_comp (sameCore_set _ _ _ ?_ a) (s1 a)
        exact ⟨rfl, rfl, rfl, rfl⟩
      · simp only [Option.some.injEq] at he
        subst he
        exact ⟨t1, heapStep_comp t2 (heapStep_heap g0 _ (by simp) s1), t3⟩

theorem closureRules_step (lemp : lemon) (size : Nat) (cfp : Nat) (rest : List Nat)
    (chain : List Nat) (g g1 : configlist) (h : TabOK lemp.rule g.x4a)
    (he : closureRules lemp size cfp rest chain g = some g1) :
    TabOK lemp.rule g1.x4a ∧ HeapStep g g1 ∧ g1.currentend = g.currentend := by
  induction chain generalizing g with
  | nil =>
    simp only [closureRules, Option.some.injEq] at he
    subst he
    exact ⟨h, heapStep_rfl _, rfl⟩
  | cons newrp more ih =>
    simp only [closureRules] at he
    cases hr : closureRule lemp size cfp rest g newrp with
    | none => simp [hr] at he
    | some g0 =>
      simp only [hr] at he
      obtain ⟨t1, t2, t3⟩ := closureRule_step lemp size cfp rest g g0 newrp h hr
      obtain ⟨u1, u2, u3⟩ := ih g0 t1 he
      exact ⟨u1, heapStep_comp t2 u2, u3.trans t3⟩

theorem closureLoop_step (lemp : lemon) (size : Nat) (fuel : Nat) :
    ∀ (i : Nat) (g : configlist) (e : Int) (g1 : configlist) (e1 : Int),
      TabOK lemp.rule g.x4a → closureLoop lemp size fuel i (g, e) = some (g1, e1) →
      TabOK lemp.rule g1.x4a ∧ HeapStep g g1 ∧ g1.currentend = g.currentend := by
  induction fuel with
  | zero =>
    intro i g e g1 e1 _ he
    simp [closureLoop] at he
  | succ fuel ih =>
    intro i g e g1 e1 h he
    simp only [closureLoop] at he
    cases hc : g.current[i]? with
    | none =>
      simp only [hc, Option.some.injEq, Prod.mk.injEq] at he
      obtain ⟨rfl, -⟩ := he
      exact ⟨h, heapStep_rfl _, rfl⟩
    | some c =>
      simp only [hc] at he
      split_ifs at he with hd
      · exact ih _ _ _ _ _ h he
      · cases ha : afterDot lemp.rule (cfgAt g.cfgs c) with
        | none => simp [ha] at he
        | some sp =>
          simp only [ha] at he
          by_cases hty : (symAt lemp.symbols sp).type = symbol_type.NONTERMINAL
          · rw [if_pos hty] at he
            cases hr : closureRules lemp size c
                ((ruleAt lemp.rule (cfgAt g.cfgs c).rp).rhs.drop ((cfgAt g.cfgs c).dot.toNat + 1))
                (symAt lemp.symbols sp).rule g with
            | none => simp [hr] at he
            | some g0 =>
              simp only [hr] at he
              obtain ⟨t1, t2, t3⟩ := closureRules_step lemp size c _ _ g g0 h hr
              obtain ⟨u1, u2, u3⟩ := ih _ _ _ _ _ t1 he
              exact ⟨u1, heapStep_comp t2 u2, u3.trans t3⟩
          · rw [if_neg hty] at he
            exact ih _ _ _ _ _ h he

theorem Configlist_closure_step (lemp : lemon) (size fuel : Nat) (g : configlist) (e : Int)
    (g1 : configlist) (e1 : Int) (h : TabOK lemp.rule g.x4a)
    (he : Configlist_closure lemp size fuel g e = some (g1, e1)) :
    TabOK lemp.rule g1.x4a ∧ HeapStep g g1 := by
  unfold Configlist_closure at he
  split_ifs at he
  obtain ⟨t1, t2, -⟩ := closureLoop_step lemp size fuel 0 g e g1 e1 h he
  exact ⟨t1, t2⟩

theorem ListInv_reset (rules : List rule) (size : Nat) (g : configlist)
    (h : TabOK rules g.x4a) : ListInv rules size (Configlist_reset g) := by
  have hc : ChainOK rules (Configtable_clear g.x4a).size
      ((Configtable_clear g.x4a).tbl.map node3) (Configtable_clear g.x4a).ht ∧
      (Configtable_clear g.x4a).tbl = [] ∧ (Configtable_clear g.x4a).count = 0 := by
    unfold Configtable_clear
    split_ifs with h0
    · have : g.x4a.tbl = [] := List.length_eq_zero.mp (h.2.trans h0)
      exact ⟨h.1, this, h0⟩
    · exact ⟨chain_empty rules _ h.1.size_pos, rfl, rfl⟩
  refine ⟨hc.1, ?_, ?_, ?_, ?_, rfl, ?_, ?_⟩
  · simp [Configlist_reset, hc.2.1, hc.2.2]
  · simp [Configlist_reset, hc.2.1]
  all_goals simp [Configlist_reset]

theorem Configlist_addbasis_spec (rules : List rule) (size : Nat) (g : configlist) (rp : Nat)
    (dot : Int) (h : ListInv rules size g) (hdot : 0 ≤ dot) (cfp : Nat) (g1 : configlist)
    (he : Configlist_addbasis rules size g rp dot = some (cfp, g1)) :
    ListInv rules size g1 ∧ cfp ∈ g1.current ∧
      keyOf rules g1.cfgs cfp = configKey rules { rp := rp, dot := dot } ∧
      g1.basisend = g.basisend ∧
      (g1 = g ∨
        (g1.current = g.current ++ [g.cfgs.length] ∧ g1.basis = g.basis ++ [g.cfgs.length] ∧
          cfp = g.cfgs.length ∧ g1.cfgs = g.cfgs ++ [freshConfig size rp dot])) := by
  obtain ⟨cfp0, g0, h1, h2, h3, h4, -, -, h7⟩ := Configlist_add_spec rules size g rp dot h hdot
  unfold Configlist_add at h1
  unfold Configlist_addbasis at he
  rw [if_neg (by simp [h.isOpen])] at h1
  split_ifs at he with hb
  cases hf : Configtable_find rules g.x4a { rp := rp, dot := dot } with
  | none => simp [hf] at h1
  | some r =>
    simp only [hf] at h1 he
    cases r with
    | some d =>
      simp only [Option.some.injEq, Prod.mk.injEq] at h1 he
      obtain ⟨rfl, rfl⟩ := h1
      obtain ⟨rfl, rfl⟩ := he
      exact ⟨h, h3, h4, rfl, Or.inl rfl⟩
    | none =>
      simp only at h1 he
      cases hi : Configtable_insert rules g.x4a g.cfgs.length { rp := rp, dot := dot } with
      | none => simp [hi] at h1
      | some r =>
        obtain ⟨x1, rv⟩ := r
        simp only [hi, Option.some.injEq, Prod.mk.injEq] at h1 he
        obtain ⟨rfl, rfl⟩ := h1
        obtain ⟨rfl, rfl⟩ := he
        refine ⟨⟨h2.chain, h2.count, h2.entries, h2.nodup, h2.valid, h2.isOpen, h2.fws,
          h2.dots⟩, h3, h4, rfl, Or.inr ⟨rfl, rfl, rfl, rfl⟩⟩

theorem shiftsOver_congr {rules : List rule} {syms : List symbol} {c1 c2 : List config}
    {sp a b : Nat} (h : item c1 a = item c2 b) :
    ShiftsOver rules syms c1 sp a ↔ ShiftsOver rules syms c2 sp b := by
  have h2 : afterDot rules (cfgAt c1 a) = afterDot rules (cfgAt c2 b) := afterDot_of_item h
  rw [item_eq_iff] at h
  simp only [ShiftsOver, h.1, h.2, h2]

theorem shiftedKey_congr {rules : List rule} {c1 c2 : List config} {a b : Nat}
    (h : item c1 a = item c2 b) : shiftedKey rules c1 a = shiftedKey rules c2 b := by
  rw [item_eq_iff] at h
  simp only [shiftedKey, h.1, h.2]

theorem cfgAt_setStatus (l : List config) (p : Nat) (s : cfgstatus) (a : Nat) :
    item (l.set p { cfgAt l p with status := s }) a = item l a ∧
    (cfgAt (l.set p { cfgAt l p with status := s }) a).bplp = (cfgAt l a).bplp ∧
    (cfgAt (l.set p { cfgAt l p with status := s }) a).fws = (cfgAt l a).fws ∧
    (cfgAt (l.set p { cfgAt l p with status := s }) a).status =
      (if a = p ∧ p < l.length then s else (cfgAt l a).status) := by
  rw [cfgAt_set, item, item, cfgAt_set]
  split_ifs with e
  · rw [e.1]
    exact ⟨rfl, rfl, rfl, rfl⟩
  · exact ⟨rfl, rfl, rfl, rfl⟩

theorem cfgAt_setBplp (l : List config) (p : Nat) (x : List Nat) (a : Nat) :
    item (l.set p { cfgAt l p with bplp := x }) a = item l a ∧
    (cfgAt (l.set p { cfgAt l p with bplp := x }) a).status = (cfgAt l a).status ∧
    (cfgAt (l.set p { cfgAt l p with bplp := x }) a).fws = (cfgAt l a).fws ∧
    (cfgAt (l.set p { cfgAt l p with bplp := x }) a).bplp =
      (if a = p ∧ p < l.length then x else (cfgAt l a).bplp) := by
  rw [cfgAt_set, item, item, cfgAt_set]
  split_ifs with e
  · rw [e.1]
    exact ⟨rfl, rfl, rfl, rfl⟩
  · exact ⟨rfl, rfl, rfl, rfl⟩

/-- A visited configuration that the inner loop passes over. -/
theorem basisInv_skip {lemp : lemon} {size sp : Nat} {g0 g : configlist} {done : List Nat}
    (hI : BasisInv lemp size sp g0 done g) (bcfp : Nat) (hb : bcfp < g0.cfgs.length)
    (hs : (cfgAt g.cfgs bcfp).status = cfgstatus.COMPLETE ∨
      ¬ ShiftsOver lemp.rule lemp.symbols g0.cfgs sp bcfp) :
    BasisInv lemp size sp g0 (done ++ [bcfp]) g := by
  have hdone : (cfgAt g0.cfgs bcfp).status ≠ cfgstatus.COMPLETE →
      ShiftsOver lemp.rule lemp.symbols g0.cfgs sp bcfp → bcfp ∈ done := by
    intro n1 n2
    rcases hs with hs | hs
    · rcases ((hI.old bcfp hb).2.2).1 hs with k | k
      · exact absurd k n1
      · exact k.1
    · exact absurd n2 hs
  refine ⟨hI.inv, hI.basis, hI.bend, hI.heap, ?_, ?_, ?_⟩
  · intro x hx
    obtain ⟨k1, c, k2, k3⟩ := hI.src x hx
    exact ⟨k1, c, by simp [k2], k3⟩
  · intro a ha
    obtain ⟨k1, k2, k3⟩ := hI.old a ha
    refine ⟨k1, k2, ?_⟩
    rw [k3]
    constructor
    · rintro (k | k)
      · exact Or.inl k
      · exact Or.inr ⟨by simp [k.1], k.2⟩
    · rintro (k | k)
      · exact Or.inl k
      · by_cases n1 : (cfgAt g0.cfgs a).status = cfgstatus.COMPLETE
        · exact Or.inl n1
        · right
          refine ⟨?_, k.2⟩
          have := k.1
          simp only [List.mem_append, List.mem_singleton] at this
          rcases this with m | m
          · exact m
          · subst m
            exact hdone n1 k.2
  · intro c hc n1 n2
    simp only [List.mem_append, List.mem_singleton] at hc
    rcases hc with m | m
    · exact hI.link c m n1 n2
    · subst m
      exact hI.link c (hdone n1 n2) n1 n2

/-- A visited configuration that the inner loop takes: it is marked, and its shifted
configuration enters the basis with a link back to it. -/
theorem basisInv_take {lemp : lemon} {size sp : Nat} {g0 g : configlist} {done : List Nat}
    (hI : BasisInv lemp size sp g0 done g) (bcfp : Nat) (hb : bcfp < g0.cfgs.length)
    (hs : (cfgAt g.cfgs bcfp).status ≠ cfgstatus.COMPLETE)
    (hso : ShiftsOver lemp.rule lemp.symbols g.cfgs sp bcfp) (newcfg : Nat) (g1 : configlist)
    (he : Configlist_addbasis lemp.rule size
        { g with cfgs := g.cfgs.set bcfp { cfgAt g.cfgs bcfp with status := cfgstatus.COMPLETE } }
        (cfgAt g.cfgs bcfp).rp ((cfgAt g.cfgs bcfp).dot + 1) = some (newcfg, g1)) :
    BasisInv lemp size sp g0 (done ++ [bcfp])
      { g1 with cfgs := g1.cfgs.set newcfg { cfgAt g1.cfgs newcfg with
          bplp := bcfp :: (cfgAt g1.cfgs newcfg).bplp } } := by
  have hbg : bcfp < g.cfgs.length := lt_of_lt_of_le hb hI.heap
  have hA := cfgAt_setStatus g.cfgs bcfp cfgstatus.COMPLETE
  have hiA : ListInv lemp.rule size { g with cfgs := g.cfgs.set bcfp { cfgAt g.cfgs bcfp with status := cfgstatus.COMPLETE } } := by
    apply hI.inv.heap _ (by simp)
    intro a ha
    refine ⟨(hA a).1, ?_⟩
    rw [(hA a).2.2.1]
    exact hI.inv.fws a ha
  have hdot : 0 ≤ (cfgAt g.cfgs bcfp).dot + 1 := by
    obtain ⟨-, bsp, k, -⟩ := hso
    unfold afterDot at k
    split_ifs at k with h0
    omega
  obtain ⟨i1, i2, i3, i4, i5⟩ := Configlist_addbasis_spec lemp.rule size _ _ _ hiA hdot _ _ he
  simp only at i4
  have hB := cfgAt_setBplp g1.cfgs newcfg (bcfp :: (cfgAt g1.cfgs newcfg).bplp)
  -- the step from the marked heap to the heap after Configlist_addbasis
  have p1 : g.cfgs.length ≤ g1.cfgs.length := by
    rcases i5 with rfl | ⟨-, -, -, k⟩
    · simp
    · rw [k]
      simp
  have p2 : ∀ a, a < g.cfgs.length → cfgAt g1.cfgs a =
      cfgAt (g.cfgs.set bcfp { cfgAt g.cfgs bcfp with status := cfgstatus.COMPLETE }) a := by
    intro a ha
    rcases i5 with rfl | ⟨-, -, -, k⟩
    · rfl
    · rw [k]
      exact cfgAt_append_left _ _ (by simpa using ha)
  have p3 : ∀ x ∈ g1.current, x ∈ g.current ∨ (x = newcfg ∧ g.cfgs.length ≤ x) := by
    intro x hx
    rcases i5 with rfl | ⟨k1, -, k3, -⟩
    · exact Or.inl hx
    · rw [k1] at hx
      simp only [List.mem_append, List.mem_singleton] at hx
      rcases hx with hx | hx
      · exact Or.inl hx
      · right
        rw [hx, k3]
        simp
  have p4 : ∀ x ∈ g.current, x ∈ g1.current := by
    intro x hx
    rcases i5 with rfl | ⟨k1, -, -, -⟩
    · exact hx
    · rw [k1]
      simp [hx]
  have p5 : g1.basis = g1.current := by
    rcases i5 with rfl | ⟨k1, k2, -, -⟩
    · exact hI.basis
    · rw [k1, k2]
      simp [hI.basis]
  have hnv : newcfg < g1.cfgs.length := i1.valid newcfg i2
  -- items from the first heap to the last
  have hit : ∀ a, a < g.cfgs.length →
      item (g1.cfgs.set newcfg { cfgAt g1.cfgs newcfg with
        bplp := bcfp :: (cfgAt g1.cfgs newcfg).bplp }) a = item g.cfgs a := by
    intro a ha
    rw [(hB a).1, ← (hA a).1]
    simp only [item, p2 a ha]
  have hso0 : ShiftsOver lemp.rule lemp.symbols g0.cfgs sp bcfp := (shiftsOver_congr (hI.old bcfp hb).1).1 hso
  have hst0 : (cfgAt g0.cfgs bcfp).status ≠ cfgstatus.COMPLETE := by
    intro k
    exact hs (((hI.old bcfp hb).2.2).2 (Or.inl k))
  have hkn : keyOf lemp.rule (g1.cfgs.set newcfg { cfgAt g1.cfgs newcfg with
        bplp := bcfp :: (cfgAt g1.cfgs newcfg).bplp }) newcfg =
      shiftedKey lemp.rule g0.cfgs bcfp := by
    rw [keyOf_of_item (hB newcfg).1, i3, ← shiftedKey_congr (hI.old bcfp hb).1]
    rfl
  have hge : ∀ x ∈ g1.current, g0.cfgs.length ≤ x := by
    intro x hx
    rcases p3 x hx with k | k
    · exact (hI.src x k).1
    · exact le_trans hI.heap k.2
  refine ⟨?_, p5, i4.trans hI.bend, le_trans hI.heap (by simpa using p1), ?_, ?_, ?_⟩
  · apply i1.heap _ (by simp)
    intro a ha
    refine ⟨(hB a).1, ?_⟩
    rw [(hB a).2.2.1]
    exact i1.fws a ha
  · intro x hx
    refine ⟨hge x hx, ?_⟩
    rcases p3 x hx with k | k
    · obtain ⟨-, c, k2, k3, k4, k5⟩ := hI.src x k
      refine ⟨c, by simp [k2], k3, k4, ?_⟩
      rw [← k5]
      exact keyOf_of_item (hit x (hI.inv.valid x k))
    · rw [k.1]
      exact ⟨bcfp, by simp, hst0, hso0, hkn⟩
  · intro a ha
    have hag : a < g.cfgs.length := lt_of_lt_of_le ha hI.heap
    obtain ⟨k1, k2, k3⟩ := hI.old a ha
    have hne : a ≠ newcfg := by
      intro e
      have := hge newcfg i2
      omega
    refine ⟨(hit a hag).trans k1, ?_, ?_⟩
    · rw [(hB a).2.2.2, if_neg (by tauto), p2 a hag, (hA a).2.1, k2]
    · rw [(hB a).2.1, p2 a hag, (hA a).2.2.2]
      by_cases e : a = bcfp
      · subst e
        rw [if_pos ⟨rfl, hbg⟩]
        simp only [true_iff]
        exact Or.inr ⟨by simp, hso0⟩
      · rw [if_neg (by tauto), k3]
        simp [e]
  · intro c hc n1 n2
    by_cases e : c = bcfp
    · subst e
      refine ⟨newcfg, i2, hkn, ?_⟩
      rw [(hB newcfg).2.2.2, if_pos ⟨rfl, hnv⟩]
      simp
    · have hc1 : c ∈ done := by
        simp only [List.mem_append, List.mem_singleton] at hc
        tauto
      obtain ⟨x, x1, x2, x3⟩ := hI.link c hc1 n1 n2
      have hxg : x < g.cfgs.length := hI.inv.valid x x1
      refine ⟨x, p4 x x1, ?_, ?_⟩
      · rw [← x2]
        exact keyOf_of_item (hit x hxg)
      · rw [(hB x).2.2.2]
        have : (cfgAt g1.cfgs x).bplp = (cfgAt g.cfgs x).bplp := by
          rw [p2 x hxg, (hA x).2.1]
        split_ifs with q
        · rw [← q.1, this]
          simp [x3]
        · rw [this]
          exact x3

theorem shiftBasis_spec (lemp : lemon) (size sp : Nat) (g0 : configlist) :
    ∀ (l done : List Nat) (g g1 : configlist), BasisInv lemp size sp g0 done g →
      (∀ c ∈ l, c < g0.cfgs.length) → Heap.shiftBasis lemp size sp l g = some g1 →
      BasisInv lemp size sp g0 (done ++ l) g1 := by
  intro l
  induction l with
  | nil =>
    intro done g g1 hI _ he
    simp only [Heap.shiftBasis, Option.some.injEq] at he
    subst he
    simpa using hI
  | cons bcfp rest ih =>
    intro done g g1 hI hl he
    have hb : bcfp < g0.cfgs.length := hl bcfp (by simp)
    have hrest : ∀ c ∈ rest, c < g0.cfgs.length := fun c hc => hl c (by simp [hc])
    have hsplit : done ++ bcfp :: rest = (done ++ [bcfp]) ++ rest := by simp
    have hitem := (hI.old bcfp hb).1
    rw [hsplit]
    simp only [Heap.shiftBasis] at he
    by_cases h1 : (cfgAt g.cfgs bcfp).status = cfgstatus.COMPLETE
    · rw [if_pos h1] at he
      exact ih _ _ _ (basisInv_skip hI bcfp hb (Or.inl h1)) hrest he
    · rw [if_neg h1] at he
      by_cases h2 : (cfgAt g.cfgs bcfp).dot ≥
          ((ruleAt lemp.rule (cfgAt g.cfgs bcfp).rp).rhs.length : Int)
      · rw [if_pos h2] at he
        refine ih _ _ _ (basisInv_skip hI bcfp hb (Or.inr ?_)) hrest he
        intro k
        have := ((shiftsOver_congr hitem).2 k).1
        omega
      · rw [if_neg h2] at he
        cases ha : afterDot lemp.rule (cfgAt g.cfgs bcfp) with
        | none => simp [ha] at he
        | some bsp =>
          simp only [ha] at he
          by_cases h3 : same_symbol lemp.symbols bsp sp = false
          · rw [if_pos h3] at he
            refine ih _ _ _ (basisInv_skip hI bcfp hb (Or.inr ?_)) hrest he
            intro k
            obtain ⟨-, b2, k1, k2⟩ := (shiftsOver_congr hitem).2 k
            rw [ha] at k1
            simp only [Option.some.injEq] at k1
            subst k1
            rw [h3] at k2
            exact absurd k2 (by simp)
          · rw [if_neg h3] at he
            cases hadd : Configlist_addbasis lemp.rule size
                { g with cfgs := g.cfgs.set bcfp { cfgAt g.cfgs bcfp with status := cfgstatus.COMPLETE } }
                (cfgAt g.cfgs bcfp).rp ((cfgAt g.cfgs bcfp).dot + 1) with
            | none => simp [hadd] at he
            | some r =>
              obtain ⟨newcfg, g2⟩ := r
              simp only [hadd] at he
              have hso : ShiftsOver lemp.rule lemp.symbols g.cfgs sp bcfp :=
                ⟨by omega, bsp, ha, by simpa using h3⟩
              exact ih _ _ _ (basisInv_take hI bcfp hb h1 hso newcfg g2 hadd) hrest he

theorem same_symbol_iff (syms : List symbol) (a b : Nat) :
    same_symbol syms a b = true ↔
      a = b ∨ ((symAt syms a).type = symbol_type.MULTITERMINAL ∧
        (symAt syms b).type = symbol_type.MULTITERMINAL ∧
        (symAt syms a).subsym = (symAt syms b).subsym) := by
  unfold same_symbol
  by_cases e : a = b
  · simp [e]
  · by_cases h1 : (symAt syms a).type = symbol_type.MULTITERMINAL
    · by_cases h2 : (symAt syms b).type = symbol_type.MULTITERMINAL
      · by_cases h3 : (symAt syms a).subsym.length = (symAt syms b).subsym.length
        · simp [e, h1, h2, h3]
        · have : (symAt syms a).subsym ≠ (symAt syms b).subsym := by
            intro k
            exact h3 (by rw [k])
          simp [e, h1, h2, h3, this]
      · simp [e, h1, h2]
    · simp [e, h1]

theorem same_symbol_self (syms : List symbol) (a : Nat) : same_symbol syms a a = true := by
  simp [same_symbol]

theorem same_symbol_swap {syms : List symbol} {a b : Nat}
    (h : same_symbol syms a b = true) : same_symbol syms b a = true := by
  rw [same_symbol_iff] at h ⊢
  rcases h with h | ⟨h1, h2, h3⟩
  · exact Or.inl h.symm
  · exact Or.inr ⟨h2, h1, h3.symm⟩

theorem same_symbol_chain {syms : List symbol} {a b c : Nat}
    (h1 : same_symbol syms a b = true) (h2 : same_symbol syms b c = true) :
    same_symbol syms a c = true := by
  rw [same_symbol_iff] at h1 h2 ⊢
  rcases h1 with h1 | ⟨k1, k2, k3⟩
  · subst h1
    exact h2
  · rcases h2 with h2 | ⟨m1, m2, m3⟩
    · subst h2
      exact Or.inr ⟨k1, k2, k3⟩
    · exact Or.inr ⟨k1, m2, k3.trans m3⟩

theorem msort_mem {α : Type} (cmp : α → α → Int) (l : List α) :
    ∀ x ∈ msort cmp l, x ∈ l :=
  (msort_sorted cmp (fun _ _ => True) (fun _ _ _ => trivial) (fun _ _ _ => trivial)
    (fun _ _ _ _ _ => trivial) l).2

theorem length_le_of_nodup_lt {l : List Nat} {n : Nat} (hn : l.Nodup)
    (hb : ∀ a ∈ l, a < n) : l.length ≤ n := by
  have hs : l.toFinset ⊆ Finset.range n := by
    intro a ha
    simp only [List.mem_toFinset] at ha
    simpa using hb a ha
  have := Finset.card_le_card hs
  rwa [List.toFinset_card_of_nodup hn, Finset.card_range] at this

theorem copyLinks_cons (x y : Nat) (xs ys : List Nat) (cfgs : List config) :
    Heap.copyLinks (x :: xs) (y :: ys) cfgs = Heap.copyLinks xs ys (copyStep cfgs x y) := rfl

theorem copyStep_spec (cfgs : List config) (x y : Nat) :
    (copyStep cfgs x y).length = cfgs.length ∧
    ∀ a, item (copyStep cfgs x y) a = item cfgs a ∧
      (cfgAt (copyStep cfgs x y) a).status = (cfgAt cfgs a).status ∧
      (a ≠ x → (cfgAt (copyStep cfgs x y) a).bplp =
        (if a = y ∧ y < cfgs.length then Plink_copy (cfgAt cfgs y).bplp (cfgAt cfgs x).bplp
         else (cfgAt cfgs a).bplp)) := by
  have hy := cfgAt_setBplp cfgs y (Plink_copy (cfgAt cfgs y).bplp (cfgAt cfgs x).bplp)
  refine ⟨by simp [copyStep], ?_⟩
  intro a
  refine ⟨?_, ?_, ?_⟩
  · rw [← (hy a).1]
    unfold copyStep
    simp only [item]
    rw [cfgAt_set]
    split_ifs with e
    · rw [e.1]
    · rfl
  · rw [← (hy a).2.1]
    unfold copyStep
    simp only
    rw [cfgAt_set]
    split_ifs with e
    · rw [e.1]
    · rfl
  · intro hne
    rw [← (hy a).2.2.2]
    unfold copyStep
    simp only
    rw [cfgAt_set, if_neg (by tauto)]

theorem copyLinks_frame : ∀ (xs ys : List Nat) (cfgs : List config),
    (Heap.copyLinks xs ys cfgs).length = cfgs.length ∧
    ∀ a, item (Heap.copyLinks xs ys cfgs) a = item cfgs a ∧
      (cfgAt (Heap.copyLinks xs ys cfgs) a).status = (cfgAt cfgs a).status ∧
      (a ∉ xs → ∀ c ∈ (cfgAt cfgs a).bplp, c ∈ (cfgAt (Heap.copyLinks xs ys cfgs) a).bplp) := by
  intro xs
  induction xs with
  | nil =>
    intro ys cfgs
    simp [Heap.copyLinks]
  | cons x xs ih =>
    intro ys cfgs
    cases ys with
    | nil => simp [Heap.copyLinks]
    | cons y ys =>
      rw [copyLinks_cons]
      obtain ⟨k1, k2⟩ := ih ys (copyStep cfgs x y)
      obtain ⟨s1, s2⟩ := copyStep_spec cfgs x y
      refine ⟨k1.trans s1, ?_⟩
      intro a
      obtain ⟨m1, m2, m3⟩ := k2 a
      obtain ⟨n1, n2, n3⟩ := s2 a
      refine ⟨m1.trans n1, m2.trans n2, ?_⟩
      intro ha c hc
      simp only [List.mem_cons, not_or] at ha
      apply m3 ha.2
      rw [n3 ha.1]
      split_ifs with e
      · rw [← e.1]
        simp [Plink_copy, hc]
      · exact hc

theorem copyLinks_links : ∀ (xs ys : List Nat) (cfgs : List config), xs.Nodup →
    (∀ x ∈ xs, x ∉ ys) → (∀ y ∈ ys, y < cfgs.length) →
    ∀ (i x y : Nat), xs[i]? = some x → ys[i]? = some y →
      ∀ c ∈ (cfgAt cfgs x).bplp, c ∈ (cfgAt (Heap.copyLinks xs ys cfgs) y).bplp := by
  intro xs
  induction xs with
  | nil =>
    intro ys cfgs _ _ _ i x y hx
    simp at hx
  | cons x0 xs ih =>
    intro ys cfgs hnd hdis hval i x y hx hy c hc
    cases ys with
    | nil => simp at hy
    | cons y0 ys =>
      have hx0y0 : x0 ≠ y0 := by
        intro e
        exact hdis x0 (by simp) (by simp [e])
      obtain ⟨s1, s2⟩ := copyStep_spec cfgs x0 y0
      have hy0v : y0 < cfgs.length := hval y0 (by simp)
      rw [copyLinks_cons]
      cases i with
      | zero =>
        simp only [List.getElem?_cons_zero, Option.some.injEq] at hx hy
        subst hx
        subst hy
        have hnot : y0 ∉ xs := fun k => hdis y0 (by simp [k]) (by simp)
        apply ((copyLinks_frame xs ys _).2 y0).2.2 hnot
        rw [(s2 y0).2.2 (Ne.symm hx0y0), if_pos ⟨rfl, hy0v⟩]
        simp [Plink_copy, hc]
      | succ i =>
        simp only [List.getElem?_cons_succ] at hx hy
        have hxm : x ∈ xs := List.getElem?_mem hx
        have hym : y ∈ ys := List.getElem?_mem hy
        have hxx0 : x ≠ x0 := by
          intro e
          rw [e] at hxm
          exact (List.nodup_cons.mp hnd).1 hxm
        have hxy0 : x ≠ y0 := by
          intro e
          exact hdis x (by simp [hxm]) (by simp [e])
        apply ih ys _ (List.nodup_cons.mp hnd).2
          (fun x1 h1 h2 => hdis x1 (by simp [h1]) (by simp [h2]))
          (fun y1 h1 => by rw [s1]; exact hval y1 (by simp [h1])) i x y hx hy c
        rw [(s2 x).2.2 hxx0, if_neg (by tauto)]
        exact hc

theorem markFold_spec : ∀ (l : List Nat) (cfgs : List config),
    (l.foldl (fun cfgs a => cfgs.set a { cfgAt cfgs a with status := cfgstatus.INCOMPLETE })
      cfgs).length = cfgs.length ∧
    ∀ a, item (l.foldl (fun cfgs a => cfgs.set a
          { cfgAt cfgs a with status := cfgstatus.INCOMPLETE }) cfgs) a = item cfgs a ∧
      (cfgAt (l.foldl (fun cfgs a => cfgs.set a
          { cfgAt cfgs a with status := cfgstatus.INCOMPLETE }) cfgs) a).bplp =
        (cfgAt cfgs a).bplp ∧
      (a ∉ l → (cfgAt (l.foldl (fun cfgs a => cfgs.set a
          { cfgAt cfgs a with status := cfgstatus.INCOMPLETE }) cfgs) a).status =
        (cfgAt cfgs a).status) ∧
      (a ∈ l → a < cfgs.length → (cfgAt (l.foldl (fun cfgs a => cfgs.set a
          { cfgAt cfgs a with status := cfgstatus.INCOMPLETE }) cfgs) a).status =
        cfgstatus.INCOMPLETE) := by
  intro l
  induction l with
  | nil =>
    intro cfgs
    simp
  | cons x l ih =>
    intro cfgs
    simp only [List.foldl_cons]
    obtain ⟨k1, k2⟩ := ih (cfgs.set x { cfgAt cfgs x with status := cfgstatus.INCOMPLETE })
    have hx := cfgAt_setStatus cfgs x cfgstatus.INCOMPLETE
    refine ⟨by rw [k1]; simp, ?_⟩
    intro a
    obtain ⟨m1, m2, m3, m4⟩ := k2 a
    refine ⟨m1.trans (hx a).1, m2.trans (hx a).2.1, ?_, ?_⟩
    · intro ha
      simp only [List.mem_cons, not_or] at ha
      rw [m3 ha.2, (hx a).2.2.2, if_neg (by tauto)]
    · intro ha hlt
      by_cases hm : a ∈ l
      · exact m4 hm (by simpa using hlt)
      · have : a = x := by
          simp only [List.mem_cons] at ha
          tauto
        rw [m3 hm, (hx a).2.2.2, if_pos ⟨this, by rw [← this]; exact hlt⟩]

theorem addShifts_fold (T : Nat) : ∀ (l : List Nat) (app : List action × Int),
    (l.foldl (fun a q => Action_add a e_action.SHIFT q T) app).1.reverse.map
        (fun a => (a.type, a.sp, a.x)) =
      app.1.reverse.map (fun a => (a.type, a.sp, a.x)) ++
        l.map (fun q => (e_action.SHIFT, q, T)) := by
  intro l
  induction l with
  | nil =>
    intro app
    simp
  | cons q l ih =>
    intro app
    simp only [List.foldl_cons]
    rw [ih]
    simp [Action_add]

theorem addShifts_acts (syms : List symbol) (sp T : Nat) (app : List action × Int) :
    (Heap.addShifts syms sp T app).1.reverse.map (fun a => (a.type, a.sp, a.x)) =
      app.1.reverse.map (fun a => (a.type, a.sp, a.x)) ++ shiftPairs syms sp T := by
  unfold Heap.addShifts shiftPairs
  split_ifs with h
  · exact addShifts_fold T _ app
  · simp [Action_add]

theorem frame_rfl (B : Nat) (P Q : Nat → Prop) (w : Heap.world) : Frame B P Q w w :=
  ⟨rfl, rfl, le_refl _, fun _ _ => rfl, fun _ _ _ h => h, fun _ _ _ => rfl, le_refl _,
    fun _ _ => ⟨rfl, rfl⟩, fun _ _ _ => rfl⟩

theorem frame_comp {B B1 : Nat} {P P1 Q Q1 : Nat → Prop} {w w1 w2 : Heap.world}
    (h1 : Frame B P Q w w1) (h2 : Frame B1 P1 Q1 w1 w2) (hB : B ≤ B1)
    (hP : ∀ a, a < B → P a → P1 a) (hQ : ∀ p, p < w.store.states.length → Q p → Q1 p) :
    Frame B P Q w w2 := by
  refine ⟨h2.rule.trans h1.rule, h2.syms.trans h1.syms, le_trans h1.heap h2.heap, ?_, ?_, ?_,
    le_trans h1.slen h2.slen, ?_, ?_⟩
  · intro a ha
    exact (h2.item a (lt_of_lt_of_le ha h1.heap)).trans (h1.item a ha)
  · intro a ha c hc
    exact h2.link a (lt_of_lt_of_le ha hB) c (h1.link a ha c hc)
  · intro a ha hp
    exact (h2.stat a (lt_of_lt_of_le ha hB) (hP a ha hp)).trans (h1.stat a ha hp)
  · intro p hp
    have k1 := h1.shape p hp
    have k2 := h2.shape p (lt_of_lt_of_le hp h1.slen)
    exact ⟨k2.1.trans k1.1, k2.2.trans k1.2⟩
  · intro p hp hq
    exact (h2.keep p (lt_of_lt_of_le hp h1.slen) (hQ p hp hq)).trans (h1.keep p hp hq)

theorem shiftClass_frame {B : Nat} {P Q : Nat → Prop} {w w1 : Heap.world}
    (h : Frame B P Q w w1) (hB : B ≤ w.cl.cfgs.length) (hown : Owned B w.store.states)
    {p X T : Nat} (hp : p < w.store.states.length)
    (hc : ShiftClass w.lemp.rule w.lemp.symbols w.cl.cfgs w.store.states p X T) :
    ShiftClass w1.lemp.rule w1.lemp.symbols w1.cl.cfgs w1.store.states p X T := by
  rw [h.rule, h.syms]
  have sp := h.shape p hp
  have sT := h.shape T hc.tgt
  have hit : ∀ c ∈ (stateAt w.store.states p).cfp, item w1.cl.cfgs c = item w.cl.cfgs c :=
    fun c hc1 => h.item c (lt_of_lt_of_le ((hown p hp).1 c hc1) hB)
  have hbt : ∀ b ∈ (stateAt w.store.states T).bpa, b < B := (hown T hc.tgt).2
  refine ⟨?_, lt_of_lt_of_le hc.tgt h.slen, ?_, ?_⟩
  · obtain ⟨c, c1, c2, c3⟩ := hc.rep
    refine ⟨c, by rw [sp.1]; exact c1, ?_, ?_⟩
    · have := hit c c1
      rw [item_eq_iff] at this
      rw [this.1, this.2]
      exact c2
    · rw [afterDot_of_item (hit c c1)]
      exact c3
  · intro b hb
    rw [sT.2] at hb
    obtain ⟨c, c1, c2, c3⟩ := hc.sound b hb
    refine ⟨c, by rw [sp.1]; exact c1, (shiftsOver_congr (hit c c1)).2 c2, ?_⟩
    rw [keyOf_of_item (h.item b (lt_of_lt_of_le (hbt b hb) hB)), c3]
    exact (shiftedKey_congr (hit c c1)).symm
  · intro hsmall c hc1 hso
    rw [sp.1] at hc1
    obtain ⟨b, b1, b2, b3⟩ := hc.complete (lt_of_le_of_lt h.heap hsmall) c hc1
      ((shiftsOver_congr (hit c hc1)).1 hso)
    refine ⟨b, by rw [sT.2]; exact b1, ?_, h.link b (hbt b b1) c b3⟩
    rw [keyOf_of_item (h.item b (lt_of_lt_of_le (hbt b b1) hB)), b2]
    exact (shiftedKey_congr (hit c hc1)).symm

theorem shiftsOK_frame {B : Nat} {P Q : Nat → Prop} {w w1 : Heap.world}
    (h : Frame B P Q w w1) (hB : B ≤ w.cl.cfgs.length) (hown : Owned B w.store.states)
    {p : Nat} (hp : p < w.store.states.length) (hq : Q p)
    (hc : ShiftsOK w.lemp.rule w.lemp.symbols w.cl.cfgs w.store.states p) :
    ShiftsOK w1.lemp.rule w1.lemp.symbols w1.cl.cfgs w1.store.states p := by
  obtain ⟨cls, c1, c2, c3, c4⟩ := hc
  have hit : ∀ c ∈ (stateAt w.store.states p).cfp, item w1.cl.cfgs c = item w.cl.cfgs c :=
    fun c hc1 => h.item c (lt_of_lt_of_le ((hown p hp).1 c hc1) hB)
  refine ⟨cls, ?_, ?_, ?_, fun cl hcl => shiftClass_frame h hB hown hp (c4 cl hcl)⟩
  · rw [h.keep p hp hq, h.syms]
    exact c1
  · rw [h.syms]
    exact c2
  · intro c hc1 hd
    rw [(h.shape p hp).1] at hc1
    have e := hit c hc1
    rw [h.rule, h.syms]
    rw [h.rule] at hd
    have e2 := e
    rw [item_eq_iff] at e2
    rw [e2.1, e2.2] at hd
    obtain ⟨cl, k1, k2⟩ := c3 c hc1 hd
    exact ⟨cl, k1, (shiftsOver_congr e).2 k2⟩

theorem status_eq_of_iff {a b : cfgstatus}
    (h : a = cfgstatus.COMPLETE ↔ b = cfgstatus.COMPLETE) : a = b := by
  cases a <;> cases b <;> simp_all

theorem frame_weaken {B B1 : Nat} {P P1 Q Q1 : Nat → Prop} {w w1 : Heap.world}
    (h : Frame B P Q w w1) (hB : B1 ≤ B) (hP : ∀ a, P1 a → P a) (hQ : ∀ p, Q1 p → Q p) :
    Frame B1 P1 Q1 w w1 :=
  ⟨h.rule, h.syms, h.heap, h.item, fun a ha => h.link a (lt_of_lt_of_le ha hB),
    fun a ha hp => h.stat a (lt_of_lt_of_le ha hB) (hP a hp), h.slen, h.shape,
    fun p hp hq => h.keep p hp (hQ p hq)⟩

theorem basisInv_start (lemp : lemon) (size sp : Nat) (g : configlist)
    (h : TabOK lemp.rule g.x4a) :
    BasisInv lemp size sp (Configlist_reset g) [] (Configlist_reset g) := by
  refine ⟨ListInv_reset _ _ _ h, rfl, rfl, le_refl _, ?_, ?_, ?_⟩
  · intro x hx
    simp [Configlist_reset] at hx
  · intro a _
    exact ⟨rfl, rfl, by simp⟩
  · intro c hc
    simp at hc

theorem basis_world {w : Heap.world} {size sp : Nat} {l : List Nat} {cl1 : configlist}
    (hok : WorldOK w)
    (hBI : BasisInv w.lemp size sp (Configlist_reset w.cl) l cl1) :
    WorldOK { w with cl := cl1 } ∧
      Frame w.cl.cfgs.length (fun a => a ∉ l) (fun _ => True) w { w with cl := cl1 } := by
  have hold := hBI.old
  have hheap : w.cl.cfgs.length ≤ cl1.cfgs.length := hBI.heap
  constructor
  · refine ⟨⟨hBI.inv.chain, hBI.inv.count⟩, hok.chain, hok.count, ?_, ?_, ?_⟩
    · intro i node hn
      obtain ⟨n1, n2⟩ := hok.nodes i node hn
      refine ⟨n1, n2.trans ?_⟩
      apply List.map_congr_left
      intro b hb
      exact (keyOf_of_item (hold b ((hok.own _ n1).2 b hb)).1).symm
    · intro p hp
      have := hok.own p hp
      exact ⟨fun a ha => lt_of_lt_of_le (this.1 a ha) hheap,
        fun a ha => lt_of_lt_of_le (this.2 a ha) hheap⟩
    · intro hsmall p hp
      have e : (stateAt w.store.states p).bpa.map (keyOf w.lemp.rule cl1.cfgs) =
          (stateAt w.store.states p).bpa.map (keyOf w.lemp.rule w.cl.cfgs) := by
        apply List.map_congr_left
        intro b hb
        exact keyOf_of_item (hold b ((hok.own p hp).2 b hb)).1
      show ((stateAt w.store.states p).bpa.map (keyOf w.lemp.rule cl1.cfgs)).Nodup
      rw [e]
      exact hok.nodup (lt_of_le_of_lt hheap hsmall) p hp
  · refine ⟨rfl, rfl, hheap, fun a ha => (hold a ha).1, ?_, ?_, le_refl _,
      fun _ _ => ⟨rfl, rfl⟩, fun _ _ _ => rfl⟩
    · intro a ha c hc
      show c ∈ (cfgAt cl1.cfgs a).bplp
      rw [(hold a ha).2.1]
      exact hc
    · intro a ha hp
      apply status_eq_of_iff
      show (cfgAt cl1.cfgs a).status = cfgstatus.COMPLETE ↔ _
      rw [(hold a ha).2.2]
      constructor
      · rintro (k | k)
        · exact k
        · exact absurd k.1 hp
      · intro k
        exact Or.inl k

theorem stateAt_set (states : List state) (s p : Nat) (x : state) :
    stateAt (states.set s x) p = if p = s ∧ s < states.length then x else stateAt states p := by
  by_cases e : p = s
  · subst e
    by_cases hp : p < states.length
    · rw [if_pos ⟨rfl, hp⟩, stateAt_set_eq states p x hp]
    · rw [if_neg (by tauto), List.set_eq_of_length_le (by omega)]
  · rw [if_neg (by tauto), stateAt_set_ne states s p x (Ne.symm e)]

theorem setAp_world (w1 : Heap.world) (s : Nat) (st : state) (ap : List action) (n : Int)
    (hok : WorldOK w1) (hst : w1.store.states[s]? = some st) :
    WorldOK { w1 with
        store := { w1.store with states := w1.store.states.set s { st with ap := ap } }
        nextap := n } ∧
      Frame w1.cl.cfgs.length (fun _ => True) (fun p => p ≠ s) w1 { w1 with
        store := { w1.store with states := w1.store.states.set s { st with ap := ap } }
        nextap := n } := by
  have hs : stateAt w1.store.states s = st := stateAt_of_getElem? hst
  have hshape : ∀ p, (stateAt (w1.store.states.set s { st with ap := ap }) p).cfp =
      (stateAt w1.store.states p).cfp ∧
      (stateAt (w1.store.states.set s { st with ap := ap }) p).bpa =
      (stateAt w1.store.states p).bpa := by
    intro p
    rw [stateAt_set]
    split_ifs with e
    · rw [e.1, hs]
      exact ⟨rfl, rfl⟩
    · exact ⟨rfl, rfl⟩
  constructor
  · refine ⟨hok.tab, hok.chain, hok.count, ?_, ?_, ?_⟩
    · intro i node hn
      obtain ⟨n1, n2⟩ := hok.nodes i node hn
      refine ⟨by simpa using n1, ?_⟩
      show _ = (stateAt (w1.store.states.set s { st with ap := ap }) node.data).bpa.map _
      rw [(hshape _).2]
      exact n2
    · intro p hp
      have hp1 : p < w1.store.states.length := by simpa using hp
      show (∀ a ∈ (stateAt (w1.store.states.set s { st with ap := ap }) p).cfp, _) ∧
        (∀ a ∈ (stateAt (w1.store.states.set s { st with ap := ap }) p).bpa, _)
      rw [(hshape p).1, (hshape p).2]
      exact hok.own p hp1
    · intro hsmall p hp
      have hp1 : p < w1.store.states.length := by simpa using hp
      show ((stateAt (w1.store.states.set s { st with ap := ap }) p).bpa.map _).Nodup
      rw [(hshape p).2]
      exact hok.nodup hsmall p hp1
  · refine ⟨rfl, rfl, le_refl _, fun _ _ => rfl, fun _ _ _ h => h, fun _ _ _ => rfl,
      by simp, fun p _ => hshape p, ?_⟩
    intro p _ hq
    show stateAt (w1.store.states.set s { st with ap := ap }) p = _
    rw [stateAt_set, if_neg (by tauto)]

/-- One turn of the outer loop of `buildshifts` that builds a successor: the
configuration `cfp0` is not used yet and has `sp` after its dot, `cl1` is the basis the
inner loop builds, `getstate` returns `T` and the world `w1`, and `w2` is `w1` with the
`SHIFT` actions added to the state `s`. -/
theorem shiftLoop_step {size : Nat} {gs : Heap.world → Option (Nat × Heap.world)}
    (hgs : GsSpec size gs) {s : Nat} {L done rest : List Nat} {cls : List (Nat × Nat)}
    {w w1 w2 : Heap.world} {cfp0 sp T : Nat} {cl1 : configlist}
    (hL : done ++ cfp0 :: rest = L) (hI : LoopInv s L done cls w)
    (h1 : (cfgAt w.cl.cfgs cfp0).status ≠ cfgstatus.COMPLETE)
    (h2 : (cfgAt w.cl.cfgs cfp0).dot <
      ((ruleAt w.lemp.rule (cfgAt w.cl.cfgs cfp0).rp).rhs.length : Int))
    (ha : afterDot w.lemp.rule (cfgAt w.cl.cfgs cfp0) = some sp)
    (hsb : Heap.shiftBasis w.lemp size sp (cfp0 :: rest) (Configlist_reset w.cl) = some cl1)
    (hg : gs { w with cl := cl1 } = some (T, w1))
    (h2w : WorldOK w1 → WorldOK w2 ∧
      Frame w1.cl.cfgs.length (fun _ => True) (fun p => p ≠ s) w1 w2)
    (hlen2 : w2.store.states.length = w1.store.states.length)
    (hap : (stateAt w2.store.states s).ap.reverse.map (fun a => (a.type, a.sp, a.x)) =
      (stateAt w1.store.states s).ap.reverse.map (fun a => (a.type, a.sp, a.x)) ++
        shiftPairs w1.lemp.symbols sp T) :
    LoopInv s L (done ++ [cfp0]) (cls ++ [(sp, T)]) w2 ∧
      Frame w.cl.cfgs.length (fun a => a ∉ L) (fun p => p ≠ s) w w2 := by
  have hvalid : ∀ c ∈ L, c < w.cl.cfgs.length := by
    intro c hc
    rw [← hI.cfp] at hc
    exact (hI.ok.own s hI.sIn).1 c hc
  have hsub : ∀ c ∈ cfp0 :: rest, c ∈ L := by
    intro c hc
    rw [← hL]
    exact List.mem_append_right _ hc
  have hcases : ∀ c ∈ L, c ∈ done ∨ c ∈ cfp0 :: rest := by
    intro c hc
    rw [← hL] at hc
    exact List.mem_append.mp hc
  have hBI : BasisInv w.lemp size sp (Configlist_reset w.cl) (cfp0 :: rest) cl1 := by
    have := shiftBasis_spec w.lemp size sp (Configlist_reset w.cl) (cfp0 :: rest) [] _ cl1
      (basisInv_start _ _ _ _ hI.ok.tab) (fun c hc => hvalid c (hsub c hc)) hsb
    simpa using this
  obtain ⟨hokA, hFA⟩ := basis_world hI.ok hBI
  have hpost := hgs w.cl.cfgs.length { w with cl := cl1 } T w1 hokA hBI.inv hBI.basis
    (fun a ha => (hBI.src a ha).1) hBI.heap hI.ok.own hg
  obtain ⟨hok2, hF2⟩ := h2w hpost.ok
  have hF1 : Frame w.cl.cfgs.length (fun a => a ∉ L) (fun p => p ≠ s) w w1 :=
    frame_comp (frame_weaken hFA (le_refl _) (fun a ha hm => ha (hsub a hm))
      (fun _ _ => trivial)) hpost.frame (le_refl _) (fun _ _ _ => trivial)
      (fun _ _ _ => trivial)
  have hF : Frame w.cl.cfgs.length (fun a => a ∉ L) (fun p => p ≠ s) w w2 :=
    frame_comp hF1 hF2 hF1.heap (fun _ _ _ => trivial) (fun _ _ h => h)
  refine ⟨?_, hF⟩
  have hit : ∀ c ∈ L, item w2.cl.cfgs c = item w.cl.cfgs c :=
    fun c hc => hF.item c (hvalid c hc)
  have hso : ∀ X, ∀ c ∈ L, (ShiftsOver w2.lemp.rule w2.lemp.symbols w2.cl.cfgs X c ↔
      ShiftsOver w.lemp.rule w.lemp.symbols w.cl.cfgs X c) := by
    intro X c hc
    rw [hF.rule, hF.syms]
    exact shiftsOver_congr (hit c hc)
  have hdot : ∀ c ∈ L, ((cfgAt w2.cl.cfgs c).dot <
      ((ruleAt w2.lemp.rule (cfgAt w2.cl.cfgs c).rp).rhs.length : Int) ↔
      (cfgAt w.cl.cfgs c).dot < ((ruleAt w.lemp.rule (cfgAt w.cl.cfgs c).rp).rhs.length : Int)) := by
    intro c hc
    have := hit c hc
    rw [item_eq_iff] at this
    rw [hF.rule, this.1, this.2]
  -- the status of the configurations of the state after the turn
  have hstat : ∀ c ∈ L, ((cfgAt w2.cl.cfgs c).status = cfgstatus.COMPLETE ↔
      ((cfgAt w.cl.cfgs c).status = cfgstatus.COMPLETE ∨
        (c ∈ cfp0 :: rest ∧ ShiftsOver w.lemp.rule w.lemp.symbols w.cl.cfgs sp c))) := by
    intro c hc
    have hcv := hvalid c hc
    rw [hF2.stat c (lt_of_lt_of_le hcv hF1.heap) trivial, hpost.frame.stat c hcv trivial]
    exact (hBI.old c hcv).2.2
  have hso0 : ShiftsOver w.lemp.rule w.lemp.symbols w.cl.cfgs sp cfp0 :=
    ⟨h2, sp, ha, same_symbol_self _ _⟩
  have hcfp0 : cfp0 ∈ L := hsub cfp0 (by simp)
  -- the new symbol is not the same as an earlier one
  have hnew : ∀ cl ∈ cls, same_symbol w.lemp.symbols cl.1 sp = false := by
    intro cl hcl
    by_contra k
    have k1 : same_symbol w.lemp.symbols cl.1 sp = true := by simpa using k
    apply h1
    exact (hI.marked cfp0 hcfp0).2 ⟨cl, hcl, h2, sp, ha, same_symbol_swap k1⟩
  have hfresh : ∀ c ∈ L, ShiftsOver w.lemp.rule w.lemp.symbols w.cl.cfgs sp c →
      (cfgAt w.cl.cfgs c).status ≠ cfgstatus.COMPLETE := by
    intro c hc k hcomp
    obtain ⟨cl, hcl, -, Y, y1, y2⟩ := (hI.marked c hc).1 hcomp
    obtain ⟨-, Y1, y3, y4⟩ := k
    rw [y1] at y3
    simp only [Option.some.injEq] at y3
    subst y3
    have := hnew cl hcl
    rw [same_symbol_swap (same_symbol_chain (same_symbol_swap y4) y2)] at this
    exact absurd this (by simp)
  have hst1 : stateAt w1.store.states s = stateAt w.store.states s :=
    hpost.frame.keep s hI.sIn trivial
  have hT2 : T < w2.store.states.length := by
    rw [hlen2]
    exact hpost.tgt
  have hcfp2 : (stateAt w2.store.states s).cfp = L := (hF.shape s hI.sIn).1.trans hI.cfp
  have hgcfg : (Configlist_reset w.cl).cfgs = w.cl.cfgs := rfl
  refine ⟨hok2, lt_of_lt_of_le hI.sIn hF.slen, hcfp2, ?_, ?_, ?_, ?_, ?_, ?_⟩
  · rw [hap, hst1, hI.acts, List.flatMap_append, hF.syms, hpost.frame.syms]
    simp
  · rw [hF.syms, List.pairwise_append]
    refine ⟨hI.pw, by simp, ?_⟩
    intro a ha1 b hb1
    simp only [List.mem_singleton] at hb1
    subst hb1
    exact hnew a ha1
  · intro c hc
    rw [hstat c hc, hI.marked c hc]
    constructor
    · rintro (⟨cl, k1, k2⟩ | ⟨-, k⟩)
      · exact ⟨cl, by simp [k1], (hso _ c hc).2 k2⟩
      · exact ⟨(sp, T), by simp, (hso _ c hc).2 k⟩
    · rintro ⟨cl, k1, k2⟩
      have k3 := (hso _ c hc).1 k2
      simp only [List.mem_append, List.mem_singleton] at k1
      rcases k1 with k1 | k1
      · exact Or.inl ⟨cl, k1, k3⟩
      · subst k1
        rcases hcases c hc with m | m
        · rcases hI.seen c m with q | q
          · exact absurd q (hfresh c hc k3)
          · have := k3.1
            omega
        · exact Or.inr ⟨m, k3⟩
  · intro c hc
    simp only [List.mem_append, List.mem_singleton] at hc
    rcases hc with m | m
    · have hcL : c ∈ L := by
        rw [← hL]
        exact List.mem_append_left _ m
      rcases hI.seen c m with q | q
      · exact Or.inl ((hstat c hcL).2 (Or.inl q))
      · right
        have := hdot c hcL
        omega
    · subst m
      exact Or.inl ((hstat c hcfp0).2 (Or.inr ⟨by simp, hso0⟩))
  · intro cl hcl
    simp only [List.mem_append, List.mem_singleton] at hcl
    rcases hcl with m | m
    · exact shiftClass_frame hF (le_refl _) hI.ok.own hI.sIn (hI.classes cl m)
    · subst m
      have hbT : (stateAt w2.store.states T).bpa = (stateAt w1.store.states T).bpa :=
        (hF2.shape T hpost.tgt).2
      have hbv : ∀ b ∈ (stateAt w1.store.states T).bpa, b < w1.cl.cfgs.length :=
        (hpost.ok.own T hpost.tgt).2
      refine ⟨⟨cfp0, by rw [hcfp2]; exact hcfp0, (hdot cfp0 hcfp0).2 h2, ?_⟩, hT2, ?_, ?_⟩
      · rw [hF.rule, afterDot_of_item (hit cfp0 hcfp0)]
        exact ha
      · intro b hb
        rw [hbT] at hb
        obtain ⟨x, x1, x2⟩ := hpost.sound b hb
        obtain ⟨-, c, c1, -, c3, c4⟩ := hBI.src x x1
        have hcL := hsub c c1
        refine ⟨c, by rw [hcfp2]; exact hcL, (hso _ c hcL).2 c3, ?_⟩
        rw [hF.rule, keyOf_of_item (hF2.item b (hbv b hb)), shiftedKey_congr (hit c hcL)]
        exact x2.trans c4
      · intro hsmall c hc k
        rw [hcfp2] at hc
        have k3 := (hso _ c hc).1 k
        have hnc := hfresh c hc k3
        have hm : c ∈ cfp0 :: rest := by
          rcases hcases c hc with m | m
          · rcases hI.seen c m with q | q
            · exact absurd q hnc
            · have := k3.1
              omega
          · exact m
        obtain ⟨x, x1, x2, x3⟩ := hBI.link c hm hnc k3
        have hs1 : w1.cl.cfgs.length < 2 ^ 30 := lt_of_le_of_lt hF2.heap hsmall
        obtain ⟨b, b1, b2, b3⟩ := hpost.complete hs1 x x1
        refine ⟨b, by rw [hbT]; exact b1, ?_, hF2.link b (hbv b b1) c (b3 c x3)⟩
        rw [hF.rule, keyOf_of_item (hF2.item b (hbv b b1)), shiftedKey_congr (hit c hc)]
        exact b2.trans x2
  · intro p hp1 hp2
    have hne : p ≠ s := by omega
    by_cases hlt : p < w.store.states.length
    · exact shiftsOK_frame hF (le_refl _) hI.ok.own hlt hne (hI.others p hp1 hlt)
    · rw [hlen2] at hp2
      exact shiftsOK_frame hF2 (le_refl _) hpost.ok.own hp2 hne
        (hpost.fresh p (by simpa using hlt) hp2)

theorem loopInv_skip {s : Nat} {L done : List Nat} {cls : List (Nat × Nat)} {w : Heap.world}
    (hI : LoopInv s L done cls w) (cfp0 : Nat)
    (h : (cfgAt w.cl.cfgs cfp0).status = cfgstatus.COMPLETE ∨
      (cfgAt w.cl.cfgs cfp0).dot ≥
        ((ruleAt w.lemp.rule (cfgAt w.cl.cfgs cfp0).rp).rhs.length : Int)) :
    LoopInv s L (done ++ [cfp0]) cls w := by
  refine ⟨hI.ok, hI.sIn, hI.cfp, hI.acts, hI.pw, hI.marked, ?_, hI.classes, hI.others⟩
  intro c hc
  simp only [List.mem_append, List.mem_singleton] at hc
  rcases hc with m | m
  · exact hI.seen c m
  · subst m
    exact h

theorem shiftLoop_spec {size : Nat} {gs : Heap.world → Option (Nat × Heap.world)}
    (hgs : GsSpec size gs) (s : Nat) (L : List Nat) (B0 : Nat) (w0 : Heap.world) :
    ∀ (rest done : List Nat) (cls : List (Nat × Nat)) (w w1 : Heap.world),
      done ++ rest = L → LoopInv s L done cls w →
      Frame B0 (fun a => a ∉ L) (fun p => p ≠ s) w0 w → B0 ≤ w.cl.cfgs.length →
      Heap.shiftLoop gs size s rest w = some w1 →
      (∃ cls1, LoopInv s L L cls1 w1) ∧
        Frame B0 (fun a => a ∉ L) (fun p => p ≠ s) w0 w1 := by
  intro rest
  induction rest with
  | nil =>
    intro done cls w w1 hL hI hF _ he
    simp only [Heap.shiftLoop, Option.some.injEq] at he
    subst he
    simp only [List.append_nil] at hL
    subst hL
    exact ⟨⟨cls, hI⟩, hF⟩
  | cons cfp0 rest ih =>
    intro done cls w w1 hL hI hF hB he
    have hL1 : (done ++ [cfp0]) ++ rest = L := by simpa using hL
    simp only [Heap.shiftLoop] at he
    by_cases h1 : (cfgAt w.cl.cfgs cfp0).status = cfgstatus.COMPLETE
    · rw [if_pos h1] at he
      exact ih _ _ _ _ hL1 (loopInv_skip hI cfp0 (Or.inl h1)) hF hB he
    · rw [if_neg h1] at he
      by_cases h2 : (cfgAt w.cl.cfgs cfp0).dot ≥
          ((ruleAt w.lemp.rule (cfgAt w.cl.cfgs cfp0).rp).rhs.length : Int)
      · rw [if_pos h2] at he
        exact ih _ _ _ _ hL1 (loopInv_skip hI cfp0 (Or.inr h2)) hF hB he
      · rw [if_neg h2] at he
        cases ha : afterDot w.lemp.rule (cfgAt w.cl.cfgs cfp0) with
        | none => simp [ha] at he
        | some sp =>
          simp only [ha] at he
          cases hsb : Heap.shiftBasis w.lemp size sp (cfp0 :: rest) (Configlist_reset w.cl) with
          | none => simp [hsb] at he
          | some cl1 =>
            simp only [hsb] at he
            cases hg : gs { w with cl := cl1 } with
            | none => simp [hg] at he
            | some r =>
              obtain ⟨T, wr⟩ := r
              simp only [hg] at he
              cases hst : wr.store.states[s]? with
              | none => simp [hst] at he
              | some st =>
                simp only [hst] at he
                have hsl : s < wr.store.states.length := lt_of_getElem?_some hst
                obtain ⟨k1, k2⟩ := shiftLoop_step hgs hL hI h1 (by omega) ha hsb hg
                  (fun hok => setAp_world wr s st
                    (Heap.addShifts wr.lemp.symbols sp T (st.ap, wr.nextap)).1
                    (Heap.addShifts wr.lemp.symbols sp T (st.ap, wr.nextap)).2 hok hst)
                  (by simp)
                  (by
                    show (stateAt (wr.store.states.set s _) s).ap.reverse.map _ = _
                    rw [stateAt_set_eq _ _ _ hsl, stateAt_of_getElem? hst]
                    exact addShifts_acts _ _ _ _)
                exact ih _ _ _ _ hL1 k1
                  (frame_comp hF k2 hB (fun _ _ h => h) (fun _ _ h => h))
                  (le_trans hB k2.heap) he

theorem stateAt_append_left (l : List state) (x : state) {p : Nat} (h : p < l.length) :
    stateAt (l ++ [x]) p = stateAt l p := by
  simp [stateAt, List.getD, List.getElem?_append_left h]

theorem stateAt_append_self (l : List state) (x : state) :
    stateAt (l ++ [x]) l.length = x := by
  simp [stateAt, List.getD]

theorem map_eq_getElem? {α β : Type} (f : α → β) {l1 l2 : List α}
    (h : l1.map f = l2.map f) {i : Nat} {b : α} (hb : l1[i]? = some b) :
    ∃ x, l2[i]? = some x ∧ f x = f b := by
  have e := congrArg (fun l => l[i]?) h
  simp only [List.getElem?_map, hb, Option.map_some'] at e
  cases hx : l2[i]? with
  | none => simp [hx] at e
  | some x =>
    simp only [hx, Option.map_some', Option.some.injEq] at e
    exact ⟨x, rfl, e.symm⟩

/-- The branch of `getstate` for a basis whose state exists: the links of the new basis
`bp` move to the basis of the state `d`, whose keys are those of `bp`, in order. -/
theorem getstate_found_post {size : Nat} {B : Nat} {w w1 : Heap.world} {bp : List Nat}
    {d : Nat} (hok : WorldOK w) (hLI : ListInv w.lemp.rule size w.cl)
    (hge : ∀ a ∈ w.cl.current, B ≤ a) (hB : B ≤ w.cl.cfgs.length)
    (hown : Owned B w.store.states) (hbm : ∀ x ∈ bp, x ∈ w.cl.current)
    (hbp : w.cl.cfgs.length < 2 ^ 30 → bp.Perm w.cl.current)
    (hd : d < w.store.states.length)
    (hkeys : (stateAt w.store.states d).bpa.map (keyOf w.lemp.rule w.cl.cfgs) =
      bp.map (keyOf w.lemp.rule w.cl.cfgs))
    (h1l : w1.lemp = w.lemp) (h1s : w1.store = w.store) (h1x : w1.cl.x4a = w.cl.x4a)
    (h1c : w1.cl.cfgs = Heap.copyLinks bp (stateAt w.store.states d).bpa w.cl.cfgs) :
    GsPost B w d w1 := by
  obtain ⟨f1, f2⟩ := copyLinks_frame bp (stateAt w.store.states d).bpa w.cl.cfgs
  rw [← h1c] at f1 f2
  have hkey : ∀ a, keyOf w.lemp.rule w1.cl.cfgs a = keyOf w.lemp.rule w.cl.cfgs a :=
    fun a => keyOf_of_item (f2 a).1
  have hbpa : ∀ y ∈ (stateAt w.store.states d).bpa, y < B := (hown d hd).2
  refine ⟨?_, ?_, by rw [h1s]; exact hd, ?_, ?_, ?_⟩
  · refine ⟨by rw [h1l, h1x]; exact hok.tab, by rw [h1l, h1s]; exact hok.chain,
      by rw [h1s]; exact hok.count, ?_, by rw [h1s, f1]; exact hok.own, ?_⟩
    · intro i node hn
      rw [h1s] at hn
      obtain ⟨n1, n2⟩ := hok.nodes i node hn
      rw [h1l, h1s]
      refine ⟨n1, n2.trans ?_⟩
      apply List.map_congr_left
      intro b _
      exact (hkey b).symm
    · intro hsmall p hp
      rw [h1s] at hp
      rw [f1] at hsmall
      have e : (stateAt w.store.states p).bpa.map (keyOf w.lemp.rule w1.cl.cfgs) =
          (stateAt w.store.states p).bpa.map (keyOf w.lemp.rule w.cl.cfgs) :=
        List.map_congr_left (fun b _ => hkey b)
      rw [h1l, h1s, e]
      exact hok.nodup hsmall p hp
  · refine ⟨by rw [h1l], by rw [h1l], by rw [f1], fun a _ => (f2 a).1, ?_,
      fun a _ _ => (f2 a).2.1, by rw [h1s], fun p _ => by rw [h1s]; exact ⟨rfl, rfl⟩,
      fun p _ _ => by rw [h1s]⟩
    intro a ha c hc
    apply (f2 a).2.2 _ c hc
    intro k
    have := hge a (hbm a k)
    omega
  · intro b hb
    rw [h1s] at hb
    obtain ⟨i, hi⟩ := List.getElem?_of_mem hb
    obtain ⟨x, x1, x2⟩ := map_eq_getElem? _ hkeys hi
    exact ⟨x, hbm x (List.getElem?_mem x1), (hkey b).trans x2.symm⟩
  · intro hsmall x hx
    have hs0 : w.cl.cfgs.length < 2 ^ 30 := by
      rw [f1] at hsmall
      exact hsmall
    have hperm := hbp hs0
    have hnd : bp.Nodup := (hperm.nodup_iff).2 (List.Nodup.of_map _ hLI.nodup)
    obtain ⟨i, hi⟩ := List.getElem?_of_mem ((hperm.mem_iff).2 hx)
    obtain ⟨b, b1, b2⟩ := map_eq_getElem? _ hkeys.symm hi
    refine ⟨b, by rw [h1s]; exact List.getElem?_mem b1, (hkey b).trans b2, ?_⟩
    intro c hc
    rw [h1c]
    refine copyLinks_links bp _ w.cl.cfgs hnd ?_ ?_ i x b hi b1 c hc
    · intro x1 hx1 hx2
      have := hge x1 (hbm x1 hx1)
      have := hbpa x1 hx2
      omega
    · intro y hy
      exact lt_of_lt_of_le (hbpa y hy) hB
  · intro p hp1 hp2
    rw [h1s] at hp2
    omega

/-- The branch of `getstate` for a new basis: the state `st` with the sorted closure
`cfp` and the basis `bp` is stored, its configurations are marked unused (`w0`), and the
outer loop of `buildshifts` runs to `w1`. -/
theorem getstate_new_post {size : Nat} {gs : Heap.world → Option (Nat × Heap.world)}
    (hgs : GsSpec size gs) {B : Nat} {w w0 w1 : Heap.world} {bp cfp : List Nat}
    {cl2 : configlist} {st : state}
    (he : Heap.shiftLoop gs size w.store.states.length cfp w0 = some w1)
    (h0t : w0.store.states = w.store.states ++ [st])
    (hok : WorldOK w) (hLI : ListInv w.lemp.rule size w.cl)
    (hge : ∀ a ∈ w.cl.current, B ≤ a) (hB : B ≤ w.cl.cfgs.length)
    (hown : Owned B w.store.states) (hbm : ∀ x ∈ bp, x ∈ w.cl.current)
    (hbp : w.cl.cfgs.length < 2 ^ 30 → bp.Perm w.cl.current)
    (htab2 : TabOK w.lemp.rule cl2.x4a) (hstep : HeapStep w.cl cl2)
    (hcfp : ∀ a ∈ cfp, a ∈ cl2.current)
    (hst1 : st.cfp = cfp) (hst2 : st.bpa = bp) (hst3 : st.ap = [])
    (hst4 : st.bp.map (configKey w.lemp.rule) = bp.map (keyOf w.lemp.rule cl2.cfgs))
    (hchain : ChainOK w.lemp.rule w0.store.x3a.size w0.store.x3a.tbl w0.store.x3a.ht)
    (hcount : w0.store.x3a.tbl.length = w0.store.x3a.count)
    (hent : x3entries w0.store.x3a.tbl =
      x3entries w.store.x3a.tbl ++ [(w.store.states.length, st.bp)])
    (h0r : w0.lemp.rule = w.lemp.rule) (h0s : w0.lemp.symbols = w.lemp.symbols)
    (h0x : w0.cl.x4a = cl2.x4a)
    (h0c : w0.cl.cfgs = cfp.foldl (fun cfgs a => cfgs.set a
      { cfgAt cfgs a with status := cfgstatus.INCOMPLETE }) cl2.cfgs) :
    GsPost B w w.store.states.length w1 := by
  obtain ⟨m1, m2⟩ := markFold_spec cfp cl2.cfgs
  rw [← h0c] at m1 m2
  have hlen0 : w.cl.cfgs.length ≤ w0.cl.cfgs.length := by
    rw [m1]
    exact hstep.heap
  have hcv : ∀ a ∈ w.cl.current, a < w.cl.cfgs.length := hLI.valid
  -- the configurations of the new state
  have hcfpB : ∀ a ∈ cfp, B ≤ a ∧ a < cl2.cfgs.length := by
    intro a ha
    rcases hstep.cur a (hcfp a ha) with k | k
    · exact ⟨hge a k, lt_of_lt_of_le (hcv a k) hstep.heap⟩
    · exact ⟨le_trans hB k.1, k.2⟩
  -- rule, dot, links and status from the world at the call to the world `w0`
  have hitem : ∀ a, a < w.cl.cfgs.length → item w0.cl.cfgs a = item w.cl.cfgs a := by
    intro a ha
    rw [(m2 a).1, item_eq_iff]
    exact ⟨(hstep.same a ha).1, (hstep.same a ha).2.1⟩
  have hlink : ∀ a, a < w.cl.cfgs.length →
      (cfgAt w0.cl.cfgs a).bplp = (cfgAt w.cl.cfgs a).bplp := by
    intro a ha
    rw [(m2 a).2.1]
    exact (hstep.same a ha).2.2.2
  have hst0 : stateAt w0.store.states w.store.states.length = st := by
    rw [h0t]
    exact stateAt_append_self _ _
  have hold : ∀ p, p < w.store.states.length →
      stateAt w0.store.states p = stateAt w.store.states p := by
    intro p hp
    rw [h0t]
    exact stateAt_append_left _ _ hp
  have hFw : Frame B (fun _ => True) (fun _ => True) w w0 := by
    refine ⟨h0r, h0s, hlen0, hitem, ?_, ?_, by rw [h0t]; simp, ?_, fun p hp _ => hold p hp⟩
    · intro a ha c hc
      rw [hlink a (lt_of_lt_of_le ha hB)]
      exact hc
    · intro a ha _
      have hn : a ∉ cfp := by
        intro k
        have := (hcfpB a k).1
        omega
      rw [(m2 a).2.2.1 hn]
      exact (hstep.same a (lt_of_lt_of_le ha hB)).2.2.1
    · intro p hp
      rw [hold p hp]
      exact ⟨rfl, rfl⟩
  have hok0 : WorldOK w0 := by
    refine ⟨by rw [h0r, h0x]; exact htab2, by rw [h0r]; exact hchain, hcount, ?_, ?_, ?_⟩
    rotate_left 2
    · intro hsmall p hp
      have hs0 : w.cl.cfgs.length < 2 ^ 30 := lt_of_le_of_lt hlen0 hsmall
      rw [h0t] at hp
      simp only [List.length_append, List.length_singleton] at hp
      rw [h0r]
      by_cases hlt : p < w.store.states.length
      · have e : (stateAt w.store.states p).bpa.map (keyOf w.lemp.rule w0.cl.cfgs) =
            (stateAt w.store.states p).bpa.map (keyOf w.lemp.rule w.cl.cfgs) := by
          apply List.map_congr_left
          intro b hb
          exact keyOf_of_item (hitem b (lt_of_lt_of_le ((hown p hlt).2 b hb) hB))
        rw [hold p hlt, e]
        exact hok.nodup hs0 p hlt
      · have hp1 : p = w.store.states.length := by omega
        have e : bp.map (keyOf w.lemp.rule w0.cl.cfgs) =
            bp.map (keyOf w.lemp.rule w.cl.cfgs) := by
          apply List.map_congr_left
          intro b hb
          exact keyOf_of_item (hitem b (hcv b (hbm b hb)))
        rw [hp1, hst0, hst2, e]
        exact (((hbp hs0).map _).nodup_iff).2 hLI.nodup
    · intro i node hn
      have e := congrArg (fun l => l[i]?) hent
      simp only [x3entries, List.getElem?_map, hn, Option.map_some'] at e
      rw [h0r]
      by_cases hi : i < w.store.x3a.tbl.length
      · rw [List.getElem?_append_left (by simpa using hi), List.getElem?_map] at e
        cases hn0 : w.store.x3a.tbl[i]? with
        | none => simp [hn0] at e
        | some node0 =>
          simp only [hn0, Option.map_some', Option.some.injEq, Prod.mk.injEq] at e
          obtain ⟨n1, n2⟩ := hok.nodes i node0 hn0
          rw [e.1, e.2, h0t, stateAt_append_left _ _ n1]
          refine ⟨by simp; omega, n2.trans ?_⟩
          apply List.map_congr_left
          intro b hb
          exact (keyOf_of_item (hitem b (lt_of_lt_of_le ((hown _ n1).2 b hb) hB))).symm
      · have hlen : (List.map (fun n => (n.data, n.key)) w.store.x3a.tbl).length ≤ i := by
          simpa using hi
        rw [List.getElem?_append_right hlen] at e
        simp only [List.length_map] at e
        cases hk : i - w.store.x3a.tbl.length with
        | zero =>
          simp only [hk, List.getElem?_cons_zero, Option.some.injEq, Prod.mk.injEq] at e
          rw [e.1, e.2, hst0, hst2, hst4]
          refine ⟨by rw [h0t]; simp, ?_⟩
          apply List.map_congr_left
          intro b _
          exact (keyOf_of_item (m2 b).1).symm
        | succ k => simp [hk] at e
    · intro p hp
      rw [h0t] at hp
      simp only [List.length_append, List.length_singleton] at hp
      by_cases hlt : p < w.store.states.length
      · rw [hold p hlt]
        have := hown p hlt
        exact ⟨fun a ha => by have := this.1 a ha; omega,
          fun a ha => by have := this.2 a ha; omega⟩
      · have hp1 : p = w.store.states.length := by omega
        rw [hp1, hst0, hst1, hst2, m1]
        refine ⟨fun a ha => (hcfpB a ha).2, ?_⟩
        intro a ha
        exact lt_of_lt_of_le (hcv a (hbm a ha)) hstep.heap
  have hI0 : LoopInv w.store.states.length cfp [] [] w0 := by
    refine ⟨hok0, by rw [h0t]; simp, by rw [hst0, hst1], by rw [hst0, hst3]; simp,
      List.Pairwise.nil, ?_, by simp, by simp, ?_⟩
    · intro c hc
      rw [(m2 c).2.2.2 hc (hcfpB c hc).2]
      simp
    · intro p hp1 hp2
      rw [h0t] at hp2
      simp only [List.length_append, List.length_singleton] at hp2
      omega
  obtain ⟨⟨cls, hI1⟩, hF1⟩ := shiftLoop_spec hgs w.store.states.length cfp w0.cl.cfgs.length
    w0 cfp [] [] w0 w1 (by simp) hI0 (frame_rfl _ _ _ _) (le_refl _) he
  have hF : Frame B (fun _ => True) (fun _ => True) w w1 := by
    refine frame_comp hFw hF1 (le_trans hB hlen0) ?_ ?_
    · intro a ha _ k
      have := (hcfpB a k).1
      omega
    · intro p hp _
      omega
  have hbpa1 : (stateAt w1.store.states w.store.states.length).bpa = bp := by
    rw [(hF1.shape _ hI0.sIn).2, hst0, hst2]
  refine ⟨hI1.ok, hF, hI1.sIn, ?_, ?_, ?_⟩
  · intro b hb
    rw [hbpa1] at hb
    exact ⟨b, hbm b hb, keyOf_of_item (hF.item b (hcv b (hbm b hb)))⟩
  · intro hsmall x hx
    have hs0 : w.cl.cfgs.length < 2 ^ 30 := lt_of_le_of_lt hF.heap hsmall
    refine ⟨x, by rw [hbpa1]; exact ((hbp hs0).mem_iff).2 hx,
      keyOf_of_item (hF.item x (hcv x hx)), ?_⟩
    intro c hc
    apply hF1.link x (lt_of_lt_of_le (hcv x hx) hlen0)
    rw [hlink x (hcv x hx)]
    exact hc
  · intro p hp1 hp2
    by_cases hps : p = w.store.states.length
    · subst hps
      refine ⟨cls, hI1.acts, hI1.pw, ?_, hI1.classes⟩
      intro c hc hd
      rw [hI1.cfp] at hc
      rcases hI1.seen c hc with k | k
      · exact (hI1.marked c hc).1 k
      · omega
    · exact hI1.others p (by omega) hp2

theorem sortbasis_eq (rules : List rule) (g : configlist) (h : g.basis = g.current) :
    Heap.Configlist_sortbasis rules g =
      some (msort (fun a b => Configcmp rules (cfgAt g.cfgs a) (cfgAt g.cfgs b)) g.basis,
        { g with
          basis := []
          basisend := false }) := by
  unfold Heap.Configlist_sortbasis
  rw [if_pos (by rw [h])]

theorem getstate_spec (size cfuel : Nat) :
    ∀ fuel, GsSpec size (Heap.getstate size cfuel fuel) := by
  intro fuel
  induction fuel with
  | zero =>
    intro B w stp w1 _ _ _ _ _ _ he
    simp [Heap.getstate] at he
  | succ fuel ih =>
    intro B w stp w1 hok hLI hbasis hge hB hown he
    simp only [Heap.getstate] at he
    rw [sortbasis_eq _ _ hbasis] at he
    simp only at he
    generalize hbpdef : msort (fun a b => Configcmp w.lemp.rule (cfgAt w.cl.cfgs a)
      (cfgAt w.cl.cfgs b)) w.cl.basis = bp at he
    have hbm : ∀ x ∈ bp, x ∈ w.cl.current := by
      intro x hx
      rw [← hbasis]
      rw [← hbpdef] at hx
      exact msort_mem _ _ x hx
    have hbp : w.cl.cfgs.length < 2 ^ 30 → bp.Perm w.cl.current := by
      intro hs
      rw [← hbasis, ← hbpdef]
      apply msort_perm
      rw [hbasis]
      exact lt_of_le_of_lt
        (length_le_of_nodup_lt (List.Nodup.of_map _ hLI.nodup) hLI.valid) hs
    obtain ⟨r, hr, hr1, hr2⟩ := State_find_spec hok.chain hok.count
      (bp.map (cfgAt w.cl.cfgs))
    rw [hr] at he
    cases r with
    | some d =>
      obtain ⟨i, node, n1, n2, n3⟩ := hr1 d rfl
      obtain ⟨k1, k2⟩ := hok.nodes i node n1
      rw [n2] at k1 k2
      have hst : w.store.states[d]? = some (stateAt w.store.states d) := by
        simp [stateAt, List.getD, List.getElem?_eq_getElem k1]
      simp only [hst] at he
      split at he
      · simp at he
      · simp only [Option.some.injEq, Prod.mk.injEq] at he
        obtain ⟨rfl, rfl⟩ := he
        refine getstate_found_post hok hLI hge hB hown hbm hbp k1 ?_ rfl rfl rfl rfl
        rw [← k2, n3]
        simp [keyOf, List.map_map, Function.comp_def]
    | none =>
      have hnew := hr2 rfl
      simp only at he
      cases hcl : Configlist_closure w.lemp size cfuel
          { w.cl with
            basis := []
            basisend := false } w.lemp.errorcnt with
      | none => simp [hcl] at he
      | some q =>
        obtain ⟨cl2, e2⟩ := q
        simp only [hcl] at he
        obtain ⟨t1, t2⟩ := Configlist_closure_step w.lemp size cfuel
          { w.cl with
            basis := []
            basisend := false } w.lemp.errorcnt cl2 e2 hok.tab hcl
        have hstep : HeapStep w.cl cl2 := ⟨t2.heap, t2.same, t2.cur⟩
        have hkeys : (bp.map (cfgAt cl2.cfgs)).map (configKey w.lemp.rule) =
            (bp.map (cfgAt w.cl.cfgs)).map (configKey w.lemp.rule) := by
          simp only [List.map_map]
          apply List.map_congr_left
          intro b hb
          have := hstep.same b (hLI.valid b (hbm b hb))
          simp [configKey, this.1, this.2.1]
        obtain ⟨x1, i1, i2, i3, i4, i5⟩ := State_insert_new hok.chain hok.count
          w.store.states.length (bp.map (cfgAt cl2.cfgs))
          (fun i node hn => by rw [hkeys]; exact hnew i node hn)
        simp only [i1] at he
        split at he
        · simp at he
        · rename_i wr hbs
          simp only [Option.some.injEq, Prod.mk.injEq] at he
          obtain ⟨rfl, rfl⟩ := he
          unfold Heap.buildshifts at hbs
          simp only [List.getElem?_concat_length] at hbs
          refine getstate_new_post ih hbs rfl hok hLI hge hB hown hbm hbp t1 hstep
            (fun a ha => msort_mem _ _ a ha) rfl rfl rfl ?_ i2 i3 i5 rfl rfl rfl rfl
          simp [keyOf, List.map_map, Function.comp_def]

theorem ruleAt_set_lhsStart (rules : List rule) (rp : Nat) (v : Int) (q : Nat) :
    (ruleAt (rules.set rp { ruleAt rules rp with lhsStart := v }) q).index =
      (ruleAt rules q).index ∧
    (ruleAt (rules.set rp { ruleAt rules rp with lhsStart := v }) q).rhs =
      (ruleAt rules q).rhs := by
  by_cases e : rp = q
  · subst e
    by_cases hp : rp < rules.length
    · simp [ruleAt, List.getD, List.getElem?_set_self hp]
    · rw [List.set_eq_of_length_le (by omega)]
      exact ⟨rfl, rfl⟩
  · simp [ruleAt, List.getD, List.getElem?_set_ne e]

/-- The invariant of the configuration list builder reads the rules only through their
indices. -/
theorem ListInv_rules {r1 r2 : List rule} {size : Nat} {g : configlist}
    (hidx : ∀ q, (ruleAt r1 q).index = (ruleAt r2 q).index) (h : ListInv r1 size g) :
    ListInv r2 size g := by
  have hck : configKey r1 = configKey r2 := by
    funext c
    simp [configKey, hidx]
  have hsh : statehash r1 = statehash r2 := by
    funext key
    simp [statehash, hidx]
  have hb : bucketOf r1 = bucketOf r2 := by
    funext size key
    simp [bucketOf, hsh]
  have hbi : bucketIs r1 = bucketIs r2 := by
    funext size tbl x j
    simp [bucketIs, hb]
  have hk : keyOf r1 = keyOf r2 := by
    funext c a
    simp [keyOf, hck]
  obtain ⟨c, h2, h3, h4, h5, h6, h7, h8⟩ := h
  refine ⟨⟨c.size_pos, c.ht_len, ?_, ?_⟩, h2, ?_, ?_, h5, h6, h7, h8⟩
  · rw [← hbi]
    exact c.heads
  · rw [← hbi, ← hb]
    exact c.nexts
  · rw [← hck, ← hk]
    exact h3
  · rw [← hk]
    exact h4

theorem startBasis_spec (size : Nat) : ∀ (l : List Nat) (lemp : lemon) (g : configlist)
    (lemp3 : lemon) (g3 : configlist), ListInv lemp.rule size g → g.basis = g.current →
    g.basisend = true → Heap.startBasis size l (lemp, g) = some (lemp3, g3) →
    ListInv lemp3.rule size g3 ∧ g3.basis = g3.current ∧ lemp3.symbols = lemp.symbols ∧
      ∀ q, (ruleAt lemp3.rule q).rhs = (ruleAt lemp.rule q).rhs := by
  intro l
  induction l with
  | nil =>
    intro lemp g lemp3 g3 h1 h2 _ he
    simp only [Heap.startBasis, Option.some.injEq, Prod.mk.injEq] at he
    obtain ⟨rfl, rfl⟩ := he
    exact ⟨h1, h2, rfl, fun _ => rfl⟩
  | cons rp rest ih =>
    intro lemp g lemp3 g3 h1 h2 h3 he
    simp only [Heap.startBasis] at he
    have hset := ruleAt_set_lhsStart lemp.rule rp 1
    have hI1 : ListInv (lemp.rule.set rp { ruleAt lemp.rule rp with lhsStart := 1 }) size g :=
      ListInv_rules (fun q => ((hset q).1).symm) h1
    cases hadd : Configlist_addbasis
        (lemp.rule.set rp { ruleAt lemp.rule rp with lhsStart := 1 }) size g rp 0 with
    | none => simp [hadd] at he
    | some r =>
      obtain ⟨newcfp, g1⟩ := r
      simp only [hadd] at he
      obtain ⟨i1, i2, -, i4, i5⟩ := Configlist_addbasis_spec _ size g rp 0 hI1 (le_refl 0) _ _ hadd
      cases hsa : SetAdd size (cfgAt g1.cfgs newcfp).fws 0 with
      | none => simp [hsa] at he
      | some r =>
        simp only [hsa] at he
        have hlen : r.2.length = size := by
          have hsa2 := hsa
          unfold SetAdd at hsa2
          split_ifs at hsa2 with hc
          obtain ⟨r1, e1, e2⟩ := SetAdd_total (i1.fws newcfp i2) hc.1 hc.2
          rw [hsa] at e1
          simp only [Option.some.injEq] at e1
          rw [e1]
          exact e2
        have hb1 : g1.basis = g1.current := by
          rcases i5 with rfl | ⟨k1, k2, -, -⟩
          · exact h2
          · rw [k1, k2, h2]
        have hF := cfgAt_setFws g1.cfgs newcfp r.2 (i1.valid newcfp i2)
        have hI2 : ListInv (lemp.rule.set rp { ruleAt lemp.rule rp with lhsStart := 1 }) size
            { g1 with cfgs := g1.cfgs.set newcfp { cfgAt g1.cfgs newcfp with fws := r.2 } } := by
          apply i1.heap _ (by simp)
          intro a ha
          refine ⟨(hF a).2.2, ?_⟩
          rw [(hF a).2.1]
          split_ifs
          · exact hlen
          · exact i1.fws a ha
        obtain ⟨j1, j2, j3, j4⟩ := ih { lemp with
            rule := lemp.rule.set rp { ruleAt lemp.rule rp with lhsStart := 1 } } _ lemp3 g3
          hI2 hb1 (i4.trans h3) he
        exact ⟨j1, j2, j3, fun q => (j4 q).trans (hset q).2⟩

/-- The first call of `getstate`, on an empty array of states. -/
theorem getstate_first (size cfuel fuel : Nat) (w0 : Heap.world) (stp : Nat) (w1 : Heap.world)
    (h1 : ListInv w0.lemp.rule size w0.cl) (h2 : w0.cl.basis = w0.cl.current)
    (h3 : w0.store = storeInit)
    (hg : Heap.getstate size cfuel fuel w0 = some (stp, w1)) :
    (∀ p, p < w1.store.states.length →
      ShiftsOK w1.lemp.rule w1.lemp.symbols w1.cl.cfgs w1.store.states p) ∧
    (w1.cl.cfgs.length < 2 ^ 30 → ∀ p, p < w1.store.states.length →
      ((stateAt w1.store.states p).bpa.map (keyOf w1.lemp.rule w1.cl.cfgs)).Nodup) ∧
    w1.lemp.symbols = w0.lemp.symbols ∧ w1.lemp.rule = w0.lemp.rule := by
  have hok : WorldOK w0 := by
    refine ⟨⟨h1.chain, h1.count⟩, ?_, ?_, ?_, ?_, ?_⟩
    · rw [h3]
      exact chain_empty _ 128 (by omega)
    · rw [h3]
      rfl
    · intro i node hn
      rw [h3] at hn
      simp [storeInit, State_init] at hn
    · intro p hp
      rw [h3] at hp
      simp [storeInit] at hp
    · intro _ p hp
      rw [h3] at hp
      simp [storeInit] at hp
  have hpost := getstate_spec size cfuel fuel 0 w0 stp w1 hok h1 h2
    (fun _ _ => Nat.zero_le _) (Nat.zero_le _)
    (fun p hp => by rw [h3] at hp; simp [storeInit] at hp) hg
  have hz : w0.store.states.length = 0 := by
    rw [h3]
    rfl
  exact ⟨fun p hp => hpost.fresh p (by omega) hp, hpost.ok.nodup, hpost.frame.syms,
    hpost.frame.rule⟩

/-- Every state that `FindStates` leaves has the successors and `SHIFT` actions of
`ShiftsOK`, and no basis holds a key twice when the heap has fewer than `2^30`
configurations; the rules keep their right-hand sides and the symbols are those of the
grammar. -/
theorem FindStates_shifts (size cfuel fuel : Nat) (lemp : lemon) (w : Heap.world)
    (h : Heap.FindStates size cfuel fuel lemp = some w) :
    (∀ p, p < w.store.states.length →
      ShiftsOK w.lemp.rule w.lemp.symbols w.cl.cfgs w.store.states p) ∧
    (w.cl.cfgs.length < 2 ^ 30 → ∀ p, p < w.store.states.length →
      ((stateAt w.store.states p).bpa.map (keyOf w.lemp.rule w.cl.cfgs)).Nodup) ∧
    w.lemp.symbols = lemp.symbols ∧
    ∀ q, (ruleAt w.lemp.rule q).rhs = (ruleAt lemp.rule q).rhs := by
  unfold Heap.FindStates at h
  simp only at h
  cases hs : startSymbol lemp with
  | none => simp [hs] at h
  | some sp =>
    simp only [hs] at h
    split at h
    · simp at h
    · rename_i lemp3 g hsb
      split at h
      · simp at h
      · rename_i stp w1 hg
        simp only [Option.some.injEq] at h
        subst h
        obtain ⟨s1, s2, s3, s4⟩ := startBasis_spec size _ _ _ lemp3 g
          (ListInv_init _ size []) rfl rfl hsb
        obtain ⟨k1, k2, k3, k4⟩ := getstate_first size cfuel fuel _ stp w1 s1 s2 rfl hg
        refine ⟨k1, k2, ?_, ?_⟩
        · show w1.lemp.symbols = lemp.symbols
          rw [k3]
          show lemp3.symbols = lemp.symbols
          rw [s3]
          split_ifs <;> rfl
        · intro q
          show (ruleAt w1.lemp.rule q).rhs = _
          rw [k4]
          show (ruleAt lemp3.rule q).rhs = _
          rw [s4 q]
          split_ifs <;> rfl

theorem tame_rfl (a : action) : Tame a a := ⟨rfl, id, id⟩

theorem tame_comp {a b c : action} (h1 : Tame a b) (h2 : Tame b c) : Tame a c :=
  ⟨h2.1.trans h1.1, fun h => h1.2.1 (h2.2.1 h), fun h => h1.2.2 (h2.2.2 h)⟩

theorem noShiftPair_tame {a b a1 b1 : action} (h : NoShiftPair a b) (ha : Tame a a1)
    (hb : Tame b b1) : NoShiftPair a1 b1 := by
  rintro ⟨k1, k2, k3⟩
  exact h ⟨ha.2.1 k1, hb.2.1 k2, by rw [← ha.1, ← hb.1]; exact k3⟩

theorem resolveRest_tame {syms : List symbol} {rules : List rule} {apx apy ax ay : action}
    {e0 e : Int} (h : resolveRest syms rules apx apy e0 = some (ax, ay, e)) :
    Tame apx ax ∧ Tame apy ay := by
  have hy : ∀ t, t ≠ e_action.SHIFT → t ≠ e_action.SSCONFLICT →
      Tame apx apx ∧ Tame apy { apy with type := t } :=
    fun t h1 h2 => ⟨tame_rfl _, rfl, fun k => absurd k h1, fun k => absurd k h2⟩
  have hx : ∀ t, t ≠ e_action.SHIFT → t ≠ e_action.SSCONFLICT →
      Tame apx { apx with type := t } ∧ Tame apy apy :=
    fun t h1 h2 => ⟨⟨rfl, fun k => absurd k h1, fun k => absurd k h2⟩, tame_rfl _⟩
  unfold resolveRest at h
  by_cases hsr : apx.type = e_action.SHIFT ∧ apy.type = e_action.REDUCE
  · rw [if_pos hsr] at h
    simp only at h
    cases hp : (ruleAt rules apy.x).precsym with
    | none =>
      simp only [hp, Option.some.injEq, Prod.mk.injEq] at h
      obtain ⟨rfl, rfl, -⟩ := h
      exact hy _ (by simp) (by simp)
    | some py =>
      simp only [hp] at h
      split_ifs at h
      all_goals simp only [Option.some.injEq, Prod.mk.injEq] at h
      all_goals obtain ⟨rfl, rfl, -⟩ := h
      all_goals first
        | exact hy _ (by simp) (by simp)
        | exact hx _ (by simp) (by simp)
  · rw [if_neg hsr] at h
    by_cases hrr : apx.type = e_action.REDUCE ∧ apy.type = e_action.REDUCE
    · rw [if_pos hrr] at h
      cases hpx : (ruleAt rules apx.x).precsym with
      | none =>
        simp only [hpx, Option.some.injEq, Prod.mk.injEq] at h
        obtain ⟨rfl, rfl, -⟩ := h
        exact hy _ (by simp) (by simp)
      | some px =>
        cases hpy : (ruleAt rules apy.x).precsym with
        | none =>
          simp only [hpx, hpy, Option.some.injEq, Prod.mk.injEq] at h
          obtain ⟨rfl, rfl, -⟩ := h
          exact hy _ (by simp) (by simp)
        | some py =>
          simp only [hpx, hpy] at h
          split_ifs at h
          all_goals simp only [Option.some.injEq, Prod.mk.injEq] at h
          all_goals obtain ⟨rfl, rfl, -⟩ := h
          all_goals first
            | exact ⟨tame_rfl _, tame_rfl _⟩
            | exact hy _ (by simp) (by simp)
            | exact hx _ (by simp) (by simp)
    · rw [if_neg hrr] at h
      split_ifs at h with h3
      simp only [Option.some.injEq, Prod.mk.injEq] at h
      obtain ⟨rfl, rfl, -⟩ := h
      exact ⟨tame_rfl _, tame_rfl _⟩

theorem resolve_conflict_tame {syms : List symbol} {rules : List rule}
    {apx apy ax ay : action} {e : Int} (hn : NoShiftPair apx apy)
    (h : resolve_conflict syms rules apx apy = some (ax, ay, e)) :
    Tame apx ax ∧ Tame apy ay := by
  unfold resolve_conflict at h
  split_ifs at h with hsp
  have hss : resolveShiftShift apx apy = (apy, 0) := by
    unfold resolveShiftShift
    rw [if_neg]
    rintro ⟨k1, k2⟩
    exact hn ⟨k1, k2, hsp⟩
  rw [hss] at h
  exact resolveRest_tame h

theorem resolveWith_tame {syms : List symbol} {rules : List rule} (rest : List action)
    (ap ap2 : action) (rest2 : List action) (e : Int)
    (hn : ∀ y ∈ rest, NoShiftPair ap y)
    (h : resolveWith syms rules ap rest = some (ap2, rest2, e)) :
    Tame ap ap2 ∧ List.Forall₂ Tame rest rest2 := by
  induction rest generalizing ap ap2 rest2 e with
  | nil =>
    simp only [resolveWith, Option.some.injEq, Prod.mk.injEq] at h
    obtain ⟨rfl, rfl, -⟩ := h
    exact ⟨tame_rfl _, List.Forall₂.nil⟩
  | cons nap rest ih =>
    unfold resolveWith at h
    by_cases hsp : nap.sp = ap.sp
    · rw [if_pos hsp] at h
      cases hr : resolve_conflict syms rules ap nap with
      | none => simp [hr] at h
      | some r =>
        obtain ⟨ap1, nap1, e1⟩ := r
        simp only [hr] at h
        obtain ⟨w1, w2⟩ := resolve_conflict_tame (hn nap (by simp)) hr
        cases hw : resolveWith syms rules ap1 rest with
        | none => simp [hw] at h
        | some r2 =>
          obtain ⟨ap3, rest3, e3⟩ := r2
          simp only [hw, Option.some.injEq, Prod.mk.injEq] at h
          obtain ⟨rfl, rfl, -⟩ := h
          obtain ⟨w3, f3⟩ := ih ap1 ap3 rest3 e3
            (fun y hy => noShiftPair_tame (hn y (by simp [hy])) w1 (tame_rfl _)) hw
          exact ⟨tame_comp w1 w3, List.Forall₂.cons w2 f3⟩
    · rw [if_neg hsp] at h
      simp only [Option.some.injEq, Prod.mk.injEq] at h
      obtain ⟨rfl, rfl, -⟩ := h
      exact ⟨tame_rfl _, List.forall₂_same.2 (fun _ _ => tame_rfl _)⟩

theorem forall₂_tame_mem {l l1 : List action} (h : List.Forall₂ Tame l l1) {y : action}
    (hy : y ∈ l1) : ∃ x ∈ l, Tame x y := by
  induction h with
  | nil => simp at hy
  | cons hab _ ih =>
    rcases List.mem_cons.1 hy with rfl | hy
    · exact ⟨_, by simp, hab⟩
    · obtain ⟨x, hx, hxy⟩ := ih hy
      exact ⟨x, by simp [hx], hxy⟩

theorem forall₂_tame_pairwise {l l1 : List action} (h : List.Forall₂ Tame l l1)
    (hp : l.Pairwise NoShiftPair) : l1.Pairwise NoShiftPair := by
  induction h with
  | nil => exact List.Pairwise.nil
  | cons hab hrest ih =>
    rw [List.pairwise_cons] at hp ⊢
    refine ⟨?_, ih hp.2⟩
    intro y hy
    obtain ⟨x, hx, hxy⟩ := forall₂_tame_mem hrest hy
    exact noShiftPair_tame (hp.1 x hx) hab hxy

theorem resolveAll_tame {syms : List symbol} {rules : List rule} (n : Nat) (l out : List action)
    (e : Int) (hp : l.Pairwise NoShiftPair)
    (h : resolveAll syms rules n l = some (out, e)) : List.Forall₂ Tame l out := by
  induction n generalizing l out e with
  | zero =>
    simp only [resolveAll, Option.some.injEq, Prod.mk.injEq] at h
    obtain ⟨rfl, -⟩ := h
    exact List.forall₂_same.2 (fun _ _ => tame_rfl _)
  | succ n ih =>
    cases l with
    | nil =>
      simp only [resolveAll, Option.some.injEq, Prod.mk.injEq] at h
      obtain ⟨rfl, -⟩ := h
      exact List.Forall₂.nil
    | cons ap rest =>
      simp only [resolveAll] at h
      rw [List.pairwise_cons] at hp
      cases hw : resolveWith syms rules ap rest with
      | none => simp [hw] at h
      | some r =>
        obtain ⟨ap1, rest1, e1⟩ := r
        simp only [hw] at h
        obtain ⟨w1, f1⟩ := resolveWith_tame rest ap ap1 rest1 e1 hp.1 hw
        cases ha : resolveAll syms rules n rest1 with
        | none => simp [ha] at h
        | some r2 =>
          obtain ⟨out2, e2⟩ := r2
          simp only [ha, Option.some.injEq, Prod.mk.injEq] at h
          obtain ⟨rfl, -⟩ := h
          have f2 := ih rest1 out2 e2 (forall₂_tame_pairwise f1 hp.2) ha
          refine List.Forall₂.cons w1 ?_
          exact List.forall₂_iff_get.2 ⟨(f1.length_eq).trans f2.length_eq, fun i h1 h2 =>
            tame_comp (List.forall₂_iff_get.1 f1 |>.2 i h1 (by rw [← f1.length_eq]; exact h1))
              (List.forall₂_iff_get.1 f2 |>.2 i (by rw [← f1.length_eq]; exact h1) h2)⟩

theorem msortCarry_subperm {α : Type} (cmp : α → α → Int) (n : Nat) (set : List (List α))
    (ep : List α) : (msortCarry cmp ep n set).flatten.Subperm (ep ++ set.flatten) := by
  induction n generalizing set ep with
  | zero =>
    cases set with
    | nil => simp [msortCarry]
    | cons b rest =>
      simp only [msortCarry, List.flatten_cons]
      exact (List.subperm_append_left ep).2 (List.sublist_append_right b _).subperm
  | succ n ih =>
    cases set with
    | nil => simp [msortCarry]
    | cons b rest =>
      cases b with
      | nil =>
        simp only [msortCarry, List.flatten_cons, List.nil_append]
        exact List.Subperm.refl _
      | cons y s =>
        simp only [msortCarry, List.flatten_cons, List.nil_append]
        refine (ih rest _).trans ?_
        rw [← List.append_assoc]
        exact (List.subperm_append_right _).2 (merge_perm cmp ep (y :: s)).subperm

theorem msortFill_subperm {α : Type} (cmp : α → α → Int) (list : List α)
    (set : List (List α)) :
    (msortFill cmp list set).flatten.Subperm (list ++ set.flatten) := by
  induction list generalizing set with
  | nil => simp [msortFill, List.Subperm.refl]
  | cons e rest ih =>
    simp only [msortFill]
    refine (ih _).trans ?_
    refine ((List.subperm_append_left rest).2 (msortCarry_subperm cmp 29 set [e])).trans ?_
    refine List.Perm.subperm ?_
    rw [← List.append_assoc]
    exact (List.perm_append_singleton e rest).append_right _

/-- The list `msort` returns is a permutation of a part of its argument: elements can be
lost, none is made up or doubled. -/
theorem msort_subperm {α : Type} (cmp : α → α → Int) (list : List α) :
    (msort cmp list).Subperm list := by
  unfold msort
  refine (foldl_merge_perm cmp _ []).subperm.trans ?_
  rw [List.append_nil]
  refine (msortFill_subperm cmp list _).trans ?_
  rw [flatten_replicate_nil, List.append_nil]

theorem noShiftPair_symm {a b : action} (h : NoShiftPair a b) : NoShiftPair b a := by
  rintro ⟨k1, k2, k3⟩
  exact h ⟨k2, k1, k3.symm⟩

theorem shiftsApart_subperm {l l1 : List action} (h : l1.Subperm l) (ha : ShiftsApart l) :
    ShiftsApart l1 := by
  have hsubset := h.subset
  obtain ⟨l2, hperm, hsub⟩ := h
  refine ⟨?_, fun a hm => ha.2 a (hsubset hm)⟩
  exact (List.Perm.pairwise_iff (fun {x y} => noShiftPair_symm) hperm).1
    (List.Pairwise.sublist hsub ha.1)

theorem shiftsApart_append {added ap : List action}
    (h1 : ∀ a ∈ added, a.type ≠ e_action.SHIFT ∧ a.type ≠ e_action.SSCONFLICT)
    (h2 : ShiftsApart ap) : ShiftsApart (added ++ ap) := by
  refine ⟨?_, ?_⟩
  · rw [List.pairwise_append]
    refine ⟨?_, h2.1, ?_⟩
    · apply List.Pairwise.imp_of_mem (fun {a b} ha _ _ => ?_) (List.pairwise_of_forall
        (fun _ _ => trivial) : added.Pairwise (fun _ _ => True))
      rintro ⟨k, -, -⟩
      exact (h1 a ha).1 k
    · intro a ha b _
      rintro ⟨k, -, -⟩
      exact (h1 a ha).1 k
  · intro a ha
    rcases List.mem_append.1 ha with m | m
    · exact (h1 a m).2
    · exact h2.2 a m

theorem resolveState_apart {syms : List symbol} {rules : List rule} {code : e_action → Int}
    {ap out : List action} {n : Int} (ha : ShiftsApart ap)
    (h : resolveState syms rules code ap = some (out, n)) : ShiftsApart out := by
  unfold resolveState at h
  have hs : ShiftsApart (Action_sort syms rules code ap) :=
    shiftsApart_subperm (msort_subperm _ _) ha
  have hf := resolveAll_tame _ _ out n hs.1 h
  refine ⟨forall₂_tame_pairwise hf hs.1, ?_⟩
  intro b hb k
  obtain ⟨a, a1, a2⟩ := forall₂_tame_mem hf hb
  exact hs.2 a a1 (a2.2.2 k)

theorem resolveStates_apart (lemp : lemon) (code : e_action → Int) :
    ∀ (ps : List Nat) (st st1 : List state × Int),
      (∀ p, ShiftsApart (stateAt st.1 p).ap) →
      resolveStates lemp code ps st = some st1 → ∀ p, ShiftsApart (stateAt st1.1 p).ap := by
  intro ps
  induction ps with
  | nil =>
    intro st st1 ha h
    simp only [resolveStates, Option.some.injEq] at h
    subst h
    exact ha
  | cons p rest ih =>
    intro st st1 ha h
    simp only [resolveStates] at h
    cases hp : st.1[p]? with
    | none => simp [hp] at h
    | some stp =>
      simp only [hp] at h
      cases hr : resolveState lemp.symbols lemp.rule code stp.ap with
      | none => simp [hr] at h
      | some r =>
        obtain ⟨ap1, n⟩ := r
        simp only [hr] at h
        have hstp : ShiftsApart stp.ap := by
          rw [← stateAt_of_getElem? hp]
          exact ha p
        refine ih _ st1 ?_ h
        intro q
        simp only [stateAt_set]
        split_ifs
        · exact resolveState_apart hstp hr
        · exact ha q

theorem findReduces_apart (lemp : lemon) (cfgs : List config) :
    ∀ (ps : List Nat) (st st1 : List state × Int),
      (∀ p, ShiftsApart (stateAt st.1 p).ap) →
      findReduces lemp cfgs ps st = some st1 → ∀ p, ShiftsApart (stateAt st1.1 p).ap := by
  intro ps
  induction ps with
  | nil =>
    intro st st1 ha h
    simp only [findReduces, Option.some.injEq] at h
    subst h
    exact ha
  | cons p rest ih =>
    intro st st1 ha h
    simp only [findReduces] at h
    cases hp : st.1[p]? with
    | none => simp [hp] at h
    | some stp =>
      simp only [hp] at h
      cases hr : reduceState lemp cfgs stp.cfp (stp.ap, st.2) with
      | none => simp [hr] at h
      | some app =>
        simp only [hr] at h
        obtain ⟨added, a1, a2, -⟩ := reduceState_spec lemp cfgs stp.cfp _ app hr
        have hstp : ShiftsApart stp.ap := by
          rw [← stateAt_of_getElem? hp]
          exact ha p
        refine ih _ st1 ?_ h
        intro q
        simp only [stateAt_set]
        split_ifs
        · simp only [a1]
          exact shiftsApart_append (fun a hm => by simp [(a2 a hm).1]) hstp
        · exact ha q

/-- `FindActions` on states none of which has two `SHIFT`s on one lookahead or an action
tagged `SSCONFLICT`: no action is tagged `SSCONFLICT` afterwards, that is, no call of
`resolve_conflict` takes the Shift/Shift branch. -/
theorem FindActions_apart (lemp : lemon) (code : e_action → Int) (cfgs : List config)
    (st : List state × Int) (r : lemon × List state × Int)
    (ha : ∀ p, ShiftsApart (stateAt st.1 p).ap)
    (h : FindActions lemp code cfgs st = some r) :
    ∀ p, ShiftsApart (stateAt r.2.1 p).ap := by
  unfold FindActions at h
  cases hps : sortedStates lemp with
  | none => simp [hps] at h
  | some ps =>
    simp only [hps] at h
    cases hf : findReduces lemp cfgs ps st with
    | none => simp [hf] at h
    | some st1 =>
      simp only [hf] at h
      have h1 := findReduces_apart lemp cfgs ps st st1 ha hf
      split at h
      · rename_i sp p0 hsp hp0
        cases hs0 : st1.1[p0]? with
        | none => simp [hs0] at h
        | some stp0 =>
          simp only [hs0] at h
          split at h
          · simp at h
          · rename_i st2 hrs
            split at h
            · simp at h
            · simp only [Option.some.injEq] at h
              subst h
              refine resolveStates_apart lemp code ps _ st2 ?_ hrs
              intro q
              simp only [stateAt_set]
              split_ifs
              · have hstp : ShiftsApart stp0.ap := by
                  rw [← stateAt_of_getElem? hs0]
                  exact h1 p0
                have hacc : ∀ a ∈ [({ sp := sp, type := e_action.ACCEPT, x := 0, spOpt := none, addr := st1.2 } : action)],
                    a.type ≠ e_action.SHIFT ∧ a.type ≠ e_action.SSCONFLICT := by
                  intro a hm
                  simp only [List.mem_singleton] at hm
                  subst hm
                  simp
                have := shiftsApart_append hacc hstp
                simpa [Action_add] using this
              · exact h1 q
      · simp at h

theorem flatMap_single {α β : Type} (g : α → β) (l : List α) :
    l.flatMap (fun x => [g x]) = l.map g := by
  induction l with
  | nil => rfl
  | cons x rest ih => simp [List.flatMap_cons, ih]

theorem mem_afterDots {rules : List rule} {cfgs : List config} {states : List state}
    {p X : Nat} : X ∈ afterDots rules cfgs states p ↔
      ∃ c ∈ (stateAt states p).cfp,
        (cfgAt cfgs c).dot < ((ruleAt rules (cfgAt cfgs c).rp).rhs.length : Int) ∧
        afterDot rules (cfgAt cfgs c) = some X := by
  unfold afterDots
  rw [List.mem_filterMap]
  constructor
  · rintro ⟨c, hc, h⟩
    split_ifs at h with hd
    exact ⟨c, hc, hd, h⟩
  · rintro ⟨c, hc, hd, h⟩
    exact ⟨c, hc, by rw [if_pos hd]; exact h⟩

theorem shiftLookaheads_congr {syms : List symbol} {a b : Nat}
    (h : same_symbol syms a b = true) : shiftLookaheads syms a = shiftLookaheads syms b := by
  rw [same_symbol_iff] at h
  rcases h with h | ⟨h1, h2, h3⟩
  · rw [h]
  · unfold shiftLookaheads
    rw [if_pos h1, if_pos h2, h3]

theorem shiftPairs_lookaheads (syms : List symbol) (sp T : Nat) :
    (shiftPairs syms sp T).map (fun t => t.2.1) = shiftLookaheads syms sp := by
  unfold shiftPairs shiftLookaheads
  split_ifs
  · simp [List.map_map, Function.comp_def]
  · rfl

theorem shiftPairs_type (syms : List symbol) (sp T : Nat) :
    ∀ t ∈ shiftPairs syms sp T, t.1 = e_action.SHIFT := by
  intro t ht
  unfold shiftPairs at ht
  split_ifs at ht
  · obtain ⟨q, -, rfl⟩ := List.mem_map.1 ht
    rfl
  · rw [List.mem_singleton] at ht
    rw [ht]

/-- A state that `buildshifts` has left holds only `SHIFT` actions, and their lookaheads
are pairwise different exactly when the symbols after its dots keep their lookaheads
apart. -/
theorem shiftsOK_nodup {rules : List rule} {syms : List symbol} {cfgs : List config}
    {states : List state} {p : Nat} (h : ShiftsOK rules syms cfgs states p) :
    (∀ a ∈ (stateAt states p).ap, a.type = e_action.SHIFT) ∧
    (((stateAt states p).ap.map (fun a => a.sp)).Nodup ↔
      LookaheadsApart rules syms cfgs states p) := by
  obtain ⟨cls, c1, c2, c3, c4⟩ := h
  constructor
  · intro a ha
    have hm : (a.type, a.sp, a.x) ∈
        (stateAt states p).ap.reverse.map (fun a => (a.type, a.sp, a.x)) :=
      List.mem_map.2 ⟨a, List.mem_reverse.2 ha, rfl⟩
    rw [c1, List.mem_flatMap] at hm
    obtain ⟨cl, -, hcl⟩ := hm
    exact shiftPairs_type syms cl.1 cl.2 _ hcl
  · have e : ((stateAt states p).ap.map (fun a => a.sp)).reverse =
        cls.flatMap (fun cl => shiftLookaheads syms cl.1) := by
      have := congrArg (List.map (fun t : e_action × Nat × Nat => t.2.1)) c1
      rw [List.map_map, List.map_flatMap] at this
      rw [← List.map_reverse]
      rw [show (fun a : action => a.sp) =
        (fun t : e_action × Nat × Nat => t.2.1) ∘ (fun a => (a.type, a.sp, a.x)) from rfl,
        this]
      exact List.flatMap_congr (fun cl _ => shiftPairs_lookaheads syms cl.1 cl.2)
    rw [← List.nodup_reverse, e, List.nodup_flatMap]
    constructor
    · rintro ⟨n1, n2⟩ X hX
      obtain ⟨c, hc, hd, ha⟩ := mem_afterDots.1 hX
      obtain ⟨cl, hcl, -, bsp, hb, hsame⟩ := c3 c hc hd
      rw [ha] at hb
      injection hb with hb
      subst hb
      refine ⟨by rw [shiftLookaheads_congr hsame]; exact n1 cl hcl, ?_⟩
      intro Y hY hXY l hl hl2
      obtain ⟨c', hc', hd', ha'⟩ := mem_afterDots.1 hY
      obtain ⟨cl', hcl', -, bsp', hb', hsame'⟩ := c3 c' hc' hd'
      rw [ha'] at hb'
      injection hb' with hb'
      subst hb'
      have hne : cl ≠ cl' := by
        intro e
        subst e
        have := same_symbol_chain hsame (same_symbol_swap hsame')
        rw [this] at hXY
        cases hXY
      rw [shiftLookaheads_congr hsame] at hl
      rw [shiftLookaheads_congr hsame'] at hl2
      have hd := n2.forall (fun a b (hab : List.Disjoint _ _) => hab.symm) hcl hcl' hne
      exact hd hl hl2
    · intro hA
      constructor
      · intro cl hcl
        obtain ⟨c, hc, hd, ha⟩ := (c4 cl hcl).rep
        exact (hA cl.1 (mem_afterDots.2 ⟨c, hc, hd, ha⟩)).1
      · refine c2.imp_of_mem ?_
        intro a b ha hb hab
        obtain ⟨c, hc, hd, hca⟩ := (c4 a ha).rep
        obtain ⟨c', hc', hd', hcb⟩ := (c4 b hb).rep
        intro l hl hl2
        exact (hA a.1 (mem_afterDots.2 ⟨c, hc, hd, hca⟩)).2 b.1
          (mem_afterDots.2 ⟨c', hc', hd', hcb⟩) hab l hl hl2

/-- C35, amended: in every state that `FindStates` leaves, all actions are `SHIFT`s, and
their lookaheads are pairwise different if and only if the symbols after the dots of the
state keep their lookaheads apart (`LookaheadsApart`): none is a multiterminal with a
repeated sub-symbol, and two that are not `same_symbol` share no lookahead.  When every
state is such, `FindActions`, run on these states with any grammar data, action codes,
follow sets and action address, tags no action `SSCONFLICT`, that is, no call of
`resolve_conflict` takes the Shift/Shift branch.  Every state is such when no
multiterminal stands on a right-hand side. -/
theorem buildshifts_shifts_distinct (size cfuel fuel : Nat) (lemp : lemon) (w : Heap.world)
    (h : Heap.FindStates size cfuel fuel lemp = some w) :
    (∀ p, p < w.store.states.length →
      (∀ a ∈ (stateAt w.store.states p).ap, a.type = e_action.SHIFT) ∧
      (((stateAt w.store.states p).ap.map (fun a => a.sp)).Nodup ↔
        LookaheadsApart w.lemp.rule w.lemp.symbols w.cl.cfgs w.store.states p)) ∧
    ((∀ p, p < w.store.states.length →
        LookaheadsApart w.lemp.rule w.lemp.symbols w.cl.cfgs w.store.states p) →
      ∀ (lemp2 : lemon) (code : e_action → Int) (cfgs : List config) (n : Int)
        (r : lemon × List state × Int),
        FindActions lemp2 code cfgs (w.store.states, n) = some r →
        ∀ p, ∀ a ∈ (stateAt r.2.1 p).ap, a.type ≠ e_action.SSCONFLICT) ∧
    ((∀ rp ∈ lemp.rule, ∀ x ∈ rp.rhs,
        (symAt lemp.symbols x).type ≠ symbol_type.MULTITERMINAL) →
      ∀ p, p < w.store.states.length →
        LookaheadsApart w.lemp.rule w.lemp.symbols w.cl.cfgs w.store.states p) := by
  obtain ⟨h1, -, h3, h4⟩ := FindStates_shifts size cfuel fuel lemp w h
  refine ⟨fun p hp => shiftsOK_nodup (h1 p hp), ?_, ?_⟩
  · intro hA lemp2 code cfgs n r hr p
    refine (FindActions_apart lemp2 code cfgs (w.store.states, n) r ?_ hr p).2
    intro q
    by_cases hq : q < w.store.states.length
    · obtain ⟨q1, q2⟩ := shiftsOK_nodup (h1 q hq)
      have q3 := q2.2 (hA q hq)
      refine ⟨?_, fun a ha => by rw [q1 a ha]; simp⟩
      unfold List.Nodup at q3
      rw [List.pairwise_map] at q3
      refine q3.imp ?_
      intro a b hab
      rintro ⟨-, -, k⟩
      exact hab k
    · have : (stateAt w.store.states q).ap = [] := by
        simp [stateAt, List.getD, List.getElem?_eq_none (Nat.le_of_not_lt hq)]
      show ShiftsApart (stateAt w.store.states q).ap
      rw [this]
      exact ⟨List.Pairwise.nil, by simp⟩
  · intro hmt p _
    have hone : ∀ X ∈ afterDots w.lemp.rule w.cl.cfgs w.store.states p,
        shiftLookaheads w.lemp.symbols X = [X] := by
      intro X hX
      obtain ⟨c, -, -, k⟩ := mem_afterDots.1 hX
      have hx : X ∈ (ruleAt w.lemp.rule (cfgAt w.cl.cfgs c).rp).rhs := by
        unfold afterDot at k
        split_ifs at k
        exact List.getElem?_mem k
      rw [h4] at hx
      have := hmt _ (ruleAt_mem_of_rhs hx) _ hx
      unfold shiftLookaheads
      rw [h3, if_neg this]
    intro X hX
    rw [hone X hX]
    refine ⟨List.nodup_singleton X, ?_⟩
    intro Y hY hXY l hl hl2
    rw [hone Y hY] at hl2
    rw [List.mem_singleton] at hl hl2
    rw [← hl, hl2, same_symbol_self] at hXY
    cases hXY

set_option maxRecDepth 1000000 in
/-- C35, witness: the grammar `%token_class number INTEGER|FLOAT.  s ::= expr.
expr ::= number.`, where the shift on the multiterminal `number` gives state 0 the two
`SHIFT`s on `INTEGER` and `FLOAT`, and every state keeps its lookaheads apart. -/
theorem buildshifts_shifts_distinct_witness :
    Heap.FindStates 5 30 30 classFirst = some classWorld ∧
    (stateAt classWorld.store.states 0).ap.map (fun a => (a.type, a.sp)) =
      [(e_action.SHIFT, 2), (e_action.SHIFT, 1), (e_action.SHIFT, 4)] ∧
    (∀ p, p < classWorld.store.states.length →
      LookaheadsApart classWorld.lemp.rule classWorld.lemp.symbols classWorld.cl.cfgs
        classWorld.store.states p) ∧
    (∀ p, p < classWorld.store.states.length →
      (∀ a ∈ (stateAt classWorld.store.states p).ap, a.type = e_action.SHIFT) ∧
      (((stateAt classWorld.store.states p).ap.map (fun a => a.sp)).Nodup ↔
        LookaheadsApart classWorld.lemp.rule classWorld.lemp.symbols classWorld.cl.cfgs
          classWorld.store.states p)) ∧
    ((∀ p, p < classWorld.store.states.length →
        LookaheadsApart classWorld.lemp.rule classWorld.lemp.symbols classWorld.cl.cfgs
          classWorld.store.states p) →
      ∀ (lemp2 : lemon) (code : e_action → Int) (cfgs : List config) (n : Int)
        (r : lemon × List state × Int),
        FindActions lemp2 code cfgs (classWorld.store.states, n) = some r →
        ∀ p, ∀ a ∈ (stateAt r.2.1 p).ap, a.type ≠ e_action.SSCONFLICT) ∧
    ((∀ rp ∈ classFirst.rule, ∀ x ∈ rp.rhs,
        (symAt classFirst.symbols x).type ≠ symbol_type.MULTITERMINAL) →
      ∀ p, p < classWorld.store.states.length →
        LookaheadsApart classWorld.lemp.rule classWorld.lemp.symbols classWorld.cl.cfgs
          classWorld.store.states p) :=
  ⟨by decide, by decide, by decide,
    buildshifts_shifts_distinct 5 30 30 classFirst classWorld (by decide)⟩


theorem foldr_max_le (l : List Nat) : ∀ x ∈ l, x ≤ l.foldr max 0 := by
  induction l with
  | nil => simp
  | cons a rest ih =>
    intro x hx
    simp only [List.foldr_cons]
    rcases List.mem_cons.1 hx with rfl | hx
    · exact le_max_left _ _
    · exact le_trans (ih x hx) (le_max_right _ _)

theorem rhs_le_maxRhs (rules : List rule) (p : Nat) :
    (ruleAt rules p).rhs.length ≤ maxRhs rules := by
  cases hp : rules[p]? with
  | none => simp [ruleAt, List.getD, hp]
  | some r =>
    have : ruleAt rules p = r := by simp [ruleAt, List.getD, hp]
    rw [this]
    exact foldr_max_le _ _ (List.mem_map.2 ⟨r, List.getElem?_mem hp, rfl⟩)

theorem key_mem_keyList (rules : List rule) (rp : Nat) (dot : Int) (h0 : 0 ≤ dot)
    (h1 : dot ≤ (maxRhs rules : Int)) : ((ruleAt rules rp).index, dot) ∈ keyList rules := by
  unfold keyList
  rw [List.mem_flatMap]
  refine ⟨_, ruleAt_index_mem rules rp, ?_⟩
  rw [List.mem_map]
  refine ⟨dot.toNat, ?_, ?_⟩
  · rw [List.mem_range]
    omega
  · have : ((dot.toNat : Nat) : Int) = dot := Int.toNat_of_nonneg h0
    rw [this]

theorem length_flatMap_const {α β : Type} (f : α → List β) (n : Nat)
    (h : ∀ a, (f a).length = n) (l : List α) : (l.flatMap f).length = l.length * n := by
  induction l with
  | nil => simp
  | cons a rest ih =>
    rw [List.flatMap_cons, List.length_append, ih, h a, List.length_cons]
    ring

theorem keyList_length (rules : List rule) : (keyList rules).length = keyCount rules := by
  unfold keyList keyCount
  rw [length_flatMap_const _ (maxRhs rules + 1) (by intro a; simp)]
  simp

theorem nodup_keys_length (rules : List rule) (l : List (Int × Int)) (hn : l.Nodup)
    (hs : ∀ k ∈ l, k ∈ keyList rules) : l.length ≤ keyCount rules := by
  rw [← keyList_length]
  exact (List.subperm_of_subset hn hs).length_le

theorem mem_stateBound_list (rules : List rule) (l : List (Int × Int)) (hn : l.Nodup)
    (hs : ∀ k ∈ l, k ∈ keyList rules) :
    l ∈ (keyList rules).sublists.flatMap List.permutations := by
  obtain ⟨l1, hp, hsub⟩ := List.subperm_of_subset hn hs
  rw [List.mem_flatMap]
  exact ⟨l1, (List.mem_sublists).2 hsub, (List.mem_permutations).2 hp.symm⟩

theorem afterDot_some (rules : List rule) (c : config) (h0 : 0 ≤ c.dot)
    (h1 : c.dot < ((ruleAt rules c.rp).rhs.length : Int)) :
    ∃ sp, afterDot rules c = some sp := by
  unfold afterDot
  rw [if_pos h0]
  have : c.dot.toNat < (ruleAt rules c.rp).rhs.length := by omega
  exact ⟨_, List.getElem?_eq_getElem this⟩

theorem states_le_bound {w : Heap.world} (hok : WorldOK w) (hfit : WorldFit w) :
    w.store.states.length ≤ stateBound w.lemp.rule := by
  have hkey : ∀ p, p < w.store.states.length → ∃ np, w.store.x3a.tbl[p]? = some np ∧
      np.key.map (configKey w.lemp.rule) =
        (stateAt w.store.states p).bpa.map (keyOf w.lemp.rule w.cl.cfgs) := by
    intro p hp
    have hp2 : p < w.store.x3a.tbl.length := by rw [hfit.full]; exact hp
    refine ⟨w.store.x3a.tbl[p], List.getElem?_eq_getElem hp2, ?_⟩
    have h1 := hok.nodes p _ (List.getElem?_eq_getElem hp2)
    have h2 := hfit.data p _ (List.getElem?_eq_getElem hp2)
    rw [h2] at h1
    exact h1.2
  have hnd : ((List.range w.store.states.length).map
      (fun p => (stateAt w.store.states p).bpa.map (keyOf w.lemp.rule w.cl.cfgs))).Nodup := by
    refine List.Nodup.map_on ?_ (List.nodup_range _)
    intro p hp q hq e
    rw [List.mem_range] at hp hq
    by_contra hne
    obtain ⟨np, n1, n2⟩ := hkey p hp
    obtain ⟨nq, m1, m2⟩ := hkey q hq
    exact hfit.distinct p q np nq n1 m1 hne (by rw [n2, m2]; exact e)
  have hsub : ∀ l ∈ (List.range w.store.states.length).map
      (fun p => (stateAt w.store.states p).bpa.map (keyOf w.lemp.rule w.cl.cfgs)),
      l ∈ (keyList w.lemp.rule).sublists.flatMap List.permutations := by
    intro l hl
    obtain ⟨p, hp, rfl⟩ := List.mem_map.1 hl
    rw [List.mem_range] at hp
    refine mem_stateBound_list _ _ (hfit.nodup p hp) ?_
    intro k hk
    obtain ⟨b, hb, rfl⟩ := List.mem_map.1 hk
    obtain ⟨d0, d1⟩ := hfit.dots p hp b hb
    exact key_mem_keyList _ _ _ d0 d1
  have := (List.subperm_of_subset hnd hsub).length_le
  simpa [stateBound] using this

theorem worldFit_frame {B : Nat} {P Q : Nat → Prop} {w w1 : Heap.world}
    (hF : Frame B P Q w w1) (hfit : WorldFit w)
    (hown : Owned w.cl.cfgs.length w.store.states)
    (hx : w1.store.x3a = w.store.x3a)
    (hlen : w1.store.states.length = w.store.states.length) : WorldFit w1 := by
  have hkeys : ∀ p, p < w.store.states.length →
      (stateAt w1.store.states p).bpa = (stateAt w.store.states p).bpa ∧
      ∀ b ∈ (stateAt w.store.states p).bpa, item w1.cl.cfgs b = item w.cl.cfgs b := by
    intro p hp
    refine ⟨(hF.shape p hp).2, ?_⟩
    intro b hb
    exact hF.item b ((hown p hp).2 b hb)
  constructor
  · rw [hx, hlen]
    exact hfit.full
  · rw [hx]
    exact hfit.data
  · rw [hx, hF.rule]
    exact hfit.distinct
  · intro p hp b hb
    rw [hlen] at hp
    obtain ⟨e1, e2⟩ := hkeys p hp
    rw [e1] at hb
    have := e2 b hb
    simp only [item, Prod.mk.injEq] at this
    rw [this.2, hF.rule]
    exact hfit.dots p hp b hb
  · intro p hp
    rw [hlen] at hp
    obtain ⟨e1, e2⟩ := hkeys p hp
    rw [e1, hF.rule]
    have : (stateAt w.store.states p).bpa.map (keyOf w.lemp.rule w1.cl.cfgs) =
        (stateAt w.store.states p).bpa.map (keyOf w.lemp.rule w.cl.cfgs) := by
      apply List.map_congr_left
      intro b hb
      exact keyOf_of_item (e2 b hb)
    rw [this]
    exact hfit.nodup p hp

theorem current_le_keyCount {rules : List rule} {size : Nat} {g : configlist}
    (h : ListInv rules size g)
    (hd : ∀ a ∈ g.current, (cfgAt g.cfgs a).dot ≤ (maxRhs rules : Int)) :
    g.current.length ≤ keyCount rules := by
  have := nodup_keys_length rules _ h.nodup (by
    intro k hk
    obtain ⟨a, ha, rfl⟩ := List.mem_map.1 hk
    exact key_mem_keyList _ _ _ (h.dots a ha) (hd a ha))
  simpa using this

theorem copyLinks_length : ∀ (xs ys : List Nat) (cfgs : List config),
    (Heap.copyLinks xs ys cfgs).length = cfgs.length :=
  fun xs ys cfgs => (copyLinks_frame xs ys cfgs).1

theorem copyLinks_keep_clear : ∀ (xs ys : List Nat) (cfgs : List config) (a : Nat),
    a ∉ ys → (cfgAt cfgs a).fplp = [] ∧ (cfgAt cfgs a).bplp = [] →
    (cfgAt (Heap.copyLinks xs ys cfgs) a).fplp = [] ∧
      (cfgAt (Heap.copyLinks xs ys cfgs) a).bplp = [] := by
  intro xs
  induction xs with
  | nil =>
    intro ys cfgs a _ h
    simpa [Heap.copyLinks] using h
  | cons x xs ih =>
    intro ys cfgs a ha h
    cases ys with
    | nil => simpa [Heap.copyLinks] using h
    | cons y ys =>
      rw [copyLinks_cons]
      apply ih
      · intro k
        exact ha (List.mem_cons_of_mem _ k)
      · have hay : a ≠ y := by
          intro e
          exact ha (by rw [e]; exact List.mem_cons_self _ _)
        unfold copyStep
        by_cases hax : a = x
        · subst hax
          by_cases hl : a < (cfgs.set y { cfgAt cfgs y with
              bplp := Plink_copy (cfgAt cfgs y).bplp (cfgAt cfgs a).bplp }).length
          · rw [cfgAt_set_self _ _ hl]
            exact ⟨rfl, rfl⟩
          · rw [List.set_eq_of_length_le (by omega), cfgAt_set_ne _ _ (Ne.symm hay)]
            exact h
        · rw [cfgAt_set_ne _ _ (Ne.symm hax), cfgAt_set_ne _ _ (Ne.symm hay)]
          exact h

theorem copyLinks_clear : ∀ (xs ys : List Nat) (cfgs : List config),
    xs.length ≤ ys.length → (∀ x ∈ xs, x ∉ ys) → (∀ x ∈ xs, x < cfgs.length) →
    ∀ x ∈ xs, (cfgAt (Heap.copyLinks xs ys cfgs) x).fplp = [] ∧
      (cfgAt (Heap.copyLinks xs ys cfgs) x).bplp = [] := by
  intro xs
  induction xs with
  | nil => simp
  | cons x xs ih =>
    intro ys cfgs hlen hdis hval a ha
    cases ys with
    | nil => simp at hlen
    | cons y ys =>
      rw [copyLinks_cons]
      have hl1 : (copyStep cfgs x y).length = cfgs.length := by
        unfold copyStep
        simp
      have hxc : (cfgAt (copyStep cfgs x y) x).fplp = [] ∧
          (cfgAt (copyStep cfgs x y) x).bplp = [] := by
        unfold copyStep
        rw [cfgAt_set_self _ _ (by
          simp only [List.length_set]
          exact hval x (List.mem_cons_self _ _))]
        exact ⟨rfl, rfl⟩
      by_cases hin : a ∈ xs
      · exact ih ys _ (by simpa using hlen)
          (fun z hz k => hdis z (List.mem_cons_of_mem _ hz) (List.mem_cons_of_mem _ k))
          (fun z hz => by rw [hl1]; exact hval z (List.mem_cons_of_mem _ hz)) a hin
      · have hax : a = x := by
          rcases List.mem_cons.1 ha with e | e
          · exact e
          · exact absurd e hin
        subst hax
        apply copyLinks_keep_clear
        · intro k
          exact hdis a (List.mem_cons_self _ _) (List.mem_cons_of_mem _ k)
        · exact hxc

theorem shiftBasis_total (lemp : lemon) (size sp : Nat) (g0 : configlist) :
    ∀ (l done : List Nat) (g : configlist), BasisInv lemp size sp g0 done g →
      (∀ c ∈ l, c < g0.cfgs.length) → (∀ c ∈ l, 0 ≤ (cfgAt g0.cfgs c).dot) →
      ∃ g1, Heap.shiftBasis lemp size sp l g = some g1 := by
  intro l
  induction l with
  | nil =>
    intro done g _ _ _
    exact ⟨g, rfl⟩
  | cons bcfp rest ih =>
    intro done g hI hl hd
    have hb : bcfp < g0.cfgs.length := hl bcfp (by simp)
    have hrest : ∀ c ∈ rest, c < g0.cfgs.length := fun c hc => hl c (by simp [hc])
    have hdrest : ∀ c ∈ rest, 0 ≤ (cfgAt g0.cfgs c).dot := fun c hc => hd c (by simp [hc])
    have hitem := (hI.old bcfp hb).1
    have hdot0 : 0 ≤ (cfgAt g.cfgs bcfp).dot := by
      have := hd bcfp (by simp)
      simp only [item, Prod.mk.injEq] at hitem
      rw [hitem.2]
      exact this
    simp only [Heap.shiftBasis]
    by_cases h1 : (cfgAt g.cfgs bcfp).status = cfgstatus.COMPLETE
    · rw [if_pos h1]
      exact ih _ _ (basisInv_skip hI bcfp hb (Or.inl h1)) hrest hdrest
    · rw [if_neg h1]
      by_cases h2 : (cfgAt g.cfgs bcfp).dot ≥
          ((ruleAt lemp.rule (cfgAt g.cfgs bcfp).rp).rhs.length : Int)
      · rw [if_pos h2]
        refine ih _ _ (basisInv_skip hI bcfp hb (Or.inr ?_)) hrest hdrest
        intro k
        have := ((shiftsOver_congr hitem).2 k).1
        omega
      · rw [if_neg h2]
        obtain ⟨bsp, ha⟩ := afterDot_some lemp.rule (cfgAt g.cfgs bcfp) hdot0 (by omega)
        simp only [ha]
        by_cases h3 : same_symbol lemp.symbols bsp sp = false
        · rw [if_pos h3]
          refine ih _ _ (basisInv_skip hI bcfp hb (Or.inr ?_)) hrest hdrest
          intro k
          obtain ⟨-, b2, k1, k2⟩ := (shiftsOver_congr hitem).2 k
          rw [ha] at k1
          simp only [Option.some.injEq] at k1
          subst k1
          rw [h3] at k2
          exact absurd k2 (by simp)
        · rw [if_neg h3]
          have hA := cfgAt_setStatus g.cfgs bcfp cfgstatus.COMPLETE
          have hiA : ListInv lemp.rule size { g with cfgs := g.cfgs.set bcfp { cfgAt g.cfgs bcfp with status := cfgstatus.COMPLETE } } := by
            apply hI.inv.heap _ (by simp)
            intro a ha
            refine ⟨(hA a).1, ?_⟩
            rw [(hA a).2.2.1]
            exact hI.inv.fws a ha
          obtain ⟨newcfg, g2, hadd, -, -⟩ := Configlist_addbasis_inv lemp.rule size _
            (cfgAt g.cfgs bcfp).rp ((cfgAt g.cfgs bcfp).dot + 1) hiA hI.bend (by omega)
          simp only [hadd]
          have hso : ShiftsOver lemp.rule lemp.symbols g.cfgs sp bcfp :=
            ⟨by omega, bsp, ha, by simpa using h3⟩
          exact ih _ _ (basisInv_take hI bcfp hb h1 hso newcfg g2 hadd) hrest hdrest

theorem shiftLoop_total {size cfuel fuel : Nat} {gs : Heap.world → Option (Nat × Heap.world)}
    (hgs : GsSpec size gs) (htot : GsTot size cfuel fuel gs) (s : Nat) (L : List Nat) :
    ∀ (rest done : List Nat) (cls : List (Nat × Nat)) (w : Heap.world),
      done ++ rest = L → LoopInv s L done cls w → WorldFit w → FollowOK size w.lemp →
      keyCount w.lemp.rule < 2 ^ 30 → keyCount w.lemp.rule + w.lemp.rule.length + 1 < cfuel →
      (∀ c ∈ L, 0 ≤ (cfgAt w.cl.cfgs c).dot) →
      stateBound w.lemp.rule - w.store.states.length < fuel →
      ∃ w1, Heap.shiftLoop gs size s rest w = some w1 ∧ WorldFit w1 ∧
        FollowOK size w1.lemp := by
  intro rest
  induction rest with
  | nil =>
    intro done cls w _ _ hfit hfol _ _ _ _
    exact ⟨w, rfl, hfit, hfol⟩
  | cons cfp0 rest ih =>
    intro done cls w hL hI hfit hfol hsmall hen hdots hm
    have hL1 : (done ++ [cfp0]) ++ rest = L := by simpa using hL
    have hcfp0 : cfp0 ∈ L := by
      rw [← hL]
      simp
    have hLv : ∀ c ∈ L, c < w.cl.cfgs.length := by
      intro c hc
      have := (hI.ok.own s hI.sIn).1 c
      rw [hI.cfp] at this
      exact this hc
    simp only [Heap.shiftLoop]
    by_cases h1 : (cfgAt w.cl.cfgs cfp0).status = cfgstatus.COMPLETE
    · rw [if_pos h1]
      exact ih _ _ _ hL1 (loopInv_skip hI cfp0 (Or.inl h1)) hfit hfol hsmall hen hdots hm
    · rw [if_neg h1]
      by_cases h2 : (cfgAt w.cl.cfgs cfp0).dot ≥
          ((ruleAt w.lemp.rule (cfgAt w.cl.cfgs cfp0).rp).rhs.length : Int)
      · rw [if_pos h2]
        exact ih _ _ _ hL1 (loopInv_skip hI cfp0 (Or.inr h2)) hfit hfol hsmall hen hdots hm
      · rw [if_neg h2]
        obtain ⟨sp, ha⟩ := afterDot_some w.lemp.rule (cfgAt w.cl.cfgs cfp0)
          (hdots cfp0 hcfp0) (by omega)
        simp only [ha]
        have hsubL : ∀ c ∈ cfp0 :: rest, c ∈ L := by
          intro c hc
          rw [← hL]
          exact List.mem_append_right _ hc
        have hI0 := basisInv_start w.lemp size sp w.cl hI.ok.tab
        obtain ⟨cl1, hsb⟩ := shiftBasis_total w.lemp size sp (Configlist_reset w.cl)
          (cfp0 :: rest) [] _ hI0 (fun c hc => hLv c (hsubL c hc))
          (fun c hc => hdots c (hsubL c hc))
        have hBI := shiftBasis_spec w.lemp size sp (Configlist_reset w.cl) (cfp0 :: rest) []
          _ cl1 hI0 (fun c hc => hLv c (hsubL c hc)) hsb
        simp only [hsb]
        obtain ⟨hokB, hFB⟩ := basis_world hI.ok hBI
        have hpre : GsPre size cfuel w.cl.cfgs.length { w with cl := cl1 } := by
          refine ⟨hokB, worldFit_frame hFB hfit hI.ok.own rfl rfl, hBI.inv, hBI.basis,
            fun a ha => (hBI.src a ha).1, hBI.heap, hI.ok.own, ?_, hfol, hsmall, hen⟩
          intro a ha
          obtain ⟨-, c, -, -, c3, c4⟩ := hBI.src a ha
          have hle := rhs_le_maxRhs w.lemp.rule (cfgAt (Configlist_reset w.cl).cfgs c).rp
          have hlt := c3.1
          simp only [keyOf, configKey, shiftedKey, Prod.mk.injEq] at c4
          show (cfgAt cl1.cfgs a).dot ≤ (maxRhs w.lemp.rule : Int)
          have hd := c4.2
          have : ((ruleAt w.lemp.rule (cfgAt (Configlist_reset w.cl).cfgs c).rp).rhs.length : Int)
              ≤ (maxRhs w.lemp.rule : Int) := by exact_mod_cast hle
          omega
        obtain ⟨T, wr, hg, hfitr, hfolr⟩ := htot _ _ hpre hm
        simp only [hg]
        have hpost := hgs _ _ T wr hpre.ok hpre.inv hpre.basis hpre.ge hpre.heap hpre.own hg
        have hsl : s < wr.store.states.length := lt_of_lt_of_le hI.sIn hpost.frame.slen
        have hst : wr.store.states[s]? = some wr.store.states[s] :=
          List.getElem?_eq_getElem hsl
        simp only [hst]
        obtain ⟨hok2, hF2⟩ := setAp_world wr s wr.store.states[s]
          (Heap.addShifts wr.lemp.symbols sp T (wr.store.states[s].ap, wr.nextap)).1
          (Heap.addShifts wr.lemp.symbols sp T (wr.store.states[s].ap, wr.nextap)).2
          hpost.ok hst
        obtain ⟨k1, k2⟩ := shiftLoop_step hgs hL hI h1 (by omega) ha hsb hg
          (fun hok => setAp_world wr s wr.store.states[s]
            (Heap.addShifts wr.lemp.symbols sp T (wr.store.states[s].ap, wr.nextap)).1
            (Heap.addShifts wr.lemp.symbols sp T (wr.store.states[s].ap, wr.nextap)).2 hok hst)
          (by simp)
          (by
            show (stateAt (wr.store.states.set s _) s).ap.reverse.map _ = _
            rw [stateAt_set_eq _ _ _ hsl, stateAt_of_getElem? hst]
            exact addShifts_acts _ _ _ _)
        have hfit2 := worldFit_frame hF2 hfitr hpost.ok.own rfl (by simp)
        refine ih _ _ _ hL1 k1 hfit2 hfolr ?_ ?_ ?_ ?_
        · rw [k2.rule]
          exact hsmall
        · rw [k2.rule]
          exact hen
        · intro c hc
          have := k2.item c (hLv c hc)
          simp only [item, Prod.mk.injEq] at this
          rw [this.2]
          exact hdots c hc
        · rw [k2.rule]
          have h5 := k2.slen
          exact lt_of_le_of_lt (Nat.sub_le_sub_left h5 _) hm

theorem followOK_congr {size : Nat} {l1 l2 : lemon} (hr : l2.rule = l1.rule)
    (hs : l2.symbols = l1.symbols) (h : FollowOK size l1) : FollowOK size l2 := by
  unfold FollowOK at h ⊢
  rw [hr, hs]
  exact h

theorem entries_old_or_new {tbl0 tbl : List x3node} {d : Nat} {k : List config}
    (hent : x3entries tbl0 = x3entries tbl ++ [(d, k)]) (i : Nat) (node : x3node)
    (hn : tbl0[i]? = some node) :
    (i < tbl.length ∧ ∃ node0, tbl[i]? = some node0 ∧ node0.data = node.data ∧
      node0.key = node.key) ∨
    (i = tbl.length ∧ node.data = d ∧ node.key = k) := by
  have e := x3entries_of_getElem? hn
  rw [hent] at e
  by_cases hi : i < tbl.length
  · left
    rw [List.getElem?_append_left (by simpa [x3entries] using hi)] at e
    obtain ⟨n, n1, n2, n3⟩ := x3entries_getElem? e
    exact ⟨hi, n, n1, n2, n3⟩
  · right
    have hlen : (x3entries tbl).length ≤ i := by simpa [x3entries] using hi
    rw [List.getElem?_append_right hlen] at e
    have hl2 : (x3entries tbl).length = tbl.length := by simp [x3entries]
    rw [hl2] at e
    cases hk : i - tbl.length with
    | zero =>
      simp only [hk, List.getElem?_cons_zero, Option.some.injEq, Prod.mk.injEq] at e
      exact ⟨by omega, e.1.symm, e.2.symm⟩
    | succ k => simp [hk] at e

theorem worldFit_new {B : Nat} {w w0 : Heap.world} {bp : List Nat} {st : state}
    (hF : Frame B (fun _ => True) (fun _ => True) w w0) (hok : WorldOK w) (hfit : WorldFit w)
    (h0t : w0.store.states = w.store.states ++ [st]) (hst2 : st.bpa = bp)
    (hent : x3entries w0.store.x3a.tbl =
      x3entries w.store.x3a.tbl ++ [(w.store.states.length, st.bp)])
    (hnew : ∀ (i : Nat) (node : x3node), w.store.x3a.tbl[i]? = some node →
      node.key.map (configKey w.lemp.rule) ≠ st.bp.map (configKey w.lemp.rule))
    (hbd : ∀ b ∈ bp, 0 ≤ (cfgAt w0.cl.cfgs b).dot ∧
      (cfgAt w0.cl.cfgs b).dot ≤ (maxRhs w.lemp.rule : Int))
    (hbn : (bp.map (keyOf w.lemp.rule w0.cl.cfgs)).Nodup) : WorldFit w0 := by
  have hlen : w0.store.x3a.tbl.length = w.store.x3a.tbl.length + 1 := by
    have := congrArg List.length hent
    simpa [x3entries] using this
  have hold : ∀ p, p < w.store.states.length →
      stateAt w0.store.states p = stateAt w.store.states p := by
    intro p hp
    rw [h0t]
    exact stateAt_append_left _ _ hp
  have hst0 : stateAt w0.store.states w.store.states.length = st := by
    rw [h0t]
    exact stateAt_append_self _ _
  have hitem : ∀ p, p < w.store.states.length → ∀ b ∈ (stateAt w.store.states p).bpa,
      item w0.cl.cfgs b = item w.cl.cfgs b := by
    intro p hp b hb
    exact hF.item b ((hok.own p hp).2 b hb)
  constructor
  · rw [hlen, h0t, hfit.full]
    simp
  · intro i node hn
    rcases entries_old_or_new hent i node hn with ⟨-, node0, n1, n2, -⟩ | ⟨e1, e2, -⟩
    · rw [← n2]
      exact hfit.data i node0 n1
    · rw [e1, e2, hfit.full]
  · intro i j ni nj hi hj hne
    rw [hF.rule]
    rcases entries_old_or_new hent i ni hi with ⟨-, a0, a1, -, a3⟩ | ⟨a1, -, a3⟩
    · rcases entries_old_or_new hent j nj hj with ⟨-, b0, b1, -, b3⟩ | ⟨b1, -, b3⟩
      · rw [← a3, ← b3]
        exact hfit.distinct i j a0 b0 a1 b1 hne
      · rw [← a3, b3]
        exact hnew i a0 a1
    · rcases entries_old_or_new hent j nj hj with ⟨-, b0, b1, -, b3⟩ | ⟨b1, -, b3⟩
      · rw [a3, ← b3]
        exact fun e => hnew j b0 b1 e.symm
      · omega
  · intro p hp b hb
    rw [h0t] at hp
    simp only [List.length_append, List.length_singleton] at hp
    rw [hF.rule]
    by_cases hlt : p < w.store.states.length
    · rw [hold p hlt] at hb
      have := hitem p hlt b hb
      simp only [item, Prod.mk.injEq] at this
      rw [this.2]
      exact hfit.dots p hlt b hb
    · have hp1 : p = w.store.states.length := by omega
      rw [hp1, hst0, hst2] at hb
      exact hbd b hb
  · intro p hp
    rw [h0t] at hp
    simp only [List.length_append, List.length_singleton] at hp
    rw [hF.rule]
    by_cases hlt : p < w.store.states.length
    · rw [hold p hlt]
      have : (stateAt w.store.states p).bpa.map (keyOf w.lemp.rule w0.cl.cfgs) =
          (stateAt w.store.states p).bpa.map (keyOf w.lemp.rule w.cl.cfgs) := by
        apply List.map_congr_left
        intro b hb
        exact keyOf_of_item (hitem p hlt b hb)
      rw [this]
      exact hfit.nodup p hlt
    · have hp1 : p = w.store.states.length := by omega
      rw [hp1, hst0, hst2]
      exact hbn

theorem newstate_init {size : Nat} {B : Nat} {w w0 : Heap.world} {bp cfp : List Nat}
    {cl2 : configlist} {st : state}
    (h0t : w0.store.states = w.store.states ++ [st])
    (hok : WorldOK w) (hLI : ListInv w.lemp.rule size w.cl)
    (hge : ∀ a ∈ w.cl.current, B ≤ a) (hB : B ≤ w.cl.cfgs.length)
    (hown : Owned B w.store.states) (hbm : ∀ x ∈ bp, x ∈ w.cl.current)
    (hbp : w.cl.cfgs.length < 2 ^ 30 → bp.Perm w.cl.current)
    (htab2 : TabOK w.lemp.rule cl2.x4a) (hstep : HeapStep w.cl cl2)
    (hcfp : ∀ a ∈ cfp, a ∈ cl2.current)
    (hst1 : st.cfp = cfp) (hst2 : st.bpa = bp) (hst3 : st.ap = [])
    (hst4 : st.bp.map (configKey w.lemp.rule) = bp.map (keyOf w.lemp.rule cl2.cfgs))
    (hchain : ChainOK w.lemp.rule w0.store.x3a.size w0.store.x3a.tbl w0.store.x3a.ht)
    (hcount : w0.store.x3a.tbl.length = w0.store.x3a.count)
    (hent : x3entries w0.store.x3a.tbl =
      x3entries w.store.x3a.tbl ++ [(w.store.states.length, st.bp)])
    (h0r : w0.lemp.rule = w.lemp.rule) (h0s : w0.lemp.symbols = w.lemp.symbols)
    (h0x : w0.cl.x4a = cl2.x4a)
    (h0c : w0.cl.cfgs = cfp.foldl (fun cfgs a => cfgs.set a
      { cfgAt cfgs a with status := cfgstatus.INCOMPLETE }) cl2.cfgs) :
    Frame B (fun _ => True) (fun _ => True) w w0 ∧ WorldOK w0 ∧
      LoopInv w.store.states.length cfp [] [] w0 ∧
      (∀ a ∈ cfp, B ≤ a ∧ a < cl2.cfgs.length) := by
  obtain ⟨m1, m2⟩ := markFold_spec cfp cl2.cfgs
  rw [← h0c] at m1 m2
  have hlen0 : w.cl.cfgs.length ≤ w0.cl.cfgs.length := by
    rw [m1]
    exact hstep.heap
  have hcv : ∀ a ∈ w.cl.current, a < w.cl.cfgs.length := hLI.valid
  -- the configurations of the new state
  have hcfpB : ∀ a ∈ cfp, B ≤ a ∧ a < cl2.cfgs.length := by
    intro a ha
    rcases hstep.cur a (hcfp a ha) with k | k
    · exact ⟨hge a k, lt_of_lt_of_le (hcv a k) hstep.heap⟩
    · exact ⟨le_trans hB k.1, k.2⟩
  -- rule, dot, links and status from the world at the call to the world `w0`
  have hitem : ∀ a, a < w.cl.cfgs.length → item w0.cl.cfgs a = item w.cl.cfgs a := by
    intro a ha
    rw [(m2 a).1, item_eq_iff]
    exact ⟨(hstep.same a ha).1, (hstep.same a ha).2.1⟩
  have hlink : ∀ a, a < w.cl.cfgs.length →
      (cfgAt w0.cl.cfgs a).bplp = (cfgAt w.cl.cfgs a).bplp := by
    intro a ha
    rw [(m2 a).2.1]
    exact (hstep.same a ha).2.2.2
  have hst0 : stateAt w0.store.states w.store.states.length = st := by
    rw [h0t]
    exact stateAt_append_self _ _
  have hold : ∀ p, p < w.store.states.length →
      stateAt w0.store.states p = stateAt w.store.states p := by
    intro p hp
    rw [h0t]
    exact stateAt_append_left _ _ hp
  have hFw : Frame B (fun _ => True) (fun _ => True) w w0 := by
    refine ⟨h0r, h0s, hlen0, hitem, ?_, ?_, by rw [h0t]; simp, ?_, fun p hp _ => hold p hp⟩
    · intro a ha c hc
      rw [hlink a (lt_of_lt_of_le ha hB)]
      exact hc
    · intro a ha _
      have hn : a ∉ cfp := by
        intro k
        have := (hcfpB a k).1
        omega
      rw [(m2 a).2.2.1 hn]
      exact (hstep.same a (lt_of_lt_of_le ha hB)).2.2.1
    · intro p hp
      rw [hold p hp]
      exact ⟨rfl, rfl⟩
  have hok0 : WorldOK w0 := by
    refine ⟨by rw [h0r, h0x]; exact htab2, by rw [h0r]; exact hchain, hcount, ?_, ?_, ?_⟩
    rotate_left 2
    · intro hsmall p hp
      have hs0 : w.cl.cfgs.length < 2 ^ 30 := lt_of_le_of_lt hlen0 hsmall
      rw [h0t] at hp
      simp only [List.length_append, List.length_singleton] at hp
      rw [h0r]
      by_cases hlt : p < w.store.states.length
      · have e : (stateAt w.store.states p).bpa.map (keyOf w.lemp.rule w0.cl.cfgs) =
            (stateAt w.store.states p).bpa.map (keyOf w.lemp.rule w.cl.cfgs) := by
          apply List.map_congr_left
          intro b hb
          exact keyOf_of_item (hitem b (lt_of_lt_of_le ((hown p hlt).2 b hb) hB))
        rw [hold p hlt, e]
        exact hok.nodup hs0 p hlt
      · have hp1 : p = w.store.states.length := by omega
        have e : bp.map (keyOf w.lemp.rule w0.cl.cfgs) =
            bp.map (keyOf w.lemp.rule w.cl.cfgs) := by
          apply List.map_congr_left
          intro b hb
          exact keyOf_of_item (hitem b (hcv b (hbm b hb)))
        rw [hp1, hst0, hst2, e]
        exact (((hbp hs0).map _).nodup_iff).2 hLI.nodup
    · intro i node hn
      have e := congrArg (fun l => l[i]?) hent
      simp only [x3entries, List.getElem?_map, hn, Option.map_some'] at e
      rw [h0r]
      by_cases hi : i < w.store.x3a.tbl.length
      · rw [List.getElem?_append_left (by simpa using hi), List.getElem?_map] at e
        cases hn0 : w.store.x3a.tbl[i]? with
        | none => simp [hn0] at e
        | some node0 =>
          simp only [hn0, Option.map_some', Option.some.injEq, Prod.mk.injEq] at e
          obtain ⟨n1, n2⟩ := hok.nodes i node0 hn0
          rw [e.1, e.2, h0t, stateAt_append_left _ _ n1]
          refine ⟨by simp; omega, n2.trans ?_⟩
          apply List.map_congr_left
          intro b hb
          exact (keyOf_of_item (hitem b (lt_of_lt_of_le ((hown _ n1).2 b hb) hB))).symm
      · have hlen : (List.map (fun n => (n.data, n.key)) w.store.x3a.tbl).length ≤ i := by
          simpa using hi
        rw [List.getElem?_append_right hlen] at e
        simp only [List.length_map] at e
        cases hk : i - w.store.x3a.tbl.length with
        | zero =>
          simp only [hk, List.getElem?_cons_zero, Option.some.injEq, Prod.mk.injEq] at e
          rw [e.1, e.2, hst0, hst2, hst4]
          refine ⟨by rw [h0t]; simp, ?_⟩
          apply List.map_congr_left
          intro b _
          exact (keyOf_of_item (m2 b).1).symm
        | succ k => simp [hk] at e
    · intro p hp
      rw [h0t] at hp
      simp only [List.length_append, List.length_singleton] at hp
      by_cases hlt : p < w.store.states.length
      · rw [hold p hlt]
        have := hown p hlt
        exact ⟨fun a ha => by have := this.1 a ha; omega,
          fun a ha => by have := this.2 a ha; omega⟩
      · have hp1 : p = w.store.states.length := by omega
        rw [hp1, hst0, hst1, hst2, m1]
        refine ⟨fun a ha => (hcfpB a ha).2, ?_⟩
        intro a ha
        exact lt_of_lt_of_le (hcv a (hbm a ha)) hstep.heap
  have hI0 : LoopInv w.store.states.length cfp [] [] w0 := by
    refine ⟨hok0, by rw [h0t]; simp, by rw [hst0, hst1], by rw [hst0, hst3]; simp,
      List.Pairwise.nil, ?_, by simp, by simp, ?_⟩
    · intro c hc
      rw [(m2 c).2.2.2 hc (hcfpB c hc).2]
      simp
    · intro p hp1 hp2
      rw [h0t] at hp2
      simp only [List.length_append, List.length_singleton] at hp2
      omega
  exact ⟨hFw, hok0, hI0, hcfpB⟩

theorem newstate_total {size cfuel fuel : Nat} {gs : Heap.world → Option (Nat × Heap.world)}
    (hgs : GsSpec size gs) (htot : GsTot size cfuel fuel gs) {B : Nat} {w w0 : Heap.world}
    {bp cfp : List Nat} {cl2 : configlist} {st : state}
    (hpre : GsPre size cfuel B w)
    (h0t : w0.store.states = w.store.states ++ [st])
    (hbm : ∀ x ∈ bp, x ∈ w.cl.current) (hbp : bp.Perm w.cl.current)
    (htab2 : TabOK w.lemp.rule cl2.x4a) (hstep : HeapStep w.cl cl2)
    (hcfp : ∀ a ∈ cfp, a ∈ cl2.current)
    (hdot2 : ∀ a ∈ cl2.current, 0 ≤ (cfgAt cl2.cfgs a).dot)
    (hst1 : st.cfp = cfp) (hst2 : st.bpa = bp) (hst3 : st.ap = [])
    (hst4 : st.bp.map (configKey w.lemp.rule) = bp.map (keyOf w.lemp.rule cl2.cfgs))
    (hchain : ChainOK w.lemp.rule w0.store.x3a.size w0.store.x3a.tbl w0.store.x3a.ht)
    (hcount : w0.store.x3a.tbl.length = w0.store.x3a.count)
    (hent : x3entries w0.store.x3a.tbl =
      x3entries w.store.x3a.tbl ++ [(w.store.states.length, st.bp)])
    (h0r : w0.lemp.rule = w.lemp.rule) (h0s : w0.lemp.symbols = w.lemp.symbols)
    (h0x : w0.cl.x4a = cl2.x4a)
    (h0c : w0.cl.cfgs = cfp.foldl (fun cfgs a => cfgs.set a
      { cfgAt cfgs a with status := cfgstatus.INCOMPLETE }) cl2.cfgs)
    (hnew : ∀ (i : Nat) (node : x3node), w.store.x3a.tbl[i]? = some node →
      node.key.map (configKey w.lemp.rule) ≠ st.bp.map (configKey w.lemp.rule))
    (hm : stateBound w.lemp.rule - w.store.states.length < fuel + 1) :
    ∃ w1, Heap.shiftLoop gs size w.store.states.length cfp w0 = some w1 ∧ WorldFit w1 ∧
      FollowOK size w1.lemp := by
  obtain ⟨hFw, hok0, hI0, hcfpB⟩ := newstate_init h0t hpre.ok hpre.inv hpre.ge hpre.heap
    hpre.own hbm (fun _ => hbp) htab2 hstep hcfp hst1 hst2 hst3 hst4 hchain hcount hent
    h0r h0s h0x h0c
  obtain ⟨m1, m2⟩ := markFold_spec cfp cl2.cfgs
  rw [← h0c] at m1 m2
  have hbi : ∀ b ∈ bp, item w0.cl.cfgs b = item w.cl.cfgs b := fun b hb =>
    hFw.item b (hpre.inv.valid b (hbm b hb))
  have hbd : ∀ b ∈ bp, 0 ≤ (cfgAt w0.cl.cfgs b).dot ∧
      (cfgAt w0.cl.cfgs b).dot ≤ (maxRhs w.lemp.rule : Int) := by
    intro b hb
    have := hbi b hb
    simp only [item, Prod.mk.injEq] at this
    rw [this.2]
    exact ⟨hpre.inv.dots b (hbm b hb), hpre.dots b (hbm b hb)⟩
  have hbn : (bp.map (keyOf w.lemp.rule w0.cl.cfgs)).Nodup := by
    have e : bp.map (keyOf w.lemp.rule w0.cl.cfgs) = bp.map (keyOf w.lemp.rule w.cl.cfgs) := by
      apply List.map_congr_left
      intro b hb
      exact keyOf_of_item (hbi b hb)
    rw [e]
    exact ((hbp.map _).nodup_iff).2 hpre.inv.nodup
  have hfit0 := worldFit_new hFw hpre.ok hpre.fit h0t hst2 hent hnew hbd hbn
  have hb := states_le_bound hok0 hfit0
  rw [h0t, h0r] at hb
  simp only [List.length_append, List.length_singleton] at hb
  refine shiftLoop_total hgs htot w.store.states.length cfp cfp [] [] w0 (by simp) hI0 hfit0
    (followOK_congr h0r h0s hpre.follow) (by rw [h0r]; exact hpre.small)
    (by rw [h0r]; exact hpre.enough) ?_ ?_
  · intro c hc
    have := (m2 c).1
    simp only [item, Prod.mk.injEq] at this
    rw [this.2]
    exact hdot2 c (hcfp c hc)
  · rw [h0t, h0r]
    simp only [List.length_append, List.length_singleton]
    omega

theorem newstate_at {size cfuel fuel : Nat} {gs : Heap.world → Option (Nat × Heap.world)}
    (hgs : GsSpec size gs) (htot : GsTot size cfuel fuel gs) (w0 : Heap.world)
    (cfp : List Nat) {B : Nat}
    {w : Heap.world} {bp : List Nat} {cl2 : configlist} {st : state}
    (hpre : GsPre size cfuel B w)
    (h0t : w0.store.states = w.store.states ++ [st])
    (hbm : ∀ x ∈ bp, x ∈ w.cl.current) (hbp : bp.Perm w.cl.current)
    (htab2 : TabOK w.lemp.rule cl2.x4a) (hstep : HeapStep w.cl cl2)
    (hcfp : ∀ a ∈ cfp, a ∈ cl2.current)
    (hdot2 : ∀ a ∈ cl2.current, 0 ≤ (cfgAt cl2.cfgs a).dot)
    (hst1 : st.cfp = cfp) (hst2 : st.bpa = bp) (hst3 : st.ap = [])
    (hst4 : st.bp.map (configKey w.lemp.rule) = bp.map (keyOf w.lemp.rule cl2.cfgs))
    (hchain : ChainOK w.lemp.rule w0.store.x3a.size w0.store.x3a.tbl w0.store.x3a.ht)
    (hcount : w0.store.x3a.tbl.length = w0.store.x3a.count)
    (hent : x3entries w0.store.x3a.tbl =
      x3entries w.store.x3a.tbl ++ [(w.store.states.length, st.bp)])
    (h0r : w0.lemp.rule = w.lemp.rule) (h0s : w0.lemp.symbols = w.lemp.symbols)
    (h0x : w0.cl.x4a = cl2.x4a)
    (h0c : w0.cl.cfgs = cfp.foldl (fun cfgs a => cfgs.set a
      { cfgAt cfgs a with status := cfgstatus.INCOMPLETE }) cl2.cfgs)
    (hnew : ∀ (i : Nat) (node : x3node), w.store.x3a.tbl[i]? = some node →
      node.key.map (configKey w.lemp.rule) ≠ st.bp.map (configKey w.lemp.rule))
    (hm : stateBound w.lemp.rule - w.store.states.length < fuel + 1) :
    ∃ w1, Heap.shiftLoop gs size w.store.states.length cfp w0 = some w1 ∧ WorldFit w1 ∧
      FollowOK size w1.lemp :=
  newstate_total hgs htot hpre h0t hbm hbp htab2 hstep hcfp hdot2 hst1 hst2 hst3 hst4 hchain
    hcount hent h0r h0s h0x h0c hnew hm

theorem getstate_total (size cfuel : Nat) :
    ∀ fuel, GsTot size cfuel fuel (Heap.getstate size cfuel fuel) := by
  intro fuel
  induction fuel with
  | zero =>
    intro B w _ hm
    omega
  | succ fuel ih =>
    intro B w hpre hm
    have hok := hpre.ok
    have hLI := hpre.inv
    have hcur := current_le_keyCount hpre.inv hpre.dots
    have hsm := hpre.small
    simp only [Heap.getstate]
    rw [sortbasis_eq _ _ hpre.basis]
    simp only
    generalize hbpdef : msort (fun a b => Configcmp w.lemp.rule (cfgAt w.cl.cfgs a)
      (cfgAt w.cl.cfgs b)) w.cl.basis = bp
    have hbp : bp.Perm w.cl.current := by
      rw [← hpre.basis, ← hbpdef]
      apply msort_perm
      rw [hpre.basis]
      omega
    have hbm : ∀ x ∈ bp, x ∈ w.cl.current := fun x hx => (hbp.mem_iff).1 hx
    obtain ⟨r, hr, hr1, hr2⟩ := State_find_spec hok.chain hok.count
      (bp.map (cfgAt w.cl.cfgs))
    rw [hr]
    cases r with
    | some d =>
      obtain ⟨i, node, n1, n2, n3⟩ := hr1 d rfl
      obtain ⟨k1, k2⟩ := hok.nodes i node n1
      rw [n2] at k1 k2
      have hst : w.store.states[d]? = some (stateAt w.store.states d) := by
        simp [stateAt, List.getD, List.getElem?_eq_getElem k1]
      simp only [hst]
      have hlen : bp.length ≤ (stateAt w.store.states d).bpa.length := by
        have := congrArg List.length (k2.symm.trans n3)
        simp only [List.length_map] at this
        omega
      have hclear := copyLinks_clear bp (stateAt w.store.states d).bpa w.cl.cfgs hlen
        (fun x hx k => by
          have h1 := hpre.ge x (hbm x hx)
          have h2 := (hpre.own d k1).2 x k
          omega)
        (fun x hx => hLI.valid x (hbm x hx))
      have heat : Heap.Configlist_eat
          (Heap.copyLinks bp (stateAt w.store.states d).bpa w.cl.cfgs) w.cl.current =
          some () := by
        unfold Heap.Configlist_eat
        rw [if_pos]
        rw [List.all_eq_true]
        intro a ha
        have := hclear a ((hbp.mem_iff).2 ha)
        simp [this.1, this.2]
      simp only [heat]
      refine ⟨_, _, rfl, ?_, hpre.follow⟩
      have he : Heap.getstate size cfuel (fuel + 1) w = some (d, { w with
          cl := { w.cl with
            basis := []
            basisend := false
            cfgs := Heap.copyLinks bp (stateAt w.store.states d).bpa w.cl.cfgs
            current := []
            currentend := false } }) := by
        simp only [Heap.getstate]
        rw [sortbasis_eq _ _ hpre.basis]
        simp only [hbpdef, hr, hst, heat]
      have hpost := getstate_spec size cfuel (fuel + 1) B w _ _ hok hLI hpre.basis hpre.ge
        hpre.heap hpre.own he
      exact worldFit_frame hpost.frame hpre.fit hok.own rfl rfl
    | none =>
      have hnew := hr2 rfl
      simp only
      have hLI1 : ListInv w.lemp.rule size { w.cl with
          basis := []
          basisend := false } :=
        ⟨hLI.chain, hLI.count, hLI.entries, hLI.nodup, hLI.valid, hLI.isOpen, hLI.fws,
          hLI.dots⟩
      obtain ⟨cl2, e2, hcl, c1, c2, -, -, -, -, -⟩ := Configlist_closure_least w.lemp size
        cfuel { w.cl with
          basis := []
          basisend := false } w.lemp.errorcnt hLI1 hpre.follow (by
          have := hpre.enough
          show w.cl.current.length + _ + 1 < cfuel
          omega)
      simp only [hcl]
      obtain ⟨t1, t2⟩ := Configlist_closure_step w.lemp size cfuel
        { w.cl with
          basis := []
          basisend := false } w.lemp.errorcnt cl2 e2 hok.tab hcl
      have hstep : HeapStep w.cl cl2 := ⟨t2.heap, t2.same, t2.cur⟩
      have hkeys : (bp.map (cfgAt cl2.cfgs)).map (configKey w.lemp.rule) =
          (bp.map (cfgAt w.cl.cfgs)).map (configKey w.lemp.rule) := by
        simp only [List.map_map]
        apply List.map_congr_left
        intro b hb
        have := hstep.same b (hLI.valid b (hbm b hb))
        simp [configKey, this.1, this.2.1]
      obtain ⟨x1, i1, i2, i3, i4, i5⟩ := State_insert_new hok.chain hok.count
        w.store.states.length (bp.map (cfgAt cl2.cfgs))
        (fun i node hn => by rw [hkeys]; exact hnew i node hn)
      simp only [i1]
      have hdot2 : ∀ a ∈ cl2.current, 0 ≤ (cfgAt cl2.cfgs a).dot := by
        obtain ⟨new, n1, n2⟩ := c1
        intro a ha
        rw [n1] at ha
        rcases List.mem_append.1 ha with k | k
        · have := c2 a k
          simp only [item, Prod.mk.injEq] at this
          rw [this.2]
          exact hLI.dots a k
        · rw [n2 a k]
      unfold Heap.buildshifts
      simp only [List.getElem?_concat_length]
      obtain ⟨w1, hw1, hf1, hfo1⟩ := newstate_at (getstate_spec size cfuel fuel) ih
        ⟨{ w.lemp with errorcnt := e2 }, { (Heap.Configlist_sort w.lemp.rule cl2).2 with cfgs := (Heap.Configlist_sort w.lemp.rule cl2).1.foldl (fun cfgs a => cfgs.set a { cfgAt cfgs a with status := cfgstatus.INCOMPLETE }) (Heap.Configlist_sort w.lemp.rule cl2).2.cfgs }, ⟨x1, w.store.states ++ [{ bp := bp.map (cfgAt cl2.cfgs), statenum := w.store.nstate, cfp := (Heap.Configlist_sort w.lemp.rule cl2).1, bpa := bp, ap := [] }], w.store.nstate + 1⟩, w.nextap⟩
        (Heap.Configlist_sort w.lemp.rule cl2).1 hpre rfl hbm hbp t1 hstep (fun a ha => msort_mem _ _ a ha) hdot2 rfl rfl rfl
        (by simp [keyOf, List.map_map, Function.comp_def]) i2 i3 i5 rfl rfl rfl rfl
        (fun i node hn => by
          show _ ≠ (bp.map (cfgAt cl2.cfgs)).map (configKey w.lemp.rule)
          rw [hkeys]
          exact hnew i node hn) hm
      dsimp only at hw1 ⊢
      rw [hw1]
      exact ⟨_, _, rfl, hf1, hfo1⟩

theorem sameShape_set (rules : List rule) (rp : Nat) (v : Int) :
    SameShape (rules.set rp { ruleAt rules rp with lhsStart := v }) rules := by
  unfold SameShape
  rw [List.map_set]
  by_cases hp : rp < rules.length
  · have e : ruleAt rules rp = rules[rp] := by
      simp [ruleAt, List.getD, List.getElem?_eq_getElem hp]
    rw [e]
    apply List.ext_getElem
    · simp
    · intro i h1 h2
      by_cases hi : rp = i
      · subst hi
        simp
      · simp [List.getElem_set_ne hi]
  · rw [List.set_eq_of_length_le (by simp; omega)]

theorem sameShape_maxRhs {r1 r2 : List rule} (h : SameShape r1 r2) : maxRhs r1 = maxRhs r2 := by
  unfold maxRhs
  have := congrArg (List.map (fun p : Int × List Nat => p.2.length)) h
  simp only [List.map_map, Function.comp_def] at this
  rw [this]

theorem sameShape_length {r1 r2 : List rule} (h : SameShape r1 r2) : r1.length = r2.length := by
  have := congrArg List.length h
  simpa using this

theorem sameShape_keyCount {r1 r2 : List rule} (h : SameShape r1 r2) :
    keyCount r1 = keyCount r2 := by
  unfold keyCount
  rw [sameShape_maxRhs h, sameShape_length h]

theorem sameShape_stateBound {r1 r2 : List rule} (h : SameShape r1 r2) :
    stateBound r1 = stateBound r2 := by
  unfold stateBound keyList
  have := congrArg (List.map (fun p : Int × List Nat => p.1)) h
  simp only [List.map_map, Function.comp_def] at this
  rw [sameShape_maxRhs h, this]

theorem sameShape_follow {size : Nat} {l1 l2 : lemon} (hr : SameShape l2.rule l1.rule)
    (hs : l2.symbols = l1.symbols) (h : FollowOK size l1) : FollowOK size l2 := by
  intro rp hrp x hx
  have hm : rp.rhs ∈ l2.rule.map (fun r => r.rhs) := List.mem_map.2 ⟨rp, hrp, rfl⟩
  have e := congrArg (List.map (fun p : Int × List Nat => p.2)) hr
  simp only [List.map_map, Function.comp_def] at e
  rw [e] at hm
  obtain ⟨rp1, h1, h2⟩ := List.mem_map.1 hm
  rw [hs]
  exact h rp1 h1 x (by rw [h2]; exact hx)

theorem startBasis_total (size : Nat) (hs : 0 < size) :
    ∀ (l : List Nat) (lemp : lemon) (g : configlist),
      ListInv lemp.rule size g → g.basis = g.current → g.basisend = true →
      (∀ a ∈ g.current, (cfgAt g.cfgs a).dot ≤ 0) →
      ∃ lemp3 g3, Heap.startBasis size l (lemp, g) = some (lemp3, g3) ∧
        (∀ a ∈ g3.current, (cfgAt g3.cfgs a).dot ≤ 0) ∧ SameShape lemp3.rule lemp.rule := by
  intro l
  induction l with
  | nil =>
    intro lemp g _ _ _ hd
    exact ⟨lemp, g, rfl, hd, rfl⟩
  | cons rp rest ih =>
    intro lemp g h1 h2 h3 hd
    simp only [Heap.startBasis]
    have hset := ruleAt_set_lhsStart lemp.rule rp 1
    have hI1 : ListInv (lemp.rule.set rp { ruleAt lemp.rule rp with lhsStart := 1 }) size g :=
      ListInv_rules (fun q => ((hset q).1).symm) h1
    obtain ⟨newcfp, g1, hadd, -, -⟩ := Configlist_addbasis_inv _ size g rp 0 hI1 h3 (le_refl 0)
    simp only [hadd]
    obtain ⟨i1, i2, i3, i4, i5⟩ := Configlist_addbasis_spec _ size g rp 0 hI1 (le_refl 0) _ _ hadd
    obtain ⟨r, hsa, hlen⟩ := SetAdd_total (i1.fws newcfp i2) (le_refl 0) (by exact_mod_cast hs)
    simp only [hsa]
    have hb1 : g1.basis = g1.current := by
      rcases i5 with rfl | ⟨k1, k2, -, -⟩
      · exact h2
      · rw [k1, k2, h2]
    have hF := cfgAt_setFws g1.cfgs newcfp r.2 (i1.valid newcfp i2)
    have hI2 : ListInv (lemp.rule.set rp { ruleAt lemp.rule rp with lhsStart := 1 }) size
        { g1 with cfgs := g1.cfgs.set newcfp { cfgAt g1.cfgs newcfp with fws := r.2 } } := by
      apply i1.heap _ (by simp)
      intro a ha
      refine ⟨(hF a).2.2, ?_⟩
      rw [(hF a).2.1]
      split_ifs
      · exact hlen
      · exact i1.fws a ha
    have hd1 : ∀ a ∈ g1.current, (cfgAt g1.cfgs a).dot ≤ 0 := by
      intro a ha
      rcases i5 with rfl | ⟨k1, -, k3, k4⟩
      · exact hd a ha
      · rw [k1] at ha
        rw [k4]
        rcases List.mem_append.1 ha with k | k
        · rw [cfgAt_append_left _ _ (h1.valid a k)]
          exact hd a k
        · rw [List.mem_singleton] at k
          rw [k, cfgAt_append_self]
          simp [freshConfig]
    obtain ⟨lemp3, g3, j1, j2, j3⟩ := ih { lemp with
        rule := lemp.rule.set rp { ruleAt lemp.rule rp with lhsStart := 1 } } _
      hI2 hb1 (i4.trans h3) (by
        intro a ha
        have := (hF a).2.2
        simp only [item, Prod.mk.injEq] at this
        show (cfgAt (g1.cfgs.set newcfp _) a).dot ≤ 0
        rw [this.2]
        exact hd1 a ha)
    refine ⟨lemp3, g3, j1, j2, ?_⟩
    exact j3.trans (sameShape_set lemp.rule rp 1)

theorem worldOK_first (size : Nat) (w0 : Heap.world) (h1 : ListInv w0.lemp.rule size w0.cl)
    (h3 : w0.store = storeInit) : WorldOK w0 ∧ WorldFit w0 ∧ Owned 0 w0.store.states := by
  refine ⟨⟨⟨h1.chain, h1.count⟩, ?_, ?_, ?_, ?_, ?_⟩, ⟨?_, ?_, ?_, ?_, ?_⟩, ?_⟩
  · rw [h3]
    exact chain_empty _ 128 (by omega)
  · rw [h3]
    rfl
  · intro i node hn
    rw [h3] at hn
    simp [storeInit, State_init] at hn
  · intro p hp
    rw [h3] at hp
    simp [storeInit] at hp
  · intro _ p hp
    rw [h3] at hp
    simp [storeInit] at hp
  · rw [h3]
    rfl
  · intro i node hn
    rw [h3] at hn
    simp [storeInit, State_init] at hn
  · intro i j ni nj hn
    rw [h3] at hn
    simp [storeInit, State_init] at hn
  · intro p hp
    rw [h3] at hp
    simp [storeInit] at hp
  · intro p hp
    rw [h3] at hp
    simp [storeInit] at hp
  · intro p hp
    rw [h3] at hp
    simp [storeInit] at hp

theorem FindStates_tail (size cfuel fuel : Nat) (lemp lemp2 : lemon) (l : List Nat)
    (hsz : 0 < size) (hr : lemp2.rule = lemp.rule) (hs : lemp2.symbols = lemp.symbols)
    (hfo : FollowOK size lemp) (hsmall : keyCount lemp.rule < 2 ^ 30)
    (hen : keyCount lemp.rule + lemp.rule.length + 1 < cfuel)
    (hfuel : stateBound lemp.rule < fuel) :
    ∃ w, (match Heap.startBasis size l (lemp2, Configlist_init []) with
      | none => none
      | some (lemp3, g) =>
        match Heap.getstate size cfuel fuel
            { lemp := { lemp3 with nstate := 0 }, cl := g, store := storeInit, nextap := 0 } with
        | none => none
        | some (_, w) => some { w with lemp := { w.lemp with nstate := w.store.nstate } }) =
      some w ∧ ∀ p, p < w.store.states.length →
        ((stateAt w.store.states p).bpa.map (keyOf w.lemp.rule w.cl.cfgs)).Nodup := by
  obtain ⟨lemp3, g3, hsb, hd, hsh⟩ := startBasis_total size hsz l lemp2 (Configlist_init [])
    (ListInv_init _ size []) rfl rfl (by simp [Configlist_init])
  obtain ⟨s1, s2, s3, -⟩ := startBasis_spec size _ _ _ lemp3 g3
    (ListInv_init _ size []) rfl rfl hsb
  rw [hr] at hsh
  obtain ⟨a1, a2, a3⟩ := worldOK_first size
    { lemp := { lemp3 with nstate := 0 }, cl := g3, store := storeInit, nextap := 0 } s1 rfl
  have hpre : GsPre size cfuel 0
      { lemp := { lemp3 with nstate := 0 }, cl := g3, store := storeInit, nextap := 0 } := by
    refine ⟨a1, a2, s1, s2, fun _ _ => Nat.zero_le _, Nat.zero_le _, a3, ?_, ?_, ?_, ?_⟩
    · intro a ha
      have := hd a ha
      show (cfgAt g3.cfgs a).dot ≤ _
      have h0 : (0 : Int) ≤ (maxRhs lemp3.rule : Int) := Int.ofNat_nonneg _
      exact le_trans this h0
    · exact @sameShape_follow size lemp _ hsh (s3.trans hs) hfo
    · show keyCount lemp3.rule < 2 ^ 30
      rw [sameShape_keyCount hsh]
      exact hsmall
    · show keyCount lemp3.rule + lemp3.rule.length + 1 < cfuel
      rw [sameShape_keyCount hsh, sameShape_length hsh]
      exact hen
  obtain ⟨stp, w1, hg, hfit, -⟩ := getstate_total size cfuel fuel 0 _ hpre (by
    show stateBound lemp3.rule - 0 < fuel
    rw [sameShape_stateBound hsh]
    omega)
  simp only [hsb, hg]
  exact ⟨_, rfl, hfit.nodup⟩

/-- `FindStates` returns whenever the grammar has a start symbol, the first sets fit the
follow sets, there are fewer than `2^30` pairs `(rule index, dot)`, the fuel of the
closure exceeds their number plus the number of rules plus one, and the fuel of the
recursion exceeds the bound `stateBound` of the number of states. -/
theorem FindStates_total (size cfuel fuel : Nat) (lemp : lemon) (hsz : 0 < size)
    (hst : (startSymbol lemp).isSome = true) (hfo : FollowOK size lemp)
    (hsmall : keyCount lemp.rule < 2 ^ 30)
    (hen : keyCount lemp.rule + lemp.rule.length + 1 < cfuel)
    (hfuel : stateBound lemp.rule < fuel) :
    ∃ w, Heap.FindStates size cfuel fuel lemp = some w ∧ ∀ p, p < w.store.states.length →
      ((stateAt w.store.states p).bpa.map (keyOf w.lemp.rule w.cl.cfgs)).Nodup := by
  obtain ⟨sp, hs⟩ := Option.isSome_iff_exists.1 hst
  unfold Heap.FindStates
  simp only [hs]
  exact FindStates_tail size cfuel fuel lemp _ _ hsz (by split_ifs <;> rfl)
    (by split_ifs <;> rfl) hfo hsmall hen hfuel

/-- C32: `FindStates` returns for every grammar with a start symbol whose first sets fit
the follow sets (as after `FindFirstSets`) and that has fewer than `2^30` pairs
`(rule index, dot)`, as soon as the closure has fuel for these pairs and the rules and
the recursion of `getstate` and `buildshifts` has fuel for `stateBound` states; and in
every world `w` that `FindStates` returns, with whatever fuel, `buildshifts` has made for
every state `p` a list `cls` of pairs `(X, T)` of a symbol and a successor state such that
(`ShiftsOK`): the actions of `p` are, in the order of their creation, for each pair the
`SHIFT` on `X` to `T`, or, when `X` is a multiterminal, one `SHIFT` per sub-symbol, all to
`T` (`shiftPairs`); no two symbols of the list are `same_symbol`, and every configuration
of `p` whose dot is not at the end has a symbol after the dot that is `same_symbol` to one
of the list, so there is exactly one pair for every symbol after a dot; and for every pair
`(X, T)` (`ShiftClass`): `X` follows the dot of a configuration of `p`; every
configuration of the basis of `T` has the rule index and the dot plus one of a
configuration of `p` whose symbol after the dot is `same_symbol` to `X`; and, when the
heap holds fewer than `2^30` configurations (below the size where `msort` loses
elements), every such configuration of `p` has its shifted configuration in the basis of
`T`, with a backward propagation link to it.  No basis holds a rule index and dot
twice. -/
theorem buildshifts_successor_basis (size cfuel : Nat) (lemp : lemon) :
    (0 < size → (startSymbol lemp).isSome = true → FollowOK size lemp →
      keyCount lemp.rule < 2 ^ 30 → keyCount lemp.rule + lemp.rule.length + 1 < cfuel →
      ∀ fuel, stateBound lemp.rule < fuel →
        ∃ w, Heap.FindStates size cfuel fuel lemp = some w ∧
          ∀ p, p < w.store.states.length →
            ShiftsOK w.lemp.rule w.lemp.symbols w.cl.cfgs w.store.states p ∧
            ((stateAt w.store.states p).bpa.map (keyOf w.lemp.rule w.cl.cfgs)).Nodup) ∧
    ∀ (fuel : Nat) (w : Heap.world),
      Heap.FindStates size cfuel fuel lemp = some w → ∀ p, p < w.store.states.length →
        ShiftsOK w.lemp.rule w.lemp.symbols w.cl.cfgs w.store.states p ∧
        (w.cl.cfgs.length < 2 ^ 30 →
          ((stateAt w.store.states p).bpa.map (keyOf w.lemp.rule w.cl.cfgs)).Nodup) := by
  constructor
  · intro hsz hst hfo hsmall hen fuel hfuel
    obtain ⟨w, hw, hn⟩ := FindStates_total size cfuel fuel lemp hsz hst hfo hsmall hen hfuel
    obtain ⟨h1, -, -, -⟩ := FindStates_shifts size cfuel fuel lemp w hw
    exact ⟨w, hw, fun p hp => ⟨h1 p hp, hn p hp⟩⟩
  · intro fuel w hw p hp
    obtain ⟨h1, h2, -, -⟩ := FindStates_shifts size cfuel fuel lemp w hw
    exact ⟨h1 p hp, fun hs => h2 hs p hp⟩

set_option maxRecDepth 1000000 in
/-- C32, witness: the grammar `%token_class number INTEGER|FLOAT.  s ::= expr.
expr ::= number.  expr ::= INTEGER.`, whose first state gets the `SHIFT` on `expr`, the
two `SHIFT`s on `INTEGER` and `FLOAT` to the one successor of `number`, and the `SHIFT`
on `INTEGER` to the successor of `INTEGER`; a fuel of 30 is enough for its four states. -/
theorem buildshifts_successor_basis_witness :
    0 < 5 ∧ (startSymbol mtFirst).isSome = true ∧ FollowOK 5 mtFirst ∧
    keyCount mtFirst.rule < 2 ^ 30 ∧ keyCount mtFirst.rule + mtFirst.rule.length + 1 < 30 ∧
    Heap.FindStates 5 30 30 mtFirst = some mtWorld ∧
    mtWorld.store.states.length = 4 ∧
    shiftPairs mtWorld.lemp.symbols 6 2 = [(e_action.SHIFT, 1, 2), (e_action.SHIFT, 2, 2)] ∧
    (∀ fuel, stateBound mtFirst.rule < fuel →
      ∃ w, Heap.FindStates 5 30 fuel mtFirst = some w ∧
        ∀ p, p < w.store.states.length →
          ShiftsOK w.lemp.rule w.lemp.symbols w.cl.cfgs w.store.states p ∧
          ((stateAt w.store.states p).bpa.map (keyOf w.lemp.rule w.cl.cfgs)).Nodup) ∧
    ∀ p, p < mtWorld.store.states.length →
      ShiftsOK mtWorld.lemp.rule mtWorld.lemp.symbols mtWorld.cl.cfgs mtWorld.store.states p ∧
      (mtWorld.cl.cfgs.length < 2 ^ 30 →
        ((stateAt mtWorld.store.states p).bpa.map
          (keyOf mtWorld.lemp.rule mtWorld.cl.cfgs)).Nodup) :=
  ⟨by decide, by decide, by decide, by decide, by decide, by decide, by decide, by decide,
    (buildshifts_successor_basis 5 30 mtFirst).1 (by decide) (by decide) (by decide) (by decide) (by decide),
    (buildshifts_successor_basis 5 30 mtFirst).2 30 mtWorld (by decide)⟩

end Lemon
